import Mathlib

/-!
The file becopyilp.c: copy minimisation by an ILP (libfirm, ir/be/becopyilp.c)

A shallow embedding of the interference graph reducer (`pi_is_simplicial`,
`pi_find_simplicials`), of the restoration of the removed nodes
(`pi_set_simplicials`), of the constraint families A, B, E, S and M, of the
warm start and of `pi_apply_solution`, and of the analysis of the register
pressure in loops (ir/be/beloopana.c), followed by the theorems about them.

Nodes are identified by their graph number (`nnr`, `get_irn_graph_nr`). The
file keeps two objects per value: the `ir_node` and the `if_node_t` of the
interference graph; `get_irn_for_graph_nr (get_irg co) ifn->nnr` goes from the
second to the first.
-/

set_option autoImplicit false

namespace Becopyilp

/-! ## Pointers and pointer sets -/

/-- A pointer as it is stored in a `pset`: the address of the `ir_node` with a
given graph number, or the address of the `if_node_t` with that number. The two
are different objects, so the two pointers are never equal. -/
inductive ptr_t where
  | ir_node (nnr : Nat)
  | if_node (nnr : Nat)
deriving DecidableEq, Repr

/-- Modelled from the spec: `pset` of adt/pset.h (not under src/), the
"set/pset-based removed and living membership tracking": a set of pointers
compared by address. -/
abbrev pset := List ptr_t

/-- Modelled from the spec: `pset_find_ptr` (adt/pset.h), membership of a
pointer in the set. -/
def pset_find_ptr {α : Type} [DecidableEq α] (s : List α) (p : α) : Bool := decide (p ∈ s)

/-- Modelled from the spec: `pset_insert_ptr` (adt/pset.h), insertion of a
pointer that leaves a set already holding it unchanged. -/
def pset_insert_ptr {α : Type} [DecidableEq α] (s : List α) (p : α) : List α :=
  if p ∈ s then s else p :: s

/-- Modelled from the spec: `pset_remove_ptr` (adt/pset.h), removal of a
pointer from the set. -/
def pset_remove_ptr {α : Type} [DecidableEq α] (s : List α) (p : α) : List α :=
  s.filter (fun q => decide (q ≠ p))

/-- Modelled from the spec: `pset_count` (adt/pset.h), the number of members. -/
def pset_count {α : Type} (s : List α) : Nat := s.length

/-! ## The environment of one run -/

/-- One entry of a border list (`border_t` of bechordal_t.h): the value, whether
the border is a definition or a use, and whether it is a real one. -/
structure border_t where
  irn : Nat
  is_def : Bool
  is_real : Bool
deriving DecidableEq, Repr

/-- The parts of `be_chordal_env_t` the file reads. All of it is built outside
this file, so it is taken as given:
* `n_regs`: `cls->n_regs`, the size of the register class;
* `if_nodes`: the nodes of `be_ra_get_ifg_nodes`, by number, in the order of
  `set_first`/`set_next`;
* `neighb n`: the neighbours of `n` in the order of `foreach_neighb`;
* `has_edge`: `ifg_has_edge`;
* `border_heads`: the blocks with their border lists, in the order of
  `pmap_foreach`; each list is in list order (the sweeps walk it in reverse). -/
structure be_chordal_env_t where
  n_regs : Nat
  if_nodes : List Nat
  neighb : Nat → List Nat
  has_edge : Nat → Nat → Bool
  border_heads : List (Nat × List border_t) := []

/-- Modelled from the spec: an optimization unit (`unit_t` of becopyopt.h, not
under src/), "a rooted group {root, arg_1..arg_k}", "each arg_i carrying an
integer cost_i". `root` is `nodes[0]`; the entry `i - 1` of `args` holds
`nodes[i]` and `costs[i]`, for `1 ≤ i < node_count`. -/
structure unit_t where
  root : Nat
  args : List (Nat × Int)
  min_nodes_costs : Int
deriving DecidableEq, Repr

/-- The parts of `copy_opt_t` (and of the architecture, liveness and schedule
interfaces reached through it) the file reads:
* `is_optimizable`, `is_optimizable_arg`: the predicates of becopyopt.h;
* `allocatable n c`: `arch_reg_is_allocatable` of node `n` at `arch_pos_make_out(0)`
  for the register with index `c` (the macro `is_color_possible`);
  `arch_get_allocatable_regs` collects the same colors in a bitset;
* `is_live_in b n`: `is_live_in (b, n)`;
* `units`: the list `co->units`, first entry first;
* `nodes_interfere`: `nodes_interfere (chordal_env, a, b)`;
* `phi_blocks`: the blocks in the order in which `dom_tree_walk_irg` comes to
  them, each given by the Phi nodes at the start of its schedule
  (`sched_first`, `sched_next` while `is_Phi`), a Phi by its number and its
  operands (`get_irn_n`). -/
structure copy_opt_t where
  chordal_env : be_chordal_env_t
  is_optimizable : Nat → Bool
  is_optimizable_arg : Nat → Bool
  allocatable : Nat → Nat → Bool := fun _ _ => true
  is_live_in : Nat → Nat → Bool := fun _ _ => false
  units : List unit_t := []
  nodes_interfere : Nat → Nat → Bool := fun _ _ => false
  phi_blocks : List (List (Nat × List Nat)) := []

/-! ## The linear program -/

/-- The kinds of constraint of lpp.h. -/
inductive lpp_cst_t where
  | lpp_equal
  | lpp_less
  | lpp_greater
deriving DecidableEq, Repr

/-- The kinds of variable of lpp.h. -/
inductive lpp_var_t where
  | lpp_continous
  | lpp_binary
deriving DecidableEq, Repr

/-- A row of the problem: its name, its kind and its right-hand side. -/
structure lpp_cst where
  name : List Char
  cst_type : lpp_cst_t
  rhs : Int
deriving DecidableEq, Repr

/-- A column of the problem: its name, its kind and its factor in the
objective function. -/
structure lpp_var where
  name : List Char
  var_type : lpp_var_t
  obj : Int
deriving DecidableEq, Repr

/-- Modelled from the spec: the problem object `lpp_t` of the external lpp
library ("a set of variables and constraints", "variables are created lazily
on first reference"). Rows and columns are numbered from 1 in the order of
their creation (`csts[k]` is row `k+1`, `vars[k]` is column `k+1`); `matrix`
holds the factor writes `(row, column, value)`, the latest first. -/
structure lpp_t where
  csts : List lpp_cst := []
  vars : List lpp_var := []
  matrix : List (Int × Int × Int) := []
deriving DecidableEq, Repr

/-- The record `problem_instance_t`. `simplicials` is the list headed by
`pi->simplicials`, each `simpl_t` given by the number of its `ifn`, first entry
first; `dilp` and `curr_lp` point to the same problem, kept in `curr_lp`. -/
structure problem_instance_t where
  simplicials : List Nat := []
  removed : pset := []
  curr_lp : lpp_t := {}
  cst_counter : Int := 0
  last_x_var : Int := -1
  all_simplicial : Int := 0
deriving DecidableEq, Repr

/-- The macro `is_removed`: `pset_find_ptr (pi->removed, irn)`. -/
def is_removed (pi : problem_instance_t) (p : ptr_t) : Bool := pset_find_ptr pi.removed p

/-! ## The interference graph reducer -/

/-- The clique test of `pi_is_simplicial` on the collected array `all`: the two
nested loops `for i`, `for o = i+1` return 0 at the first pair without an edge. -/
def all_form_clique (env : be_chordal_env_t) : List Nat → Bool
  | [] => true
  | a :: rest => rest.all (fun o => env.has_edge a o) && all_form_clique env rest

/-- The function `pi_is_simplicial`. The loop variable `curr` of `foreach_neighb`
is an `if_node_t *`, and it is this pointer that is handed to `is_removed`. -/
def pi_is_simplicial (co : copy_opt_t) (pi : problem_instance_t) (ifn : Nat) : Int :=
  let all := (co.chordal_env.neighb ifn).filter (fun curr => !is_removed pi (ptr_t.if_node curr))
  if all_form_clique co.chordal_env all then 1 else 0

/-- The condition under which the body of the `for` loop of `pi_find_simplicials`
removes the node `ifn`; `irn` is `get_irn_for_graph_nr (get_irg co) ifn->nnr`. -/
def find_cond (co : copy_opt_t) (pi : problem_instance_t) (ifn : Nat) : Bool :=
  !is_removed pi (ptr_t.ir_node ifn) && !co.is_optimizable ifn &&
    !co.is_optimizable_arg ifn && pi_is_simplicial co pi ifn != 0

/-- The removal itself: `list_add` puts the new `simpl_t` at the head of
`pi->simplicials`, `pset_insert_ptr` records the `ir_node`. -/
def find_remove (pi : problem_instance_t) (ifn : Nat) : problem_instance_t :=
  { pi with simplicials := ifn :: pi.simplicials,
            removed := pset_insert_ptr pi.removed (ptr_t.ir_node ifn) }

/-- One run of the `for` loop of `pi_find_simplicials` over the nodes still to
visit; the second component is the flag `redo`. -/
def find_pass (co : copy_opt_t) : List Nat → problem_instance_t → Bool → problem_instance_t × Bool
  | [], pi, redo => (pi, redo)
  | ifn :: rest, pi, redo =>
    if find_cond co pi ifn then find_pass co rest (find_remove pi ifn) true
    else find_pass co rest pi redo

/-- The loop `while (redo)` of `pi_find_simplicials`, run for at most `fuel`
passes; `none` when the passes are used up before `redo` stays 0. -/
def find_while (co : copy_opt_t) : Nat → problem_instance_t → Option problem_instance_t
  | 0, _ => none
  | fuel + 1, pi =>
    match find_pass co co.chordal_env.if_nodes pi false with
    | (pi', true) => find_while co fuel pi'
    | (pi', false) => some pi'

/-- The function `pi_find_simplicials`, with as many passes allowed as there
are nodes, plus one. -/
def pi_find_simplicials (co : copy_opt_t) (pi : problem_instance_t) : Option problem_instance_t :=
  (find_while co (co.chordal_env.if_nodes.length + 1) pi).map fun pi' =>
    if co.chordal_env.if_nodes.length = pset_count pi'.removed then
      { pi' with all_simplicial := 1 }
    else pi'

/-- The removals made by one run of the `for` loop, in the order in which they
are made: each entry is the record as it is when the condition of the `if` is
evaluated, and the node that is then removed. -/
def find_pass_events (co : copy_opt_t) : List Nat → problem_instance_t → List (problem_instance_t × Nat)
  | [], _ => []
  | ifn :: rest, pi =>
    if find_cond co pi ifn then (pi, ifn) :: find_pass_events co rest (find_remove pi ifn)
    else find_pass_events co rest pi

/-- The removals made by the loop `while (redo)`, in the order in which they
are made. -/
def find_while_events (co : copy_opt_t) : Nat → problem_instance_t → List (problem_instance_t × Nat)
  | 0, _ => []
  | fuel + 1, pi =>
    find_pass_events co co.chordal_env.if_nodes pi ++
    match find_pass co co.chordal_env.if_nodes pi false with
    | (pi', true) => find_while_events co fuel pi'
    | (_, false) => []

/-- The removals made by `pi_find_simplicials`, in the order in which they are
made. -/
def removal_events (co : copy_opt_t) (pi : problem_instance_t) : List (problem_instance_t × Nat) :=
  find_while_events co (co.chordal_env.if_nodes.length + 1) pi

/-- The nodes removed by `pi_find_simplicials`, in the order of their removal. -/
def removal_order (co : copy_opt_t) (pi : problem_instance_t) : List Nat :=
  (removal_events co pi).map Prod.snd

/-- The record made by `new_pi` before it calls `pi_find_simplicials`: an empty
removed set, an empty list of simplicials, a fresh problem, `last_x_var = -1`. -/
def new_pi_init : problem_instance_t := {}

/-! ## Bitsets -/

/-- Modelled from the spec: `bitset_t` of adt/bitset.h (not under src/), a set
of bit positions below a fixed size, here the list of its bits. -/
abbrev bitset_t := List Bool

/-- Modelled from the spec: `bitset_alloca` followed by `bitset_clear_all`, the
bitset of the given size with no bit set. -/
def bitset_alloca (size : Nat) : bitset_t := List.replicate size false

/-- Modelled from the spec: `bitset_clear_all`, clears every bit. -/
def bitset_clear_all (bs : bitset_t) : bitset_t := List.replicate bs.length false

/-- Modelled from the spec: `bitset_set`, sets one bit. A position outside the
bitset is outside the contract of the bitset; the model gives no result then. -/
def bitset_set (bs : bitset_t) (bit : Int) : Option bitset_t :=
  if 0 ≤ bit ∧ bit < bs.length then some (bs.set bit.toNat true) else none

/-- Modelled from the spec: `bitset_is_set`, reads one bit. -/
def bitset_is_set (bs : bitset_t) (bit : Nat) : Bool := bs.getD bit false

/-- Scan of the bits from position `pos` on for the first clear one. -/
def bitset_next_clear_scan : List Bool → Int → Int
  | [], _ => -1
  | b :: bs, pos => if b then bitset_next_clear_scan bs (pos + 1) else pos

/-- Modelled from the spec: `bitset_next_clear (bs, start)`, "the lowest free
(unused)" position at or after `start`, or -1 when every bit from there on is
set. -/
def bitset_next_clear (bs : bitset_t) (start : Nat) : Int :=
  bitset_next_clear_scan (bs.drop start) start

/-! ## Restoring the removed nodes -/

/-- The loop `foreach_neighb (ifn, other)` of `pi_set_simplicials`: the color of
every neighbour whose `ir_node` is not in the removed set is entered into
`used_cols`. `col` is the coloring read by `get_irn_col`. -/
def set_used_cols (pi : problem_instance_t) (col : Nat → Int) : List Nat → bitset_t → Option bitset_t
  | [], used_cols => some used_cols
  | other :: rest, used_cols =>
    if !is_removed pi (ptr_t.ir_node other) then
      match bitset_set used_cols (col other) with
      | none => none
      | some used_cols' => set_used_cols pi col rest used_cols'
    else set_used_cols pi col rest used_cols

/-- The color `free_col` that `pi_set_simplicials` computes for the entry `ifn`
(-1 when every bit of `used_cols` is set). -/
def set_free_col (co : copy_opt_t) (pi : problem_instance_t) (col : Nat → Int) (ifn : Nat) : Option Int :=
  match set_used_cols pi col (co.chordal_env.neighb ifn) (bitset_alloca co.chordal_env.n_regs) with
  | none => none
  | some used_cols => some (bitset_next_clear used_cols 0)

/-- The record after `pset_remove_ptr (pi->removed, irn)` in `pi_set_simplicials`:
`irn` is back in the graph. -/
def set_restore (pi : problem_instance_t) (ifn : Nat) : problem_instance_t :=
  { pi with removed := pset_remove_ptr pi.removed (ptr_t.ir_node ifn) }

/-- The loop of `pi_set_simplicials` over the entries of `pi->simplicials` still
to come. `none` stands for an abort: the assertion "No free color found" fails
(or a color outside the bitset was to be entered). -/
def set_simplicials_loop (co : copy_opt_t) :
    List Nat → problem_instance_t → (Nat → Int) → Option (problem_instance_t × (Nat → Int))
  | [], pi, col => some (pi, col)
  | ifn :: rest, pi, col =>
    match set_free_col co pi col ifn with
    | none => none
    | some free_col =>
      if free_col = -1 then none
      else
        set_simplicials_loop co rest (set_restore pi ifn) (Function.update col ifn free_col)

/-- The function `pi_set_simplicials`: the new record and the new coloring. -/
def pi_set_simplicials (co : copy_opt_t) (pi : problem_instance_t) (col : Nat → Int) :
    Option (problem_instance_t × (Nat → Int)) :=
  set_simplicials_loop co pi.simplicials pi col

/-- The calls `set_irn_col (irn, free_col)` made by the loop of
`pi_set_simplicials`, in the order in which they are made (up to an abort). -/
def set_simplicials_calls (co : copy_opt_t) :
    List Nat → problem_instance_t → (Nat → Int) → List (Nat × Int)
  | [], _, _ => []
  | ifn :: rest, pi, col =>
    match set_free_col co pi col ifn with
    | none => []
    | some free_col =>
      if free_col = -1 then []
      else
        (ifn, free_col) ::
          set_simplicials_calls co rest (set_restore pi ifn) (Function.update col ifn free_col)

/-- The path a - b - c (nodes 0, 1, 2), three registers, no optimization unit. -/
def path_co : copy_opt_t where
  chordal_env :=
    { n_regs := 3
      if_nodes := [0, 1, 2]
      neighb := fun n => if n = 0 then [1] else if n = 1 then [0, 2] else if n = 2 then [1] else []
      has_edge := fun a b => (a = 0 && b = 1) || (a = 1 && b = 0) || (a = 1 && b = 2) || (a = 2 && b = 1) }
  is_optimizable := fun _ => false
  is_optimizable_arg := fun _ => false

/-- The triangle on the nodes 0, 1, 2, three registers, no optimization unit. -/
def triangle_co : copy_opt_t where
  chordal_env :=
    { n_regs := 3
      if_nodes := [0, 1, 2]
      neighb := fun n => if n = 0 then [1, 2] else if n = 1 then [0, 2] else if n = 2 then [0, 1] else []
      has_edge := fun a b => decide (a ≠ b) && decide (a < 3) && decide (b < 3) }
  is_optimizable := fun _ => false
  is_optimizable_arg := fun _ => false

/-- The interference graph is an undirected graph without loops, and its three
views agree: the neighbours of a node are nodes of the graph and are listed
once, a node is not its own neighbour, `b` is a neighbour of `a` when `a` is one
of `b`, and `ifg_has_edge` holds of two nodes exactly when they are neighbours. -/
def ifg_wf (env : be_chordal_env_t) : Prop :=
  ∀ a ∈ env.if_nodes, (env.neighb a).Nodup ∧ a ∉ env.neighb a ∧
    (∀ b ∈ env.neighb a, b ∈ env.if_nodes ∧ a ∈ env.neighb b) ∧
    (∀ b ∈ env.if_nodes, env.has_edge a b = true ↔ b ∈ env.neighb a)

instance (env : be_chordal_env_t) : Decidable (ifg_wf env) := by
  unfold ifg_wf; infer_instance

/-- Any two neighbours whose `ir_node`s are both outside the removed set have
different colors. -/
def proper_outside_removed (co : copy_opt_t) (pi : problem_instance_t) (col : Nat → Int) : Prop :=
  ∀ a ∈ co.chordal_env.if_nodes, ∀ b ∈ co.chordal_env.neighb a,
    is_removed pi (ptr_t.ir_node a) = false → is_removed pi (ptr_t.ir_node b) = false →
    col a ≠ col b

instance (co : copy_opt_t) (pi : problem_instance_t) (col : Nat → Int) :
    Decidable (proper_outside_removed co pi col) := by
  unfold proper_outside_removed; infer_instance

/-- Every edge of the interference graph joins nodes of different colors. -/
def proper_coloring (co : copy_opt_t) (col : Nat → Int) : Prop :=
  ∀ a ∈ co.chordal_env.if_nodes, ∀ b ∈ co.chordal_env.neighb a, col a ≠ col b

instance (co : copy_opt_t) (col : Nat → Int) : Decidable (proper_coloring co col) := by
  unfold proper_coloring; infer_instance

/-- The interference graph has no clique with more than `size` nodes. -/
def no_clique_larger (env : be_chordal_env_t) (size : Nat) : Prop :=
  ∀ l : List Nat, l.Nodup → (∀ a ∈ l, a ∈ env.if_nodes) →
    (∀ a ∈ l, ∀ b ∈ l, a ≠ b → env.has_edge a b = true) → l.length ≤ size

/-- The record the reducer returns on the path 0 - 1 - 2. -/
def path_pi : problem_instance_t :=
  { simplicials := [2, 0], removed := [ptr_t.ir_node 2, ptr_t.ir_node 0] }

/-- A coloring of the path in which only node 1, which the reducer leaves in
the graph, has a color. -/
def path_col : Nat → Int := fun n => if n = 1 then 0 else -1

/-- The triangle on the nodes 0, 1, 2 in which node 0 is a member of an
optimization unit. -/
def triangle_unit_co : copy_opt_t :=
  { triangle_co with is_optimizable := fun n => decide (n = 0) }

/-- Two nodes without an edge, two registers: node 0 may only have the color 1
and is in no optimization unit, node 1 is optimizable and may have any color. -/
def pinned_co : copy_opt_t where
  chordal_env :=
    { n_regs := 2
      if_nodes := [0, 1]
      neighb := fun _ => []
      has_edge := fun _ _ => false }
  is_optimizable := fun n => decide (n = 1)
  is_optimizable_arg := fun _ => false
  allocatable := fun n c => decide (n = 0 → c = 1)

/-- The record the reducer returns for `pinned_co`. -/
def pinned_pi : problem_instance_t :=
  { simplicials := [0], removed := [ptr_t.ir_node 0] }

/-! ## Names of variables and constraints -/

/-- The character of a decimal digit. -/
def digit_char (d : Nat) : Char := Char.ofNat (48 + d)

/-- The decimal digits of `n`, the lowest first; `fuel` bounds their number. -/
def put_digits_rev : Nat → Nat → List Char
  | 0, _ => []
  | fuel + 1, n =>
    if n < 10 then [digit_char n] else digit_char (n % 10) :: put_digits_rev fuel (n / 10)

/-- The decimal digits of `n`, the highest first. -/
def print_nat (n : Nat) : List Char := (put_digits_rev (n + 1) n).reverse

/-- The conversion `%d` of `printf`: a minus sign when negative, then the digits. -/
def print_d (z : Int) : List Char :=
  if z < 0 then '-' :: print_nat z.natAbs else print_nat z.toNat

/-- What `snprintf (buf, size, ...)` leaves in `buf`: at most `size - 1`
characters of the formatted text. -/
def snprintf_buf (size : Nat) (text : List Char) : List Char := text.take (size - 1)

/-- The macro `mangle_cst`: `snprintf (buf, sizeof (buf), "%c%d", prefix, nr)`
into a buffer of 32 bytes. -/
def mangle_cst (pfx : Char) (nr : Int) : List Char :=
  snprintf_buf 32 (pfx :: print_d nr)

/-- The macro `mangle_var`: `snprintf (buf, sizeof (buf), "%c%d_%d", prefix,
node_nr, color)` into a buffer of 32 bytes. -/
def mangle_var (pfx : Char) (node_nr color : Int) : List Char :=
  snprintf_buf 32 (pfx :: (print_d node_nr ++ '_' :: print_d color))

/-- The white space that `%d` of `scanf` skips. -/
def is_space (c : Char) : Bool :=
  c.toNat = 32 || (9 ≤ c.toNat && c.toNat ≤ 13)

/-- Skips leading white space. -/
def skip_space : List Char → List Char
  | [] => []
  | c :: cs => if is_space c then skip_space cs else c :: cs

/-- A decimal digit. -/
def is_digit (c : Char) : Bool := 48 ≤ c.toNat && c.toNat ≤ 57

/-- Reads decimal digits as long as there are any: the value read on top of
`acc`, and the rest of the input. -/
def scan_digits : List Char → Nat → Nat × List Char
  | [], acc => (acc, [])
  | c :: cs, acc =>
    if is_digit c then scan_digits cs (acc * 10 + (c.toNat - 48)) else (acc, c :: cs)

/-- Reads at least one decimal digit. -/
def scan_number (s : List Char) : Option (Nat × List Char) :=
  match s with
  | [] => none
  | c :: cs => if is_digit c then some (scan_digits (c :: cs) 0) else none

/-- The conversion `%d` of `scanf`: white space is skipped, then an optional
sign and at least one digit are read; the value and the rest of the input, or
`none` when the conversion fails. (A value outside `int` is not modelled.) -/
def scan_d (s : List Char) : Option (Int × List Char) :=
  match skip_space s with
  | [] => none
  | c :: cs =>
    if c = '-' then (scan_number cs).map (fun r => (-(r.1 : Int), r.2))
    else if c = '+' then (scan_number cs).map (fun r => ((r.1 : Int), r.2))
    else (scan_number (c :: cs)).map (fun r => ((r.1 : Int), r.2))

/-- The macro `split_var`: `sscanf (var, "x%d_%d", nnr, col)`. The first
component is the value returned, the number of conversions made (-1, `EOF`, when
the input ends before the first conversion); the others are the values stored
(0 stands for a value that is not stored). -/
def split_var (var : List Char) : Int × Int × Int :=
  match var with
  | [] => (-1, 0, 0)
  | c :: cs =>
    if c = 'x' then
      match scan_d cs with
      | none => (if skip_space cs = [] then -1 else 0, 0, 0)
      | some (nnr, rest) =>
        match rest with
        | [] => (1, nnr, 0)
        | u :: rest' =>
          if u = '_' then
            match scan_d rest' with
            | none => (1, nnr, 0)
            | some (col, _) => (2, nnr, col)
          else (1, nnr, 0)
    else (0, 0, 0)

/-! ## The operations of the lpp library -/

/-- The position of the first entry of a list of names that is the given name. -/
def name_find : List (List Char) → List Char → Option Nat
  | [], _ => none
  | x :: xs, name => if x = name then some 0 else (name_find xs name).map (fun i => i + 1)

/-- Modelled from the spec: `lpp_get_var_idx`, the number of the column with
the given name, or -1 when there is none. -/
def lpp_get_var_idx (lp : lpp_t) (name : List Char) : Int :=
  match name_find (lp.vars.map (fun v => v.name)) name with
  | some i => (i : Int) + 1
  | none => -1

/-- Modelled from the spec: the number of the row with the given name, or -1
when there is none. -/
def lpp_get_cst_idx (lp : lpp_t) (name : List Char) : Int :=
  match name_find (lp.csts.map (fun c => c.name)) name with
  | some i => (i : Int) + 1
  | none => -1

/-- Modelled from the spec: `lpp_add_var`, "variables are created lazily on
first reference": the column with the given name is created when there is none
yet; its number is returned. -/
def lpp_add_var (lp : lpp_t) (name : List Char) (var_type : lpp_var_t) (obj : Int) : lpp_t × Int :=
  if lpp_get_var_idx lp name = -1 then
    ({ lp with vars := lp.vars ++ [{ name := name, var_type := var_type, obj := obj }] },
      (lp.vars.length : Int) + 1)
  else (lp, lpp_get_var_idx lp name)

/-- Modelled from the spec: `lpp_add_cst`, the row with the given name is
created when there is none yet; its number is returned. -/
def lpp_add_cst (lp : lpp_t) (name : List Char) (cst_type : lpp_cst_t) (rhs : Int) : lpp_t × Int :=
  if lpp_get_cst_idx lp name = -1 then
    ({ lp with csts := lp.csts ++ [{ name := name, cst_type := cst_type, rhs := rhs }] },
      (lp.csts.length : Int) + 1)
  else (lp, lpp_get_cst_idx lp name)

/-- Modelled from the spec: `lpp_set_factor_fast`, sets the factor of a column
in a row, both given by number. The library asserts that the numbers are those
of an existing row and column (0 being the objective row and the right-hand
side column); `none` when they are not. -/
def lpp_set_factor_fast (lp : lpp_t) (cst_idx var_idx : Int) (value : Int) : Option lpp_t :=
  if 0 ≤ cst_idx ∧ cst_idx ≤ lp.csts.length ∧ 0 ≤ var_idx ∧ var_idx ≤ lp.vars.length then
    some { lp with matrix := (cst_idx, var_idx, value) :: lp.matrix }
  else none

/-- Modelled from the spec: `lpp_get_var_name`, the name of the column with the
given number (the empty name when there is no such column). -/
def lpp_get_var_name (lp : lpp_t) (idx : Int) : List Char :=
  if 1 ≤ idx then ((lp.vars.map (fun v => v.name)).getD (idx.toNat - 1) []) else []

/-- The factor of a column in a row: the value written last, 0 when none was. -/
def lpp_get_factor (lp : lpp_t) (cst_idx var_idx : Int) : Int :=
  match lp.matrix.find? (fun e => decide (e.1 = cst_idx) && decide (e.2.1 = var_idx)) with
  | some e => e.2.2
  | none => 0

/-- The value of a row under an assignment of values to the columns. -/
def lpp_row_value (lp : lpp_t) (value : Nat → Rat) (cst_idx : Int) : Rat :=
  ((List.range lp.vars.length).map
    (fun k : Nat => (lpp_get_factor lp cst_idx ((k : Int) + 1) : Rat) * value (k + 1))).sum

/-- An assignment satisfies the row with number `k + 1`. -/
def lpp_cst_holds (lp : lpp_t) (value : Nat → Rat) (k : Nat) : Prop :=
  match lp.csts.get? k with
  | none => True
  | some c =>
    match c.cst_type with
    | lpp_cst_t.lpp_equal => lpp_row_value lp value ((k : Int) + 1) = c.rhs
    | lpp_cst_t.lpp_less => lpp_row_value lp value ((k : Int) + 1) ≤ c.rhs
    | lpp_cst_t.lpp_greater => lpp_row_value lp value ((k : Int) + 1) ≥ c.rhs

/-- An assignment satisfies every row of the problem. -/
def lpp_feasible_for (lp : lpp_t) (value : Nat → Rat) : Prop :=
  ∀ k, k < lp.csts.length → lpp_cst_holds lp value k

/-! ## The constraints A -/

/-- The colors that `arch_get_allocatable_regs` sets in `pos_regs` for a node,
in the order of `bitset_foreach`. -/
def allocatable_regs (co : copy_opt_t) (irn : Nat) : List Nat :=
  (List.range co.chordal_env.n_regs).filter (fun c => co.allocatable irn c)

/-- The loop `bitset_foreach (pos_regs, col)` of `pi_add_constr_A` for the node
`nnr` and its row `cst_idx`. -/
def constr_A_colors (nnr : Nat) (cst_idx : Int) :
    List Nat → problem_instance_t → Option problem_instance_t
  | [], pi => some pi
  | col :: rest, pi =>
    match lpp_add_var pi.curr_lp (mangle_var 'x' nnr col) lpp_var_t.lpp_binary 0 with
    | (lp1, var_idx) =>
      match lpp_set_factor_fast lp1 cst_idx var_idx 1 with
      | none => none
      | some lp2 => constr_A_colors nnr cst_idx rest { pi with curr_lp := lp2, last_x_var := var_idx }

/-- The body of the loop of `pi_add_constr_A` over the borders of a block. -/
def constr_A_border (co : copy_opt_t) (pi : problem_instance_t) (curr : border_t) :
    Option problem_instance_t :=
  if curr.is_def && curr.is_real && !is_removed pi (ptr_t.ir_node curr.irn) then
    match lpp_add_cst pi.curr_lp (mangle_cst 'A' curr.irn) lpp_cst_t.lpp_equal 1 with
    | (lp1, cst_idx) =>
      constr_A_colors curr.irn cst_idx (allocatable_regs co curr.irn) { pi with curr_lp := lp1 }
  else some pi

/-- The loop of `pi_add_constr_A` over borders. -/
def constr_A_borders (co : copy_opt_t) : List border_t → problem_instance_t → Option problem_instance_t
  | [], pi => some pi
  | curr :: rest, pi =>
    match constr_A_border co pi curr with
    | none => none
    | some pi' => constr_A_borders co rest pi'

/-- The loop of `pi_add_constr_A` over the blocks; `list_for_each_entry_reverse`
walks each border list from its end. -/
def constr_A_blocks (co : copy_opt_t) :
    List (Nat × List border_t) → problem_instance_t → Option problem_instance_t
  | [], pi => some pi
  | (_, head) :: rest, pi =>
    match constr_A_borders co head.reverse pi with
    | none => none
    | some pi' => constr_A_blocks co rest pi'

/-- The function `pi_add_constr_A`. -/
def pi_add_constr_A (co : copy_opt_t) (pi : problem_instance_t) : Option problem_instance_t :=
  constr_A_blocks co co.chordal_env.border_heads pi

/-! ## The constraints B -/

/-- The two phases of the sweep of `pi_add_constr_B`. -/
inductive phase_t where
  | growing
  | shrinking
deriving DecidableEq, Repr

/-- The state of the sweep of `pi_add_constr_B`: the record, and the local
variables `phase` and `living` (a pset of `ir_node`s, each given by its
number). `emitted` is not a variable of the function: it lists the living sets
for which a constraint has been added so far, the latest first. -/
structure sweep_t where
  pi : problem_instance_t
  phase : phase_t := phase_t.growing
  living : List Nat := []
  emitted : List (List Nat) := []

/-- The function `all_live_in`. -/
def all_live_in (co : copy_opt_t) (block : Nat) (living : List Nat) : Bool :=
  living.all (fun n => co.is_live_in block n)

/-- The loop over `living` that fills the new row of `pi_add_constr_B`. -/
def constr_B_row (color : Nat) (cst_idx : Int) : List Nat → lpp_t → Option lpp_t
  | [], lp => some lp
  | n :: rest, lp =>
    match lpp_set_factor_fast lp cst_idx (lpp_get_var_idx lp (mangle_var 'x' n color)) 1 with
    | none => none
    | some lp' => constr_B_row color cst_idx rest lp'

/-- The constraint that `pi_add_constr_B` adds for the current living set. -/
def constr_B_emit (color : Nat) (st : sweep_t) : Option sweep_t :=
  match lpp_add_cst st.pi.curr_lp (mangle_cst 'B' st.pi.cst_counter) lpp_cst_t.lpp_less 1 with
  | (lp1, cst_idx) =>
    match constr_B_row color cst_idx st.living lp1 with
    | none => none
    | some lp2 =>
      some { st with pi := { st.pi with curr_lp := lp2, cst_counter := st.pi.cst_counter + 1 },
                     emitted := st.living :: st.emitted }

/-- The body of the loop of `pi_add_constr_B` over the borders of `block`. -/
def constr_B_border (co : copy_opt_t) (color block : Nat) (st : sweep_t) (b : border_t) :
    Option sweep_t :=
  if is_removed st.pi (ptr_t.ir_node b.irn) || !co.allocatable b.irn color then some st
  else if b.is_def then
    some { st with living := pset_insert_ptr st.living b.irn, phase := phase_t.growing }
  else
    match (if st.phase = phase_t.growing ∧ 2 ≤ pset_count st.living ∧
              all_live_in co block st.living = false
           then constr_B_emit color st else some st) with
    | none => none
    | some st' =>
      some { st' with living := pset_remove_ptr st'.living b.irn, phase := phase_t.shrinking }

/-- The loop of `pi_add_constr_B` over borders. -/
def constr_B_borders (co : copy_opt_t) (color block : Nat) :
    List border_t → sweep_t → Option sweep_t
  | [], st => some st
  | b :: rest, st =>
    match constr_B_border co color block st b with
    | none => none
    | some st' => constr_B_borders co color block rest st'

/-- The loop of `pi_add_constr_B` over the blocks. -/
def constr_B_blocks (co : copy_opt_t) (color : Nat) :
    List (Nat × List border_t) → sweep_t → Option sweep_t
  | [], st => some st
  | (block, head) :: rest, st =>
    match constr_B_borders co color block head.reverse st with
    | none => none
    | some st' => constr_B_blocks co color rest st'

/-- The sweep of `pi_add_constr_B (pi, color)` with its final assertion
`0 == pset_count (living)`; `none` when an assertion fails. -/
def constr_B_sweep (co : copy_opt_t) (pi : problem_instance_t) (color : Nat) : Option sweep_t :=
  match constr_B_blocks co color co.chordal_env.border_heads { pi := pi } with
  | none => none
  | some st => if pset_count st.living = 0 then some st else none

/-- The function `pi_add_constr_B`. -/
def pi_add_constr_B (co : copy_opt_t) (pi : problem_instance_t) (color : Nat) :
    Option problem_instance_t :=
  (constr_B_sweep co pi color).map (fun st => st.pi)

/-- The loop `for (col = 0; col < n_regs; ++col) pi_add_constr_B (pi, col)` of
`new_pi`, for the colors listed. -/
def constr_B_colors (co : copy_opt_t) : List Nat → problem_instance_t → Option problem_instance_t
  | [], pi => some pi
  | col :: rest, pi =>
    match pi_add_constr_B co pi col with
    | none => none
    | some pi' => constr_B_colors co rest pi'

/-- The steps of `new_pi` from `pi->curr_lp = pi->dilp` to the end of the loop
over `pi_add_constr_B`: the constraints A, then the constraints B of every
color. -/
def new_pi_constr_AB (co : copy_opt_t) (pi : problem_instance_t) : Option problem_instance_t :=
  (pi_add_constr_A co pi).bind (constr_B_colors co (List.range co.chordal_env.n_regs))

/-! ## Applying the solution -/

/-- The states of a solution (`lpp_sol_state_t` of lpp.h), in the order of the
enumeration. -/
inductive lpp_sol_state_t where
  | lpp_unknown
  | lpp_infeasible
  | lpp_inforunb
  | lpp_unbounded
  | lpp_feasible
  | lpp_optimal
deriving DecidableEq, Repr

/-- The place of a state in the enumeration. -/
def lpp_sol_state_t.rank : lpp_sol_state_t → Nat
  | lpp_unknown => 0
  | lpp_infeasible => 1
  | lpp_inforunb => 2
  | lpp_unbounded => 3
  | lpp_feasible => 4
  | lpp_optimal => 5

/-- The constant `EPSILON`: the value of the `double` literal `0.00001`, which
is `0x1.4f8b588e368f1p-17`, the double nearest to 1/100000. -/
def EPSILON : Rat := 5902958103587057 / 590295810358705651712

/-- The value of the `double` expression `1-EPSILON` of `pi_apply_solution`,
which is `0x1.fffeb074a771dp-1`, the double nearest to the exact difference of
1 and `EPSILON`. The values `sol[i]` are doubles, and every finite double is a
rational number, so the test `sol[i] > 1-EPSILON` is the comparison of two
rational numbers. -/
def one_minus_EPSILON : Rat := 9007109182748445 / 9007199254740992

/-- The body of the loop of `pi_apply_solution` for the index `i`: `sol[i]` is
the value of the column `1 + i` (`lpp_get_solution (lp, sol, 1, last_x_var)`).
`none` when the assertion "This should be a x-var" fails. -/
def apply_solution_step (pi : problem_instance_t) (value : Nat → Rat) (col : Nat → Int) (i : Nat) :
    Option (Nat → Int) :=
  if value (1 + i) > one_minus_EPSILON then
    match split_var (lpp_get_var_name pi.curr_lp (1 + (i : Int))) with
    | (ret, nnr, c) => if ret = 2 then some (Function.update col nnr.toNat c) else none
  else some col

/-- The loop of `pi_apply_solution` over the indices listed. -/
def apply_solution_loop (pi : problem_instance_t) (value : Nat → Rat) :
    List Nat → (Nat → Int) → Option (Nat → Int)
  | [], col => some col
  | i :: rest, col =>
    match apply_solution_step pi value col i with
    | none => none
    | some col' => apply_solution_loop pi value rest col'

/-- The function `pi_apply_solution`: `state` and `value` are what the solver
has left in the problem, `col` is the coloring before; the result is the
coloring after. `none` when an assertion fails. -/
def pi_apply_solution (pi : problem_instance_t) (state : lpp_sol_state_t) (value : Nat → Rat)
    (col : Nat → Int) : Option (Nat → Int) :=
  if state ≠ lpp_sol_state_t.lpp_optimal ∧ ¬ (lpp_sol_state_t.lpp_feasible.rank ≤ state.rank) then none
  else apply_solution_loop pi value (List.range pi.last_x_var.toNat) col

/-- The calls `set_irn_col (irn, col)` made by the loop of `pi_apply_solution`
over the indices listed, in the order in which they are made: the number of the
node and the color. -/
def apply_solution_calls (pi : problem_instance_t) (value : Nat → Rat) : List Nat → List (Nat × Int)
  | [] => []
  | i :: rest =>
    if value (1 + i) > one_minus_EPSILON then
      match split_var (lpp_get_var_name pi.curr_lp (1 + (i : Int))) with
      | (ret, nnr, c) =>
        if ret = 2 then (nnr.toNat, c) :: apply_solution_calls pi value rest else []
    else apply_solution_calls pi value rest

/-- The 4-cycle 0 - 1 - 2 - 3 - 0 with two registers, every node a member of an
optimization unit, one block 7 in which the four values are defined one after
the other and then used (border list in list order, last border first). -/
def cycle_co : copy_opt_t where
  chordal_env :=
    { n_regs := 2
      if_nodes := [0, 1, 2, 3]
      neighb := fun n => if n = 0 then [1, 3] else if n = 1 then [0, 2] else
        if n = 2 then [1, 3] else if n = 3 then [2, 0] else []
      has_edge := fun a b => decide (a < 4 ∧ b < 4 ∧ (b = (a + 1) % 4 ∨ a = (b + 1) % 4))
      border_heads := [(7, [⟨3, false, true⟩, ⟨2, false, true⟩, ⟨3, true, true⟩, ⟨1, false, true⟩,
        ⟨2, true, true⟩, ⟨0, false, true⟩, ⟨1, true, true⟩, ⟨0, true, true⟩])] }
  is_optimizable := fun _ => true
  is_optimizable_arg := fun _ => false

/-- The names of the columns, in the order of their numbers. -/
def var_names (lp : lpp_t) : List (List Char) := lp.vars.map (fun v => v.name)

/-- The names of the rows, in the order of their numbers. -/
def cst_names (lp : lpp_t) : List (List Char) := lp.csts.map (fun c => c.name)

/-- The borders of all blocks in the order in which `pi_add_constr_A` and
`pi_add_constr_B` come to them. -/
def flat_borders (co : copy_opt_t) : List border_t :=
  co.chordal_env.border_heads.flatMap (fun p => p.2.reverse)

/-- The borders of all blocks, each with its block, in the order in which the
sweeps come to them. -/
def border_events (co : copy_opt_t) : List (Nat × border_t) :=
  co.chordal_env.border_heads.flatMap (fun p => p.2.reverse.map (fun b => (p.1, b)))

/-- The nodes for which `pi_add_constr_A` adds a constraint, in the order in
which it comes to them: those with a real definition among the borders listed
whose `ir_node` is not in the removed set. -/
def constr_A_nodes (removed : pset) (borders : List border_t) : List Nat :=
  (borders.filter
    (fun b => b.is_def && b.is_real && !pset_find_ptr removed (ptr_t.ir_node b.irn))).map
    (fun b => b.irn)

/-- The node numbers and the class size are values of the type `int` (32
bits). -/
def int_range (co : copy_opt_t) : Prop :=
  co.chordal_env.n_regs ≤ 2 ^ 31 ∧ ∀ b ∈ flat_borders co, b.irn < 2 ^ 31

instance (co : copy_opt_t) : Decidable (int_range co) := by
  unfold int_range; infer_instance

/-- The problem holds exactly the constraints A of the nodes listed, each with
the colors listed for it: the rows are the constraints `A<n>`, the columns are
the variables `x<n>_<c>`, and the factor 1 is set in row `A<n>` for the columns
`x<n>_<c>`, and nowhere else. -/
structure lp_built (done : List (Nat × List Nat)) (lp : lpp_t) : Prop where
  vars : var_names lp =
    done.flatMap (fun p => p.2.map (fun c : Nat => mangle_var 'x' (p.1 : Int) (c : Int)))
  csts : lp.csts = done.map (fun p =>
    { name := mangle_cst 'A' (p.1 : Int), cst_type := lpp_cst_t.lpp_equal, rhs := 1 })
  matrix : ∀ e, e ∈ lp.matrix ↔ ∃ (i k : Nat) (p : Nat × List Nat) (c : Nat),
    e = ((i : Int) + 1, (k : Int) + 1, (1 : Int)) ∧ done.get? i = some p ∧ c ∈ p.2 ∧
    (var_names lp).get? k = some (mangle_var 'x' (p.1 : Int) (c : Int))

/-- The side conditions on the nodes and colors of `lp_built`: no node twice, no
color twice for a node, all numbers in the range of `int`. -/
def done_ok (done : List (Nat × List Nat)) : Prop :=
  (done.map Prod.fst).Nodup ∧ ∀ p ∈ done, p.1 < 2 ^ 31 ∧ p.2.Nodup ∧ ∀ c ∈ p.2, c < 2 ^ 31

/-- What holds of the record all through `pi_add_constr_A`: the removed set is
unchanged, every column is the variable `x<n>_<c>` of a node with a constraint A
and one of its allocatable colors, and `last_x_var` is -1 or the number of a
column. -/
structure a_vars_inv (co : copy_opt_t) (R : pset) (pi : problem_instance_t) : Prop where
  removed : pi.removed = R
  names : ∀ name ∈ var_names pi.curr_lp, ∃ n c : Nat,
    name = mangle_var 'x' (n : Int) (c : Int) ∧ n ∈ constr_A_nodes R (flat_borders co) ∧
    c ∈ allocatable_regs co n
  last : pi.last_x_var = -1 ∨ (1 ≤ pi.last_x_var ∧ pi.last_x_var ≤ pi.curr_lp.vars.length)

/-- The nodes listed, each with its allocatable colors. -/
def mk_done (co : copy_opt_t) (nodes : List Nat) : List (Nat × List Nat) :=
  nodes.map (fun n => (n, allocatable_regs co n))

/-- What holds of the record after `pi_add_constr_A` has dealt with the nodes
listed, when no node has two real definitions: the removed set is unchanged,
the problem holds the constraints A of these nodes, and `last_x_var` is the
number of the last column (-1 when there is none). -/
structure a_state (co : copy_opt_t) (R : pset) (done : List (Nat × List Nat))
    (pi : problem_instance_t) : Prop where
  removed : pi.removed = R
  built : lp_built done pi.curr_lp
  last : (pi.curr_lp.vars = [] ∧ pi.last_x_var = -1) ∨
    pi.last_x_var = (pi.curr_lp.vars.length : Int)

/-- The loop of `pi_add_constr_B` over the borders of all blocks in a row, each
border with its block. -/
def constr_B_events (co : copy_opt_t) (color : Nat) :
    List (Nat × border_t) → sweep_t → Option sweep_t
  | [], st => some st
  | e :: rest, st =>
    match constr_B_border co color e.1 st e.2 with
    | none => none
    | some st' => constr_B_events co color rest st'

/-- The sweep of `pi_add_constr_B` looks at the value: its `ir_node` is not in
the removed set and the color is possible for it. -/
def passes (co : copy_opt_t) (R : pset) (color n : Nat) : Prop :=
  pset_find_ptr R (ptr_t.ir_node n) = false ∧ co.allocatable n color = true

instance (co : copy_opt_t) (R : pset) (color n : Nat) : Decidable (passes co R color n) := by
  unfold passes; infer_instance

/-- The value is live after the borders listed: its last border among them is a
definition. -/
def live_after (pre : List (Nat × border_t)) (n : Nat) : Bool :=
  pre.foldl (fun acc e => if e.2.irn = n then e.2.is_def else acc) false

/-- The second problem has the columns of the first, its rows and more rows
after them, its factor writes and later ones. -/
def lp_grows (lp lp' : lpp_t) : Prop :=
  lp'.vars = lp.vars ∧ lp.csts <+: lp'.csts ∧ lp.matrix <:+ lp'.matrix

/-- The problem has a row in which the factor 1 is written for the column
`x<n>_<color>` of every node `n` listed. -/
def row_covers (lp : lpp_t) (color : Nat) (L : List Nat) : Prop :=
  ∃ r : Nat, r < lp.csts.length ∧ ∀ n ∈ L, ∃ k : Nat,
    (var_names lp).get? k = some (mangle_var 'x' (n : Int) (color : Int)) ∧
    (((r : Int) + 1, (k : Int) + 1, (1 : Int)) : Int × Int × Int) ∈ lp.matrix

/-- The problem `lp` is the problem `lpA` left by `pi_add_constr_A` with rows
of the kind "at most 1" added after its rows, and with factors 1 written in
these new rows only. -/
def lp_ext (lpA lp : lpp_t) : Prop :=
  lp.vars = lpA.vars ∧ ∃ (ec : List lpp_cst) (em : List (Int × Int × Int)),
    lp.csts = lpA.csts ++ ec ∧ lp.matrix = em ++ lpA.matrix ∧
    (∀ c ∈ ec, c.cst_type = lpp_cst_t.lpp_less ∧ c.rhs = 1) ∧
    (∀ e ∈ em, e.2.2 = 1 ∧ (lpA.csts.length : Int) < e.1 ∧ e.1 ≤ lp.csts.length ∧
      1 ≤ e.2.1 ∧ e.2.1 ≤ lp.vars.length)

/-- The borders after a definition hold, before the block ends, a use of the
value `n` defined in block `blk`. -/
def use_in_block (blk n : Nat) : List (Nat × border_t) → Bool
  | [] => false
  | u :: q => decide (u.1 = blk) && ((decide (u.2.irn = n) && !u.2.is_def) || use_in_block blk n q)

/-- Every definition among the borders is followed, in its block, by a use of
the value defined (a value that is live at the end of the block has a use
there). -/
def defs_have_uses : List (Nat × border_t) → Bool
  | [] => true
  | e :: q => (!e.2.is_def || use_in_block e.1 e.2.irn q) && defs_have_uses q

/-- The border with index `j` is a real definition of one of the two values,
made while the other is live. -/
def real_def_at (co : copy_opt_t) (j a b : Nat) : Prop :=
  match (border_events co).get? j with
  | none => False
  | some e => e.2.is_def = true ∧ e.2.is_real = true ∧
    ((e.2.irn = b ∧ live_after ((border_events co).take j) a = true) ∨
     (e.2.irn = a ∧ live_after ((border_events co).take j) b = true))

instance (co : copy_opt_t) (j a b : Nat) : Decidable (real_def_at co j a b) := by
  unfold real_def_at
  cases (border_events co).get? j <;> infer_instance

/-- The borders are those of a program in strict SSA form with its liveness:
* whenever two values are live at the same time, one of them has its real
  definition while the other is live;
* a value is not live in at the block of its real definition;
* every definition is followed, in its block, by a use of the value. -/
def borders_wf (co : copy_opt_t) : Prop :=
  (∀ i, i ≤ (border_events co).length →
    ∀ a ∈ (border_events co).map (fun e => e.2.irn),
    ∀ b ∈ (border_events co).map (fun e => e.2.irn), a ≠ b →
      live_after ((border_events co).take i) a = true →
      live_after ((border_events co).take i) b = true →
      ∃ j, j < (border_events co).length ∧ real_def_at co j a b) ∧
  (∀ e ∈ border_events co, e.2.is_def = true → e.2.is_real = true →
    co.is_live_in e.1 e.2.irn = false) ∧
  defs_have_uses (border_events co) = true

instance (co : copy_opt_t) : Decidable (borders_wf co) := by
  unfold borders_wf; infer_instance

/-- What holds of the state of the sweep of `pi_add_constr_B` after the borders
`l1`: the removed set and `last_x_var` are unchanged, the problem is an
extension of the one left by `pi_add_constr_A`, every living set for which a
constraint was added is covered by a row and was the living set after an
initial part of the borders, and the living set holds the values the sweep
looks at that are live. -/
structure b_state (co : copy_opt_t) (R : pset) (last0 : Int) (lpA lp0 : lpp_t) (color : Nat)
    (l1 : List (Nat × border_t)) (st : sweep_t) : Prop where
  removed : st.pi.removed = R
  last : st.pi.last_x_var = last0
  ext : lp_ext lpA st.pi.curr_lp
  grows : lp_grows lp0 st.pi.curr_lp
  covered : ∀ L ∈ st.emitted, row_covers st.pi.curr_lp color L ∧
    ∃ p q, l1 = p ++ q ∧ ∀ n ∈ L, passes co R color n ∧ live_after p n = true
  living : ∀ n, n ∈ st.living ↔ passes co R color n ∧ live_after l1 n = true

/-- The value of a row under an assignment of whole numbers to the columns. -/
def lpp_row_value_int (lp : lpp_t) (v : Nat → Int) (cst_idx : Int) : Int :=
  ((List.range lp.vars.length).map
    (fun k : Nat => lpp_get_factor lp cst_idx ((k : Int) + 1) * v (k + 1))).sum

/-- An assignment of whole numbers satisfies the row with number `k + 1`. -/
def lpp_cst_holds_int (lp : lpp_t) (v : Nat → Int) (k : Nat) : Bool :=
  match lp.csts.get? k with
  | none => true
  | some c =>
    match c.cst_type with
    | lpp_cst_t.lpp_equal => decide (lpp_row_value_int lp v ((k : Int) + 1) = c.rhs)
    | lpp_cst_t.lpp_less => decide (lpp_row_value_int lp v ((k : Int) + 1) ≤ c.rhs)
    | lpp_cst_t.lpp_greater => decide (lpp_row_value_int lp v ((k : Int) + 1) ≥ c.rhs)

/-- An assignment of whole numbers satisfies every row of the problem. -/
def lpp_feasible_int (lp : lpp_t) (v : Nat → Int) : Bool :=
  (List.range lp.csts.length).all (lpp_cst_holds_int lp v)

/-- The record that the reducer returns for the 4-cycle. -/
def cycle_r : problem_instance_t :=
  (pi_find_simplicials cycle_co new_pi_init).getD new_pi_init

/-- The record after the steps A and B of `new_pi` for the 4-cycle. -/
def cycle_pi : problem_instance_t :=
  (new_pi_constr_AB cycle_co cycle_r).getD new_pi_init

/-- The assignment that gives the nodes 0 and 2 of the 4-cycle the color 0 and
the nodes 1 and 3 the color 1: the columns `x0_0`, `x1_1`, `x2_0`, `x3_1` have
the value 1. -/
def cycle_value_int (k : Nat) : Int :=
  if k = 1 ∨ k = 4 ∨ k = 5 ∨ k = 8 then 1 else 0

/-- The assignment `cycle_value_int` as values of the solver. -/
def cycle_value (k : Nat) : Rat := (cycle_value_int k : Rat)

/-! ## Invariants of the reducer and values of digit lists -/

/-- The removed set holds addresses of `ir_node`s only. -/
def only_ir_nodes (pi : problem_instance_t) : Prop :=
  ∀ p ∈ pi.removed, ∃ n, p = ptr_t.ir_node n

/-- The number of graph nodes whose `ir_node` is not in the removed set. -/
def unremoved (co : copy_opt_t) (pi : problem_instance_t) : Nat :=
  (co.chordal_env.if_nodes.filter (fun n => !is_removed pi (ptr_t.ir_node n))).length

/-- The bookkeeping of the reducer: the list has no entry twice, and the
removed set holds exactly the `ir_node`s of the entries of the list. -/
def bookkeeping (simplicials : List Nat) (removed : pset) : Prop :=
  simplicials.Nodup ∧ ∀ p, p ∈ removed ↔ ∃ n ∈ simplicials, p = ptr_t.ir_node n

/-- The value of a list of digits, the lowest first. -/
def digits_rev_value (ds : List Char) : Nat :=
  ds.foldr (fun c a => a * 10 + (c.toNat - 48)) 0

/-! ## The constraints E, S and M -/

/-- A run of calls `lpp_set_factor_fast (lp, cst_idx, var_idx, value)` for one
row, in the order listed. -/
def lpp_set_factors (cst_idx : Int) : List (Int × Int) → lpp_t → Option lpp_t
  | [], lp => some lp
  | w :: rest, lp =>
    match lpp_set_factor_fast lp cst_idx w.1 w.2 with
    | none => none
    | some lp' => lpp_set_factors cst_idx rest lp'

/-- The four places at which `pi_add_constr_E` adds a row: "add root-arg-y <= 0",
"add arg-root-y <= 0", "add root-y <= 0", "add arg-y <= 0". -/
inductive E_kind where
  | root_arg
  | arg_root
  | root_only
  | arg_only
deriving DecidableEq, Repr

/-- One row added by `pi_add_constr_E`: the root and the argument of the unit
it was added for, the color, the place in the code, and the number `cst_idx`
returned by `lpp_add_cst`. -/
structure E_row where
  root : Nat
  arg : Nat
  color : Nat
  kind : E_kind
  cst_idx : Int
deriving DecidableEq, Repr

/-- The state of `pi_add_constr_E`: the problem `pi->curr_lp` and the local
variable `cst_counter`. `rows` is not a variable of the function: it lists the
rows added so far, the latest first. -/
structure constr_E_t where
  lp : lpp_t
  cst_counter : Int := 0
  rows : List E_row := []
deriving DecidableEq, Repr

/-- One block `mangle_cst (buf, 'E', cst_counter++); cst_idx = lpp_add_cst (...,
lpp_less, 0); lpp_set_factor_fast ...` of `pi_add_constr_E`, with the factors
listed. -/
def constr_E_add (st : constr_E_t) (writes : List (Int × Int)) (row : Int → E_row) :
    Option constr_E_t :=
  match lpp_add_cst st.lp (mangle_cst 'E' st.cst_counter) lpp_cst_t.lpp_less 0 with
  | (lp1, cst_idx) =>
    match lpp_set_factors cst_idx writes lp1 with
    | none => none
    | some lp2 =>
      some { lp := lp2, cst_counter := st.cst_counter + 1, rows := row cst_idx :: st.rows }

/-- The body of the first loop `bitset_foreach (work_regs, color)` of
`pi_add_constr_E`, over the colors root and arg have in common. -/
def constr_E_common (rootnr argnr : Nat) (y_idx : Int) (st : constr_E_t) (color : Nat) :
    Option constr_E_t :=
  match constr_E_add st
      [(lpp_get_var_idx st.lp (mangle_var 'x' rootnr color), 1),
       (lpp_get_var_idx st.lp (mangle_var 'x' argnr color), -1), (y_idx, -1)]
      (E_row.mk rootnr argnr color E_kind.root_arg) with
  | none => none
  | some st1 =>
    constr_E_add st1
      [(lpp_get_var_idx st.lp (mangle_var 'x' rootnr color), -1),
       (lpp_get_var_idx st.lp (mangle_var 'x' argnr color), 1), (y_idx, -1)]
      (E_row.mk rootnr argnr color E_kind.arg_root)

/-- The body of the second loop `bitset_foreach (work_regs, color)` of
`pi_add_constr_E`, over the colors exactly one of root and arg can have;
`none` when the assertion "bitset_xor is buggy" fails. -/
def constr_E_disjunct (co : copy_opt_t) (rootnr argnr : Nat) (y_idx : Int) (st : constr_E_t)
    (color : Nat) : Option constr_E_t :=
  if co.allocatable rootnr color then
    constr_E_add st [(lpp_get_var_idx st.lp (mangle_var 'x' rootnr color), 1), (y_idx, -1)]
      (E_row.mk rootnr argnr color E_kind.root_only)
  else if co.allocatable argnr color then
    constr_E_add st [(lpp_get_var_idx st.lp (mangle_var 'x' argnr color), 1), (y_idx, -1)]
      (E_row.mk rootnr argnr color E_kind.arg_only)
  else none

/-- The colors of `work_regs` after `bitset_copy (work_regs, root_regs);
bitset_and (work_regs, arg_regs)`, in the order of `bitset_foreach`. -/
def common_regs (co : copy_opt_t) (rootnr argnr : Nat) : List Nat :=
  (allocatable_regs co rootnr).filter (fun c => co.allocatable argnr c)

/-- The colors of `work_regs` after `bitset_copy (work_regs, root_regs);
bitset_xor (work_regs, arg_regs)`, in the order of `bitset_foreach`. -/
def disjunct_regs (co : copy_opt_t) (rootnr argnr : Nat) : List Nat :=
  (List.range co.chordal_env.n_regs).filter
    (fun c => co.allocatable rootnr c != co.allocatable argnr c)

/-- The body of the loop `for (i = 1; i < curr->node_count; ++i)` of
`pi_add_constr_E` for the argument `arg = (nodes[i], costs[i])`. -/
def constr_E_arg (co : copy_opt_t) (rootnr : Nat) (st : constr_E_t) (arg : Nat × Int) :
    Option constr_E_t :=
  match lpp_add_var st.lp (mangle_var 'y' rootnr arg.1) lpp_var_t.lpp_continous arg.2 with
  | (lp1, y_idx) =>
    match (common_regs co rootnr arg.1).foldlM (constr_E_common rootnr arg.1 y_idx)
        { st with lp := lp1 } with
    | none => none
    | some st2 =>
      (disjunct_regs co rootnr arg.1).foldlM (constr_E_disjunct co rootnr arg.1 y_idx) st2

/-- The body of the loop of `pi_add_constr_E` over the units. -/
def constr_E_unit (co : copy_opt_t) (st : constr_E_t) (curr : unit_t) : Option constr_E_t :=
  curr.args.foldlM (constr_E_arg co curr.root) st

/-- The loop of `pi_add_constr_E` over the units, from `cst_counter = 0`. -/
def constr_E_units (co : copy_opt_t) (lp : lpp_t) : Option constr_E_t :=
  co.units.foldlM (constr_E_unit co) { lp := lp }

/-- The function `pi_add_constr_E`; `none` when an assertion fails. -/
def pi_add_constr_E (co : copy_opt_t) (pi : problem_instance_t) : Option problem_instance_t :=
  (constr_E_units co pi.curr_lp).map (fun st => { pi with curr_lp := st.lp })

/-- The state of `pi_add_constr_S`: the problem and the local variable
`cst_counter`. -/
structure constr_S_t where
  lp : lpp_t
  cst_counter : Int := 0
deriving DecidableEq, Repr

/-- The body of the loop `for (i = 1; i < curr->node_count; ++i)` of
`pi_add_constr_S` for the argument `arg = (nodes[i], costs[i])`. -/
def constr_S_arg (rootnr : Nat) (cst_idx : Int) (lp : lpp_t) (arg : Nat × Int) : Option lpp_t :=
  lpp_set_factor_fast lp cst_idx (lpp_get_var_idx lp (mangle_var 'y' rootnr arg.1)) arg.2

/-- The body of the loop of `pi_add_constr_S` over the units. -/
def constr_S_unit (st : constr_S_t) (curr : unit_t) : Option constr_S_t :=
  if curr.min_nodes_costs = 0 then some st
  else
    match lpp_add_cst st.lp (mangle_cst 'S' st.cst_counter) lpp_cst_t.lpp_greater
        curr.min_nodes_costs with
    | (lp1, cst_idx) =>
      (curr.args.foldlM (constr_S_arg curr.root cst_idx) lp1).map
        (fun lp2 => { lp := lp2, cst_counter := st.cst_counter + 1 })

/-- The loop of `pi_add_constr_S` over the units, from `cst_counter = 0`. -/
def constr_S_units (co : copy_opt_t) (lp : lpp_t) : Option constr_S_t :=
  co.units.foldlM constr_S_unit { lp := lp }

/-- The function `pi_add_constr_S`. -/
def pi_add_constr_S (co : copy_opt_t) (pi : problem_instance_t) : Option problem_instance_t :=
  (constr_S_units co pi.curr_lp).map (fun st => { pi with curr_lp := st.lp })

/-- The inner loop of `get_costs` over the arguments of the unit found: the
cost of the first argument that is `irn`; `none` when the assertion "irn must
occur in this ou" fails. -/
def get_costs_unit (curr : unit_t) (irn : Nat) : Option Int :=
  (curr.args.find? (fun a => decide (a.1 = irn))).map (fun a => a.2)

/-- The function `get_costs`: the first unit whose root is `phi` decides;
`none` when an assertion fails ("phi must be found in a ou"). -/
def get_costs : List unit_t → Nat → Nat → Option Int
  | [], _, _ => none
  | curr :: rest, phi, irn =>
    if curr.root = phi then get_costs_unit curr irn else get_costs rest phi irn

/-- The entry `phi_matrix[row*arity + col]` that `M_constr_walker` computes for
a Phi: its operand `col`, or `NULL` (`none`) when the operand interferes with
the Phi. -/
def phi_matrix_entry (co : copy_opt_t) (phi : Nat × List Nat) (col : Nat) : Option Nat :=
  match phi.2.get? col with
  | none => none
  | some arg => if co.nodes_interfere phi.1 arg then none else some arg

/-- The entry `phi_matrix[row*arity + col]` by row and column. -/
def phi_matrix (co : copy_opt_t) (phis : List (Nat × List Nat)) (row col : Nat) : Option Nat :=
  match phis.get? row with
  | none => none
  | some phi => phi_matrix_entry co phi col

/-- The bits of `candidates` after the search "in the rows below", in the order
of `bitset_foreach`: `row` itself and every later row with `irn` in the same
column. -/
def M_candidates (co : copy_opt_t) (phis : List (Nat × List Nat)) (col row irn : Nat) : List Nat :=
  row :: (List.range' (row + 1) (phis.length - (row + 1))).filter
    (fun other_row => decide (phi_matrix co phis other_row col = some irn))

/-- The first loop `bitset_foreach (candidates, phi_nr)` of the walker: it
fills `costs[phi_nr]`; the result lists the candidates with their costs. -/
def M_costs (co : copy_opt_t) (phis : List (Nat × List Nat)) (irn : Nat) :
    List Nat → Option (List (Nat × Int))
  | [] => some []
  | phi_nr :: rest =>
    match get_costs co.units (phis.getD phi_nr (0, [])).1 irn with
    | none => none
    | some c => (M_costs co phis irn rest).map (fun l => (phi_nr, c) :: l)

/-- The value that the arithmetic of the type `int` (32 bits, two's complement)
leaves for the exact result `x`: the number of the range `-2^31 .. 2^31 - 1`
that differs from `x` by a multiple of `2^32`. -/
def wrap_int (x : Int) : Int := (x + 2147483648) % 4294967296 - 2147483648

/-- The value of the variable `int sum` after the first loop over the
candidates: it starts at 0 and every pass makes `sum += costs[phi_nr]` in the
arithmetic of `int`. -/
def M_sum (costs : List (Nat × Int)) : Int := costs.foldl (fun sum pc => wrap_int (sum + pc.2)) 0

/-- The value of `max` after the first loop over the candidates: it starts at
-1 and is updated by `max = MAX (max, costs[phi_nr])`. -/
def M_max (costs : List (Nat × Int)) : Int := costs.foldl (fun m pc => max m pc.2) (-1)

/-- The value of the variable `int minimal_costs`, the right-hand side of the
row: `minimal_costs = sum - max` in the arithmetic of `int`. -/
def M_minimal_costs (costs : List (Nat × Int)) : Int := wrap_int (M_sum costs - M_max costs)

/-- The body of the second loop `bitset_foreach (candidates, pos)` of the
walker. -/
def M_constr_factor (phis : List (Nat × List Nat)) (irnnr : Nat) (cst_idx : Int) (lp : lpp_t)
    (pc : Nat × Int) : Option lpp_t :=
  lpp_set_factor_fast lp cst_idx
    (lpp_get_var_idx lp (mangle_var 'y' (phis.getD pc.1 (0, [])).1 irnnr)) pc.2

/-- The block "generate an unequation finally" of the walker. Its variable
`cst_counter` is declared in this block and starts at 0 every time the block is
entered. -/
def M_constr_emit (phis : List (Nat × List Nat)) (irnnr : Nat) (costs : List (Nat × Int))
    (lp : lpp_t) : Option lpp_t :=
  match lpp_add_cst lp (mangle_cst 'M' 0) lpp_cst_t.lpp_greater (M_minimal_costs costs) with
  | (lp1, cst_idx) => costs.foldlM (M_constr_factor phis irnnr cst_idx) lp1

/-- The body of the loop `for (row = 0; row < count; ++row)` of the walker for
the column `col`; the state is the problem and the pset `done`. -/
def M_constr_cell (co : copy_opt_t) (phis : List (Nat × List Nat)) (col : Nat)
    (st : lpp_t × List Nat) (row : Nat) : Option (lpp_t × List Nat) :=
  match phi_matrix co phis row col with
  | none => some st
  | some irn =>
    if pset_find_ptr st.2 irn then some st
    else if (M_candidates co phis col row irn).length < 2 then
      some (st.1, pset_insert_ptr st.2 irn)
    else
      match M_costs co phis irn (M_candidates co phis col row irn) with
      | none => none
      | some costs =>
        (M_constr_emit phis irn costs st.1).map (fun lp => (lp, pset_insert_ptr st.2 irn))

/-- The body of the loop `for (col = 0; col < arity; ++col)` of the walker. -/
def M_constr_col (co : copy_opt_t) (phis : List (Nat × List Nat)) (lp : lpp_t) (col : Nat) :
    Option lpp_t :=
  ((List.range phis.length).foldlM (M_constr_cell co phis col) (lp, [])).map (fun st => st.1)

/-- The function `M_constr_walker` for a block with the Phi nodes `phis`:
`count` is their number, `arity` the arity of the first one. -/
def M_constr_walker (co : copy_opt_t) (lp : lpp_t) (phis : List (Nat × List Nat)) : Option lpp_t :=
  if phis.length < 2 then some lp
  else (List.range (phis.headD (0, [])).2.length).foldlM (M_constr_col co phis) lp

/-- The function `pi_add_constr_M`: the walker is called for every block. -/
def pi_add_constr_M (co : copy_opt_t) (pi : problem_instance_t) : Option problem_instance_t :=
  (co.phi_blocks.foldlM (M_constr_walker co) pi.curr_lp).map (fun lp => { pi with curr_lp := lp })

/-! ## The whole run -/

/-- The function `new_pi`: `xcalloc` gives the record `new_pi_init`; when the
reducer has set `all_simplicial` the record is returned as it is. -/
def new_pi (co : copy_opt_t) : Option problem_instance_t :=
  match pi_find_simplicials co new_pi_init with
  | none => none
  | some pi =>
    if pi.all_simplicial ≠ 0 then some pi
    else
      (((new_pi_constr_AB co pi).bind (pi_add_constr_E co)).bind (pi_add_constr_S co)).bind
        (pi_add_constr_M co)

/-- The calls into the solver side of the lpp library that `pi_solve_ilp`
makes. -/
inductive lpp_call_t where
  | lpp_set_start_value (var_idx : Int) (value : Int)
  | lpp_solve_net
deriving DecidableEq, Repr

/-- The body of the loop of `pi_set_start_sol` for the column `i`: the call
`lpp_set_start_value (lp, i, val)` it makes; `none` when an assertion fails
(the node has the color -1, or the name is not that of an x variable). -/
def set_start_sol_step (pi : problem_instance_t) (col : Nat → Int) (i : Nat) : Option lpp_call_t :=
  match split_var (lpp_get_var_name pi.curr_lp (i : Int)) with
  | (ret, nnr, c) =>
    if ret = 2 then
      if col nnr.toNat = -1 then none
      else some (lpp_call_t.lpp_set_start_value (i : Int) (if col nnr.toNat = c then 1 else 0))
    else none

/-- The function `pi_set_start_sol`: the calls `lpp_set_start_value` for
`i = 1 .. last_x_var`, in order. -/
def pi_set_start_sol (pi : problem_instance_t) (col : Nat → Int) : Option (List lpp_call_t) :=
  (List.range' 1 pi.last_x_var.toNat).mapM (set_start_sol_step pi col)

/-- The function `pi_solve_ilp`: the calls it makes, the last one being
`lpp_solve_net`. -/
def pi_solve_ilp (pi : problem_instance_t) (col : Nat → Int) : Option (List lpp_call_t) :=
  (pi_set_start_sol pi col).map (fun calls => calls ++ [lpp_call_t.lpp_solve_net])

/-- What a run of `co_ilp_opt` leaves: the record as it is before `free_pi`,
the coloring, and the calls made into the solver side of the lpp library. -/
structure co_ilp_t where
  pi : problem_instance_t
  col : Nat → Int
  lpp_calls : List lpp_call_t

/-- The function `co_ilp_opt`. `solver` stands for what `lpp_solve_net` leaves
in the problem, given the problem and the start values set: the state of the
solution and the values of the columns; `col` is the coloring on entry. `none`
when an assertion fails. -/
def co_ilp_opt (co : copy_opt_t)
    (solver : lpp_t → List lpp_call_t → lpp_sol_state_t × (Nat → Rat)) (col : Nat → Int) :
    Option co_ilp_t :=
  match new_pi co with
  | none => none
  | some pi =>
    if pi.all_simplicial = 0 then
      match pi_solve_ilp pi col with
      | none => none
      | some calls =>
        match pi_apply_solution pi (solver pi.curr_lp calls).1 (solver pi.curr_lp calls).2 col with
        | none => none
        | some col1 =>
          match pi_set_simplicials co pi col1 with
          | none => none
          | some (pi2, col2) => some { pi := pi2, col := col2, lpp_calls := calls }
    else some { pi := pi, col := col, lpp_calls := [] }

/-- The record the reducer returns on the triangle: every node is removed. -/
def triangle_pi : problem_instance_t :=
  { simplicials := [2, 1, 0],
    removed := [ptr_t.ir_node 2, ptr_t.ir_node 1, ptr_t.ir_node 0],
    all_simplicial := 1 }

/-- A solver that reports an optimal solution with every value 0. -/
def zero_solver : lpp_t → List lpp_call_t → lpp_sol_state_t × (Nat → Rat) :=
  fun _ _ => (lpp_sol_state_t.lpp_optimal, fun _ => 0)

/-- The number of times the body of the loop `while (redo)` of
`pi_find_simplicials` is run, when at most `fuel` passes are allowed. -/
def find_while_passes (co : copy_opt_t) : Nat → problem_instance_t → Nat
  | 0, _ => 0
  | fuel + 1, pi =>
    match find_pass co co.chordal_env.if_nodes pi false with
    | (pi', true) => 1 + find_while_passes co fuel pi'
    | (_, false) => 1

/-- The columns created by `pi_add_constr_A` are binary and have the factor 0
in the objective function. -/
def x_vars_plain (lp : lpp_t) : Prop :=
  ∀ v ∈ lp.vars, v.var_type = lpp_var_t.lpp_binary ∧ v.obj = 0

/-- What holds of the problem during the sweep of `pi_add_constr_B (pi0, color)`
when `emitted` lists the living sets for which a constraint has been added, the
latest first: the columns are those of `pi0`; after the rows of `pi0` there is
one row "at most 1" for each of these sets, named `B<k>` with the values the
counter had; and in the row of a set the factor of a column is 1 when it is
the column `x<n>_<color>` of a member `n` of the set, and 0 otherwise. -/
structure b_lp_shape (pi0 : problem_instance_t) (color : Nat) (pi : problem_instance_t)
    (emitted : List (List Nat)) : Prop where
  removed : pi.removed = pi0.removed
  last : pi.last_x_var = pi0.last_x_var
  counter : pi.cst_counter = pi0.cst_counter + (emitted.length : Int)
  vars : pi.curr_lp.vars = pi0.curr_lp.vars
  csts : pi.curr_lp.csts = pi0.curr_lp.csts ++ (List.range emitted.length).map
    (fun i : Nat => lpp_cst.mk (mangle_cst 'B' (pi0.cst_counter + (i : Int))) lpp_cst_t.lpp_less 1)
  rows_le : ∀ e ∈ pi.curr_lp.matrix, e.1 ≤ (pi.curr_lp.csts.length : Int)
  factors : ∀ (i : Nat) (L : List Nat), emitted.reverse.get? i = some L → ∀ j : Int,
    lpp_get_factor pi.curr_lp ((pi0.curr_lp.csts.length : Int) + (i : Int) + 1) j =
      if ∃ n ∈ L, lpp_get_var_idx pi0.curr_lp (mangle_var 'x' (n : Int) (color : Int)) = j
      then 1 else 0
  cols : ∀ L ∈ emitted, ∀ n ∈ L,
    1 ≤ lpp_get_var_idx pi0.curr_lp (mangle_var 'x' (n : Int) (color : Int)) ∧
    lpp_get_var_idx pi0.curr_lp (mangle_var 'x' (n : Int) (color : Int)) ≤
      (pi0.curr_lp.vars.length : Int)

/-- What holds of the state of the sweep of `pi_add_constr_B (pi0, color)` after
the borders `l1` of the borders `all`: the state is the one the sweep reaches
after `l1`; the problem has the shape `b_lp_shape`; the living set holds only
values the sweep looks at; and every living set for which a constraint was
added had at least two members, all of them values the sweep looks at, and was
the living set, in the phase `growing`, when the sweep came to a use in a block
into which not all of its members are live in. -/
structure b_shape (co : copy_opt_t) (pi0 : problem_instance_t) (color : Nat)
    (all l1 : List (Nat × border_t)) (st : sweep_t) : Prop where
  run : constr_B_events co color l1 { pi := pi0 } = some st
  lp : b_lp_shape pi0 color st.pi st.emitted
  count : st.emitted.length ≤ l1.length
  living : ∀ n ∈ st.living, passes co pi0.removed color n
  sets : ∀ L ∈ st.emitted, 2 ≤ L.length ∧ (∀ n ∈ L, passes co pi0.removed color n) ∧
    ∃ (p : List (Nat × border_t)) (e : Nat × border_t) (q : List (Nat × border_t))
      (stp : sweep_t),
      all = p ++ e :: q ∧ constr_B_events co color p { pi := pi0 } = some stp ∧
      stp.living = L ∧ stp.phase = phase_t.growing ∧ e.2.is_def = false ∧
      passes co pi0.removed color e.2.irn ∧ all_live_in co e.1 L = false

/-- The record after `pi_add_constr_A` and `pi_add_constr_B (pi, 0)` for the
4-cycle. -/
def cycle_pi_B0 : problem_instance_t :=
  (((pi_add_constr_A cycle_co cycle_r).bind (fun pi => pi_add_constr_B cycle_co pi 0))).getD
    new_pi_init

/-- The state in which the sweep `pi_add_constr_B (pi, 1)` ends for the
4-cycle. -/
def cycle_st_B1 : sweep_t :=
  (constr_B_sweep cycle_co cycle_pi_B0 1).getD { pi := new_pi_init }

/-- The state of the sweep `pi_add_constr_B (pi, 1)` for the 4-cycle after its
first two borders, the definitions of the values 0 and 1. -/
def cycle_st_two : sweep_t :=
  (constr_B_events cycle_co 1 ((border_events cycle_co).take 2) { pi := cycle_pi_B0 }).getD
    { pi := new_pi_init }

/-! ## Rows of the problem and their values -/

/-- Every factor of the problem stands in one of its rows and one of its
columns. -/
def lp_wf (lp : lpp_t) : Prop :=
  ∀ e ∈ lp.matrix, 1 ≤ e.1 ∧ e.1 ≤ (lp.csts.length : Int) ∧ 1 ≤ e.2.1 ∧
    e.2.1 ≤ (lp.vars.length : Int)

instance (lp : lpp_t) : Decidable (lp_wf lp) := by
  unfold lp_wf; infer_instance

/-- The second problem has the columns and rows of the first and more after
them, and the factors of the first and later ones, all written in new rows. -/
def lp_frame (lp lp' : lpp_t) : Prop :=
  lp.vars <+: lp'.vars ∧ lp.csts <+: lp'.csts ∧
    ∃ em, lp'.matrix = em ++ lp.matrix ∧ ∀ e ∈ em, (lp.csts.length : Int) < e.1

/-- The value that a list of factor writes `(column, factor)` gives a row in
which nothing else is written. -/
def writes_value (value : Nat → Rat) (writes : List (Int × Int)) : Rat :=
  (writes.map (fun w => (w.2 : Rat) * value w.1.toNat)).sum

/-! ## The constraints E: what the rows say -/

/-- The value of the column `x<n>_<c>` under an assignment. -/
def xv (lp : lpp_t) (value : Nat → Rat) (n c : Nat) : Rat :=
  value (lpp_get_var_idx lp (mangle_var 'x' (n : Int) (c : Int))).toNat

/-- The value of the column `y<root>_<arg>` under an assignment. -/
def yv (lp : lpp_t) (value : Nat → Rat) (root arg : Nat) : Rat :=
  value (lpp_get_var_idx lp (mangle_var 'y' (root : Int) (arg : Int))).toNat

/-- The left-hand side that the comment at each of the four places of
`pi_add_constr_E` names: "root-arg-y", "arg-root-y", "root-y", "arg-y". -/
def E_row_value (lp : lpp_t) (value : Nat → Rat) (e : E_row) : Rat :=
  match e.kind with
  | E_kind.root_arg => xv lp value e.root e.color - xv lp value e.arg e.color - yv lp value e.root e.arg
  | E_kind.arg_root => xv lp value e.arg e.color - xv lp value e.root e.color - yv lp value e.root e.arg
  | E_kind.root_only => xv lp value e.root e.color - yv lp value e.root e.arg
  | E_kind.arg_only => xv lp value e.arg e.color - yv lp value e.root e.arg

/-- The names of the columns in which a row of `pi_add_constr_E` has a factor. -/
def E_row_names (e : E_row) : List (List Char) :=
  match e.kind with
  | E_kind.root_arg | E_kind.arg_root =>
    [mangle_var 'x' (e.root : Int) (e.color : Int), mangle_var 'x' (e.arg : Int) (e.color : Int),
      mangle_var 'y' (e.root : Int) (e.arg : Int)]
  | E_kind.root_only =>
    [mangle_var 'x' (e.root : Int) (e.color : Int), mangle_var 'y' (e.root : Int) (e.arg : Int)]
  | E_kind.arg_only =>
    [mangle_var 'x' (e.arg : Int) (e.color : Int), mangle_var 'y' (e.root : Int) (e.arg : Int)]

/-- The color of a row of `pi_add_constr_E` is one for which the code comes to
the place of the row: a color root and arg have in common for the first two
places, a color only the root can have for the third, a color only the
argument can have for the fourth. -/
def E_row_place (co : copy_opt_t) (e : E_row) : Prop :=
  e.color < co.chordal_env.n_regs ∧
  match e.kind with
  | E_kind.root_arg | E_kind.arg_root =>
    co.allocatable e.root e.color = true ∧ co.allocatable e.arg e.color = true
  | E_kind.root_only =>
    co.allocatable e.root e.color = true ∧ co.allocatable e.arg e.color = false
  | E_kind.arg_only =>
    co.allocatable e.root e.color = false ∧ co.allocatable e.arg e.color = true

/-- A row recorded for `pi_add_constr_E` is a row "at most 0" of the problem,
the columns it names exist, its value under any assignment is the left-hand
side named at its place, and its color fits its place. -/
structure E_row_ok (co : copy_opt_t) (lp : lpp_t) (e : E_row) : Prop where
  idx : ∃ i : Nat, e.cst_idx = (i : Int) + 1 ∧ ∃ c, lp.csts.get? i = some c ∧
    c.cst_type = lpp_cst_t.lpp_less ∧ c.rhs = 0
  names : ∀ nm ∈ E_row_names e, nm ∈ var_names lp
  value : ∀ value : Nat → Rat, lpp_row_value lp value e.cst_idx = E_row_value lp value e
  place : E_row_place co e

/-- What holds of the state of `pi_add_constr_E` entered with the problem
`lp0`: the problem is well formed and grew from `lp0`; the rows added are the
rows recorded, named `E0`, `E1`, ... in the order of their numbers; and every
row recorded is a row of the problem that says what its place names. -/
structure E_inv (co : copy_opt_t) (lp0 : lpp_t) (st : constr_E_t) : Prop where
  wf : lp_wf st.lp
  frame : lp_frame lp0 st.lp
  counter : st.cst_counter = (st.rows.length : Int)
  csts : st.lp.csts = lp0.csts ++ (List.range st.rows.length).map
    (fun i : Nat => lpp_cst.mk (mangle_cst 'E' (i : Int)) lpp_cst_t.lpp_less 0)
  idxs : st.rows.reverse.map (fun e => e.cst_idx) =
    (List.range st.rows.length).map (fun i : Nat => (lp0.csts.length : Int) + (i : Int) + 1)
  rows : ∀ e ∈ st.rows, E_row_ok co st.lp e

/-- From one state of `pi_add_constr_E` to a later one the counter does not
drop, the rows recorded stay recorded, and the columns stay, with more after
them. -/
def E_le (s s' : constr_E_t) : Prop :=
  s.cst_counter ≤ s'.cst_counter ∧ (∀ e ∈ s.rows, e ∈ s'.rows) ∧ s.lp.vars <+: s'.lp.vars

/-- The rows that `pi_add_constr_E` adds for a root and one of its arguments
are recorded: the column `y<root>_<arg>` exists; for every color the two have
in common there are the rows of the first and the second place; for every
color only one of them can have there is the row of the third place when the
root can have the color, and of the fourth place when it cannot. -/
def E_pair_done (co : copy_opt_t) (root arg : Nat) (s : constr_E_t) : Prop :=
  mangle_var 'y' (root : Int) (arg : Int) ∈ var_names s.lp ∧
  (∀ c ∈ common_regs co root arg,
    (∃ i, E_row.mk root arg c E_kind.root_arg i ∈ s.rows) ∧
    (∃ i, E_row.mk root arg c E_kind.arg_root i ∈ s.rows)) ∧
  (∀ c ∈ disjunct_regs co root arg,
    (co.allocatable root c = true → ∃ i, E_row.mk root arg c E_kind.root_only i ∈ s.rows) ∧
    (co.allocatable root c = false → ∃ i, E_row.mk root arg c E_kind.arg_only i ∈ s.rows))

/-- A Phi 0 with the arguments 1 (cost 10) and 2 (cost 3), two registers. The
values 1 and 2 interfere; the value 2 can only have the color 1. One block 5,
in which 1 and 2 are defined and used, then 0 (border list in list order, last
border first). -/
def unit_co : copy_opt_t where
  chordal_env :=
    { n_regs := 2
      if_nodes := [0, 1, 2]
      neighb := fun n => if n = 1 then [2] else if n = 2 then [1] else []
      has_edge := fun a b => (a = 1 && b = 2) || (a = 2 && b = 1)
      border_heads := [(5, [⟨0, false, true⟩, ⟨0, true, true⟩, ⟨2, false, true⟩,
        ⟨1, false, true⟩, ⟨2, true, true⟩, ⟨1, true, true⟩])] }
  is_optimizable := fun n => decide (n = 0)
  is_optimizable_arg := fun n => decide (n = 1 ∨ n = 2)
  allocatable := fun n c => decide (n = 2 → c = 1)
  units := [{ root := 0, args := [(1, 10), (2, 3)], min_nodes_costs := 3 }]
  nodes_interfere := fun a b => (a = 1 && b = 2) || (a = 2 && b = 1)
  phi_blocks := [[(0, [1, 2])]]

/-- The problem after the constraints A and B for `unit_co`. -/
def unit_lp_AB : lpp_t :=
  (((pi_find_simplicials unit_co new_pi_init).bind (new_pi_constr_AB unit_co)).getD
    new_pi_init).curr_lp

/-- The state in which `pi_add_constr_E` ends for `unit_co`. -/
def unit_st_E : constr_E_t :=
  (constr_E_units unit_co unit_lp_AB).getD { lp := {} }

/-- An assignment for the problem of `unit_co`: the values 0 and 1 have the
color 0, the value 2 has the color 1 (the columns `x1_0`, `x2_1`, `x0_0` have
the value 1), `y0_1` is 0 and `y0_2` is 1. -/
def unit_value_int (k : Nat) : Int :=
  if k = 1 ∨ k = 3 ∨ k = 4 ∨ k = 7 then 1 else 0

/-- The assignment `unit_value_int` as values of the solver. -/
def unit_value (k : Nat) : Rat := (unit_value_int k : Rat)

/-! ## The objective function -/

/-- The roots with their arguments, in the order in which `pi_add_constr_E`
comes to them: `(nodes[0], (nodes[i], costs[i]))` for every unit and every
`i` from 1 on. -/
def unit_pairs (co : copy_opt_t) : List (Nat × (Nat × Int)) :=
  co.units.flatMap (fun u => u.args.map (fun a => (u.root, a)))

/-- The costs of the copies that a coloring leaves: the sum, over all units and
all arguments, of `costs[i]` when the root and the argument have different
colors. -/
def copy_cost (col : Nat → Nat) (pairs : List (Nat × (Nat × Int))) : Rat :=
  (pairs.map (fun p => (p.2.2 : Rat) * (if col p.1 = col p.2.1 then 0 else 1))).sum

/-- The sum of the factors in the objective function times the values, over
the columns listed, the first of them having the number `k + 1`. -/
def objective_from (value : Nat → Rat) : Nat → List lpp_var → Rat
  | _, [] => 0
  | k, v :: vs => (v.obj : Rat) * value (k + 1) + objective_from value (k + 1) vs

/-- The value of the objective function under an assignment. -/
def lpp_objective (lp : lpp_t) (value : Nat → Rat) : Rat := objective_from value 0 lp.vars

/-- The column that `pi_add_constr_E` creates for a root and an argument. -/
def y_var (p : Nat × (Nat × Int)) : lpp_var :=
  { name := mangle_var 'y' (p.1 : Int) (p.2.1 : Int), var_type := lpp_var_t.lpp_continous,
    obj := p.2.2 }

/-- The assignment encodes the coloring for a node: of the columns of the
allocatable colors of the node, that of its color has the value 1 and the
others have the value 0. -/
def encodes (co : copy_opt_t) (lp : lpp_t) (value : Nat → Rat) (col : Nat → Nat) (n : Nat) : Prop :=
  col n ∈ allocatable_regs co n ∧
  ∀ c ∈ allocatable_regs co n, xv lp value n c = if c = col n then 1 else 0

/-- An assignment that has the values of `value0` in the first `n0` columns
and, in the column after them that belongs to a root and an argument, the
value 0 when the two have the same color and 1 when they have not. -/
def E_opt_value (col : Nat → Nat) (pairs : List (Nat × (Nat × Int))) (n0 : Nat)
    (value0 : Nat → Rat) (k : Nat) : Rat :=
  if k ≤ n0 then value0 k
  else
    match pairs.get? (k - n0 - 1) with
    | some p => if col p.1 = col p.2.1 then 0 else 1
    | none => 0

/-- The record that the reducer returns for `unit_co`. -/
def unit_r : problem_instance_t :=
  (pi_find_simplicials unit_co new_pi_init).getD new_pi_init

/-- The record after the steps A and B of `new_pi` for `unit_co`. -/
def unit_pi_AB : problem_instance_t :=
  (new_pi_constr_AB unit_co unit_r).getD new_pi_init

/-- A coloring for `unit_co`: the values 0 and 1 have the color 0, the value 2
has the color 1. -/
def unit_col (n : Nat) : Nat := if n = 2 then 1 else 0

/-! ## The constraints S: the shape of the rows -/

/-- The units for which `pi_add_constr_S` does not `continue`: those whose
`min_nodes_costs` is not 0. -/
def S_units (units : List unit_t) : List unit_t :=
  units.filter (fun u => decide (u.min_nodes_costs ≠ 0))

/-- The rows "at least `min_nodes_costs`" named `S<k>`, `S<k+1>`, ... for the
units listed. -/
def S_csts : Nat → List unit_t → List lpp_cst
  | _, [] => []
  | k, u :: rest =>
    lpp_cst.mk (mangle_cst 'S' (k : Int)) lpp_cst_t.lpp_greater u.min_nodes_costs ::
      S_csts (k + 1) rest

/-- The row with the number `r` holds the factors of the unit `u`: the factor
`costs[i]` in the column `y<root>_<arg>` of every argument, a column that
exists, and the factor 0 in all other columns. -/
def S_row_ok (lp : lpp_t) (r : Int) (u : unit_t) : Prop :=
  (∀ a ∈ u.args,
    1 ≤ lpp_get_var_idx lp (mangle_var 'y' (u.root : Int) (a.1 : Int)) ∧
    lpp_get_var_idx lp (mangle_var 'y' (u.root : Int) (a.1 : Int)) ≤ (lp.vars.length : Int) ∧
    lpp_get_factor lp r (lpp_get_var_idx lp (mangle_var 'y' (u.root : Int) (a.1 : Int))) = a.2) ∧
  ∀ j : Int, (∀ a ∈ u.args, lpp_get_var_idx lp (mangle_var 'y' (u.root : Int) (a.1 : Int)) ≠ j) →
    lpp_get_factor lp r j = 0

/-- What holds of the state of `pi_add_constr_S` entered with the problem
`lp0` after the units `done`: the columns are those of `lp0`; after the rows of
`lp0` there is one row for each unit of `done` whose `min_nodes_costs` is not 0,
named `S0`, `S1`, ... in this order, and the counter is their number; the rows
of `lp0` have the factors they had; and the row of each of these units holds
the factors of the unit. -/
structure S_inv (lp0 : lpp_t) (done : List unit_t) (st : constr_S_t) : Prop where
  wf : lp_wf st.lp
  vars : st.lp.vars = lp0.vars
  csts : st.lp.csts = lp0.csts ++ S_csts 0 (S_units done)
  counter : st.cst_counter = ((S_units done).length : Int)
  old : ∀ r j : Int, r ≤ (lp0.csts.length : Int) →
    lpp_get_factor st.lp r j = lpp_get_factor lp0 r j
  rows : ∀ (i : Nat) (u : unit_t), (S_units done).get? i = some u →
    S_row_ok st.lp ((lp0.csts.length : Int) + (i : Int) + 1) u
/-- The record after `pi_add_constr_E` for `unit_co`. -/
def unit_pi_E : problem_instance_t :=
  (pi_add_constr_E unit_co unit_pi_AB).getD new_pi_init

/-- The record after `pi_add_constr_S` for `unit_co`. -/
def unit_pi_S : problem_instance_t :=
  (pi_add_constr_S unit_co unit_pi_E).getD new_pi_init

/-! ## Two patterns for the constraints M -/

/-- A block with the Phis 0 and 1, which interfere; both have the operand 2 at
position 0 and the operand 3 at position 1. The costs of the unit of Phi 0 are
5 for the operand 2 and 7 for the operand 3, those of the unit of Phi 1 are 4
and 1. Two registers, all allocatable. -/
def m_co : copy_opt_t where
  chordal_env :=
    { n_regs := 2
      if_nodes := [0, 1, 2, 3]
      neighb := fun n => if n = 0 then [1] else if n = 1 then [0] else []
      has_edge := fun a b => (a = 0 && b = 1) || (a = 1 && b = 0)
      border_heads := [(1, [⟨2, false, true⟩, ⟨2, true, true⟩]),
        (2, [⟨3, false, true⟩, ⟨3, true, true⟩]),
        (3, [⟨1, false, true⟩, ⟨0, false, true⟩, ⟨1, true, true⟩, ⟨0, true, true⟩])] }
  is_optimizable := fun n => decide (n = 0 ∨ n = 1)
  is_optimizable_arg := fun n => decide (n = 2 ∨ n = 3)
  units := [{ root := 0, args := [(2, 5), (3, 7)], min_nodes_costs := 0 },
    { root := 1, args := [(2, 4), (3, 1)], min_nodes_costs := 0 }]
  nodes_interfere := fun a b => (a = 0 && b = 1) || (a = 1 && b = 0)
  phi_blocks := [[(0, [2, 3]), (1, [2, 3])]]

/-- The rows of a problem whose names start with `M`, each with its name, its
kind, its right-hand side and its factors in the columns 1, 2, ... -/
def M_rows (lp : lpp_t) : List (List Char × lpp_cst_t × Int × List Int) :=
  (List.range lp.csts.length).filterMap (fun i =>
    match lp.csts.get? i with
    | none => none
    | some c =>
      if c.name.head? = some 'M' then
        some (c.name, c.cst_type, c.rhs,
          (List.range lp.vars.length).map
            (fun k : Nat => lpp_get_factor lp ((i : Int) + 1) ((k : Int) + 1)))
      else none)

/-! ## What the Solution Applier and the warm start do, call by call -/

/-- The numbers that `pi_apply_solution` prints with
`printf ("Solution state is not 'optimal': %d\n", state)`: one line, with the
number of the state, when the state is not `lpp_optimal`. -/
def pi_apply_solution_printf (state : lpp_sol_state_t) : List Nat :=
  if state ≠ lpp_sol_state_t.lpp_optimal then [state.rank] else []

/-- The calls `set_irn_col` that `pi_apply_solution` makes, in order: none when
the assertion on the state fails, else those of its loop. -/
def pi_apply_solution_calls (pi : problem_instance_t) (state : lpp_sol_state_t)
    (value : Nat → Rat) : List (Nat × Int) :=
  if state ≠ lpp_sol_state_t.lpp_optimal ∧ ¬ (lpp_sol_state_t.lpp_feasible.rank ≤ state.rank) then []
  else apply_solution_calls pi value (List.range pi.last_x_var.toNat)

/-- The test `sol[i] > 1-EPSILON` of `pi_apply_solution` for the index `i`. -/
def above_threshold (value : Nat → Rat) (i : Nat) : Bool := decide (value (1 + i) > one_minus_EPSILON)

/-- What `split_var` returns for the name of the column `1 + i`. -/
def split_column (pi : problem_instance_t) (i : Nat) : Int × Int × Int :=
  split_var (lpp_get_var_name pi.curr_lp (1 + (i : Int)))

/-- The node and the color that `split_var` reads in the name of the column
`1 + i`, as `pi_apply_solution` hands them to `set_irn_col`. -/
def column_node_color (pi : problem_instance_t) (i : Nat) : Nat × Int :=
  ((split_column pi i).2.1.toNat, (split_column pi i).2.2)

/-- The coloring after a run of calls `set_irn_col (node, color)`. -/
def set_irn_cols (col : Nat → Int) (calls : List (Nat × Int)) : Nat → Int :=
  calls.foldl (fun f call => Function.update f call.1 call.2) col

/-- The value `val` that `pi_set_start_sol` computes for the column `k + 1`:
1 when the node read in its name has the color read in its name, else 0. -/
def start_value (pi : problem_instance_t) (col : Nat → Int) (k : Nat) : Int :=
  if col (column_node_color pi k).1 = (column_node_color pi k).2 then 1 else 0

/-- A coloring of the 4-cycle: the nodes 0 and 2 have the color 0, the nodes 1
and 3 the color 1. -/
def cycle_col (n : Nat) : Int := ((n % 2 : Nat) : Int)

/-! ## The file beloopana.c: register pressure in loops

Addresses of loops and of register classes are natural numbers, 0 being
`NULL`; blocks and values are given by their numbers. -/

/-- Modelled from the spec: a node of the schedule of a block (besched.h and
bearch.h, not under src/) as `be_compute_block_pressure` sees it: whether it is
a Phi and, for a register class, the values it defines and the operands it
uses that are considered for the class. -/
structure sched_node_t where
  is_Phi : Bool
  defs : Nat → List Nat
  uses : Nat → List Nat

/-- Modelled from the spec: the loop tree (irloop_t.h, not under src/),
"contained blocks and child loops". The elements of a loop in the order of
`get_loop_element`: no element left, or an element of the kind `k_ir_node`, a
block, and the elements after it, or an element of the kind `k_ir_loop`, a son
given by its address and its own elements, and the elements after it. -/
inductive loop_elements where
  | none
  | node (block : Nat) (next : loop_elements)
  | son (loop : Nat) (elements : loop_elements) (next : loop_elements)
deriving DecidableEq, Repr

/-- An `ir_loop`: its address, by which pointers to it are compared, and its
elements. -/
structure ir_loop where
  addr : Nat
  elements : loop_elements
deriving DecidableEq, Repr

/-- The parts of `ir_graph` (with the liveness, schedule, loop and architecture
interfaces reached through it) that the file reads:
* `live_end block cls`: the values that `be_liveness_end_of_block` finds live
  at the end of the block and considers for the class, in the order in which
  it inserts them;
* `sched block`: the schedule of the block, the first node first;
* `loop`: `get_irg_loop (irg)`, the pseudo-loop of the whole graph;
* `register_classes`: the addresses of `arch_env->register_classes[i]`. -/
structure ir_graph where
  live_end : Nat → Nat → List Nat
  sched : Nat → List sched_node_t
  loop : ir_loop
  register_classes : List Nat := []

/-- Modelled from the spec: `ir_nodeset_insert`, a set given by the list of its
members. -/
def ir_nodeset_insert (s : List Nat) (n : Nat) : List Nat := if n ∈ s then s else n :: s

/-- Modelled from the spec: `ir_nodeset_remove`. -/
def ir_nodeset_remove (s : List Nat) (n : Nat) : List Nat := s.filter (fun m => decide (m ≠ n))

/-- Modelled from the spec: `ir_nodeset_size`. -/
def ir_nodeset_size (s : List Nat) : Nat := s.length

/-- Modelled from the spec: `be_liveness_end_of_block`, inserts into the set the
values live at the end of the block that are considered for the class. -/
def be_liveness_end_of_block (irg : ir_graph) (cls block : Nat) (live : List Nat) : List Nat :=
  (irg.live_end block cls).foldl ir_nodeset_insert live

/-- Modelled from the spec: `be_liveness_transfer`, "removing definitions and
adding uses": the values the node defines leave the set, then its operands
enter it. -/
def be_liveness_transfer (cls : Nat) (irn : sched_node_t) (live : List Nat) : List Nat :=
  (irn.uses cls).foldl ir_nodeset_insert ((irn.defs cls).foldl ir_nodeset_remove live)

/-- The loop `sched_foreach_reverse` of `be_compute_block_pressure` over the
nodes listed, the last node of the schedule first; the result is `max_live`
after the loop. -/
def block_pressure_loop (cls : Nat) : List sched_node_t → List Nat → Nat → Nat
  | [], _, max_live => max_live
  | irn :: rest, live_nodes, max_live =>
    if irn.is_Phi then max_live
    else
      block_pressure_loop cls rest (be_liveness_transfer cls irn live_nodes)
        (max (ir_nodeset_size (be_liveness_transfer cls irn live_nodes)) max_live)

/-- The function `be_compute_block_pressure`. `max_live` is a `size_t`; the
value returned is an `unsigned`, of 32 bits. -/
def be_compute_block_pressure (irg : ir_graph) (block cls : Nat) : Nat :=
  block_pressure_loop cls (irg.sched block).reverse (be_liveness_end_of_block irg cls block [])
    (ir_nodeset_size (be_liveness_end_of_block irg cls block [])) % 2 ^ 32

/-- The record `be_loop_info_t`. -/
structure be_loop_info_t where
  loop : Nat
  cls : Nat
  max_pressure : Nat
deriving DecidableEq, Repr

/-- The record `be_loopana_t`; `data` lists the entries of the set. -/
structure be_loopana_t where
  data : List be_loop_info_t
  irg : ir_graph

/-- The function `cmp_loop_info`: 0 when the two entries have the same loop and
the same class. -/
def cmp_loop_info (i1 i2 : be_loop_info_t) : Int :=
  if i1.loop = i2.loop ∧ i1.cls = i2.cls then 0 else 1

/-- Modelled from the spec: `set_find` of set.h with the compare function
`cmp_loop_info`, the entry that compares equal to the key, if there is one.
(The hash value handed over is computed from the two fields compared, so
entries that compare equal have the same one.) -/
def set_find (data : List be_loop_info_t) (key : be_loop_info_t) : Option be_loop_info_t :=
  data.find? (fun e => decide (cmp_loop_info e key = 0))

/-- Modelled from the spec: `set_insert` of set.h with the compare function
`cmp_loop_info`: when no entry compares equal to the key a copy of the key is
entered; the result is the set and the place of the entry that compares equal
to the key, to which the pointer returned points. -/
def set_insert : List be_loop_info_t → be_loop_info_t → List be_loop_info_t × Nat
  | [], key => ([key], 0)
  | e :: rest, key =>
    if cmp_loop_info e key = 0 then (e :: rest, 0)
    else (e :: (set_insert rest key).1, (set_insert rest key).2 + 1)

/-- The lines "update info in set" of `be_compute_loop_pressure`: the key with
`max_pressure = 0` is handed to `set_insert`, and the entry returned gets
`MAX (entry->max_pressure, pressure)`. -/
def loop_info_update (data : List be_loop_info_t) (loop cls pressure : Nat) :
    List be_loop_info_t :=
  match set_insert data { loop := loop, cls := cls, max_pressure := 0 } with
  | (data1, i) =>
    match data1.get? i with
    | none => data1
    | some entry => data1.set i { entry with max_pressure := max entry.max_pressure pressure }

/-- What a call of `be_compute_loop_pressure` leaves: the analysis object, the
value returned, and the blocks for which `be_compute_block_pressure` has been
called, in the order of the calls. -/
structure loop_pressure_t where
  loop_ana : be_loopana_t
  pressure : Nat
  blocks : List Nat

/-- The loop of `be_compute_loop_pressure` over the elements listed, with the
calls of the function for the sons; `none` when the assertion
`get_loop_n_elements (loop) > 0` fails for a son. -/
def loop_pressure_elements (cls : Nat) : loop_elements → loop_pressure_t → Option loop_pressure_t
  | loop_elements.none, st => some st
  | loop_elements.node block next, st =>
    loop_pressure_elements cls next
      { st with
        pressure := max st.pressure (be_compute_block_pressure st.loop_ana.irg block cls)
        blocks := st.blocks ++ [block] }
  | loop_elements.son loop elements next, st =>
    if elements = loop_elements.none then none
    else
      match loop_pressure_elements cls elements { st with pressure := 0 } with
      | none => none
      | some st1 =>
        loop_pressure_elements cls next
          { loop_ana := { st1.loop_ana with
              data := loop_info_update st1.loop_ana.data loop cls st1.pressure }
            pressure := max st.pressure st1.pressure
            blocks := st1.blocks }

/-- The function `be_compute_loop_pressure`; `none` when an assertion fails. -/
def be_compute_loop_pressure (loop_ana : be_loopana_t) (loop : ir_loop) (cls : Nat) :
    Option loop_pressure_t :=
  if loop.elements = loop_elements.none then none
  else
    (loop_pressure_elements cls loop.elements
      { loop_ana := loop_ana, pressure := 0, blocks := [] }).map
      (fun st => { st with loop_ana := { st.loop_ana with
        data := loop_info_update st.loop_ana.data loop.addr cls st.pressure } })

/-- The function `be_new_loop_pressure_cls`. -/
def be_new_loop_pressure_cls (irg : ir_graph) (cls : Nat) : Option be_loopana_t :=
  (be_compute_loop_pressure { data := [], irg := irg } irg.loop cls).map (fun r => r.loop_ana)

/-- The function `be_new_loop_pressure`: for one class when `cls != NULL`, else
for all classes, the last one first. -/
def be_new_loop_pressure (irg : ir_graph) (cls : Nat) : Option be_loopana_t :=
  if cls ≠ 0 then
    (be_compute_loop_pressure { data := [], irg := irg } irg.loop cls).map (fun r => r.loop_ana)
  else
    irg.register_classes.reverse.foldlM
      (fun loop_ana c => (be_compute_loop_pressure loop_ana irg.loop c).map (fun r => r.loop_ana))
      { data := [], irg := irg }

/-- How a call of `be_get_loop_pressure` ends: with a value, with the failure of
the assertion `cls && loop`, or in
`panic ("Pressure not computed for given class and loop object.")`. -/
inductive get_pressure_t where
  | value (pressure : Nat)
  | assertion_failed
  | panicked
deriving DecidableEq, Repr

/-- The function `be_get_loop_pressure`. -/
def be_get_loop_pressure (loop_ana : be_loopana_t) (cls loop : Nat) : get_pressure_t :=
  if cls = 0 ∨ loop = 0 then get_pressure_t.assertion_failed
  else
    match set_find loop_ana.data { loop := loop, cls := cls, max_pressure := 0 } with
    | some entry => get_pressure_t.value entry.max_pressure
    | none => get_pressure_t.panicked

/-- The nodes that the loop of `be_compute_block_pressure` hands to
`be_liveness_transfer`: those of the schedule from the last one backwards, up
to the first Phi met. -/
def transfer_nodes (sched : List sched_node_t) : List sched_node_t :=
  sched.reverse.takeWhile (fun irn => !irn.is_Phi)

/-- The live set on entry and the live set after each transfer over the nodes
listed. -/
def live_sets (cls : Nat) : List Nat → List sched_node_t → List (List Nat)
  | live, [] => [live]
  | live, irn :: rest => live :: live_sets cls (be_liveness_transfer cls irn live) rest

/-- The values of which the pressure of a loop is the largest, one for each
element: for a block what `be_compute_block_pressure` returns, for a son the
pressure of the son, which is the largest of its values in turn. -/
def element_values (irg : ir_graph) (cls : Nat) : loop_elements → List Nat
  | loop_elements.none => []
  | loop_elements.node block next =>
    be_compute_block_pressure irg block cls :: element_values irg cls next
  | loop_elements.son _ elements next =>
    (element_values irg cls elements).foldl max 0 :: element_values irg cls next

/-- The pressure of a loop with the elements given, in the words of the
specification: "recursively take the max over contained blocks and child
loops". -/
def loop_pressure (irg : ir_graph) (cls : Nat) (elements : loop_elements) : Nat :=
  (element_values irg cls elements).foldl max 0

/-- Every loop among the elements, at any depth, has at least one element. -/
def elements_ok : loop_elements → Bool
  | loop_elements.none => true
  | loop_elements.node _ next => elements_ok next
  | loop_elements.son _ elements next =>
    decide (elements ≠ loop_elements.none) && elements_ok elements && elements_ok next

/-- The loops among the elements, at any depth, in the order in which
`be_compute_loop_pressure` finishes with them: the loops inside a son come
before the son. -/
def sub_loops : loop_elements → List ir_loop
  | loop_elements.none => []
  | loop_elements.node _ next => sub_loops next
  | loop_elements.son loop elements next =>
    sub_loops elements ++ ir_loop.mk loop elements :: sub_loops next

/-- The loops of the tree below a loop, the loop itself last. -/
def all_loops (loop : ir_loop) : List ir_loop := sub_loops loop.elements ++ [loop]

/-- The blocks among the elements, at any depth, in the order in which
`be_compute_loop_pressure` comes to them. -/
def blocks_of : loop_elements → List Nat
  | loop_elements.none => []
  | loop_elements.node block next => block :: blocks_of next
  | loop_elements.son _ elements next => blocks_of elements ++ blocks_of next

/-- The set after the lines "update info in set" have been run for the loops
listed, each with its pressure. -/
def store_loops (irg : ir_graph) (cls : Nat) (data : List be_loop_info_t)
    (loops : List ir_loop) : List be_loop_info_t :=
  loops.foldl (fun d L => loop_info_update d L.addr cls (loop_pressure irg cls L.elements)) data

/-- The set has an entry for the loop and the class, with at least the
pressure given. -/
def has_entry (data : List be_loop_info_t) (loop cls pressure : Nat) : Prop :=
  ∃ e, set_find data { loop := loop, cls := cls, max_pressure := 0 } = some e ∧
    pressure ≤ e.max_pressure

/-- A graph with the loop tree 100 (block 1, loop 101, block 4), 101 (block 2,
loop 102), 102 (block 3). For the class 7: block 1 has the values 10 and 11
live at its end and holds a Phi and two other nodes, block 2 has one value live
at its end and a node with four operands, block 3 holds a Phi only, block 4
nothing. -/
def loop_irg : ir_graph where
  live_end := fun block cls =>
    if cls = 7 then
      if block = 1 then [10, 11] else if block = 2 then [20] else if block = 3 then [30, 31]
      else []
    else []
  sched := fun block =>
    if block = 1 then
      [⟨true, fun _ => [12], fun _ => []⟩, ⟨false, fun _ => [13], fun _ => [10, 12]⟩,
        ⟨false, fun _ => [11], fun _ => [13, 14]⟩]
    else if block = 2 then [⟨false, fun _ => [20], fun _ => [21, 22, 23, 24]⟩]
    else if block = 3 then [⟨true, fun _ => [30], fun _ => []⟩]
    else []
  loop := ⟨100, loop_elements.node 1 (loop_elements.son 101
    (loop_elements.node 2 (loop_elements.son 102
      (loop_elements.node 3 loop_elements.none) loop_elements.none))
    (loop_elements.node 4 loop_elements.none))⟩
  register_classes := [7, 8]

/-- The entry that `be_compute_loop_pressure` makes for a loop in a set that
has none for it. -/
def loop_entry (irg : ir_graph) (cls : Nat) (L : ir_loop) : be_loop_info_t :=
  { loop := L.addr, cls := cls, max_pressure := loop_pressure irg cls L.elements }

/-- An analysis object with an entry for the loop 100 and the class 7 and one
for the loop 101 and the class 8. -/
def two_entries : be_loopana_t :=
  { data := [{ loop := 100, cls := 7, max_pressure := 3 },
      { loop := 101, cls := 8, max_pressure := 5 }],
    irg := loop_irg }

/-- A fresh analysis object for `loop_irg`, as `be_new_loop_pressure_cls` makes
it before it calls `be_compute_loop_pressure`. -/
def fresh_ana : be_loopana_t := { data := [], irg := loop_irg }

/-- The analysis object that `be_new_loop_pressure_cls` returns for `loop_irg`
and the class 7. -/
def loop_ana_7 : be_loopana_t := (be_new_loop_pressure_cls loop_irg 7).getD fresh_ana

/-! ## The constraints M: what the row says -/

/-- A factor write of `M_constr_walker`, seen from the problem `lp0` that
`pi_add_constr_M` is entered with: it stands in the row after the rows of `lp0`
and in a column `y<phi>_<irn>` that exists, and its value is
`get_costs (pi, phi, irn)`. -/
def M_entry_ok (co : copy_opt_t) (lp0 : lpp_t) (e : Int × Int × Int) : Prop :=
  e.1 = (lp0.csts.length : Int) + 1 ∧
  ∃ phi irn : Nat, get_costs co.units phi irn = some e.2.2 ∧
    e.2.1 = lpp_get_var_idx lp0 (mangle_var 'y' (phi : Int) (irn : Int)) ∧ 1 ≤ e.2.1

/-- The row `M0` has been added for a first pattern, the operand `irn0` shared
by the Phis listed in `F`, each with its costs: the Phis have colors that
differ from each other, the row is "at least `minimal_costs`" of these costs, and
the factors of the pattern have been written. -/
def M_first (co : copy_opt_t) (col : Nat → Nat) (lp0 lp : lpp_t) (F : List (Nat × Int))
    (irn0 : Nat) : Prop :=
  F ≠ [] ∧ (F.map (fun p => col p.1)).Nodup ∧
  (∀ p ∈ F, get_costs co.units p.1 irn0 = some p.2) ∧
  lp.csts = lp0.csts ++
    [lpp_cst.mk (mangle_cst 'M' 0) lpp_cst_t.lpp_greater (M_minimal_costs F)] ∧
  ∀ p ∈ F, (((lp0.csts.length : Int) + 1,
    lpp_get_var_idx lp0 (mangle_var 'y' (p.1 : Int) (irn0 : Int)), p.2) : Int × Int × Int) ∈
      lp.matrix

/-- What holds of the problem all through `pi_add_constr_M` entered with the
problem `lp0`, for a coloring `col`: the columns are those of `lp0`, the
factors stand in rows and columns that exist, the factors written are all
factor writes of the walker in the one row after the rows of `lp0`, and either
no row has been added or the row `M0` has been added for a first pattern. -/
structure M_inv (co : copy_opt_t) (col : Nat → Nat) (lp0 lp : lpp_t) : Prop where
  vars : lp.vars = lp0.vars
  wf : lp_wf lp
  matrix : ∃ em, lp.matrix = em ++ lp0.matrix ∧ ∀ e ∈ em, M_entry_ok co lp0 e
  rows : (lp.csts = lp0.csts ∧ lp.matrix = lp0.matrix) ∨
    ∃ F irn0, M_first co col lp0 lp F irn0

/-- The Phis of every pattern that `M_constr_walker` finds (an operand at the
same position of several Phis of a block with which it does not interfere)
have colors that differ from each other. -/
def M_colors_differ (co : copy_opt_t) (col : Nat → Nat) : Prop :=
  ∀ phis ∈ co.phi_blocks, ∀ c, c < (phis.headD (0, [])).2.length →
    ∀ row, row < phis.length → ∀ irn ∈ (phi_matrix co phis row c).toList,
      ((M_candidates co phis c row irn).map (fun i => col (phis.getD i (0, [])).1)).Nodup

instance (co : copy_opt_t) (col : Nat → Nat) : Decidable (M_colors_differ co col) := by
  unfold M_colors_differ; infer_instance

/-- The record after `pi_add_constr_S` for `m_co`. -/
def m_pi_S : problem_instance_t :=
  ((((pi_find_simplicials m_co new_pi_init).bind (new_pi_constr_AB m_co)).bind
    (pi_add_constr_E m_co)).bind (pi_add_constr_S m_co)).getD new_pi_init

/-- The record after `pi_add_constr_M` for `m_co`. -/
def m_pi_M : problem_instance_t := (pi_add_constr_M m_co m_pi_S).getD new_pi_init

/-- A coloring for `m_co`: the Phi 0 and the operand 2 have the color 0, the
Phi 1 and the operand 3 have the color 1. -/
def m_col (n : Nat) : Nat := if n = 1 ∨ n = 3 then 1 else 0

/-- The assignment for `m_co` that encodes the coloring `m_col`: 1 in the
columns `x2_0`, `x3_1`, `x0_0`, `x1_1` and in the columns `y0_3` and `y1_2`
of the pairs colored differently, 0 elsewhere. -/
def m_value (k : Nat) : Rat :=
  if k = 1 ∨ k = 4 ∨ k = 5 ∨ k = 8 ∨ k = 10 ∨ k = 11 then 1 else 0

/-! ## A block with a definition that is not used -/

/-- A graph with one block 1 in which, for the class 7, the values 1 and 2 are
live at the end and the only node defines the value 3 and has the operands 1
and 2. -/
def dead_def_irg : ir_graph where
  live_end := fun block cls => if block = 1 ∧ cls = 7 then [1, 2] else []
  sched := fun block =>
    if block = 1 then [⟨false, fun _ => [3], fun _ => [1, 2]⟩] else []
  loop := ⟨100, loop_elements.node 1 loop_elements.none⟩
  register_classes := [7]

/-! ## The constraints M: the patterns of a column -/

/-- The values `irn` for which the loop over the rows of a column of
`M_constr_walker` comes to the line "now we know all occurences of irn in this
col", in the order of the rows listed, each with the bits of `candidates` at
that line; `done` is the pset of the values dealt with in this column. -/
def M_col_patterns (co : copy_opt_t) (phis : List (Nat × List Nat)) (col : Nat) :
    List Nat → List Nat → List (Nat × List Nat)
  | [], _ => []
  | row :: rest, done =>
    match phi_matrix co phis row col with
    | none => M_col_patterns co phis col rest done
    | some irn =>
      if pset_find_ptr done irn then M_col_patterns co phis col rest done
      else (irn, M_candidates co phis col row irn) ::
        M_col_patterns co phis col rest (pset_insert_ptr done irn)

/-- Every entry of the set belongs to one of the loops listed and holds, for
its class, the pressure of that loop. -/
def entries_exact (irg : ir_graph) (loops : List ir_loop) (data : List be_loop_info_t) : Prop :=
  ∀ e ∈ data, ∃ L ∈ loops, e.loop = L.addr ∧ e.max_pressure = loop_pressure irg e.cls L.elements

/-- The constant `INT_MAX` of limits.h for an `int` of 32 bits, the value
`be_get_loop_pressure` gives its variable `pressure` at its declaration. -/
def INT_MAX : Nat := 2147483647

/-- The names that `M_constr_walker` hands to `lpp_add_cst` in a block with the
Phis listed, in the order of the calls: one for every pattern with at least two
candidates, column by column. The name is made by
`mangle_cst (buf, 'M', cst_counter++)` from the variable `cst_counter` that is
declared, with the value 0, in the block of the code that makes the name. -/
def M_walker_cst_names (co : copy_opt_t) (phis : List (Nat × List Nat)) : List (List Char) :=
  if phis.length < 2 then []
  else
    (List.range (phis.headD (0, [])).2.length).flatMap (fun col =>
      ((M_col_patterns co phis col (List.range phis.length) []).filter
        (fun p => decide (2 ≤ p.2.length))).map (fun _ => mangle_cst 'M' 0))

/-! ## The constraints E: the list of the rows -/

/-- What a row recorded for `pi_add_constr_E` was added for: root, argument,
color and place. -/
def E_row_key (e : E_row) : Nat × Nat × Nat × E_kind := (e.root, e.arg, e.color, e.kind)

/-- The rows of a root and an argument in the words of the specification: for
each color the two have in common the row `x_root - x_arg - y` and the row
`- x_root + x_arg - y`, then for each color in the symmetric difference of
their color sets the single row `x_owner - y`, the owner being the one of the
two that admits the color. -/
def E_rows_by_spec (co : copy_opt_t) (root arg : Nat) : List (Nat × Nat × Nat × E_kind) :=
  (common_regs co root arg).flatMap
      (fun c => [(root, arg, c, E_kind.root_arg), (root, arg, c, E_kind.arg_root)]) ++
    (disjunct_regs co root arg).map
      (fun c => (root, arg, c,
        if co.allocatable root c then E_kind.root_only else E_kind.arg_only))

/-! ## One Phi with two arguments that interfere -/

/-- A Phi 0 with the arguments 1 (cost 10) and 2 (cost 3), two registers that
all three can have. The values 1 and 2 interfere; neither interferes with the
Phi. One block 5, in which 1 and 2 are defined and used, then 0 (border list in
list order, last border first). No bound `min_nodes_costs` is given, so that
`pi_add_constr_S` adds nothing, and the one Phi gives no pattern for
`pi_add_constr_M`: the problem is that of the constraints A, B and E. -/
def phi2_co : copy_opt_t where
  chordal_env :=
    { n_regs := 2
      if_nodes := [0, 1, 2]
      neighb := fun n => if n = 1 then [2] else if n = 2 then [1] else []
      has_edge := fun a b => (a = 1 && b = 2) || (a = 2 && b = 1)
      border_heads := [(5, [⟨0, false, true⟩, ⟨0, true, true⟩, ⟨2, false, true⟩,
        ⟨1, false, true⟩, ⟨2, true, true⟩, ⟨1, true, true⟩])] }
  is_optimizable := fun n => decide (n = 0)
  is_optimizable_arg := fun n => decide (n = 1 ∨ n = 2)
  units := [{ root := 0, args := [(1, 10), (2, 3)], min_nodes_costs := 0 }]
  nodes_interfere := fun a b => (a = 1 && b = 2) || (a = 2 && b = 1)
  phi_blocks := [[(0, [1, 2])]]

/-- The record that `new_pi` returns for `phi2_co`. -/
def phi2_pi : problem_instance_t := (new_pi phi2_co).getD new_pi_init

/-- The factors of a row in the columns 1, 2, ... of the problem. -/
def row_factors (lp : lpp_t) (cst_idx : Int) : List Int :=
  (List.range lp.vars.length).map (fun k : Nat => lpp_get_factor lp cst_idx ((k : Int) + 1))

/-- The sum of the factors listed times the values of the columns, the first
factor being that of the column `k + 1`. -/
def factors_value (value : Nat → Rat) : Nat → List Int → Rat
  | _, [] => 0
  | k, a :: rest => (a : Rat) * value (k + 1) + factors_value value (k + 1) rest

/-- The columns `1 .. last_x_var`, those of the x variables, have the value 0
or 1. -/
def x_binary (pi : problem_instance_t) (value : Nat → Rat) : Prop :=
  ∀ k : Nat, 1 ≤ k → (k : Int) ≤ pi.last_x_var → value k = 0 ∨ value k = 1

/-- The assignment for `phi2_co` that gives the Phi 0 and the argument 1 the
color 0 and the argument 2 the color 1: the columns `x1_0`, `x2_1`, `x0_0` and
`y0_2` have the value 1. -/
def phi2_value_int (k : Nat) : Int := if k = 1 ∨ k = 4 ∨ k = 5 ∨ k = 8 then 1 else 0

/-- The assignment for `phi2_co` that gives the argument 1 the color 0 and the
Phi 0 and the argument 2 the color 1: the columns `x1_0`, `x2_1`, `x0_1` and
`y0_1` have the value 1. -/
def phi2_other_int (k : Nat) : Int := if k = 1 ∨ k = 4 ∨ k = 6 ∨ k = 7 then 1 else 0

/-! ## The costs and the optimum -/

/-- Modelled from the spec: what the solver takes for a solution of the
problem (the solver is reached through the lpp library, not under src/): every
row holds, a column of the kind `lpp_binary` (the x variables) has the value 0
or 1, and a column of the kind `lpp_continous` (the y variables, "relaxed to
continuous in [0,1]") has a value from 0 to 1. -/
def lpp_solution (lp : lpp_t) (value : Nat → Rat) : Prop :=
  lpp_feasible_for lp value ∧
  ∀ (k : Nat) (v : lpp_var), lp.vars.get? k = some v →
    match v.var_type with
    | lpp_var_t.lpp_binary => value (k + 1) = 0 ∨ value (k + 1) = 1
    | lpp_var_t.lpp_continous => 0 ≤ value (k + 1) ∧ value (k + 1) ≤ 1

/-- An optimal solution: a solution with the least value of the objective
function (the problem is a minimization). -/
def lpp_optimal (lp : lpp_t) (value : Nat → Rat) : Prop :=
  lpp_solution lp value ∧
  ∀ value2 : Nat → Rat, lpp_solution lp value2 → lpp_objective lp value ≤ lpp_objective lp value2

/-- The costs paid for a unit under an assignment: the sum, over the
arguments, of `costs[i]` times the value of `y<root>_<arg>`. -/
def unit_paid (lp : lpp_t) (root : Nat) (args : List (Nat × Int)) (value : Nat → Rat) : Rat :=
  (args.map (fun a => (a.2 : Rat) * yv lp value root a.1)).sum

/-- The assignment `v` with the values of the columns after the first `n0`
raised towards those of `w`, by the part `lam` of the difference where `w` is
larger. -/
def topped_up (n0 : Nat) (lam : Rat) (v w : Nat → Rat) (k : Nat) : Rat :=
  if k ≤ n0 then v k else v k + lam * max (w k - v k) 0

/-- What the proof needs of the problem built for one unit with the root
`root`, the arguments `args` and the bound `m`, on top of the problem `lp0` of
the constraints A and B, with the rows E recorded in `rows`. -/
structure unit_problem (lp0 : lpp_t) (root : Nat) (args : List (Nat × Int)) (m : Int)
    (rows : List E_row) (lp : lpp_t) : Prop where
  vars : lp.vars = lp0.vars ++ args.map (fun a => y_var (root, a))
  yidx : ∀ (i : Nat) (a : Nat × Int), args.get? i = some a →
    lpp_get_var_idx lp (mangle_var 'y' (root : Int) (a.1 : Int)) =
      ((lp0.vars.length + i + 1 : Nat) : Int)
  AB : ∀ k, k < lp0.csts.length → ∀ value : Nat → Rat,
    (lpp_cst_holds lp value k ↔ lpp_cst_holds lp0 value k)
  E : ∀ e ∈ rows, ∀ value : Nat → Rat,
    (lpp_cst_holds lp value (e.cst_idx - 1).toNat ↔ E_row_value lp value e ≤ 0)
  Eidx : rows.reverse.map (fun e => e.cst_idx) =
    (List.range rows.length).map (fun i : Nat => (lp0.csts.length : Int) + (i : Int) + 1)
  ncsts : lp.csts.length = lp0.csts.length + rows.length + (if m = 0 then 0 else 1)
  S : m ≠ 0 → ∀ value : Nat → Rat,
    (lpp_cst_holds lp value (lp0.csts.length + rows.length) ↔
      (m : Rat) ≤ unit_paid lp root args value)
  obj : ∀ value : Nat → Rat, lpp_objective lp value = unit_paid lp root args value

/-- The third scenario with a register class of `n` colors: the problem
`phi2_co` with `n` registers, all of which the Phi 0 and its arguments 1 and 2
can have. -/
def phi2n_co (n : Nat) : copy_opt_t :=
  { phi2_co with chordal_env := { phi2_co.chordal_env with n_regs := n } }

/-- What holds of the record of the scenario after the constraints B of the
colors below `c`, `lpA` being the problem after the constraints A: the rows
`B0`, ..., `B<c-1>` have been added, and the factor 1 stands in the row `B<i>`
in the columns `x2_<i>` and `x1_<i>`. -/
structure phi2n_B_inv (lpA : lpp_t) (c : Nat) (pi : problem_instance_t) : Prop where
  removed : pi.removed = []
  counter : pi.cst_counter = (c : Int)
  vars : pi.curr_lp.vars = lpA.vars
  csts : pi.curr_lp.csts = lpA.csts ++ (List.range c).map
    (fun i : Nat => lpp_cst.mk (mangle_cst 'B' (i : Int)) lpp_cst_t.lpp_less 1)
  matrix : ∀ e, e ∈ pi.curr_lp.matrix ↔ e ∈ lpA.matrix ∨ ∃ i, i < c ∧
    (e = ((lpA.csts.length : Int) + (i : Int) + 1,
        lpp_get_var_idx lpA (mangle_var 'x' 2 (i : Int)), (1 : Int)) ∨
     e = ((lpA.csts.length : Int) + (i : Int) + 1,
        lpp_get_var_idx lpA (mangle_var 'x' 1 (i : Int)), (1 : Int)))

/-- The unit of the third scenario: the Phi 0 with the arguments 1 (costs 10)
and 2 (costs 3), without a bound `min_nodes_costs`. -/
def phi2_u : unit_t := { root := 0, args := [(1, 10), (2, 3)], min_nodes_costs := 0 }

/-- What holds of the run of `new_pi` for the scenario with `n` colors: `piA`
is the record after the constraints A, `piAB` the one after the constraints B,
`st` the state in which `pi_add_constr_E` ends and `pi` the record returned. -/
structure phi2n_run (n : Nat) (piA piAB : problem_instance_t) (st : constr_E_t)
    (pi : problem_instance_t) : Prop where
  bound : n ≤ 2 ^ 29
  A : a_state (phi2n_co n) [] (mk_done (phi2n_co n) [1, 2, 0]) piA
  ok : done_ok (mk_done (phi2n_co n) [1, 2, 0])
  B : phi2n_B_inv piA.curr_lp n piAB
  ext : lp_ext piA.curr_lp piAB.curr_lp
  lastB : piAB.last_x_var = piA.last_x_var
  E : E_inv (phi2n_co n) piAB.curr_lp st
  E1 : E_pair_done (phi2n_co n) 0 1 st
  E2 : E_pair_done (phi2n_co n) 0 2 st
  unit : unit_problem piAB.curr_lp 0 [(1, 10), (2, 3)] 0 st.rows st.lp
  run : new_pi (phi2n_co n) = some pi
  lp : pi.curr_lp = st.lp
  last : pi.last_x_var = piAB.last_x_var
  cols : ∀ v ∈ [1, 2, 0], ∀ c, c < n →
    mangle_var 'x' ((v : Nat) : Int) (c : Int) ∈ var_names piA.curr_lp
  x0 : ∀ nm ∈ var_names piAB.curr_lp, nm.head? ≠ some 'y'
  Erows : ∀ e ∈ st.rows, e.root = 0 ∧ (e.arg = 1 ∨ e.arg = 2)
  nrows : st.rows.length = 4 * n

/-- The assignment of the columns `x` that a coloring gives: the column named
`x<n>_<c>` has the value 1 when `c` is the color of the node `n`, every other
column the value 0. -/
def coloring_value (lp : lpp_t) (col : Nat → Nat) (k : Nat) : Rat :=
  if (split_var (lpp_get_var_name lp (k : Int))).1 = 2 ∧
      ((col (split_var (lpp_get_var_name lp (k : Int))).2.1.toNat : Nat) : Int) =
        (split_var (lpp_get_var_name lp (k : Int))).2.2 then 1 else 0

/-- The assignment for the problem of the scenario that a coloring of the Phi
and its arguments gives: the columns `x` of the problem `lp0` of the
constraints A and B as in `coloring_value`, and after them the columns `y0_1`
and `y0_2`, each with the value 0 when the argument has the color of the Phi
and 1 when it has not. -/
def phi2n_value (lp0 : lpp_t) (col : Nat → Nat) : Nat → Rat :=
  E_opt_value col [(0, (1, 10)), (0, (2, 3))] lp0.vars.length (coloring_value lp0 col)

/-- The pops of the loop of `pi_set_simplicials`, in their order (up to an
abort): the record and the coloring as they are when the entry is reached, the
node, and the color `free_col` given to it. This is not a variable of the
function; it records the states in which `set_free_col` is computed. -/
def set_simplicials_pops (co : copy_opt_t) :
    List Nat → problem_instance_t → (Nat → Int) →
      List (problem_instance_t × (Nat → Int) × Nat × Int)
  | [], _, _ => []
  | ifn :: rest, pi, col =>
    match set_free_col co pi col ifn with
    | none => []
    | some free_col =>
      if free_col = -1 then []
      else
        (pi, col, ifn, free_col) ::
          set_simplicials_pops co rest (set_restore pi ifn) (Function.update col ifn free_col)

theorem mem_pset_insert_ptr {α : Type} [DecidableEq α] (s : List α) (p q : α) :
    q ∈ pset_insert_ptr s p ↔ q ∈ s ∨ q = p := by
  unfold pset_insert_ptr
  by_cases h : p ∈ s
  · simp only [h, if_true]
    constructor
    · intro hq; exact Or.inl hq
    · rintro (hq | rfl)
      · exact hq
      · exact h
  · simp only [h, if_false, List.mem_cons]
    tauto

theorem mem_pset_remove_ptr {α : Type} [DecidableEq α] (s : List α) (p q : α) :
    q ∈ pset_remove_ptr s p ↔ q ∈ s ∧ q ≠ p := by
  simp [pset_remove_ptr]

theorem is_removed_eq_true (pi : problem_instance_t) (p : ptr_t) :
    is_removed pi p = true ↔ p ∈ pi.removed := by
  simp [is_removed, pset_find_ptr]

theorem is_removed_eq_false (pi : problem_instance_t) (p : ptr_t) :
    is_removed pi p = false ↔ p ∉ pi.removed := by
  simp [is_removed, pset_find_ptr]

theorem only_ir_nodes_init : only_ir_nodes new_pi_init := by
  intro p hp
  simp [new_pi_init] at hp

theorem only_ir_nodes_find_remove {pi : problem_instance_t} (h : only_ir_nodes pi) (n : Nat) :
    only_ir_nodes (find_remove pi n) := by
  intro p hp
  rcases (mem_pset_insert_ptr _ _ _).1 hp with hp | hp
  · exact h p hp
  · exact ⟨n, hp⟩

theorem is_removed_if_node {pi : problem_instance_t} (h : only_ir_nodes pi) (c : Nat) :
    is_removed pi (ptr_t.if_node c) = false := by
  rw [is_removed_eq_false]
  intro hc
  obtain ⟨n, hn⟩ := h _ hc
  cases hn

/-- With addresses of `ir_node`s only in the removed set, the array `all` of
`pi_is_simplicial` holds every neighbour. -/
theorem pi_is_simplicial_eq {co : copy_opt_t} {pi : problem_instance_t} (h : only_ir_nodes pi)
    (ifn : Nat) :
    pi_is_simplicial co pi ifn =
      if all_form_clique co.chordal_env (co.chordal_env.neighb ifn) then 1 else 0 := by
  unfold pi_is_simplicial
  have : (co.chordal_env.neighb ifn).filter (fun curr => !is_removed pi (ptr_t.if_node curr))
      = co.chordal_env.neighb ifn := by
    apply List.filter_eq_self.2
    intro a _
    simp [is_removed_if_node h a]
  simp only [this]

theorem all_form_clique_pairwise (env : be_chordal_env_t) (l : List Nat) :
    all_form_clique env l = true ↔ l.Pairwise (fun a b => env.has_edge a b = true) := by
  induction l with
  | nil => simp [all_form_clique]
  | cons a rest ih =>
    simp only [all_form_clique, Bool.and_eq_true, List.all_eq_true, List.pairwise_cons, ih]

theorem all_form_clique_edge {env : be_chordal_env_t} {l : List Nat}
    (h : all_form_clique env l = true) {a b : Nat} (ha : a ∈ l) (hb : b ∈ l) (hab : a ≠ b) :
    env.has_edge a b = true ∨ env.has_edge b a = true := by
  rw [all_form_clique_pairwise] at h
  induction l with
  | nil => cases ha
  | cons x rest ih =>
    rw [List.pairwise_cons] at h
    rcases List.mem_cons.1 ha with rfl | ha'
    · rcases List.mem_cons.1 hb with rfl | hb'
      · exact absurd rfl hab
      · exact Or.inl (h.1 b hb')
    · rcases List.mem_cons.1 hb with rfl | hb'
      · exact Or.inr (h.1 a ha')
      · exact ih h.2 ha' hb'

theorem all_form_clique_sublist {env : be_chordal_env_t} {l l' : List Nat}
    (hs : l'.Sublist l) (h : all_form_clique env l = true) : all_form_clique env l' = true := by
  rw [all_form_clique_pairwise] at h ⊢
  exact h.sublist hs

/-! ## The reducer: what holds at every removal -/

theorem find_pass_events_spec (co : copy_opt_t) (P : problem_instance_t → Prop)
    (hP : ∀ pi n, P pi → find_cond co pi n = true → P (find_remove pi n)) :
    ∀ (l : List Nat) (pi : problem_instance_t), P pi →
      ∀ e ∈ find_pass_events co l pi, P e.1 ∧ find_cond co e.1 e.2 = true ∧ e.2 ∈ l := by
  intro l
  induction l with
  | nil => intro pi _ e he; simp [find_pass_events] at he
  | cons ifn rest ih =>
    intro pi hpi e he
    unfold find_pass_events at he
    by_cases hc : find_cond co pi ifn = true
    · rw [if_pos hc] at he
      rcases List.mem_cons.1 he with rfl | he'
      · exact ⟨hpi, hc, List.mem_cons_self _ _⟩
      · obtain ⟨h1, h2, h3⟩ := ih _ (hP pi ifn hpi hc) e he'
        exact ⟨h1, h2, List.mem_cons_of_mem _ h3⟩
    · rw [if_neg hc] at he
      obtain ⟨h1, h2, h3⟩ := ih _ hpi e he
      exact ⟨h1, h2, List.mem_cons_of_mem _ h3⟩

theorem find_pass_spec (co : copy_opt_t) (P : problem_instance_t → Prop)
    (hP : ∀ pi n, P pi → find_cond co pi n = true → P (find_remove pi n)) :
    ∀ (l : List Nat) (pi : problem_instance_t) (redo : Bool), P pi →
      P (find_pass co l pi redo).1 := by
  intro l
  induction l with
  | nil => intro pi redo h; simpa [find_pass] using h
  | cons ifn rest ih =>
    intro pi redo h
    unfold find_pass
    by_cases hc : find_cond co pi ifn = true
    · rw [if_pos hc]; exact ih _ _ (hP pi ifn h hc)
    · rw [if_neg hc]; exact ih _ _ h

theorem find_while_events_spec (co : copy_opt_t) (P : problem_instance_t → Prop)
    (hP : ∀ pi n, P pi → find_cond co pi n = true → P (find_remove pi n)) :
    ∀ (fuel : Nat) (pi : problem_instance_t), P pi →
      ∀ e ∈ find_while_events co fuel pi,
        P e.1 ∧ find_cond co e.1 e.2 = true ∧ e.2 ∈ co.chordal_env.if_nodes := by
  intro fuel
  induction fuel with
  | zero => intro pi _ e he; simp [find_while_events] at he
  | succ fuel ih =>
    intro pi hpi e he
    unfold find_while_events at he
    rcases List.mem_append.1 he with he | he
    · exact find_pass_events_spec co P hP _ pi hpi e he
    · have hP' := find_pass_spec co P hP co.chordal_env.if_nodes pi false hpi
      rcases hfp : find_pass co co.chordal_env.if_nodes pi false with ⟨pi', redo⟩
      rw [hfp] at he hP'
      cases redo with
      | true => exact ih pi' hP' e he
      | false => simp at he

theorem removal_events_spec (co : copy_opt_t) :
    ∀ e ∈ removal_events co new_pi_init,
      only_ir_nodes e.1 ∧ find_cond co e.1 e.2 = true ∧ e.2 ∈ co.chordal_env.if_nodes :=
  find_while_events_spec co only_ir_nodes (fun _ n h _ => only_ir_nodes_find_remove h n) _ _
    only_ir_nodes_init

theorem find_cond_iff (co : copy_opt_t) (pi : problem_instance_t) (ifn : Nat) :
    find_cond co pi ifn = true ↔
      is_removed pi (ptr_t.ir_node ifn) = false ∧ co.is_optimizable ifn = false ∧
      co.is_optimizable_arg ifn = false ∧ pi_is_simplicial co pi ifn ≠ 0 := by
  simp [find_cond, and_assoc]

/-- C1. Simplicial soundness: at every removal made by `pi_find_simplicials`
(started by `new_pi` with an empty removed set), with `e.1` the record at that
moment and `e.2` the node removed, every two distinct neighbours of the node
that are not in the removed set are joined by an edge. -/
theorem find_simplicials_removal_sound (co : copy_opt_t)
    (e : problem_instance_t × Nat) (he : e ∈ removal_events co new_pi_init)
    (a b : Nat) (ha : a ∈ co.chordal_env.neighb e.2) (hb : b ∈ co.chordal_env.neighb e.2)
    (hab : a ≠ b)
    (_hra : is_removed e.1 (ptr_t.ir_node a) = false)
    (_hrb : is_removed e.1 (ptr_t.ir_node b) = false) :
    co.chordal_env.has_edge a b = true ∨ co.chordal_env.has_edge b a = true := by
  obtain ⟨hir, hc, _⟩ := removal_events_spec co e he
  have hs := ((find_cond_iff co e.1 e.2).1 hc).2.2.2
  rw [pi_is_simplicial_eq hir] at hs
  have hcl : all_form_clique co.chordal_env (co.chordal_env.neighb e.2) = true := by
    by_contra hne
    simp [hne] at hs
  exact all_form_clique_edge hcl ha hb hab

/-- Witness of C1 on the triangle: node 0 is removed first, when its neighbours
1 and 2 are both still in the graph. -/
theorem find_simplicials_removal_sound_witness :
    ((new_pi_init, 0) : problem_instance_t × Nat) ∈ removal_events triangle_co new_pi_init ∧
    (triangle_co.chordal_env.has_edge 1 2 = true ∨ triangle_co.chordal_env.has_edge 2 1 = true) :=
  ⟨by decide,
   find_simplicials_removal_sound triangle_co (new_pi_init, 0) (by decide) 1 2
     (by decide) (by decide) (by decide) (by decide) (by decide)⟩

/-! ## The reducer: it returns, and what it returns -/

theorem find_while_spec (co : copy_opt_t) (P : problem_instance_t → Prop)
    (hP : ∀ pi n, P pi → find_cond co pi n = true → P (find_remove pi n)) :
    ∀ (fuel : Nat) (pi r : problem_instance_t), P pi → find_while co fuel pi = some r → P r := by
  intro fuel
  induction fuel with
  | zero => intro pi r _ h; simp [find_while] at h
  | succ fuel ih =>
    intro pi r hpi h
    unfold find_while at h
    have hP' := find_pass_spec co P hP co.chordal_env.if_nodes pi false hpi
    rcases hfp : find_pass co co.chordal_env.if_nodes pi false with ⟨pi', redo⟩
    rw [hfp] at h hP'
    cases redo with
    | true => exact ih pi' r hP' h
    | false =>
      simp only [Option.some.injEq] at h
      exact h ▸ hP'

/-- The number of entries of a list that pass a test falls when the test gets
stricter and rejects an entry it let through before. -/
theorem filter_length_lt_of_stricter {α : Type} (p q : α → Bool) (l : List α)
    (hmono : ∀ x, q x = true → p x = true) (hex : ∃ x ∈ l, p x = true ∧ q x = false) :
    (l.filter q).length < (l.filter p).length := by
  have hle : ∀ l : List α, (l.filter q).length ≤ (l.filter p).length := by
    intro l
    induction l with
    | nil => simp
    | cons a t ih =>
      by_cases hq : q a = true
      · simp [List.filter_cons, hq, hmono a hq, ih]
      · by_cases hp : p a = true
        · simp [List.filter_cons, hq, hp]; omega
        · simp [List.filter_cons, hq, hp, ih]
  induction l with
  | nil => obtain ⟨x, hx, _⟩ := hex; cases hx
  | cons a t ih =>
    obtain ⟨x, hx, hpx, hqx⟩ := hex
    by_cases hq : q a = true
    · have hxa : x ≠ a := by rintro rfl; rw [hq] at hqx; cases hqx
      have hxt : x ∈ t := by
        rcases List.mem_cons.1 hx with h | h
        · exact absurd h hxa
        · exact h
      have := ih ⟨x, hxt, hpx, hqx⟩
      simp [List.filter_cons, hq, hmono a hq, this]
    · by_cases hp : p a = true
      · have := hle t
        simp [List.filter_cons, hq, hp]; omega
      · have hxa : x ≠ a := by rintro rfl; exact hp hpx
        have hxt : x ∈ t := by
          rcases List.mem_cons.1 hx with h | h
          · exact absurd h hxa
          · exact h
        have := ih ⟨x, hxt, hpx, hqx⟩
        simp [List.filter_cons, hq, hp, this]

theorem unremoved_le (co : copy_opt_t) (pi : problem_instance_t) :
    unremoved co pi ≤ co.chordal_env.if_nodes.length :=
  List.length_filter_le _ _

theorem removed_find_remove (pi : problem_instance_t) (n : Nat) (p : ptr_t) :
    p ∈ (find_remove pi n).removed ↔ p ∈ pi.removed ∨ p = ptr_t.ir_node n :=
  mem_pset_insert_ptr _ _ _

theorem find_pass_removed_mono (co : copy_opt_t) (l : List Nat) (pi : problem_instance_t)
    (redo : Bool) (p : ptr_t) (hp : p ∈ pi.removed) : p ∈ (find_pass co l pi redo).1.removed :=
  find_pass_spec co (fun pi' => p ∈ pi'.removed)
    (fun pi' n h _ => (removed_find_remove pi' n p).2 (Or.inl h)) l pi redo hp

theorem find_pass_redo (co : copy_opt_t) :
    ∀ (l : List Nat) (pi : problem_instance_t) (redo : Bool),
      (find_pass co l pi redo).2 = true →
      redo = true ∨ ∃ n ∈ l, ptr_t.ir_node n ∉ pi.removed ∧
        ptr_t.ir_node n ∈ (find_pass co l pi redo).1.removed := by
  intro l
  induction l with
  | nil => intro pi redo h; left; simpa [find_pass] using h
  | cons ifn rest ih =>
    intro pi redo h
    unfold find_pass at h ⊢
    by_cases hc : find_cond co pi ifn = true
    · rw [if_pos hc] at h ⊢
      right
      refine ⟨ifn, List.mem_cons_self _ _, ?_, ?_⟩
      · exact (is_removed_eq_false _ _).1 ((find_cond_iff co pi ifn).1 hc).1
      · exact find_pass_removed_mono co rest _ true _
          ((removed_find_remove pi ifn _).2 (Or.inr rfl))
    · rw [if_neg hc] at h ⊢
      rcases ih pi redo h with h1 | ⟨n, hn, h2, h3⟩
      · exact Or.inl h1
      · exact Or.inr ⟨n, List.mem_cons_of_mem _ hn, h2, h3⟩

theorem find_pass_unremoved_lt (co : copy_opt_t) (pi : problem_instance_t)
    (h : (find_pass co co.chordal_env.if_nodes pi false).2 = true) :
    unremoved co (find_pass co co.chordal_env.if_nodes pi false).1 < unremoved co pi := by
  rcases find_pass_redo co _ pi false h with h0 | ⟨n, hn, h1, h2⟩
  · cases h0
  · unfold unremoved
    apply filter_length_lt_of_stricter
    · intro x hx
      simp only [Bool.not_eq_true', is_removed_eq_false] at hx ⊢
      exact fun hmem => hx (find_pass_removed_mono co _ pi false _ hmem)
    · refine ⟨n, hn, ?_, ?_⟩
      · simpa [is_removed_eq_false] using h1
      · simpa [is_removed_eq_true] using h2

theorem find_while_total (co : copy_opt_t) :
    ∀ (fuel : Nat) (pi : problem_instance_t), unremoved co pi < fuel →
      ∃ r, find_while co fuel pi = some r := by
  intro fuel
  induction fuel with
  | zero => intro pi h; omega
  | succ fuel ih =>
    intro pi h
    unfold find_while
    have hlt := find_pass_unremoved_lt co pi
    rcases hfp : find_pass co co.chordal_env.if_nodes pi false with ⟨pi', redo⟩
    rw [hfp] at hlt
    cases redo with
    | true =>
      have := hlt rfl
      exact ih pi' (by simp only at this; omega)
    | false => exact ⟨pi', rfl⟩

/-- The reducer returns: the passes allowed are never used up. What it returns
is the result of the loop, with `all_simplicial` set when the counts agree. -/
theorem pi_find_simplicials_total (co : copy_opt_t) (pi : problem_instance_t) :
    ∃ r r', find_while co (co.chordal_env.if_nodes.length + 1) pi = some r' ∧
      pi_find_simplicials co pi = some r ∧
      r.simplicials = r'.simplicials ∧ r.removed = r'.removed := by
  obtain ⟨r', hr'⟩ := find_while_total co (co.chordal_env.if_nodes.length + 1) pi
    (Nat.lt_succ_of_le (unremoved_le co pi))
  unfold pi_find_simplicials
  rw [hr']
  by_cases hcount : co.chordal_env.if_nodes.length = pset_count r'.removed
  · exact ⟨{ r' with all_simplicial := 1 }, r', rfl,
      by simp only [Option.map_some', if_pos hcount], rfl, rfl⟩
  · exact ⟨r', r', rfl, by simp only [Option.map_some', if_neg hcount], rfl, rfl⟩

/-- A property of the simplicials list and the removed set that holds at the
start and is kept by every removal holds for the result of the reducer. -/
theorem pi_find_simplicials_spec (co : copy_opt_t) (P : List Nat → pset → Prop)
    (hP : ∀ pi n, P pi.simplicials pi.removed → find_cond co pi n = true →
      P (find_remove pi n).simplicials (find_remove pi n).removed)
    (pi : problem_instance_t) (h0 : P pi.simplicials pi.removed) :
    ∃ r, pi_find_simplicials co pi = some r ∧ P r.simplicials r.removed := by
  obtain ⟨r, r', h1, h2, h3, h4⟩ := pi_find_simplicials_total co pi
  refine ⟨r, h2, ?_⟩
  rw [h3, h4]
  exact find_while_spec co (fun pi => P pi.simplicials pi.removed) hP _ pi r' h0 h1

/-! ## The reducer: the order of the removals -/

theorem find_pass_simplicials (co : copy_opt_t) :
    ∀ (l : List Nat) (pi : problem_instance_t) (redo : Bool),
      (find_pass co l pi redo).1.simplicials =
        ((find_pass_events co l pi).map Prod.snd).reverse ++ pi.simplicials := by
  intro l
  induction l with
  | nil => intro pi redo; simp [find_pass, find_pass_events]
  | cons ifn rest ih =>
    intro pi redo
    unfold find_pass find_pass_events
    by_cases hc : find_cond co pi ifn = true
    · rw [if_pos hc, if_pos hc, ih]
      simp [find_remove]
    · rw [if_neg hc, if_neg hc, ih]

theorem find_while_simplicials (co : copy_opt_t) :
    ∀ (fuel : Nat) (pi r : problem_instance_t), find_while co fuel pi = some r →
      r.simplicials = ((find_while_events co fuel pi).map Prod.snd).reverse ++ pi.simplicials := by
  intro fuel
  induction fuel with
  | zero => intro pi r h; simp [find_while] at h
  | succ fuel ih =>
    intro pi r h
    unfold find_while at h
    unfold find_while_events
    have hs := find_pass_simplicials co co.chordal_env.if_nodes pi false
    rcases hfp : find_pass co co.chordal_env.if_nodes pi false with ⟨pi', redo⟩
    rw [hfp] at h hs
    cases redo with
    | true =>
      have := ih pi' r h
      simp only at hs ⊢
      rw [this, hs]
      simp
    | false =>
      simp only [Option.some.injEq] at h
      subst h
      simp only at hs ⊢
      rw [hs]
      simp

/-- The simplicials list returned by the reducer is the removal order, last
removal first. -/
theorem pi_find_simplicials_order (co : copy_opt_t) :
    ∃ r, pi_find_simplicials co new_pi_init = some r ∧
      r.simplicials = (removal_order co new_pi_init).reverse := by
  obtain ⟨r, r', h1, h2, h3, _⟩ := pi_find_simplicials_total co new_pi_init
  refine ⟨r, h2, ?_⟩
  rw [h3, find_while_simplicials co _ _ _ h1]
  simp [removal_order, removal_events, new_pi_init]

theorem bookkeeping_find_remove (co : copy_opt_t) (pi : problem_instance_t) (n : Nat)
    (h : bookkeeping pi.simplicials pi.removed) (hc : find_cond co pi n = true) :
    bookkeeping (find_remove pi n).simplicials (find_remove pi n).removed := by
  obtain ⟨hnd, hmem⟩ := h
  have hn : ptr_t.ir_node n ∉ pi.removed :=
    (is_removed_eq_false _ _).1 ((find_cond_iff co pi n).1 hc).1
  constructor
  · show (n :: pi.simplicials).Nodup
    refine List.nodup_cons.2 ⟨?_, hnd⟩
    intro hin
    exact hn ((hmem _).2 ⟨n, hin, rfl⟩)
  · intro p
    rw [removed_find_remove, hmem]
    show _ ↔ ∃ m ∈ n :: pi.simplicials, p = ptr_t.ir_node m
    constructor
    · rintro (⟨m, hm, rfl⟩ | rfl)
      · exact ⟨m, List.mem_cons_of_mem _ hm, rfl⟩
      · exact ⟨n, List.mem_cons_self _ _, rfl⟩
    · rintro ⟨m, hm, rfl⟩
      rcases List.mem_cons.1 hm with rfl | hm
      · exact Or.inr rfl
      · exact Or.inl ⟨m, hm, rfl⟩

theorem pi_find_simplicials_bookkeeping (co : copy_opt_t) :
    ∃ r, pi_find_simplicials co new_pi_init = some r ∧ bookkeeping r.simplicials r.removed :=
  pi_find_simplicials_spec co bookkeeping (bookkeeping_find_remove co) new_pi_init
    ⟨List.nodup_nil, by intro p; simp [new_pi_init]⟩

/-- C2. The reducer on the path 0 - 1 - 2 without optimization units: it
returns with node 1 left in the graph, although node 1 is not removed, is
neither optimizable nor an optimizable argument, and both its neighbours are in
the removed set, so that its neighbours outside the removed set (there are
none) pairwise have an edge. -/
theorem find_simplicials_path_leaves_simplicial_node :
    ∃ r, pi_find_simplicials path_co new_pi_init = some r ∧
      is_removed r (ptr_t.ir_node 1) = false ∧
      path_co.is_optimizable 1 = false ∧ path_co.is_optimizable_arg 1 = false ∧
      (∀ a ∈ path_co.chordal_env.neighb 1, is_removed r (ptr_t.ir_node a) = true) ∧
      (∀ a ∈ path_co.chordal_env.neighb 1, ∀ b ∈ path_co.chordal_env.neighb 1, a ≠ b →
        is_removed r (ptr_t.ir_node a) = false → is_removed r (ptr_t.ir_node b) = false →
        path_co.chordal_env.has_edge a b = true) :=
  ⟨{ simplicials := [2, 0], removed := [ptr_t.ir_node 2, ptr_t.ir_node 0] },
    by decide, by decide, by decide, by decide, by decide, by decide⟩

/-- C3. The test on the path 0 - 1 - 2 with the `ir_node`s of 0 and 2 in the
removed set: `pi_is_simplicial` returns 0 for node 1, although node 1 has no
neighbour outside the removed set. -/
theorem pi_is_simplicial_counts_removed_neighbours :
    pi_is_simplicial path_co { removed := [ptr_t.ir_node 2, ptr_t.ir_node 0] } 1 = 0 ∧
    (∀ a ∈ path_co.chordal_env.neighb 1,
      is_removed { removed := [ptr_t.ir_node 2, ptr_t.ir_node 0] } (ptr_t.ir_node a) = true) :=
  ⟨by decide, by decide⟩

/-- C4. A node for which `is_optimizable` or `is_optimizable_arg` holds is never
removed: no removal made by `pi_find_simplicials` is of that node, and in the
record returned it is neither on the simplicials list nor in the removed set. -/
theorem find_simplicials_keeps_unit_members (co : copy_opt_t) (n : Nat)
    (h : co.is_optimizable n = true ∨ co.is_optimizable_arg n = true) :
    (∀ e ∈ removal_events co new_pi_init, e.2 ≠ n) ∧
    ∃ r, pi_find_simplicials co new_pi_init = some r ∧
      n ∉ r.simplicials ∧ is_removed r (ptr_t.ir_node n) = false := by
  have hev : ∀ e ∈ removal_events co new_pi_init, e.2 ≠ n := by
    intro e he hen
    obtain ⟨_, hc, _⟩ := removal_events_spec co e he
    obtain ⟨_, h1, h2, _⟩ := (find_cond_iff co e.1 e.2).1 hc
    rw [hen] at h1 h2
    rcases h with h | h
    · rw [h] at h1; cases h1
    · rw [h] at h2; cases h2
  refine ⟨hev, ?_⟩
  obtain ⟨r, hr, hord⟩ := pi_find_simplicials_order co
  obtain ⟨r2, hr2, hbk⟩ := pi_find_simplicials_bookkeeping co
  have : r2 = r := Option.some.inj (hr2.symm.trans hr)
  subst this
  have hn : n ∉ r2.simplicials := by
    rw [hord, List.mem_reverse, removal_order, List.mem_map]
    rintro ⟨e, he, hen⟩
    exact hev e he hen
  refine ⟨r2, hr, hn, ?_⟩
  rw [is_removed_eq_false, hbk.2]
  rintro ⟨m, hm, hmn⟩
  cases hmn
  exact hn hm

/-- Witness of C4 on the triangle with node 0 optimizable: the nodes 1 and 2
are removed, node 0 stays. -/
theorem find_simplicials_keeps_unit_members_witness :
    (triangle_unit_co.is_optimizable 0 = true ∨ triangle_unit_co.is_optimizable_arg 0 = true) ∧
    ((∀ e ∈ removal_events triangle_unit_co new_pi_init, e.2 ≠ 0) ∧
    ∃ r, pi_find_simplicials triangle_unit_co new_pi_init = some r ∧
      0 ∉ r.simplicials ∧ is_removed r (ptr_t.ir_node 0) = false) :=
  ⟨by decide, find_simplicials_keeps_unit_members triangle_unit_co 0 (by decide)⟩

/-! ## Bitsets -/

theorem bitset_set_spec {bs bs' : bitset_t} {c : Int} (h : bitset_set bs c = some bs') :
    0 ≤ c ∧ c < bs.length ∧ bs'.length = bs.length ∧ bs'.getD c.toNat false = true ∧
    (∀ j, bs.getD j false = true → bs'.getD j false = true) ∧
    (∀ j, j ≠ c.toNat → bs'.getD j false = bs.getD j false) := by
  unfold bitset_set at h
  split_ifs at h with hc
  simp only [Option.some.injEq] at h
  subst h
  have hlt : c.toNat < bs.length := by omega
  refine ⟨hc.1, hc.2, by simp, ?_, ?_, ?_⟩
  · simp [List.getD_eq_getElem?_getD, List.getElem?_set, hlt]
  · intro j hj
    by_cases hjc : c.toNat = j
    · subst hjc; simp [List.getD_eq_getElem?_getD, List.getElem?_set, hlt]
    · simpa [List.getD_eq_getElem?_getD, List.getElem?_set, hjc] using hj
  · intro j hj
    simp [List.getD_eq_getElem?_getD, List.getElem?_set, Ne.symm hj]

theorem bitset_next_clear_scan_spec :
    ∀ (bs : List Bool) (pos : Int), 0 ≤ pos →
      (bitset_next_clear_scan bs pos = -1 ∧ ∀ j, j < bs.length → bs.getD j false = true) ∨
      (∃ k, k < bs.length ∧ bitset_next_clear_scan bs pos = pos + k ∧
        bs.getD k false = false ∧ ∀ j, j < k → bs.getD j false = true) := by
  intro bs
  induction bs with
  | nil => intro pos _; left; simp [bitset_next_clear_scan]
  | cons b t ih =>
    intro pos hpos
    cases b with
    | false =>
      right
      exact ⟨0, by simp, by simp [bitset_next_clear_scan], by simp, by intro j hj; omega⟩
    | true =>
      rcases ih (pos + 1) (by omega) with ⟨h1, h2⟩ | ⟨k, hk, h1, h2, h3⟩
      · left
        refine ⟨by simpa [bitset_next_clear_scan] using h1, ?_⟩
        intro j hj
        cases j with
        | zero => simp
        | succ j => simpa using h2 j (by simpa using hj)
      · right
        refine ⟨k + 1, by simpa using hk, ?_, by simpa using h2, ?_⟩
        · simp only [bitset_next_clear_scan, if_true, h1]; push_cast; ring
        · intro j hj
          cases j with
          | zero => simp
          | succ j => simpa using h3 j (by omega)

/-- What `bitset_next_clear (bs, 0)` returns: -1 when every bit is set,
otherwise the lowest position whose bit is clear. -/
theorem bitset_next_clear_spec (bs : bitset_t) :
    (bitset_next_clear bs 0 = -1 ∧ ∀ j, j < bs.length → bs.getD j false = true) ∨
    (∃ k, k < bs.length ∧ bitset_next_clear bs 0 = (k : Int) ∧
      bs.getD k false = false ∧ ∀ j, j < k → bs.getD j false = true) := by
  rcases bitset_next_clear_scan_spec bs 0 (le_refl _) with h | ⟨k, hk, h1, h2, h3⟩
  · left; simpa [bitset_next_clear] using h
  · right; exact ⟨k, hk, by simpa [bitset_next_clear] using h1, h2, h3⟩

/-! ## Restoring the removed nodes: one entry -/

/-- What the loop over the neighbours leaves in `used_cols`. -/
theorem set_used_cols_spec (pi : problem_instance_t) (col : Nat → Int) :
    ∀ (l : List Nat) (bs bs' : bitset_t), set_used_cols pi col l bs = some bs' →
      bs'.length = bs.length ∧
      (∀ j, bs.getD j false = true → bs'.getD j false = true) ∧
      (∀ o ∈ l, is_removed pi (ptr_t.ir_node o) = false →
        0 ≤ col o ∧ col o < bs.length ∧ bs'.getD (col o).toNat false = true) ∧
      (∀ j, bs'.getD j false = true → bs.getD j false = true ∨
        ∃ o ∈ l, is_removed pi (ptr_t.ir_node o) = false ∧ col o = (j : Int)) := by
  intro l
  induction l with
  | nil =>
    intro bs bs' h
    simp only [set_used_cols, Option.some.injEq] at h
    subst h
    exact ⟨rfl, fun _ h => h, fun o ho => absurd ho (List.not_mem_nil o), fun _ h => Or.inl h⟩
  | cons other rest ih =>
    intro bs bs' h
    unfold set_used_cols at h
    by_cases hr : is_removed pi (ptr_t.ir_node other) = false
    · simp only [hr, Bool.not_false, if_true] at h
      cases hset : bitset_set bs (col other) with
      | none => rw [hset] at h; cases h
      | some bs1 =>
        rw [hset] at h
        obtain ⟨h0, hlt, hlen, hbit, hmono, hother⟩ := bitset_set_spec hset
        obtain ⟨i1, i2, i3, i4⟩ := ih bs1 bs' h
        refine ⟨i1.trans hlen, fun j hj => i2 j (hmono j hj), ?_, ?_⟩
        · intro o ho hro
          rcases List.mem_cons.1 ho with rfl | ho
          · exact ⟨h0, hlt, i2 _ hbit⟩
          · obtain ⟨a, b, c⟩ := i3 o ho hro
            exact ⟨a, by rw [← hlen]; exact b, c⟩
        · intro j hj
          rcases i4 j hj with h1 | ⟨o, ho, h1, h2⟩
          · by_cases hjc : j = (col other).toNat
            · right
              refine ⟨other, List.mem_cons_self _ _, hr, ?_⟩
              rw [hjc]; exact (Int.toNat_of_nonneg h0).symm
            · left
              rw [← hother j hjc]; exact h1
          · exact Or.inr ⟨o, List.mem_cons_of_mem _ ho, h1, h2⟩
    · have hr' : is_removed pi (ptr_t.ir_node other) = true := by simpa using hr
      simp only [hr', Bool.not_true, Bool.false_eq_true, if_false] at h
      obtain ⟨i1, i2, i3, i4⟩ := ih bs bs' h
      refine ⟨i1, i2, ?_, ?_⟩
      · intro o ho hro
        rcases List.mem_cons.1 ho with rfl | ho
        · rw [hr'] at hro; cases hro
        · exact i3 o ho hro
      · intro j hj
        rcases i4 j hj with h1 | ⟨o, ho, h1, h2⟩
        · exact Or.inl h1
        · exact Or.inr ⟨o, List.mem_cons_of_mem _ ho, h1, h2⟩

theorem bitset_alloca_getD (size j : Nat) : (bitset_alloca size).getD j false = false := by
  simp only [bitset_alloca, List.getD_eq_getElem?_getD, List.getElem?_replicate]
  split_ifs <;> rfl

/-- The color computed for an entry: it lies in `[0, n_regs)`, no neighbour
that is in the graph right now has it, and every lower color is the color of
such a neighbour. -/
theorem set_free_col_spec {co : copy_opt_t} {pi : problem_instance_t} {col : Nat → Int}
    {ifn : Nat} {c : Int} (h : set_free_col co pi col ifn = some c) (hc : c ≠ -1) :
    0 ≤ c ∧ c < co.chordal_env.n_regs ∧
    (∀ o ∈ co.chordal_env.neighb ifn, is_removed pi (ptr_t.ir_node o) = false → col o ≠ c) ∧
    (∀ c' : Int, 0 ≤ c' → c' < c → ∃ o ∈ co.chordal_env.neighb ifn,
      is_removed pi (ptr_t.ir_node o) = false ∧ col o = c') := by
  unfold set_free_col at h
  cases hu : set_used_cols pi col (co.chordal_env.neighb ifn)
      (bitset_alloca co.chordal_env.n_regs) with
  | none => rw [hu] at h; cases h
  | some used =>
    rw [hu] at h
    simp only [Option.some.injEq] at h
    obtain ⟨hlen, _, hnb, hsrc⟩ := set_used_cols_spec pi col _ _ _ hu
    have hlen' : used.length = co.chordal_env.n_regs := by simpa [bitset_alloca] using hlen
    rcases bitset_next_clear_spec used with ⟨h1, _⟩ | ⟨k, hk, h1, h2, h3⟩
    · exact absurd (h ▸ h1) hc
    · rw [h1] at h
      subst h
      refine ⟨by omega, by omega, ?_, ?_⟩
      · intro o ho hro heq
        obtain ⟨_, _, hbit⟩ := hnb o ho hro
        rw [heq, Int.toNat_ofNat, h2] at hbit
        cases hbit
      · intro c' h0 hlt
        have hj := h3 c'.toNat (by omega)
        rcases hsrc _ hj with hb | ⟨o, ho, hro, hco⟩
        · rw [bitset_alloca_getD] at hb; cases hb
        · exact ⟨o, ho, hro, by rw [hco]; exact Int.toNat_of_nonneg h0⟩

/-! ## Restoring the removed nodes: the whole loop -/

theorem set_simplicials_loop_cons (co : copy_opt_t) (ifn : Nat) (rest : List Nat)
    (pi : problem_instance_t) (col : Nat → Int) (res : problem_instance_t × (Nat → Int))
    (h : set_simplicials_loop co (ifn :: rest) pi col = some res) :
    ∃ c, set_free_col co pi col ifn = some c ∧ c ≠ -1 ∧
      set_simplicials_loop co rest (set_restore pi ifn) (Function.update col ifn c) = some res := by
  unfold set_simplicials_loop at h
  cases hf : set_free_col co pi col ifn with
  | none => rw [hf] at h; cases h
  | some c =>
    rw [hf] at h
    by_cases hc : c = -1
    · simp [hc] at h
    · simp only [hc, if_false] at h
      exact ⟨c, rfl, hc, h⟩

theorem is_removed_set_restore (pi : problem_instance_t) (n x : Nat) :
    is_removed (set_restore pi n) (ptr_t.ir_node x) = false ↔
      is_removed pi (ptr_t.ir_node x) = false ∨ x = n := by
  simp only [is_removed_eq_false, set_restore, mem_pset_remove_ptr]
  constructor
  · intro h
    by_cases hx : x = n
    · exact Or.inr hx
    · left
      intro hmem
      exact h ⟨hmem, by intro he; cases he; exact hx rfl⟩
  · rintro (h | rfl)
    · exact fun hh => h hh.1
    · exact fun hh => hh.2 rfl

theorem bookkeeping_set_restore {n : Nat} {rest : List Nat} {pi : problem_instance_t}
    (h : bookkeeping (n :: rest) pi.removed) : bookkeeping rest (set_restore pi n).removed := by
  obtain ⟨hnd, hmem⟩ := h
  obtain ⟨hn, hnd'⟩ := List.nodup_cons.1 hnd
  refine ⟨hnd', ?_⟩
  intro p
  simp only [set_restore, mem_pset_remove_ptr, hmem]
  constructor
  · rintro ⟨⟨m, hm, rfl⟩, hne⟩
    rcases List.mem_cons.1 hm with rfl | hm
    · exact absurd rfl hne
    · exact ⟨m, hm, rfl⟩
  · rintro ⟨m, hm, rfl⟩
    refine ⟨⟨m, List.mem_cons_of_mem _ hm, rfl⟩, ?_⟩
    intro he
    cases he
    exact hn hm

theorem bookkeeping_head_removed {n : Nat} {rest : List Nat} {pi : problem_instance_t}
    (h : bookkeeping (n :: rest) pi.removed) : is_removed pi (ptr_t.ir_node n) = true :=
  (is_removed_eq_true _ _).2 ((h.2 _).2 ⟨n, List.mem_cons_self _ _, rfl⟩)

theorem proper_set_restore {co : copy_opt_t} (hwf : ifg_wf co.chordal_env)
    {pi : problem_instance_t} {col : Nat → Int} {n : Nat} {c : Int}
    (hrem : is_removed pi (ptr_t.ir_node n) = true)
    (hp : proper_outside_removed co pi col)
    (hc : ∀ o ∈ co.chordal_env.neighb n, is_removed pi (ptr_t.ir_node o) = false → col o ≠ c) :
    proper_outside_removed co (set_restore pi n) (Function.update col n c) := by
  intro a ha b hb hra hrb
  obtain ⟨_, hirr, hsymm, _⟩ := hwf a ha
  rw [is_removed_set_restore] at hra hrb
  by_cases han : a = n
  · subst han
    have hba : b ≠ a := by rintro rfl; exact hirr hb
    have hbr : is_removed pi (ptr_t.ir_node b) = false := by
      rcases hrb with h | h
      · exact h
      · exact absurd h hba
    rw [Function.update_same, Function.update_noteq hba]
    exact fun h => hc b hb hbr h.symm
  · have har : is_removed pi (ptr_t.ir_node a) = false := by
      rcases hra with h | h
      · exact h
      · exact absurd h han
    by_cases hbn : b = n
    · subst hbn
      rw [Function.update_same, Function.update_noteq han]
      exact hc a (hsymm b hb).2 har
    · have hbr : is_removed pi (ptr_t.ir_node b) = false := by
        rcases hrb with h | h
        · exact h
        · exact absurd h hbn
      rw [Function.update_noteq han, Function.update_noteq hbn]
      exact hp a ha b hb har hbr

theorem set_simplicials_loop_proper (co : copy_opt_t) (hwf : ifg_wf co.chordal_env) :
    ∀ (rest : List Nat) (pi : problem_instance_t) (col : Nat → Int)
      (res : problem_instance_t × (Nat → Int)),
      bookkeeping rest pi.removed → proper_outside_removed co pi col →
      set_simplicials_loop co rest pi col = some res →
      proper_coloring co res.2 ∧ res.1.removed = [] := by
  intro rest
  induction rest with
  | nil =>
    intro pi col res hbk hp h
    simp only [set_simplicials_loop, Option.some.injEq] at h
    subst h
    have hempty : pi.removed = [] := by
      apply List.eq_nil_iff_forall_not_mem.2
      intro p hp'
      obtain ⟨m, hm, _⟩ := (hbk.2 p).1 hp'
      cases hm
    refine ⟨?_, hempty⟩
    intro a ha b hb
    exact hp a ha b hb (by simp [is_removed, pset_find_ptr, hempty])
      (by simp [is_removed, pset_find_ptr, hempty])
  | cons n rest ih =>
    intro pi col res hbk hp h
    obtain ⟨c, hf, hc, hrest⟩ := set_simplicials_loop_cons co n rest pi col res h
    obtain ⟨_, _, hne, _⟩ := set_free_col_spec hf hc
    exact ih _ _ res (bookkeeping_set_restore hbk)
      (proper_set_restore hwf (bookkeeping_head_removed hbk) hp hne) hrest

/-- C5. Restoring the removed nodes keeps the coloring proper. On entry to
`pi_set_simplicials` let the simplicials list and the removed set be as the
reducer leaves them (`bookkeeping`), let any two neighbours that are both
outside the removed set have different colors, and let the loop run to its end
(a free color is found for every popped node). Then on return the two ends of
every edge of the interference graph have different colors. -/
theorem set_simplicials_keeps_proper (co : copy_opt_t) (pi : problem_instance_t)
    (col : Nat → Int) (res : problem_instance_t × (Nat → Int))
    (hwf : ifg_wf co.chordal_env)
    (hbk : bookkeeping pi.simplicials pi.removed)
    (hp : proper_outside_removed co pi col)
    (hrun : pi_set_simplicials co pi col = some res) :
    proper_coloring co res.2 :=
  (set_simplicials_loop_proper co hwf pi.simplicials pi col res hbk hp hrun).1

/-- Witness of C5 on the path 0 - 1 - 2 with node 1 colored 0: the nodes 2 and
0 both get color 1. -/
theorem set_simplicials_keeps_proper_witness :
    pi_find_simplicials path_co new_pi_init = some path_pi ∧
    (∃ res, pi_set_simplicials path_co path_pi path_col = some res ∧
      res.2 0 = 1 ∧ res.2 1 = 0 ∧ res.2 2 = 1 ∧ proper_coloring path_co res.2) :=
  ⟨by decide,
   ⟨({ simplicials := [2, 0] }, Function.update (Function.update path_col 2 1) 0 1),
    by rfl, by decide, by decide, by decide,
    set_simplicials_keeps_proper path_co path_pi path_col _ (by decide)
      ⟨by decide, by
        intro p
        constructor
        · intro hp
          simp only [path_pi, List.mem_cons, List.mem_singleton, List.not_mem_nil, or_false] at hp
          rcases hp with rfl | rfl
          · exact ⟨2, by decide, rfl⟩
          · exact ⟨0, by decide, rfl⟩
        · rintro ⟨n, hn, rfl⟩
          simp only [path_pi, List.mem_cons, List.mem_singleton, List.not_mem_nil, or_false] at hn
          rcases hn with rfl | rfl <;> decide⟩
      (by decide) (by rfl)⟩⟩

/-! ## Restoring the removed nodes: the order -/

theorem set_simplicials_calls_prefix (co : copy_opt_t) :
    ∀ (rest : List Nat) (pi : problem_instance_t) (col : Nat → Int),
      (set_simplicials_calls co rest pi col).map Prod.fst <+: rest := by
  intro rest
  induction rest with
  | nil => intro pi col; simp [set_simplicials_calls]
  | cons n rest ih =>
    intro pi col
    unfold set_simplicials_calls
    cases hf : set_free_col co pi col n with
    | none => simp
    | some c =>
      by_cases hc : c = -1
      · simp [hc]
      · simp only [hc, if_false, List.map_cons]
        exact (List.prefix_cons_inj n).2 (ih _ _)

theorem set_simplicials_calls_of_some (co : copy_opt_t) :
    ∀ (rest : List Nat) (pi : problem_instance_t) (col : Nat → Int)
      (res : problem_instance_t × (Nat → Int)),
      set_simplicials_loop co rest pi col = some res →
      (set_simplicials_calls co rest pi col).map Prod.fst = rest := by
  intro rest
  induction rest with
  | nil => intro pi col res _; simp [set_simplicials_calls]
  | cons n rest ih =>
    intro pi col res h
    obtain ⟨c, hf, hc, hrest⟩ := set_simplicials_loop_cons co n rest pi col res h
    unfold set_simplicials_calls
    rw [hf]
    simp only [hc, if_false, List.map_cons]
    rw [ih _ _ res hrest]

/-- C10. Restoration is last in, first out. The reducer returns a record `r`;
no node is removed twice; the nodes that `pi_set_simplicials` colors, in the
order of its calls of `set_irn_col`, are an initial part of the removal order
read backwards, and all of it when the loop runs to its end. -/
theorem set_simplicials_lifo (co : copy_opt_t) (col : Nat → Int) :
    ∃ r, pi_find_simplicials co new_pi_init = some r ∧
      (removal_order co new_pi_init).Nodup ∧
      (set_simplicials_calls co r.simplicials r col).map Prod.fst <+:
        (removal_order co new_pi_init).reverse ∧
      ((pi_set_simplicials co r col).isSome = true →
        (set_simplicials_calls co r.simplicials r col).map Prod.fst =
          (removal_order co new_pi_init).reverse) := by
  obtain ⟨r, hr, hord⟩ := pi_find_simplicials_order co
  obtain ⟨r2, hr2, hbk⟩ := pi_find_simplicials_bookkeeping co
  have : r2 = r := Option.some.inj (hr2.symm.trans hr)
  subst this
  refine ⟨r2, hr, ?_, ?_, ?_⟩
  · have := hbk.1
    rw [hord] at this
    exact List.nodup_reverse.1 this
  · rw [← hord]
    exact set_simplicials_calls_prefix co _ _ _
  · intro hsome
    obtain ⟨res, hres⟩ := Option.isSome_iff_exists.1 hsome
    rw [← hord]
    exact set_simplicials_calls_of_some co _ _ _ res hres

/-- Witness of C10 on the path 0 - 1 - 2 with node 1 colored 0: the reducer
removes 0, then 2; the restoration colors 2, then 0. -/
theorem set_simplicials_lifo_witness :
    removal_order path_co new_pi_init = [0, 2] ∧
    set_simplicials_calls path_co path_pi.simplicials path_pi path_col = [(2, 1), (0, 1)] ∧
    ∃ r, pi_find_simplicials path_co new_pi_init = some r ∧
      (removal_order path_co new_pi_init).Nodup ∧
      (set_simplicials_calls path_co r.simplicials r path_col).map Prod.fst <+:
        (removal_order path_co new_pi_init).reverse ∧
      ((pi_set_simplicials path_co r path_col).isSome = true →
        (set_simplicials_calls path_co r.simplicials r path_col).map Prod.fst =
          (removal_order path_co new_pi_init).reverse) :=
  ⟨by decide, by decide, set_simplicials_lifo path_co path_col⟩

/-! ## Restoring the removed nodes: a free color exists -/

theorem set_used_cols_some (pi : problem_instance_t) (col : Nat → Int) :
    ∀ (l : List Nat) (bs : bitset_t),
      (∀ o ∈ l, is_removed pi (ptr_t.ir_node o) = false → 0 ≤ col o ∧ col o < bs.length) →
      ∃ bs', set_used_cols pi col l bs = some bs' := by
  intro l
  induction l with
  | nil => intro bs _; exact ⟨bs, rfl⟩
  | cons other rest ih =>
    intro bs h
    unfold set_used_cols
    by_cases hr : is_removed pi (ptr_t.ir_node other) = false
    · simp only [hr, Bool.not_false, if_true]
      have hin := h other (List.mem_cons_self _ _) hr
      have hset : bitset_set bs (col other) = some (bs.set (col other).toNat true) := by
        simp [bitset_set, hin.1, hin.2]
      rw [hset]
      apply ih
      intro o ho hro
      simpa using h o (List.mem_cons_of_mem _ ho) hro
    · have hr' : is_removed pi (ptr_t.ir_node other) = true := by simpa using hr
      simp only [hr', Bool.not_true, Bool.false_eq_true, if_false]
      exact ih bs (fun o ho hro => h o (List.mem_cons_of_mem _ ho) hro)

/-- When the colors of the listed nodes cover every position below `size`,
there are at least `size` of them. -/
theorem length_ge_of_colors_cover (P : List Nat) (col : Nat → Int) (size : Nat)
    (h : ∀ j, j < size → ∃ o ∈ P, col o = (j : Int)) : size ≤ P.length := by
  have hsub : Finset.range size ⊆ P.toFinset.image (fun o => (col o).toNat) := by
    intro j hj
    obtain ⟨o, ho, hco⟩ := h j (Finset.mem_range.1 hj)
    exact Finset.mem_image.2 ⟨o, List.mem_toFinset.2 ho, by simp [hco]⟩
  calc size = (Finset.range size).card := (Finset.card_range size).symm
    _ ≤ (P.toFinset.image (fun o => (col o).toNat)).card := Finset.card_le_card hsub
    _ ≤ P.toFinset.card := Finset.card_image_le
    _ ≤ P.length := List.toFinset_card_le P

/-- A node all of whose neighbours pairwise have an edge: together with those
of its neighbours that are in the graph it is a clique, so there are fewer of
them than the largest clique has nodes. -/
theorem present_neighbours_lt {co : copy_opt_t} (hwf : ifg_wf co.chordal_env)
    (hcl : no_clique_larger co.chordal_env co.chordal_env.n_regs)
    (pi : problem_instance_t) {n : Nat} (hn : n ∈ co.chordal_env.if_nodes)
    (hclique : all_form_clique co.chordal_env (co.chordal_env.neighb n) = true) :
    ((co.chordal_env.neighb n).filter
      (fun o => !is_removed pi (ptr_t.ir_node o))).length < co.chordal_env.n_regs := by
  obtain ⟨hnd, hirr, hnb, hedge⟩ := hwf n hn
  set P := (co.chordal_env.neighb n).filter (fun o => !is_removed pi (ptr_t.ir_node o)) with hP
  have hPsub : ∀ o ∈ P, o ∈ co.chordal_env.neighb n := fun o ho => (List.mem_filter.1 ho).1
  have hlen := hcl (n :: P)
    (List.nodup_cons.2 ⟨fun h => hirr (hPsub n h), hnd.filter _⟩)
    (by
      intro a ha
      rcases List.mem_cons.1 ha with rfl | ha
      · exact hn
      · exact (hnb a (hPsub a ha)).1)
    (by
      intro a ha b hb hab
      rcases List.mem_cons.1 ha with rfl | ha
      · rcases List.mem_cons.1 hb with rfl | hb
        · exact absurd rfl hab
        · exact (hedge b (hnb b (hPsub b hb)).1).2 (hPsub b hb)
      · have ha' := hnb a (hPsub a ha)
        obtain ⟨_, _, hnba, hedgea⟩ := hwf a ha'.1
        rcases List.mem_cons.1 hb with rfl | hb
        · exact (hedgea b hn).2 ha'.2
        · have hb' := hnb b (hPsub b hb)
          rcases all_form_clique_edge hclique (hPsub a ha) (hPsub b hb) hab with h | h
          · exact h
          · obtain ⟨_, _, hnbb, hedgeb⟩ := hwf b hb'.1
            have : a ∈ co.chordal_env.neighb b := (hedgeb a ha'.1).1 h
            exact (hedgea b hb'.1).2 (hnbb a this).2)
  simp only [List.length_cons] at hlen
  omega

theorem set_free_col_some {co : copy_opt_t} (hwf : ifg_wf co.chordal_env)
    (hcl : no_clique_larger co.chordal_env co.chordal_env.n_regs)
    (pi : problem_instance_t) (col : Nat → Int) {n : Nat}
    (hn : n ∈ co.chordal_env.if_nodes)
    (hclique : all_form_clique co.chordal_env (co.chordal_env.neighb n) = true)
    (hcol : ∀ a ∈ co.chordal_env.if_nodes, is_removed pi (ptr_t.ir_node a) = false →
      0 ≤ col a ∧ col a < co.chordal_env.n_regs) :
    ∃ c, set_free_col co pi col n = some c ∧ c ≠ -1 := by
  obtain ⟨_, _, hnb, _⟩ := hwf n hn
  obtain ⟨used, hu⟩ := set_used_cols_some pi col (co.chordal_env.neighb n)
    (bitset_alloca co.chordal_env.n_regs)
    (by
      intro o ho hro
      simpa [bitset_alloca] using hcol o (hnb o ho).1 hro)
  refine ⟨bitset_next_clear used 0, by simp [set_free_col, hu], ?_⟩
  intro hneg
  obtain ⟨hlen, _, _, hsrc⟩ := set_used_cols_spec pi col _ _ _ hu
  have hlen' : used.length = co.chordal_env.n_regs := by simpa [bitset_alloca] using hlen
  rcases bitset_next_clear_spec used with ⟨_, hall⟩ | ⟨k, _, h1, _, _⟩
  · have hcover : ∀ j, j < co.chordal_env.n_regs →
        ∃ o ∈ (co.chordal_env.neighb n).filter (fun o => !is_removed pi (ptr_t.ir_node o)),
          col o = (j : Int) := by
      intro j hj
      rcases hsrc j (hall j (by omega)) with hb | ⟨o, ho, hro, hco⟩
      · rw [bitset_alloca_getD] at hb; cases hb
      · exact ⟨o, List.mem_filter.2 ⟨ho, by simp [hro]⟩, hco⟩
    have h1 := length_ge_of_colors_cover _ col _ hcover
    have h2 := present_neighbours_lt hwf hcl pi hn hclique
    omega
  · rw [h1] at hneg
    omega

theorem set_simplicials_loop_some (co : copy_opt_t) (hwf : ifg_wf co.chordal_env)
    (hcl : no_clique_larger co.chordal_env co.chordal_env.n_regs) :
    ∀ (rest : List Nat) (pi : problem_instance_t) (col : Nat → Int),
      bookkeeping rest pi.removed →
      (∀ n ∈ rest, n ∈ co.chordal_env.if_nodes ∧
        all_form_clique co.chordal_env (co.chordal_env.neighb n) = true) →
      (∀ a ∈ co.chordal_env.if_nodes, is_removed pi (ptr_t.ir_node a) = false →
        0 ≤ col a ∧ col a < co.chordal_env.n_regs) →
      ∃ res, set_simplicials_loop co rest pi col = some res ∧
        ∀ call ∈ set_simplicials_calls co rest pi col,
          0 ≤ call.2 ∧ call.2 < co.chordal_env.n_regs ∧ call.2 ≠ -1 := by
  intro rest
  induction rest with
  | nil =>
    intro pi col _ _ _
    exact ⟨(pi, col), rfl, by intro call hcall; simp [set_simplicials_calls] at hcall⟩
  | cons n rest ih =>
    intro pi col hbk hsimp hcol
    obtain ⟨hn, hclique⟩ := hsimp n (List.mem_cons_self _ _)
    obtain ⟨c, hf, hc⟩ := set_free_col_some hwf hcl pi col hn hclique hcol
    obtain ⟨h0, hlt, _, _⟩ := set_free_col_spec hf hc
    obtain ⟨res, hres, hcalls⟩ := ih (set_restore pi n) (Function.update col n c)
      (bookkeeping_set_restore hbk)
      (fun m hm => hsimp m (List.mem_cons_of_mem _ hm))
      (by
        intro a ha hra
        by_cases han : a = n
        · subst han; rw [Function.update_same]; exact ⟨h0, hlt⟩
        · rw [Function.update_noteq han]
          rcases (is_removed_set_restore pi n a).1 hra with h | h
          · exact hcol a ha h
          · exact absurd h han)
    refine ⟨res, ?_, ?_⟩
    · unfold set_simplicials_loop
      rw [hf]
      simp only [hc, if_false]
      exact hres
    · intro call hcall
      unfold set_simplicials_calls at hcall
      rw [hf] at hcall
      simp only [hc, if_false] at hcall
      rcases List.mem_cons.1 hcall with rfl | hcall
      · exact ⟨h0, hlt, hc⟩
      · exact hcalls call hcall

/-- Every node on the list the reducer returns is a node of the graph all of
whose neighbours pairwise have an edge. -/
theorem pi_find_simplicials_cliques (co : copy_opt_t) :
    ∃ r, pi_find_simplicials co new_pi_init = some r ∧
      bookkeeping r.simplicials r.removed ∧
      ∀ n ∈ r.simplicials, n ∈ co.chordal_env.if_nodes ∧
        all_form_clique co.chordal_env (co.chordal_env.neighb n) = true := by
  obtain ⟨r, hr, hord⟩ := pi_find_simplicials_order co
  obtain ⟨r2, hr2, hbk⟩ := pi_find_simplicials_bookkeeping co
  have : r2 = r := Option.some.inj (hr2.symm.trans hr)
  subst this
  refine ⟨r2, hr, hbk, ?_⟩
  intro n hn
  rw [hord, List.mem_reverse, removal_order, List.mem_map] at hn
  obtain ⟨e, he, rfl⟩ := hn
  obtain ⟨hir, hc, hmem⟩ := removal_events_spec co e he
  refine ⟨hmem, ?_⟩
  have hs := ((find_cond_iff co e.1 e.2).1 hc).2.2.2
  rw [pi_is_simplicial_eq hir] at hs
  by_contra hne
  simp [hne] at hs

/-- The pops of a run of the loop that returns: there is one for every entry
of the list, they are the calls of `set_irn_col`, and the color of each is the
one the scan finds in the state of the pop: it lies in `[0, n_regs)`, no
neighbour that is in the graph at that moment has it, and every lower color is
the color of such a neighbour. -/
theorem set_simplicials_pops_spec (co : copy_opt_t) :
    ∀ (l : List Nat) (pi : problem_instance_t) (col : Nat → Int)
      (res : problem_instance_t × (Nat → Int)),
      set_simplicials_loop co l pi col = some res →
      (set_simplicials_pops co l pi col).map (fun p => (p.2.2.1, p.2.2.2)) =
        set_simplicials_calls co l pi col ∧
      (set_simplicials_pops co l pi col).map (fun p => p.2.2.1) = l ∧
      ∀ p ∈ set_simplicials_pops co l pi col,
        set_free_col co p.1 p.2.1 p.2.2.1 = some p.2.2.2 ∧
        0 ≤ p.2.2.2 ∧ p.2.2.2 < co.chordal_env.n_regs ∧
        (∀ o ∈ co.chordal_env.neighb p.2.2.1,
          is_removed p.1 (ptr_t.ir_node o) = false → p.2.1 o ≠ p.2.2.2) ∧
        (∀ c' : Int, 0 ≤ c' → c' < p.2.2.2 → ∃ o ∈ co.chordal_env.neighb p.2.2.1,
          is_removed p.1 (ptr_t.ir_node o) = false ∧ p.2.1 o = c')
  | [], _, _, _, _ => ⟨rfl, rfl, fun p hp => absurd hp (List.not_mem_nil p)⟩
  | ifn :: rest, pi, col, res, h => by
    obtain ⟨c, hc, hne, hrest⟩ := set_simplicials_loop_cons co ifn rest pi col res h
    obtain ⟨ih1, ih2, ih3⟩ := set_simplicials_pops_spec co rest _ _ res hrest
    have hp : set_simplicials_pops co (ifn :: rest) pi col =
        (pi, col, ifn, c) ::
          set_simplicials_pops co rest (set_restore pi ifn) (Function.update col ifn c) := by
      simp only [set_simplicials_pops, hc, hne, if_false]
    have hcalls : set_simplicials_calls co (ifn :: rest) pi col =
        (ifn, c) ::
          set_simplicials_calls co rest (set_restore pi ifn) (Function.update col ifn c) := by
      simp only [set_simplicials_calls, hc, hne, if_false]
    rw [hp, hcalls]
    refine ⟨by rw [List.map_cons, ih1], by rw [List.map_cons, ih2], ?_⟩
    intro p hp'
    rcases List.mem_cons.1 hp' with rfl | hp'
    · obtain ⟨h0, h1, h2, h3⟩ := set_free_col_spec hc hne
      exact ⟨hc, h0, h1, h2, h3⟩
    · exact ih3 p hp'

/-- C9. A free color always exists. Let the interference graph have no clique
larger than the class size `n_regs`, and let every node that the reducer left
in the graph have a color in `[0, n_regs)` when `pi_set_simplicials` is
entered. Then `pi_set_simplicials` runs to its end, the assertion "No free
color found" never failing. Every entry of the list is popped, and for every
popped node the scan returns, in the state in which the node is popped, a
color that is not -1, lies below `n_regs` and is not the color of any
neighbour that is in the graph at that moment (whose `ir_node` is not in the
removed set); it is the lowest such color. These colors are the ones handed to
`set_irn_col`. -/
theorem set_simplicials_finds_free_color (co : copy_opt_t) (col : Nat → Int)
    (hwf : ifg_wf co.chordal_env)
    (hcl : no_clique_larger co.chordal_env co.chordal_env.n_regs)
    (hcol : ∀ r, pi_find_simplicials co new_pi_init = some r →
      ∀ a ∈ co.chordal_env.if_nodes, is_removed r (ptr_t.ir_node a) = false →
        0 ≤ col a ∧ col a < co.chordal_env.n_regs) :
    ∃ r res, pi_find_simplicials co new_pi_init = some r ∧
      pi_set_simplicials co r col = some res ∧
      (∀ call ∈ set_simplicials_calls co r.simplicials r col,
        0 ≤ call.2 ∧ call.2 < co.chordal_env.n_regs ∧ call.2 ≠ -1) ∧
      (set_simplicials_pops co r.simplicials r col).map (fun p => (p.2.2.1, p.2.2.2)) =
        set_simplicials_calls co r.simplicials r col ∧
      (set_simplicials_pops co r.simplicials r col).map (fun p => p.2.2.1) = r.simplicials ∧
      ∀ p ∈ set_simplicials_pops co r.simplicials r col,
        set_free_col co p.1 p.2.1 p.2.2.1 = some p.2.2.2 ∧
        p.2.2.2 ≠ -1 ∧ 0 ≤ p.2.2.2 ∧ p.2.2.2 < co.chordal_env.n_regs ∧
        (∀ o ∈ co.chordal_env.neighb p.2.2.1,
          is_removed p.1 (ptr_t.ir_node o) = false → p.2.1 o ≠ p.2.2.2) ∧
        (∀ c' : Int, 0 ≤ c' → c' < p.2.2.2 → ∃ o ∈ co.chordal_env.neighb p.2.2.1,
          is_removed p.1 (ptr_t.ir_node o) = false ∧ p.2.1 o = c') := by
  obtain ⟨r, hr, hbk, hsimp⟩ := pi_find_simplicials_cliques co
  obtain ⟨res, hres, hcalls⟩ :=
    set_simplicials_loop_some co hwf hcl r.simplicials r col hbk hsimp (hcol r hr)
  obtain ⟨h1, h2, h3⟩ := set_simplicials_pops_spec co r.simplicials r col res hres
  refine ⟨r, res, hr, hres, hcalls, h1, h2, ?_⟩
  intro p hp
  obtain ⟨k1, k2, k3, k4, k5⟩ := h3 p hp
  exact ⟨k1, by omega, k2, k3, k4, k5⟩

theorem no_clique_larger_of_length_le (env : be_chordal_env_t) (size : Nat)
    (h : env.if_nodes.length ≤ size) : no_clique_larger env size := by
  intro l hnd hsub _
  exact le_trans (List.Subperm.length_le (hnd.subperm hsub)) h

/-- Witness of C9 on the path 0 - 1 - 2 with three registers and node 1, which
the reducer leaves in the graph, colored 0. -/
theorem set_simplicials_finds_free_color_witness :
    ifg_wf path_co.chordal_env ∧
    no_clique_larger path_co.chordal_env path_co.chordal_env.n_regs ∧
    pi_find_simplicials path_co new_pi_init = some path_pi ∧
    set_simplicials_calls path_co path_pi.simplicials path_pi path_col = [(2, 1), (0, 1)] ∧
    ∃ r res, pi_find_simplicials path_co new_pi_init = some r ∧
      pi_set_simplicials path_co r path_col = some res ∧
      (∀ call ∈ set_simplicials_calls path_co r.simplicials r path_col,
        0 ≤ call.2 ∧ call.2 < path_co.chordal_env.n_regs ∧ call.2 ≠ -1) ∧
      (set_simplicials_pops path_co r.simplicials r path_col).map
          (fun p => (p.2.2.1, p.2.2.2)) =
        set_simplicials_calls path_co r.simplicials r path_col ∧
      (set_simplicials_pops path_co r.simplicials r path_col).map (fun p => p.2.2.1) =
        r.simplicials ∧
      ∀ p ∈ set_simplicials_pops path_co r.simplicials r path_col,
        set_free_col path_co p.1 p.2.1 p.2.2.1 = some p.2.2.2 ∧
        p.2.2.2 ≠ -1 ∧ 0 ≤ p.2.2.2 ∧ p.2.2.2 < path_co.chordal_env.n_regs ∧
        (∀ o ∈ path_co.chordal_env.neighb p.2.2.1,
          is_removed p.1 (ptr_t.ir_node o) = false → p.2.1 o ≠ p.2.2.2) ∧
        (∀ c' : Int, 0 ≤ c' → c' < p.2.2.2 → ∃ o ∈ path_co.chordal_env.neighb p.2.2.1,
          is_removed p.1 (ptr_t.ir_node o) = false ∧ p.2.1 o = c') :=
  ⟨by decide, no_clique_larger_of_length_le _ _ (by decide), by decide, by decide,
   set_simplicials_finds_free_color path_co path_col (by decide)
     (no_clique_larger_of_length_le _ _ (by decide))
     (by
       intro r hr
       have : r = path_pi := Option.some.inj (hr.symm.trans (by decide))
       subst this
       decide)⟩

/-! ## Restoring the removed nodes: admissibility -/

/-- C8. The restoration on two nodes without an edge, two registers: node 0 may
only have color 1 and is in no optimization unit, node 1 is optimizable. The
reducer removes node 0 and leaves node 1; with node 1 colored 0 by the
solution, `pi_set_simplicials` gives node 0 the color 0, which is not a
color node 0 may have. -/
theorem set_simplicials_gives_inadmissible_color :
    pi_find_simplicials pinned_co new_pi_init = some pinned_pi ∧
    set_simplicials_calls pinned_co pinned_pi.simplicials pinned_pi (fun _ => 0) = [(0, 0)] ∧
    (∃ res, pi_set_simplicials pinned_co pinned_pi (fun _ => 0) = some res ∧ res.2 0 = 0) ∧
    pinned_co.allocatable 0 0 = false ∧ pinned_co.allocatable 0 1 = true :=
  ⟨by decide, by decide, ⟨(set_restore pinned_pi 0, Function.update (fun _ => 0) 0 0),
    by rfl, by decide⟩, by decide, by decide⟩

/-! ## Names: printing and reading back -/

theorem digit_char_toNat (d : Nat) (h : d < 10) : (digit_char d).toNat = 48 + d := by
  interval_cases d <;> rfl

theorem digit_char_is_digit (d : Nat) (h : d < 10) : is_digit (digit_char d) = true := by
  simp [is_digit, digit_char_toNat d h]; omega

theorem is_digit_not_special {c : Char} (h : is_digit c = true) :
    is_space c = false ∧ c ≠ '-' ∧ c ≠ '+' ∧ c ≠ '_' := by
  simp only [is_digit, Bool.and_eq_true, decide_eq_true_eq] at h
  refine ⟨?_, ?_, ?_, ?_⟩
  · simp only [is_space, Bool.or_eq_false_iff, decide_eq_false_iff_not, Bool.and_eq_false_iff]
    constructor
    · omega
    · right; omega
  · rintro rfl; revert h; decide
  · rintro rfl; revert h; decide
  · rintro rfl; revert h; decide

theorem put_digits_rev_spec :
    ∀ (fuel n : Nat), n < fuel →
      (∀ c ∈ put_digits_rev fuel n, is_digit c = true) ∧ put_digits_rev fuel n ≠ [] ∧
      digits_rev_value (put_digits_rev fuel n) = n := by
  intro fuel
  induction fuel with
  | zero => intro n h; omega
  | succ fuel ih =>
    intro n h
    unfold put_digits_rev
    by_cases h10 : n < 10
    · simp only [h10, if_true]
      refine ⟨?_, by simp, ?_⟩
      · intro c hc
        rw [List.mem_singleton] at hc
        subst hc
        exact digit_char_is_digit n h10
      · simp [digits_rev_value, digit_char_toNat n h10]
    · simp only [h10, if_false]
      obtain ⟨h1, _, h3⟩ := ih (n / 10) (by omega)
      refine ⟨?_, by simp, ?_⟩
      · intro c hc
        rcases List.mem_cons.1 hc with rfl | hc
        · exact digit_char_is_digit _ (Nat.mod_lt _ (by omega))
        · exact h1 c hc
      · have hm := digit_char_toNat (n % 10) (Nat.mod_lt _ (by omega))
        unfold digits_rev_value at h3 ⊢
        rw [List.foldr_cons, h3, hm]
        omega

theorem put_digits_rev_length :
    ∀ (fuel n k : Nat), n < 10 ^ (k + 1) → (put_digits_rev fuel n).length ≤ k + 1 := by
  intro fuel
  induction fuel with
  | zero => intro n k _; simp [put_digits_rev]
  | succ fuel ih =>
    intro n k h
    unfold put_digits_rev
    by_cases h10 : n < 10
    · simp [h10]
    · simp only [h10, if_false, List.length_cons]
      cases k with
      | zero => simp at h; omega
      | succ k =>
        have : n / 10 < 10 ^ (k + 1) := by
          rw [Nat.div_lt_iff_lt_mul (by omega)]
          calc n < 10 ^ (k + 1 + 1) := h
            _ = 10 ^ (k + 1) * 10 := by ring
        have := ih (n / 10) k this
        omega

theorem scan_digits_append :
    ∀ (ds rest : List Char) (acc : Nat), (∀ c ∈ ds, is_digit c = true) →
      (∀ c, rest.head? = some c → is_digit c = false) →
      scan_digits (ds ++ rest) acc =
        (ds.foldl (fun a c => a * 10 + (c.toNat - 48)) acc, rest) := by
  intro ds
  induction ds with
  | nil =>
    intro rest acc _ hrest
    cases rest with
    | nil => simp [scan_digits]
    | cons c cs => simp [scan_digits, hrest c rfl]
  | cons d ds ih =>
    intro rest acc hds hrest
    have hd := hds d (List.mem_cons_self _ _)
    simp only [List.cons_append, scan_digits, hd, if_true, List.foldl_cons]
    exact ih rest _ (fun c hc => hds c (List.mem_cons_of_mem _ hc)) hrest

theorem print_nat_spec (n : Nat) :
    (∀ c ∈ print_nat n, is_digit c = true) ∧ print_nat n ≠ [] ∧
    (print_nat n).foldl (fun a c => a * 10 + (c.toNat - 48)) 0 = n := by
  obtain ⟨h1, h2, h3⟩ := put_digits_rev_spec (n + 1) n (Nat.lt_succ_self n)
  refine ⟨?_, ?_, ?_⟩
  · intro c hc
    exact h1 c (List.mem_reverse.1 hc)
  · simpa [print_nat] using h2
  · unfold print_nat
    rw [List.foldl_reverse]
    exact h3

theorem scan_number_print_nat (n : Nat) (rest : List Char)
    (hrest : ∀ c, rest.head? = some c → is_digit c = false) :
    scan_number (print_nat n ++ rest) = some (n, rest) := by
  obtain ⟨h1, h2, h3⟩ := print_nat_spec n
  have hs := scan_digits_append (print_nat n) rest 0 h1 hrest
  rw [h3] at hs
  cases hp : print_nat n with
  | nil => exact absurd hp h2
  | cons c cs =>
    have hc : is_digit c = true := h1 c (by rw [hp]; exact List.mem_cons_self _ _)
    rw [hp] at hs
    simp only [List.cons_append, scan_number, hc, if_true]
    rw [← List.cons_append, hs]

/-- Reading back with `%d` what `%d` has printed gives the number printed. -/
theorem scan_d_print_d (z : Int) (rest : List Char)
    (hrest : ∀ c, rest.head? = some c → is_digit c = false) :
    scan_d (print_d z ++ rest) = some (z, rest) := by
  unfold print_d
  by_cases hz : z < 0
  · simp only [hz, if_true, List.cons_append, scan_d]
    have hsp : is_space '-' = false := by decide
    simp only [skip_space, hsp, Bool.false_eq_true, if_false, if_true,
      scan_number_print_nat _ rest hrest, Option.map_some']
    congr 2
    omega
  · simp only [hz, if_false]
    obtain ⟨h1, h2, _⟩ := print_nat_spec z.toNat
    have hsn := scan_number_print_nat z.toNat rest hrest
    cases hp : print_nat z.toNat with
    | nil => exact absurd hp h2
    | cons c cs =>
      have hc : is_digit c = true := h1 c (by rw [hp]; exact List.mem_cons_self _ _)
      obtain ⟨hsp, hm, hpl, _⟩ := is_digit_not_special hc
      rw [hp] at hsn
      simp only [List.cons_append] at hsn
      simp only [List.cons_append, scan_d, skip_space, hsp, Bool.false_eq_true, if_false, hm,
        hpl]
      show Option.map (fun r => ((r.1 : Int), r.2)) (scan_number (c :: (cs ++ rest))) = _
      rw [hsn]
      simp only [Option.map_some']
      congr 2
      omega

theorem print_nat_length (n k : Nat) (h : n < 10 ^ (k + 1)) : (print_nat n).length ≤ k + 1 := by
  simpa [print_nat] using put_digits_rev_length (n + 1) n k h

/-- A number of type `int` (32 bits) prints in at most 11 characters. -/
theorem print_d_length (z : Int) (hlo : -2 ^ 31 ≤ z) (hhi : z < 2 ^ 31) :
    (print_d z).length ≤ 11 := by
  unfold print_d
  by_cases hz : z < 0
  · simp only [hz, if_true, List.length_cons]
    have := print_nat_length z.natAbs 9 (by omega)
    omega
  · simp only [hz, if_false]
    have := print_nat_length z.toNat 9 (by omega)
    omega

/-- The name of a variable is not cut short by the buffer of 32 bytes. -/
theorem mangle_var_eq (pfx : Char) (n c : Int) (hn : -2 ^ 31 ≤ n ∧ n < 2 ^ 31)
    (hc : -2 ^ 31 ≤ c ∧ c < 2 ^ 31) :
    mangle_var pfx n c = pfx :: (print_d n ++ '_' :: print_d c) := by
  unfold mangle_var snprintf_buf
  apply List.take_of_length_le
  have h1 := print_d_length n hn.1 hn.2
  have h2 := print_d_length c hc.1 hc.2
  simp only [List.length_cons, List.length_append]
  omega

/-- The name of a constraint is not cut short by the buffer of 32 bytes. -/
theorem mangle_cst_eq (pfx : Char) (n : Int) (hn : -2 ^ 31 ≤ n ∧ n < 2 ^ 31) :
    mangle_cst pfx n = pfx :: print_d n := by
  unfold mangle_cst snprintf_buf
  apply List.take_of_length_le
  have h1 := print_d_length n hn.1 hn.2
  simp only [List.length_cons]
  omega

/-- The name of an x variable read back by `split_var`: two conversions, the
node number and the color that were printed. -/
theorem split_var_mangle_var (n c : Int) (hn : -2 ^ 31 ≤ n ∧ n < 2 ^ 31)
    (hc : -2 ^ 31 ≤ c ∧ c < 2 ^ 31) :
    split_var (mangle_var 'x' n c) = (2, n, c) := by
  rw [mangle_var_eq 'x' n c hn hc]
  have h1 : scan_d (print_d n ++ '_' :: print_d c) = some (n, '_' :: print_d c) :=
    scan_d_print_d n _ (by intro ch hch; simp at hch; subst hch; decide)
  have h2 : scan_d (print_d c) = some (c, []) := by
    have := scan_d_print_d c [] (by intro ch hch; simp at hch)
    simpa using this
  simp only [split_var, if_true, h1, h2]

theorem mangle_var_x_inj {n c n' c' : Int} (hn : -2 ^ 31 ≤ n ∧ n < 2 ^ 31)
    (hc : -2 ^ 31 ≤ c ∧ c < 2 ^ 31) (hn' : -2 ^ 31 ≤ n' ∧ n' < 2 ^ 31)
    (hc' : -2 ^ 31 ≤ c' ∧ c' < 2 ^ 31) (h : mangle_var 'x' n c = mangle_var 'x' n' c') :
    n = n' ∧ c = c' := by
  have h1 := split_var_mangle_var n c hn hc
  rw [h, split_var_mangle_var n' c' hn' hc'] at h1
  simp only [Prod.mk.injEq, true_and] at h1
  exact ⟨h1.1.symm, h1.2.symm⟩

theorem mangle_cst_inj {p p' : Char} {n n' : Int} (hn : -2 ^ 31 ≤ n ∧ n < 2 ^ 31)
    (hn' : -2 ^ 31 ≤ n' ∧ n' < 2 ^ 31) (h : mangle_cst p n = mangle_cst p' n') :
    p = p' ∧ n = n' := by
  rw [mangle_cst_eq p n hn, mangle_cst_eq p' n' hn'] at h
  simp only [List.cons.injEq] at h
  refine ⟨h.1, ?_⟩
  have h1 := scan_d_print_d n [] (by intro ch hch; simp at hch)
  have h2 := scan_d_print_d n' [] (by intro ch hch; simp at hch)
  simp only [List.append_nil] at h1 h2
  rw [h.2, h2] at h1
  simp only [Option.some.injEq, Prod.mk.injEq, and_true] at h1
  exact h1.symm

/-! ## The operations of the lpp library -/

theorem var_names_length (lp : lpp_t) : (var_names lp).length = lp.vars.length := by
  simp [var_names]

theorem cst_names_length (lp : lpp_t) : (cst_names lp).length = lp.csts.length := by
  simp [cst_names]

theorem name_find_eq_none {names : List (List Char)} {name : List Char} :
    name_find names name = none ↔ name ∉ names := by
  induction names with
  | nil => simp [name_find]
  | cons x xs ih =>
    by_cases hx : x = name
    · simp [name_find, hx]
    · simp [name_find, hx, ih, Ne.symm hx]

theorem name_find_eq_some {names : List (List Char)} {name : List Char} {i : Nat}
    (h : name_find names name = some i) : i < names.length ∧ names.get? i = some name := by
  induction names generalizing i with
  | nil => simp [name_find] at h
  | cons x xs ih =>
    by_cases hx : x = name
    · simp only [name_find, hx, if_true, Option.some.injEq] at h
      subst h
      simp [hx]
    · simp only [name_find, hx, if_false, Option.map_eq_some'] at h
      obtain ⟨j, hj, rfl⟩ := h
      obtain ⟨h1, h2⟩ := ih hj
      exact ⟨by simpa using h1, by simpa using h2⟩

theorem name_find_of_nodup {names : List (List Char)} (hnd : names.Nodup) {name : List Char}
    {i : Nat} (h : names.get? i = some name) : name_find names name = some i := by
  induction names generalizing i with
  | nil => simp at h
  | cons x xs ih =>
    obtain ⟨hx, hnd'⟩ := List.nodup_cons.1 hnd
    cases i with
    | zero =>
      simp only [List.get?_cons_zero, Option.some.injEq] at h
      simp [name_find, h]
    | succ i =>
      simp only [List.get?_cons_succ] at h
      have hmem : name ∈ xs := List.get?_mem h
      have hne : x ≠ name := by rintro rfl; exact hx hmem
      simp [name_find, hne, ih hnd' h]

theorem lpp_get_var_idx_of_not_mem {lp : lpp_t} {name : List Char} (h : name ∉ var_names lp) :
    lpp_get_var_idx lp name = -1 := by
  have := name_find_eq_none.2 h
  simp only [var_names] at this
  simp [lpp_get_var_idx, this]

theorem lpp_get_var_idx_of_mem {lp : lpp_t} {name : List Char} (h : name ∈ var_names lp) :
    ∃ k : Nat, k < lp.vars.length ∧ lpp_get_var_idx lp name = (k : Int) + 1 ∧
      (var_names lp).get? k = some name := by
  cases hf : name_find (var_names lp) name with
  | none => exact absurd h (name_find_eq_none.1 hf)
  | some i =>
    obtain ⟨h1, h2⟩ := name_find_eq_some hf
    refine ⟨i, by simpa [var_names] using h1, ?_, h2⟩
    simp only [var_names] at hf
    simp [lpp_get_var_idx, hf]

theorem lpp_get_var_idx_ne_neg_one {lp : lpp_t} {name : List Char}
    (h : lpp_get_var_idx lp name ≠ -1) :
    ∃ k : Nat, k < lp.vars.length ∧ lpp_get_var_idx lp name = (k : Int) + 1 ∧
      (var_names lp).get? k = some name := by
  by_cases hm : name ∈ var_names lp
  · exact lpp_get_var_idx_of_mem hm
  · exact absurd (lpp_get_var_idx_of_not_mem hm) h

theorem lpp_get_cst_idx_of_not_mem {lp : lpp_t} {name : List Char} (h : name ∉ cst_names lp) :
    lpp_get_cst_idx lp name = -1 := by
  have := name_find_eq_none.2 h
  simp only [cst_names] at this
  simp [lpp_get_cst_idx, this]

theorem lpp_get_cst_idx_of_mem {lp : lpp_t} {name : List Char} (h : name ∈ cst_names lp) :
    ∃ k : Nat, k < lp.csts.length ∧ lpp_get_cst_idx lp name = (k : Int) + 1 ∧
      (cst_names lp).get? k = some name := by
  cases hf : name_find (cst_names lp) name with
  | none => exact absurd h (name_find_eq_none.1 hf)
  | some i =>
    obtain ⟨h1, h2⟩ := name_find_eq_some hf
    refine ⟨i, by simpa [cst_names] using h1, ?_, h2⟩
    simp only [cst_names] at hf
    simp [lpp_get_cst_idx, hf]

/-- What `lpp_add_var` does: either the name is new, and a column with it is
added at the end, or the column with this name stays as it is. In both cases
the number returned is that of the column with this name. -/
theorem lpp_add_var_spec (lp : lpp_t) (name : List Char) (t : lpp_var_t) (obj : Int) :
    ∃ k : Nat, (lpp_add_var lp name t obj).2 = (k : Int) + 1 ∧
      (var_names (lpp_add_var lp name t obj).1).get? k = some name ∧
      (lpp_add_var lp name t obj).1.csts = lp.csts ∧
      (lpp_add_var lp name t obj).1.matrix = lp.matrix ∧
      ((name ∉ var_names lp ∧ k = lp.vars.length ∧
          (lpp_add_var lp name t obj).1.vars = lp.vars ++ [{ name := name, var_type := t, obj := obj }]) ∨
       (name ∈ var_names lp ∧ k < lp.vars.length ∧ (lpp_add_var lp name t obj).1.vars = lp.vars)) := by
  by_cases hm : name ∈ var_names lp
  · obtain ⟨k, hk, hidx, hget⟩ := lpp_get_var_idx_of_mem hm
    have hne : lpp_get_var_idx lp name ≠ -1 := by rw [hidx]; omega
    have he : lpp_add_var lp name t obj = (lp, (k : Int) + 1) := by
      unfold lpp_add_var; rw [if_neg hne, hidx]
    rw [he]
    exact ⟨k, rfl, hget, rfl, rfl, Or.inr ⟨hm, hk, rfl⟩⟩
  · have hidx := lpp_get_var_idx_of_not_mem hm
    have he : lpp_add_var lp name t obj =
        ({ lp with vars := lp.vars ++ [{ name := name, var_type := t, obj := obj }] },
          (lp.vars.length : Int) + 1) := by
      unfold lpp_add_var; rw [if_pos hidx]
    rw [he]
    refine ⟨lp.vars.length, rfl, ?_, rfl, rfl, Or.inl ⟨hm, rfl, rfl⟩⟩
    simp [var_names]

/-- What `lpp_add_cst` does, as for `lpp_add_var`. -/
theorem lpp_add_cst_spec (lp : lpp_t) (name : List Char) (t : lpp_cst_t) (rhs : Int) :
    ∃ k : Nat, (lpp_add_cst lp name t rhs).2 = (k : Int) + 1 ∧
      (cst_names (lpp_add_cst lp name t rhs).1).get? k = some name ∧
      (lpp_add_cst lp name t rhs).1.vars = lp.vars ∧
      (lpp_add_cst lp name t rhs).1.matrix = lp.matrix ∧
      ((name ∉ cst_names lp ∧ k = lp.csts.length ∧
          (lpp_add_cst lp name t rhs).1.csts = lp.csts ++ [{ name := name, cst_type := t, rhs := rhs }]) ∨
       (name ∈ cst_names lp ∧ k < lp.csts.length ∧ (lpp_add_cst lp name t rhs).1.csts = lp.csts)) := by
  by_cases hm : name ∈ cst_names lp
  · obtain ⟨k, hk, hidx, hget⟩ := lpp_get_cst_idx_of_mem hm
    have hne : lpp_get_cst_idx lp name ≠ -1 := by rw [hidx]; omega
    have he : lpp_add_cst lp name t rhs = (lp, (k : Int) + 1) := by
      unfold lpp_add_cst; rw [if_neg hne, hidx]
    rw [he]
    exact ⟨k, rfl, hget, rfl, rfl, Or.inr ⟨hm, hk, rfl⟩⟩
  · have hidx := lpp_get_cst_idx_of_not_mem hm
    have he : lpp_add_cst lp name t rhs =
        ({ lp with csts := lp.csts ++ [{ name := name, cst_type := t, rhs := rhs }] },
          (lp.csts.length : Int) + 1) := by
      unfold lpp_add_cst; rw [if_pos hidx]
    rw [he]
    refine ⟨lp.csts.length, rfl, ?_, rfl, rfl, Or.inl ⟨hm, rfl, rfl⟩⟩
    simp [cst_names]

theorem lpp_set_factor_fast_spec {lp lp' : lpp_t} {r k v : Int}
    (h : lpp_set_factor_fast lp r k v = some lp') :
    lp'.vars = lp.vars ∧ lp'.csts = lp.csts ∧ lp'.matrix = (r, k, v) :: lp.matrix ∧
    0 ≤ r ∧ r ≤ lp.csts.length ∧ 0 ≤ k ∧ k ≤ lp.vars.length := by
  unfold lpp_set_factor_fast at h
  split_ifs at h with hc
  simp only [Option.some.injEq] at h
  subst h
  exact ⟨rfl, rfl, rfl, hc.1, hc.2.1, hc.2.2.1, hc.2.2.2⟩

theorem lpp_set_factor_fast_some (lp : lpp_t) (r k : Nat) (v : Int)
    (hr : r ≤ lp.csts.length) (hk : k ≤ lp.vars.length) :
    lpp_set_factor_fast lp r k v = some { lp with matrix := ((r : Int), (k : Int), v) :: lp.matrix } := by
  unfold lpp_set_factor_fast
  rw [if_pos]
  exact ⟨by omega, by omega, by omega, by omega⟩

/-! ## The constraints A: what the problem holds after `pi_add_constr_A` -/

theorem mangle_var_x_inj_nat {n c n' c' : Nat} (hn : n < 2 ^ 31) (hc : c < 2 ^ 31)
    (hn' : n' < 2 ^ 31) (hc' : c' < 2 ^ 31)
    (h : mangle_var 'x' (n : Int) (c : Int) = mangle_var 'x' (n' : Int) (c' : Int)) :
    n = n' ∧ c = c' := by
  obtain ⟨h1, h2⟩ := @mangle_var_x_inj (n : Int) (c : Int) (n' : Int) (c' : Int)
    ⟨by omega, by exact_mod_cast hn⟩ ⟨by omega, by exact_mod_cast hc⟩
    ⟨by omega, by exact_mod_cast hn'⟩ ⟨by omega, by exact_mod_cast hc'⟩ h
  exact ⟨by exact_mod_cast h1, by exact_mod_cast h2⟩

theorem mangle_cst_inj_nat {p p' : Char} {n n' : Nat} (hn : n < 2 ^ 31) (hn' : n' < 2 ^ 31)
    (h : mangle_cst p (n : Int) = mangle_cst p' (n' : Int)) : p = p' ∧ n = n' := by
  obtain ⟨h1, h2⟩ := @mangle_cst_inj p p' (n : Int) (n' : Int)
    ⟨by omega, by exact_mod_cast hn⟩ ⟨by omega, by exact_mod_cast hn'⟩ h
  exact ⟨h1, by exact_mod_cast h2⟩

theorem mem_done_var_names {done : List (Nat × List Nat)} {name : List Char}
    (h : name ∈ done.flatMap (fun p => p.2.map (fun c : Nat => mangle_var 'x' (p.1 : Int) (c : Int)))) :
    ∃ p ∈ done, ∃ c ∈ p.2, name = mangle_var 'x' (p.1 : Int) (c : Int) := by
  rw [List.mem_flatMap] at h
  obtain ⟨p, hp, hm⟩ := h
  rw [List.mem_map] at hm
  obtain ⟨c, hc, rfl⟩ := hm
  exact ⟨p, hp, c, hc, rfl⟩

theorem done_ok_append_node {done : List (Nat × List Nat)} {n : Nat} (h : done_ok done)
    (hn : n ∉ done.map Prod.fst) (hr : n < 2 ^ 31) : done_ok (done ++ [(n, [])]) := by
  refine ⟨?_, ?_⟩
  · rw [List.map_append, List.nodup_append]
    refine ⟨h.1, by simp, ?_⟩
    intro a ha hb
    simp only [List.map_cons, List.map_nil, List.mem_singleton] at hb
    subst hb
    exact hn ha
  · intro p hp
    rcases List.mem_append.1 hp with hp | hp
    · exact h.2 p hp
    · simp only [List.mem_singleton] at hp
      subst hp
      exact ⟨hr, List.nodup_nil, by intro c hc; cases hc⟩

theorem done_ok_append_color {done : List (Nat × List Nat)} {n c : Nat} {cs : List Nat}
    (h : done_ok (done ++ [(n, cs)])) (hc : c ∉ cs) (hr : c < 2 ^ 31) :
    done_ok (done ++ [(n, cs ++ [c])]) := by
  refine ⟨?_, ?_⟩
  · have := h.1
    simpa using this
  · intro p hp
    rcases List.mem_append.1 hp with hp | hp
    · exact h.2 p (List.mem_append_left _ hp)
    · simp only [List.mem_singleton] at hp
      subst hp
      obtain ⟨h1, h2, h3⟩ := h.2 (n, cs) (by simp)
      refine ⟨h1, ?_, ?_⟩
      · rw [List.nodup_append]
        refine ⟨h2, by simp, ?_⟩
        intro a ha hb
        simp only [List.mem_singleton] at hb
        subst hb
        exact hc ha
      · intro c' hc'
        rcases List.mem_append.1 hc' with hc' | hc'
        · exact h3 c' hc'
        · simp only [List.mem_singleton] at hc'
          subst hc'
          exact hr

theorem lp_built_nil : lp_built [] {} := by
  refine ⟨rfl, rfl, ?_⟩
  intro e
  constructor
  · intro he; cases he
  · rintro ⟨i, k, p, c, _, hp, _⟩
    simp at hp

/-- Adding the row `A<n>` of a node that has none yet. -/
theorem lp_built_add_cst {done : List (Nat × List Nat)} {lp : lpp_t} (hb : lp_built done lp)
    (hok : done_ok done) {n : Nat} (hn : n ∉ done.map Prod.fst) (hr : n < 2 ^ 31) :
    lp_built (done ++ [(n, [])])
      (lpp_add_cst lp (mangle_cst 'A' (n : Int)) lpp_cst_t.lpp_equal 1).1 ∧
    (lpp_add_cst lp (mangle_cst 'A' (n : Int)) lpp_cst_t.lpp_equal 1).2 = (done.length : Int) + 1 := by
  have hfresh : mangle_cst 'A' (n : Int) ∉ cst_names lp := by
    intro hm
    simp only [cst_names, hb.csts, List.map_map, List.mem_map, Function.comp] at hm
    obtain ⟨p, hp, hname⟩ := hm
    have := (mangle_cst_inj_nat (hok.2 p hp).1 hr hname).2
    exact hn (List.mem_map.2 ⟨p, hp, this⟩)
  obtain ⟨k, hk1, _, hv, hm, hcase⟩ := lpp_add_cst_spec lp (mangle_cst 'A' (n : Int))
    lpp_cst_t.lpp_equal 1
  rcases hcase with ⟨_, hk, hcsts⟩ | ⟨hmem, _, _⟩
  · have hlen : lp.csts.length = done.length := by rw [hb.csts]; simp
    refine ⟨⟨?_, ?_, ?_⟩, by rw [hk1, hk, hlen]⟩
    · simp only [var_names, hv]
      have := hb.vars
      simp only [var_names] at this
      rw [this]
      simp
    · rw [hcsts, hb.csts]
      simp
    · intro e
      rw [hm, hb.matrix]
      simp only [var_names, hv]
      constructor
      · rintro ⟨i, k', p, c, he, hp, hc, hname⟩
        refine ⟨i, k', p, c, he, ?_, hc, hname⟩
        rw [List.get?_eq_getElem?, List.getElem?_append_left (by exact (List.get?_eq_some.1 hp).1), ← List.get?_eq_getElem?]
        exact hp
      · rintro ⟨i, k', p, c, he, hp, hc, hname⟩
        refine ⟨i, k', p, c, he, ?_, hc, hname⟩
        by_cases hi : i < done.length
        · rw [List.get?_eq_getElem?, List.getElem?_append_left hi, ← List.get?_eq_getElem?] at hp
          exact hp
        · rw [List.get?_eq_getElem?, List.getElem?_append_right (by omega),
            ← List.get?_eq_getElem?] at hp
          have hp' := List.get?_mem hp
          simp only [List.mem_singleton] at hp'
          subst hp'
          cases hc
  · exact absurd hmem hfresh
theorem get?_append_singleton {α : Type} (l : List α) (a : α) (i : Nat) (x : α) :
    (l ++ [a]).get? i = some x ↔ (i < l.length ∧ l.get? i = some x) ∨ (i = l.length ∧ x = a) := by
  by_cases hi : i < l.length
  · rw [List.get?_eq_getElem?, List.getElem?_append_left hi, ← List.get?_eq_getElem?]
    constructor
    · intro h; exact Or.inl ⟨hi, h⟩
    · rintro (⟨_, h⟩ | ⟨h, _⟩)
      · exact h
      · omega
  · rw [List.get?_eq_getElem?, List.getElem?_append_right (by omega)]
    by_cases hi' : i = l.length
    · subst hi'
      simp [eq_comm]
    · have : i - l.length ≠ 0 := by omega
      obtain ⟨j, hj⟩ := Nat.exists_eq_succ_of_ne_zero this
      rw [hj]
      simp
      omega

theorem fresh_var_name {done : List (Nat × List Nat)} {n c : Nat} {cs : List Nat}
    (hok : done_ok (done ++ [(n, cs)])) (hc : c ∉ cs) (hr : c < 2 ^ 31) :
    mangle_var 'x' (n : Int) (c : Int) ∉
      (done ++ [(n, cs)]).flatMap
        (fun p => p.2.map (fun c : Nat => mangle_var 'x' (p.1 : Int) (c : Int))) := by
  intro hm
  obtain ⟨p, hp, c', hc', hname⟩ := mem_done_var_names hm
  obtain ⟨hp1, _, hp3⟩ := hok.2 p hp
  obtain ⟨hn1, _, _⟩ := hok.2 (n, cs) (by simp)
  obtain ⟨h1, h2⟩ := mangle_var_x_inj_nat hn1 hr hp1 (hp3 c' hc') hname
  rcases List.mem_append.1 hp with hp | hp
  · have hnd := hok.1
    rw [List.map_append, List.nodup_append] at hnd
    exact hnd.2.2 (List.mem_map.2 ⟨p, hp, h1.symm⟩) (by simp)
  · simp only [List.mem_singleton] at hp
    subst hp
    exact hc (h2 ▸ hc')

theorem done_index_of_fst {done : List (Nat × List Nat)} {n : Nat} {cs : List Nat}
    (hnd : ((done ++ [(n, cs)]).map Prod.fst).Nodup) {i : Nat} {p : Nat × List Nat}
    (hp : (done ++ [(n, cs)]).get? i = some p) (hn : p.1 = n) : i = done.length ∧ p = (n, cs) := by
  rcases (get?_append_singleton done (n, cs) i p).1 hp with ⟨_, h⟩ | ⟨h1, h2⟩
  · exfalso
    rw [List.map_append, List.nodup_append] at hnd
    exact hnd.2.2 (List.mem_map.2 ⟨p, List.get?_mem h, hn⟩) (by simp)
  · exact ⟨h1, h2⟩

/-- Adding the column `x<n>_<c>` of a new color of the last node, and setting
its factor in the row of the node. -/
theorem lp_built_add_color {done : List (Nat × List Nat)} {n : Nat} {cs : List Nat} {lp : lpp_t}
    (hb : lp_built (done ++ [(n, cs)]) lp) (hok : done_ok (done ++ [(n, cs)]))
    {c : Nat} (hc : c ∉ cs) (hr : c < 2 ^ 31) :
    ∃ lp2, lpp_set_factor_fast
        (lpp_add_var lp (mangle_var 'x' (n : Int) (c : Int)) lpp_var_t.lpp_binary 0).1
        ((done.length : Int) + 1)
        (lpp_add_var lp (mangle_var 'x' (n : Int) (c : Int)) lpp_var_t.lpp_binary 0).2 1 = some lp2 ∧
      lp_built (done ++ [(n, cs ++ [c])]) lp2 ∧
      (lpp_add_var lp (mangle_var 'x' (n : Int) (c : Int)) lpp_var_t.lpp_binary 0).2 =
        (lp2.vars.length : Int) := by
  have hfresh : mangle_var 'x' (n : Int) (c : Int) ∉ var_names lp := by
    rw [hb.vars]; exact fresh_var_name hok hc hr
  obtain ⟨k, hk1, _, hcs, hm, hcase⟩ := lpp_add_var_spec lp (mangle_var 'x' (n : Int) (c : Int))
    lpp_var_t.lpp_binary 0
  rcases hcase with ⟨_, hk, hvars⟩ | ⟨hmem, _, _⟩
  swap
  · exact absurd hmem hfresh
  subst hk
  set lp1 := (lpp_add_var lp (mangle_var 'x' (n : Int) (c : Int)) lpp_var_t.lpp_binary 0).1
    with hlp1
  have hlen1 : lp1.vars.length = lp.vars.length + 1 := by rw [hvars]; simp
  have hclen : lp1.csts.length = done.length + 1 := by rw [hcs, hb.csts]; simp
  have hset := lpp_set_factor_fast_some lp1 (done.length + 1) (lp.vars.length + 1) 1
    (by omega) (by omega)
  rw [hk1]
  refine ⟨_, by exact_mod_cast hset, ⟨?_, ?_, ?_⟩, by simp [hlen1]⟩
  · show var_names lp1 = _
    have hv : var_names lp1 = var_names lp ++ [mangle_var 'x' (n : Int) (c : Int)] := by
      simp [var_names, hvars]
    rw [hv, hb.vars]
    simp [List.flatMap_append]
  · show lp1.csts = _
    rw [hcs, hb.csts]
    simp
  · intro e
    have hv : var_names lp1 = var_names lp ++ [mangle_var 'x' (n : Int) (c : Int)] := by
      simp [var_names, hvars]
    have hvlen : (var_names lp).length = lp.vars.length := var_names_length lp
    show e ∈ (((done.length + 1 : Nat) : Int), ((lp.vars.length + 1 : Nat) : Int), (1 : Int)) ::
        lp1.matrix ↔ ∃ (i k : Nat) (p : Nat × List Nat) (c' : Nat),
          e = ((i : Int) + 1, (k : Int) + 1, (1 : Int)) ∧
          (done ++ [(n, cs ++ [c])]).get? i = some p ∧ c' ∈ p.2 ∧
          (var_names lp1).get? k = some (mangle_var 'x' (p.1 : Int) (c' : Int))
    rw [List.mem_cons, hm, hb.matrix, hv]
    constructor
    · rintro (rfl | ⟨i, k', p, c', he, hp, hc', hname⟩)
      · refine ⟨done.length, lp.vars.length, (n, cs ++ [c]), c, by push_cast; rfl, ?_, by simp, ?_⟩
        · exact (get?_append_singleton _ _ _ _).2 (Or.inr ⟨rfl, rfl⟩)
        · exact (get?_append_singleton _ _ _ _).2 (Or.inr ⟨hvlen.symm, rfl⟩)
      · have hname' : (var_names lp ++ [mangle_var 'x' (n : Int) (c : Int)]).get? k' =
            some (mangle_var 'x' (p.1 : Int) (c' : Int)) :=
          (get?_append_singleton _ _ _ _).2 (Or.inl ⟨(List.get?_eq_some.1 hname).1, hname⟩)
        rcases (get?_append_singleton done (n, cs) i p).1 hp with ⟨hi, hp'⟩ | ⟨hi, hp'⟩
        · exact ⟨i, k', p, c', he, (get?_append_singleton _ _ _ _).2 (Or.inl ⟨hi, hp'⟩), hc', hname'⟩
        · subst hp'
          exact ⟨i, k', (n, cs ++ [c]), c', he,
            (get?_append_singleton _ _ _ _).2 (Or.inr ⟨hi, rfl⟩),
            List.mem_append_left _ hc', hname'⟩
    · rintro ⟨i, k', p, c', he, hp, hc', hname⟩
      rcases (get?_append_singleton _ _ _ _).1 hname with ⟨hk', hname'⟩ | ⟨hk', hname'⟩
      · right
        rcases (get?_append_singleton done (n, cs ++ [c]) i p).1 hp with ⟨hi, hp'⟩ | ⟨hi, hp'⟩
        · exact ⟨i, k', p, c', he, (get?_append_singleton _ _ _ _).2 (Or.inl ⟨hi, hp'⟩), hc', hname'⟩
        · subst hp'
          rcases List.mem_append.1 hc' with hc'' | hc''
          · exact ⟨i, k', (n, cs), c', he,
              (get?_append_singleton _ _ _ _).2 (Or.inr ⟨hi, rfl⟩), hc'', hname'⟩
          · simp only [List.mem_singleton] at hc''
            subst hc''
            exact absurd (List.get?_mem hname') hfresh
      · left
        have hok' := done_ok_append_color hok hc hr
        have hpm : p ∈ done ++ [(n, cs ++ [c])] := List.get?_mem hp
        obtain ⟨hp1, _, hp3⟩ := hok'.2 p hpm
        obtain ⟨hn1, _, _⟩ := hok.2 (n, cs) (by simp)
        obtain ⟨h1, _⟩ := mangle_var_x_inj_nat hp1 (hp3 c' hc') hn1 hr hname'
        obtain ⟨hi, _⟩ := done_index_of_fst hok'.1 hp h1
        rw [he, hi, hk', hvlen]
        push_cast
        rfl

/-! ## The constraints A: the loops -/

theorem constr_A_borders_append (co : copy_opt_t) (l1 l2 : List border_t)
    (pi : problem_instance_t) :
    constr_A_borders co (l1 ++ l2) pi = (constr_A_borders co l1 pi).bind (constr_A_borders co l2) := by
  induction l1 generalizing pi with
  | nil => simp [constr_A_borders]
  | cons b rest ih =>
    simp only [List.cons_append, constr_A_borders]
    cases constr_A_border co pi b with
    | none => simp
    | some pi' => simpa using ih pi'

/-- The loop over the blocks is the loop over all borders in a row. -/
theorem constr_A_blocks_eq (co : copy_opt_t) (blocks : List (Nat × List border_t))
    (pi : problem_instance_t) :
    constr_A_blocks co blocks pi =
      constr_A_borders co (blocks.flatMap (fun p => p.2.reverse)) pi := by
  induction blocks generalizing pi with
  | nil => simp [constr_A_blocks, constr_A_borders]
  | cons p rest ih =>
    obtain ⟨blk, head⟩ := p
    simp only [constr_A_blocks, List.flatMap_cons, constr_A_borders_append]
    cases constr_A_borders co head.reverse pi with
    | none => simp
    | some pi' => simpa using ih pi'

theorem pi_add_constr_A_eq (co : copy_opt_t) (pi : problem_instance_t) :
    pi_add_constr_A co pi = constr_A_borders co (flat_borders co) pi :=
  constr_A_blocks_eq co _ pi

/-- Induction over the loop `bitset_foreach` of `pi_add_constr_A`. -/
theorem constr_A_colors_ind (n : Nat) (cst_idx : Int)
    (P : List Nat → problem_instance_t → Prop) (all : List Nat)
    (hstep : ∀ (cs1 : List Nat) (c : Nat) (rest : List Nat) (pi : problem_instance_t),
      all = cs1 ++ c :: rest → P cs1 pi →
      ∃ lp2, lpp_set_factor_fast
          (lpp_add_var pi.curr_lp (mangle_var 'x' (n : Int) (c : Int)) lpp_var_t.lpp_binary 0).1
          cst_idx
          (lpp_add_var pi.curr_lp (mangle_var 'x' (n : Int) (c : Int)) lpp_var_t.lpp_binary 0).2
          1 = some lp2 ∧
        P (cs1 ++ [c]) { pi with
          curr_lp := lp2,
          last_x_var :=
            (lpp_add_var pi.curr_lp (mangle_var 'x' (n : Int) (c : Int)) lpp_var_t.lpp_binary 0).2 }) :
    ∀ (rest cs1 : List Nat) (pi : problem_instance_t), all = cs1 ++ rest → P cs1 pi →
      ∃ pi', constr_A_colors n cst_idx rest pi = some pi' ∧ P all pi' := by
  intro rest
  induction rest with
  | nil =>
    intro cs1 pi hall hP
    rw [List.append_nil] at hall
    subst hall
    exact ⟨pi, rfl, hP⟩
  | cons c rest ih =>
    intro cs1 pi hall hP
    obtain ⟨lp2, hset, hP'⟩ := hstep cs1 c rest pi hall hP
    have := ih (cs1 ++ [c]) _ (by simp [hall]) hP'
    obtain ⟨pi', hrun, hfin⟩ := this
    refine ⟨pi', ?_, hfin⟩
    simp only [constr_A_colors]
    rw [hset]
    exact hrun

/-- Induction over the loop of `pi_add_constr_A` over the borders. -/
theorem constr_A_borders_ind (co : copy_opt_t)
    (P : List border_t → problem_instance_t → Prop) (all : List border_t)
    (hstep : ∀ l1 b rest pi, all = l1 ++ b :: rest → P l1 pi →
      ∃ pi', constr_A_border co pi b = some pi' ∧ P (l1 ++ [b]) pi') :
    ∀ (rest l1 : List border_t) (pi : problem_instance_t), all = l1 ++ rest → P l1 pi →
      ∃ pi', constr_A_borders co rest pi = some pi' ∧ P all pi' := by
  intro rest
  induction rest with
  | nil =>
    intro l1 pi hall hP
    rw [List.append_nil] at hall
    subst hall
    exact ⟨pi, rfl, hP⟩
  | cons b rest ih =>
    intro l1 pi hall hP
    obtain ⟨pi1, hb, hP'⟩ := hstep l1 b rest pi hall hP
    obtain ⟨pi', hrun, hfin⟩ := ih (l1 ++ [b]) pi1 (by simp [hall]) hP'
    refine ⟨pi', ?_, hfin⟩
    simp only [constr_A_borders]
    rw [hb]
    exact hrun

theorem allocatable_regs_spec (co : copy_opt_t) (n c : Nat) :
    c ∈ allocatable_regs co n ↔ c < co.chordal_env.n_regs ∧ co.allocatable n c = true := by
  simp [allocatable_regs]

theorem allocatable_regs_nodup (co : copy_opt_t) (n : Nat) : (allocatable_regs co n).Nodup :=
  (List.nodup_range _).filter _

theorem constr_A_nodes_append (R : pset) (l1 l2 : List border_t) :
    constr_A_nodes R (l1 ++ l2) = constr_A_nodes R l1 ++ constr_A_nodes R l2 := by
  simp [constr_A_nodes]

theorem constr_A_nodes_single (R : pset) (b : border_t) :
    constr_A_nodes R [b] =
      if b.is_def && b.is_real && !pset_find_ptr R (ptr_t.ir_node b.irn) then [b.irn] else [] := by
  by_cases h : (b.is_def && b.is_real && !pset_find_ptr R (ptr_t.ir_node b.irn)) = true
  · simp [constr_A_nodes, List.filter_cons, h]
  · simp [constr_A_nodes, List.filter_cons, h]

theorem mem_constr_A_nodes {R : pset} {l : List border_t} {n : Nat} :
    n ∈ constr_A_nodes R l ↔ ∃ b ∈ l, b.is_def = true ∧ b.is_real = true ∧
      pset_find_ptr R (ptr_t.ir_node b.irn) = false ∧ b.irn = n := by
  simp [constr_A_nodes, and_assoc]

/-! ## C7: the x variables are those of admissible colors -/

theorem a_vars_inv_colors (co : copy_opt_t) (R : pset) (n : Nat)
    (hn : n ∈ constr_A_nodes R (flat_borders co)) (cst_idx : Nat) :
    ∀ (cs : List Nat) (pi : problem_instance_t), (∀ c ∈ cs, c ∈ allocatable_regs co n) →
      a_vars_inv co R pi → cst_idx ≤ pi.curr_lp.csts.length →
      ∃ pi', constr_A_colors n cst_idx cs pi = some pi' ∧ a_vars_inv co R pi' := by
  intro cs
  induction cs with
  | nil => intro pi _ h _; exact ⟨pi, rfl, h⟩
  | cons c rest ih =>
    intro pi hcs h hcst
    obtain ⟨k, hk1, hget, hcsts, _, hcase⟩ := lpp_add_var_spec pi.curr_lp
      (mangle_var 'x' (n : Int) (c : Int)) lpp_var_t.lpp_binary 0
    set lp1 := (lpp_add_var pi.curr_lp (mangle_var 'x' (n : Int) (c : Int))
      lpp_var_t.lpp_binary 0).1 with hlp1
    have hklt : k < lp1.vars.length := by
      have := (List.get?_eq_some.1 hget).1
      rwa [var_names_length] at this
    have hnames1 : ∀ name ∈ var_names lp1, ∃ n c : Nat,
        name = mangle_var 'x' (n : Int) (c : Int) ∧ n ∈ constr_A_nodes R (flat_borders co) ∧
        c ∈ allocatable_regs co n := by
      intro name hname
      rcases hcase with ⟨_, _, hv⟩ | ⟨_, _, hv⟩
      · simp only [var_names, hv, List.map_append, List.mem_append, List.map_cons,
          List.map_nil, List.mem_singleton] at hname
        rcases hname with hname | hname
        · exact h.names name hname
        · exact ⟨n, c, hname, hn, hcs c (List.mem_cons_self _ _)⟩
      · simp only [var_names, hv] at hname
        exact h.names name hname
    have hset := lpp_set_factor_fast_some lp1 cst_idx (k + 1) 1 (by rw [hcsts]; exact hcst)
      (by omega)
    obtain ⟨pi', hrun, hfin⟩ := ih
      { pi with
        curr_lp := { lp1 with matrix := ((cst_idx : Int), ((k + 1 : Nat) : Int), 1) :: lp1.matrix },
        last_x_var := (lpp_add_var pi.curr_lp (mangle_var 'x' (n : Int) (c : Int))
          lpp_var_t.lpp_binary 0).2 }
      (fun c' hc' => hcs c' (List.mem_cons_of_mem _ hc'))
      ⟨h.removed, hnames1, Or.inr ⟨by
        show (1 : Int) ≤ (lpp_add_var pi.curr_lp (mangle_var 'x' (n : Int) (c : Int))
          lpp_var_t.lpp_binary 0).2
        rw [hk1]; omega, by
        show (lpp_add_var pi.curr_lp (mangle_var 'x' (n : Int) (c : Int))
          lpp_var_t.lpp_binary 0).2 ≤ (lp1.vars.length : Int)
        rw [hk1]; omega⟩⟩
      (by show cst_idx ≤ lp1.csts.length; rw [hcsts]; exact hcst)
    refine ⟨pi', ?_, hfin⟩
    simp only [constr_A_colors]
    have hset' : lpp_set_factor_fast lp1 (cst_idx : Int)
        (lpp_add_var pi.curr_lp (mangle_var 'x' (n : Int) (c : Int)) lpp_var_t.lpp_binary 0).2 1 =
        some { lp1 with matrix := ((cst_idx : Int), ((k + 1 : Nat) : Int), 1) :: lp1.matrix } := by
      rw [hk1]; exact_mod_cast hset
    rw [hset']
    exact hrun

theorem a_vars_inv_border (co : copy_opt_t) (R : pset) (pi : problem_instance_t)
    (b : border_t) (hb : b ∈ flat_borders co) (h : a_vars_inv co R pi) :
    ∃ pi', constr_A_border co pi b = some pi' ∧ a_vars_inv co R pi' := by
  unfold constr_A_border
  by_cases hc : (b.is_def && b.is_real && !is_removed pi (ptr_t.ir_node b.irn)) = true
  · rw [if_pos hc]
    obtain ⟨k, hk1, hget, hvars, _, _⟩ := lpp_add_cst_spec pi.curr_lp
      (mangle_cst 'A' (b.irn : Int)) lpp_cst_t.lpp_equal 1
    have hn : b.irn ∈ constr_A_nodes R (flat_borders co) := by
      rw [mem_constr_A_nodes]
      simp only [Bool.and_eq_true, Bool.not_eq_true', is_removed, h.removed] at hc
      exact ⟨b, hb, hc.1.1, hc.1.2, hc.2, rfl⟩
    have hklt : k < (lpp_add_cst pi.curr_lp (mangle_cst 'A' (b.irn : Int))
        lpp_cst_t.lpp_equal 1).1.csts.length := by
      have := (List.get?_eq_some.1 hget).1
      rwa [cst_names_length] at this
    have := a_vars_inv_colors co R b.irn hn (k + 1) (allocatable_regs co b.irn)
      { pi with curr_lp := (lpp_add_cst pi.curr_lp (mangle_cst 'A' (b.irn : Int))
          lpp_cst_t.lpp_equal 1).1 }
      (fun c hc => hc)
      ⟨h.removed, by
        intro name hname
        simp only [var_names, hvars] at hname
        exact h.names name hname, by
        show pi.last_x_var = -1 ∨ (1 ≤ pi.last_x_var ∧ pi.last_x_var ≤ _)
        rw [hvars]; exact h.last⟩
      (by
        show k + 1 ≤ (lpp_add_cst pi.curr_lp (mangle_cst 'A' (b.irn : Int))
          lpp_cst_t.lpp_equal 1).1.csts.length
        omega)
    simp only [hk1]
    exact_mod_cast this
  · rw [if_neg hc]
    exact ⟨pi, rfl, h⟩

/-- `pi_add_constr_A` returns, and what holds of the record it returns. -/
theorem pi_add_constr_A_vars (co : copy_opt_t) (pi : problem_instance_t)
    (hlp : pi.curr_lp.vars = []) (hlast : pi.last_x_var = -1) :
    ∃ piA, pi_add_constr_A co pi = some piA ∧ a_vars_inv co pi.removed piA := by
  rw [pi_add_constr_A_eq]
  exact constr_A_borders_ind co (fun _ pi' => a_vars_inv co pi.removed pi') (flat_borders co)
    (fun l1 b rest pi' hall hP =>
      a_vars_inv_border co pi.removed pi' b (by rw [hall]; simp) hP)
    (flat_borders co) [] pi rfl
    ⟨rfl, by intro name hname; simp [var_names, hlp] at hname, Or.inl hlast⟩

theorem mem_apply_solution_calls (pi : problem_instance_t) (value : Nat → Rat) :
    ∀ (l : List Nat) (call : Nat × Int), call ∈ apply_solution_calls pi value l →
      ∃ j ∈ l, value (1 + j) > one_minus_EPSILON ∧ ∃ nnr : Int,
        split_var (lpp_get_var_name pi.curr_lp (1 + (j : Int))) = (2, nnr, call.2) ∧
        call.1 = nnr.toNat := by
  intro l
  induction l with
  | nil => intro call h; simp [apply_solution_calls] at h
  | cons i rest ih =>
    intro call h
    unfold apply_solution_calls at h
    by_cases hv : value (1 + i) > one_minus_EPSILON
    · rw [if_pos hv] at h
      rcases hs : split_var (lpp_get_var_name pi.curr_lp (1 + (i : Int))) with ⟨ret, nnr, c⟩
      rw [hs] at h
      by_cases hret : ret = 2
      · simp only [hret, if_true, List.mem_cons] at h
        rcases h with rfl | h
        · exact ⟨i, List.mem_cons_self _ _, hv, nnr, by rw [hs, hret], rfl⟩
        · obtain ⟨j, hj, h1, h2⟩ := ih call h
          exact ⟨j, List.mem_cons_of_mem _ hj, h1, h2⟩
      · simp [hret] at h
    · rw [if_neg hv] at h
      obtain ⟨j, hj, h1, h2⟩ := ih call h
      exact ⟨j, List.mem_cons_of_mem _ hj, h1, h2⟩

theorem lpp_get_var_name_eq {lp : lpp_t} {k : Nat} {name : List Char}
    (h : (var_names lp).get? k = some name) : lpp_get_var_name lp ((k : Int) + 1) = name := by
  unfold lpp_get_var_name
  rw [if_pos (by omega)]
  have : ((k : Int) + 1).toNat - 1 = k := by omega
  rw [this]
  simp only [var_names] at h
  simp [List.getD_eq_getElem?_getD, ← List.get?_eq_getElem?, h]

theorem var_names_get?_of_initial {lp lp' : lpp_t} (hpre : lp.vars <+: lp'.vars) {k : Nat}
    (hk : k < lp.vars.length) : (var_names lp').get? k = (var_names lp).get? k := by
  obtain ⟨t, ht⟩ := hpre
  simp only [var_names, ← ht, List.map_append]
  rw [List.get?_eq_getElem?, List.get?_eq_getElem?, List.getElem?_append_left (by simpa using hk)]

theorem reducer_keeps_problem (co : copy_opt_t) :
    ∃ r, pi_find_simplicials co new_pi_init = some r ∧ r.curr_lp = {} ∧ r.last_x_var = -1 ∧
      r.cst_counter = 0 := by
  obtain ⟨r, r', h1, h2, _, _⟩ := pi_find_simplicials_total co new_pi_init
  have hP := find_while_spec co
    (fun pi => pi.curr_lp = {} ∧ pi.last_x_var = -1 ∧ pi.cst_counter = 0)
    (fun pi n h _ => h) _ new_pi_init r' ⟨rfl, rfl, rfl⟩ h1
  refine ⟨r, h2, ?_⟩
  unfold pi_find_simplicials at h2
  rw [h1] at h2
  simp only [Option.map_some', Option.some.injEq] at h2
  subst h2
  split_ifs <;> exact hP

/-- C7. Admissibility of the colors committed from the solution. The reducer
returns a record `r` and `pi_add_constr_A` a record `piA` such that every
column with a number in `1..last_x_var` is named `x<n>_<c>` for a node `n` that
has a real definition and is not in the removed set, and a color `c` below
`n_regs` that is allocatable for `n`. Hence, for every later record with the
same `last_x_var` whose columns start with those of `piA` (the library only
adds columns at the end), every call `set_irn_col` made by `pi_apply_solution`
gives a node outside the removed set a color that is allocatable for it. -/
theorem x_vars_are_admissible (co : copy_opt_t) (hrange : int_range co) :
    ∃ r piA, pi_find_simplicials co new_pi_init = some r ∧ pi_add_constr_A co r = some piA ∧
      (∀ i : Nat, 1 ≤ i → (i : Int) ≤ piA.last_x_var → ∃ n c : Nat,
        lpp_get_var_name piA.curr_lp i = mangle_var 'x' (n : Int) (c : Int) ∧
        (∃ b ∈ flat_borders co, b.is_def = true ∧ b.is_real = true ∧ b.irn = n) ∧
        is_removed r (ptr_t.ir_node n) = false ∧
        c < co.chordal_env.n_regs ∧ co.allocatable n c = true) ∧
      (∀ (pi : problem_instance_t) (value : Nat → Rat),
        piA.curr_lp.vars <+: pi.curr_lp.vars → pi.last_x_var = piA.last_x_var →
        ∀ call ∈ apply_solution_calls pi value (List.range pi.last_x_var.toNat),
          is_removed r (ptr_t.ir_node call.1) = false ∧
          ∃ c : Nat, call.2 = (c : Int) ∧ c < co.chordal_env.n_regs ∧
            co.allocatable call.1 c = true) := by
  obtain ⟨r, hr, hlp, hlast, _⟩ := reducer_keeps_problem co
  obtain ⟨piA, hA, hinv⟩ := pi_add_constr_A_vars co r (by rw [hlp]) hlast
  have hcol : ∀ k : Nat, (k : Int) + 1 ≤ piA.last_x_var → ∃ n c : Nat,
      (var_names piA.curr_lp).get? k = some (mangle_var 'x' (n : Int) (c : Int)) ∧
      k < piA.curr_lp.vars.length ∧ n < 2 ^ 31 ∧ c < 2 ^ 31 ∧
      (∃ b ∈ flat_borders co, b.is_def = true ∧ b.is_real = true ∧ b.irn = n) ∧
      is_removed r (ptr_t.ir_node n) = false ∧
      c < co.chordal_env.n_regs ∧ co.allocatable n c = true := by
    intro k hk
    have hklt : k < piA.curr_lp.vars.length := by
      rcases hinv.last with h | ⟨_, h⟩ <;> omega
    have hklt' : k < (var_names piA.curr_lp).length := by rwa [var_names_length]
    have hget := List.get?_eq_get hklt'
    obtain ⟨n, c, hname, hn, hc⟩ := hinv.names _ (List.get?_mem hget)
    obtain ⟨b, hb, hb1, hb2, hb3, hb4⟩ := mem_constr_A_nodes.1 hn
    obtain ⟨hc1, hc2⟩ := (allocatable_regs_spec co n c).1 hc
    refine ⟨n, c, by rw [hget, hname], hklt, ?_, ?_, ⟨b, hb, hb1, hb2, hb4⟩, ?_, hc1, hc2⟩
    · rw [← hb4]; exact hrange.2 b hb
    · exact lt_of_lt_of_le hc1 hrange.1
    · rw [← hb4]; exact hb3
  refine ⟨r, piA, hr, hA, ?_, ?_⟩
  · intro i hi hle
    obtain ⟨k, rfl⟩ : ∃ k, i = k + 1 := ⟨i - 1, by omega⟩
    obtain ⟨n, c, hget, _, _, _, h1, h2, h3, h4⟩ := hcol k (by exact_mod_cast hle)
    refine ⟨n, c, ?_, h1, h2, h3, h4⟩
    have := lpp_get_var_name_eq hget
    exact_mod_cast this
  · intro pi value hpre hl call hcall
    obtain ⟨j, hj, _, nnr, hsplit, hcall1⟩ := mem_apply_solution_calls pi value _ call hcall
    rw [List.mem_range, hl] at hj
    obtain ⟨n, c, hget, hklt, hn, hc, _, h2, h3, h4⟩ := hcol j (by omega)
    have hget' : (var_names pi.curr_lp).get? j = some (mangle_var 'x' (n : Int) (c : Int)) := by
      rw [var_names_get?_of_initial hpre hklt]; exact hget
    have hname := lpp_get_var_name_eq hget'
    rw [show (1 : Int) + (j : Int) = (j : Int) + 1 by ring, hname,
      split_var_mangle_var (n : Int) (c : Int) ⟨by omega, by exact_mod_cast hn⟩
        ⟨by omega, by exact_mod_cast hc⟩] at hsplit
    simp only [Prod.mk.injEq, true_and] at hsplit
    have hcn : call.1 = n := by rw [hcall1, ← hsplit.1]; simp
    rw [hcn]
    exact ⟨h2, c, hsplit.2.symm, h3, h4⟩

/-- Witness of C7 on the 4-cycle with two registers: the eight columns
`x0_0, x0_1, ..., x3_1`. -/
theorem x_vars_are_admissible_witness :
    int_range cycle_co ∧
    (pi_add_constr_A cycle_co new_pi_init).map
      (fun pi => (pi.curr_lp.vars.map (fun v => String.mk v.name), pi.last_x_var)) =
      some (["x0_0", "x0_1", "x1_0", "x1_1", "x2_0", "x2_1", "x3_0", "x3_1"], 8) ∧
    ∃ r piA, pi_find_simplicials cycle_co new_pi_init = some r ∧
      pi_add_constr_A cycle_co r = some piA ∧
      (∀ i : Nat, 1 ≤ i → (i : Int) ≤ piA.last_x_var → ∃ n c : Nat,
        lpp_get_var_name piA.curr_lp i = mangle_var 'x' (n : Int) (c : Int) ∧
        (∃ b ∈ flat_borders cycle_co, b.is_def = true ∧ b.is_real = true ∧ b.irn = n) ∧
        is_removed r (ptr_t.ir_node n) = false ∧
        c < cycle_co.chordal_env.n_regs ∧ cycle_co.allocatable n c = true) ∧
      (∀ (pi : problem_instance_t) (value : Nat → Rat),
        piA.curr_lp.vars <+: pi.curr_lp.vars → pi.last_x_var = piA.last_x_var →
        ∀ call ∈ apply_solution_calls pi value (List.range pi.last_x_var.toNat),
          is_removed r (ptr_t.ir_node call.1) = false ∧
          ∃ c : Nat, call.2 = (c : Int) ∧ c < cycle_co.chordal_env.n_regs ∧
            cycle_co.allocatable call.1 c = true) :=
  ⟨by decide, by decide, x_vars_are_admissible cycle_co (by decide)⟩

/-! ## The constraints A when every value has one real definition -/

theorem done_ok_of_prefix {done : List (Nat × List Nat)} {n : Nat} {cs1 rest : List Nat}
    (h : done_ok (done ++ [(n, cs1 ++ rest)])) : done_ok (done ++ [(n, cs1)]) := by
  refine ⟨by simpa using h.1, ?_⟩
  intro p hp
  rcases List.mem_append.1 hp with hp | hp
  · exact h.2 p (List.mem_append_left _ hp)
  · simp only [List.mem_singleton] at hp
    subst hp
    obtain ⟨h1, h2, h3⟩ := h.2 (n, cs1 ++ rest) (by simp)
    exact ⟨h1, (List.nodup_append.1 h2).1, fun c hc => h3 c (List.mem_append_left _ hc)⟩

theorem a_state_colors (co : copy_opt_t) (R : pset) (done : List (Nat × List Nat)) (n : Nat)
    (all : List Nat) (hok : done_ok (done ++ [(n, all)])) (pi : problem_instance_t)
    (h : a_state co R (done ++ [(n, [])]) pi) :
    ∃ pi', constr_A_colors n ((done.length : Int) + 1) all pi = some pi' ∧
      a_state co R (done ++ [(n, all)]) pi' := by
  refine constr_A_colors_ind n ((done.length : Int) + 1)
    (fun cs1 pi' => a_state co R (done ++ [(n, cs1)]) pi') all ?_ all [] pi rfl h
  intro cs1 c rest pi' hall hP
  have hok1 : done_ok (done ++ [(n, cs1)]) := by
    rw [hall] at hok
    exact done_ok_of_prefix hok
  obtain ⟨_, hnd, hrng⟩ := hok.2 (n, all) (by simp)
  have hc : c ∉ cs1 := by
    rw [hall] at hnd
    have := (List.nodup_append.1 hnd).2.2
    exact fun hmem => this hmem (List.mem_cons_self _ _)
  have hr : c < 2 ^ 31 := hrng c (by rw [hall]; simp)
  obtain ⟨lp2, hset, hb, hlast⟩ := lp_built_add_color hP.built hok1 hc hr
  exact ⟨lp2, hset, ⟨hP.removed, hb, Or.inr hlast⟩⟩

theorem a_state_border (co : copy_opt_t) (R : pset) (nodes : List Nat) (b : border_t)
    (hok : done_ok (mk_done co (nodes ++ constr_A_nodes R [b]))) (pi : problem_instance_t)
    (h : a_state co R (mk_done co nodes) pi) :
    ∃ pi', constr_A_border co pi b = some pi' ∧
      a_state co R (mk_done co (nodes ++ constr_A_nodes R [b])) pi' := by
  unfold constr_A_border
  rw [constr_A_nodes_single] at hok ⊢
  have hcond : is_removed pi (ptr_t.ir_node b.irn) = pset_find_ptr R (ptr_t.ir_node b.irn) := by
    simp only [is_removed, h.removed]
  rw [hcond]
  by_cases hc : (b.is_def && b.is_real && !pset_find_ptr R (ptr_t.ir_node b.irn)) = true
  · rw [if_pos hc] at hok ⊢
    rw [if_pos hc]
    have hmk : mk_done co (nodes ++ [b.irn]) =
        mk_done co nodes ++ [(b.irn, allocatable_regs co b.irn)] := by
      simp [mk_done]
    rw [hmk] at hok ⊢
    have hok0 : done_ok (mk_done co nodes) := by
      refine ⟨?_, fun p hp => hok.2 p (List.mem_append_left _ hp)⟩
      have := hok.1
      rw [List.map_append, List.nodup_append] at this
      exact this.1
    have hn : b.irn ∉ (mk_done co nodes).map Prod.fst := by
      have := hok.1
      rw [List.map_append, List.nodup_append] at this
      exact fun hmem => this.2.2 hmem (by simp)
    have hr : b.irn < 2 ^ 31 := (hok.2 (b.irn, allocatable_regs co b.irn) (by simp)).1
    obtain ⟨hb1, hidx⟩ := lp_built_add_cst h.built hok0 hn hr
    show ∃ pi', constr_A_colors b.irn
        (lpp_add_cst pi.curr_lp (mangle_cst 'A' (b.irn : Int)) lpp_cst_t.lpp_equal 1).2
        (allocatable_regs co b.irn)
        { pi with curr_lp := (lpp_add_cst pi.curr_lp (mangle_cst 'A' (b.irn : Int))
          lpp_cst_t.lpp_equal 1).1 } = some pi' ∧ _
    rw [hidx]
    have hvars : (lpp_add_cst pi.curr_lp (mangle_cst 'A' (b.irn : Int))
        lpp_cst_t.lpp_equal 1).1.vars = pi.curr_lp.vars := by
      obtain ⟨_, _, _, hv, _, _⟩ := lpp_add_cst_spec pi.curr_lp (mangle_cst 'A' (b.irn : Int))
        lpp_cst_t.lpp_equal 1
      exact hv
    exact a_state_colors co R (mk_done co nodes) b.irn (allocatable_regs co b.irn) hok
      { pi with curr_lp := (lpp_add_cst pi.curr_lp (mangle_cst 'A' (b.irn : Int))
          lpp_cst_t.lpp_equal 1).1 }
      ⟨h.removed, hb1, by
        show ((lpp_add_cst pi.curr_lp (mangle_cst 'A' (b.irn : Int))
          lpp_cst_t.lpp_equal 1).1.vars = [] ∧ pi.last_x_var = -1) ∨ pi.last_x_var = _
        rw [hvars]; exact h.last⟩
  · rw [if_neg hc]
    rw [if_neg hc]
    rw [List.append_nil]
    exact ⟨pi, rfl, h⟩

theorem done_ok_mk_done (co : copy_opt_t) (hrange : int_range co) (nodes : List Nat)
    (hnd : nodes.Nodup) (hsub : ∀ n ∈ nodes, ∃ b ∈ flat_borders co, b.irn = n) :
    done_ok (mk_done co nodes) := by
  refine ⟨?_, ?_⟩
  · have : (mk_done co nodes).map Prod.fst = nodes := by
      unfold mk_done
      induction nodes with
      | nil => rfl
      | cons a t ih =>
        simp only [List.map_cons, List.cons.injEq, true_and]
        exact ih (List.nodup_cons.1 hnd).2 (fun n hn => hsub n (List.mem_cons_of_mem _ hn))
    rw [this]; exact hnd
  · intro p hp
    simp only [mk_done, List.mem_map] at hp
    obtain ⟨n, hn, rfl⟩ := hp
    obtain ⟨b, hb, rfl⟩ := hsub n hn
    refine ⟨hrange.2 b hb, allocatable_regs_nodup co _, ?_⟩
    intro c hc
    exact lt_of_lt_of_le ((allocatable_regs_spec co _ c).1 hc).1 hrange.1

/-- `pi_add_constr_A` on a fresh problem, when no value outside the removed set
has two real definitions: it returns, and the problem then holds exactly the
constraints A of the nodes with a real definition. -/
theorem pi_add_constr_A_spec (co : copy_opt_t) (hrange : int_range co) (pi : problem_instance_t)
    (hlp : pi.curr_lp = {}) (hlast : pi.last_x_var = -1)
    (hnd : (constr_A_nodes pi.removed (flat_borders co)).Nodup) :
    ∃ piA, pi_add_constr_A co pi = some piA ∧
      a_state co pi.removed (mk_done co (constr_A_nodes pi.removed (flat_borders co))) piA := by
  rw [pi_add_constr_A_eq]
  have hsub : ∀ l1 rest, flat_borders co = l1 ++ rest →
      done_ok (mk_done co (constr_A_nodes pi.removed l1)) := by
    intro l1 rest hall
    apply done_ok_mk_done co hrange
    · rw [hall, constr_A_nodes_append] at hnd
      exact (List.nodup_append.1 hnd).1
    · intro n hn
      obtain ⟨b, hb, _, _, _, hbn⟩ := mem_constr_A_nodes.1 hn
      exact ⟨b, by rw [hall]; exact List.mem_append_left _ hb, hbn⟩
  have := constr_A_borders_ind co
    (fun l1 pi' => a_state co pi.removed (mk_done co (constr_A_nodes pi.removed l1)) pi')
    (flat_borders co)
    (by
      intro l1 b rest pi' hall hP
      have hok := hsub (l1 ++ [b]) rest (by simp [hall])
      rw [constr_A_nodes_append] at hok
      obtain ⟨pi2, h1, h2⟩ := a_state_border co pi.removed _ b hok pi' hP
      refine ⟨pi2, h1, ?_⟩
      show a_state co pi.removed (mk_done co (constr_A_nodes pi.removed (l1 ++ [b]))) pi2
      rw [constr_A_nodes_append]
      exact h2)
    (flat_borders co) [] pi rfl
    ⟨rfl, by rw [hlp]; exact lp_built_nil, Or.inl ⟨by rw [hlp], hlast⟩⟩
  exact this

/-! ## The constraints B: the problem -/

theorem constr_B_events_append (co : copy_opt_t) (color : Nat) (l1 l2 : List (Nat × border_t))
    (st : sweep_t) :
    constr_B_events co color (l1 ++ l2) st =
      (constr_B_events co color l1 st).bind (constr_B_events co color l2) := by
  induction l1 generalizing st with
  | nil => simp [constr_B_events]
  | cons e rest ih =>
    simp only [List.cons_append, constr_B_events]
    cases constr_B_border co color e.1 st e.2 with
    | none => simp
    | some st' => simpa using ih st'

theorem constr_B_borders_eq (co : copy_opt_t) (color block : Nat) (l : List border_t)
    (st : sweep_t) :
    constr_B_borders co color block l st =
      constr_B_events co color (l.map (fun b => (block, b))) st := by
  induction l generalizing st with
  | nil => simp [constr_B_borders, constr_B_events]
  | cons b rest ih =>
    simp only [constr_B_borders, List.map_cons, constr_B_events]
    cases constr_B_border co color block st b with
    | none => simp
    | some st' => simpa using ih st'

/-- The loop over the blocks is the loop over all borders in a row. -/
theorem constr_B_blocks_eq (co : copy_opt_t) (color : Nat) (blocks : List (Nat × List border_t))
    (st : sweep_t) :
    constr_B_blocks co color blocks st =
      constr_B_events co color
        (blocks.flatMap (fun p => p.2.reverse.map (fun b => (p.1, b)))) st := by
  induction blocks generalizing st with
  | nil => simp [constr_B_blocks, constr_B_events]
  | cons p rest ih =>
    obtain ⟨blk, head⟩ := p
    simp only [constr_B_blocks, List.flatMap_cons, constr_B_events_append, constr_B_borders_eq]
    cases constr_B_events co color (head.reverse.map (fun b => (blk, b))) st with
    | none => simp
    | some st' => simpa using ih st'

theorem constr_B_sweep_eq {co : copy_opt_t} {pi : problem_instance_t} {color : Nat}
    {st : sweep_t} (h : constr_B_sweep co pi color = some st) :
    constr_B_events co color (border_events co) { pi := pi } = some st := by
  unfold constr_B_sweep at h
  rw [constr_B_blocks_eq] at h
  cases hb : constr_B_events co color
      (co.chordal_env.border_heads.flatMap (fun p => p.2.reverse.map (fun b => (p.1, b))))
      { pi := pi } with
  | none => rw [hb] at h; cases h
  | some st' =>
    rw [hb] at h
    simp only at h
    split_ifs at h
    simp only [Option.some.injEq] at h
    subst h
    exact hb

/-- Induction over the sweep of `pi_add_constr_B`. -/
theorem constr_B_events_ind (co : copy_opt_t) (color : Nat)
    (P : List (Nat × border_t) → sweep_t → Prop) (all : List (Nat × border_t))
    (hstep : ∀ l1 e rest st st', all = l1 ++ e :: rest → P l1 st →
      constr_B_border co color e.1 st e.2 = some st' → P (l1 ++ [e]) st') :
    ∀ (rest l1 : List (Nat × border_t)) (st fin : sweep_t), all = l1 ++ rest → P l1 st →
      constr_B_events co color rest st = some fin → P all fin := by
  intro rest
  induction rest with
  | nil =>
    intro l1 st fin hall hP hrun
    rw [List.append_nil] at hall
    subst hall
    simp only [constr_B_events, Option.some.injEq] at hrun
    subst hrun
    exact hP
  | cons e rest ih =>
    intro l1 st fin hall hP hrun
    simp only [constr_B_events] at hrun
    cases hb : constr_B_border co color e.1 st e.2 with
    | none => rw [hb] at hrun; cases hrun
    | some st' =>
      rw [hb] at hrun
      exact ih (l1 ++ [e]) st' fin (by simp [hall]) (hstep l1 e rest st st' hall hP hb) hrun

theorem lp_grows_refl (lp : lpp_t) : lp_grows lp lp :=
  ⟨rfl, List.prefix_refl _, List.suffix_refl _⟩

theorem lp_grows_trans {a b c : lpp_t} (h1 : lp_grows a b) (h2 : lp_grows b c) : lp_grows a c :=
  ⟨h2.1.trans h1.1, h1.2.1.trans h2.2.1, h1.2.2.trans h2.2.2⟩

theorem row_covers_mono {lp lp' : lpp_t} (hg : lp_grows lp lp') {color : Nat} {L : List Nat}
    (h : row_covers lp color L) : row_covers lp' color L := by
  obtain ⟨r, hr, hL⟩ := h
  refine ⟨r, lt_of_lt_of_le hr hg.2.1.length_le, ?_⟩
  intro n hn
  obtain ⟨k, hk, hmem⟩ := hL n hn
  refine ⟨k, ?_, hg.2.2.subset hmem⟩
  simp only [var_names, hg.1] at hk ⊢
  exact hk

theorem mangle_cst_head (p : Char) (z : Int) : ∃ t, mangle_cst p z = p :: t := by
  unfold mangle_cst snprintf_buf
  exact ⟨(print_d z).take 30, rfl⟩

/-- The loop that fills a row of `pi_add_constr_B`: the factor 1 is written in
the row, and only there, for the column `x<n>_<color>` of every node listed. -/
theorem constr_B_row_spec (color : Nat) (r : Int) :
    ∀ (L : List Nat) (lp lp' : lpp_t), constr_B_row color r L lp = some lp' →
      lp'.vars = lp.vars ∧ lp'.csts = lp.csts ∧ ∃ em, lp'.matrix = em ++ lp.matrix ∧
        (∀ e ∈ em, e.1 = r ∧ e.2.2 = 1 ∧ 1 ≤ e.2.1 ∧ e.2.1 ≤ lp.vars.length) ∧
        (∀ n ∈ L, ∃ k : Nat,
          (var_names lp).get? k = some (mangle_var 'x' (n : Int) (color : Int)) ∧
          ((r, (k : Int) + 1, (1 : Int)) : Int × Int × Int) ∈ em) := by
  intro L
  induction L with
  | nil =>
    intro lp lp' h
    simp only [constr_B_row, Option.some.injEq] at h
    subst h
    exact ⟨rfl, rfl, [], rfl, fun e he => absurd he (List.not_mem_nil e),
      fun n hn => absurd hn (List.not_mem_nil n)⟩
  | cons n rest ih =>
    intro lp lp' h
    simp only [constr_B_row] at h
    cases hset : lpp_set_factor_fast lp r
        (lpp_get_var_idx lp (mangle_var 'x' (n : Int) (color : Int))) 1 with
    | none => rw [hset] at h; cases h
    | some lp1 =>
      rw [hset] at h
      obtain ⟨hv1, hc1, hm1, _, _, hk0, hk1⟩ := lpp_set_factor_fast_spec hset
      have hne : lpp_get_var_idx lp (mangle_var 'x' (n : Int) (color : Int)) ≠ -1 := by omega
      obtain ⟨k, hklt, hkidx, hkget⟩ := lpp_get_var_idx_ne_neg_one hne
      obtain ⟨hv, hc, em, hm, hem, hcov⟩ := ih lp1 lp' h
      refine ⟨hv.trans hv1, hc.trans hc1,
        em ++ [(r, lpp_get_var_idx lp (mangle_var 'x' (n : Int) (color : Int)), 1)], ?_, ?_, ?_⟩
      · rw [hm, hm1]; simp
      · intro e he
        rcases List.mem_append.1 he with he | he
        · have := hem e he
          rw [hv1] at this
          exact this
        · simp only [List.mem_singleton] at he
          subst he
          refine ⟨rfl, rfl, ?_, hk1⟩
          show (1 : Int) ≤ lpp_get_var_idx lp (mangle_var 'x' (n : Int) (color : Int))
          rw [hkidx]; omega
      · intro m hm'
        rcases List.mem_cons.1 hm' with rfl | hm'
        · exact ⟨k, hkget, by rw [← hkidx]; simp⟩
        · obtain ⟨k', hk', hmem⟩ := hcov m hm'
          refine ⟨k', ?_, List.mem_append_left _ hmem⟩
          simp only [var_names, hv1] at hk'
          exact hk'

/-- Adding a constraint B keeps the problem an extension of the problem left
by `pi_add_constr_A`, and the new row covers the living set. -/
theorem constr_B_emit_spec {lpA : lpp_t}
    (hA : ∀ c ∈ lpA.csts, ∃ n : Int, c.name = mangle_cst 'A' n)
    {color : Nat} {st st' : sweep_t} (hext : lp_ext lpA st.pi.curr_lp)
    (h : constr_B_emit color st = some st') :
    lp_ext lpA st'.pi.curr_lp ∧ lp_grows st.pi.curr_lp st'.pi.curr_lp ∧
    row_covers st'.pi.curr_lp color st.living ∧
    st'.living = st.living ∧ st'.phase = st.phase ∧ st'.emitted = st.living :: st.emitted ∧
    st'.pi.removed = st.pi.removed ∧ st'.pi.last_x_var = st.pi.last_x_var := by
  unfold constr_B_emit at h
  obtain ⟨k, hk1, hkget, hvars, hmat, hcase⟩ := lpp_add_cst_spec st.pi.curr_lp
    (mangle_cst 'B' st.pi.cst_counter) lpp_cst_t.lpp_less 1
  set lp1 := (lpp_add_cst st.pi.curr_lp (mangle_cst 'B' st.pi.cst_counter)
    lpp_cst_t.lpp_less 1).1 with hlp1
  simp only at h
  cases hrow : constr_B_row color
      (lpp_add_cst st.pi.curr_lp (mangle_cst 'B' st.pi.cst_counter) lpp_cst_t.lpp_less 1).2
      st.living lp1 with
  | none => rw [hrow] at h; cases h
  | some lp2 =>
    rw [hrow] at h
    simp only [Option.some.injEq] at h
    subst h
    obtain ⟨hv2, hc2, em2, hm2, hem2, hcov2⟩ := constr_B_row_spec color _ _ _ _ hrow
    obtain ⟨hextv, ec, em, hcs, hms, hec, hem⟩ := hext
    have hklt : k < lp1.csts.length := by
      have := (List.get?_eq_some.1 hkget).1
      rwa [cst_names_length] at this
    have hkge : lpA.csts.length ≤ k := by
      by_contra hlt
      push_neg at hlt
      have hpre : lpA.csts <+: lp1.csts := by
        rcases hcase with ⟨_, _, hc⟩ | ⟨_, _, hc⟩
        · rw [hc, hcs, List.append_assoc]; exact List.prefix_append _ _
        · rw [hc, hcs]; exact List.prefix_append _ _
      obtain ⟨t, ht⟩ := hpre
      have hget : (cst_names lp1).get? k = (cst_names lpA).get? k := by
        simp only [cst_names, ← ht, List.map_append]
        rw [List.get?_eq_getElem?, List.get?_eq_getElem?,
          List.getElem?_append_left (by simpa using hlt)]
      rw [hget] at hkget
      have hmem := List.get?_mem hkget
      simp only [cst_names, List.mem_map] at hmem
      obtain ⟨c, hc, hname⟩ := hmem
      obtain ⟨n, hn⟩ := hA c hc
      obtain ⟨t1, ht1⟩ := mangle_cst_head 'A' n
      obtain ⟨t2, ht2⟩ := mangle_cst_head 'B' st.pi.cst_counter
      rw [hn, ht1, ht2] at hname
      simp only [List.cons.injEq] at hname
      exact absurd hname.1 (by decide)
    have hgrow1 : lp_grows st.pi.curr_lp lp2 := by
      refine ⟨hv2.trans hvars, ?_, ?_⟩
      · rw [hc2]
        rcases hcase with ⟨_, _, hc⟩ | ⟨_, _, hc⟩
        · rw [hc]; exact List.prefix_append _ _
        · rw [hc]
      · rw [hm2, hmat]; exact List.suffix_append _ _
    refine ⟨?_, hgrow1, ?_, rfl, rfl, rfl, rfl, rfl⟩
    · refine ⟨by rw [hv2, hvars, hextv], ?_⟩
      rcases hcase with ⟨_, _, hc⟩ | ⟨_, _, hc⟩
      · refine ⟨ec ++ [lpp_cst.mk (mangle_cst 'B' st.pi.cst_counter) lpp_cst_t.lpp_less 1],
          em2 ++ em, ?_, ?_, ?_, ?_⟩
        · show lp2.csts = _
          rw [hc2, hc, hcs, List.append_assoc]
        · show lp2.matrix = _
          rw [hm2, hmat, hms, List.append_assoc]
        · intro c hc'
          rcases List.mem_append.1 hc' with hc' | hc'
          · exact hec c hc'
          · simp only [List.mem_singleton] at hc'
            subst hc'
            exact ⟨rfl, rfl⟩
        · intro e he
          show e.2.2 = 1 ∧ (lpA.csts.length : Int) < e.1 ∧ e.1 ≤ lp2.csts.length ∧
            1 ≤ e.2.1 ∧ e.2.1 ≤ lp2.vars.length
          rcases List.mem_append.1 he with he | he
          · obtain ⟨h1, h2, h3, h4⟩ := hem2 e he
            rw [hk1] at h1
            refine ⟨h2, by rw [h1]; omega, by rw [h1, hc2]; omega, h3, by rw [hv2]; exact h4⟩
          · obtain ⟨h1, h2, h3, h4, h5⟩ := hem e he
            refine ⟨h1, h2, ?_, h4, by rw [hv2, hvars]; exact h5⟩
            have : st.pi.curr_lp.csts.length ≤ lp2.csts.length := hgrow1.2.1.length_le
            omega
      · refine ⟨ec, em2 ++ em, ?_, ?_, hec, ?_⟩
        · show lp2.csts = _
          rw [hc2, hc, hcs]
        · show lp2.matrix = _
          rw [hm2, hmat, hms, List.append_assoc]
        · intro e he
          show e.2.2 = 1 ∧ (lpA.csts.length : Int) < e.1 ∧ e.1 ≤ lp2.csts.length ∧
            1 ≤ e.2.1 ∧ e.2.1 ≤ lp2.vars.length
          rcases List.mem_append.1 he with he | he
          · obtain ⟨h1, h2, h3, h4⟩ := hem2 e he
            rw [hk1] at h1
            refine ⟨h2, by rw [h1]; omega, by rw [h1, hc2]; omega, h3, by rw [hv2]; exact h4⟩
          · obtain ⟨h1, h2, h3, h4, h5⟩ := hem e he
            refine ⟨h1, h2, ?_, h4, by rw [hv2, hvars]; exact h5⟩
            have : st.pi.curr_lp.csts.length ≤ lp2.csts.length := hgrow1.2.1.length_le
            omega
    · have hklt2 : k < lp2.csts.length := by rw [hc2]; exact hklt
      refine ⟨k, hklt2, ?_⟩
      intro n hn
      obtain ⟨k', hk', hmem⟩ := hcov2 n hn
      refine ⟨k', ?_, ?_⟩
      · show (var_names lp2).get? k' = _
        simp only [var_names, hv2] at hk' ⊢
        exact hk'
      · show _ ∈ lp2.matrix
        rw [hm2, ← hk1]
        exact List.mem_append_left _ hmem

/-! ## The constraints B: the sweep -/

theorem live_after_snoc (pre : List (Nat × border_t)) (e : Nat × border_t) (n : Nat) :
    live_after (pre ++ [e]) n = if e.2.irn = n then e.2.is_def else live_after pre n := by
  simp [live_after, List.foldl_append]

theorem constr_B_border_cases {co : copy_opt_t} {color blk : Nat} {st st' : sweep_t}
    {b : border_t} (h : constr_B_border co color blk st b = some st') :
    (¬ passes co st.pi.removed color b.irn ∧ st' = st) ∨
    (passes co st.pi.removed color b.irn ∧ b.is_def = true ∧
      st' = { st with living := pset_insert_ptr st.living b.irn, phase := phase_t.growing }) ∨
    (passes co st.pi.removed color b.irn ∧ b.is_def = false ∧
      ∃ st1, (if st.phase = phase_t.growing ∧ 2 ≤ pset_count st.living ∧
                all_live_in co blk st.living = false
              then constr_B_emit color st else some st) = some st1 ∧
        st' = { st1 with living := pset_remove_ptr st1.living b.irn,
                         phase := phase_t.shrinking }) := by
  unfold constr_B_border at h
  by_cases hp : passes co st.pi.removed color b.irn
  · have hcond : (is_removed st.pi (ptr_t.ir_node b.irn) || !co.allocatable b.irn color) = false := by
      simp only [passes] at hp
      simp [is_removed, hp.1, hp.2]
    rw [hcond] at h
    simp only [Bool.false_eq_true, if_false] at h
    by_cases hd : b.is_def = true
    · rw [if_pos hd] at h
      simp only [Option.some.injEq] at h
      exact Or.inr (Or.inl ⟨hp, hd, h.symm⟩)
    · rw [if_neg hd] at h
      right; right
      refine ⟨hp, by simpa using hd, ?_⟩
      cases hst1 : (if st.phase = phase_t.growing ∧ 2 ≤ pset_count st.living ∧
                all_live_in co blk st.living = false
              then constr_B_emit color st else some st) with
      | none => rw [hst1] at h; cases h
      | some st1 =>
        rw [hst1] at h
        simp only [Option.some.injEq] at h
        exact ⟨st1, rfl, h.symm⟩
  · left
    have hcond : (is_removed st.pi (ptr_t.ir_node b.irn) || !co.allocatable b.irn color) = true := by
      simp only [passes, not_and_or] at hp
      simp only [is_removed, Bool.or_eq_true, Bool.not_eq_true']
      rcases hp with hp | hp
      · left; simpa using hp
      · right; simpa using hp
    rw [hcond] at h
    simp only [if_true, Option.some.injEq] at h
    exact ⟨hp, h.symm⟩

/-- One border keeps what holds of the state of the sweep. -/
theorem b_state_border {co : copy_opt_t} {R : pset} {last0 : Int} {lpA lp0 : lpp_t}
    (hA : ∀ c ∈ lpA.csts, ∃ n : Int, c.name = mangle_cst 'A' n)
    {color : Nat} {l1 : List (Nat × border_t)} {st st' : sweep_t} {e : Nat × border_t}
    (hP : b_state co R last0 lpA lp0 color l1 st)
    (h : constr_B_border co color e.1 st e.2 = some st') :
    b_state co R last0 lpA lp0 color (l1 ++ [e]) st' := by
  have hcov_ext : ∀ {st2 : sweep_t}, lp_grows st.pi.curr_lp st2.pi.curr_lp →
      ∀ L ∈ st.emitted, row_covers st2.pi.curr_lp color L ∧
        ∃ p q, l1 ++ [e] = p ++ q ∧ ∀ n ∈ L, passes co R color n ∧ live_after p n = true := by
    intro st2 hg L hL
    obtain ⟨h1, p, q, hpq, h2⟩ := hP.covered L hL
    exact ⟨row_covers_mono hg h1, p, q ++ [e], by rw [hpq, List.append_assoc], h2⟩
  rcases constr_B_border_cases h with ⟨hnp, rfl⟩ | ⟨hp, hd, rfl⟩ | ⟨hp, hd, st1, hst1, rfl⟩
  · rw [hP.removed] at hnp
    refine ⟨hP.removed, hP.last, hP.ext, hP.grows, hcov_ext (lp_grows_refl _), ?_⟩
    intro n
    rw [hP.living, live_after_snoc]
    by_cases hn : e.2.irn = n
    · subst hn
      simp [hnp]
    · simp [hn]
  · rw [hP.removed] at hp
    refine ⟨hP.removed, hP.last, hP.ext, hP.grows, hcov_ext (lp_grows_refl _), ?_⟩
    intro n
    show n ∈ pset_insert_ptr st.living e.2.irn ↔ _
    rw [mem_pset_insert_ptr, hP.living, live_after_snoc]
    by_cases hn : e.2.irn = n
    · subst hn
      simp [hp, hd]
    · simp [hn, Ne.symm hn]
  · rw [hP.removed] at hp
    have hliving : ∀ n, n ∈ pset_remove_ptr st.living e.2.irn ↔
        passes co R color n ∧ live_after (l1 ++ [e]) n = true := by
      intro n
      rw [mem_pset_remove_ptr, hP.living, live_after_snoc]
      by_cases hn : e.2.irn = n
      · subst hn
        simp [hd]
      · simp [hn, Ne.symm hn]
    by_cases hc : st.phase = phase_t.growing ∧ 2 ≤ pset_count st.living ∧
        all_live_in co e.1 st.living = false
    · rw [if_pos hc] at hst1
      obtain ⟨hext, hg, hrc, hl, _, hem, hrem, hlast⟩ := constr_B_emit_spec hA hP.ext hst1
      refine ⟨hrem.trans hP.removed, hlast.trans hP.last, hext, lp_grows_trans hP.grows hg, ?_, ?_⟩
      · intro L hL
        show row_covers st1.pi.curr_lp color L ∧ _
        have hL' : L ∈ st.living :: st.emitted := by rw [← hem]; exact hL
        rcases List.mem_cons.1 hL' with rfl | hL'
        · exact ⟨hrc, l1, [e], rfl, fun n hn => (hP.living n).1 hn⟩
        · exact hcov_ext hg L hL'
      · intro n
        show n ∈ pset_remove_ptr st1.living e.2.irn ↔ _
        rw [hl]
        exact hliving n
    · rw [if_neg hc] at hst1
      simp only [Option.some.injEq] at hst1
      subst hst1
      exact ⟨hP.removed, hP.last, hP.ext, hP.grows, hcov_ext (lp_grows_refl _), hliving⟩

/-- What holds after the sweep of `pi_add_constr_B` for one color. -/
theorem constr_B_sweep_state {co : copy_opt_t} {lpA : lpp_t}
    (hA : ∀ c ∈ lpA.csts, ∃ n : Int, c.name = mangle_cst 'A' n)
    {pi : problem_instance_t} (hext : lp_ext lpA pi.curr_lp) {color : Nat} {st : sweep_t}
    (h : constr_B_sweep co pi color = some st) :
    b_state co pi.removed pi.last_x_var lpA pi.curr_lp color (border_events co) st :=
  constr_B_events_ind co color (b_state co pi.removed pi.last_x_var lpA pi.curr_lp color)
    (border_events co)
    (fun _ _ _ _ _ _ hP hb => b_state_border hA hP hb)
    (border_events co) [] { pi := pi } st rfl
    ⟨rfl, rfl, hext, lp_grows_refl _, fun L hL => absurd hL (List.not_mem_nil L),
      fun n => by simp [live_after]⟩
    (constr_B_sweep_eq h)

/-! ## The constraints B: two values live at the same time share a constraint -/

theorem exists_first_split {α : Type} (p : α → Prop) [DecidablePred p] :
    ∀ l : List α, (∃ x ∈ l, p x) →
      ∃ l1 x l2, l = l1 ++ x :: l2 ∧ p x ∧ ∀ y ∈ l1, ¬ p y := by
  intro l
  induction l with
  | nil => rintro ⟨x, hx, _⟩; cases hx
  | cons a t ih =>
    rintro ⟨x, hx, hpx⟩
    by_cases ha : p a
    · exact ⟨[], a, t, rfl, ha, fun y hy => absurd hy (List.not_mem_nil y)⟩
    · have hxt : x ∈ t := by
        rcases List.mem_cons.1 hx with rfl | h
        · exact absurd hpx ha
        · exact h
      obtain ⟨l1, y, l2, hl, hy, hfirst⟩ := ih ⟨x, hxt, hpx⟩
      refine ⟨a :: l1, y, l2, by rw [hl]; rfl, hy, ?_⟩
      intro z hz
      rcases List.mem_cons.1 hz with rfl | hz
      · exact ha
      · exact hfirst z hz

theorem use_in_block_split {blk n : Nat} :
    ∀ post : List (Nat × border_t), use_in_block blk n post = true →
      ∃ u0 ∈ post, u0.2.irn = n ∧ u0.2.is_def = false ∧ u0.1 = blk ∧
        ∃ q1 q2, post = q1 ++ u0 :: q2 ∧ ∀ x ∈ q1, x.1 = blk := by
  intro post
  induction post with
  | nil => intro h; simp [use_in_block] at h
  | cons u q ih =>
    intro h
    simp only [use_in_block, Bool.and_eq_true, decide_eq_true_eq, Bool.or_eq_true,
      Bool.not_eq_true'] at h
    obtain ⟨hblk, h⟩ := h
    rcases h with ⟨hn, hd⟩ | h
    · exact ⟨u, List.mem_cons_self _ _, hn, hd, hblk, [], q, rfl,
        fun x hx => absurd hx (List.not_mem_nil x)⟩
    · obtain ⟨u0, hu0, h1, h2, h3, q1, q2, hq, hq1⟩ := ih h
      refine ⟨u0, List.mem_cons_of_mem _ hu0, h1, h2, h3, u :: q1, q2, by rw [hq]; rfl, ?_⟩
      intro x hx
      rcases List.mem_cons.1 hx with rfl | hx
      · exact hblk
      · exact hq1 x hx

theorem defs_have_uses_split :
    ∀ (pre : List (Nat × border_t)) (e : Nat × border_t) (post : List (Nat × border_t)),
      defs_have_uses (pre ++ e :: post) = true → e.2.is_def = true →
      use_in_block e.1 e.2.irn post = true := by
  intro pre
  induction pre with
  | nil =>
    intro e post h hd
    simp only [List.nil_append, defs_have_uses, Bool.and_eq_true, Bool.or_eq_true,
      Bool.not_eq_true'] at h
    rcases h.1 with h1 | h1
    · rw [hd] at h1; cases h1
    · exact h1
  | cons x pre ih =>
    intro e post h hd
    simp only [List.cons_append, defs_have_uses, Bool.and_eq_true] at h
    exact ih e post h.2 hd

theorem constr_B_border_emitted_mono {co : copy_opt_t} {color blk : Nat} {st st' : sweep_t}
    {b : border_t} (h : constr_B_border co color blk st b = some st') :
    ∀ L ∈ st.emitted, L ∈ st'.emitted := by
  intro L hL
  rcases constr_B_border_cases h with ⟨_, rfl⟩ | ⟨_, _, rfl⟩ | ⟨_, _, st1, hst1, rfl⟩
  · exact hL
  · exact hL
  · show L ∈ st1.emitted
    split_ifs at hst1 with hc
    · unfold constr_B_emit at hst1
      simp only at hst1
      cases hrow : constr_B_row color
          (lpp_add_cst st.pi.curr_lp (mangle_cst 'B' st.pi.cst_counter) lpp_cst_t.lpp_less 1).2
          st.living
          (lpp_add_cst st.pi.curr_lp (mangle_cst 'B' st.pi.cst_counter) lpp_cst_t.lpp_less 1).1 with
      | none => rw [hrow] at hst1; cases hst1
      | some lp2 =>
        rw [hrow] at hst1
        simp only [Option.some.injEq] at hst1
        subst hst1
        exact List.mem_cons_of_mem _ hL
    · simp only [Option.some.injEq] at hst1
      subst hst1
      exact hL

theorem constr_B_events_emitted_mono (co : copy_opt_t) (color : Nat) :
    ∀ (l : List (Nat × border_t)) (st st' : sweep_t), constr_B_events co color l st = some st' →
      ∀ L ∈ st.emitted, L ∈ st'.emitted := by
  intro l
  induction l with
  | nil =>
    intro st st' h L hL
    simp only [constr_B_events, Option.some.injEq] at h
    subst h
    exact hL
  | cons e rest ih =>
    intro st st' h L hL
    simp only [constr_B_events] at h
    cases hb : constr_B_border co color e.1 st e.2 with
    | none => rw [hb] at h; cases h
    | some st1 =>
      rw [hb] at h
      exact ih st1 st' h L (constr_B_border_emitted_mono hb L hL)

/-- Over borders among which the sweep meets no use, the living set only grows
and a growing phase stays. -/
theorem constr_B_events_quiet (co : copy_opt_t) (color : Nat) (R : pset) :
    ∀ (seg : List (Nat × border_t)) (st st' : sweep_t), st.pi.removed = R →
      (∀ x ∈ seg, passes co R color x.2.irn → x.2.is_def = true) →
      constr_B_events co color seg st = some st' →
      st'.pi.removed = R ∧ (∀ n ∈ st.living, n ∈ st'.living) ∧
      (st.phase = phase_t.growing → st'.phase = phase_t.growing) := by
  intro seg
  induction seg with
  | nil =>
    intro st st' hR _ h
    simp only [constr_B_events, Option.some.injEq] at h
    subst h
    exact ⟨hR, fun n hn => hn, fun h => h⟩
  | cons e rest ih =>
    intro st st' hR hq h
    simp only [constr_B_events] at h
    cases hb : constr_B_border co color e.1 st e.2 with
    | none => rw [hb] at h; cases h
    | some st1 =>
      rw [hb] at h
      have hq' : ∀ x ∈ rest, passes co R color x.2.irn → x.2.is_def = true :=
        fun x hx => hq x (List.mem_cons_of_mem _ hx)
      rcases constr_B_border_cases hb with ⟨_, heq⟩ | ⟨_, _, heq⟩ | ⟨hp, hd, _⟩
      · rw [heq] at h
        exact ih st st' hR hq' h
      · rw [heq] at h
        obtain ⟨h1, h2, h3⟩ := ih
          { st with living := pset_insert_ptr st.living e.2.irn, phase := phase_t.growing }
          st' hR hq' h
        exact ⟨h1, fun n hn => h2 n ((mem_pset_insert_ptr _ _ _).2 (Or.inl hn)), fun _ => h3 rfl⟩
      · rw [hR] at hp
        rw [hq e (List.mem_cons_self _ _) hp] at hd
        cases hd

theorem two_le_length_of_mem {α : Type} {l : List α} {a b : α} (ha : a ∈ l) (hb : b ∈ l)
    (hab : a ≠ b) : 2 ≤ l.length := by
  match l, ha, hb with
  | [x], ha, hb =>
    simp only [List.mem_singleton] at ha hb
    exact absurd (ha.trans hb.symm) hab
  | _ :: _ :: _, _, _ => simp

/-- At a use met in a growing phase with two values in the living set, one of
them not live in at the block, a constraint is added for the living set. -/
theorem constr_B_border_emits {co : copy_opt_t} {color : Nat} {st st' : sweep_t}
    {u : Nat × border_t} (h : constr_B_border co color u.1 st u.2 = some st')
    (hp : passes co st.pi.removed color u.2.irn) (hd : u.2.is_def = false)
    (hphase : st.phase = phase_t.growing) {a b : Nat} (ha : a ∈ st.living) (hb : b ∈ st.living)
    (hab : a ≠ b) (hlive : co.is_live_in u.1 b = false) :
    st.living ∈ st'.emitted := by
  rcases constr_B_border_cases h with ⟨hnp, _⟩ | ⟨_, hd', _⟩ | ⟨_, _, st1, hst1, rfl⟩
  · exact absurd hp hnp
  · rw [hd] at hd'; cases hd'
  · have hall : all_live_in co u.1 st.living = false := by
      unfold all_live_in
      rw [List.all_eq_false]
      exact ⟨b, hb, by simp [hlive]⟩
    rw [if_pos ⟨hphase, two_le_length_of_mem ha hb hab, hall⟩] at hst1
    unfold constr_B_emit at hst1
    simp only at hst1
    cases hrow : constr_B_row color
        (lpp_add_cst st.pi.curr_lp (mangle_cst 'B' st.pi.cst_counter) lpp_cst_t.lpp_less 1).2
        st.living
        (lpp_add_cst st.pi.curr_lp (mangle_cst 'B' st.pi.cst_counter) lpp_cst_t.lpp_less 1).1 with
    | none => rw [hrow] at hst1; cases hst1
    | some lp2 =>
      rw [hrow] at hst1
      simp only [Option.some.injEq] at hst1
      subst hst1
      exact List.mem_cons_self _ _

theorem live_after_mem {pre : List (Nat × border_t)} {n : Nat} (h : live_after pre n = true) :
    n ∈ pre.map (fun e => e.2.irn) := by
  induction pre using List.reverseRecOn with
  | nil => simp [live_after] at h
  | append_singleton pre e ih =>
    rw [live_after_snoc] at h
    by_cases hn : e.2.irn = n
    · simp [hn]
    · rw [if_neg hn] at h
      have := ih h
      simp only [List.map_append, List.mem_append]
      exact Or.inl this

theorem b_state_prefix {co : copy_opt_t} {lpA : lpp_t}
    (hA : ∀ c ∈ lpA.csts, ∃ n : Int, c.name = mangle_cst 'A' n)
    {pi : problem_instance_t} (hext : lp_ext lpA pi.curr_lp) {color : Nat}
    {pre : List (Nat × border_t)} {st : sweep_t}
    (h : constr_B_events co color pre { pi := pi } = some st) :
    b_state co pi.removed pi.last_x_var lpA pi.curr_lp color pre st :=
  constr_B_events_ind co color (b_state co pi.removed pi.last_x_var lpA pi.curr_lp color) pre
    (fun _ _ _ _ _ _ hP hb => b_state_border hA hP hb)
    pre [] { pi := pi } st rfl
    ⟨rfl, rfl, hext, lp_grows_refl _, fun L hL => absurd hL (List.not_mem_nil L),
      fun n => by simp [live_after]⟩
    h

/-- The sweep meets a definition of `b` in a block where `b` is not live in,
while `a` is live, and later in that block a use of `b`: then a constraint is
added for a living set that holds `a` and `b`. -/
theorem sweep_covers_at_def {co : copy_opt_t} {lpA : lpp_t}
    (hA : ∀ c ∈ lpA.csts, ∃ n : Int, c.name = mangle_cst 'A' n)
    {pi : problem_instance_t} (hext : lp_ext lpA pi.curr_lp) {color : Nat}
    {pre post : List (Nat × border_t)} {e : Nat × border_t} {fin : sweep_t}
    (hrun : constr_B_events co color (pre ++ e :: post) { pi := pi } = some fin)
    {a b : Nat} (hab : a ≠ b) (hpa : passes co pi.removed color a)
    (hpb : passes co pi.removed color b)
    (hdef : e.2.is_def = true) (hirn : e.2.irn = b) (hla : live_after pre a = true)
    (hlivein : co.is_live_in e.1 b = false) (huse : use_in_block e.1 b post = true) :
    ∃ L ∈ fin.emitted, a ∈ L ∧ b ∈ L := by
  obtain ⟨u0, hu0, hu0n, hu0d, hu0b, q1, q2, hpost, hq1⟩ := use_in_block_split post huse
  obtain ⟨s1, u, s2, hsplit, ⟨hup, hud⟩, hquiet⟩ := exists_first_split
    (fun x : Nat × border_t => passes co pi.removed color x.2.irn ∧ x.2.is_def = false)
    (q1 ++ [u0]) ⟨u0, by simp, by rw [hu0n]; exact hpb, hu0d⟩
  have hublk : u.1 = e.1 := by
    have hu : u ∈ q1 ++ [u0] := by rw [hsplit]; simp
    rcases List.mem_append.1 hu with hu | hu
    · exact hq1 u hu
    · simp only [List.mem_singleton] at hu
      rw [hu]; exact hu0b
  have hevents : pre ++ e :: post = pre ++ ([e] ++ (s1 ++ ([u] ++ (s2 ++ q2)))) := by
    rw [hpost]
    have : q1 ++ u0 :: q2 = (q1 ++ [u0]) ++ q2 := by simp
    rw [this, hsplit]
    simp
  rw [hevents, constr_B_events_append] at hrun
  obtain ⟨st_pre, hpre, hrun⟩ := Option.bind_eq_some.1 hrun
  rw [constr_B_events_append] at hrun
  obtain ⟨st_e, he, hrun⟩ := Option.bind_eq_some.1 hrun
  rw [constr_B_events_append] at hrun
  obtain ⟨st_1, hs1, hrun⟩ := Option.bind_eq_some.1 hrun
  rw [constr_B_events_append] at hrun
  obtain ⟨st_u, hu, hrest⟩ := Option.bind_eq_some.1 hrun
  have hP := b_state_prefix hA hext hpre
  have ha_pre : a ∈ st_pre.living := (hP.living a).2 ⟨hpa, hla⟩
  -- the definition of b
  have he' : constr_B_border co color e.1 st_pre e.2 = some st_e := by
    simp only [constr_B_events] at he
    cases hb : constr_B_border co color e.1 st_pre e.2 with
    | none => rw [hb] at he; cases he
    | some x => rw [hb] at he; simp only [Option.some.injEq] at he; rw [he]
  have hst_e : st_e = sweep_t.mk st_pre.pi phase_t.growing
      (pset_insert_ptr st_pre.living e.2.irn) st_pre.emitted := by
    rcases constr_B_border_cases he' with ⟨hnp, _⟩ | ⟨_, _, heq⟩ | ⟨_, hd, _⟩
    · rw [hP.removed, hirn] at hnp; exact absurd hpb hnp
    · exact heq
    · rw [hdef] at hd; cases hd
  have hRe : st_e.pi.removed = pi.removed := by rw [hst_e]; exact hP.removed
  have ha_e : a ∈ st_e.living := by
    rw [hst_e]; exact (mem_pset_insert_ptr _ _ _).2 (Or.inl ha_pre)
  have hb_e : b ∈ st_e.living := by
    rw [hst_e]; exact (mem_pset_insert_ptr _ _ _).2 (Or.inr hirn.symm)
  have hph_e : st_e.phase = phase_t.growing := by rw [hst_e]
  -- the borders up to the next use
  obtain ⟨hR1, hsub1, hph1⟩ := constr_B_events_quiet co color pi.removed s1 st_e st_1 hRe
    (by
      intro x hx hpx
      by_contra hd
      exact hquiet x hx ⟨hpx, by simpa using hd⟩) hs1
  -- the use
  have hu' : constr_B_border co color u.1 st_1 u.2 = some st_u := by
    simp only [constr_B_events] at hu
    cases hb : constr_B_border co color u.1 st_1 u.2 with
    | none => rw [hb] at hu; cases hu
    | some x => rw [hb] at hu; simp only [Option.some.injEq] at hu; rw [hu]
  have hemit := constr_B_border_emits hu' (by rw [hR1]; exact hup) hud (hph1 hph_e)
    (hsub1 a ha_e) (hsub1 b hb_e) hab (by rw [hublk]; exact hlivein)
  exact ⟨st_1.living, constr_B_events_emitted_mono co color _ st_u fin hrest _ hemit,
    hsub1 a ha_e, hsub1 b hb_e⟩

theorem eq_take_append_get_drop {α : Type} {l : List α} {j : Nat} {e : α}
    (h : l.get? j = some e) : l = l.take j ++ e :: l.drop (j + 1) := by
  induction l generalizing j with
  | nil => simp at h
  | cons x t ih =>
    cases j with
    | zero =>
      simp only [List.get?_cons_zero, Option.some.injEq] at h
      simp [h]
    | succ j =>
      simp only [List.get?_cons_succ] at h
      simp only [List.take_succ_cons, List.drop_succ_cons, List.cons_append, List.cons.injEq,
        true_and]
      exact ih h

/-- Coverage. In the borders of a program in strict SSA form, when the sweep of
`pi_add_constr_B` for a color looks at two values that are live at the same
time, it adds a constraint for a living set that holds both. -/
theorem constr_B_sweep_covers {co : copy_opt_t} (hwf : borders_wf co) {lpA : lpp_t}
    (hA : ∀ c ∈ lpA.csts, ∃ n : Int, c.name = mangle_cst 'A' n)
    {pi : problem_instance_t} (hext : lp_ext lpA pi.curr_lp) {color : Nat} {st : sweep_t}
    (h : constr_B_sweep co pi color = some st)
    {a b : Nat} (hab : a ≠ b) (hpa : passes co pi.removed color a)
    (hpb : passes co pi.removed color b)
    {pre post : List (Nat × border_t)} (hsplit : border_events co = pre ++ post)
    (hla : live_after pre a = true) (hlb : live_after pre b = true) :
    ∃ L ∈ st.emitted, a ∈ L ∧ b ∈ L := by
  have hrun := constr_B_sweep_eq h
  have htake : (border_events co).take pre.length = pre := by
    rw [hsplit]; exact List.take_left' rfl
  have hmem : ∀ n, live_after pre n = true →
      n ∈ (border_events co).map (fun e => e.2.irn) := by
    intro n hn
    have := live_after_mem hn
    rw [hsplit, List.map_append]
    exact List.mem_append_left _ this
  obtain ⟨j, _, hj⟩ := hwf.1 pre.length (by rw [hsplit]; simp) a (hmem a hla) b (hmem b hlb) hab
    (by rw [htake]; exact hla) (by rw [htake]; exact hlb)
  unfold real_def_at at hj
  cases hget : (border_events co).get? j with
  | none => rw [hget] at hj; exact hj.elim
  | some e =>
    rw [hget] at hj
    obtain ⟨hdef, hreal, hcases⟩ := hj
    have hev := eq_take_append_get_drop hget
    have hlivein : co.is_live_in e.1 e.2.irn = false :=
      hwf.2.1 e (List.get?_mem hget) hdef hreal
    have huse : use_in_block e.1 e.2.irn ((border_events co).drop (j + 1)) = true := by
      apply defs_have_uses_split ((border_events co).take j) e
      · rw [← hev]; exact hwf.2.2
      · exact hdef
    rw [hev] at hrun
    rcases hcases with ⟨hirn, hlive⟩ | ⟨hirn, hlive⟩
    · exact sweep_covers_at_def hA hext hrun hab hpa hpb hdef hirn hlive
        (by rw [← hirn]; exact hlivein) (by rw [← hirn]; exact huse)
    · obtain ⟨L, hL, h1, h2⟩ := sweep_covers_at_def hA hext hrun (Ne.symm hab) hpb hpa hdef hirn
        hlive (by rw [← hirn]; exact hlivein) (by rw [← hirn]; exact huse)
      exact ⟨L, hL, h2, h1⟩

/-! ## Rows and their values -/

theorem lpp_get_factor_of_mem {lp : lpp_t} (hone : ∀ e ∈ lp.matrix, e.2.2 = 1) {r k : Int}
    (h : ((r, k, (1 : Int)) : Int × Int × Int) ∈ lp.matrix) : lpp_get_factor lp r k = 1 := by
  unfold lpp_get_factor
  cases hf : lp.matrix.find? (fun e => decide (e.1 = r) && decide (e.2.1 = k)) with
  | none =>
    rw [List.find?_eq_none] at hf
    have := hf _ h
    simp at this
  | some e => exact hone e (List.mem_of_find?_eq_some hf)

theorem lpp_get_factor_of_not_mem {lp : lpp_t} {r k : Int}
    (h : ∀ v : Int, ((r, k, v) : Int × Int × Int) ∉ lp.matrix) : lpp_get_factor lp r k = 0 := by
  unfold lpp_get_factor
  cases hf : lp.matrix.find? (fun e => decide (e.1 = r) && decide (e.2.1 = k)) with
  | none => rfl
  | some e =>
    exfalso
    have hmem := List.mem_of_find?_eq_some hf
    have hp := List.find?_some hf
    simp only [Bool.and_eq_true, decide_eq_true_eq] at hp
    obtain ⟨e1, e2, e3⟩ := e
    simp only at hp
    rw [hp.1, hp.2] at hmem
    exact h e3 hmem

theorem lpp_get_factor_zero_or_one {lp : lpp_t} (hone : ∀ e ∈ lp.matrix, e.2.2 = 1) (r k : Int) :
    lpp_get_factor lp r k = 0 ∨ lpp_get_factor lp r k = 1 := by
  by_cases h : ∃ v : Int, ((r, k, v) : Int × Int × Int) ∈ lp.matrix
  · obtain ⟨v, hv⟩ := h
    have := hone _ hv
    simp only at this
    subst this
    exact Or.inr (lpp_get_factor_of_mem hone hv)
  · push_neg at h
    exact Or.inl (lpp_get_factor_of_not_mem h)

theorem list_sum_range_eq (f : Nat → Rat) (N : Nat) :
    ((List.range N).map f).sum = ∑ k in Finset.range N, f k := by
  induction N with
  | zero => simp
  | succ N ih => rw [List.range_succ, List.map_append, List.sum_append, ih,
      Finset.sum_range_succ]; simp

theorem lpp_row_value_eq (lp : lpp_t) (value : Nat → Rat) (r : Int) :
    lpp_row_value lp value r =
      ∑ k in Finset.range lp.vars.length,
        (lpp_get_factor lp r ((k : Int) + 1) : Rat) * value (k + 1) := by
  unfold lpp_row_value
  exact list_sum_range_eq _ _

/-- A row in which two different columns have the factor 1 has at least the
value of these two columns, when no value and no factor is negative. -/
theorem lpp_row_value_ge {lp : lpp_t} (hone : ∀ e ∈ lp.matrix, e.2.2 = 1) {value : Nat → Rat}
    (hval : ∀ k, k < lp.vars.length → 0 ≤ value (k + 1)) {r : Int} {ka kb : Nat}
    (hka : ka < lp.vars.length) (hkb : kb < lp.vars.length) (hne : ka ≠ kb)
    (ha : ((r, (ka : Int) + 1, (1 : Int)) : Int × Int × Int) ∈ lp.matrix)
    (hb : ((r, (kb : Int) + 1, (1 : Int)) : Int × Int × Int) ∈ lp.matrix) :
    value (ka + 1) + value (kb + 1) ≤ lpp_row_value lp value r := by
  rw [lpp_row_value_eq]
  have hnn : ∀ k ∈ Finset.range lp.vars.length,
      0 ≤ (lpp_get_factor lp r ((k : Int) + 1) : Rat) * value (k + 1) := by
    intro k hk
    apply mul_nonneg
    · rcases lpp_get_factor_zero_or_one hone r ((k : Int) + 1) with h | h <;> rw [h] <;> simp
    · exact hval k (Finset.mem_range.1 hk)
  have hsub : ({ka, kb} : Finset Nat) ⊆ Finset.range lp.vars.length := by
    intro k hk
    simp only [Finset.mem_insert, Finset.mem_singleton] at hk
    rcases hk with rfl | rfl <;> exact Finset.mem_range.2 (by assumption)
  calc value (ka + 1) + value (kb + 1)
      = ∑ k in ({ka, kb} : Finset Nat),
          (lpp_get_factor lp r ((k : Int) + 1) : Rat) * value (k + 1) := by
        rw [Finset.sum_pair hne, lpp_get_factor_of_mem hone ha, lpp_get_factor_of_mem hone hb]
        simp
    _ ≤ _ := Finset.sum_le_sum_of_subset_of_nonneg hsub (fun k hk _ => hnn k hk)

/-- Numbers that are 0 or 1 and add up to 1: exactly one of them is 1. -/
theorem exists_unique_of_sum_eq_one (f : Nat → Rat) :
    ∀ N : Nat, (∀ k, k < N → f k = 0 ∨ f k = 1) → (∑ k in Finset.range N, f k) = 1 →
      ∃ k0, k0 < N ∧ f k0 = 1 ∧ ∀ k, k < N → k ≠ k0 → f k = 0 := by
  intro N
  induction N with
  | zero => intro _ h; simp at h
  | succ N ih =>
    intro h01 hs
    rw [Finset.sum_range_succ] at hs
    rcases h01 N (Nat.lt_succ_self N) with hN | hN
    · rw [hN, add_zero] at hs
      obtain ⟨k0, hk0, h1, h2⟩ := ih (fun k hk => h01 k (Nat.lt_succ_of_lt hk)) hs
      refine ⟨k0, Nat.lt_succ_of_lt hk0, h1, ?_⟩
      intro k hk hne
      rcases Nat.lt_succ_iff_lt_or_eq.1 hk with hk | rfl
      · exact h2 k hk hne
      · exact hN
    · rw [hN] at hs
      have hz : (∑ k in Finset.range N, f k) = 0 := by linarith
      have hnn : ∀ k ∈ Finset.range N, 0 ≤ f k := by
        intro k hk
        rcases h01 k (Nat.lt_succ_of_lt (Finset.mem_range.1 hk)) with h | h <;> rw [h] <;> simp
      have hall := (Finset.sum_eq_zero_iff_of_nonneg hnn).1 hz
      refine ⟨N, Nat.lt_succ_self N, hN, ?_⟩
      intro k hk hne
      rcases Nat.lt_succ_iff_lt_or_eq.1 hk with hk | rfl
      · exact hall k (Finset.mem_range.2 hk)
      · exact absurd rfl hne

theorem var_names_nodup_of_done_ok {done : List (Nat × List Nat)} (hok : done_ok done) :
    (done.flatMap
      (fun p => p.2.map (fun c : Nat => mangle_var 'x' (p.1 : Int) (c : Int)))).Nodup := by
  induction done with
  | nil => simp
  | cons p rest ih =>
    have hok' : done_ok rest :=
      ⟨(List.nodup_cons.1 (by simpa using hok.1)).2, fun q hq => hok.2 q (List.mem_cons_of_mem _ hq)⟩
    obtain ⟨hp1, hp2, hp3⟩ := hok.2 p (List.mem_cons_self _ _)
    rw [List.flatMap_cons, List.nodup_append]
    refine ⟨?_, ih hok', ?_⟩
    · apply List.Nodup.map_on _ hp2
      intro c hc c' hc' heq
      exact (mangle_var_x_inj_nat hp1 (hp3 c hc) hp1 (hp3 c' hc') heq).2
    · intro name h1 h2
      rw [List.mem_map] at h1
      obtain ⟨c, hc, rfl⟩ := h1
      obtain ⟨q, hq, c', hc', heq⟩ := mem_done_var_names h2
      obtain ⟨hq1, _, hq3⟩ := hok.2 q (List.mem_cons_of_mem _ hq)
      have := (mangle_var_x_inj_nat hp1 (hp3 c hc) hq1 (hq3 c' hc') heq).1
      have hnd := hok.1
      rw [List.map_cons, List.nodup_cons] at hnd
      exact hnd.1 (List.mem_map.2 ⟨q, hq, this.symm⟩)

theorem get?_inj_of_nodup {α : Type} {l : List α} (hnd : l.Nodup) {i j : Nat} {x : α}
    (hi : l.get? i = some x) (hj : l.get? j = some x) : i = j := by
  obtain ⟨hi1, hi2⟩ := List.get?_eq_some.1 hi
  obtain ⟨hj1, hj2⟩ := List.get?_eq_some.1 hj
  have := (List.Nodup.get_inj_iff hnd (i := ⟨i, hi1⟩) (j := ⟨j, hj1⟩)).1 (hi2.trans hj2.symm)
  exact congrArg Fin.val this

/-! ## Applying a 0/1 solution -/

theorem value_gt_iff {v : Rat} (h : v = 0 ∨ v = 1) : v > one_minus_EPSILON ↔ v = 1 := by
  rcases h with h | h <;> rw [h] <;> norm_num [one_minus_EPSILON]

theorem apply_solution_step_of_zero {pi : problem_instance_t} {value : Nat → Rat}
    {col : Nat → Int} {i : Nat} (h : value (i + 1) = 0) :
    apply_solution_step pi value col i = some col := by
  unfold apply_solution_step
  rw [Nat.add_comm 1 i, if_neg ((value_gt_iff (Or.inl h)).not.2 (by rw [h]; norm_num))]

theorem apply_solution_step_of_one {pi : problem_instance_t} {value : Nat → Rat}
    {col : Nat → Int} {i n c : Nat} (h : value (i + 1) = 1)
    (hname : (var_names pi.curr_lp).get? i = some (mangle_var 'x' (n : Int) (c : Int)))
    (hn : n < 2 ^ 31) (hc : c < 2 ^ 31) :
    apply_solution_step pi value col i = some (Function.update col n (c : Int)) := by
  unfold apply_solution_step
  rw [Nat.add_comm 1 i, if_pos ((value_gt_iff (Or.inr h)).2 h)]
  have hnm : lpp_get_var_name pi.curr_lp (1 + (i : Int)) = mangle_var 'x' (n : Int) (c : Int) := by
    rw [show (1 : Int) + (i : Int) = (i : Int) + 1 by ring]
    exact lpp_get_var_name_eq hname
  rw [hnm, split_var_mangle_var (n : Int) (c : Int) ⟨by omega, by exact_mod_cast hn⟩
    ⟨by omega, by exact_mod_cast hc⟩]
  simp

theorem apply_solution_calls_of_zero {pi : problem_instance_t} {value : Nat → Rat}
    {i : Nat} {rest : List Nat} (h : value (i + 1) = 0) :
    apply_solution_calls pi value (i :: rest) = apply_solution_calls pi value rest := by
  simp only [apply_solution_calls]
  rw [Nat.add_comm 1 i, if_neg ((value_gt_iff (Or.inl h)).not.2 (by rw [h]; norm_num))]

theorem apply_solution_calls_of_one {pi : problem_instance_t} {value : Nat → Rat}
    {i n c : Nat} {rest : List Nat} (h : value (i + 1) = 1)
    (hname : (var_names pi.curr_lp).get? i = some (mangle_var 'x' (n : Int) (c : Int)))
    (hn : n < 2 ^ 31) (hc : c < 2 ^ 31) :
    apply_solution_calls pi value (i :: rest) =
      (n, (c : Int)) :: apply_solution_calls pi value rest := by
  simp only [apply_solution_calls]
  rw [Nat.add_comm 1 i, if_pos ((value_gt_iff (Or.inr h)).2 h)]
  have hnm : lpp_get_var_name pi.curr_lp (1 + (i : Int)) = mangle_var 'x' (n : Int) (c : Int) := by
    rw [show (1 : Int) + (i : Int) = (i : Int) + 1 by ring]
    exact lpp_get_var_name_eq hname
  rw [hnm, split_var_mangle_var (n : Int) (c : Int) ⟨by omega, by exact_mod_cast hn⟩
    ⟨by omega, by exact_mod_cast hc⟩]
  simp

/-- The loop of `pi_apply_solution` on a 0/1 solution, seen from one node `n`
that has exactly one column `k0` with value 1: the loop runs to its end, and
the node is given the color of that column, once, when the loop comes to the
column; when it does not, the node keeps its color. -/
theorem apply_solution_loop_spec (pi : problem_instance_t) (value : Nat → Rat) (N : Nat)
    (hnames : ∀ i, i < N → ∃ n c : Nat,
      (var_names pi.curr_lp).get? i = some (mangle_var 'x' (n : Int) (c : Int)) ∧
      n < 2 ^ 31 ∧ c < 2 ^ 31)
    (h01 : ∀ i, i < N → value (i + 1) = 0 ∨ value (i + 1) = 1)
    (n k0 c0 : Nat)
    (hk0name : (var_names pi.curr_lp).get? k0 = some (mangle_var 'x' (n : Int) (c0 : Int)))
    (hn : n < 2 ^ 31) (hc0 : c0 < 2 ^ 31) (hk0v : value (k0 + 1) = 1)
    (hothers : ∀ i, i < N → i ≠ k0 → value (i + 1) = 1 → ∀ n' c' : Nat, n' < 2 ^ 31 →
      c' < 2 ^ 31 →
      (var_names pi.curr_lp).get? i = some (mangle_var 'x' (n' : Int) (c' : Int)) → n' ≠ n) :
    ∀ (l : List Nat), l.Nodup → (∀ i ∈ l, i < N) → ∀ col : Nat → Int,
      ∃ col', apply_solution_loop pi value l col = some col' ∧
        ((k0 ∈ l ∧ col' n = (c0 : Int) ∧
            (apply_solution_calls pi value l).filter (fun call => decide (call.1 = n)) =
              [(n, (c0 : Int))]) ∨
         (k0 ∉ l ∧ col' n = col n ∧
            (apply_solution_calls pi value l).filter (fun call => decide (call.1 = n)) = [])) := by
  intro l
  induction l with
  | nil =>
    intro _ _ col
    exact ⟨col, rfl, Or.inr ⟨List.not_mem_nil _, rfl, rfl⟩⟩
  | cons i rest ih =>
    intro hnd hlt col
    obtain ⟨hi, hnd'⟩ := List.nodup_cons.1 hnd
    have hiN := hlt i (List.mem_cons_self _ _)
    have hlt' : ∀ j ∈ rest, j < N := fun j hj => hlt j (List.mem_cons_of_mem _ hj)
    rcases h01 i hiN with hv | hv
    · have hik : i ≠ k0 := by rintro rfl; rw [hk0v] at hv; norm_num at hv
      obtain ⟨col', hrun, hres⟩ := ih hnd' hlt' col
      refine ⟨col', ?_, ?_⟩
      · simp only [apply_solution_loop, apply_solution_step_of_zero hv]
        exact hrun
      · rw [apply_solution_calls_of_zero hv]
        rcases hres with ⟨h1, h2, h3⟩ | ⟨h1, h2, h3⟩
        · exact Or.inl ⟨List.mem_cons_of_mem _ h1, h2, h3⟩
        · refine Or.inr ⟨?_, h2, h3⟩
          intro hmem
          rcases List.mem_cons.1 hmem with h | h
          · exact hik h.symm
          · exact h1 h
    · obtain ⟨n', c', hname, hn', hc'⟩ := hnames i hiN
      obtain ⟨col', hrun, hres⟩ := ih hnd' hlt' (Function.update col n' (c' : Int))
      refine ⟨col', ?_, ?_⟩
      · simp only [apply_solution_loop, apply_solution_step_of_one hv hname hn' hc']
        exact hrun
      · rw [apply_solution_calls_of_one hv hname hn' hc']
        by_cases hik : i = k0
        · subst hik
          rw [hk0name] at hname
          obtain ⟨h1, h2⟩ := mangle_var_x_inj_nat hn hc0 hn' hc' (Option.some.inj hname)
          subst h1
          subst h2
          rcases hres with ⟨h1, _, _⟩ | ⟨_, h2, h3⟩
          · exact absurd h1 hi
          · refine Or.inl ⟨List.mem_cons_self _ _, ?_, ?_⟩
            · rw [h2, Function.update_same]
            · rw [List.filter_cons]
              simp [h3]
        · have hne : n' ≠ n := hothers i hiN hik hv n' c' hn' hc' hname
          rcases hres with ⟨h1, h2, h3⟩ | ⟨h1, h2, h3⟩
          · refine Or.inl ⟨List.mem_cons_of_mem _ h1, h2, ?_⟩
            rw [List.filter_cons]
            simp [hne, h3]
          · refine Or.inr ⟨?_, ?_, ?_⟩
            · intro hmem
              rcases List.mem_cons.1 hmem with h | h
              · exact hik h.symm
              · exact h1 h
            · rw [h2, Function.update_noteq (Ne.symm hne)]
            · rw [List.filter_cons]
              simp [hne, h3]

/-- The loop of `pi_apply_solution` on a 0/1 solution runs to its end. -/
theorem apply_solution_loop_some (pi : problem_instance_t) (value : Nat → Rat) (N : Nat)
    (hnames : ∀ i, i < N → ∃ n c : Nat,
      (var_names pi.curr_lp).get? i = some (mangle_var 'x' (n : Int) (c : Int)) ∧
      n < 2 ^ 31 ∧ c < 2 ^ 31)
    (h01 : ∀ i, i < N → value (i + 1) = 0 ∨ value (i + 1) = 1) :
    ∀ (l : List Nat), (∀ i ∈ l, i < N) → ∀ col : Nat → Int,
      ∃ col', apply_solution_loop pi value l col = some col' := by
  intro l
  induction l with
  | nil => intro _ col; exact ⟨col, rfl⟩
  | cons i rest ih =>
    intro hlt col
    have hiN := hlt i (List.mem_cons_self _ _)
    have hlt' : ∀ j ∈ rest, j < N := fun j hj => hlt j (List.mem_cons_of_mem _ hj)
    rcases h01 i hiN with hv | hv
    · obtain ⟨col', hrun⟩ := ih hlt' col
      exact ⟨col', by simp only [apply_solution_loop, apply_solution_step_of_zero hv]; exact hrun⟩
    · obtain ⟨n', c', hname, hn', hc'⟩ := hnames i hiN
      obtain ⟨col', hrun⟩ := ih hlt' (Function.update col n' (c' : Int))
      exact ⟨col', by
        simp only [apply_solution_loop, apply_solution_step_of_one hv hname hn' hc']
        exact hrun⟩

/-! ## The constraints B of all colors -/

theorem constr_B_colors_append (co : copy_opt_t) (l1 l2 : List Nat) (pi : problem_instance_t) :
    constr_B_colors co (l1 ++ l2) pi =
      (constr_B_colors co l1 pi).bind (constr_B_colors co l2) := by
  induction l1 generalizing pi with
  | nil => simp [constr_B_colors]
  | cons c rest ih =>
    simp only [List.cons_append, constr_B_colors]
    cases pi_add_constr_B co pi c with
    | none => simp
    | some pi' => simpa using ih pi'

theorem constr_B_colors_state {co : copy_opt_t} {lpA : lpp_t}
    (hA : ∀ c ∈ lpA.csts, ∃ n : Int, c.name = mangle_cst 'A' n) :
    ∀ (l : List Nat) (pi1 pi2 : problem_instance_t), lp_ext lpA pi1.curr_lp →
      constr_B_colors co l pi1 = some pi2 →
      lp_ext lpA pi2.curr_lp ∧ lp_grows pi1.curr_lp pi2.curr_lp ∧
      pi2.removed = pi1.removed ∧ pi2.last_x_var = pi1.last_x_var := by
  intro l
  induction l with
  | nil =>
    intro pi1 pi2 hext h
    simp only [constr_B_colors, Option.some.injEq] at h
    subst h
    exact ⟨hext, lp_grows_refl _, rfl, rfl⟩
  | cons c rest ih =>
    intro pi1 pi2 hext h
    simp only [constr_B_colors] at h
    cases hb : pi_add_constr_B co pi1 c with
    | none => rw [hb] at h; cases h
    | some pi' =>
      rw [hb] at h
      unfold pi_add_constr_B at hb
      obtain ⟨st, hst, hpi'⟩ := Option.map_eq_some'.1 hb
      have hP := constr_B_sweep_state hA hext hst
      subst hpi'
      obtain ⟨h1, h2, h3, h4⟩ := ih st.pi pi2 hP.ext h
      exact ⟨h1, lp_grows_trans hP.grows h2, h3.trans hP.removed, h4.trans hP.last⟩

theorem range_split {n c : Nat} (h : c < n) :
    ∃ tail, List.range n = List.range c ++ c :: tail := by
  induction n with
  | zero => omega
  | succ n ih =>
    rcases Nat.lt_succ_iff_lt_or_eq.1 h with hlt | rfl
    · obtain ⟨t, ht⟩ := ih hlt
      exact ⟨t ++ [n], by rw [List.range_succ, ht]; simp⟩
    · exact ⟨[], List.range_succ c⟩

/-! ## The problem after the constraints A and B, and a solution of it -/

theorem lp_ext_refl (lpA : lpp_t) : lp_ext lpA lpA :=
  ⟨rfl, [], [], by simp, by simp, fun c hc => absurd hc (List.not_mem_nil c),
    fun e he => absurd he (List.not_mem_nil e)⟩

theorem lp_built_csts_named {done : List (Nat × List Nat)} {lpA : lpp_t} (hb : lp_built done lpA) :
    ∀ c ∈ lpA.csts, ∃ n : Int, c.name = mangle_cst 'A' n := by
  intro c hc
  rw [hb.csts, List.mem_map] at hc
  obtain ⟨p, _, rfl⟩ := hc
  exact ⟨(p.1 : Int), rfl⟩

theorem lp_final_ones {done : List (Nat × List Nat)} {lpA lp : lpp_t} (hb : lp_built done lpA)
    (hext : lp_ext lpA lp) : ∀ e ∈ lp.matrix, e.2.2 = 1 := by
  obtain ⟨_, ec, em, _, hm, _, hem⟩ := hext
  intro e he
  rw [hm] at he
  rcases List.mem_append.1 he with he | he
  · exact (hem e he).1
  · obtain ⟨i, k, p, c, rfl, _⟩ := (hb.matrix e).1 he
    rfl

/-- Every row of the problem is an equation with right-hand side 1 or an
inequality "at most 1": an assignment that satisfies the row gives it a value
of at most 1. -/
theorem lp_final_row_le {done : List (Nat × List Nat)} {lpA lp : lpp_t} (hb : lp_built done lpA)
    (hext : lp_ext lpA lp) {value : Nat → Rat} {r : Nat} (hr : r < lp.csts.length)
    (hholds : lpp_cst_holds lp value r) : lpp_row_value lp value ((r : Int) + 1) ≤ 1 := by
  obtain ⟨_, ec, em, hcs, _, hec, _⟩ := hext
  unfold lpp_cst_holds at hholds
  have hget := List.get?_eq_get hr
  rw [hget] at hholds
  have hmem : lp.csts.get ⟨r, hr⟩ ∈ lpA.csts ++ ec := by
    rw [← hcs]; exact List.get_mem _ _ _
  rcases List.mem_append.1 hmem with hm | hm
  · rw [hb.csts, List.mem_map] at hm
    obtain ⟨p, _, hp⟩ := hm
    rw [← hp] at hholds
    simp only at hholds
    rw [hholds]
    norm_num
  · obtain ⟨h1, h2⟩ := hec _ hm
    simp only [h1, h2] at hholds
    exact_mod_cast hholds

/-- The row `A<n>` of a node in the problem after the constraints B: it is an
equation with right-hand side 1, and the factor 1 is written in it for exactly
the columns `x<n>_<c>`. -/
theorem lp_final_A_row {co : copy_opt_t} {nodes : List Nat} {lpA lp : lpp_t}
    (hb : lp_built (mk_done co nodes) lpA) (hok : done_ok (mk_done co nodes))
    (hext : lp_ext lpA lp) {i n : Nat} (hi : nodes.get? i = some n) :
    i < lp.csts.length ∧
    (∀ value : Nat → Rat, lpp_cst_holds lp value i → lpp_row_value lp value ((i : Int) + 1) = 1) ∧
    ∀ k : Nat, (((i : Int) + 1, (k : Int) + 1, (1 : Int)) : Int × Int × Int) ∈ lp.matrix ↔
      ∃ c ∈ allocatable_regs co n,
        (var_names lp).get? k = some (mangle_var 'x' (n : Int) (c : Int)) := by
  obtain ⟨hv, ec, em, hcs, hm, _, hem⟩ := hext
  have hnames : var_names lp = var_names lpA := by simp only [var_names, hv]
  have hdone : (mk_done co nodes).get? i = some (n, allocatable_regs co n) := by
    simp only [mk_done, List.get?_map, hi, Option.map_some']
  have hiA : i < lpA.csts.length := by
    rw [hb.csts, List.length_map]
    exact (List.get?_eq_some.1 hdone).1
  have hgetA : lpA.csts.get? i =
      some (lpp_cst.mk (mangle_cst 'A' (n : Int)) lpp_cst_t.lpp_equal 1) := by
    rw [hb.csts, List.get?_map, hdone]
    rfl
  have hget : lp.csts.get? i =
      some (lpp_cst.mk (mangle_cst 'A' (n : Int)) lpp_cst_t.lpp_equal 1) := by
    rw [hcs, List.get?_eq_getElem?, List.getElem?_append_left hiA, ← List.get?_eq_getElem?]
    exact hgetA
  refine ⟨(List.get?_eq_some.1 hget).1, ?_, ?_⟩
  · intro value hholds
    unfold lpp_cst_holds at hholds
    rw [hget] at hholds
    simp only at hholds
    rw [hholds]
    norm_num
  · intro k
    rw [hm, List.mem_append, hnames]
    constructor
    · rintro (he | he)
      · have := (hem _ he).2.1
        simp only at this
        omega
      · obtain ⟨i', k', p, c, heq, hp, hc, hname⟩ := (hb.matrix _).1 he
        simp only [Prod.mk.injEq, and_true] at heq
        have hii : i' = i := by omega
        have hkk : k' = k := by omega
        subst hii
        subst hkk
        rw [hdone] at hp
        simp only [Option.some.injEq] at hp
        subst hp
        exact ⟨c, hc, hname⟩
    · rintro ⟨c, hc, hname⟩
      right
      exact (hb.matrix _).2 ⟨i, k, (n, allocatable_regs co n), c, rfl, hdone, hc, hname⟩

/-- The columns of the problem: each is the variable of a node with a
constraint A and of one of its allocatable colors. -/
theorem lp_final_names {co : copy_opt_t} {nodes : List Nat} {lpA lp : lpp_t}
    (hb : lp_built (mk_done co nodes) lpA) (hok : done_ok (mk_done co nodes))
    (hext : lp_ext lpA lp) :
    (var_names lp).Nodup ∧ ∀ i, i < lp.vars.length → ∃ n c : Nat,
      (var_names lp).get? i = some (mangle_var 'x' (n : Int) (c : Int)) ∧
      n ∈ nodes ∧ c ∈ allocatable_regs co n ∧ n < 2 ^ 31 ∧ c < 2 ^ 31 := by
  have hnames : var_names lp = var_names lpA := by simp only [var_names, hext.1]
  refine ⟨by rw [hnames, hb.vars]; exact var_names_nodup_of_done_ok hok, ?_⟩
  intro i hi
  have hi' : i < (var_names lp).length := by rwa [var_names_length]
  have hget := List.get?_eq_get hi'
  have hmem : (var_names lp).get ⟨i, hi'⟩ ∈ var_names lpA := by
    rw [← hnames]; exact List.get_mem _ _ _
  rw [hb.vars] at hmem
  obtain ⟨p, hp, c, hc, hname⟩ := mem_done_var_names hmem
  obtain ⟨hp1, _, hp3⟩ := hok.2 p hp
  simp only [mk_done, List.mem_map] at hp
  obtain ⟨n, hn, rfl⟩ := hp
  exact ⟨n, c, by rw [hget, hname], hn, hc, hp1, hp3 c hc⟩

/-- A node with a constraint A has, under a 0/1 assignment that satisfies its
row, exactly one column with value 1. -/
theorem node_has_one_color {co : copy_opt_t} {nodes : List Nat} {lpA lp : lpp_t}
    (hb : lp_built (mk_done co nodes) lpA) (hok : done_ok (mk_done co nodes))
    (hext : lp_ext lpA lp) {value : Nat → Rat}
    (h01 : ∀ i, i < lp.vars.length → value (i + 1) = 0 ∨ value (i + 1) = 1)
    (hfeas : lpp_feasible_for lp value) {n : Nat} (hn : n ∈ nodes) :
    ∃ k0 c0 : Nat, k0 < lp.vars.length ∧ c0 ∈ allocatable_regs co n ∧
      (var_names lp).get? k0 = some (mangle_var 'x' (n : Int) (c0 : Int)) ∧
      value (k0 + 1) = 1 ∧
      ∀ i, i < lp.vars.length → i ≠ k0 → value (i + 1) = 1 → ∀ n' c' : Nat, n' < 2 ^ 31 →
        c' < 2 ^ 31 →
        (var_names lp).get? i = some (mangle_var 'x' (n' : Int) (c' : Int)) → n' ≠ n := by
  obtain ⟨i, hi⟩ := List.mem_iff_get?.1 hn
  obtain ⟨hilt, hrow, hmat⟩ := lp_final_A_row hb hok hext hi
  obtain ⟨_, hnames⟩ := lp_final_names hb hok hext
  have hone := lp_final_ones hb hext
  have hsum := hrow value (hfeas i hilt)
  rw [lpp_row_value_eq] at hsum
  have hf01 : ∀ k, k < lp.vars.length →
      (lpp_get_factor lp ((i : Int) + 1) ((k : Int) + 1) : Rat) * value (k + 1) = 0 ∨
      (lpp_get_factor lp ((i : Int) + 1) ((k : Int) + 1) : Rat) * value (k + 1) = 1 := by
    intro k hk
    rcases lpp_get_factor_zero_or_one hone ((i : Int) + 1) ((k : Int) + 1) with h | h <;>
      rcases h01 k hk with h' | h' <;> rw [h, h'] <;> norm_num
  obtain ⟨k0, hk0, hk01, hk0u⟩ := exists_unique_of_sum_eq_one _ _ hf01 hsum
  have hfac : ∀ k, k < lp.vars.length → value (k + 1) = 1 →
      ((lpp_get_factor lp ((i : Int) + 1) ((k : Int) + 1) : Rat) * value (k + 1) = 1 ↔
        ∃ c ∈ allocatable_regs co n,
          (var_names lp).get? k = some (mangle_var 'x' (n : Int) (c : Int))) := by
    intro k _ hv
    rw [hv, mul_one, ← hmat k]
    constructor
    · intro h
      by_contra hnot
      have : lpp_get_factor lp ((i : Int) + 1) ((k : Int) + 1) = 0 := by
        apply lpp_get_factor_of_not_mem
        intro v hv'
        have := hone _ hv'
        simp only at this
        subst this
        exact hnot hv'
      rw [this] at h
      norm_num at h
    · intro h
      rw [lpp_get_factor_of_mem hone h]
      norm_num
  have hv0 : value (k0 + 1) = 1 := by
    rcases h01 k0 hk0 with h | h
    · rw [h, mul_zero] at hk01; norm_num at hk01
    · exact h
  obtain ⟨c0, hc0, hname0⟩ := (hfac k0 hk0 hv0).1 hk01
  refine ⟨k0, c0, hk0, hc0, hname0, hv0, ?_⟩
  intro j hj hne hv n' c' hn' hc' hname heq
  subst heq
  have hz := hk0u j hj hne
  obtain ⟨n2, c2, hname2, _, hc2, hn2, hc2'⟩ := hnames j hj
  rw [hname] at hname2
  obtain ⟨h1, h2⟩ := mangle_var_x_inj_nat hn' hc' hn2 hc2' (Option.some.inj hname2)
  subst h1
  subst h2
  have := (hfac j hj hv).2 ⟨c', hc2, hname⟩
  rw [hz] at this
  norm_num at this

theorem border_events_snd (co : copy_opt_t) :
    (border_events co).map (fun e => e.2) = flat_borders co := by
  unfold border_events flat_borders
  induction co.chordal_env.border_heads with
  | nil => rfl
  | cons p rest ih =>
    simp only [List.flatMap_cons, List.map_append, List.map_map, ih]
    congr 1
    simp [Function.comp_def]

theorem live_after_range {co : copy_opt_t} (hrange : int_range co)
    {pre post : List (Nat × border_t)} (hsplit : border_events co = pre ++ post) {n : Nat}
    (h : live_after pre n = true) : n < 2 ^ 31 := by
  have := live_after_mem h
  rw [List.mem_map] at this
  obtain ⟨e, he, rfl⟩ := this
  apply hrange.2 e.2
  rw [← border_events_snd, hsplit]
  exact List.mem_map.2 ⟨e, List.mem_append_left _ he, rfl⟩

/-- C6. A solution of the problem gives a proper partial coloring. Let the
reducer return `r` and the steps A and B of `new_pi` the record `pi`; let the
borders be those of a program in strict SSA form with its liveness
(`borders_wf`, no value outside the removed set with two real definitions) and
all numbers be in the range of `int`; let `value` be a 0/1 assignment of the
columns that satisfies every row of the problem, and the solution state be
optimal or feasible. Then `pi_apply_solution` runs to its end; every node that
has a real definition and is not in the removed set is given a color exactly
once, a color below `n_regs` that is allocatable for it; and any two different
nodes that are together in the living set of a constraint added by
`pi_add_constr_B` (for any color) have different colors afterwards. -/
theorem ilp_solution_is_proper_partial_coloring (co : copy_opt_t)
    (r : problem_instance_t) (hr : pi_find_simplicials co new_pi_init = some r)
    (hrange : int_range co) (hwf : borders_wf co)
    (hnd : (constr_A_nodes r.removed (flat_borders co)).Nodup)
    (pi : problem_instance_t) (hAB : new_pi_constr_AB co r = some pi)
    (value : Nat → Rat)
    (h01 : ∀ k, 1 ≤ k → k ≤ pi.curr_lp.vars.length → value k = 0 ∨ value k = 1)
    (hfeas : lpp_feasible_for pi.curr_lp value)
    (state : lpp_sol_state_t)
    (hstate : state = lpp_sol_state_t.lpp_optimal ∨ state = lpp_sol_state_t.lpp_feasible)
    (col : Nat → Int) :
    ∃ col', pi_apply_solution pi state value col = some col' ∧
      (∀ n, (∃ b ∈ flat_borders co, b.is_def = true ∧ b.is_real = true ∧ b.irn = n) →
        is_removed r (ptr_t.ir_node n) = false →
        ∃ c : Nat, c < co.chordal_env.n_regs ∧ co.allocatable n c = true ∧
          (apply_solution_calls pi value (List.range pi.last_x_var.toNat)).filter
            (fun call => decide (call.1 = n)) = [(n, (c : Int))] ∧
          col' n = (c : Int)) ∧
      (∀ color, color < co.chordal_env.n_regs → ∀ pic st,
        (pi_add_constr_A co r).bind (constr_B_colors co (List.range color)) = some pic →
        constr_B_sweep co pic color = some st →
        ∀ L ∈ st.emitted, ∀ a ∈ L, ∀ b ∈ L, a ≠ b → col' a ≠ col' b) := by
  -- the record after the reducer and after the constraints A
  obtain ⟨r', hr', hlp, hlast, _⟩ := reducer_keeps_problem co
  have : r' = r := Option.some.inj (hr'.symm.trans hr)
  subst this
  obtain ⟨piA, hA, hstA⟩ := pi_add_constr_A_spec co hrange r' hlp hlast hnd
  set nodes := constr_A_nodes r'.removed (flat_borders co) with hnodes
  have hok : done_ok (mk_done co nodes) := by
    apply done_ok_mk_done co hrange nodes hnd
    intro n hn
    obtain ⟨b, hb, _, _, _, hbn⟩ := mem_constr_A_nodes.1 hn
    exact ⟨b, hb, hbn⟩
  have hnamed := lp_built_csts_named hstA.built
  -- the record after the constraints B
  have hB : constr_B_colors co (List.range co.chordal_env.n_regs) piA = some pi := by
    unfold new_pi_constr_AB at hAB
    rw [hA] at hAB
    exact hAB
  obtain ⟨hext, _, hrem, hlastB⟩ := constr_B_colors_state hnamed _ piA pi (lp_ext_refl _) hB
  have hN : pi.last_x_var.toNat = pi.curr_lp.vars.length := by
    rw [hlastB, hext.1]
    rcases hstA.last with ⟨h1, h2⟩ | h
    · rw [h1, h2]; rfl
    · rw [h]; simp
  obtain ⟨hnodup, hnames⟩ := lp_final_names hstA.built hok hext
  have h01' : ∀ i, i < pi.curr_lp.vars.length → value (i + 1) = 0 ∨ value (i + 1) = 1 :=
    fun i hi => h01 (i + 1) (by omega) (by omega)
  have hnames' : ∀ i, i < pi.curr_lp.vars.length → ∃ n c : Nat,
      (var_names pi.curr_lp).get? i = some (mangle_var 'x' (n : Int) (c : Int)) ∧
      n < 2 ^ 31 ∧ c < 2 ^ 31 := by
    intro i hi
    obtain ⟨n, c, h1, _, _, h2, h3⟩ := hnames i hi
    exact ⟨n, c, h1, h2, h3⟩
  -- the loop runs to its end
  obtain ⟨col', hcol'⟩ := apply_solution_loop_some pi value _ hnames' h01'
    (List.range pi.curr_lp.vars.length) (fun i hi => List.mem_range.1 hi) col
  have happly : pi_apply_solution pi state value col = some col' := by
    unfold pi_apply_solution
    rw [if_neg, hN]
    · exact hcol'
    · rintro ⟨h1, h2⟩
      rcases hstate with h | h
      · exact h1 h
      · rw [h] at h2; exact h2 (le_refl _)
  -- every node with a constraint A gets one color
  have hpart1 : ∀ n ∈ nodes, ∃ k0 c0 : Nat, k0 < pi.curr_lp.vars.length ∧
      c0 ∈ allocatable_regs co n ∧
      (var_names pi.curr_lp).get? k0 = some (mangle_var 'x' (n : Int) (c0 : Int)) ∧
      value (k0 + 1) = 1 ∧ n < 2 ^ 31 ∧ c0 < 2 ^ 31 ∧
      (apply_solution_calls pi value (List.range pi.last_x_var.toNat)).filter
        (fun call => decide (call.1 = n)) = [(n, (c0 : Int))] ∧
      col' n = (c0 : Int) := by
    intro n hn
    obtain ⟨k0, c0, hk0, hc0, hname0, hv0, hothers⟩ :=
      node_has_one_color hstA.built hok hext h01' hfeas hn
    obtain ⟨n2, c2, hname2, _, _, hn2, hc2⟩ := hnames k0 hk0
    rw [hname0] at hname2
    have hinj : ∀ m : Nat, m ∈ nodes → m < 2 ^ 31 := by
      intro m hm
      obtain ⟨b, hb, _, _, _, hbn⟩ := mem_constr_A_nodes.1 hm
      rw [← hbn]; exact hrange.2 b hb
    have hnr := hinj n hn
    have hcr : c0 < 2 ^ 31 :=
      lt_of_lt_of_le ((allocatable_regs_spec co n c0).1 hc0).1 hrange.1
    obtain ⟨col'', hrun, hres⟩ := apply_solution_loop_spec pi value _ hnames' h01' n k0 c0 hname0
      hnr hcr hv0 hothers (List.range pi.curr_lp.vars.length) (List.nodup_range _)
      (fun i hi => List.mem_range.1 hi) col
    have : col'' = col' := Option.some.inj (hrun.symm.trans hcol')
    subst this
    rcases hres with ⟨_, h2, h3⟩ | ⟨h1, _, _⟩
    · exact ⟨k0, c0, hk0, hc0, hname0, hv0, hnr, hcr, by rw [hN]; exact h3, h2⟩
    · exact absurd (List.mem_range.2 hk0) h1
  refine ⟨col', happly, ?_, ?_⟩
  · intro n hdef hrm
    have hn : n ∈ nodes := by
      obtain ⟨b, hb, h1, h2, h3⟩ := hdef
      rw [hnodes, mem_constr_A_nodes]
      refine ⟨b, hb, h1, h2, ?_, h3⟩
      rw [h3]
      simpa [is_removed] using hrm
    obtain ⟨_, c0, _, hc0, _, _, _, _, hcalls, hcoln⟩ := hpart1 n hn
    obtain ⟨h1, h2⟩ := (allocatable_regs_spec co n c0).1 hc0
    exact ⟨c0, h1, h2, hcalls, hcoln⟩
  · intro color hcolor pic st hpic hst L hL a ha b hb hab heq
    -- the sweep in which the living set was met
    rw [hA] at hpic
    simp only [Option.some_bind] at hpic
    obtain ⟨hextc, _, hremc, _⟩ := constr_B_colors_state hnamed _ piA pic (lp_ext_refl _) hpic
    have hPc := constr_B_sweep_state hnamed hextc hst
    obtain ⟨hrc, p, q, hpq, hLp⟩ := hPc.covered L hL
    have hRc : pic.removed = r'.removed := hremc.trans hstA.removed
    rw [hRc] at hLp
    -- both nodes have a constraint A
    have hnode : ∀ n ∈ L, n ∈ nodes := by
      intro n hn
      obtain ⟨_, hcov⟩ := hrc
      obtain ⟨_, hcov⟩ := hcov
      obtain ⟨k, hk, _⟩ := hcov n hn
      have hmem := List.get?_mem hk
      have hv : var_names st.pi.curr_lp = var_names piA.curr_lp := by
        simp only [var_names, hPc.ext.1]
      rw [hv, hstA.built.vars] at hmem
      obtain ⟨pp, hpp, c, hc, hname⟩ := mem_done_var_names hmem
      obtain ⟨hp1, _, hp3⟩ := hok.2 pp hpp
      have hnr := live_after_range hrange hpq (hLp n hn).2
      have hcr : color < 2 ^ 31 := lt_of_lt_of_le hcolor hrange.1
      obtain ⟨h1, _⟩ := mangle_var_x_inj_nat hnr hcr hp1 (hp3 c hc) hname
      simp only [mk_done, List.mem_map] at hpp
      obtain ⟨m, hm, rfl⟩ := hpp
      rw [h1]; exact hm
    obtain ⟨ka, ca, hka, hca, hnamea, hva, har, hcar, _, hcola⟩ := hpart1 a (hnode a ha)
    obtain ⟨kb, cb, hkb, hcb, hnameb, hvb, hbr, hcbr, _, hcolb⟩ := hpart1 b (hnode b hb)
    rw [hcola, hcolb] at heq
    have hcc : ca = cb := by exact_mod_cast heq
    subst hcc
    obtain ⟨hca1, hca2⟩ := (allocatable_regs_spec co a ca).1 hca
    obtain ⟨_, hcb2⟩ := (allocatable_regs_spec co b ca).1 hcb
    -- the sweep for the common color
    obtain ⟨tail, htail⟩ := range_split hca1
    rw [htail, constr_B_colors_append] at hB
    obtain ⟨pic', hpic', hB2⟩ := Option.bind_eq_some.1 hB
    simp only [constr_B_colors] at hB2
    cases hb' : pi_add_constr_B co pic' ca with
    | none => rw [hb'] at hB2; cases hB2
    | some pi2 =>
      rw [hb'] at hB2
      unfold pi_add_constr_B at hb'
      obtain ⟨st', hst', hpi2⟩ := Option.map_eq_some'.1 hb'
      subst hpi2
      obtain ⟨hextc', _, hremc', _⟩ :=
        constr_B_colors_state hnamed _ piA pic' (lp_ext_refl _) hpic'
      have hRc' : pic'.removed = r'.removed := hremc'.trans hstA.removed
      have hPc' := constr_B_sweep_state hnamed hextc' hst'
      obtain ⟨_, hgrow, _, _⟩ := constr_B_colors_state hnamed _ st'.pi pi hPc'.ext hB2
      obtain ⟨L', hL', haL', hbL'⟩ := constr_B_sweep_covers hwf hnamed hextc' hst' hab
        (by rw [hRc']; exact ⟨(hLp a ha).1.1, hca2⟩)
        (by rw [hRc']; exact ⟨(hLp b hb).1.1, hcb2⟩) hpq (hLp a ha).2 (hLp b hb).2
      obtain ⟨r2, hr2, hcov2⟩ := row_covers_mono hgrow (hPc'.covered L' hL').1
      obtain ⟨ka', hka', hma⟩ := hcov2 a haL'
      obtain ⟨kb', hkb', hmb⟩ := hcov2 b hbL'
      have hka_eq : ka' = ka := get?_inj_of_nodup hnodup hka' hnamea
      have hkb_eq : kb' = kb := get?_inj_of_nodup hnodup hkb' hnameb
      subst hka_eq
      subst hkb_eq
      have hne : ka' ≠ kb' := by
        intro hk
        rw [hk, hnameb] at hnamea
        exact hab (mangle_var_x_inj_nat hbr hcbr har hcar (Option.some.inj hnamea)).1.symm
      have hval : ∀ k, k < pi.curr_lp.vars.length → 0 ≤ value (k + 1) := by
        intro k hk
        rcases h01' k hk with h | h <;> rw [h] <;> norm_num
      have hge := lpp_row_value_ge (lp_final_ones hstA.built hext) hval hka hkb hne hma hmb
      have hle := lp_final_row_le hstA.built hext hr2 (hfeas r2 hr2)
      rw [hva, hvb] at hge
      linarith
theorem lpp_row_value_int_cast (lp : lpp_t) (v : Nat → Int) (r : Int) :
    lpp_row_value lp (fun k => (v k : Rat)) r = (lpp_row_value_int lp v r : Rat) := by
  unfold lpp_row_value lpp_row_value_int
  induction List.range lp.vars.length with
  | nil => simp
  | cons k l ih => simp only [List.map_cons, List.sum_cons, ih]; push_cast; rfl

/-- An assignment of whole numbers that passes the check satisfies every row. -/
theorem lpp_feasible_of_int {lp : lpp_t} {v : Nat → Int}
    (h : lpp_feasible_int lp v = true) : lpp_feasible_for lp (fun k => (v k : Rat)) := by
  intro k hk
  have hk' := List.all_eq_true.1 h k (List.mem_range.2 hk)
  unfold lpp_cst_holds
  unfold lpp_cst_holds_int at hk'
  cases hc : lp.csts.get? k with
  | none => trivial
  | some c =>
    rw [hc] at hk'
    simp only at hk' ⊢
    rw [lpp_row_value_int_cast]
    cases ht : c.cst_type <;> rw [ht] at hk' <;> simp only [decide_eq_true_eq] at hk' ⊢ <;>
      exact_mod_cast hk'

set_option maxRecDepth 100000 in
/-- Witness of C6 on the 4-cycle with two registers, for the assignment that
colors the nodes 0, 1, 2, 3 with 0, 1, 0, 1. -/
theorem ilp_solution_is_proper_partial_coloring_witness :
    (pi_find_simplicials cycle_co new_pi_init = some cycle_r ∧ int_range cycle_co ∧
      borders_wf cycle_co ∧ new_pi_constr_AB cycle_co cycle_r = some cycle_pi ∧
      lpp_feasible_for cycle_pi.curr_lp cycle_value) ∧
    ∃ col', pi_apply_solution cycle_pi lpp_sol_state_t.lpp_optimal cycle_value
        (fun _ => -1) = some col' ∧
      (∀ n, (∃ b ∈ flat_borders cycle_co, b.is_def = true ∧ b.is_real = true ∧ b.irn = n) →
        is_removed cycle_r (ptr_t.ir_node n) = false →
        ∃ c : Nat, c < cycle_co.chordal_env.n_regs ∧ cycle_co.allocatable n c = true ∧
          (apply_solution_calls cycle_pi cycle_value
            (List.range cycle_pi.last_x_var.toNat)).filter
            (fun call => decide (call.1 = n)) = [(n, (c : Int))] ∧
          col' n = (c : Int)) ∧
      (∀ color, color < cycle_co.chordal_env.n_regs → ∀ pic st,
        (pi_add_constr_A cycle_co cycle_r).bind
          (constr_B_colors cycle_co (List.range color)) = some pic →
        constr_B_sweep cycle_co pic color = some st →
        ∀ L ∈ st.emitted, ∀ a ∈ L, ∀ b ∈ L, a ≠ b → col' a ≠ col' b) :=
  ⟨⟨by decide, by decide, by decide, by decide, lpp_feasible_of_int (by decide)⟩,
    ilp_solution_is_proper_partial_coloring cycle_co cycle_r (by decide) (by decide)
      (by decide) (by decide) cycle_pi (by decide) cycle_value
      (fun k _ _ => by
        unfold cycle_value cycle_value_int
        split_ifs <;> simp)
      (lpp_feasible_of_int (by decide)) lpp_sol_state_t.lpp_optimal (Or.inl rfl) (fun _ => -1)⟩

/-! ## The all-simplicial case -/

theorem reducer_all_simplicial (co : copy_opt_t) :
    ∃ r, pi_find_simplicials co new_pi_init = some r ∧ r.curr_lp = {} ∧
      (co.chordal_env.if_nodes.length = pset_count r.removed → r.all_simplicial = 1) ∧
      (co.chordal_env.if_nodes.length ≠ pset_count r.removed → r.all_simplicial = 0) := by
  obtain ⟨r, r', h1, h2, _, hrem⟩ := pi_find_simplicials_total co new_pi_init
  have hP := find_while_spec co
    (fun pi => pi.curr_lp = {} ∧ pi.all_simplicial = 0)
    (fun pi n h _ => h) _ new_pi_init r' ⟨rfl, rfl⟩ h1
  refine ⟨r, h2, ?_⟩
  unfold pi_find_simplicials at h2
  rw [h1] at h2
  simp only [Option.map_some', Option.some.injEq] at h2
  subst h2
  by_cases hc : co.chordal_env.if_nodes.length = pset_count r'.removed
  · rw [if_pos hc]
    exact ⟨hP.1, fun _ => rfl, fun h => absurd hc (by simpa [if_pos hc] using h)⟩
  · rw [if_neg hc]
    exact ⟨hP.1, fun h => absurd h hc, fun _ => hP.2⟩

/-- C11. The all-simplicial shortcut. The reducer returns a record `r` in which
`all_simplicial` is 1 when the number of removed nodes is the number of nodes
of the interference graph, and 0 otherwise. When it is set, `new_pi` returns
this record with the problem as it was created, without a column, a row or a
factor, and `co_ilp_opt` makes no call `lpp_set_start_value` and no call
`lpp_solve_net`. -/
theorem all_simplicial_shortcut (co : copy_opt_t)
    (solver : lpp_t → List lpp_call_t → lpp_sol_state_t × (Nat → Rat)) (col : Nat → Int) :
    ∃ r, pi_find_simplicials co new_pi_init = some r ∧
      (r.all_simplicial = 1 ↔ co.chordal_env.if_nodes.length = pset_count r.removed) ∧
      (r.all_simplicial = 0 ↔ co.chordal_env.if_nodes.length ≠ pset_count r.removed) ∧
      (r.all_simplicial ≠ 0 →
        new_pi co = some r ∧
        r.curr_lp.vars = [] ∧ r.curr_lp.csts = [] ∧ r.curr_lp.matrix = [] ∧
        ∃ res, co_ilp_opt co solver col = some res ∧ res.lpp_calls = []) := by
  obtain ⟨r, hr, hlp, hyes, hno⟩ := reducer_all_simplicial co
  refine ⟨r, hr, ?_, ?_, ?_⟩
  · constructor
    · intro h1
      by_contra hne
      rw [hno hne] at h1
      exact absurd h1 (by decide)
    · exact hyes
  · constructor
    · intro h0 heq
      rw [hyes heq] at h0
      exact absurd h0 (by decide)
    · exact hno
  · intro hset
    have hnew : new_pi co = some r := by
      unfold new_pi
      rw [hr]
      simp only [if_pos hset]
    refine ⟨hnew, by rw [hlp], by rw [hlp], by rw [hlp], ?_⟩
    refine ⟨{ pi := r, col := col, lpp_calls := [] }, ?_, rfl⟩
    unfold co_ilp_opt
    rw [hnew]
    simp only [if_neg hset]

/-- C12, counterexample. The triangle with three registers and no optimization
unit, every node with the color 0 on entry: the reducer removes all three
nodes, and `co_ilp_opt` returns with the three nodes still on the list of
simplicials and in the removed set, and with the color 0 on each of them: the
three nodes do not carry three distinct colors. -/
theorem co_ilp_opt_triangle_not_recolored :
    pi_find_simplicials triangle_co new_pi_init = some triangle_pi ∧
    ∃ res, co_ilp_opt triangle_co zero_solver (fun _ => 0) = some res ∧
      res.pi.simplicials = [2, 1, 0] ∧
      res.pi.removed = [ptr_t.ir_node 2, ptr_t.ir_node 1, ptr_t.ir_node 0] ∧
      res.col 0 = 0 ∧ res.col 1 = 0 ∧ res.col 2 = 0 :=
  ⟨by decide, ⟨{ pi := triangle_pi, col := fun _ => 0, lpp_calls := [] }, by rfl,
    by decide, by decide, by decide, by decide, by decide⟩⟩

/-- C12, amended. In the all-simplicial case (the reducer has removed as many
nodes as the interference graph has) `co_ilp_opt` does not run
`pi_set_simplicials`: it returns the record of the reducer, with the list of
simplicials and the removed set as the reducer left them, and the coloring it
was entered with; so any two nodes have different colors on return exactly when
they had on entry. -/
theorem co_ilp_opt_all_simplicial_keeps_colors (co : copy_opt_t)
    (solver : lpp_t → List lpp_call_t → lpp_sol_state_t × (Nat → Rat)) (col : Nat → Int)
    (r : problem_instance_t) (hr : pi_find_simplicials co new_pi_init = some r)
    (hall : co.chordal_env.if_nodes.length = pset_count r.removed) :
    ∃ res, co_ilp_opt co solver col = some res ∧ res.pi = r ∧
      res.pi.simplicials = r.simplicials ∧ res.pi.removed = r.removed ∧
      res.col = col ∧ (∀ a b, res.col a ≠ res.col b ↔ col a ≠ col b) := by
  obtain ⟨r', hr', _, hyes, _⟩ := reducer_all_simplicial co
  have : r' = r := Option.some.inj (hr'.symm.trans hr)
  subst this
  have hset : r'.all_simplicial ≠ 0 := by rw [hyes hall]; decide
  refine ⟨{ pi := r', col := col, lpp_calls := [] }, ?_, rfl, rfl, rfl, rfl, fun _ _ => Iff.rfl⟩
  unfold co_ilp_opt new_pi
  rw [hr]
  simp only [if_pos hset, if_neg hset]

/-- Witness of C12 (amended) on the triangle entered with the colors 0, 1, 2. -/
theorem co_ilp_opt_all_simplicial_keeps_colors_witness :
    (pi_find_simplicials triangle_co new_pi_init = some triangle_pi ∧
      triangle_co.chordal_env.if_nodes.length = pset_count triangle_pi.removed) ∧
    ∃ res, co_ilp_opt triangle_co zero_solver (fun n : Nat => (n : Int)) = some res ∧
      res.pi = triangle_pi ∧
      res.pi.simplicials = triangle_pi.simplicials ∧ res.pi.removed = triangle_pi.removed ∧
      res.col = (fun n : Nat => (n : Int)) ∧
      (∀ a b, res.col a ≠ res.col b ↔ ((a : Int)) ≠ ((b : Int))) :=
  ⟨⟨by decide, by decide⟩,
    co_ilp_opt_all_simplicial_keeps_colors triangle_co zero_solver (fun n : Nat => (n : Int))
      triangle_pi (by decide) (by decide)⟩

/-! ## The reducer: termination -/

theorem find_while_fuel_mono (co : copy_opt_t) :
    ∀ (fuel : Nat) (pi r : problem_instance_t), find_while co fuel pi = some r →
      ∀ k, find_while co (fuel + k) pi = some r := by
  intro fuel
  induction fuel with
  | zero => intro pi r h; simp [find_while] at h
  | succ fuel ih =>
    intro pi r h k
    rw [show fuel + 1 + k = (fuel + k) + 1 by omega]
    unfold find_while at h ⊢
    rcases hfp : find_pass co co.chordal_env.if_nodes pi false with ⟨pi', redo⟩
    rw [hfp] at h
    cases redo with
    | true => exact ih pi' r h k
    | false => exact h

theorem find_while_passes_le (co : copy_opt_t) :
    ∀ (fuel : Nat) (pi : problem_instance_t),
      find_while_passes co fuel pi ≤ unremoved co pi + 1 := by
  intro fuel
  induction fuel with
  | zero => intro pi; simp [find_while_passes]
  | succ fuel ih =>
    intro pi
    unfold find_while_passes
    have hlt := find_pass_unremoved_lt co pi
    rcases hfp : find_pass co co.chordal_env.if_nodes pi false with ⟨pi', redo⟩
    rw [hfp] at hlt
    cases redo with
    | true =>
      have h1 := hlt rfl
      have h2 := ih pi'
      simp only at h1 ⊢
      omega
    | false => simp

/-- C13. Termination of the reducer. `pi_find_simplicials` returns a record;
the loop `while (redo)` ends within (number of nodes + 1) passes, so that any
larger allowance of passes gives the same record; a pass that sets `redo`
removes a node of the graph that was not removed before it; and no node is
removed twice. -/
theorem reducer_terminates (co : copy_opt_t) (pi : problem_instance_t) (fuel : Nat)
    (hfuel : co.chordal_env.if_nodes.length + 1 ≤ fuel) :
    (∃ r, pi_find_simplicials co pi = some r) ∧
    (∃ r', find_while co (co.chordal_env.if_nodes.length + 1) pi = some r' ∧
      find_while co fuel pi = some r') ∧
    find_while_passes co fuel pi ≤ co.chordal_env.if_nodes.length + 1 ∧
    (∀ pi', (find_pass co co.chordal_env.if_nodes pi' false).2 = true →
      ∃ n ∈ co.chordal_env.if_nodes, is_removed pi' (ptr_t.ir_node n) = false ∧
        is_removed (find_pass co co.chordal_env.if_nodes pi' false).1 (ptr_t.ir_node n) = true) ∧
    (removal_order co new_pi_init).Nodup := by
  obtain ⟨r, r', h1, h2, _, _⟩ := pi_find_simplicials_total co pi
  refine ⟨⟨r, h2⟩, ⟨r', h1, ?_⟩, ?_, ?_, ?_⟩
  · have := find_while_fuel_mono co _ pi r' h1 (fuel - (co.chordal_env.if_nodes.length + 1))
    rwa [Nat.add_sub_cancel' hfuel] at this
  · exact le_trans (find_while_passes_le co fuel pi) (Nat.succ_le_succ (unremoved_le co pi))
  · intro pi' h
    rcases find_pass_redo co _ pi' false h with h0 | ⟨n, hn, hn1, hn2⟩
    · cases h0
    · exact ⟨n, hn, (is_removed_eq_false _ _).2 hn1, (is_removed_eq_true _ _).2 hn2⟩
  · obtain ⟨r0, hr0, hord⟩ := pi_find_simplicials_order co
    obtain ⟨r1, hr1, hbk⟩ := pi_find_simplicials_bookkeeping co
    have : r1 = r0 := Option.some.inj (hr1.symm.trans hr0)
    subst this
    have := hbk.1
    rw [hord] at this
    exact List.nodup_reverse.1 this

/-- Witness of C13 on the path 0 - 1 - 2 with ten passes allowed: two passes are
run, the first removes the nodes 0 and 2. -/
theorem reducer_terminates_witness :
    (path_co.chordal_env.if_nodes.length + 1 ≤ 10 ∧
      find_while_passes path_co 10 new_pi_init = 2 ∧
      removal_order path_co new_pi_init = [0, 2]) ∧
    ((∃ r, pi_find_simplicials path_co new_pi_init = some r) ∧
    (∃ r', find_while path_co (path_co.chordal_env.if_nodes.length + 1) new_pi_init = some r' ∧
      find_while path_co 10 new_pi_init = some r') ∧
    find_while_passes path_co 10 new_pi_init ≤ path_co.chordal_env.if_nodes.length + 1 ∧
    (∀ pi', (find_pass path_co path_co.chordal_env.if_nodes pi' false).2 = true →
      ∃ n ∈ path_co.chordal_env.if_nodes, is_removed pi' (ptr_t.ir_node n) = false ∧
        is_removed (find_pass path_co path_co.chordal_env.if_nodes pi' false).1
          (ptr_t.ir_node n) = true) ∧
    (removal_order path_co new_pi_init).Nodup) :=
  ⟨⟨by decide, by decide, by decide⟩, reducer_terminates path_co new_pi_init 10 (by decide)⟩

/-! ## The constraints A: the shape of the rows and columns -/

theorem x_vars_plain_colors (n : Nat) (cst_idx : Int) :
    ∀ (cs : List Nat) (pi pi' : problem_instance_t), constr_A_colors n cst_idx cs pi = some pi' →
      x_vars_plain pi.curr_lp → x_vars_plain pi'.curr_lp := by
  intro cs
  induction cs with
  | nil =>
    intro pi pi' h hP
    simp only [constr_A_colors, Option.some.injEq] at h
    subst h; exact hP
  | cons c rest ih =>
    intro pi pi' h hP
    simp only [constr_A_colors] at h
    obtain ⟨k, _, _, _, _, hcase⟩ := lpp_add_var_spec pi.curr_lp
      (mangle_var 'x' (n : Int) (c : Int)) lpp_var_t.lpp_binary 0
    cases hset : lpp_set_factor_fast
        (lpp_add_var pi.curr_lp (mangle_var 'x' (n : Int) (c : Int)) lpp_var_t.lpp_binary 0).1
        cst_idx
        (lpp_add_var pi.curr_lp (mangle_var 'x' (n : Int) (c : Int)) lpp_var_t.lpp_binary 0).2
        1 with
    | none => rw [hset] at h; cases h
    | some lp2 =>
      rw [hset] at h
      apply ih _ _ h
      show x_vars_plain lp2
      intro v hv
      rw [(lpp_set_factor_fast_spec hset).1] at hv
      rcases hcase with ⟨_, _, hvars⟩ | ⟨_, _, hvars⟩
      · rw [hvars, List.mem_append, List.mem_singleton] at hv
        rcases hv with hv | rfl
        · exact hP v hv
        · exact ⟨rfl, rfl⟩
      · rw [hvars] at hv
        exact hP v hv

theorem x_vars_plain_border (co : copy_opt_t) (pi pi' : problem_instance_t) (b : border_t)
    (h : constr_A_border co pi b = some pi') (hP : x_vars_plain pi.curr_lp) :
    x_vars_plain pi'.curr_lp := by
  unfold constr_A_border at h
  split_ifs at h with hc
  · refine x_vars_plain_colors _ _ _ _ _ h ?_
    intro v hv
    have hvars := (lpp_add_cst_spec pi.curr_lp (mangle_cst 'A' (b.irn : Int))
      lpp_cst_t.lpp_equal 1).choose_spec.2.2.1
    apply hP v
    rw [← hvars]
    exact hv
  · simp only [Option.some.injEq] at h
    subst h; exact hP

theorem x_vars_plain_borders (co : copy_opt_t) :
    ∀ (l : List border_t) (pi pi' : problem_instance_t), constr_A_borders co l pi = some pi' →
      x_vars_plain pi.curr_lp → x_vars_plain pi'.curr_lp := by
  intro l
  induction l with
  | nil =>
    intro pi pi' h hP
    simp only [constr_A_borders, Option.some.injEq] at h
    subst h; exact hP
  | cons b rest ih =>
    intro pi pi' h hP
    simp only [constr_A_borders] at h
    cases hb : constr_A_border co pi b with
    | none => rw [hb] at h; cases h
    | some pi1 =>
      rw [hb] at h
      exact ih _ _ h (x_vars_plain_border co pi pi1 b hb hP)

theorem vars_of_names {lp : lpp_t} (h : x_vars_plain lp) :
    lp.vars = (var_names lp).map (fun nm => lpp_var.mk nm lpp_var_t.lpp_binary 0) := by
  unfold var_names
  rw [List.map_map]
  conv_lhs => rw [← List.map_id lp.vars]
  apply List.map_congr_left
  intro v hv
  obtain ⟨h1, h2⟩ := h v hv
  cases v
  simp only [Function.comp_apply, id_eq] at h1 h2 ⊢
  subst h1; subst h2; rfl

/-- C14. The constraints A. Let `r` be the record of the reducer, the numbers
in the range of `int`, and no value outside the removed set with two real
definitions among the borders. Then `pi_add_constr_A` returns, and with
`nodes` the values that have a real definition border and are outside the
removed set, in the order of the sweep:
* the rows of the problem are, one for each of these nodes and for nothing
  else, the equations `A<n>` with right-hand side 1;
* the columns are, for each of these nodes and each of its allocatable colors,
  the binary variable `x<n>_<c>` with the factor 0 in the objective function;
* in the row of the node `n` the factor of a column is 1 when the column is
  `x<n>_<c>` for an allocatable color `c` of `n`, and 0 otherwise. -/
theorem constr_A_shape (co : copy_opt_t) (hrange : int_range co)
    (r : problem_instance_t) (hr : pi_find_simplicials co new_pi_init = some r)
    (hnd : (constr_A_nodes r.removed (flat_borders co)).Nodup) :
    ∃ piA, pi_add_constr_A co r = some piA ∧
      (∀ n, n ∈ constr_A_nodes r.removed (flat_borders co) ↔
        ∃ b ∈ flat_borders co, b.is_def = true ∧ b.is_real = true ∧
          is_removed r (ptr_t.ir_node b.irn) = false ∧ b.irn = n) ∧
      piA.curr_lp.csts = (constr_A_nodes r.removed (flat_borders co)).map
        (fun n : Nat => lpp_cst.mk (mangle_cst 'A' (n : Int)) lpp_cst_t.lpp_equal 1) ∧
      piA.curr_lp.vars = (constr_A_nodes r.removed (flat_borders co)).flatMap
        (fun n : Nat => (allocatable_regs co n).map
          (fun c : Nat => lpp_var.mk (mangle_var 'x' (n : Int) (c : Int)) lpp_var_t.lpp_binary 0)) ∧
      (∀ (i n : Nat), (constr_A_nodes r.removed (flat_borders co)).get? i = some n →
        ∀ k : Nat, k < piA.curr_lp.vars.length →
          lpp_get_factor piA.curr_lp ((i : Int) + 1) ((k : Int) + 1) =
            if ∃ c ∈ allocatable_regs co n,
                (var_names piA.curr_lp).get? k = some (mangle_var 'x' (n : Int) (c : Int))
            then 1 else 0) := by
  obtain ⟨r', hr', hlp, hlast, _⟩ := reducer_keeps_problem co
  have : r' = r := Option.some.inj (hr'.symm.trans hr)
  subst this
  obtain ⟨piA, hA, hst⟩ := pi_add_constr_A_spec co hrange r' hlp hlast hnd
  have hplain : x_vars_plain piA.curr_lp := by
    rw [pi_add_constr_A_eq] at hA
    refine x_vars_plain_borders co _ _ _ hA ?_
    rw [hlp]
    intro v hv
    cases hv
  have hone : ∀ e ∈ piA.curr_lp.matrix, e.2.2 = 1 := by
    intro e he
    obtain ⟨i, k, p, c, rfl, _⟩ := (hst.built.matrix e).1 he
    rfl
  refine ⟨piA, hA, fun n => mem_constr_A_nodes, ?_, ?_, ?_⟩
  · rw [hst.built.csts, mk_done, List.map_map]
    rfl
  · rw [vars_of_names hplain, hst.built.vars, mk_done]
    simp [List.flatMap, List.map_flatten, List.map_map, Function.comp_def]
  · intro i n hi k hk
    have hdone : (mk_done co (constr_A_nodes r'.removed (flat_borders co))).get? i =
        some (n, allocatable_regs co n) := by
      simp only [mk_done, List.get?_eq_getElem?, List.getElem?_map] at hi ⊢
      rw [hi]; rfl
    split_ifs with hcond
    · obtain ⟨c, hc, hname⟩ := hcond
      apply lpp_get_factor_of_mem hone
      exact (hst.built.matrix _).2 ⟨i, k, (n, allocatable_regs co n), c, rfl, hdone, hc, hname⟩
    · apply lpp_get_factor_of_not_mem
      intro v hv
      obtain ⟨i', k', p, c, he, hp, hc, hname⟩ := (hst.built.matrix _).1 hv
      simp only [Prod.mk.injEq] at he
      have hi' : i' = i := by omega
      have hk' : k' = k := by omega
      subst hi'; subst hk'
      rw [hdone] at hp
      cases hp
      exact hcond ⟨c, hc, hname⟩

set_option maxRecDepth 100000 in
/-- Witness of C14 on the 4-cycle with two registers: four rows, one for each
node, each with the factor 1 in the two columns of its node. -/
theorem constr_A_shape_witness :
    (pi_find_simplicials cycle_co new_pi_init = some cycle_r ∧ int_range cycle_co ∧
      (constr_A_nodes cycle_r.removed (flat_borders cycle_co)).Nodup ∧
      constr_A_nodes cycle_r.removed (flat_borders cycle_co) = [0, 1, 2, 3] ∧
      (pi_add_constr_A cycle_co cycle_r).map (fun pi =>
        (List.range 4).map (fun i : Nat => (List.range 8).map (fun k : Nat =>
          lpp_get_factor pi.curr_lp ((i : Int) + 1) ((k : Int) + 1)))) =
        some [[1, 1, 0, 0, 0, 0, 0, 0], [0, 0, 1, 1, 0, 0, 0, 0],
          [0, 0, 0, 0, 1, 1, 0, 0], [0, 0, 0, 0, 0, 0, 1, 1]]) ∧
    ∃ piA, pi_add_constr_A cycle_co cycle_r = some piA ∧
      (∀ n, n ∈ constr_A_nodes cycle_r.removed (flat_borders cycle_co) ↔
        ∃ b ∈ flat_borders cycle_co, b.is_def = true ∧ b.is_real = true ∧
          is_removed cycle_r (ptr_t.ir_node b.irn) = false ∧ b.irn = n) ∧
      piA.curr_lp.csts = (constr_A_nodes cycle_r.removed (flat_borders cycle_co)).map
        (fun n : Nat => lpp_cst.mk (mangle_cst 'A' (n : Int)) lpp_cst_t.lpp_equal 1) ∧
      piA.curr_lp.vars = (constr_A_nodes cycle_r.removed (flat_borders cycle_co)).flatMap
        (fun n : Nat => (allocatable_regs cycle_co n).map
          (fun c : Nat => lpp_var.mk (mangle_var 'x' (n : Int) (c : Int)) lpp_var_t.lpp_binary 0)) ∧
      (∀ (i n : Nat), (constr_A_nodes cycle_r.removed (flat_borders cycle_co)).get? i = some n →
        ∀ k : Nat, k < piA.curr_lp.vars.length →
          lpp_get_factor piA.curr_lp ((i : Int) + 1) ((k : Int) + 1) =
            if ∃ c ∈ allocatable_regs cycle_co n,
                (var_names piA.curr_lp).get? k = some (mangle_var 'x' (n : Int) (c : Int))
            then 1 else 0) :=
  ⟨⟨by decide, by decide, by decide, by decide, by decide⟩,
    constr_A_shape cycle_co (by decide) cycle_r (by decide) (by decide)⟩

/-! ## The constraints B: the shape of the rows -/

theorem lpp_get_var_idx_congr {lp lp' : lpp_t} (h : lp'.vars = lp.vars) (name : List Char) :
    lpp_get_var_idx lp' name = lpp_get_var_idx lp name := by
  unfold lpp_get_var_idx
  rw [h]

theorem lpp_get_var_idx_range (lp : lpp_t) (name : List Char) :
    lpp_get_var_idx lp name = -1 ∨
      (1 ≤ lpp_get_var_idx lp name ∧ lpp_get_var_idx lp name ≤ lp.vars.length) := by
  by_cases h : lpp_get_var_idx lp name = -1
  · exact Or.inl h
  · obtain ⟨k, hk, hidx, _⟩ := lpp_get_var_idx_ne_neg_one h
    right
    rw [hidx]
    constructor <;> omega

/-- The factor of a column in a row is not changed by writes into other rows. -/
theorem lpp_get_factor_other_rows {lp lp' : lpp_t} {em : List (Int × Int × Int)}
    (hm : lp'.matrix = em ++ lp.matrix) {r : Int} (hem : ∀ e ∈ em, e.1 ≠ r) (j : Int) :
    lpp_get_factor lp' r j = lpp_get_factor lp r j := by
  unfold lpp_get_factor
  rw [hm, List.find?_append]
  have : em.find? (fun e => decide (e.1 = r) && decide (e.2.1 = j)) = none := by
    rw [List.find?_eq_none]
    intro e he
    simp [hem e he]
  rw [this]
  rfl

/-- The factor of a column in a row that holds only the writes `em`, all of the
value `v`. -/
theorem lpp_get_factor_new_row {lp : lpp_t} {em rest : List (Int × Int × Int)}
    (hm : lp.matrix = em ++ rest) {r : Int} (hrest : ∀ e ∈ rest, e.1 ≠ r)
    {v : Int} (hem : ∀ e ∈ em, e.1 = r ∧ e.2.2 = v) (j : Int) :
    lpp_get_factor lp r j = if ∃ e ∈ em, e.2.1 = j then v else 0 := by
  split_ifs with hc
  · obtain ⟨e, he, hej⟩ := hc
    unfold lpp_get_factor
    cases hf : lp.matrix.find? (fun e => decide (e.1 = r) && decide (e.2.1 = j)) with
    | none =>
      rw [List.find?_eq_none] at hf
      have := hf e (by rw [hm]; exact List.mem_append_left _ he)
      simp [(hem e he).1, hej] at this
    | some e' =>
      have hmem := List.mem_of_find?_eq_some hf
      have hp := List.find?_some hf
      simp only [Bool.and_eq_true, decide_eq_true_eq] at hp
      rw [hm] at hmem
      rcases List.mem_append.1 hmem with h | h
      · exact (hem e' h).2
      · exact absurd hp.1 (hrest e' h)
  · apply lpp_get_factor_of_not_mem
    intro w hw
    rw [hm] at hw
    rcases List.mem_append.1 hw with h | h
    · exact hc ⟨_, h, rfl⟩
    · exact hrest _ h rfl

/-- The loop that fills a row of `pi_add_constr_B`: the writes it makes. -/
theorem constr_B_row_exact (color : Nat) (r : Int) :
    ∀ (L : List Nat) (lp lp' : lpp_t), constr_B_row color r L lp = some lp' →
      lp'.vars = lp.vars ∧ lp'.csts = lp.csts ∧
      lp'.matrix = (L.map (fun n : Nat =>
        (r, lpp_get_var_idx lp (mangle_var 'x' (n : Int) (color : Int)), (1 : Int)))).reverse ++
          lp.matrix ∧
      ∀ n ∈ L, 1 ≤ lpp_get_var_idx lp (mangle_var 'x' (n : Int) (color : Int)) ∧
        lpp_get_var_idx lp (mangle_var 'x' (n : Int) (color : Int)) ≤ lp.vars.length := by
  intro L
  induction L with
  | nil =>
    intro lp lp' h
    simp only [constr_B_row, Option.some.injEq] at h
    subst h
    exact ⟨rfl, rfl, by simp, fun n hn => absurd hn (List.not_mem_nil n)⟩
  | cons n rest ih =>
    intro lp lp' h
    simp only [constr_B_row] at h
    cases hset : lpp_set_factor_fast lp r
        (lpp_get_var_idx lp (mangle_var 'x' (n : Int) (color : Int))) 1 with
    | none => rw [hset] at h; cases h
    | some lp1 =>
      rw [hset] at h
      obtain ⟨hv1, hc1, hm1, _, _, hk0, hk1⟩ := lpp_set_factor_fast_spec hset
      obtain ⟨hv, hc, hm, hidx⟩ := ih lp1 lp' h
      have hsame : ∀ name, lpp_get_var_idx lp1 name = lpp_get_var_idx lp name :=
        lpp_get_var_idx_congr hv1
      refine ⟨hv.trans hv1, hc.trans hc1, ?_, ?_⟩
      · rw [hm, hm1]
        simp only [hsame, List.map_cons, List.reverse_cons, List.append_assoc,
          List.singleton_append]
      · intro m hm'
        rcases List.mem_cons.1 hm' with rfl | hm'
        · rcases lpp_get_var_idx_range lp (mangle_var 'x' (m : Int) (color : Int)) with h1 | h1
          · rw [h1] at hk0; omega
          · exact h1
        · have := hidx m hm'
          rw [hsame, hv1] at this
          exact this

/-- Adding a constraint B under a name that no row has yet: a row "at most 1" is
added after the rows there are, and the factor 1 is written in it for the
column `x<n>_<color>` of every member of the living set. -/
theorem constr_B_emit_exact {color : Nat} {st st' : sweep_t}
    (hfresh : mangle_cst 'B' st.pi.cst_counter ∉ cst_names st.pi.curr_lp)
    (h : constr_B_emit color st = some st') :
    st'.living = st.living ∧ st'.phase = st.phase ∧ st'.emitted = st.living :: st.emitted ∧
    st'.pi.removed = st.pi.removed ∧ st'.pi.last_x_var = st.pi.last_x_var ∧
    st'.pi.cst_counter = st.pi.cst_counter + 1 ∧
    st'.pi.curr_lp.vars = st.pi.curr_lp.vars ∧
    st'.pi.curr_lp.csts = st.pi.curr_lp.csts ++
      [lpp_cst.mk (mangle_cst 'B' st.pi.cst_counter) lpp_cst_t.lpp_less 1] ∧
    st'.pi.curr_lp.matrix = (st.living.map (fun n : Nat =>
        ((st.pi.curr_lp.csts.length : Int) + 1,
          lpp_get_var_idx st.pi.curr_lp (mangle_var 'x' (n : Int) (color : Int)),
          (1 : Int)))).reverse ++ st.pi.curr_lp.matrix ∧
    ∀ n ∈ st.living,
      1 ≤ lpp_get_var_idx st.pi.curr_lp (mangle_var 'x' (n : Int) (color : Int)) ∧
      lpp_get_var_idx st.pi.curr_lp (mangle_var 'x' (n : Int) (color : Int)) ≤
        st.pi.curr_lp.vars.length := by
  unfold constr_B_emit at h
  obtain ⟨k, hk1, _, hvars, hmat, hcase⟩ := lpp_add_cst_spec st.pi.curr_lp
    (mangle_cst 'B' st.pi.cst_counter) lpp_cst_t.lpp_less 1
  rcases hcase with ⟨_, hk, hcsts⟩ | ⟨hin, _, _⟩
  swap
  · exact absurd hin hfresh
  simp only at h
  cases hrow : constr_B_row color
      (lpp_add_cst st.pi.curr_lp (mangle_cst 'B' st.pi.cst_counter) lpp_cst_t.lpp_less 1).2
      st.living
      (lpp_add_cst st.pi.curr_lp (mangle_cst 'B' st.pi.cst_counter) lpp_cst_t.lpp_less 1).1 with
  | none => rw [hrow] at h; cases h
  | some lp2 =>
    rw [hrow] at h
    simp only [Option.some.injEq] at h
    subst h
    obtain ⟨hv2, hc2, hm2, hidx⟩ := constr_B_row_exact color _ _ _ _ hrow
    have hsame : ∀ name, lpp_get_var_idx
        (lpp_add_cst st.pi.curr_lp (mangle_cst 'B' st.pi.cst_counter) lpp_cst_t.lpp_less 1).1 name =
        lpp_get_var_idx st.pi.curr_lp name := lpp_get_var_idx_congr hvars
    refine ⟨rfl, rfl, rfl, rfl, rfl, rfl, hv2.trans hvars, hc2.trans hcsts, ?_, ?_⟩
    · show lp2.matrix = _
      rw [hm2, hmat, hk1, hk]
      simp only [hsame]
    · intro n hn
      have := hidx n hn
      rw [hsame, hvars] at this
      exact this

theorem b_lp_shape_emit {pi0 : problem_instance_t} {color : Nat} {st st1 : sweep_t}
    (h0 : 0 ≤ pi0.cst_counter)
    (hfresh0 : ∀ k : Int, pi0.cst_counter ≤ k → k < 2 ^ 31 →
      mangle_cst 'B' k ∉ cst_names pi0.curr_lp)
    (hP : b_lp_shape pi0 color st.pi st.emitted)
    (hbound : pi0.cst_counter + (st.emitted.length : Int) < 2 ^ 31)
    (h : constr_B_emit color st = some st1) :
    b_lp_shape pi0 color st1.pi (st.living :: st.emitted) ∧
    st1.living = st.living ∧ st1.phase = st.phase ∧ st1.emitted = st.living :: st.emitted := by
  have hfresh : mangle_cst 'B' st.pi.cst_counter ∉ cst_names st.pi.curr_lp := by
    rw [hP.counter]
    simp only [cst_names, hP.csts, List.map_append, List.map_map, List.mem_append, not_or]
    refine ⟨hfresh0 _ (by omega) hbound, ?_⟩
    simp only [List.mem_map, List.mem_range, Function.comp_apply, not_exists, not_and]
    intro i hi heq
    have := (@mangle_cst_inj 'B' 'B' (pi0.cst_counter + (i : Int))
      (pi0.cst_counter + (st.emitted.length : Int))
      ⟨by omega, by omega⟩ ⟨by omega, by omega⟩ heq).2
    omega
  obtain ⟨hl, hph, hem, hrem, hlast, hcnt, hvars, hcsts, hmat, hidx⟩ :=
    constr_B_emit_exact hfresh h
  have hsame : ∀ name, lpp_get_var_idx st.pi.curr_lp name = lpp_get_var_idx pi0.curr_lp name :=
    lpp_get_var_idx_congr hP.vars
  have hlen : st.pi.curr_lp.csts.length = pi0.curr_lp.csts.length + st.emitted.length := by
    rw [hP.csts]; simp
  refine ⟨⟨hrem.trans hP.removed, hlast.trans hP.last, ?_, hvars.trans hP.vars, ?_, ?_, ?_, ?_⟩,
    hl, hph, hem⟩
  · rw [hcnt, hP.counter]; simp only [List.length_cons]; push_cast; ring
  · rw [hcsts, hP.csts, hP.counter, List.append_assoc]
    simp only [List.length_cons, List.range_succ, List.map_append, List.map_cons, List.map_nil]
  · intro e he
    rw [hcsts, List.length_append, List.length_singleton]
    rw [hmat] at he
    rcases List.mem_append.1 he with he | he
    · simp only [List.mem_reverse, List.mem_map] at he
      obtain ⟨n, _, rfl⟩ := he
      simp
    · have := hP.rows_le e he
      push_cast
      omega
  · intro i L hi j
    simp only [List.reverse_cons] at hi
    rw [List.get?_eq_getElem?] at hi
    by_cases hlt : i < st.emitted.reverse.length
    · rw [List.getElem?_append_left hlt, ← List.get?_eq_getElem?] at hi
      rw [← hP.factors i L hi j]
      apply lpp_get_factor_other_rows hmat
      intro e he
      simp only [List.mem_reverse, List.mem_map] at he
      obtain ⟨n, _, rfl⟩ := he
      simp only [ne_eq]
      rw [hlen]
      simp only [List.length_reverse] at hlt
      push_cast
      omega
    · push_neg at hlt
      rw [List.getElem?_append_right hlt] at hi
      have hi0 : i - st.emitted.reverse.length = 0 := by
        by_contra hne
        rw [List.getElem?_eq_none (by simp only [List.length_singleton]; omega)] at hi
        cases hi
      rw [hi0] at hi
      simp only [List.getElem?_cons_zero, Option.some.injEq] at hi
      subst hi
      have hi' : i = st.emitted.length := by
        simp only [List.length_reverse] at hlt hi0
        omega
      subst hi'
      have hrow : (pi0.curr_lp.csts.length : Int) + (st.emitted.length : Int) + 1 =
          (st.pi.curr_lp.csts.length : Int) + 1 := by rw [hlen]; push_cast; ring
      rw [hrow, lpp_get_factor_new_row hmat (v := 1)]
      · apply if_congr _ rfl rfl
        constructor
        · rintro ⟨e, he, hej⟩
          simp only [List.mem_reverse, List.mem_map] at he
          obtain ⟨n, hn, rfl⟩ := he
          exact ⟨n, hn, by rw [← hsame]; exact hej⟩
        · rintro ⟨n, hn, hnj⟩
          refine ⟨_, List.mem_reverse.2 (List.mem_map.2 ⟨n, hn, rfl⟩), ?_⟩
          simp only
          rw [hsame]; exact hnj
      · intro e he
        have := hP.rows_le e he
        omega
      · intro e he
        simp only [List.mem_reverse, List.mem_map] at he
        obtain ⟨n, _, rfl⟩ := he
        exact ⟨rfl, rfl⟩
  · intro L hL n hn
    rcases List.mem_cons.1 hL with rfl | hL
    · have := hidx n hn
      rw [hsame, hP.vars] at this
      exact this
    · exact hP.cols L hL n hn

theorem constr_B_events_snoc {co : copy_opt_t} {color : Nat} {l1 : List (Nat × border_t)}
    {e : Nat × border_t} {s0 st st' : sweep_t}
    (hrun : constr_B_events co color l1 s0 = some st)
    (h : constr_B_border co color e.1 st e.2 = some st') :
    constr_B_events co color (l1 ++ [e]) s0 = some st' := by
  rw [constr_B_events_append, hrun]
  simp [constr_B_events, h]

/-- One border keeps the shape of the state of the sweep. -/
theorem b_shape_border {co : copy_opt_t} {pi0 : problem_instance_t} {color : Nat}
    {all l1 rest : List (Nat × border_t)} {e : Nat × border_t} {st st' : sweep_t}
    (h0 : 0 ≤ pi0.cst_counter)
    (hfresh0 : ∀ k : Int, pi0.cst_counter ≤ k → k < 2 ^ 31 →
      mangle_cst 'B' k ∉ cst_names pi0.curr_lp)
    (hbound : pi0.cst_counter + (all.length : Int) ≤ 2 ^ 31)
    (hall : all = l1 ++ e :: rest)
    (hP : b_shape co pi0 color all l1 st)
    (h : constr_B_border co color e.1 st e.2 = some st') :
    b_shape co pi0 color all (l1 ++ [e]) st' := by
  have hrun := constr_B_events_snoc hP.run h
  have hcount : st.emitted.length ≤ (l1 ++ [e]).length := by
    rw [List.length_append]; exact Nat.le_succ_of_le hP.count
  rcases constr_B_border_cases h with ⟨_, rfl⟩ | ⟨hp, _, rfl⟩ | ⟨hp, hd, st1, hst1, rfl⟩
  · exact ⟨hrun, hP.lp, hcount, hP.living, hP.sets⟩
  · rw [hP.lp.removed] at hp
    refine ⟨hrun, hP.lp, hcount, ?_, hP.sets⟩
    intro n hn
    rcases (mem_pset_insert_ptr _ _ _).1 hn with hn | rfl
    · exact hP.living n hn
    · exact hp
  · rw [hP.lp.removed] at hp
    by_cases hc : st.phase = phase_t.growing ∧ 2 ≤ pset_count st.living ∧
        all_live_in co e.1 st.living = false
    · rw [if_pos hc] at hst1
      have hlen : l1.length < all.length := by
        rw [hall, List.length_append, List.length_cons]; omega
      have hb : pi0.cst_counter + (st.emitted.length : Int) < 2 ^ 31 := by
        have := hP.count
        omega
      obtain ⟨hlp, hl, _, hem⟩ := b_lp_shape_emit h0 hfresh0 hP.lp hb hst1
      refine ⟨hrun, ?_, ?_, ?_, ?_⟩
      · show b_lp_shape pi0 color st1.pi st1.emitted
        rw [hem]; exact hlp
      · show st1.emitted.length ≤ (l1 ++ [e]).length
        rw [hem, List.length_append, List.length_cons, List.length_singleton]
        exact Nat.succ_le_succ hP.count
      · intro n hn
        have hn' : n ∈ pset_remove_ptr st1.living e.2.irn := hn
        rw [hl] at hn'
        exact hP.living n ((mem_pset_remove_ptr _ _ _).1 hn').1
      · intro L hL
        have hL' : L ∈ st.living :: st.emitted := by rw [← hem]; exact hL
        rcases List.mem_cons.1 hL' with rfl | hL'
        · exact ⟨hc.2.1, hP.living, l1, e, rest, st, hall, hP.run, rfl, hc.1, hd, hp, hc.2.2⟩
        · exact hP.sets L hL'
    · rw [if_neg hc] at hst1
      simp only [Option.some.injEq] at hst1
      subst hst1
      refine ⟨hrun, hP.lp, hcount, ?_, hP.sets⟩
      intro n hn
      exact hP.living n ((mem_pset_remove_ptr _ _ _).1 hn).1

/-- The shape of the state after the sweep of `pi_add_constr_B` for one
color. -/
theorem constr_B_sweep_shape {co : copy_opt_t} {pi : problem_instance_t} {color : Nat}
    {st : sweep_t}
    (h0 : 0 ≤ pi.cst_counter)
    (hfresh0 : ∀ k : Int, pi.cst_counter ≤ k → k < 2 ^ 31 →
      mangle_cst 'B' k ∉ cst_names pi.curr_lp)
    (hrows : ∀ e ∈ pi.curr_lp.matrix, e.1 ≤ (pi.curr_lp.csts.length : Int))
    (hbound : pi.cst_counter + ((border_events co).length : Int) ≤ 2 ^ 31)
    (h : constr_B_sweep co pi color = some st) :
    b_shape co pi color (border_events co) (border_events co) st :=
  constr_B_events_ind co color (b_shape co pi color (border_events co)) (border_events co)
    (fun _ _ _ _ _ hall hP hb => b_shape_border h0 hfresh0 hbound hall hP hb)
    (border_events co) [] { pi := pi } st rfl
    ⟨rfl, ⟨rfl, rfl, by simp, rfl, by simp, hrows,
        fun i L hi => by simp at hi,
        fun L hL => absurd hL (List.not_mem_nil L)⟩,
      le_refl _, fun n hn => absurd hn (List.not_mem_nil n),
      fun L hL => absurd hL (List.not_mem_nil L)⟩
    (constr_B_sweep_eq h)

/-- C15. The shape of the constraints B. Let the sweep `pi_add_constr_B (pi,
color)` return; let the counter `cst_counter` be non-negative and stay in the
range of `int`, no row of the problem on entry have a name `B<k>` the sweep can
make, and every factor of the problem on entry stand in one of its rows. Then
the sweep leaves the columns as they are and adds one row for each living set
it stored (`emitted`, the latest first), after the rows there were and in the
order of the sweep. Each of these rows is of type "at most" with right-hand
side 1; its factor is 1 in the column `x<n>_<color>` of every member `n` of the
set, which exists, and 0 in every other column; the set has at least two
members, none of them removed and all of them with `color` allocatable; and it
was the living set, in the phase `growing`, when the sweep came to a use in a
block into which not all of its members are live in. -/
theorem constr_B_shape (co : copy_opt_t) (pi : problem_instance_t) (color : Nat) (st : sweep_t)
    (h0 : 0 ≤ pi.cst_counter)
    (hfresh0 : ∀ k : Int, pi.cst_counter ≤ k → k < 2 ^ 31 →
      mangle_cst 'B' k ∉ cst_names pi.curr_lp)
    (hrows : ∀ e ∈ pi.curr_lp.matrix, e.1 ≤ (pi.curr_lp.csts.length : Int))
    (hbound : pi.cst_counter + ((border_events co).length : Int) ≤ 2 ^ 31)
    (h : constr_B_sweep co pi color = some st) :
    st.pi.curr_lp.vars = pi.curr_lp.vars ∧
    st.pi.curr_lp.csts = pi.curr_lp.csts ++ (List.range st.emitted.length).map
      (fun i : Nat =>
        lpp_cst.mk (mangle_cst 'B' (pi.cst_counter + (i : Int))) lpp_cst_t.lpp_less 1) ∧
    (∀ (i : Nat) (L : List Nat), st.emitted.reverse.get? i = some L →
      (∀ j : Int,
        lpp_get_factor st.pi.curr_lp ((pi.curr_lp.csts.length : Int) + (i : Int) + 1) j =
          if ∃ n ∈ L, lpp_get_var_idx st.pi.curr_lp (mangle_var 'x' (n : Int) (color : Int)) = j
          then 1 else 0) ∧
      (∀ n ∈ L,
        1 ≤ lpp_get_var_idx st.pi.curr_lp (mangle_var 'x' (n : Int) (color : Int)) ∧
        lpp_get_var_idx st.pi.curr_lp (mangle_var 'x' (n : Int) (color : Int)) ≤
          (st.pi.curr_lp.vars.length : Int)) ∧
      2 ≤ L.length ∧
      (∀ n ∈ L, is_removed pi (ptr_t.ir_node n) = false ∧ co.allocatable n color = true) ∧
      ∃ (p : List (Nat × border_t)) (e : Nat × border_t) (q : List (Nat × border_t))
        (stp : sweep_t),
        border_events co = p ++ e :: q ∧
        constr_B_events co color p { pi := pi } = some stp ∧
        stp.living = L ∧ stp.phase = phase_t.growing ∧ e.2.is_def = false ∧
        all_live_in co e.1 L = false) := by
  have hS := constr_B_sweep_shape h0 hfresh0 hrows hbound h
  have hsame : ∀ name, lpp_get_var_idx st.pi.curr_lp name = lpp_get_var_idx pi.curr_lp name :=
    lpp_get_var_idx_congr hS.lp.vars
  refine ⟨hS.lp.vars, hS.lp.csts, ?_⟩
  intro i L hi
  have hL : L ∈ st.emitted := List.mem_reverse.1 (List.get?_mem hi)
  obtain ⟨h2, hpass, p, e, q, stp, hsplit, hrun, hliv, hph, hd, _, hlive⟩ := hS.sets L hL
  refine ⟨?_, ?_, h2, hpass, p, e, q, stp, hsplit, hrun, hliv, hph, hd, hlive⟩
  · intro j
    rw [hS.lp.factors i L hi j]
    simp only [hsame]
  · intro n hn
    rw [hsame, hS.lp.vars]
    exact hS.lp.cols L hL n hn

set_option maxRecDepth 100000 in
theorem cycle_pi_B0_fresh : ∀ k : Int, cycle_pi_B0.cst_counter ≤ k → k < 2 ^ 31 →
    mangle_cst 'B' k ∉ cst_names cycle_pi_B0.curr_lp := by
  intro k hk1 hk2 hmem
  have hc : cycle_pi_B0.cst_counter = 3 := by decide
  rw [hc] at hk1
  have hn : cst_names cycle_pi_B0.curr_lp =
      [mangle_cst 'A' 0, mangle_cst 'A' 1, mangle_cst 'A' 2, mangle_cst 'A' 3,
        mangle_cst 'B' 0, mangle_cst 'B' 1, mangle_cst 'B' 2] := by decide
  rw [hn] at hmem
  have key : ∀ (p : Char) (n : Int), -2 ^ 31 ≤ n ∧ n < 2 ^ 31 →
      mangle_cst 'B' k = mangle_cst p n → 'B' = p ∧ k = n :=
    fun p n hn h => mangle_cst_inj ⟨by omega, hk2⟩ hn h
  simp only [List.mem_cons, List.mem_nil_iff, or_false] at hmem
  rcases hmem with h | h | h | h | h | h | h
  · exact absurd (key _ _ (by norm_num) h).1 (by decide)
  · exact absurd (key _ _ (by norm_num) h).1 (by decide)
  · exact absurd (key _ _ (by norm_num) h).1 (by decide)
  · exact absurd (key _ _ (by norm_num) h).1 (by decide)
  · have := (key _ _ (by norm_num) h).2; omega
  · have := (key _ _ (by norm_num) h).2; omega
  · have := (key _ _ (by norm_num) h).2; omega

set_option maxRecDepth 100000 in
theorem cycle_st_B1_eq : constr_B_sweep cycle_co cycle_pi_B0 1 = some cycle_st_B1 := by
  rfl

set_option maxRecDepth 100000 in
/-- Witness of C15 on the 4-cycle with two registers, for the sweep of color 1
that follows the constraints A and the sweep of color 0: the rows `B3`, `B4`,
`B5` are added, for the living sets {0, 1}, {1, 2}, {2, 3} in this order. -/
theorem constr_B_shape_witness :
    (0 ≤ cycle_pi_B0.cst_counter ∧
      (∀ k : Int, cycle_pi_B0.cst_counter ≤ k → k < 2 ^ 31 →
        mangle_cst 'B' k ∉ cst_names cycle_pi_B0.curr_lp) ∧
      (∀ e ∈ cycle_pi_B0.curr_lp.matrix, e.1 ≤ (cycle_pi_B0.curr_lp.csts.length : Int)) ∧
      cycle_pi_B0.cst_counter + ((border_events cycle_co).length : Int) ≤ 2 ^ 31 ∧
      constr_B_sweep cycle_co cycle_pi_B0 1 = some cycle_st_B1 ∧
      cycle_st_B1.emitted = [[3, 2], [2, 1], [1, 0]] ∧
      cycle_pi_B0.curr_lp.csts.length = 7) ∧
    (cycle_st_B1.pi.curr_lp.vars = cycle_pi_B0.curr_lp.vars ∧
    cycle_st_B1.pi.curr_lp.csts = cycle_pi_B0.curr_lp.csts ++
      (List.range cycle_st_B1.emitted.length).map
      (fun i : Nat =>
        lpp_cst.mk (mangle_cst 'B' (cycle_pi_B0.cst_counter + (i : Int))) lpp_cst_t.lpp_less 1) ∧
    (∀ (i : Nat) (L : List Nat), cycle_st_B1.emitted.reverse.get? i = some L →
      (∀ j : Int,
        lpp_get_factor cycle_st_B1.pi.curr_lp
            ((cycle_pi_B0.curr_lp.csts.length : Int) + (i : Int) + 1) j =
          if ∃ n ∈ L,
            lpp_get_var_idx cycle_st_B1.pi.curr_lp (mangle_var 'x' (n : Int) ((1 : Nat) : Int)) = j
          then 1 else 0) ∧
      (∀ n ∈ L,
        1 ≤ lpp_get_var_idx cycle_st_B1.pi.curr_lp (mangle_var 'x' (n : Int) ((1 : Nat) : Int)) ∧
        lpp_get_var_idx cycle_st_B1.pi.curr_lp (mangle_var 'x' (n : Int) ((1 : Nat) : Int)) ≤
          (cycle_st_B1.pi.curr_lp.vars.length : Int)) ∧
      2 ≤ L.length ∧
      (∀ n ∈ L, is_removed cycle_pi_B0 (ptr_t.ir_node n) = false ∧
        cycle_co.allocatable n 1 = true) ∧
      ∃ (p : List (Nat × border_t)) (e : Nat × border_t) (q : List (Nat × border_t))
        (stp : sweep_t),
        border_events cycle_co = p ++ e :: q ∧
        constr_B_events cycle_co 1 p { pi := cycle_pi_B0 } = some stp ∧
        stp.living = L ∧ stp.phase = phase_t.growing ∧ e.2.is_def = false ∧
        all_live_in cycle_co e.1 L = false)) :=
  ⟨⟨by decide, cycle_pi_B0_fresh, by decide, by decide, cycle_st_B1_eq, by decide, by decide⟩,
    constr_B_shape cycle_co cycle_pi_B0 1 cycle_st_B1 (by decide) cycle_pi_B0_fresh (by decide)
      (by decide) cycle_st_B1_eq⟩

/-! ## The constraints B: two values in the living set at the same time -/

theorem constr_B_emit_keeps {color : Nat} {st st1 : sweep_t}
    (h : constr_B_emit color st = some st1) :
    st1.pi.removed = st.pi.removed ∧ st1.living = st.living ∧ st1.phase = st.phase ∧
      st1.emitted = st.living :: st.emitted := by
  unfold constr_B_emit at h
  simp only at h
  cases hrow : constr_B_row color
      (lpp_add_cst st.pi.curr_lp (mangle_cst 'B' st.pi.cst_counter) lpp_cst_t.lpp_less 1).2
      st.living
      (lpp_add_cst st.pi.curr_lp (mangle_cst 'B' st.pi.cst_counter) lpp_cst_t.lpp_less 1).1 with
  | none => rw [hrow] at h; cases h
  | some lp2 =>
    rw [hrow] at h
    simp only [Option.some.injEq] at h
    subst h
    exact ⟨rfl, rfl, rfl, rfl⟩

/-- What one border does to the removed set and the living set. -/
theorem constr_B_border_living {co : copy_opt_t} {color blk : Nat} {st st' : sweep_t}
    {b : border_t} (h : constr_B_border co color blk st b = some st') :
    st'.pi.removed = st.pi.removed ∧
    ((¬ passes co st.pi.removed color b.irn ∧ st'.living = st.living ∧ st'.phase = st.phase) ∨
     (passes co st.pi.removed color b.irn ∧ b.is_def = true ∧
        st'.living = pset_insert_ptr st.living b.irn ∧ st'.phase = phase_t.growing) ∨
     (passes co st.pi.removed color b.irn ∧ b.is_def = false ∧
        st'.living = pset_remove_ptr st.living b.irn)) := by
  rcases constr_B_border_cases h with ⟨hnp, rfl⟩ | ⟨hp, hd, rfl⟩ | ⟨hp, hd, st1, hst1, rfl⟩
  · exact ⟨rfl, Or.inl ⟨hnp, rfl, rfl⟩⟩
  · exact ⟨rfl, Or.inr (Or.inl ⟨hp, hd, rfl, rfl⟩)⟩
  · split_ifs at hst1 with hc
    · obtain ⟨h1, h2, _, _⟩ := constr_B_emit_keeps hst1
      exact ⟨h1, Or.inr (Or.inr ⟨hp, hd, by show pset_remove_ptr st1.living _ = _; rw [h2]⟩)⟩
    · simp only [Option.some.injEq] at hst1
      subst hst1
      exact ⟨rfl, Or.inr (Or.inr ⟨hp, hd, rfl⟩)⟩

/-- All through the sweep the removed set is the one on entry and the living
set holds only values the sweep looks at. -/
theorem constr_B_events_living (co : copy_opt_t) (color : Nat) (R : pset) :
    ∀ (l : List (Nat × border_t)) (st st' : sweep_t), st.pi.removed = R →
      (∀ n ∈ st.living, passes co R color n) →
      constr_B_events co color l st = some st' →
      st'.pi.removed = R ∧ ∀ n ∈ st'.living, passes co R color n := by
  intro l
  induction l with
  | nil =>
    intro st st' hR hl h
    simp only [constr_B_events, Option.some.injEq] at h
    subst h
    exact ⟨hR, hl⟩
  | cons e rest ih =>
    intro st st' hR hl h
    simp only [constr_B_events] at h
    cases hb : constr_B_border co color e.1 st e.2 with
    | none => rw [hb] at h; cases h
    | some st1 =>
      rw [hb] at h
      obtain ⟨hrem, hcase⟩ := constr_B_border_living hb
      refine ih st1 st' (hrem.trans hR) ?_ h
      intro n hn
      rcases hcase with ⟨_, hliv, _⟩ | ⟨hp, _, hliv, _⟩ | ⟨_, _, hliv⟩
      · rw [hliv] at hn; exact hl n hn
      · rw [hliv] at hn
        rcases (mem_pset_insert_ptr _ _ _).1 hn with hn | rfl
        · exact hl n hn
        · rw [hR] at hp; exact hp
      · rw [hliv] at hn
        exact hl n ((mem_pset_remove_ptr _ _ _).1 hn).1

/-- A value that is in the living set and is no longer there after more
borders has a use among these borders. -/
theorem constr_B_events_use (co : copy_opt_t) (color : Nat) (n : Nat) :
    ∀ (l : List (Nat × border_t)) (st st' : sweep_t),
      constr_B_events co color l st = some st' → n ∈ st.living → n ∉ st'.living →
      ∃ e ∈ l, e.2.irn = n ∧ e.2.is_def = false := by
  intro l
  induction l with
  | nil =>
    intro st st' h hin hout
    simp only [constr_B_events, Option.some.injEq] at h
    subst h
    exact absurd hin hout
  | cons e rest ih =>
    intro st st' h hin hout
    simp only [constr_B_events] at h
    cases hb : constr_B_border co color e.1 st e.2 with
    | none => rw [hb] at h; cases h
    | some st1 =>
      rw [hb] at h
      by_cases hn : n ∈ st1.living
      · obtain ⟨x, hx, hx1, hx2⟩ := ih st1 st' h hn hout
        exact ⟨x, List.mem_cons_of_mem _ hx, hx1, hx2⟩
      · refine ⟨e, List.mem_cons_self _ _, ?_⟩
        obtain ⟨_, hcase⟩ := constr_B_border_living hb
        rcases hcase with ⟨_, hliv, _⟩ | ⟨_, _, hliv, _⟩ | ⟨_, hd, hliv⟩
        · rw [hliv] at hn; exact absurd hin hn
        · rw [hliv] at hn
          exact absurd ((mem_pset_insert_ptr _ _ _).2 (Or.inl hin)) hn
        · rw [hliv, mem_pset_remove_ptr] at hn
          push_neg at hn
          exact ⟨hn hin |>.symm ▸ rfl, hd⟩

theorem constr_B_events_unsnoc {co : copy_opt_t} {color : Nat} {p : List (Nat × border_t)}
    {e : Nat × border_t} {s0 st : sweep_t}
    (h : constr_B_events co color (p ++ [e]) s0 = some st) :
    ∃ stp, constr_B_events co color p s0 = some stp ∧
      constr_B_border co color e.1 stp e.2 = some st := by
  rw [constr_B_events_append] at h
  cases hp : constr_B_events co color p s0 with
  | none => rw [hp] at h; cases h
  | some stp =>
    rw [hp] at h
    refine ⟨stp, rfl, ?_⟩
    simp only [Option.some_bind, constr_B_events] at h
    cases hb : constr_B_border co color e.1 stp e.2 with
    | none => rw [hb] at h; cases h
    | some st1 =>
      rw [hb] at h
      simp only [Option.some.injEq] at h
      rw [h]

/-- Two values that are in the living set after some borders came to be there
together at a definition of one of them among these borders. -/
theorem constr_B_events_both_live (co : copy_opt_t) (color : Nat) (s0 : sweep_t)
    (h0 : s0.living = []) (a b : Nat) :
    ∀ (p0 : List (Nat × border_t)) (st0 : sweep_t),
      constr_B_events co color p0 s0 = some st0 → a ∈ st0.living → b ∈ st0.living →
      ∃ (p1 : List (Nat × border_t)) (d : Nat × border_t) (t : List (Nat × border_t))
        (stp1 std : sweep_t),
        p0 = p1 ++ d :: t ∧ constr_B_events co color p1 s0 = some stp1 ∧
        constr_B_border co color d.1 stp1 d.2 = some std ∧
        ¬ (a ∈ stp1.living ∧ b ∈ stp1.living) ∧
        passes co stp1.pi.removed color d.2.irn ∧ d.2.is_def = true ∧
        (d.2.irn = a ∨ d.2.irn = b) ∧
        a ∈ std.living ∧ b ∈ std.living ∧ std.phase = phase_t.growing := by
  intro p0
  induction p0 using List.reverseRecOn with
  | nil =>
    intro st0 h ha _
    simp only [constr_B_events, Option.some.injEq] at h
    subst h
    rw [h0] at ha
    cases ha
  | append_singleton p e ih =>
    intro st0 h ha hb
    obtain ⟨stp, hp, hstep⟩ := constr_B_events_unsnoc h
    by_cases hboth : a ∈ stp.living ∧ b ∈ stp.living
    · obtain ⟨p1, d, t, stp1, std, hsplit, h1, h2, h3, h4, h5, h6, h7, h8, h9⟩ :=
        ih stp hp hboth.1 hboth.2
      exact ⟨p1, d, t ++ [e], stp1, std, by rw [hsplit]; simp, h1, h2, h3, h4, h5, h6, h7, h8, h9⟩
    · obtain ⟨_, hcase⟩ := constr_B_border_living hstep
      rcases hcase with ⟨_, hliv, _⟩ | ⟨hpass, hd, hliv, hph⟩ | ⟨_, _, hliv⟩
      · rw [hliv] at ha hb
        exact absurd ⟨ha, hb⟩ hboth
      · refine ⟨p, e, [], stp, st0, rfl, hp, hstep, hboth, hpass, hd, ?_, ha, hb, hph⟩
        rw [hliv, mem_pset_insert_ptr] at ha hb
        by_contra hne
        push_neg at hne
        rcases ha with ha | ha
        · rcases hb with hb | hb
          · exact hboth ⟨ha, hb⟩
          · exact hne.2 hb.symm
        · exact hne.1 ha.symm
      · rw [hliv, mem_pset_remove_ptr] at ha hb
        exact absurd ⟨ha.1, hb.1⟩ hboth

theorem constr_B_sweep_living {co : copy_opt_t} {pi : problem_instance_t} {color : Nat}
    {st : sweep_t} (h : constr_B_sweep co pi color = some st) : st.living = [] := by
  unfold constr_B_sweep at h
  cases hb : constr_B_blocks co color co.chordal_env.border_heads { pi := pi } with
  | none => rw [hb] at h; cases h
  | some st' =>
    rw [hb] at h
    simp only at h
    split_ifs at h with hc
    simp only [Option.some.injEq] at h
    subst h
    exact List.length_eq_zero.1 hc

theorem constr_B_events_split {co : copy_opt_t} {color : Nat} {l1 l2 : List (Nat × border_t)}
    {s0 st : sweep_t} (h : constr_B_events co color (l1 ++ l2) s0 = some st) :
    ∃ s1, constr_B_events co color l1 s0 = some s1 ∧ constr_B_events co color l2 s1 = some st := by
  rw [constr_B_events_append] at h
  cases h1 : constr_B_events co color l1 s0 with
  | none => rw [h1] at h; cases h
  | some s1 =>
    rw [h1] at h
    exact ⟨s1, rfl, h⟩

/-- C16. Coverage by the constraints B. Let the sweep `pi_add_constr_B (pi,
color)` return (its final assertion holds: every definition the sweep looks at
is matched by a later use), under the conditions of C15 on the counter and the
names. Let `a` and `b` be two different values that are in the living set at
the same time, after the borders `p0`. Then there is a definition `d` of one of
the two, at or before the end of `p0`, by which the two came to be in the
living set together, and after `d` a first use `u` that the sweep looks at (the
borders `m` between them hold no such use); `a` and `b` are still in the living
set when the sweep comes to `u`; and either every member of the living set is
live in at the block of `u`, or the sweep adds a constraint there: a row "at
most 1" of the problem returned, in which the columns `x<a>_<color>` and
`x<b>_<color>` both have the factor 1. -/
theorem constr_B_covers_first_use (co : copy_opt_t) (pi : problem_instance_t) (color : Nat)
    (st : sweep_t)
    (h0 : 0 ≤ pi.cst_counter)
    (hfresh0 : ∀ k : Int, pi.cst_counter ≤ k → k < 2 ^ 31 →
      mangle_cst 'B' k ∉ cst_names pi.curr_lp)
    (hrows : ∀ e ∈ pi.curr_lp.matrix, e.1 ≤ (pi.curr_lp.csts.length : Int))
    (hbound : pi.cst_counter + ((border_events co).length : Int) ≤ 2 ^ 31)
    (h : constr_B_sweep co pi color = some st)
    (a b : Nat) (hab : a ≠ b)
    (p0 rest0 : List (Nat × border_t)) (st0 : sweep_t)
    (hsplit0 : border_events co = p0 ++ rest0)
    (hrun0 : constr_B_events co color p0 { pi := pi } = some st0)
    (ha : a ∈ st0.living) (hb : b ∈ st0.living) :
    ∃ (p1 : List (Nat × border_t)) (d : Nat × border_t) (m : List (Nat × border_t))
      (u : Nat × border_t) (q : List (Nat × border_t)) (std stm : sweep_t),
      border_events co = p1 ++ d :: (m ++ u :: q) ∧ (p1 ++ [d]) <+: p0 ∧
      d.2.is_def = true ∧ (d.2.irn = a ∨ d.2.irn = b) ∧
      (∃ stp1, constr_B_events co color p1 { pi := pi } = some stp1 ∧
        ¬ (a ∈ stp1.living ∧ b ∈ stp1.living)) ∧
      constr_B_events co color (p1 ++ [d]) { pi := pi } = some std ∧
      a ∈ std.living ∧ b ∈ std.living ∧
      (∀ x ∈ m, passes co pi.removed color x.2.irn → x.2.is_def = true) ∧
      passes co pi.removed color u.2.irn ∧ u.2.is_def = false ∧
      constr_B_events co color (p1 ++ d :: m) { pi := pi } = some stm ∧
      a ∈ stm.living ∧ b ∈ stm.living ∧
      (all_live_in co u.1 stm.living = true ∨
        ∃ i : Nat, st.emitted.reverse.get? i = some stm.living ∧
          st.pi.curr_lp.csts.get? (pi.curr_lp.csts.length + i) =
            some (lpp_cst.mk (mangle_cst 'B' (pi.cst_counter + (i : Int))) lpp_cst_t.lpp_less 1) ∧
          1 ≤ lpp_get_var_idx st.pi.curr_lp (mangle_var 'x' (a : Int) (color : Int)) ∧
          1 ≤ lpp_get_var_idx st.pi.curr_lp (mangle_var 'x' (b : Int) (color : Int)) ∧
          lpp_get_factor st.pi.curr_lp ((pi.curr_lp.csts.length : Int) + (i : Int) + 1)
            (lpp_get_var_idx st.pi.curr_lp (mangle_var 'x' (a : Int) (color : Int))) = 1 ∧
          lpp_get_factor st.pi.curr_lp ((pi.curr_lp.csts.length : Int) + (i : Int) + 1)
            (lpp_get_var_idx st.pi.curr_lp (mangle_var 'x' (b : Int) (color : Int))) = 1) := by
  have hS := constr_B_sweep_shape h0 hfresh0 hrows hbound h
  have hev := constr_B_sweep_eq h
  have hempty := constr_B_sweep_living h
  -- the definition by which both came to be in the living set
  obtain ⟨p1, d, t, stp1, std, hp0, hrun1, hstep, hnot, _, hd, hdab, had, hbd, hphd⟩ :=
    constr_B_events_both_live co color { pi := pi } rfl a b p0 st0 hrun0 ha hb
  have hrund : constr_B_events co color (p1 ++ [d]) { pi := pi } = some std :=
    constr_B_events_snoc hrun1 hstep
  have hall : border_events co = (p1 ++ [d]) ++ (t ++ rest0) := by
    rw [hsplit0, hp0]; simp
  obtain ⟨hRd, hpassd⟩ := constr_B_events_living co color pi.removed _ _ _ rfl
    (fun n hn => absurd hn (List.not_mem_nil n)) hrund
  -- the rest of the sweep
  have hrest : constr_B_events co color (t ++ rest0) std = some st := by
    rw [hall] at hev
    obtain ⟨s1, hs1, hs2⟩ := constr_B_events_split hev
    rw [hrund] at hs1
    cases hs1
    exact hs2
  -- a use the sweep looks at follows
  obtain ⟨e, he, hea, hed⟩ := constr_B_events_use co color a _ _ _ hrest had
    (by rw [hempty]; exact List.not_mem_nil a)
  obtain ⟨m, u, q, hmq, ⟨hup, hud⟩, hfirst⟩ := exists_first_split
    (fun x : Nat × border_t => passes co pi.removed color x.2.irn ∧ x.2.is_def = false)
    (t ++ rest0) ⟨e, he, by rw [hea]; exact hpassd a had, hed⟩
  rw [hmq] at hrest hall
  obtain ⟨stm, hrunm, hrestu⟩ := constr_B_events_split hrest
  have hquiet : ∀ x ∈ m, passes co pi.removed color x.2.irn → x.2.is_def = true := by
    intro x hx hp
    by_contra hne
    exact hfirst x hx ⟨hp, by simpa using hne⟩
  obtain ⟨hRm, hsub, hphm⟩ := constr_B_events_quiet co color pi.removed m std stm hRd hquiet hrunm
  have hrunpm : constr_B_events co color (p1 ++ d :: m) { pi := pi } = some stm := by
    have : p1 ++ d :: m = (p1 ++ [d]) ++ m := by simp
    rw [this, constr_B_events_append, hrund]
    exact hrunm
  refine ⟨p1, d, m, u, q, std, stm, by rw [hall]; simp, ⟨t, by rw [hp0]; simp⟩, hd, hdab,
    ⟨stp1, hrun1, hnot⟩, hrund, had, hbd, hquiet, hup, hud, hrunpm, hsub a had, hsub b hbd, ?_⟩
  by_cases hlive : all_live_in co u.1 stm.living = true
  · exact Or.inl hlive
  · right
    have hlive' : all_live_in co u.1 stm.living = false := by simpa using hlive
    -- the constraint is added at `u`
    simp only [constr_B_events] at hrestu
    cases hbu : constr_B_border co color u.1 stm u.2 with
    | none => rw [hbu] at hrestu; cases hrestu
    | some stu =>
      rw [hbu] at hrestu
      have hmem_u : stm.living ∈ stu.emitted := by
        rcases constr_B_border_cases hbu with ⟨hnp, _⟩ | ⟨_, hd', _⟩ | ⟨_, _, st1, hst1, rfl⟩
        · rw [hRm] at hnp; exact absurd hup hnp
        · rw [hud] at hd'; cases hd'
        · rw [if_pos ⟨hphm hphd, two_le_length_of_mem (hsub a had) (hsub b hbd) hab, hlive'⟩]
            at hst1
          obtain ⟨_, _, _, hem⟩ := constr_B_emit_keeps hst1
          show stm.living ∈ st1.emitted
          rw [hem]
          exact List.mem_cons_self _ _
      have hmem : stm.living ∈ st.emitted :=
        constr_B_events_emitted_mono co color q stu st hrestu _ hmem_u
      obtain ⟨i, hi⟩ := List.mem_iff_get?.1 (List.mem_reverse.2 hmem)
      have hilt : i < st.emitted.length := by
        have := (List.get?_eq_some.1 hi).1
        simpa using this
      have hsame : ∀ name, lpp_get_var_idx st.pi.curr_lp name = lpp_get_var_idx pi.curr_lp name :=
        lpp_get_var_idx_congr hS.lp.vars
      refine ⟨i, hi, ?_, ?_, ?_, ?_, ?_⟩
      · rw [hS.lp.csts, List.get?_eq_getElem?, List.getElem?_append_right (by omega)]
        simp [hilt]
      · rw [hsame]; exact (hS.lp.cols _ hmem a (hsub a had)).1
      · rw [hsame]; exact (hS.lp.cols _ hmem b (hsub b hbd)).1
      · rw [hS.lp.factors i _ hi, if_pos ⟨a, hsub a had, (hsame _).symm⟩]
      · rw [hS.lp.factors i _ hi, if_pos ⟨b, hsub b hbd, (hsame _).symm⟩]

set_option maxRecDepth 100000 in
theorem cycle_st_two_eq :
    constr_B_events cycle_co 1 ((border_events cycle_co).take 2) { pi := cycle_pi_B0 } =
      some cycle_st_two := by
  rfl

set_option maxRecDepth 100000 in
/-- Witness of C16 on the 4-cycle with two registers, for the sweep of color 1
and the values 0 and 1, which are in the living set after the first two
borders. -/
theorem constr_B_covers_first_use_witness :
    (0 ≤ cycle_pi_B0.cst_counter ∧
      cycle_pi_B0.cst_counter + ((border_events cycle_co).length : Int) ≤ 2 ^ 31 ∧
      constr_B_sweep cycle_co cycle_pi_B0 1 = some cycle_st_B1 ∧
      border_events cycle_co =
        (border_events cycle_co).take 2 ++ (border_events cycle_co).drop 2 ∧
      cycle_st_two.living = [1, 0]) ∧
    ∃ (p1 : List (Nat × border_t)) (d : Nat × border_t) (m : List (Nat × border_t))
      (u : Nat × border_t) (q : List (Nat × border_t)) (std stm : sweep_t),
      border_events cycle_co = p1 ++ d :: (m ++ u :: q) ∧
      (p1 ++ [d]) <+: (border_events cycle_co).take 2 ∧
      d.2.is_def = true ∧ (d.2.irn = 0 ∨ d.2.irn = 1) ∧
      (∃ stp1, constr_B_events cycle_co 1 p1 { pi := cycle_pi_B0 } = some stp1 ∧
        ¬ (0 ∈ stp1.living ∧ 1 ∈ stp1.living)) ∧
      constr_B_events cycle_co 1 (p1 ++ [d]) { pi := cycle_pi_B0 } = some std ∧
      0 ∈ std.living ∧ 1 ∈ std.living ∧
      (∀ x ∈ m, passes cycle_co cycle_pi_B0.removed 1 x.2.irn → x.2.is_def = true) ∧
      passes cycle_co cycle_pi_B0.removed 1 u.2.irn ∧ u.2.is_def = false ∧
      constr_B_events cycle_co 1 (p1 ++ d :: m) { pi := cycle_pi_B0 } = some stm ∧
      0 ∈ stm.living ∧ 1 ∈ stm.living ∧
      (all_live_in cycle_co u.1 stm.living = true ∨
        ∃ i : Nat, cycle_st_B1.emitted.reverse.get? i = some stm.living ∧
          cycle_st_B1.pi.curr_lp.csts.get? (cycle_pi_B0.curr_lp.csts.length + i) =
            some (lpp_cst.mk (mangle_cst 'B' (cycle_pi_B0.cst_counter + (i : Int)))
              lpp_cst_t.lpp_less 1) ∧
          1 ≤ lpp_get_var_idx cycle_st_B1.pi.curr_lp
            (mangle_var 'x' ((0 : Nat) : Int) ((1 : Nat) : Int)) ∧
          1 ≤ lpp_get_var_idx cycle_st_B1.pi.curr_lp
            (mangle_var 'x' ((1 : Nat) : Int) ((1 : Nat) : Int)) ∧
          lpp_get_factor cycle_st_B1.pi.curr_lp
            ((cycle_pi_B0.curr_lp.csts.length : Int) + (i : Int) + 1)
            (lpp_get_var_idx cycle_st_B1.pi.curr_lp
              (mangle_var 'x' ((0 : Nat) : Int) ((1 : Nat) : Int))) = 1 ∧
          lpp_get_factor cycle_st_B1.pi.curr_lp
            ((cycle_pi_B0.curr_lp.csts.length : Int) + (i : Int) + 1)
            (lpp_get_var_idx cycle_st_B1.pi.curr_lp
              (mangle_var 'x' ((1 : Nat) : Int) ((1 : Nat) : Int))) = 1) :=
  ⟨⟨by decide, by decide, cycle_st_B1_eq, by decide, by decide⟩,
    constr_B_covers_first_use cycle_co cycle_pi_B0 1 cycle_st_B1 (by decide) cycle_pi_B0_fresh
      (by decide) (by decide) cycle_st_B1_eq 0 1 (by decide)
      ((border_events cycle_co).take 2) ((border_events cycle_co).drop 2) cycle_st_two
      (by decide) cycle_st_two_eq (by decide) (by decide)⟩

/-! ## Rows of the problem and their values -/

theorem lpp_get_factor_cons {lp lp' : lpp_t} {r0 k0 v : Int}
    (hm : lp'.matrix = (r0, k0, v) :: lp.matrix) (r j : Int) :
    lpp_get_factor lp' r j = if r0 = r ∧ k0 = j then v else lpp_get_factor lp r j := by
  unfold lpp_get_factor
  rw [hm, List.find?_cons]
  by_cases h : r0 = r ∧ k0 = j
  · simp [h.1, h.2]
  · rw [if_neg h]
    have : (decide (r0 = r) && decide (k0 = j)) = false := by
      simp only [Bool.and_eq_false_imp, decide_eq_true_eq, decide_eq_false_iff_not]
      exact fun h1 h2 => h ⟨h1, h2⟩
    simp only [this]

theorem lpp_row_value_congr {lp lp' : lpp_t} (value : Nat → Rat) (r : Int)
    (hv : lp'.vars.length = lp.vars.length)
    (hf : ∀ k : Nat, k < lp.vars.length →
      lpp_get_factor lp' r ((k : Int) + 1) = lpp_get_factor lp r ((k : Int) + 1)) :
    lpp_row_value lp' value r = lpp_row_value lp value r := by
  rw [lpp_row_value_eq, lpp_row_value_eq, hv]
  apply Finset.sum_congr rfl
  intro k hk
  rw [hf k (Finset.mem_range.1 hk)]

/-- A row in which no factor is written has the value 0. -/
theorem lpp_row_value_empty {lp : lpp_t} (value : Nat → Rat) {r : Int}
    (h : ∀ e ∈ lp.matrix, e.1 ≠ r) : lpp_row_value lp value r = 0 := by
  rw [lpp_row_value_eq]
  apply Finset.sum_eq_zero
  intro k _
  rw [lpp_get_factor_of_not_mem (fun v hv => h _ hv rfl)]
  simp

/-- Writing a factor in a column of a row that had none there adds the factor
times the value of the column to the value of the row. -/
theorem lpp_row_value_write {lp lp' : lpp_t} (value : Nat → Rat) {r0 v : Int} {k : Nat}
    (hv : lp'.vars = lp.vars) (hm : lp'.matrix = (r0, (k : Int) + 1, v) :: lp.matrix)
    (hk : k < lp.vars.length) (hzero : lpp_get_factor lp r0 ((k : Int) + 1) = 0) :
    lpp_row_value lp' value r0 = lpp_row_value lp value r0 + (v : Rat) * value (k + 1) := by
  rw [lpp_row_value_eq, lpp_row_value_eq, hv]
  have hterm : ∀ j ∈ Finset.range lp.vars.length,
      (lpp_get_factor lp' r0 ((j : Int) + 1) : Rat) * value (j + 1) =
        (lpp_get_factor lp r0 ((j : Int) + 1) : Rat) * value (j + 1) +
          (if j = k then (v : Rat) * value (j + 1) else 0) := by
    intro j _
    rw [lpp_get_factor_cons hm]
    by_cases hjk : j = k
    · subst hjk
      simp [hzero]
    · have : ¬ (r0 = r0 ∧ (k : Int) + 1 = (j : Int) + 1) := by
        rintro ⟨_, h⟩
        exact hjk (by omega)
      rw [if_neg this, if_neg hjk, add_zero]
  rw [Finset.sum_congr rfl hterm, Finset.sum_add_distrib, Finset.sum_ite_eq' (Finset.range lp.vars.length) k]
  simp [hk]

/-- Writing a factor in a row leaves the value of every other row. -/
theorem lpp_row_value_write_other {lp lp' : lpp_t} (value : Nat → Rat) {r0 k0 v r : Int}
    (hv : lp'.vars = lp.vars) (hm : lp'.matrix = (r0, k0, v) :: lp.matrix) (hr : r0 ≠ r) :
    lpp_row_value lp' value r = lpp_row_value lp value r := by
  apply lpp_row_value_congr value r (by rw [hv])
  intro k _
  rw [lpp_get_factor_cons hm, if_neg (fun h => hr h.1)]

/-- A run of factor writes in one row, in columns that differ from each other
and in which the row had no factor: the columns and rows stay, the writes are
all in this row, and the value of the row grows by the value of the writes;
the other rows keep their values. -/
theorem lpp_set_factors_spec (r : Int) :
    ∀ (writes : List (Int × Int)) (lp lp' : lpp_t), lpp_set_factors r writes lp = some lp' →
      (writes.map Prod.fst).Nodup → (∀ w ∈ writes, w.1 ≠ 0) →
      (∀ w ∈ writes, lpp_get_factor lp r w.1 = 0) →
      lp'.vars = lp.vars ∧ lp'.csts = lp.csts ∧
      (∃ em, lp'.matrix = em ++ lp.matrix ∧
        ∀ e ∈ em, e.1 = r ∧ 1 ≤ e.2.1 ∧ e.2.1 ≤ (lp.vars.length : Int)) ∧
      (∀ w ∈ writes, 1 ≤ w.1 ∧ w.1 ≤ (lp.vars.length : Int)) ∧
      ∀ value : Nat → Rat,
        lpp_row_value lp' value r = lpp_row_value lp value r + writes_value value writes ∧
        ∀ r', r' ≠ r → lpp_row_value lp' value r' = lpp_row_value lp value r' := by
  intro writes
  induction writes with
  | nil =>
    intro lp lp' h _ _ _
    simp only [lpp_set_factors, Option.some.injEq] at h
    subst h
    refine ⟨rfl, rfl, ⟨[], rfl, fun e he => absurd he (List.not_mem_nil e)⟩,
      fun w hw => absurd hw (List.not_mem_nil w), ?_⟩
    intro value
    simp [writes_value]
  | cons w rest ih =>
    intro lp lp' h hnd hne hzero
    simp only [lpp_set_factors] at h
    cases hset : lpp_set_factor_fast lp r w.1 w.2 with
    | none => rw [hset] at h; cases h
    | some lp1 =>
      rw [hset] at h
      obtain ⟨hv1, hc1, hm1, _, _, hk0, hk1⟩ := lpp_set_factor_fast_spec hset
      have hw0 : w.1 ≠ 0 := hne w (List.mem_cons_self _ _)
      obtain ⟨k, hk⟩ : ∃ k : Nat, w.1 = (k : Int) + 1 := ⟨(w.1 - 1).toNat, by omega⟩
      have hklt : k < lp.vars.length := by omega
      simp only [List.map_cons, List.nodup_cons] at hnd
      have hzero1 : ∀ w' ∈ rest, lpp_get_factor lp1 r w'.1 = 0 := by
        intro w' hw'
        rw [lpp_get_factor_cons hm1, if_neg]
        · exact hzero w' (List.mem_cons_of_mem _ hw')
        · rintro ⟨_, h2⟩
          exact hnd.1 (List.mem_map.2 ⟨w', hw', h2.symm⟩)
      obtain ⟨hv, hc, ⟨em, hm, hem⟩, hcols, hval⟩ := ih lp1 lp' h hnd.2
        (fun w' hw' => hne w' (List.mem_cons_of_mem _ hw')) hzero1
      refine ⟨hv.trans hv1, hc.trans hc1, ⟨em ++ [(r, w.1, w.2)], ?_, ?_⟩, ?_, ?_⟩
      · rw [hm, hm1]; simp
      · intro e he
        rcases List.mem_append.1 he with he | he
        · have := hem e he
          rw [hv1] at this
          exact this
        · simp only [List.mem_singleton] at he
          subst he
          exact ⟨rfl, by simp only; omega, hk1⟩
      · intro w' hw'
        rcases List.mem_cons.1 hw' with rfl | hw'
        · exact ⟨by omega, hk1⟩
        · have := hcols w' hw'
          rw [hv1] at this
          exact this
      · intro value
        obtain ⟨h1, h2⟩ := hval value
        constructor
        · rw [h1]
          have hm1' : lp1.matrix = (r, (k : Int) + 1, w.2) :: lp.matrix := by rw [hm1, hk]
          rw [lpp_row_value_write value hv1 hm1' hklt
            (by rw [← hk]; exact hzero w (List.mem_cons_self _ _))]
          simp only [writes_value, List.map_cons, List.sum_cons]
          have : w.1.toNat = k + 1 := by omega
          rw [this]
          ring
        · intro r' hr'
          rw [h2 r' hr']
          exact lpp_row_value_write_other value hv1 hm1 (Ne.symm hr')

theorem lp_frame_refl (lp : lpp_t) : lp_frame lp lp :=
  ⟨List.prefix_refl _, List.prefix_refl _, [], rfl, fun e he => absurd he (List.not_mem_nil e)⟩

theorem lp_frame_trans {a b c : lpp_t} (h1 : lp_frame a b) (h2 : lp_frame b c) : lp_frame a c := by
  obtain ⟨hv1, hc1, em1, hm1, he1⟩ := h1
  obtain ⟨hv2, hc2, em2, hm2, he2⟩ := h2
  refine ⟨hv1.trans hv2, hc1.trans hc2, em2 ++ em1, by rw [hm2, hm1, List.append_assoc], ?_⟩
  intro e he
  rcases List.mem_append.1 he with he | he
  · have := he2 e he
    have hl : a.csts.length ≤ b.csts.length := hc1.length_le
    omega
  · exact he1 e he

/-- The rows of a problem keep their values when the problem grows by new
columns, new rows, and factors written in the new rows. -/
theorem lp_frame_row_value {lp lp' : lpp_t} (hwf : lp_wf lp) (hf : lp_frame lp lp')
    (value : Nat → Rat) {r : Int} (hr : r ≤ (lp.csts.length : Int)) :
    lpp_row_value lp' value r = lpp_row_value lp value r := by
  obtain ⟨hv, _, em, hm, hem⟩ := hf
  have hfac : ∀ j, lpp_get_factor lp' r j = lpp_get_factor lp r j :=
    lpp_get_factor_other_rows hm (fun e he => by have := hem e he; omega)
  rw [lpp_row_value_eq, lpp_row_value_eq]
  have hle : lp.vars.length ≤ lp'.vars.length := hv.length_le
  rw [← Finset.sum_subset (Finset.range_subset.2 hle)]
  · apply Finset.sum_congr rfl
    intro k _
    rw [hfac]
  · intro k _ hk
    rw [Finset.mem_range, not_lt] at hk
    rw [hfac, lpp_get_factor_of_not_mem, Int.cast_zero, zero_mul]
    intro v hv'
    have := (hwf _ hv').2.2.2
    simp only at this
    omega

theorem lpp_add_var_frame (lp : lpp_t) (name : List Char) (t : lpp_var_t) (obj : Int)
    (hwf : lp_wf lp) :
    lp_wf (lpp_add_var lp name t obj).1 ∧ lp_frame lp (lpp_add_var lp name t obj).1 := by
  obtain ⟨k, _, _, hcsts, hmat, hcase⟩ := lpp_add_var_spec lp name t obj
  have hvars : lp.vars <+: (lpp_add_var lp name t obj).1.vars := by
    rcases hcase with ⟨_, _, h⟩ | ⟨_, _, h⟩
    · rw [h]; exact List.prefix_append _ _
    · rw [h]
  refine ⟨?_, hvars, by rw [hcsts], [], by rw [hmat]; rfl,
    fun e he => absurd he (List.not_mem_nil e)⟩
  intro e he
  rw [hmat] at he
  obtain ⟨h1, h2, h3, h4⟩ := hwf e he
  refine ⟨h1, by rw [hcsts]; exact h2, h3, ?_⟩
  have := hvars.length_le
  omega

/-- A new row with a run of factor writes in it, in columns that differ from
each other: the row is added after the rows there are, and its value is the
value of the writes; the problem stays well formed and the rows there were keep
their values. -/
theorem lpp_add_row_spec {lp lp2 : lpp_t} {name : List Char} {t : lpp_cst_t} {rhs : Int}
    {writes : List (Int × Int)} (hwf : lp_wf lp) (hfresh : name ∉ cst_names lp)
    (h : lpp_set_factors (lpp_add_cst lp name t rhs).2 writes (lpp_add_cst lp name t rhs).1 =
      some lp2)
    (hnd : (writes.map Prod.fst).Nodup) (hne : ∀ w ∈ writes, w.1 ≠ 0) :
    (lpp_add_cst lp name t rhs).2 = (lp.csts.length : Int) + 1 ∧
    lp2.vars = lp.vars ∧ lp2.csts = lp.csts ++ [lpp_cst.mk name t rhs] ∧
    lp_wf lp2 ∧ lp_frame lp lp2 ∧
    (∀ w ∈ writes, 1 ≤ w.1 ∧ w.1 ≤ (lp.vars.length : Int)) ∧
    ∀ value : Nat → Rat,
      lpp_row_value lp2 value ((lp.csts.length : Int) + 1) = writes_value value writes := by
  obtain ⟨k, hk1, _, hvars, hmat, hcase⟩ := lpp_add_cst_spec lp name t rhs
  rcases hcase with ⟨_, hk, hcsts⟩ | ⟨hin, _, _⟩
  swap
  · exact absurd hin hfresh
  subst hk
  have hnone : ∀ e ∈ (lpp_add_cst lp name t rhs).1.matrix, e.1 ≠ (lp.csts.length : Int) + 1 := by
    intro e he
    rw [hmat] at he
    have := (hwf e he).2.1
    omega
  rw [hk1] at h
  obtain ⟨hv, hc, ⟨em, hm, hem⟩, hcols, hval⟩ := lpp_set_factors_spec _ writes _ _ h hnd hne
    (fun w _ => lpp_get_factor_of_not_mem (fun v hv => hnone _ hv rfl))
  rw [hvars] at hcols hem
  refine ⟨hk1, hv.trans hvars, hc.trans hcsts, ?_, ⟨?_, ?_, em, ?_, ?_⟩, hcols, ?_⟩
  · intro e he
    rw [hm, hmat] at he
    rw [hc, hcsts, hv, hvars, List.length_append, List.length_singleton]
    rcases List.mem_append.1 he with he | he
    · obtain ⟨h1, h2, h3⟩ := hem e he
      rw [h1]
      push_cast
      exact ⟨by omega, by omega, h2, h3⟩
    · obtain ⟨h1, h2, h3, h4⟩ := hwf e he
      push_cast
      exact ⟨h1, by omega, h3, h4⟩
  · rw [hv, hvars]
  · rw [hc, hcsts]; exact List.prefix_append _ _
  · rw [hm, hmat]
  · intro e he
    rw [(hem e he).1]
    omega
  · intro value
    rw [(hval value).1, lpp_row_value_empty value hnone, zero_add]

/-! ## Names of columns, again -/

theorem mangle_var_head (p : Char) (n c : Int) : ∃ t, mangle_var p n c = p :: t := by
  unfold mangle_var snprintf_buf
  exact ⟨(print_d n ++ '_' :: print_d c).take 30, rfl⟩

/-- Names made by `mangle_var` from numbers in the range of `int` are equal
only when the prefix and the two numbers are. -/
theorem mangle_var_inj_nat {p p' : Char} {n c n' c' : Nat} (hn : n < 2 ^ 31) (hc : c < 2 ^ 31)
    (hn' : n' < 2 ^ 31) (hc' : c' < 2 ^ 31)
    (h : mangle_var p (n : Int) (c : Int) = mangle_var p' (n' : Int) (c' : Int)) :
    p = p' ∧ n = n' ∧ c = c' := by
  have r1 : -2 ^ 31 ≤ (n : Int) ∧ (n : Int) < 2 ^ 31 := ⟨by omega, by exact_mod_cast hn⟩
  have r2 : -2 ^ 31 ≤ (c : Int) ∧ (c : Int) < 2 ^ 31 := ⟨by omega, by exact_mod_cast hc⟩
  have r3 : -2 ^ 31 ≤ (n' : Int) ∧ (n' : Int) < 2 ^ 31 := ⟨by omega, by exact_mod_cast hn'⟩
  have r4 : -2 ^ 31 ≤ (c' : Int) ∧ (c' : Int) < 2 ^ 31 := ⟨by omega, by exact_mod_cast hc'⟩
  rw [mangle_var_eq p _ _ r1 r2, mangle_var_eq p' _ _ r3 r4] at h
  simp only [List.cons.injEq] at h
  refine ⟨h.1, ?_⟩
  apply mangle_var_x_inj_nat hn hc hn' hc'
  rw [mangle_var_eq 'x' _ _ r1 r2, mangle_var_eq 'x' _ _ r3 r4, h.2]

theorem name_find_append_of_mem {l : List (List Char)} {name : List Char} (h : name ∈ l)
    (t : List (List Char)) : name_find (l ++ t) name = name_find l name := by
  induction l with
  | nil => cases h
  | cons x xs ih =>
    simp only [List.cons_append, name_find]
    by_cases hx : x = name
    · simp [hx]
    · simp only [hx, if_false]
      have hmem : name ∈ xs := by
        rcases List.mem_cons.1 h with h | h
        · exact absurd h.symm hx
        · exact h
      have := ih hmem
      rw [show xs.append t = xs ++ t from rfl, this]

/-- The number of a column that exists does not change when columns are added
after it. -/
theorem lpp_get_var_idx_of_initial {lp lp' : lpp_t} (hpre : lp.vars <+: lp'.vars)
    {name : List Char} (h : name ∈ var_names lp) :
    lpp_get_var_idx lp' name = lpp_get_var_idx lp name := by
  obtain ⟨t, ht⟩ := hpre
  unfold lpp_get_var_idx
  rw [← ht, List.map_append, name_find_append_of_mem (by simpa [var_names] using h)]

theorem var_names_of_initial {lp lp' : lpp_t} (hpre : lp.vars <+: lp'.vars) {name : List Char}
    (h : name ∈ var_names lp) : name ∈ var_names lp' := by
  obtain ⟨t, ht⟩ := hpre
  simp only [var_names, ← ht, List.map_append, List.mem_append]
  exact Or.inl h

/-- Two names with the same column number, not -1, are the same name. -/
theorem lpp_get_var_idx_inj {lp : lpp_t} {n1 n2 : List Char}
    (h : lpp_get_var_idx lp n1 = lpp_get_var_idx lp n2) (hne : lpp_get_var_idx lp n1 ≠ -1) :
    n1 = n2 := by
  obtain ⟨k1, _, hk1, hg1⟩ := lpp_get_var_idx_ne_neg_one hne
  obtain ⟨k2, _, hk2, hg2⟩ := lpp_get_var_idx_ne_neg_one (h ▸ hne)
  have : k1 = k2 := by omega
  subst this
  rw [hg1] at hg2
  exact Option.some.inj hg2

theorem lpp_get_var_idx_mem {lp : lpp_t} {name : List Char}
    (h : 0 ≤ lpp_get_var_idx lp name) : name ∈ var_names lp := by
  obtain ⟨k, _, _, hg⟩ := @lpp_get_var_idx_ne_neg_one lp name (by omega)
  exact List.get?_mem hg

/-! ## Loops that can fail -/

/-- Induction over a loop `foldlM` in `Option`, with the part of the list dealt
with so far. -/
theorem foldlM_ind {σ α : Type} (f : σ → α → Option σ) (P : List α → σ → Prop) (all : List α)
    (hstep : ∀ (done : List α) (a : α) (rest : List α) (s s' : σ),
      all = done ++ a :: rest → P done s → f s a = some s' → P (done ++ [a]) s') :
    ∀ (rest done : List α) (s s' : σ), all = done ++ rest → P done s →
      rest.foldlM f s = some s' → P all s' := by
  intro rest
  induction rest with
  | nil =>
    intro done s s' hall hP h
    rw [List.append_nil] at hall
    subst hall
    simp only [List.foldlM_nil, pure, Option.some.injEq] at h
    subst h
    exact hP
  | cons a rest ih =>
    intro done s s' hall hP h
    rw [List.foldlM_cons] at h
    cases hf : f s a with
    | none => rw [hf] at h; cases h
    | some s1 =>
      rw [hf] at h
      exact ih (done ++ [a]) s1 s' (by rw [hall]; simp) (hstep done a rest s s1 hall hP hf) h

/-- A relation that holds of a state with itself, is kept by chaining, and
holds across every step of a loop holds across the loop. -/
theorem foldlM_rel {σ α : Type} (f : σ → α → Option σ) (R : σ → σ → Prop)
    (hrefl : ∀ s, R s s) (htrans : ∀ a b c, R a b → R b c → R a c) (l : List α)
    (hstep : ∀ (a : α) (s s' : σ), a ∈ l → f s a = some s' → R s s') :
    ∀ (s s' : σ), l.foldlM f s = some s' → R s s' := by
  induction l with
  | nil =>
    intro s s' h
    simp only [List.foldlM_nil, pure, Option.some.injEq] at h
    subst h
    exact hrefl s
  | cons a rest ih =>
    intro s s' h
    rw [List.foldlM_cons] at h
    cases hf : f s a with
    | none => rw [hf] at h; cases h
    | some s1 =>
      rw [hf] at h
      exact htrans _ _ _ (hstep a s s1 (List.mem_cons_self _ _) hf)
        (ih (fun b t t' hb => hstep b t t' (List.mem_cons_of_mem _ hb)) s1 s' h)

/-! ## The constraints E: the rows -/

theorem E_row_value_congr {lp lp' : lpp_t} (value : Nat → Rat) (e : E_row)
    (h : ∀ nm ∈ E_row_names e, lpp_get_var_idx lp' nm = lpp_get_var_idx lp nm) :
    E_row_value lp' value e = E_row_value lp value e := by
  unfold E_row_value xv yv
  unfold E_row_names at h
  cases hk : e.kind <;> simp only [hk] at h ⊢ <;> simp [h]

/-- A row recorded stays what it is when the problem grows. -/
theorem E_row_ok_frame {co : copy_opt_t} {lp lp' : lpp_t} {e : E_row} (hwf : lp_wf lp)
    (hf : lp_frame lp lp') (h : E_row_ok co lp e) : E_row_ok co lp' e := by
  obtain ⟨i, hi, c, hc, hc1, hc2⟩ := h.idx
  have hilt : i < lp.csts.length := (List.get?_eq_some.1 hc).1
  refine ⟨⟨i, hi, c, ?_, hc1, hc2⟩, fun nm hnm => var_names_of_initial hf.1 (h.names nm hnm), ?_,
    h.place⟩
  · obtain ⟨t, ht⟩ := hf.2.1
    rw [← ht, List.get?_eq_getElem?, List.getElem?_append_left hilt, ← List.get?_eq_getElem?]
    exact hc
  · intro value
    rw [lp_frame_row_value hwf hf value (by rw [hi]; omega), h.value value]
    exact (E_row_value_congr value e
      (fun nm hnm => lpp_get_var_idx_of_initial hf.1 (h.names nm hnm))).symm

theorem constr_E_add_eq {st st' : constr_E_t} {writes : List (Int × Int)} {row : Int → E_row}
    (h : constr_E_add st writes row = some st') :
    ∃ lp2, lpp_set_factors
        (lpp_add_cst st.lp (mangle_cst 'E' st.cst_counter) lpp_cst_t.lpp_less 0).2 writes
        (lpp_add_cst st.lp (mangle_cst 'E' st.cst_counter) lpp_cst_t.lpp_less 0).1 = some lp2 ∧
      st' = { lp := lp2, cst_counter := st.cst_counter + 1,
              rows := row (lpp_add_cst st.lp (mangle_cst 'E' st.cst_counter)
                lpp_cst_t.lpp_less 0).2 :: st.rows } := by
  unfold constr_E_add at h
  simp only at h
  cases hs : lpp_set_factors
      (lpp_add_cst st.lp (mangle_cst 'E' st.cst_counter) lpp_cst_t.lpp_less 0).2 writes
      (lpp_add_cst st.lp (mangle_cst 'E' st.cst_counter) lpp_cst_t.lpp_less 0).1 with
  | none => rw [hs] at h; cases h
  | some lp2 =>
    rw [hs] at h
    simp only [Option.some.injEq] at h
    exact ⟨lp2, rfl, h.symm⟩

/-- One block of `pi_add_constr_E` that adds a row keeps what holds of the
state, when the factors written give the row the value named at its place. -/
theorem E_inv_add {co : copy_opt_t} {lp0 : lpp_t} {st st' : constr_E_t}
    {writes : List (Int × Int)} {row : Int → E_row}
    (hfresh0 : ∀ k : Int, 0 ≤ k → k < 2 ^ 31 → mangle_cst 'E' k ∉ cst_names lp0)
    (hinv : E_inv co lp0 st) (hb : st.cst_counter < 2 ^ 31)
    (h : constr_E_add st writes row = some st')
    (hnd : (writes.map Prod.fst).Nodup) (hne : ∀ w ∈ writes, w.1 ≠ 0)
    (hrow : ∀ i, (row i).cst_idx = i ∧ (∀ nm ∈ E_row_names (row i), nm ∈ var_names st.lp) ∧
      (∀ value : Nat → Rat, writes_value value writes = E_row_value st.lp value (row i)) ∧
      E_row_place co (row i)) :
    E_inv co lp0 st' ∧ st'.rows = row ((st.lp.csts.length : Int) + 1) :: st.rows ∧
      st'.lp.vars = st.lp.vars ∧ st'.cst_counter = st.cst_counter + 1 := by
  obtain ⟨lp2, hset, rfl⟩ := constr_E_add_eq h
  have hcnt := hinv.counter
  have hfresh : mangle_cst 'E' st.cst_counter ∉ cst_names st.lp := by
    rw [hcnt]
    simp only [cst_names, hinv.csts, List.map_append, List.map_map, List.mem_append, not_or]
    refine ⟨hfresh0 _ (by omega) (by omega), ?_⟩
    simp only [List.mem_map, List.mem_range, Function.comp_apply, not_exists, not_and]
    intro i hi heq
    have := (@mangle_cst_inj 'E' 'E' (i : Int) (st.rows.length : Int)
      ⟨by omega, by omega⟩ ⟨by omega, by omega⟩ heq).2
    omega
  obtain ⟨hidx, hvars, hcsts, hwf2, hframe, _, hval⟩ :=
    lpp_add_row_spec hinv.wf hfresh hset hnd hne
  have hlen : st.lp.csts.length = lp0.csts.length + st.rows.length := by
    rw [hinv.csts]; simp
  have hsame : ∀ name, lpp_get_var_idx lp2 name = lpp_get_var_idx st.lp name :=
    lpp_get_var_idx_congr hvars
  rw [hidx]
  refine ⟨⟨hwf2, lp_frame_trans hinv.frame hframe, ?_, ?_, ?_, ?_⟩, rfl, hvars, rfl⟩
  · show st.cst_counter + 1 = _
    rw [hcnt]; simp
  · show lp2.csts = _
    rw [hcsts, hinv.csts, hcnt, List.append_assoc]
    simp only [List.length_cons, List.range_succ, List.map_append, List.map_cons, List.map_nil]
  · simp only [List.reverse_cons, List.map_append, List.map_cons, List.map_nil, List.length_cons,
      List.range_succ]
    rw [hinv.idxs, hlen, (hrow _).1]
    push_cast
    simp only [add_assoc]
  · intro e he
    rcases List.mem_cons.1 he with rfl | he
    · obtain ⟨hi1, hn, hv, hp⟩ := hrow ((st.lp.csts.length : Int) + 1)
      refine ⟨⟨st.lp.csts.length, hi1,
        lpp_cst.mk (mangle_cst 'E' st.cst_counter) lpp_cst_t.lpp_less 0, ?_, rfl, rfl⟩,
        ?_, ?_, hp⟩
      · show lp2.csts.get? _ = some (lpp_cst.mk (mangle_cst 'E' st.cst_counter) lpp_cst_t.lpp_less 0)
        rw [hcsts, List.get?_eq_getElem?, List.getElem?_append_right (le_refl _)]
        simp
      · intro nm hnm
        show nm ∈ var_names lp2
        simp only [var_names, hvars]
        exact hn nm hnm
      · intro value
        rw [hi1, hval value, hv value]
        exact (E_row_value_congr value _ (fun nm _ => hsame nm)).symm
    · exact E_row_ok_frame hinv.wf hframe (hinv.rows e he)

theorem lpp_set_factors_cols (r : Int) :
    ∀ (writes : List (Int × Int)) (lp lp' : lpp_t), lpp_set_factors r writes lp = some lp' →
      lp'.vars = lp.vars ∧ ∀ w ∈ writes, 0 ≤ w.1 := by
  intro writes
  induction writes with
  | nil =>
    intro lp lp' h
    simp only [lpp_set_factors, Option.some.injEq] at h
    subst h
    exact ⟨rfl, fun w hw => absurd hw (List.not_mem_nil w)⟩
  | cons w rest ih =>
    intro lp lp' h
    simp only [lpp_set_factors] at h
    cases hset : lpp_set_factor_fast lp r w.1 w.2 with
    | none => rw [hset] at h; cases h
    | some lp1 =>
      rw [hset] at h
      obtain ⟨hv1, _, _, _, _, hk0, _⟩ := lpp_set_factor_fast_spec hset
      obtain ⟨hv, hrest⟩ := ih lp1 lp' h
      refine ⟨hv.trans hv1, ?_⟩
      intro w' hw'
      rcases List.mem_cons.1 hw' with rfl | hw'
      · exact hk0
      · exact hrest w' hw'

/-- What a block of `pi_add_constr_E` that adds a row does to the state, and
that the columns it writes in have numbers that are not negative. -/
theorem constr_E_add_step {st st' : constr_E_t} {writes : List (Int × Int)} {row : Int → E_row}
    (h : constr_E_add st writes row = some st') :
    st'.cst_counter = st.cst_counter + 1 ∧ st'.lp.vars = st.lp.vars ∧
    (∃ i, st'.rows = row i :: st.rows) ∧ ∀ w ∈ writes, 0 ≤ w.1 := by
  obtain ⟨lp2, hset, rfl⟩ := constr_E_add_eq h
  obtain ⟨hv, hcols⟩ := lpp_set_factors_cols _ _ _ _ hset
  have hvars := (lpp_add_cst_spec st.lp (mangle_cst 'E' st.cst_counter)
    lpp_cst_t.lpp_less 0).choose_spec.2.2.1
  exact ⟨rfl, hv.trans hvars, ⟨_, rfl⟩, hcols⟩

theorem E_le_refl (s : constr_E_t) : E_le s s :=
  ⟨le_refl _, fun _ h => h, List.prefix_refl _⟩

theorem E_le_trans (a b c : constr_E_t) (h1 : E_le a b) (h2 : E_le b c) : E_le a c :=
  ⟨le_trans h1.1 h2.1, fun e he => h2.2.1 e (h1.2.1 e he), h1.2.2.trans h2.2.2⟩

theorem E_le_add {st st' : constr_E_t} {writes : List (Int × Int)} {row : Int → E_row}
    (h : constr_E_add st writes row = some st') : E_le st st' := by
  obtain ⟨h1, h2, ⟨i, h3⟩, _⟩ := constr_E_add_step h
  refine ⟨by omega, ?_, by rw [h2]⟩
  intro e he
  rw [h3]
  exact List.mem_cons_of_mem _ he

theorem E_le_common {rootnr argnr : Nat} {y_idx : Int} {st st' : constr_E_t} {color : Nat}
    (h : constr_E_common rootnr argnr y_idx st color = some st') : E_le st st' := by
  unfold constr_E_common at h
  cases h1 : constr_E_add st
      [(lpp_get_var_idx st.lp (mangle_var 'x' rootnr color), 1),
       (lpp_get_var_idx st.lp (mangle_var 'x' argnr color), -1), (y_idx, -1)]
      (E_row.mk rootnr argnr color E_kind.root_arg) with
  | none => rw [h1] at h; cases h
  | some st1 =>
    rw [h1] at h
    exact E_le_trans _ _ _ (E_le_add h1) (E_le_add h)

theorem E_le_disjunct {co : copy_opt_t} {rootnr argnr : Nat} {y_idx : Int} {st st' : constr_E_t}
    {color : Nat} (h : constr_E_disjunct co rootnr argnr y_idx st color = some st') :
    E_le st st' := by
  unfold constr_E_disjunct at h
  split_ifs at h
  · exact E_le_add h
  · exact E_le_add h

theorem E_le_arg {co : copy_opt_t} {rootnr : Nat} {st st' : constr_E_t} {arg : Nat × Int}
    (h : constr_E_arg co rootnr st arg = some st') : E_le st st' := by
  unfold constr_E_arg at h
  simp only at h
  cases h1 : (common_regs co rootnr arg.1).foldlM
      (constr_E_common rootnr arg.1
        (lpp_add_var st.lp (mangle_var 'y' rootnr arg.1) lpp_var_t.lpp_continous arg.2).2)
      { st with lp :=
        (lpp_add_var st.lp (mangle_var 'y' rootnr arg.1) lpp_var_t.lpp_continous arg.2).1 } with
  | none => rw [h1] at h; cases h
  | some st2 =>
    rw [h1] at h
    have hv : E_le st { st with lp :=
        (lpp_add_var st.lp (mangle_var 'y' rootnr arg.1) lpp_var_t.lpp_continous arg.2).1 } := by
      refine ⟨le_refl _, fun _ h => h, ?_⟩
      obtain ⟨k, _, _, _, _, hcase⟩ := lpp_add_var_spec st.lp (mangle_var 'y' rootnr arg.1)
        lpp_var_t.lpp_continous arg.2
      rcases hcase with ⟨_, _, hv⟩ | ⟨_, _, hv⟩
      · show st.lp.vars <+: _
        rw [hv]; exact List.prefix_append _ _
      · show st.lp.vars <+: _
        rw [hv]
    exact E_le_trans _ _ _ hv (E_le_trans _ _ _
      (foldlM_rel _ E_le E_le_refl E_le_trans _ (fun _ _ _ _ hs => E_le_common hs) _ _ h1)
      (foldlM_rel _ E_le E_le_refl E_le_trans _ (fun _ _ _ _ hs => E_le_disjunct hs) _ _ h))

theorem E_le_unit {co : copy_opt_t} {st st' : constr_E_t} {curr : unit_t}
    (h : constr_E_unit co st curr = some st') : E_le st st' :=
  foldlM_rel _ E_le E_le_refl E_le_trans _ (fun _ _ _ _ hs => E_le_arg hs) _ _ h

theorem E_pair_done_mono {co : copy_opt_t} {root arg : Nat} {s s' : constr_E_t}
    (hle : E_le s s') (h : E_pair_done co root arg s) : E_pair_done co root arg s' := by
  obtain ⟨h1, h2, h3⟩ := h
  refine ⟨var_names_of_initial hle.2.2 h1, ?_, ?_⟩
  · intro c hc
    obtain ⟨⟨i, hi⟩, ⟨j, hj⟩⟩ := h2 c hc
    exact ⟨⟨i, hle.2.1 _ hi⟩, ⟨j, hle.2.1 _ hj⟩⟩
  · intro c hc
    obtain ⟨ha, hb⟩ := h3 c hc
    exact ⟨fun h => (ha h).imp (fun i hi => hle.2.1 _ hi),
      fun h => (hb h).imp (fun i hi => hle.2.1 _ hi)⟩

theorem name_find_append_not_mem {l : List (List Char)} {name : List Char} (h : name ∉ l) :
    name_find (l ++ [name]) name = some l.length := by
  induction l with
  | nil => simp [name_find]
  | cons x xs ih =>
    have hx : x ≠ name := fun hx => h (hx ▸ List.mem_cons_self _ _)
    have hxs : name ∉ xs := fun hm => h (List.mem_cons_of_mem _ hm)
    have := ih hxs
    simp only [List.cons_append, name_find, hx, if_false, List.length_cons]
    rw [show xs.append [name] = xs ++ [name] from rfl, this]
    rfl

/-- The number that `lpp_add_var` returns is the number under which the name is
found afterwards. -/
theorem lpp_add_var_idx (lp : lpp_t) (name : List Char) (t : lpp_var_t) (obj : Int) :
    (lpp_add_var lp name t obj).2 = lpp_get_var_idx (lpp_add_var lp name t obj).1 name ∧
    name ∈ var_names (lpp_add_var lp name t obj).1 := by
  by_cases hm : name ∈ var_names lp
  · obtain ⟨k, hk, hidx, hget⟩ := lpp_get_var_idx_of_mem hm
    have hne : lpp_get_var_idx lp name ≠ -1 := by rw [hidx]; omega
    have he : lpp_add_var lp name t obj = (lp, lpp_get_var_idx lp name) := by
      unfold lpp_add_var; rw [if_neg hne]
    rw [he]
    exact ⟨rfl, hm⟩
  · have hidx := lpp_get_var_idx_of_not_mem hm
    have he : lpp_add_var lp name t obj =
        ({ lp with vars := lp.vars ++ [{ name := name, var_type := t, obj := obj }] },
          (lp.vars.length : Int) + 1) := by
      unfold lpp_add_var; rw [if_pos hidx]
    rw [he]
    constructor
    · simp only [lpp_get_var_idx, List.map_append, List.map_cons, List.map_nil]
      rw [name_find_append_not_mem (by simpa [var_names] using hm)]
      simp
    · simp [var_names]

theorem common_regs_spec (co : copy_opt_t) (root arg c : Nat) :
    c ∈ common_regs co root arg ↔
      c < co.chordal_env.n_regs ∧ co.allocatable root c = true ∧ co.allocatable arg c = true := by
  simp only [common_regs, allocatable_regs, List.mem_filter, List.mem_range]
  tauto

theorem disjunct_regs_spec (co : copy_opt_t) (root arg c : Nat) :
    c ∈ disjunct_regs co root arg ↔
      c < co.chordal_env.n_regs ∧ co.allocatable root c ≠ co.allocatable arg c := by
  simp [disjunct_regs]

theorem lpp_get_var_idx_pos {lp : lpp_t} {name : List Char} (h : 0 ≤ lpp_get_var_idx lp name) :
    1 ≤ lpp_get_var_idx lp name := by
  rcases lpp_get_var_idx_range lp name with h1 | h1
  · omega
  · exact h1.1

/-- The column numbers of an x variable and of a y variable differ. -/
theorem lpp_get_var_idx_x_ne_y {lp : lpp_t} {n c r a : Int}
    (h : 0 ≤ lpp_get_var_idx lp (mangle_var 'x' n c)) :
    lpp_get_var_idx lp (mangle_var 'x' n c) ≠ lpp_get_var_idx lp (mangle_var 'y' r a) := by
  intro heq
  have := lpp_get_var_idx_inj heq (by omega)
  obtain ⟨t1, ht1⟩ := mangle_var_head 'x' n c
  obtain ⟨t2, ht2⟩ := mangle_var_head 'y' r a
  rw [ht1, ht2] at this
  simp only [List.cons.injEq] at this
  exact absurd this.1 (by decide)

/-- The column numbers of the x variables of two different nodes differ. -/
theorem lpp_get_var_idx_x_ne_x {lp : lpp_t} {n n' c : Nat} (hn : n < 2 ^ 31) (hn' : n' < 2 ^ 31)
    (hc : c < 2 ^ 31) (hne : n ≠ n')
    (h : 0 ≤ lpp_get_var_idx lp (mangle_var 'x' (n : Int) (c : Int))) :
    lpp_get_var_idx lp (mangle_var 'x' (n : Int) (c : Int)) ≠
      lpp_get_var_idx lp (mangle_var 'x' (n' : Int) (c : Int)) := by
  intro heq
  have := lpp_get_var_idx_inj heq (by omega)
  exact hne (mangle_var_x_inj_nat hn hc hn' hc this).1

/-- The body of the first loop over colors of `pi_add_constr_E` keeps what
holds of the state and records the two rows it adds. -/
theorem E_inv_common {co : copy_opt_t} {lp0 : lpp_t} {st st' : constr_E_t} {root arg c : Nat}
    {y_idx : Int}
    (hfresh0 : ∀ k : Int, 0 ≤ k → k < 2 ^ 31 → mangle_cst 'E' k ∉ cst_names lp0)
    (hregs : co.chordal_env.n_regs ≤ 2 ^ 31) (hroot : root < 2 ^ 31) (harg : arg < 2 ^ 31)
    (hne : arg ≠ root) (hc : c ∈ common_regs co root arg)
    (hy : y_idx = lpp_get_var_idx st.lp (mangle_var 'y' (root : Int) (arg : Int)))
    (hym : mangle_var 'y' (root : Int) (arg : Int) ∈ var_names st.lp)
    (hinv : E_inv co lp0 st) (hb : st'.cst_counter ≤ 2 ^ 31)
    (h : constr_E_common root arg y_idx st c = some st') :
    E_inv co lp0 st' ∧ st'.lp.vars = st.lp.vars ∧
    (∃ i, E_row.mk root arg c E_kind.root_arg i ∈ st'.rows) ∧
    (∃ i, E_row.mk root arg c E_kind.arg_root i ∈ st'.rows) := by
  obtain ⟨hc1, hc2, hc3⟩ := (common_regs_spec co root arg c).1 hc
  have hcr : c < 2 ^ 31 := lt_of_lt_of_le hc1 hregs
  unfold constr_E_common at h
  cases h1 : constr_E_add st
      [(lpp_get_var_idx st.lp (mangle_var 'x' root c), 1),
       (lpp_get_var_idx st.lp (mangle_var 'x' arg c), -1), (y_idx, -1)]
      (E_row.mk root arg c E_kind.root_arg) with
  | none => rw [h1] at h; cases h
  | some st1 =>
    rw [h1] at h
    obtain ⟨hcnt1, hv1, _, hcols⟩ := constr_E_add_step h1
    obtain ⟨hcnt2, _, _, _⟩ := constr_E_add_step h
    have hrx : 0 ≤ lpp_get_var_idx st.lp (mangle_var 'x' (root : Int) (c : Int)) :=
      hcols (_, 1) (List.mem_cons_self _ _)
    have hax : 0 ≤ lpp_get_var_idx st.lp (mangle_var 'x' (arg : Int) (c : Int)) :=
      hcols (_, -1) (List.mem_cons_of_mem _ (List.mem_cons_self _ _))
    have hyk : 1 ≤ y_idx := by
      obtain ⟨k, _, hk, _⟩ := lpp_get_var_idx_of_mem hym
      rw [hy, hk]; omega
    have hxy1 := lpp_get_var_idx_x_ne_y (r := (root : Int)) (a := (arg : Int)) hrx
    have hxy2 := lpp_get_var_idx_x_ne_y (r := (root : Int)) (a := (arg : Int)) hax
    have hxx := lpp_get_var_idx_x_ne_x hroot harg hcr (Ne.symm hne) hrx
    rw [← hy] at hxy1 hxy2
    have hnd : ∀ v1 v2 v3 : Int, (List.map Prod.fst
        [(lpp_get_var_idx st.lp (mangle_var 'x' (root : Int) (c : Int)), v1),
         (lpp_get_var_idx st.lp (mangle_var 'x' (arg : Int) (c : Int)), v2),
         (y_idx, v3)]).Nodup := by
      intro v1 v2 v3
      simp only [List.map_cons, List.map_nil, List.nodup_cons, List.mem_cons, List.mem_singleton,
        List.not_mem_nil, not_or, not_false_eq_true, List.nodup_nil, and_true]
      exact ⟨⟨hxx, hxy1⟩, hxy2⟩
    have hne0 : ∀ v1 v2 v3 : Int, ∀ w ∈
        [(lpp_get_var_idx st.lp (mangle_var 'x' (root : Int) (c : Int)), v1),
         (lpp_get_var_idx st.lp (mangle_var 'x' (arg : Int) (c : Int)), v2),
         (y_idx, v3)], w.1 ≠ 0 := by
      intro v1 v2 v3 w hw
      have h1' := lpp_get_var_idx_pos hrx
      have h2' := lpp_get_var_idx_pos hax
      simp only [List.mem_cons, List.mem_singleton, List.not_mem_nil, or_false] at hw
      rcases hw with rfl | rfl | rfl <;> simp only <;> omega
    have hnames : ∀ nm ∈ [mangle_var 'x' (root : Int) (c : Int),
        mangle_var 'x' (arg : Int) (c : Int), mangle_var 'y' (root : Int) (arg : Int)],
        nm ∈ var_names st.lp := by
      intro nm hnm
      simp only [List.mem_cons, List.mem_singleton, List.not_mem_nil, or_false] at hnm
      rcases hnm with rfl | rfl | rfl
      · exact lpp_get_var_idx_mem hrx
      · exact lpp_get_var_idx_mem hax
      · exact hym
    obtain ⟨hinv1, hrows1, _, _⟩ := E_inv_add hfresh0 hinv (by omega) h1 (hnd _ _ _)
      (hne0 _ _ _)
      (fun i => ⟨rfl, hnames, fun value => by
        simp only [writes_value, E_row_value, xv, yv, List.map_cons, List.map_nil,
          List.sum_cons, List.sum_nil, hy]
        push_cast
        ring, ⟨hc1, hc2, hc3⟩⟩)
    have hsame : ∀ name, lpp_get_var_idx st1.lp name = lpp_get_var_idx st.lp name :=
      lpp_get_var_idx_congr hv1
    obtain ⟨hinv2, hrows2, hv2, _⟩ := E_inv_add hfresh0 hinv1 (by omega) h (hnd _ _ _)
      (hne0 _ _ _)
      (fun i => ⟨rfl, fun nm hnm => by
          simp only [var_names, hv1]
          exact hnames nm hnm, fun value => by
        simp only [writes_value, E_row_value, xv, yv, List.map_cons, List.map_nil,
          List.sum_cons, List.sum_nil, hy, hsame]
        push_cast
        ring, ⟨hc1, hc2, hc3⟩⟩)
    refine ⟨hinv2, hv2.trans hv1, ?_, ?_⟩
    · rw [hrows2, hrows1]
      exact ⟨_, List.mem_cons_of_mem _ (List.mem_cons_self _ _)⟩
    · rw [hrows2]
      exact ⟨_, List.mem_cons_self _ _⟩

/-- A block of `pi_add_constr_E` that adds a row with one x variable and the y
variable keeps what holds of the state. -/
theorem E_inv_add_two {co : copy_opt_t} {lp0 : lpp_t} {st st' : constr_E_t} {root arg c n : Nat}
    {kind : E_kind}
    (hfresh0 : ∀ k : Int, 0 ≤ k → k < 2 ^ 31 → mangle_cst 'E' k ∉ cst_names lp0)
    (hym : mangle_var 'y' (root : Int) (arg : Int) ∈ var_names st.lp)
    (hinv : E_inv co lp0 st) (hb : st'.cst_counter ≤ 2 ^ 31)
    (hplace : E_row_place co (E_row.mk root arg c kind 0))
    (hkind : (kind = E_kind.root_only ∧ n = root) ∨ (kind = E_kind.arg_only ∧ n = arg))
    (h : constr_E_add st
      [(lpp_get_var_idx st.lp (mangle_var 'x' (n : Int) (c : Int)), 1),
        (lpp_get_var_idx st.lp (mangle_var 'y' (root : Int) (arg : Int)), -1)]
      (E_row.mk root arg c kind) = some st') :
    E_inv co lp0 st' ∧ st'.lp.vars = st.lp.vars ∧ ∃ i, E_row.mk root arg c kind i ∈ st'.rows := by
  obtain ⟨hcnt, _, _, hcols⟩ := constr_E_add_step h
  have hx : 0 ≤ lpp_get_var_idx st.lp (mangle_var 'x' (n : Int) (c : Int)) :=
    hcols (_, 1) (List.mem_cons_self _ _)
  have hxy := lpp_get_var_idx_x_ne_y (r := (root : Int)) (a := (arg : Int)) hx
  have hyk : 1 ≤ lpp_get_var_idx st.lp (mangle_var 'y' (root : Int) (arg : Int)) := by
    obtain ⟨k, _, hk, _⟩ := lpp_get_var_idx_of_mem hym
    rw [hk]; omega
  obtain ⟨hinv', hrows, hv, _⟩ := E_inv_add hfresh0 hinv (by omega) h
    (by
      simp only [List.map_cons, List.map_nil, List.nodup_cons, List.mem_singleton,
        List.not_mem_nil, not_false_eq_true, List.nodup_nil, and_true]
      exact hxy)
    (by
      intro w hw
      have h1' := lpp_get_var_idx_pos hx
      simp only [List.mem_cons, List.mem_singleton, List.not_mem_nil, or_false] at hw
      rcases hw with rfl | rfl <;> simp only <;> omega)
    (fun i => ⟨rfl, by
        intro nm hnm
        rcases hkind with ⟨rfl, rfl⟩ | ⟨rfl, rfl⟩ <;>
        · simp only [E_row_names, List.mem_cons, List.mem_singleton, List.not_mem_nil,
            or_false] at hnm
          rcases hnm with rfl | rfl
          · exact lpp_get_var_idx_mem hx
          · exact hym, fun value => by
        rcases hkind with ⟨rfl, rfl⟩ | ⟨rfl, rfl⟩ <;>
        · simp only [writes_value, E_row_value, xv, yv, List.map_cons, List.map_nil,
            List.sum_cons, List.sum_nil]
          push_cast
          ring, hplace⟩)
  refine ⟨hinv', hv, ?_⟩
  rw [hrows]
  exact ⟨_, List.mem_cons_self _ _⟩

/-- The body of the second loop over colors of `pi_add_constr_E` keeps what
holds of the state and records the row it adds. -/
theorem E_inv_disjunct {co : copy_opt_t} {lp0 : lpp_t} {st st' : constr_E_t} {root arg c : Nat}
    {y_idx : Int}
    (hfresh0 : ∀ k : Int, 0 ≤ k → k < 2 ^ 31 → mangle_cst 'E' k ∉ cst_names lp0)
    (hc : c ∈ disjunct_regs co root arg)
    (hy : y_idx = lpp_get_var_idx st.lp (mangle_var 'y' (root : Int) (arg : Int)))
    (hym : mangle_var 'y' (root : Int) (arg : Int) ∈ var_names st.lp)
    (hinv : E_inv co lp0 st) (hb : st'.cst_counter ≤ 2 ^ 31)
    (h : constr_E_disjunct co root arg y_idx st c = some st') :
    E_inv co lp0 st' ∧ st'.lp.vars = st.lp.vars ∧
    (co.allocatable root c = true → ∃ i, E_row.mk root arg c E_kind.root_only i ∈ st'.rows) ∧
    (co.allocatable root c = false → ∃ i, E_row.mk root arg c E_kind.arg_only i ∈ st'.rows) := by
  obtain ⟨hc1, hc2⟩ := (disjunct_regs_spec co root arg c).1 hc
  subst hy
  unfold constr_E_disjunct at h
  by_cases hr : co.allocatable root c = true
  · rw [if_pos hr] at h
    have ha : co.allocatable arg c = false := by
      cases hav : co.allocatable arg c
      · rfl
      · rw [hr, hav] at hc2; exact absurd rfl hc2
    obtain ⟨h1, h2, h3⟩ := E_inv_add_two hfresh0 hym hinv hb (by exact ⟨hc1, hr, ha⟩) (Or.inl ⟨rfl, rfl⟩) h
    exact ⟨h1, h2, fun _ => h3, fun hf => by rw [hr] at hf; cases hf⟩
  · rw [if_neg hr] at h
    have hr' : co.allocatable root c = false := by simpa using hr
    have ha : co.allocatable arg c = true := by
      cases hav : co.allocatable arg c
      · rw [hr', hav] at hc2; exact absurd rfl hc2
      · rfl
    rw [if_pos ha] at h
    obtain ⟨h1, h2, h3⟩ := E_inv_add_two hfresh0 hym hinv hb (by exact ⟨hc1, hr', ha⟩) (Or.inr ⟨rfl, rfl⟩) h
    exact ⟨h1, h2, fun hf => absurd hf hr, fun _ => h3⟩

/-- The body of the loop of `pi_add_constr_E` over the arguments of a root
keeps what holds of the state and records all rows of the argument. -/
theorem E_inv_arg {co : copy_opt_t} {lp0 : lpp_t} {st st' : constr_E_t} {root : Nat}
    {arg : Nat × Int}
    (hfresh0 : ∀ k : Int, 0 ≤ k → k < 2 ^ 31 → mangle_cst 'E' k ∉ cst_names lp0)
    (hregs : co.chordal_env.n_regs ≤ 2 ^ 31) (hroot : root < 2 ^ 31) (harg : arg.1 < 2 ^ 31)
    (hne : arg.1 ≠ root)
    (hinv : E_inv co lp0 st) (hb : st'.cst_counter ≤ 2 ^ 31)
    (h : constr_E_arg co root st arg = some st') :
    E_inv co lp0 st' ∧ E_pair_done co root arg.1 st' := by
  unfold constr_E_arg at h
  simp only at h
  obtain ⟨hyidx, hymem⟩ := lpp_add_var_idx st.lp (mangle_var 'y' (root : Int) (arg.1 : Int))
    lpp_var_t.lpp_continous arg.2
  obtain ⟨hwf1, hframe1⟩ := lpp_add_var_frame st.lp (mangle_var 'y' (root : Int) (arg.1 : Int))
    lpp_var_t.lpp_continous arg.2 hinv.wf
  have hcsts1 := (lpp_add_var_spec st.lp (mangle_var 'y' (root : Int) (arg.1 : Int))
    lpp_var_t.lpp_continous arg.2).choose_spec.2.2.1
  generalize hy : (lpp_add_var st.lp (mangle_var 'y' (root : Int) (arg.1 : Int))
    lpp_var_t.lpp_continous arg.2).2 = y_idx at h hyidx
  generalize hl : (lpp_add_var st.lp (mangle_var 'y' (root : Int) (arg.1 : Int))
    lpp_var_t.lpp_continous arg.2).1 = lp1 at h hyidx hymem hwf1 hframe1 hcsts1
  have hinv1 : E_inv co lp0 { st with lp := lp1 } :=
    ⟨hwf1, lp_frame_trans hinv.frame hframe1, hinv.counter, by
      show lp1.csts = _
      rw [hcsts1]; exact hinv.csts, hinv.idxs,
      fun e he => E_row_ok_frame hinv.wf hframe1 (hinv.rows e he)⟩
  cases h1 : (common_regs co root arg.1).foldlM (constr_E_common root arg.1 y_idx)
      { st with lp := lp1 } with
  | none => rw [h1] at h; cases h
  | some st2 =>
    rw [h1] at h
    have hle2 : E_le st2 st' :=
      foldlM_rel _ E_le E_le_refl E_le_trans _ (fun _ _ _ _ hs => E_le_disjunct hs) _ _ h
    -- the colors root and arg have in common
    have hP1 := foldlM_ind (constr_E_common root arg.1 y_idx)
      (fun done s => s.cst_counter ≤ 2 ^ 31 → E_inv co lp0 s ∧ s.lp.vars = lp1.vars ∧
        ∀ c ∈ done, (∃ i, E_row.mk root arg.1 c E_kind.root_arg i ∈ s.rows) ∧
          (∃ i, E_row.mk root arg.1 c E_kind.arg_root i ∈ s.rows))
      (common_regs co root arg.1)
      (by
        intro done a rest s s' hall hP hf hb'
        have hle := E_le_common hf
        obtain ⟨hi, hv, hd⟩ := hP (le_trans hle.1 hb')
        have hsame : ∀ name, lpp_get_var_idx s.lp name = lpp_get_var_idx lp1 name :=
          lpp_get_var_idx_congr hv
        obtain ⟨hi', hv', hr1, hr2⟩ := E_inv_common hfresh0 hregs hroot harg hne
          (by rw [hall]; simp) (by rw [hsame]; exact hyidx)
          (by simp only [var_names, hv]; exact hymem) hi hb' hf
        refine ⟨hi', hv'.trans hv, ?_⟩
        intro c hc
        rcases List.mem_append.1 hc with hc | hc
        · obtain ⟨⟨i, hi1⟩, ⟨j, hj1⟩⟩ := hd c hc
          exact ⟨⟨i, hle.2.1 _ hi1⟩, ⟨j, hle.2.1 _ hj1⟩⟩
        · simp only [List.mem_singleton] at hc
          subst hc
          exact ⟨hr1, hr2⟩)
      (common_regs co root arg.1) [] { st with lp := lp1 } st2 rfl
      (fun _ => ⟨hinv1, rfl, fun c hc => absurd hc (List.not_mem_nil c)⟩) h1
    obtain ⟨hinv2, hv2, hrows2⟩ := hP1 (le_trans hle2.1 hb)
    -- the colors only one of them can have
    have hP2 := foldlM_ind (constr_E_disjunct co root arg.1 y_idx)
      (fun done s => s.cst_counter ≤ 2 ^ 31 → E_inv co lp0 s ∧ s.lp.vars = lp1.vars ∧
        ∀ c ∈ done,
          (co.allocatable root c = true →
            ∃ i, E_row.mk root arg.1 c E_kind.root_only i ∈ s.rows) ∧
          (co.allocatable root c = false →
            ∃ i, E_row.mk root arg.1 c E_kind.arg_only i ∈ s.rows))
      (disjunct_regs co root arg.1)
      (by
        intro done a rest s s' hall hP hf hb'
        have hle := E_le_disjunct hf
        obtain ⟨hi, hv, hd⟩ := hP (le_trans hle.1 hb')
        have hsame : ∀ name, lpp_get_var_idx s.lp name = lpp_get_var_idx lp1 name :=
          lpp_get_var_idx_congr hv
        obtain ⟨hi', hv', hr1, hr2⟩ := E_inv_disjunct hfresh0
          (by rw [hall]; simp) (by rw [hsame]; exact hyidx)
          (by simp only [var_names, hv]; exact hymem) hi hb' hf
        refine ⟨hi', hv'.trans hv, ?_⟩
        intro c hc
        rcases List.mem_append.1 hc with hc | hc
        · obtain ⟨ha, hb2⟩ := hd c hc
          exact ⟨fun h => (ha h).imp (fun i hi1 => hle.2.1 _ hi1),
            fun h => (hb2 h).imp (fun i hi1 => hle.2.1 _ hi1)⟩
        · simp only [List.mem_singleton] at hc
          subst hc
          exact ⟨hr1, hr2⟩)
      (disjunct_regs co root arg.1) [] st2 st' rfl
      (fun _ => ⟨hinv2, hv2, fun c hc => absurd hc (List.not_mem_nil c)⟩) h
    obtain ⟨hinv3, hv3, hrows3⟩ := hP2 hb
    refine ⟨hinv3, ?_, ?_, hrows3⟩
    · simp only [var_names, hv3]
      exact hymem
    · intro c hc
      obtain ⟨⟨i, hi1⟩, ⟨j, hj1⟩⟩ := hrows2 c hc
      exact ⟨⟨i, hle2.2.1 _ hi1⟩, ⟨j, hle2.2.1 _ hj1⟩⟩

/-- The body of the loop of `pi_add_constr_E` over the units keeps what holds
of the state and records all rows of the unit. -/
theorem E_inv_unit {co : copy_opt_t} {lp0 : lpp_t} {st st' : constr_E_t} {curr : unit_t}
    (hfresh0 : ∀ k : Int, 0 ≤ k → k < 2 ^ 31 → mangle_cst 'E' k ∉ cst_names lp0)
    (hregs : co.chordal_env.n_regs ≤ 2 ^ 31) (hroot : curr.root < 2 ^ 31)
    (hargs : ∀ a ∈ curr.args, a.1 < 2 ^ 31 ∧ a.1 ≠ curr.root)
    (hinv : E_inv co lp0 st) (hb : st'.cst_counter ≤ 2 ^ 31)
    (h : constr_E_unit co st curr = some st') :
    E_inv co lp0 st' ∧ ∀ a ∈ curr.args, E_pair_done co curr.root a.1 st' := by
  have hP := foldlM_ind (constr_E_arg co curr.root)
    (fun done s => s.cst_counter ≤ 2 ^ 31 → E_inv co lp0 s ∧
      ∀ a ∈ done, E_pair_done co curr.root a.1 s)
    curr.args
    (by
      intro done a rest s s' hall hP hf hb'
      have hle := E_le_arg hf
      obtain ⟨hi, hd⟩ := hP (le_trans hle.1 hb')
      have ha : a ∈ curr.args := by rw [hall]; simp
      obtain ⟨hi', hpair⟩ := E_inv_arg hfresh0 hregs hroot (hargs a ha).1 (hargs a ha).2 hi hb' hf
      refine ⟨hi', ?_⟩
      intro a' ha'
      rcases List.mem_append.1 ha' with ha' | ha'
      · exact E_pair_done_mono hle (hd a' ha')
      · simp only [List.mem_singleton] at ha'
        subst ha'
        exact hpair)
    curr.args [] st st' rfl (fun _ => ⟨hinv, fun a ha => absurd ha (List.not_mem_nil a)⟩) h
  exact hP hb

/-- What holds after `pi_add_constr_E`: the rows recorded are the rows added,
each says what its place names, and for every unit and every argument of its
root all rows are there. -/
theorem E_inv_units {co : copy_opt_t} {lp0 : lpp_t} {st : constr_E_t}
    (hwf0 : lp_wf lp0)
    (hfresh0 : ∀ k : Int, 0 ≤ k → k < 2 ^ 31 → mangle_cst 'E' k ∉ cst_names lp0)
    (hregs : co.chordal_env.n_regs ≤ 2 ^ 31)
    (hunits : ∀ u ∈ co.units, u.root < 2 ^ 31 ∧ ∀ a ∈ u.args, a.1 < 2 ^ 31 ∧ a.1 ≠ u.root)
    (hb : st.cst_counter ≤ 2 ^ 31)
    (h : constr_E_units co lp0 = some st) :
    E_inv co lp0 st ∧ ∀ u ∈ co.units, ∀ a ∈ u.args, E_pair_done co u.root a.1 st := by
  have hP := foldlM_ind (constr_E_unit co)
    (fun done s => s.cst_counter ≤ 2 ^ 31 → E_inv co lp0 s ∧
      ∀ u ∈ done, ∀ a ∈ u.args, E_pair_done co u.root a.1 s)
    co.units
    (by
      intro done u rest s s' hall hP hf hb'
      have hle := E_le_unit hf
      obtain ⟨hi, hd⟩ := hP (le_trans hle.1 hb')
      have hu : u ∈ co.units := by rw [hall]; simp
      obtain ⟨hi', hpairs⟩ := E_inv_unit hfresh0 hregs (hunits u hu).1 (hunits u hu).2 hi hb' hf
      refine ⟨hi', ?_⟩
      intro u' hu' a ha
      rcases List.mem_append.1 hu' with hu' | hu'
      · exact E_pair_done_mono hle (hd u' hu' a ha)
      · simp only [List.mem_singleton] at hu'
        subst hu'
        exact hpairs a ha)
    co.units [] { lp := lp0 } st rfl
    (fun _ => ⟨⟨hwf0, lp_frame_refl _, rfl, by simp, by simp,
      fun e he => absurd he (List.not_mem_nil e)⟩,
      fun u hu => absurd hu (List.not_mem_nil u)⟩) h
  exact hP hb

/-- A row recorded holds under an assignment exactly when the left-hand side
named at its place is at most 0. -/
theorem E_row_holds_iff {co : copy_opt_t} {lp : lpp_t} {e : E_row} (h : E_row_ok co lp e)
    (value : Nat → Rat) :
    lpp_cst_holds lp value (e.cst_idx - 1).toNat ↔ E_row_value lp value e ≤ 0 := by
  obtain ⟨i, hi, c, hc, hc1, hc2⟩ := h.idx
  have hn : (e.cst_idx - 1).toNat = i := by omega
  unfold lpp_cst_holds
  rw [hn, hc]
  simp only [hc1, hc2, ← hi, h.value value, Int.cast_zero]

/-- C17. The constraints E force the copy indicator. Let `pi_add_constr_E`
return for the problem `lp0` (well formed, without a row named `E<k>`), with
the numbers in the range of `int` and no root among its own arguments. The
rows recorded are the rows it added. For a unit, an argument `a` of its root,
and an assignment in which the root has the value 1 in the column of its color
`cr` and 0 in the columns of its other allocatable colors, and the argument
likewise for its color `ca`:
* when `cr ≠ ca`, the rows added for the root and this argument hold only if
  the value of `y<root>_<arg>` is at least 1;
* when `cr = ca`, they all hold when `y<root>_<arg>` has the value 0. -/
theorem constr_E_forces_copy_indicator (co : copy_opt_t) (lp0 : lpp_t) (st : constr_E_t)
    (hwf0 : lp_wf lp0)
    (hfresh0 : ∀ k : Int, 0 ≤ k → k < 2 ^ 31 → mangle_cst 'E' k ∉ cst_names lp0)
    (hregs : co.chordal_env.n_regs ≤ 2 ^ 31)
    (hunits : ∀ u ∈ co.units, u.root < 2 ^ 31 ∧ ∀ a ∈ u.args, a.1 < 2 ^ 31 ∧ a.1 ≠ u.root)
    (hcnt : st.cst_counter ≤ 2 ^ 31)
    (h : constr_E_units co lp0 = some st)
    (u : unit_t) (hu : u ∈ co.units) (a : Nat × Int) (ha : a ∈ u.args)
    (value : Nat → Rat) (cr ca : Nat)
    (hcr : cr ∈ allocatable_regs co u.root)
    (hxr : ∀ c ∈ allocatable_regs co u.root, xv st.lp value u.root c = if c = cr then 1 else 0)
    (hca : ca ∈ allocatable_regs co a.1)
    (hxa : ∀ c ∈ allocatable_regs co a.1, xv st.lp value a.1 c = if c = ca then 1 else 0) :
    (st.lp.csts = lp0.csts ++ (List.range st.rows.length).map
        (fun i : Nat => lpp_cst.mk (mangle_cst 'E' (i : Int)) lpp_cst_t.lpp_less 0) ∧
      st.rows.reverse.map (fun e => e.cst_idx) =
        (List.range st.rows.length).map
          (fun i : Nat => (lp0.csts.length : Int) + (i : Int) + 1)) ∧
    (cr ≠ ca →
      (∀ e ∈ st.rows, e.root = u.root → e.arg = a.1 →
        lpp_cst_holds st.lp value (e.cst_idx - 1).toNat) →
      1 ≤ yv st.lp value u.root a.1) ∧
    (cr = ca → yv st.lp value u.root a.1 = 0 →
      ∀ e ∈ st.rows, e.root = u.root → e.arg = a.1 →
        lpp_cst_holds st.lp value (e.cst_idx - 1).toNat) := by
  obtain ⟨hinv, hpairs⟩ := E_inv_units hwf0 hfresh0 hregs hunits hcnt h
  obtain ⟨_, hcommon, hdisj⟩ := hpairs u hu a ha
  obtain ⟨hcr1, hcr2⟩ := (allocatable_regs_spec co u.root cr).1 hcr
  obtain ⟨hca1, hca2⟩ := (allocatable_regs_spec co a.1 ca).1 hca
  refine ⟨⟨hinv.csts, hinv.idxs⟩, ?_, ?_⟩
  · intro hne hrows
    have hxr1 : xv st.lp value u.root cr = 1 := by rw [hxr cr hcr, if_pos rfl]
    by_cases hac : co.allocatable a.1 cr = true
    · obtain ⟨⟨i, hi⟩, _⟩ := hcommon cr ((common_regs_spec co _ _ _).2 ⟨hcr1, hcr2, hac⟩)
      have hrow := (E_row_holds_iff (hinv.rows _ hi) value).1 (hrows _ hi rfl rfl)
      have hxa0 : xv st.lp value a.1 cr = 0 := by
        rw [hxa cr ((allocatable_regs_spec co _ _).2 ⟨hcr1, hac⟩), if_neg hne]
      simp only [E_row_value, hxr1, hxa0] at hrow
      linarith
    · have hac' : co.allocatable a.1 cr = false := by simpa using hac
      obtain ⟨hro, _⟩ := hdisj cr ((disjunct_regs_spec co _ _ _).2
        ⟨hcr1, by rw [hcr2, hac']; decide⟩)
      obtain ⟨i, hi⟩ := hro hcr2
      have hrow := (E_row_holds_iff (hinv.rows _ hi) value).1 (hrows _ hi rfl rfl)
      simp only [E_row_value, hxr1] at hrow
      linarith
  · intro heq hy e he her hea
    have hok := hinv.rows e he
    rw [E_row_holds_iff hok value]
    obtain ⟨hcl, hplace⟩ := hok.place
    subst heq
    have hxr' : ∀ c, c < co.chordal_env.n_regs → co.allocatable u.root c = true →
        xv st.lp value u.root c = if c = cr then 1 else 0 :=
      fun c h1 h2 => hxr c ((allocatable_regs_spec co _ _).2 ⟨h1, h2⟩)
    have hxa' : ∀ c, c < co.chordal_env.n_regs → co.allocatable a.1 c = true →
        xv st.lp value a.1 c = if c = cr then 1 else 0 :=
      fun c h1 h2 => hxa c ((allocatable_regs_spec co _ _).2 ⟨h1, h2⟩)
    unfold E_row_value
    cases hk : e.kind <;> simp only [hk, her, hea] at hplace ⊢ <;> rw [hy]
    · rw [hxr' _ hcl hplace.1, hxa' _ hcl hplace.2]; simp
    · rw [hxr' _ hcl hplace.1, hxa' _ hcl hplace.2]; simp
    · have : e.color ≠ cr := by
        rintro rfl
        rw [hca2] at hplace
        exact absurd hplace.2 (by decide)
      rw [hxr' _ hcl hplace.1, if_neg this]; simp
    · have : e.color ≠ cr := by
        rintro rfl
        rw [hcr2] at hplace
        exact absurd hplace.1 (by decide)
      rw [hxa' _ hcl hplace.2, if_neg this]; simp

/-- No row has a name that `mangle_cst` makes with the prefix `p`, when no name
of a row starts with `p`. -/
theorem fresh_of_heads {lp : lpp_t} {p : Char}
    (h : ∀ nm ∈ cst_names lp, nm.head? ≠ some p) (k : Int) : mangle_cst p k ∉ cst_names lp := by
  intro hmem
  obtain ⟨t, ht⟩ := mangle_cst_head p k
  have := h _ hmem
  rw [ht] at this
  exact this rfl

set_option maxRecDepth 100000 in
theorem unit_st_E_eq : constr_E_units unit_co unit_lp_AB = some unit_st_E := by
  rfl

set_option maxRecDepth 100000 in
/-- Witness of C17 on a Phi 0 with the arguments 1 and 2, for the argument 2
and an assignment in which the root has the color 0, which the argument 2
cannot have, and the argument 2 has the color 1. -/
theorem constr_E_forces_copy_indicator_witness :
    (lp_wf unit_lp_AB ∧
      (∀ k : Int, 0 ≤ k → k < 2 ^ 31 → mangle_cst 'E' k ∉ cst_names unit_lp_AB) ∧
      unit_co.chordal_env.n_regs ≤ 2 ^ 31 ∧
      (∀ u ∈ unit_co.units, u.root < 2 ^ 31 ∧ ∀ a ∈ u.args, a.1 < 2 ^ 31 ∧ a.1 ≠ u.root) ∧
      unit_st_E.cst_counter ≤ 2 ^ 31 ∧
      constr_E_units unit_co unit_lp_AB = some unit_st_E ∧
      unit_st_E.rows.length = 7) ∧
    ((unit_st_E.lp.csts = unit_lp_AB.csts ++ (List.range unit_st_E.rows.length).map
        (fun i : Nat => lpp_cst.mk (mangle_cst 'E' (i : Int)) lpp_cst_t.lpp_less 0) ∧
      unit_st_E.rows.reverse.map (fun e => e.cst_idx) =
        (List.range unit_st_E.rows.length).map
          (fun i : Nat => (unit_lp_AB.csts.length : Int) + (i : Int) + 1)) ∧
    ((0 : Nat) ≠ 1 →
      (∀ e ∈ unit_st_E.rows, e.root = 0 → e.arg = 2 →
        lpp_cst_holds unit_st_E.lp unit_value (e.cst_idx - 1).toNat) →
      1 ≤ yv unit_st_E.lp unit_value 0 2) ∧
    ((0 : Nat) = 1 → yv unit_st_E.lp unit_value 0 2 = 0 →
      ∀ e ∈ unit_st_E.rows, e.root = 0 → e.arg = 2 →
        lpp_cst_holds unit_st_E.lp unit_value (e.cst_idx - 1).toNat)) :=
  ⟨⟨by decide, fun k _ _ => fresh_of_heads (by decide) k, by decide, by decide, by decide,
      unit_st_E_eq, by decide⟩,
    constr_E_forces_copy_indicator unit_co unit_lp_AB unit_st_E (by decide)
      (fun k _ _ => fresh_of_heads (by decide) k) (by decide) (by decide) (by decide)
      unit_st_E_eq { root := 0, args := [(1, 10), (2, 3)], min_nodes_costs := 3 } (by decide)
      (2, 3) (by decide) unit_value 0 1 (by decide)
      (by
        intro c hc
        have hc' : c = 0 ∨ c = 1 := by
          have : allocatable_regs unit_co 0 = [0, 1] := by decide
          rw [this] at hc
          simpa using hc
        have h0 : lpp_get_var_idx unit_st_E.lp (mangle_var 'x' ((0 : Nat) : Int) ((0 : Nat) : Int))
            = 4 := by decide
        have h1 : lpp_get_var_idx unit_st_E.lp (mangle_var 'x' ((0 : Nat) : Int) ((1 : Nat) : Int))
            = 5 := by decide
        rcases hc' with rfl | rfl
        · unfold xv; rw [h0]; simp [unit_value, unit_value_int]
        · unfold xv; rw [h1]; simp [unit_value, unit_value_int])
      (by decide)
      (by
        intro c hc
        have hc' : c = 1 := by
          have : allocatable_regs unit_co 2 = [1] := by decide
          rw [this] at hc
          simpa using hc
        have h1 : lpp_get_var_idx unit_st_E.lp (mangle_var 'x' ((2 : Nat) : Int) ((1 : Nat) : Int))
            = 3 := by decide
        subst hc'
        unfold xv; rw [h1]; simp [unit_value, unit_value_int])⟩

/-! ## The constraints E: the columns and the objective function -/

theorem foldlM_map_option {σ α β : Type} (f : σ → β → Option σ) (g : α → β) :
    ∀ (l : List α) (s : σ), (l.map g).foldlM f s = l.foldlM (fun s x => f s (g x)) s := by
  intro l
  induction l with
  | nil => intro s; rfl
  | cons a rest ih =>
    intro s
    simp only [List.map_cons, List.foldlM_cons]
    cases f s (g a) with
    | none => rfl
    | some s1 => exact ih s1

theorem foldlM_flatMap_option {σ α β : Type} (f : σ → β → Option σ) (g : α → List β) :
    ∀ (l : List α) (s : σ),
      (l.flatMap g).foldlM f s = l.foldlM (fun s x => (g x).foldlM f s) s := by
  intro l
  induction l with
  | nil => intro s; rfl
  | cons a rest ih =>
    intro s
    simp only [List.flatMap_cons, List.foldlM_append, List.foldlM_cons]
    cases (g a).foldlM f s with
    | none => rfl
    | some s1 => exact ih s1

/-- The loops of `pi_add_constr_E` over the units and their arguments are one
loop over the roots with their arguments. -/
theorem constr_E_units_eq_pairs (co : copy_opt_t) (lp0 : lpp_t) :
    constr_E_units co lp0 =
      (unit_pairs co).foldlM (fun s p => constr_E_arg co p.1 s p.2) { lp := lp0 } := by
  unfold constr_E_units unit_pairs
  rw [foldlM_flatMap_option]
  congr 1
  funext s u
  rw [foldlM_map_option]
  rfl

/-- What the body of the loop over the arguments does to the columns and to
the rows recorded. -/
theorem constr_E_arg_vars {co : copy_opt_t} {root : Nat} {st st' : constr_E_t} {arg : Nat × Int}
    (h : constr_E_arg co root st arg = some st') :
    st'.lp.vars = (lpp_add_var st.lp (mangle_var 'y' (root : Int) (arg.1 : Int))
      lpp_var_t.lpp_continous arg.2).1.vars ∧
    ∀ e ∈ st'.rows, e ∈ st.rows ∨ (e.root = root ∧ e.arg = arg.1) := by
  unfold constr_E_arg at h
  simp only at h
  cases h1 : (common_regs co root arg.1).foldlM
      (constr_E_common root arg.1
        (lpp_add_var st.lp (mangle_var 'y' root arg.1) lpp_var_t.lpp_continous arg.2).2)
      { st with lp :=
        (lpp_add_var st.lp (mangle_var 'y' root arg.1) lpp_var_t.lpp_continous arg.2).1 } with
  | none => rw [h1] at h; cases h
  | some st2 =>
    rw [h1] at h
    have hadd : ∀ (s s' : constr_E_t) (writes : List (Int × Int)) (c : Nat) (k : E_kind),
        constr_E_add s writes (E_row.mk root arg.1 c k) = some s' →
        s'.lp.vars = s.lp.vars ∧
          ∀ e ∈ s'.rows, e ∈ s.rows ∨ (e.root = root ∧ e.arg = arg.1) := by
      intro s s' writes c k hs
      obtain ⟨_, hv, ⟨i, hr⟩, _⟩ := constr_E_add_step hs
      refine ⟨hv, ?_⟩
      intro e he
      rw [hr] at he
      rcases List.mem_cons.1 he with rfl | he
      · exact Or.inr ⟨rfl, rfl⟩
      · exact Or.inl he
    have hR : ∀ a b c : constr_E_t,
        (b.lp.vars = a.lp.vars ∧ ∀ e ∈ b.rows, e ∈ a.rows ∨ (e.root = root ∧ e.arg = arg.1)) →
        (c.lp.vars = b.lp.vars ∧ ∀ e ∈ c.rows, e ∈ b.rows ∨ (e.root = root ∧ e.arg = arg.1)) →
        (c.lp.vars = a.lp.vars ∧ ∀ e ∈ c.rows, e ∈ a.rows ∨ (e.root = root ∧ e.arg = arg.1)) := by
      intro a b c h1 h2
      refine ⟨h2.1.trans h1.1, ?_⟩
      intro e he
      rcases h2.2 e he with h | h
      · exact h1.2 e h
      · exact Or.inr h
    have hc := foldlM_rel _
      (fun a b : constr_E_t => b.lp.vars = a.lp.vars ∧
        ∀ e ∈ b.rows, e ∈ a.rows ∨ (e.root = root ∧ e.arg = arg.1))
      (fun s => ⟨rfl, fun e he => Or.inl he⟩) hR _
      (fun c s s' _ hs => by
        unfold constr_E_common at hs
        cases hs1 : constr_E_add s
            [(lpp_get_var_idx s.lp (mangle_var 'x' root c), 1),
             (lpp_get_var_idx s.lp (mangle_var 'x' arg.1 c), -1),
             ((lpp_add_var st.lp (mangle_var 'y' root arg.1) lpp_var_t.lpp_continous arg.2).2, -1)]
            (E_row.mk root arg.1 c E_kind.root_arg) with
        | none => rw [hs1] at hs; cases hs
        | some s1 =>
          rw [hs1] at hs
          exact hR _ _ _ (hadd _ _ _ _ _ hs1) (hadd _ _ _ _ _ hs)) _ _ h1
    have hd := foldlM_rel _
      (fun a b : constr_E_t => b.lp.vars = a.lp.vars ∧
        ∀ e ∈ b.rows, e ∈ a.rows ∨ (e.root = root ∧ e.arg = arg.1))
      (fun s => ⟨rfl, fun e he => Or.inl he⟩) hR _
      (fun c s s' _ hs => by
        unfold constr_E_disjunct at hs
        split_ifs at hs
        · exact hadd _ _ _ _ _ hs
        · exact hadd _ _ _ _ _ hs) _ _ h
    exact hR _ _ _ hc hd

/-- After `pi_add_constr_E` the columns are those there were and, after them,
one column `y<root>_<arg>` for every root and argument, continuous and with the
cost of the argument in the objective function; every row recorded belongs to
a root and one of its arguments. -/
theorem E_vars_pairs {co : copy_opt_t} {lp0 : lpp_t} {st : constr_E_t}
    (hx0 : ∀ nm ∈ var_names lp0, nm.head? ≠ some 'y')
    (hrange : ∀ p ∈ unit_pairs co, p.1 < 2 ^ 31 ∧ p.2.1 < 2 ^ 31)
    (hnd : ((unit_pairs co).map (fun p => (p.1, p.2.1))).Nodup)
    (h : constr_E_units co lp0 = some st) :
    st.lp.vars = lp0.vars ++ (unit_pairs co).map y_var ∧
    ∀ e ∈ st.rows, ∃ p ∈ unit_pairs co, e.root = p.1 ∧ e.arg = p.2.1 := by
  rw [constr_E_units_eq_pairs] at h
  have hP := foldlM_ind (fun s p => constr_E_arg co p.1 s p.2)
    (fun done s => s.lp.vars = lp0.vars ++ done.map y_var ∧
      ∀ e ∈ s.rows, ∃ p ∈ done, e.root = p.1 ∧ e.arg = p.2.1)
    (unit_pairs co)
    (by
      intro done p rest s s' hall hP hf
      obtain ⟨hv, hr⟩ := hP
      obtain ⟨hv', hr'⟩ := constr_E_arg_vars hf
      have hp : p ∈ unit_pairs co := by rw [hall]; simp
      have hfresh : mangle_var 'y' (p.1 : Int) (p.2.1 : Int) ∉ var_names s.lp := by
        simp only [var_names, hv, List.map_append, List.map_map, List.mem_append, not_or]
        constructor
        · intro hm
          have := hx0 _ (by simpa [var_names] using hm)
          obtain ⟨t, ht⟩ := mangle_var_head 'y' (p.1 : Int) (p.2.1 : Int)
          rw [ht] at this
          exact this rfl
        · intro hm
          simp only [List.mem_map, Function.comp_apply, y_var] at hm
          obtain ⟨p', hp', hname⟩ := hm
          have hp'' : p' ∈ unit_pairs co := by rw [hall]; simp [hp']
          obtain ⟨_, h1, h2⟩ := mangle_var_inj_nat (hrange p' hp'').1 (hrange p' hp'').2
            (hrange p hp).1 (hrange p hp).2 hname
          rw [hall] at hnd
          simp only [List.map_append, List.map_cons] at hnd
          have hdis := (List.nodup_append.1 hnd).2.2
          have heq : (p'.1, p'.2.1) = (p.1, p.2.1) := by rw [Prod.mk.injEq]; exact ⟨h1, h2⟩
          exact hdis (List.mem_map.2 ⟨p', hp', rfl⟩) (by rw [heq]; exact List.mem_cons_self _ _)
      obtain ⟨k, _, _, _, _, hcase⟩ := lpp_add_var_spec s.lp
        (mangle_var 'y' (p.1 : Int) (p.2.1 : Int)) lpp_var_t.lpp_continous p.2.2
      rcases hcase with ⟨_, _, hvars⟩ | ⟨hin, _, _⟩
      swap
      · exact absurd hin hfresh
      constructor
      · rw [hv', hvars, hv, List.map_append, List.append_assoc]
        rfl
      · intro e he
        rcases hr' e he with hold | hnew
        · obtain ⟨p', hp', h1⟩ := hr e hold
          exact ⟨p', List.mem_append_left _ hp', h1⟩
        · exact ⟨p, by simp, hnew⟩)
    (unit_pairs co) [] { lp := lp0 } st (List.nil_append _).symm
    ⟨by simp, fun e he => absurd he (List.not_mem_nil e)⟩
  exact hP h

theorem objective_from_append (value : Nat → Rat) :
    ∀ (l1 l2 : List lpp_var) (k : Nat),
      objective_from value k (l1 ++ l2) =
        objective_from value k l1 + objective_from value (k + l1.length) l2 := by
  intro l1
  induction l1 with
  | nil => intro l2 k; simp [objective_from]
  | cons v vs ih =>
    intro l2 k
    show (v.obj : Rat) * value (k + 1) + objective_from value (k + 1) (vs ++ l2) =
      (v.obj : Rat) * value (k + 1) + objective_from value (k + 1) vs +
        objective_from value (k + (vs.length + 1)) l2
    rw [ih l2 (k + 1), show k + 1 + vs.length = k + (vs.length + 1) by omega]
    ring

theorem objective_from_zero (value : Nat → Rat) :
    ∀ (l : List lpp_var) (k : Nat), (∀ v ∈ l, v.obj = 0) → objective_from value k l = 0 := by
  intro l
  induction l with
  | nil => intro k _; rfl
  | cons v vs ih =>
    intro k h
    simp only [objective_from]
    rw [h v (List.mem_cons_self _ _), ih (k + 1) (fun w hw => h w (List.mem_cons_of_mem _ hw))]
    simp

theorem name_find_append_right {l : List (List Char)} {name : List Char} (h : name ∉ l)
    (t : List (List Char)) :
    name_find (l ++ t) name = (name_find t name).map (fun i => i + l.length) := by
  induction l with
  | nil =>
    cases hf : name_find t name <;> simp [hf]
  | cons x xs ih =>
    have hx : x ≠ name := fun hx => h (hx ▸ List.mem_cons_self _ _)
    have hxs : name ∉ xs := fun hm => h (List.mem_cons_of_mem _ hm)
    have := ih hxs
    simp only [List.cons_append, name_find, hx, if_false, List.length_cons]
    rw [show xs.append t = xs ++ t from rfl, this]
    cases hf : name_find t name <;> simp
    omega

/-- The number of the column `y<root>_<arg>` of the root and argument number
`i`: the columns there were come first. -/
theorem E_y_index {lp0 lp : lpp_t} {pairs : List (Nat × (Nat × Int))}
    (hvars : lp.vars = lp0.vars ++ pairs.map y_var)
    (hx0 : ∀ nm ∈ var_names lp0, nm.head? ≠ some 'y')
    (hrange : ∀ p ∈ pairs, p.1 < 2 ^ 31 ∧ p.2.1 < 2 ^ 31)
    (hnd : (pairs.map (fun p => (p.1, p.2.1))).Nodup)
    {i : Nat} {p : Nat × (Nat × Int)} (hp : pairs.get? i = some p) :
    lpp_get_var_idx lp (mangle_var 'y' (p.1 : Int) (p.2.1 : Int)) =
      ((lp0.vars.length + i + 1 : Nat) : Int) := by
  have hnames : (pairs.map (fun p => mangle_var 'y' (p.1 : Int) (p.2.1 : Int))).Nodup := by
    have := List.Nodup.map_on (f := fun k : Nat × Nat => mangle_var 'y' (k.1 : Int) (k.2 : Int))
      (by
        intro k1 hk1 k2 hk2 heq
        obtain ⟨p1, hp1, rfl⟩ := List.mem_map.1 hk1
        obtain ⟨p2, hp2, rfl⟩ := List.mem_map.1 hk2
        obtain ⟨_, h1, h2⟩ := mangle_var_inj_nat (hrange p1 hp1).1 (hrange p1 hp1).2
          (hrange p2 hp2).1 (hrange p2 hp2).2 heq
        rw [Prod.mk.injEq]
        exact ⟨h1, h2⟩) hnd
    rw [List.map_map] at this
    exact this
  have hnot : mangle_var 'y' (p.1 : Int) (p.2.1 : Int) ∉ lp0.vars.map (fun v => v.name) := by
    intro hm
    have := hx0 _ hm
    obtain ⟨t, ht⟩ := mangle_var_head 'y' (p.1 : Int) (p.2.1 : Int)
    rw [ht] at this
    exact this rfl
  have hfind := name_find_of_nodup hnames
    (show (pairs.map (fun p => mangle_var 'y' (p.1 : Int) (p.2.1 : Int))).get? i =
      some (mangle_var 'y' (p.1 : Int) (p.2.1 : Int)) by rw [List.get?_eq_getElem?, List.getElem?_map, ← List.get?_eq_getElem?, hp]; rfl)
  unfold lpp_get_var_idx
  rw [hvars, List.map_append, name_find_append_right hnot, List.map_map]
  rw [show ((fun v : lpp_var => v.name) ∘ y_var) =
    (fun p : Nat × (Nat × Int) => mangle_var 'y' (p.1 : Int) (p.2.1 : Int)) from rfl, hfind]
  simp only [Option.map_some', List.length_map]
  push_cast
  ring

/-- The part of the objective function that the columns `y` make, when the
column of the root and argument number `i` is the column `k + i + 1`. -/
theorem objective_from_pairs_yv (lp : lpp_t) (value : Nat → Rat) :
    ∀ (ps : List (Nat × (Nat × Int))) (k : Nat),
      (∀ (i : Nat) (p : Nat × (Nat × Int)), ps.get? i = some p →
        lpp_get_var_idx lp (mangle_var 'y' (p.1 : Int) (p.2.1 : Int)) = ((k + i + 1 : Nat) : Int)) →
      objective_from value k (ps.map y_var) =
        (ps.map (fun p => (p.2.2 : Rat) * yv lp value p.1 p.2.1)).sum := by
  intro ps
  induction ps with
  | nil => intro k _; rfl
  | cons p rest ih =>
    intro k h
    have h0 := h 0 p rfl
    have hrest := ih (k + 1) (fun i q hq => by
      rw [h (i + 1) q (by simpa using hq)]
      congr 1
      omega)
    simp only [List.map_cons, objective_from, List.sum_cons, hrest]
    congr 1
    unfold yv
    rw [h0]
    rfl

/-- The objective function after `pi_add_constr_E`, when the columns there
were before have the factor 0: the sum of the costs times the values of the
columns `y`. -/
theorem E_objective {lp0 lp : lpp_t} {pairs : List (Nat × (Nat × Int))}
    (hvars : lp.vars = lp0.vars ++ pairs.map y_var)
    (hobj0 : ∀ v ∈ lp0.vars, v.obj = 0)
    (hx0 : ∀ nm ∈ var_names lp0, nm.head? ≠ some 'y')
    (hrange : ∀ p ∈ pairs, p.1 < 2 ^ 31 ∧ p.2.1 < 2 ^ 31)
    (hnd : (pairs.map (fun p => (p.1, p.2.1))).Nodup) (value : Nat → Rat) :
    lpp_objective lp value = (pairs.map (fun p => (p.2.2 : Rat) * yv lp value p.1 p.2.1)).sum := by
  unfold lpp_objective
  rw [hvars, objective_from_append, objective_from_zero value _ _ hobj0, zero_add, Nat.zero_add]
  exact objective_from_pairs_yv lp value pairs _
    (fun i p hp => E_y_index hvars hx0 hrange hnd hp)

/-- The rows of a root and an argument, under an assignment that encodes a
coloring for the two: when the rows hold, the column `y` of the two is at
least 0, and at least 1 when the colors differ; and the rows hold when the
column `y` has the value 0 for equal colors and 1 for different ones. -/
theorem E_pair_bounds {co : copy_opt_t} {lp0 : lpp_t} {st : constr_E_t} (hinv : E_inv co lp0 st)
    {root arg : Nat} (hdone : E_pair_done co root arg st) (value : Nat → Rat) (col : Nat → Nat)
    (hr : encodes co st.lp value col root) (ha : encodes co st.lp value col arg) :
    ((∀ e ∈ st.rows, e.root = root → e.arg = arg →
        lpp_cst_holds st.lp value (e.cst_idx - 1).toNat) →
      (if col root = col arg then (0 : Rat) else 1) ≤ yv st.lp value root arg) ∧
    (yv st.lp value root arg = (if col root = col arg then 0 else 1) →
      ∀ e ∈ st.rows, e.root = root → e.arg = arg →
        lpp_cst_holds st.lp value (e.cst_idx - 1).toNat) := by
  obtain ⟨_, hcommon, hdisj⟩ := hdone
  obtain ⟨hcr, hxr⟩ := hr
  obtain ⟨hca, hxa⟩ := ha
  obtain ⟨hcr1, hcr2⟩ := (allocatable_regs_spec co root (col root)).1 hcr
  obtain ⟨hca1, hca2⟩ := (allocatable_regs_spec co arg (col arg)).1 hca
  constructor
  · intro hrows
    have hxr1 : xv st.lp value root (col root) = 1 := by rw [hxr _ hcr, if_pos rfl]
    by_cases hac : co.allocatable arg (col root) = true
    · obtain ⟨⟨i, hi⟩, _⟩ := hcommon (col root) ((common_regs_spec co _ _ _).2 ⟨hcr1, hcr2, hac⟩)
      have hrow := (E_row_holds_iff (hinv.rows _ hi) value).1 (hrows _ hi rfl rfl)
      have hxa0 := hxa (col root) ((allocatable_regs_spec co _ _).2 ⟨hcr1, hac⟩)
      simp only [E_row_value, hxr1, hxa0] at hrow
      split_ifs at hrow ⊢ <;> linarith
    · have hac' : co.allocatable arg (col root) = false := by simpa using hac
      obtain ⟨hro, _⟩ := hdisj (col root) ((disjunct_regs_spec co _ _ _).2
        ⟨hcr1, by rw [hcr2, hac']; decide⟩)
      obtain ⟨i, hi⟩ := hro hcr2
      have hrow := (E_row_holds_iff (hinv.rows _ hi) value).1 (hrows _ hi rfl rfl)
      simp only [E_row_value, hxr1] at hrow
      split_ifs <;> linarith
  · intro hy e he her hea
    have hok := hinv.rows e he
    rw [E_row_holds_iff hok value]
    obtain ⟨hcl, hplace⟩ := hok.place
    have hxr' : ∀ c, c < co.chordal_env.n_regs → co.allocatable root c = true →
        xv st.lp value root c = if c = col root then 1 else 0 :=
      fun c h1 h2 => hxr c ((allocatable_regs_spec co _ _).2 ⟨h1, h2⟩)
    have hxa' : ∀ c, c < co.chordal_env.n_regs → co.allocatable arg c = true →
        xv st.lp value arg c = if c = col arg then 1 else 0 :=
      fun c h1 h2 => hxa c ((allocatable_regs_spec co _ _).2 ⟨h1, h2⟩)
    unfold E_row_value
    cases hk : e.kind <;> simp only [hk, her, hea] at hplace ⊢ <;> rw [hy]
    · rw [hxr' _ hcl hplace.1, hxa' _ hcl hplace.2]
      split_ifs <;> simp_all
    · rw [hxr' _ hcl hplace.1, hxa' _ hcl hplace.2]
      split_ifs <;> simp_all
    · have : e.color ≠ col arg := by
        intro hc
        rw [hc, hca2] at hplace
        exact absurd hplace.2 (by decide)
      rw [hxr' _ hcl hplace.1]
      split_ifs <;> simp_all
    · have : e.color ≠ col root := by
        intro hc
        rw [hc, hcr2] at hplace
        exact absurd hplace.1 (by decide)
      rw [hxa' _ hcl hplace.2]
      split_ifs <;> simp_all

theorem list_sum_map_le {α : Type} (f g : α → Rat) :
    ∀ l : List α, (∀ a ∈ l, f a ≤ g a) → (l.map f).sum ≤ (l.map g).sum := by
  intro l
  induction l with
  | nil => intro _; simp
  | cons a rest ih =>
    intro h
    simp only [List.map_cons, List.sum_cons]
    exact add_le_add (h a (List.mem_cons_self _ _)) (ih (fun b hb => h b (List.mem_cons_of_mem _ hb)))

/-! ## The problem that `pi_add_constr_E` is entered with -/

theorem constr_B_emit_names {color : Nat} {st st' : sweep_t}
    (h : constr_B_emit color st = some st') :
    ∀ nm ∈ cst_names st'.pi.curr_lp, nm ∈ cst_names st.pi.curr_lp ∨ nm.head? = some 'B' := by
  unfold constr_B_emit at h
  obtain ⟨k, _, _, _, _, hcase⟩ := lpp_add_cst_spec st.pi.curr_lp
    (mangle_cst 'B' st.pi.cst_counter) lpp_cst_t.lpp_less 1
  simp only at h
  cases hrow : constr_B_row color
      (lpp_add_cst st.pi.curr_lp (mangle_cst 'B' st.pi.cst_counter) lpp_cst_t.lpp_less 1).2
      st.living
      (lpp_add_cst st.pi.curr_lp (mangle_cst 'B' st.pi.cst_counter) lpp_cst_t.lpp_less 1).1 with
  | none => rw [hrow] at h; cases h
  | some lp2 =>
    rw [hrow] at h
    simp only [Option.some.injEq] at h
    subst h
    obtain ⟨_, hc2, _⟩ := constr_B_row_spec color _ _ _ _ hrow
    intro nm hnm
    simp only [cst_names, hc2] at hnm
    rcases hcase with ⟨_, _, hcsts⟩ | ⟨_, _, hcsts⟩
    · rw [hcsts, List.map_append, List.mem_append] at hnm
      rcases hnm with hnm | hnm
      · exact Or.inl hnm
      · right
        simp only [List.map_cons, List.map_nil, List.mem_singleton] at hnm
        obtain ⟨t, ht⟩ := mangle_cst_head 'B' st.pi.cst_counter
        rw [hnm, ht]
        rfl
    · rw [hcsts] at hnm
      exact Or.inl hnm

theorem constr_B_border_names {co : copy_opt_t} {color block : Nat} {st st' : sweep_t}
    {b : border_t} (h : constr_B_border co color block st b = some st') :
    ∀ nm ∈ cst_names st'.pi.curr_lp, nm ∈ cst_names st.pi.curr_lp ∨ nm.head? = some 'B' := by
  unfold constr_B_border at h
  split_ifs at h with h1 h2 h3
  · simp only [Option.some.injEq] at h
    subst h
    exact fun nm hnm => Or.inl hnm
  · simp only [Option.some.injEq] at h
    subst h
    exact fun nm hnm => Or.inl hnm
  · cases he : constr_B_emit color st with
    | none => rw [he] at h; cases h
    | some st1 =>
      rw [he] at h
      simp only [Option.some.injEq] at h
      subst h
      exact fun nm hnm => constr_B_emit_names he nm hnm
  · simp only [Option.some.injEq] at h
    subst h
    exact fun nm hnm => Or.inl hnm

/-- The rows after the constraints B of the colors listed are named with an
`A` or a `B` first when the rows before are. -/
theorem constr_B_colors_names (co : copy_opt_t) :
    ∀ (l : List Nat) (pi1 pi2 : problem_instance_t),
      (∀ nm ∈ cst_names pi1.curr_lp, nm.head? = some 'A' ∨ nm.head? = some 'B') →
      constr_B_colors co l pi1 = some pi2 →
      ∀ nm ∈ cst_names pi2.curr_lp, nm.head? = some 'A' ∨ nm.head? = some 'B' := by
  intro l
  induction l with
  | nil =>
    intro pi1 pi2 hQ h
    simp only [constr_B_colors, Option.some.injEq] at h
    subst h
    exact hQ
  | cons c rest ih =>
    intro pi1 pi2 hQ h
    simp only [constr_B_colors] at h
    cases hb : pi_add_constr_B co pi1 c with
    | none => rw [hb] at h; cases h
    | some pi' =>
      rw [hb] at h
      unfold pi_add_constr_B at hb
      obtain ⟨st, hst, hpi'⟩ := Option.map_eq_some'.1 hb
      subst hpi'
      refine ih st.pi pi2 ?_ h
      exact constr_B_events_ind co c
        (fun _ s => ∀ nm ∈ cst_names s.pi.curr_lp, nm.head? = some 'A' ∨ nm.head? = some 'B')
        (border_events co)
        (fun _ _ _ s s' _ hP hstep nm hnm => by
          rcases constr_B_border_names hstep nm hnm with h1 | h1
          · exact hP nm h1
          · exact Or.inr h1)
        (border_events co) [] { pi := pi1 } st rfl hQ (constr_B_sweep_eq hst)

/-- The problem after the constraints A and B: its columns are binary, have
the factor 0 in the objective function and are named `x<n>_<c>`; its factors
stand in rows and columns that exist; its rows are named with an `A` or a `B`
first. -/
theorem new_pi_constr_AB_problem (co : copy_opt_t) (hrange : int_range co)
    (r : problem_instance_t) (hr : pi_find_simplicials co new_pi_init = some r)
    (hnd : (constr_A_nodes r.removed (flat_borders co)).Nodup)
    (pi : problem_instance_t) (hAB : new_pi_constr_AB co r = some pi) :
    x_vars_plain pi.curr_lp ∧
    (∀ nm ∈ var_names pi.curr_lp, ∃ n c : Nat, nm = mangle_var 'x' (n : Int) (c : Int)) ∧
    lp_wf pi.curr_lp ∧
    (∀ nm ∈ cst_names pi.curr_lp, nm.head? = some 'A' ∨ nm.head? = some 'B') := by
  obtain ⟨r', hr', hlp, hlast, _⟩ := reducer_keeps_problem co
  have : r' = r := Option.some.inj (hr'.symm.trans hr)
  subst this
  obtain ⟨piA, hA, hstA⟩ := pi_add_constr_A_spec co hrange r' hlp hlast hnd
  have hplain : x_vars_plain piA.curr_lp := by
    rw [pi_add_constr_A_eq] at hA
    refine x_vars_plain_borders co _ _ _ hA ?_
    rw [hlp]
    intro v hv
    cases hv
  have hnamed := lp_built_csts_named hstA.built
  have hB : constr_B_colors co (List.range co.chordal_env.n_regs) piA = some pi := by
    unfold new_pi_constr_AB at hAB
    rw [hA] at hAB
    exact hAB
  obtain ⟨hext, _, _, _⟩ := constr_B_colors_state hnamed _ piA pi (lp_ext_refl _) hB
  obtain ⟨hv, ec, em, hcsts, hmat, _, hem⟩ := hext
  refine ⟨?_, ?_, ?_, ?_⟩
  · intro v hv'
    rw [hv] at hv'
    exact hplain v hv'
  · intro nm hnm
    have hnm' : nm ∈ var_names piA.curr_lp := by
      simpa [var_names, hv] using hnm
    rw [hstA.built.vars] at hnm'
    simp only [List.mem_flatMap, List.mem_map] at hnm'
    obtain ⟨p, _, c, _, rfl⟩ := hnm'
    exact ⟨p.1, c, rfl⟩
  · intro e he
    rw [hmat, List.mem_append] at he
    rcases he with he | he
    · obtain ⟨_, h1, h2, h3, h4⟩ := hem e he
      exact ⟨by omega, h2, h3, h4⟩
    · obtain ⟨i, k, p, c, rfl, hi, _, hk⟩ := (hstA.built.matrix e).1 he
      have hi' : i < piA.curr_lp.csts.length := by
        have := (List.get?_eq_some.1 hi).1
        rw [hstA.built.csts, List.length_map]
        exact this
      have hk' : k < piA.curr_lp.vars.length := by
        have := (List.get?_eq_some.1 hk).1
        rw [var_names_length] at this
        exact this
      rw [hcsts, hv, List.length_append]
      refine ⟨?_, ?_, ?_, ?_⟩ <;> push_cast <;> omega
  · refine constr_B_colors_names co _ piA pi ?_ hB
    intro nm hnm
    simp only [cst_names, List.mem_map] at hnm
    obtain ⟨c, hc, rfl⟩ := hnm
    obtain ⟨n, hn⟩ := hnamed c hc
    obtain ⟨t, ht⟩ := mangle_cst_head 'A' n
    left
    rw [hn, ht]
    rfl

theorem mem_unit_pairs {co : copy_opt_t} {p : Nat × (Nat × Int)} :
    p ∈ unit_pairs co ↔ ∃ u ∈ co.units, ∃ a ∈ u.args, p = (u.root, a) := by
  unfold unit_pairs
  simp only [List.mem_flatMap, List.mem_map]
  constructor
  · rintro ⟨u, hu, a, ha, rfl⟩
    exact ⟨u, hu, a, ha, rfl⟩
  · rintro ⟨u, hu, a, ha, rfl⟩
    exact ⟨u, hu, a, ha, rfl⟩

/-- A column `x` is one of the columns there were before `pi_add_constr_E`, or
there is no such column and the lookup gives -1. -/
theorem E_x_index_le {lp0 lp : lpp_t} {pairs : List (Nat × (Nat × Int))}
    (hvars : lp.vars = lp0.vars ++ pairs.map y_var) (n c : Int) :
    (lpp_get_var_idx lp (mangle_var 'x' n c)).toNat ≤ lp0.vars.length := by
  by_cases hm : mangle_var 'x' n c ∈ var_names lp0
  · rw [lpp_get_var_idx_of_initial ⟨_, hvars.symm⟩ hm]
    rcases lpp_get_var_idx_range lp0 (mangle_var 'x' n c) with h | h <;> omega
  · have hnot : mangle_var 'x' n c ∉ var_names lp := by
      simp only [var_names, hvars, List.map_append, List.mem_append, not_or]
      refine ⟨by simpa [var_names] using hm, ?_⟩
      simp only [List.map_map, List.mem_map, Function.comp_apply, y_var]
      rintro ⟨p, _, hp⟩
      obtain ⟨t1, ht1⟩ := mangle_var_head 'x' n c
      obtain ⟨t2, ht2⟩ := mangle_var_head 'y' (p.1 : Int) (p.2.1 : Int)
      rw [ht1, ht2] at hp
      exact absurd (List.cons.inj hp).1 (by decide)
    rw [lpp_get_var_idx_of_not_mem hnot]
    exact Nat.zero_le _

/-- The assignment `E_opt_value` has the values of `value0` in the columns `x`
and, in the column `y` of a root and an argument, 0 for equal colors and 1 for
different ones. -/
theorem E_opt_value_spec {lp0 lp : lpp_t} {pairs : List (Nat × (Nat × Int))}
    (hvars : lp.vars = lp0.vars ++ pairs.map y_var)
    (hx0 : ∀ nm ∈ var_names lp0, nm.head? ≠ some 'y')
    (hrange : ∀ p ∈ pairs, p.1 < 2 ^ 31 ∧ p.2.1 < 2 ^ 31)
    (hnd : (pairs.map (fun p => (p.1, p.2.1))).Nodup) (col : Nat → Nat) (value0 : Nat → Rat) :
    (∀ n c : Nat, xv lp (E_opt_value col pairs lp0.vars.length value0) n c = xv lp value0 n c) ∧
    (∀ p ∈ pairs, yv lp (E_opt_value col pairs lp0.vars.length value0) p.1 p.2.1 =
      if col p.1 = col p.2.1 then 0 else 1) := by
  constructor
  · intro n c
    unfold xv E_opt_value
    rw [if_pos (E_x_index_le hvars _ _)]
  · intro p hp
    obtain ⟨i, hi⟩ := List.mem_iff_get?.1 hp
    unfold yv E_opt_value
    rw [E_y_index hvars hx0 hrange hnd hi, Int.toNat_ofNat,
      if_neg (by omega), show lp0.vars.length + i + 1 - lp0.vars.length - 1 = i by omega, hi]

/-- C18. The objective function is the cost of the copies. For the problem that
`new_pi` has built when `pi_add_constr_E` returns (no node with two real
definitions, numbers in the range of `int`, no root with the same argument
twice, no argument that is its root):
* the columns are the columns `x<n>_<c>` made before, binary and with the
  factor 0 in the objective function, and after them one column
  `y<root>_<arg>` for every unit and argument, with the factor `costs[i]`;
* with costs that are not negative, under every assignment that encodes the
  coloring `col` in the columns `x` of the roots and arguments and under which
  the rows recorded by `pi_add_constr_E` hold, the objective function is at
  least the sum of `costs[i]` over the arguments colored other than their root;
* that sum is attained: leaving the columns `x` as they are and setting each
  `y<root>_<arg>` to 0 for equal colors and to 1 for different ones makes all
  rows recorded hold and gives the objective function exactly this value. -/
theorem objective_equals_copy_cost (co : copy_opt_t) (hrange : int_range co)
    (r : problem_instance_t) (hr : pi_find_simplicials co new_pi_init = some r)
    (hnd : (constr_A_nodes r.removed (flat_borders co)).Nodup)
    (piAB : problem_instance_t) (hAB : new_pi_constr_AB co r = some piAB)
    (st : constr_E_t) (hE : constr_E_units co piAB.curr_lp = some st)
    (hunits : ∀ u ∈ co.units, u.root < 2 ^ 31 ∧ ∀ a ∈ u.args, a.1 < 2 ^ 31 ∧ a.1 ≠ u.root)
    (hkeys : ((unit_pairs co).map (fun p => (p.1, p.2.1))).Nodup)
    (hcnt : st.cst_counter ≤ 2 ^ 31)
    (col : Nat → Nat) :
    (x_vars_plain piAB.curr_lp ∧
      (∀ nm ∈ var_names piAB.curr_lp, ∃ n c : Nat, nm = mangle_var 'x' (n : Int) (c : Int)) ∧
      st.lp.vars = piAB.curr_lp.vars ++ (unit_pairs co).map y_var) ∧
    ((∀ p ∈ unit_pairs co, 0 ≤ p.2.2) →
      ∀ value : Nat → Rat,
        (∀ p ∈ unit_pairs co,
          encodes co st.lp value col p.1 ∧ encodes co st.lp value col p.2.1) →
        (∀ e ∈ st.rows, lpp_cst_holds st.lp value (e.cst_idx - 1).toNat) →
        copy_cost col (unit_pairs co) ≤ lpp_objective st.lp value) ∧
    (∀ value0 : Nat → Rat,
      (∀ p ∈ unit_pairs co,
        encodes co st.lp value0 col p.1 ∧ encodes co st.lp value0 col p.2.1) →
      (∀ k, k ≤ piAB.curr_lp.vars.length →
        E_opt_value col (unit_pairs co) piAB.curr_lp.vars.length value0 k = value0 k) ∧
      (∀ e ∈ st.rows, lpp_cst_holds st.lp
        (E_opt_value col (unit_pairs co) piAB.curr_lp.vars.length value0)
        (e.cst_idx - 1).toNat) ∧
      lpp_objective st.lp (E_opt_value col (unit_pairs co) piAB.curr_lp.vars.length value0) =
        copy_cost col (unit_pairs co)) := by
  obtain ⟨hplain, hxnames, hwf, hcnames⟩ := new_pi_constr_AB_problem co hrange r hr hnd piAB hAB
  have hx0 : ∀ nm ∈ var_names piAB.curr_lp, nm.head? ≠ some 'y' := by
    intro nm hnm
    obtain ⟨n, c, rfl⟩ := hxnames nm hnm
    obtain ⟨t, ht⟩ := mangle_var_head 'x' (n : Int) (c : Int)
    rw [ht]
    simp
  have hfresh : ∀ k : Int, 0 ≤ k → k < 2 ^ 31 → mangle_cst 'E' k ∉ cst_names piAB.curr_lp := by
    intro k _ _ hm
    obtain ⟨t, ht⟩ := mangle_cst_head 'E' k
    rcases hcnames _ hm with h | h <;> rw [ht] at h <;> simp at h
  have hprange : ∀ p ∈ unit_pairs co, p.1 < 2 ^ 31 ∧ p.2.1 < 2 ^ 31 := by
    intro p hp
    obtain ⟨u, hu, a, ha, rfl⟩ := mem_unit_pairs.1 hp
    exact ⟨(hunits u hu).1, ((hunits u hu).2 a ha).1⟩
  obtain ⟨hinv, hdone⟩ := E_inv_units hwf hfresh hrange.1 hunits hcnt hE
  have hpdone : ∀ p ∈ unit_pairs co, E_pair_done co p.1 p.2.1 st := by
    intro p hp
    obtain ⟨u, hu, a, ha, rfl⟩ := mem_unit_pairs.1 hp
    exact hdone u hu a ha
  obtain ⟨hvars, hrows⟩ := E_vars_pairs hx0 hprange hkeys hE
  have hobj := E_objective hvars (fun v hv => (hplain v hv).2) hx0 hprange hkeys
  refine ⟨⟨hplain, hxnames, hvars⟩, ?_, ?_⟩
  · intro hcost value henc hhold
    rw [hobj value]
    unfold copy_cost
    apply list_sum_map_le
    intro p hp
    have hb := (E_pair_bounds hinv (hpdone p hp) value col (henc p hp).1 (henc p hp).2).1
      (fun e he _ _ => hhold e he)
    exact mul_le_mul_of_nonneg_left hb (by exact_mod_cast hcost p hp)
  · intro value0 henc
    obtain ⟨hxv, hyv⟩ := E_opt_value_spec hvars hx0 hprange hkeys col value0
    have henc' : ∀ n, encodes co st.lp value0 col n →
        encodes co st.lp (E_opt_value col (unit_pairs co) piAB.curr_lp.vars.length value0) col n := by
      intro n hn
      exact ⟨hn.1, fun c hc => by rw [hxv]; exact hn.2 c hc⟩
    refine ⟨?_, ?_, ?_⟩
    · intro k hk
      unfold E_opt_value
      rw [if_pos hk]
    · intro e he
      obtain ⟨p, hp, her, hea⟩ := hrows e he
      exact (E_pair_bounds hinv (hpdone p hp) _ col (henc' _ (henc p hp).1)
        (henc' _ (henc p hp).2)).2 (hyv p hp) e he her hea
    · rw [hobj]
      unfold copy_cost
      congr 1
      apply List.map_congr_left
      intro p hp
      rw [hyv p hp]

set_option maxRecDepth 100000 in
theorem unit_value_encodes : ∀ p ∈ unit_pairs unit_co,
    encodes unit_co unit_st_E.lp unit_value unit_col p.1 ∧
      encodes unit_co unit_st_E.lp unit_value unit_col p.2.1 := by
  unfold encodes
  decide

set_option maxRecDepth 100000 in
theorem unit_value_objective : lpp_objective unit_st_E.lp unit_value = 3 := by
  have hv : unit_st_E.lp.vars = unit_pi_AB.curr_lp.vars ++ (unit_pairs unit_co).map y_var := by
    decide
  have h0 : ∀ v ∈ unit_pi_AB.curr_lp.vars, v.obj = 0 := by decide
  have hl : unit_pi_AB.curr_lp.vars.length = 5 := by decide
  unfold lpp_objective
  rw [hv, objective_from_append, objective_from_zero _ _ _ h0, hl]
  simp [unit_pairs, unit_co, y_var, objective_from, unit_value, unit_value_int]

set_option maxRecDepth 100000 in
theorem unit_pi_AB_lp : unit_pi_AB.curr_lp = unit_lp_AB := by
  rfl

set_option maxRecDepth 100000 in
/-- Witness of C18 on a Phi 0 with the arguments 1 (costs 10) and 2 (costs 3),
for the coloring that gives the Phi and the argument 1 the color 0 and the
argument 2 the color 1: the cost of the copies is 3. -/
theorem objective_equals_copy_cost_witness :
    (int_range unit_co ∧ pi_find_simplicials unit_co new_pi_init = some unit_r ∧
      (constr_A_nodes unit_r.removed (flat_borders unit_co)).Nodup ∧
      new_pi_constr_AB unit_co unit_r = some unit_pi_AB ∧
      constr_E_units unit_co unit_pi_AB.curr_lp = some unit_st_E ∧
      (∀ u ∈ unit_co.units, u.root < 2 ^ 31 ∧ ∀ a ∈ u.args, a.1 < 2 ^ 31 ∧ a.1 ≠ u.root) ∧
      ((unit_pairs unit_co).map (fun p => (p.1, p.2.1))).Nodup ∧
      unit_st_E.cst_counter ≤ 2 ^ 31 ∧
      unit_pairs unit_co = [(0, (1, 10)), (0, (2, 3))] ∧
      copy_cost unit_col (unit_pairs unit_co) = 3 ∧
      (∀ p ∈ unit_pairs unit_co,
        encodes unit_co unit_st_E.lp unit_value unit_col p.1 ∧
          encodes unit_co unit_st_E.lp unit_value unit_col p.2.1) ∧
      lpp_objective unit_st_E.lp unit_value = 3) ∧
    ((x_vars_plain unit_pi_AB.curr_lp ∧
      (∀ nm ∈ var_names unit_pi_AB.curr_lp,
        ∃ n c : Nat, nm = mangle_var 'x' (n : Int) (c : Int)) ∧
      unit_st_E.lp.vars = unit_pi_AB.curr_lp.vars ++ (unit_pairs unit_co).map y_var) ∧
    ((∀ p ∈ unit_pairs unit_co, 0 ≤ p.2.2) →
      ∀ value : Nat → Rat,
        (∀ p ∈ unit_pairs unit_co,
          encodes unit_co unit_st_E.lp value unit_col p.1 ∧
            encodes unit_co unit_st_E.lp value unit_col p.2.1) →
        (∀ e ∈ unit_st_E.rows, lpp_cst_holds unit_st_E.lp value (e.cst_idx - 1).toNat) →
        copy_cost unit_col (unit_pairs unit_co) ≤ lpp_objective unit_st_E.lp value) ∧
    (∀ value0 : Nat → Rat,
      (∀ p ∈ unit_pairs unit_co,
        encodes unit_co unit_st_E.lp value0 unit_col p.1 ∧
          encodes unit_co unit_st_E.lp value0 unit_col p.2.1) →
      (∀ k, k ≤ unit_pi_AB.curr_lp.vars.length →
        E_opt_value unit_col (unit_pairs unit_co) unit_pi_AB.curr_lp.vars.length value0 k =
          value0 k) ∧
      (∀ e ∈ unit_st_E.rows, lpp_cst_holds unit_st_E.lp
        (E_opt_value unit_col (unit_pairs unit_co) unit_pi_AB.curr_lp.vars.length value0)
        (e.cst_idx - 1).toNat) ∧
      lpp_objective unit_st_E.lp
          (E_opt_value unit_col (unit_pairs unit_co) unit_pi_AB.curr_lp.vars.length value0) =
        copy_cost unit_col (unit_pairs unit_co))) :=
  ⟨⟨by decide, by decide, by decide, by decide, by rw [unit_pi_AB_lp]; exact unit_st_E_eq,
      by decide, by decide, by decide, by decide,
      by simp [copy_cost, unit_pairs, unit_co, unit_col], unit_value_encodes,
      unit_value_objective⟩,
    objective_equals_copy_cost unit_co (by decide) unit_r (by decide) (by decide) unit_pi_AB
      (by decide) unit_st_E (by rw [unit_pi_AB_lp]; exact unit_st_E_eq) (by decide) (by decide)
      (by decide) unit_col⟩

/-! ## The constraints S -/

/-- A run of factor writes in one row: the columns and rows stay, and the
writes come before the factors there were, the latest first. -/
theorem lpp_set_factors_matrix (r : Int) :
    ∀ (writes : List (Int × Int)) (lp lp' : lpp_t), lpp_set_factors r writes lp = some lp' →
      lp'.vars = lp.vars ∧ lp'.csts = lp.csts ∧
      lp'.matrix = (writes.map (fun w => (r, w.1, w.2))).reverse ++ lp.matrix ∧
      ∀ w ∈ writes, 0 ≤ w.1 ∧ w.1 ≤ (lp.vars.length : Int) := by
  intro writes
  induction writes with
  | nil =>
    intro lp lp' h
    simp only [lpp_set_factors, Option.some.injEq] at h
    subst h
    exact ⟨rfl, rfl, by simp, fun w hw => absurd hw (List.not_mem_nil w)⟩
  | cons w rest ih =>
    intro lp lp' h
    simp only [lpp_set_factors] at h
    cases hf : lpp_set_factor_fast lp r w.1 w.2 with
    | none => rw [hf] at h; cases h
    | some lp1 =>
      rw [hf] at h
      obtain ⟨hv1, hc1, hm1, _, _, hk0, hk1⟩ := lpp_set_factor_fast_spec hf
      obtain ⟨hv, hc, hm, hcols⟩ := ih lp1 lp' h
      refine ⟨hv.trans hv1, hc.trans hc1, ?_, ?_⟩
      · rw [hm, hm1]
        simp
      · intro w' hw'
        rcases List.mem_cons.1 hw' with rfl | hw'
        · exact ⟨hk0, hk1⟩
        · rw [← hv1]
          exact hcols w' hw'

/-- The loop of `pi_add_constr_S` over the arguments is a run of factor writes
in the row of the unit, in the columns that the names have on entry. -/
theorem constr_S_args_eq (rootnr : Nat) (r : Int) :
    ∀ (args : List (Nat × Int)) (lp : lpp_t),
      args.foldlM (constr_S_arg rootnr r) lp =
        lpp_set_factors r
          (args.map (fun a => (lpp_get_var_idx lp (mangle_var 'y' (rootnr : Int) (a.1 : Int)), a.2)))
          lp := by
  intro args
  induction args with
  | nil => intro lp; rfl
  | cons a rest ih =>
    intro lp
    simp only [List.foldlM_cons, List.map_cons, lpp_set_factors]
    show (constr_S_arg rootnr r lp a).bind _ = _
    unfold constr_S_arg
    cases hf : lpp_set_factor_fast lp r
        (lpp_get_var_idx lp (mangle_var 'y' (rootnr : Int) (a.1 : Int))) a.2 with
    | none => rfl
    | some lp1 =>
      obtain ⟨hv1, _⟩ := lpp_set_factor_fast_spec hf
      simp only [Option.some_bind]
      refine Eq.trans (ih lp1) ?_
      congr 1
      apply List.map_congr_left
      intro b _
      rw [lpp_get_var_idx_congr hv1]

/-- The factors of a row that holds nothing but a run of writes in columns
that differ from each other. -/
theorem lpp_get_factor_writes {lp : lpp_t} {r : Int} {writes : List (Int × Int)}
    {rest : List (Int × Int × Int)}
    (hm : lp.matrix = (writes.map (fun w => (r, w.1, w.2))).reverse ++ rest)
    (hrest : ∀ e ∈ rest, e.1 ≠ r) (hnd : (writes.map Prod.fst).Nodup) :
    (∀ w ∈ writes, lpp_get_factor lp r w.1 = w.2) ∧
    ∀ j : Int, (∀ w ∈ writes, w.1 ≠ j) → lpp_get_factor lp r j = 0 := by
  constructor
  · intro w hw
    unfold lpp_get_factor
    cases hf : lp.matrix.find? (fun e => decide (e.1 = r) && decide (e.2.1 = w.1)) with
    | none =>
      rw [List.find?_eq_none] at hf
      have := hf (r, w.1, w.2) (by
        rw [hm]
        exact List.mem_append_left _ (List.mem_reverse.2 (List.mem_map.2 ⟨w, hw, rfl⟩)))
      simp at this
    | some e =>
      have hmem := List.mem_of_find?_eq_some hf
      have hp := List.find?_some hf
      simp only [Bool.and_eq_true, decide_eq_true_eq] at hp
      rw [hm, List.mem_append, List.mem_reverse, List.mem_map] at hmem
      rcases hmem with ⟨w', hw', rfl⟩ | hmem
      · have := List.inj_on_of_nodup_map hnd hw' hw hp.2
        rw [this]
      · exact absurd hp.1 (hrest e hmem)
  · intro j hj
    unfold lpp_get_factor
    have : lp.matrix.find? (fun e => decide (e.1 = r) && decide (e.2.1 = j)) = none := by
      rw [List.find?_eq_none]
      intro e he
      rw [hm, List.mem_append, List.mem_reverse, List.mem_map] at he
      rcases he with ⟨w, hw, rfl⟩ | he
      · simp [hj w hw]
      · simp [hrest e he]
    rw [this]

theorem S_csts_append : ∀ (l1 l2 : List unit_t) (k : Nat),
    S_csts k (l1 ++ l2) = S_csts k l1 ++ S_csts (k + l1.length) l2 := by
  intro l1
  induction l1 with
  | nil => intro l2 k; rfl
  | cons u rest ih =>
    intro l2 k
    show _ :: S_csts (k + 1) (rest ++ l2) = _ :: _ ++ S_csts (k + (rest.length + 1)) l2
    rw [ih l2 (k + 1), show k + 1 + rest.length = k + (rest.length + 1) by omega]
    rfl

theorem S_csts_length : ∀ (l : List unit_t) (k : Nat), (S_csts k l).length = l.length := by
  intro l
  induction l with
  | nil => intro k; rfl
  | cons u rest ih => intro k; simp [S_csts, ih]

theorem S_csts_names : ∀ (l : List unit_t) (k : Nat), ∀ c ∈ S_csts k l,
    ∃ i : Nat, k ≤ i ∧ i < k + l.length ∧ c.name = mangle_cst 'S' (i : Int) := by
  intro l
  induction l with
  | nil => intro k c hc; cases hc
  | cons u rest ih =>
    intro k c hc
    simp only [S_csts, List.mem_cons] at hc
    rcases hc with rfl | hc
    · exact ⟨k, le_refl _, by simp, rfl⟩
    · obtain ⟨i, h1, h2, h3⟩ := ih (k + 1) c hc
      exact ⟨i, by omega, by simp only [List.length_cons]; omega, h3⟩

theorem S_csts_get? : ∀ (l : List unit_t) (k i : Nat) (u : unit_t), l.get? i = some u →
    (S_csts k l).get? i =
      some (lpp_cst.mk (mangle_cst 'S' ((k + i : Nat) : Int)) lpp_cst_t.lpp_greater
        u.min_nodes_costs) := by
  intro l
  induction l with
  | nil => intro k i u h; cases h
  | cons v rest ih =>
    intro k i u h
    cases i with
    | zero =>
      simp only [List.get?_cons_zero, Option.some.injEq] at h
      subst h
      rfl
    | succ i =>
      simp only [List.get?_cons_succ] at h
      simp only [S_csts, List.get?_cons_succ]
      rw [ih (k + 1) i u h, show k + 1 + i = k + (i + 1) by omega]

theorem S_units_append (l1 l2 : List unit_t) : S_units (l1 ++ l2) = S_units l1 ++ S_units l2 := by
  unfold S_units
  exact List.filter_append _ _

theorem S_row_ok_congr {lp lp' : lpp_t} {r : Int} {u : unit_t} (hv : lp'.vars = lp.vars)
    (hf : ∀ j, lpp_get_factor lp' r j = lpp_get_factor lp r j) (h : S_row_ok lp r u) :
    S_row_ok lp' r u := by
  obtain ⟨h1, h2⟩ := h
  constructor
  · intro a ha
    rw [lpp_get_var_idx_congr hv, hv, hf]
    exact h1 a ha
  · intro j hj
    rw [hf]
    exact h2 j (fun a ha => by rw [← lpp_get_var_idx_congr hv]; exact hj a ha)

/-- The body of the loop of `pi_add_constr_S` keeps `S_inv`. -/
theorem S_inv_unit {lp0 : lpp_t} {done : List unit_t} {st st' : constr_S_t} {u : unit_t}
    (hfresh0 : ∀ k : Int, 0 ≤ k → k < 2 ^ 31 → mangle_cst 'S' k ∉ cst_names lp0)
    (hu : u.root < 2 ^ 31 ∧ ∀ a ∈ u.args, a.1 < 2 ^ 31)
    (hnd : (u.args.map Prod.fst).Nodup)
    (hcnt : (S_units (done ++ [u])).length ≤ 2 ^ 31)
    (hinv : S_inv lp0 done st) (h : constr_S_unit st u = some st') :
    S_inv lp0 (done ++ [u]) st' := by
  unfold constr_S_unit at h
  by_cases hz : u.min_nodes_costs = 0
  · rw [if_pos hz] at h
    simp only [Option.some.injEq] at h
    subst h
    have hS : S_units (done ++ [u]) = S_units done := by
      rw [S_units_append]
      simp [S_units, hz]
    exact ⟨hinv.wf, hinv.vars, by rw [hS]; exact hinv.csts, by rw [hS]; exact hinv.counter,
      hinv.old, by rw [hS]; exact hinv.rows⟩
  · rw [if_neg hz] at h
    have hS : S_units (done ++ [u]) = S_units done ++ [u] := by
      rw [S_units_append]
      simp [S_units, hz]
    have hn : (S_units done).length < 2 ^ 31 := by
      rw [hS, List.length_append, List.length_singleton] at hcnt
      omega
    have hlen : st.lp.csts.length = lp0.csts.length + (S_units done).length := by
      rw [hinv.csts, List.length_append, S_csts_length]
    have hfresh : mangle_cst 'S' st.cst_counter ∉ cst_names st.lp := by
      rw [hinv.counter]
      simp only [cst_names, hinv.csts, List.map_append, List.mem_append, not_or]
      constructor
      · exact hfresh0 _ (by omega) (by exact_mod_cast hn)
      · intro hm
        obtain ⟨c, hc, hname⟩ := List.mem_map.1 hm
        obtain ⟨i, _, hi, hci⟩ := S_csts_names _ _ c hc
        rw [hci] at hname
        have := (mangle_cst_inj_nat (by omega) hn hname).2
        omega
    obtain ⟨k, hk1, _, hvars, hmat, hcase⟩ := lpp_add_cst_spec st.lp
      (mangle_cst 'S' st.cst_counter) lpp_cst_t.lpp_greater u.min_nodes_costs
    rcases hcase with ⟨_, hk, hcsts⟩ | ⟨hin, _, _⟩
    swap
    · exact absurd hin hfresh
    simp only at h
    obtain ⟨lp2, hrun, hst'⟩ := Option.map_eq_some'.1 h
    subst hst'
    rw [constr_S_args_eq] at hrun
    obtain ⟨hv2, hc2, hm2, hcols⟩ := lpp_set_factors_matrix _ _ _ _ hrun
    rw [hk1, hk] at hm2
    have hv : lp2.vars = st.lp.vars := hv2.trans hvars
    have hidx : ∀ name, lpp_get_var_idx
        (lpp_add_cst st.lp (mangle_cst 'S' st.cst_counter) lpp_cst_t.lpp_greater
          u.min_nodes_costs).1 name = lpp_get_var_idx lp2 name :=
      fun name => (lpp_get_var_idx_congr hv2 name).symm
    have hpos : ∀ a ∈ u.args,
        1 ≤ lpp_get_var_idx lp2 (mangle_var 'y' (u.root : Int) (a.1 : Int)) ∧
        lpp_get_var_idx lp2 (mangle_var 'y' (u.root : Int) (a.1 : Int)) ≤
          (lp2.vars.length : Int) := by
      intro a ha
      have := hcols _ (List.mem_map.2 ⟨a, ha, rfl⟩)
      simp only [hidx] at this
      rw [hv2]
      exact ⟨lpp_get_var_idx_pos this.1, this.2⟩
    have hwnd : ((u.args.map (fun a =>
        (lpp_get_var_idx (lpp_add_cst st.lp (mangle_cst 'S' st.cst_counter)
          lpp_cst_t.lpp_greater u.min_nodes_costs).1
          (mangle_var 'y' (u.root : Int) (a.1 : Int)), a.2))).map Prod.fst).Nodup := by
      rw [List.map_map]
      have := List.Nodup.map_on
        (f := fun n : Nat => lpp_get_var_idx lp2 (mangle_var 'y' (u.root : Int) (n : Int)))
        (by
          intro n1 hn1 n2 hn2 heq
          obtain ⟨a1, ha1, rfl⟩ := List.mem_map.1 hn1
          obtain ⟨a2, ha2, rfl⟩ := List.mem_map.1 hn2
          have hne : lpp_get_var_idx lp2 (mangle_var 'y' (u.root : Int) (a1.1 : Int)) ≠ -1 := by
            have := (hpos a1 ha1).1
            omega
          exact (mangle_var_inj_nat hu.1 (hu.2 a1 ha1) hu.1 (hu.2 a2 ha2)
            (lpp_get_var_idx_inj heq hne)).2.2) hnd
      rw [List.map_map] at this
      have heq : u.args.map (Prod.fst ∘ fun a : Nat × Int =>
          (lpp_get_var_idx (lpp_add_cst st.lp (mangle_cst 'S' st.cst_counter)
            lpp_cst_t.lpp_greater u.min_nodes_costs).1
            (mangle_var 'y' (u.root : Int) (a.1 : Int)), a.2)) =
          u.args.map ((fun n : Nat =>
            lpp_get_var_idx lp2 (mangle_var 'y' (u.root : Int) (n : Int))) ∘ Prod.fst) := by
        apply List.map_congr_left
        intro a _
        simp only [Function.comp_apply, hidx]
      rw [heq]
      exact this
    have hrest : ∀ e ∈ (lpp_add_cst st.lp (mangle_cst 'S' st.cst_counter)
        lpp_cst_t.lpp_greater u.min_nodes_costs).1.matrix,
        e.1 ≠ ((st.lp.csts.length : Nat) : Int) + 1 := by
      intro e he
      rw [hmat] at he
      have := (hinv.wf e he).2.1
      omega
    obtain ⟨hw1, hw2⟩ := lpp_get_factor_writes hm2 hrest hwnd
    have hother : ∀ r j : Int, r ≠ ((st.lp.csts.length : Nat) : Int) + 1 →
        lpp_get_factor lp2 r j = lpp_get_factor st.lp r j := by
      intro r j hr
      rw [hmat] at hm2
      exact lpp_get_factor_other_rows hm2 (fun e he => by
        obtain ⟨w, _, rfl⟩ := List.mem_map.1 (List.mem_reverse.1 he)
        exact fun h => hr h.symm) j
    refine ⟨?_, hv.trans hinv.vars, ?_, ?_, ?_, ?_⟩
    · intro e he
      rw [hm2, List.mem_append, List.mem_reverse, List.mem_map] at he
      rw [hc2, hcsts, hv, List.length_append, List.length_singleton]
      rcases he with ⟨w, hw, rfl⟩ | he
      · obtain ⟨a, ha, rfl⟩ := List.mem_map.1 hw
        have := hpos a ha
        rw [hv] at this
        simp only [hidx]
        push_cast
        exact ⟨by omega, by omega, this.1, this.2⟩
      · rw [hmat] at he
        obtain ⟨h1, h2, h3, h4⟩ := hinv.wf e he
        push_cast
        exact ⟨h1, by omega, h3, h4⟩
    · rw [hc2, hcsts, hinv.csts, hS, S_csts_append, List.append_assoc, hinv.counter]
      simp [S_csts]
    · show st.cst_counter + 1 = _
      rw [hS, hinv.counter, List.length_append, List.length_singleton]
      push_cast
      rfl
    · intro r j hr
      rw [hother r j (by omega)]
      exact hinv.old r j hr
    · intro i u' hi
      rw [hS] at hi
      by_cases hlt : i < (S_units done).length
      · rw [List.get?_eq_getElem?, List.getElem?_append_left hlt, ← List.get?_eq_getElem?] at hi
        refine S_row_ok_congr hv (fun j => hother _ j (by omega)) (hinv.rows i u' hi)
      · have hge : (S_units done).length ≤ i := by omega
        rw [List.get?_eq_getElem?, List.getElem?_append_right hge, ← List.get?_eq_getElem?] at hi
        have hi0 : i - (S_units done).length = 0 := by
          by_contra hne
          obtain ⟨m, hm⟩ := Nat.exists_eq_succ_of_ne_zero hne
          rw [hm] at hi
          cases hi
        rw [hi0] at hi
        simp only [List.get?_cons_zero, Option.some.injEq] at hi
        subst hi
        have hrow : (lp0.csts.length : Int) + (i : Int) + 1 =
            ((st.lp.csts.length : Nat) : Int) + 1 := by
          rw [hlen]
          push_cast
          omega
        rw [hrow]
        constructor
        · intro a ha
          refine ⟨(hpos a ha).1, (hpos a ha).2, ?_⟩
          have := hw1 _ (List.mem_map.2 ⟨a, ha, rfl⟩)
          simp only [hidx] at this
          exact this
        · intro j hj
          apply hw2
          intro w hw
          obtain ⟨a, ha, rfl⟩ := List.mem_map.1 hw
          simp only [hidx]
          exact hj a ha

/-- C19. The constraints S. When `pi_add_constr_S` is entered with a problem
whose factors stand in rows and columns that exist and that has no row named
`S<k>`, and it returns (numbers in the range of `int`, no argument twice in a
unit), then:
* the columns are unchanged, and after the rows there were there is exactly one
  row for each unit whose `min_nodes_costs` is not 0, in the order of the units,
  named `S0`, `S1`, ..., of the kind "at least" with the right-hand side
  `min_nodes_costs`; a unit whose `min_nodes_costs` is 0 gets no row; when no
  `min_nodes_costs` is negative these are the units with a positive one;
* the row of a unit has the factor `costs[i]` in the column `y<root>_<arg>` of
  every argument, a column that exists, and the factor 0 in every other column;
* the rows there were keep their factors. -/
theorem constr_S_shape (co : copy_opt_t) (pi pi' : problem_instance_t)
    (hwf0 : lp_wf pi.curr_lp)
    (hfresh0 : ∀ k : Int, 0 ≤ k → k < 2 ^ 31 → mangle_cst 'S' k ∉ cst_names pi.curr_lp)
    (hunits : ∀ u ∈ co.units,
      u.root < 2 ^ 31 ∧ (∀ a ∈ u.args, a.1 < 2 ^ 31) ∧ (u.args.map Prod.fst).Nodup)
    (hcnt : (S_units co.units).length ≤ 2 ^ 31)
    (h : pi_add_constr_S co pi = some pi') :
    pi'.curr_lp.vars = pi.curr_lp.vars ∧
    pi'.curr_lp.csts = pi.curr_lp.csts ++ S_csts 0 (S_units co.units) ∧
    ((∀ u ∈ co.units, 0 ≤ u.min_nodes_costs) →
      S_units co.units = co.units.filter (fun u => decide (0 < u.min_nodes_costs))) ∧
    (∀ (i : Nat) (u : unit_t), (S_units co.units).get? i = some u →
      pi'.curr_lp.csts.get? (pi.curr_lp.csts.length + i) =
        some (lpp_cst.mk (mangle_cst 'S' (i : Int)) lpp_cst_t.lpp_greater u.min_nodes_costs) ∧
      S_row_ok pi'.curr_lp ((pi.curr_lp.csts.length : Int) + (i : Int) + 1) u) ∧
    (∀ r j : Int, r ≤ (pi.curr_lp.csts.length : Int) →
      lpp_get_factor pi'.curr_lp r j = lpp_get_factor pi.curr_lp r j) := by
  unfold pi_add_constr_S at h
  obtain ⟨st, hst, hpi'⟩ := Option.map_eq_some'.1 h
  subst hpi'
  unfold constr_S_units at hst
  have hmono : ∀ done rest, co.units = done ++ rest →
      (S_units done).length ≤ (S_units co.units).length := by
    intro done rest hall
    rw [hall, S_units_append, List.length_append]
    omega
  have hinv : S_inv pi.curr_lp co.units st :=
    foldlM_ind constr_S_unit (fun done s => S_inv pi.curr_lp done s) co.units
      (by
        intro done u rest s s' hall hP hf
        have hu : u ∈ co.units := by rw [hall]; simp
        obtain ⟨h1, h2, h3⟩ := hunits u hu
        refine S_inv_unit hfresh0 ⟨h1, h2⟩ h3 ?_ hP hf
        exact le_trans (hmono (done ++ [u]) rest (by rw [hall]; simp)) hcnt)
      co.units [] { lp := pi.curr_lp } st (List.nil_append _).symm
      ⟨hwf0, rfl, by simp [S_units, S_csts], rfl, fun _ _ _ => rfl,
        fun i u hi => by simp [S_units] at hi⟩ hst
  refine ⟨hinv.vars, hinv.csts, ?_, ?_, hinv.old⟩
  · intro hpos
    unfold S_units
    apply List.filter_congr
    intro u hu
    have := hpos u hu
    simp only [decide_eq_decide]
    omega
  · intro i u hi
    refine ⟨?_, hinv.rows i u hi⟩
    show st.lp.csts.get? _ = _
    have hlt : ¬ pi.curr_lp.csts.length + i < pi.curr_lp.csts.length := by omega
    rw [hinv.csts, List.get?_eq_getElem?, List.getElem?_append_right (by omega),
      ← List.get?_eq_getElem?, Nat.add_sub_cancel_left, S_csts_get? _ 0 i u hi, Nat.zero_add]

set_option maxRecDepth 100000 in
/-- Witness of C19 on a Phi 0 with the arguments 1 (costs 10) and 2 (costs 3)
and `min_nodes_costs = 3`: the row `S0`, the twelfth, is "at least 3" and has
the factors 10 and 3 in the columns `y0_1` and `y0_2`. -/
theorem constr_S_shape_witness :
    (lp_wf unit_pi_E.curr_lp ∧
      (∀ k : Int, 0 ≤ k → k < 2 ^ 31 → mangle_cst 'S' k ∉ cst_names unit_pi_E.curr_lp) ∧
      (∀ u ∈ unit_co.units,
        u.root < 2 ^ 31 ∧ (∀ a ∈ u.args, a.1 < 2 ^ 31) ∧ (u.args.map Prod.fst).Nodup) ∧
      (S_units unit_co.units).length ≤ 2 ^ 31 ∧
      pi_add_constr_S unit_co unit_pi_E = some unit_pi_S ∧
      unit_pi_E.curr_lp.csts.length = 11 ∧
      unit_pi_S.curr_lp.csts.get? 11 =
        some (lpp_cst.mk ['S', '0'] lpp_cst_t.lpp_greater 3) ∧
      (List.range 7).map (fun k : Nat => lpp_get_factor unit_pi_S.curr_lp 12 ((k : Int) + 1)) =
        [0, 0, 0, 0, 0, 10, 3]) ∧
    (unit_pi_S.curr_lp.vars = unit_pi_E.curr_lp.vars ∧
    unit_pi_S.curr_lp.csts = unit_pi_E.curr_lp.csts ++ S_csts 0 (S_units unit_co.units) ∧
    ((∀ u ∈ unit_co.units, 0 ≤ u.min_nodes_costs) →
      S_units unit_co.units =
        unit_co.units.filter (fun u => decide (0 < u.min_nodes_costs))) ∧
    (∀ (i : Nat) (u : unit_t), (S_units unit_co.units).get? i = some u →
      unit_pi_S.curr_lp.csts.get? (unit_pi_E.curr_lp.csts.length + i) =
        some (lpp_cst.mk (mangle_cst 'S' (i : Int)) lpp_cst_t.lpp_greater u.min_nodes_costs) ∧
      S_row_ok unit_pi_S.curr_lp ((unit_pi_E.curr_lp.csts.length : Int) + (i : Int) + 1) u) ∧
    (∀ r j : Int, r ≤ (unit_pi_E.curr_lp.csts.length : Int) →
      lpp_get_factor unit_pi_S.curr_lp r j = lpp_get_factor unit_pi_E.curr_lp r j)) :=
  ⟨⟨by decide, fun k _ _ => fresh_of_heads (by decide) k, by decide, by decide, by decide,
      by decide, by decide, by decide⟩,
    constr_S_shape unit_co unit_pi_E unit_pi_S (by decide)
      (fun k _ _ => fresh_of_heads (by decide) k) (by decide) (by decide) (by decide)⟩

/-! ## The constraints M -/

/-- A block with fewer than two Phis: `M_constr_walker` returns at once and
leaves the problem as it is. -/
theorem M_constr_walker_few_phis (co : copy_opt_t) (lp : lpp_t) (phis : List (Nat × List Nat))
    (h : phis.length < 2) : M_constr_walker co lp phis = some lp := by
  unfold M_constr_walker
  rw [if_pos h]

/-- The right-hand side `minimal_costs` for two Phis is the smaller of the two
costs, when no cost is negative and their sum is in the range of `int`. -/
theorem M_rhs_two (a b : Nat) (c1 c2 : Int) (h1 : 0 ≤ c1) (h2 : 0 ≤ c2)
    (h : c1 + c2 < 2147483648) :
    M_minimal_costs [(a, c1), (b, c2)] = min c1 c2 := by
  simp only [M_minimal_costs, M_sum, M_max, wrap_int, List.foldl_cons, List.foldl_nil]
  omega

set_option maxRecDepth 100000 in
/-- C20. One row for two patterns. In the block of `m_co` the operand 2 stands at
position 0 of the Phis 0 and 1 and the operand 3 at position 1 of both, and no
operand interferes with its Phi: two patterns, for which the rows
`5 y0_2 + 4 y1_2 >= 4` and `7 y0_3 + 1 y1_3 >= 1` are due. The walker names
every row `M0`, its counter being declared in the block that adds the row, so
`lpp_add_cst` gives the row of the first pattern again for the second one: the
problem that `new_pi` builds has the one row `M0`, "at least 4", with the
factors 5, 7, 4, 1 in the columns `y0_2`, `y0_3`, `y1_2`, `y1_3`, and no row
with the right-hand side 1. -/
theorem M_constr_walker_reuses_row_M0 :
    (phi_matrix m_co [(0, [2, 3]), (1, [2, 3])] 0 0 = some 2 ∧
      M_candidates m_co [(0, [2, 3]), (1, [2, 3])] 0 0 2 = [0, 1] ∧
      M_costs m_co [(0, [2, 3]), (1, [2, 3])] 2 [0, 1] = some [(0, 5), (1, 4)] ∧
      M_sum [(0, 5), (1, 4)] - M_max [(0, 5), (1, 4)] = 4) ∧
    (phi_matrix m_co [(0, [2, 3]), (1, [2, 3])] 0 1 = some 3 ∧
      M_candidates m_co [(0, [2, 3]), (1, [2, 3])] 1 0 3 = [0, 1] ∧
      M_costs m_co [(0, [2, 3]), (1, [2, 3])] 3 [0, 1] = some [(0, 7), (1, 1)] ∧
      M_sum [(0, 7), (1, 1)] - M_max [(0, 7), (1, 1)] = 1) ∧
    (new_pi m_co).map (fun pi => var_names pi.curr_lp) =
      some [['x', '2', '_', '0'], ['x', '2', '_', '1'], ['x', '3', '_', '0'],
        ['x', '3', '_', '1'], ['x', '0', '_', '0'], ['x', '0', '_', '1'],
        ['x', '1', '_', '0'], ['x', '1', '_', '1'], ['y', '0', '_', '2'],
        ['y', '0', '_', '3'], ['y', '1', '_', '2'], ['y', '1', '_', '3']] ∧
    (new_pi m_co).map (fun pi => M_rows pi.curr_lp) =
      some [(['M', '0'], lpp_cst_t.lpp_greater, 4, [0, 0, 0, 0, 0, 0, 0, 0, 5, 7, 4, 1])] := by
  decide

/-! ## The Solution Applier, call by call -/

theorem apply_solution_step_eq (pi : problem_instance_t) (value : Nat → Rat) (col : Nat → Int)
    (i : Nat) :
    apply_solution_step pi value col i =
      if above_threshold value i = true then
        if (split_column pi i).1 = 2 then
          some (Function.update col (column_node_color pi i).1 (column_node_color pi i).2)
        else none
      else some col := by
  unfold apply_solution_step above_threshold column_node_color split_column
  simp only [decide_eq_true_eq]

theorem apply_solution_calls_cons (pi : problem_instance_t) (value : Nat → Rat) (i : Nat)
    (rest : List Nat) :
    apply_solution_calls pi value (i :: rest) =
      if above_threshold value i = true then
        if (split_column pi i).1 = 2 then
          column_node_color pi i :: apply_solution_calls pi value rest
        else []
      else apply_solution_calls pi value rest := by
  simp only [apply_solution_calls, above_threshold, column_node_color, split_column,
    decide_eq_true_eq]

/-- The loop of `pi_apply_solution`, when it runs to its end: the calls it
makes are those for the indices above the threshold, in order, each with the
node and the color read in the name; all these names are names of x variables;
and the coloring left is the coloring after these calls. -/
theorem apply_solution_loop_calls (pi : problem_instance_t) (value : Nat → Rat) :
    ∀ (l : List Nat) (col col' : Nat → Int), apply_solution_loop pi value l col = some col' →
      apply_solution_calls pi value l =
        (l.filter (above_threshold value)).map (column_node_color pi) ∧
      (∀ i ∈ l, above_threshold value i = true → (split_column pi i).1 = 2) ∧
      col' = set_irn_cols col (apply_solution_calls pi value l) := by
  intro l
  induction l with
  | nil =>
    intro col col' h
    simp only [apply_solution_loop, Option.some.injEq] at h
    subst h
    exact ⟨rfl, fun i hi => absurd hi (List.not_mem_nil i), rfl⟩
  | cons i rest ih =>
    intro col col' h
    simp only [apply_solution_loop, apply_solution_step_eq] at h
    rw [apply_solution_calls_cons]
    by_cases ha : above_threshold value i = true
    · rw [if_pos ha] at h
      by_cases hr : (split_column pi i).1 = 2
      · rw [if_pos hr] at h
        obtain ⟨h1, h2, h3⟩ := ih _ col' h
        rw [if_pos ha, if_pos hr, List.filter_cons_of_pos ha, List.map_cons, h1]
        refine ⟨rfl, ?_, ?_⟩
        · intro j hj hja
          rcases List.mem_cons.1 hj with rfl | hj
          · exact hr
          · exact h2 j hj hja
        · rw [h3, h1]
          rfl
      · rw [if_neg hr] at h
        cases h
    · rw [if_neg ha] at h
      obtain ⟨h1, h2, h3⟩ := ih _ col' h
      rw [if_neg ha, List.filter_cons_of_neg ha]
      refine ⟨h1, ?_, h3⟩
      intro j hj hja
      rcases List.mem_cons.1 hj with rfl | hj
      · exact absurd hja ha
      · exact h2 j hj hja

/-- The loop of `pi_apply_solution` runs to its end when every name it comes to
split is the name of an x variable. -/
theorem apply_solution_loop_of_parse (pi : problem_instance_t) (value : Nat → Rat) :
    ∀ (l : List Nat) (col : Nat → Int),
      (∀ i ∈ l, above_threshold value i = true → (split_column pi i).1 = 2) →
      ∃ col', apply_solution_loop pi value l col = some col' := by
  intro l
  induction l with
  | nil => intro col _; exact ⟨col, rfl⟩
  | cons i rest ih =>
    intro col h
    simp only [apply_solution_loop, apply_solution_step_eq]
    have hrest : ∀ j ∈ rest, above_threshold value j = true → (split_column pi j).1 = 2 :=
      fun j hj => h j (List.mem_cons_of_mem _ hj)
    by_cases ha : above_threshold value i = true
    · rw [if_pos ha, if_pos (h i (List.mem_cons_self _ _) ha)]
      exact ih _ hrest
    · rw [if_neg ha]
      exact ih _ hrest

/-- A node for which no call is made keeps its color. -/
theorem set_irn_cols_other (n : Nat) :
    ∀ (calls : List (Nat × Int)) (col : Nat → Int), (∀ call ∈ calls, call.1 ≠ n) →
      set_irn_cols col calls n = col n := by
  intro calls
  induction calls with
  | nil => intro col _; rfl
  | cons c rest ih =>
    intro col h
    show set_irn_cols (Function.update col c.1 c.2) rest n = col n
    rw [ih _ (fun call hc => h call (List.mem_cons_of_mem _ hc)),
      Function.update_noteq (Ne.symm (h c (List.mem_cons_self _ _)))]

/-- A node has the color of the last call made for it. -/
theorem set_irn_cols_last (n : Nat) (c : Int) (pre post : List (Nat × Int)) (col : Nat → Int)
    (hpost : ∀ call ∈ post, call.1 ≠ n) :
    set_irn_cols col (pre ++ (n, c) :: post) n = c := by
  unfold set_irn_cols
  rw [List.foldl_append, List.foldl_cons]
  have := set_irn_cols_other n post
    (Function.update (List.foldl (fun f call => Function.update f call.1 call.2) col pre) n c) hpost
  unfold set_irn_cols at this
  rw [this, Function.update_same]

/-- The loop of `pi_apply_solution` looks at the values of the columns
`1 + i` for the indices `i` listed only. -/
theorem apply_solution_loop_congr (pi : problem_instance_t) (value value' : Nat → Rat) :
    ∀ (l : List Nat) (col : Nat → Int), (∀ i ∈ l, value' (1 + i) = value (1 + i)) →
      apply_solution_loop pi value' l col = apply_solution_loop pi value l col ∧
      apply_solution_calls pi value' l = apply_solution_calls pi value l := by
  intro l
  induction l with
  | nil => intro col _; exact ⟨rfl, rfl⟩
  | cons i rest ih =>
    intro col h
    have hi := h i (List.mem_cons_self _ _)
    have hrest : ∀ j ∈ rest, value' (1 + j) = value (1 + j) :=
      fun j hj => h j (List.mem_cons_of_mem _ hj)
    have ha : above_threshold value' i = above_threshold value i := by
      unfold above_threshold
      rw [hi]
    simp only [apply_solution_loop, apply_solution_step_eq, apply_solution_calls_cons, ha]
    by_cases hv : above_threshold value i = true
    · by_cases hr : (split_column pi i).1 = 2
      · simp only [hv, hr, if_true]
        exact ⟨(ih _ hrest).1, by rw [(ih col hrest).2]⟩
      · simp [hv, hr]
    · simp only [hv, if_false]
      exact ih col hrest

/-- C25. The state of the solution. `pi_apply_solution` runs its loop, which is
what writes colors, for the states `lpp_optimal` and `lpp_feasible`, and for
`lpp_feasible` it has printed the line "Solution state is not 'optimal': 4"
before; for the states `lpp_unknown`, `lpp_infeasible`, `lpp_inforunb` and
`lpp_unbounded` the line is printed, the assertion "The solution should at least
be feasible!" fails and no call `set_irn_col` is made. So a coloring is
returned for the states `lpp_optimal` and `lpp_feasible` only. -/
theorem apply_solution_state_handling (pi : problem_instance_t) (value : Nat → Rat)
    (col : Nat → Int) :
    (pi_apply_solution pi lpp_sol_state_t.lpp_optimal value col =
        apply_solution_loop pi value (List.range pi.last_x_var.toNat) col ∧
      pi_apply_solution_printf lpp_sol_state_t.lpp_optimal = []) ∧
    (pi_apply_solution pi lpp_sol_state_t.lpp_feasible value col =
        apply_solution_loop pi value (List.range pi.last_x_var.toNat) col ∧
      pi_apply_solution_printf lpp_sol_state_t.lpp_feasible = [4]) ∧
    (pi_apply_solution pi lpp_sol_state_t.lpp_unknown value col = none ∧
      pi_apply_solution_calls pi lpp_sol_state_t.lpp_unknown value = [] ∧
      pi_apply_solution_printf lpp_sol_state_t.lpp_unknown = [0]) ∧
    (pi_apply_solution pi lpp_sol_state_t.lpp_infeasible value col = none ∧
      pi_apply_solution_calls pi lpp_sol_state_t.lpp_infeasible value = [] ∧
      pi_apply_solution_printf lpp_sol_state_t.lpp_infeasible = [1]) ∧
    (pi_apply_solution pi lpp_sol_state_t.lpp_inforunb value col = none ∧
      pi_apply_solution_calls pi lpp_sol_state_t.lpp_inforunb value = [] ∧
      pi_apply_solution_printf lpp_sol_state_t.lpp_inforunb = [2]) ∧
    (pi_apply_solution pi lpp_sol_state_t.lpp_unbounded value col = none ∧
      pi_apply_solution_calls pi lpp_sol_state_t.lpp_unbounded value = [] ∧
      pi_apply_solution_printf lpp_sol_state_t.lpp_unbounded = [3]) ∧
    ∀ (state : lpp_sol_state_t) (col' : Nat → Int),
      pi_apply_solution pi state value col = some col' →
        state = lpp_sol_state_t.lpp_optimal ∨ state = lpp_sol_state_t.lpp_feasible := by
  refine ⟨⟨?_, rfl⟩, ⟨?_, rfl⟩, ⟨?_, ?_, rfl⟩, ⟨?_, ?_, rfl⟩, ⟨?_, ?_, rfl⟩, ⟨?_, ?_, rfl⟩, ?_⟩
  · unfold pi_apply_solution
    rw [if_neg (fun h => h.1 rfl)]
  · unfold pi_apply_solution
    rw [if_neg (fun h => h.2 (le_refl _))]
  · unfold pi_apply_solution
    rw [if_pos (by decide)]
  · unfold pi_apply_solution_calls
    rw [if_pos (by decide)]
  · unfold pi_apply_solution
    rw [if_pos (by decide)]
  · unfold pi_apply_solution_calls
    rw [if_pos (by decide)]
  · unfold pi_apply_solution
    rw [if_pos (by decide)]
  · unfold pi_apply_solution_calls
    rw [if_pos (by decide)]
  · unfold pi_apply_solution
    rw [if_pos (by decide)]
  · unfold pi_apply_solution_calls
    rw [if_pos (by decide)]
  · intro state col' h
    unfold pi_apply_solution at h
    cases state <;> first | (rw [if_pos (by decide)] at h; cases h) | simp

/-- The constant `EPSILON` is a double, a 53-bit significand over a power of
two, and it is the double nearest to 1/100000: the distance is less than half a
unit in the last place. -/
theorem EPSILON_is_double :
    EPSILON = 5902958103587057 / 2 ^ 69 ∧ (2 : Nat) ^ 52 ≤ 5902958103587057 ∧
      5902958103587057 < (2 : Nat) ^ 53 ∧ |EPSILON - 1 / 100000| < 1 / 2 ^ 70 := by
  refine ⟨by norm_num [EPSILON], by norm_num, by norm_num, ?_⟩
  rw [abs_lt]
  constructor <;> norm_num [EPSILON]

/-- The threshold `1-EPSILON` is a double, and it is the double nearest to the
exact difference of 1 and `EPSILON`; it is greater than 99999/100000. -/
theorem one_minus_EPSILON_is_double :
    one_minus_EPSILON = 9007109182748445 / 2 ^ 53 ∧ (2 : Nat) ^ 52 ≤ 9007109182748445 ∧
      9007109182748445 < (2 : Nat) ^ 53 ∧
      |one_minus_EPSILON - (1 - EPSILON)| < 1 / 2 ^ 54 ∧
      (99999 : Rat) / 100000 < one_minus_EPSILON := by
  refine ⟨by norm_num [one_minus_EPSILON], by norm_num, by norm_num, ?_,
    by norm_num [one_minus_EPSILON]⟩
  rw [abs_lt]
  constructor <;> norm_num [EPSILON, one_minus_EPSILON]

/-- A column whose value is the double `0x1.fffeb074a771dp-1` is not above the
threshold: the test `sol[i] > 1-EPSILON` compares the value with itself. -/
theorem above_threshold_at_threshold (value : Nat → Rat) (i : Nat)
    (h : value (1 + i) = 9007109182748445 / 9007199254740992) :
    above_threshold value i = false := by
  unfold above_threshold one_minus_EPSILON
  rw [h]
  exact decide_eq_false (lt_irrefl _)

/-- C23. Applying the solution. `pi_apply_solution` returns a coloring exactly
when the state is `lpp_optimal` or `lpp_feasible` and the name of every column
of `1 .. last_x_var` with a value above the threshold is the name of an x
variable. When it returns a coloring:
* the calls `set_irn_col` it makes are, in the order of the indices, one for
  every index `i` below `last_x_var` with `sol[i] > 1 - EPSILON`, that is for
  every column `1 + i` of `1 .. last_x_var` with a value above the threshold,
  with the node and the color that `split_var` reads in the name of the column;
* the coloring returned is the coloring after these calls, so a node for
  which no column is above the threshold keeps its color;
* the values of the columns outside `1 .. last_x_var` are not looked at.

The test `sol[i] > 1 - EPSILON` is the comparison of doubles of the code: a
column is above the threshold exactly when its value is greater than the double
`0x1.fffeb074a771dp-1`, the value of the expression `1-EPSILON`, and a column
whose value is this double is not above it. -/
theorem apply_solution_sets_colors (pi : problem_instance_t) (state : lpp_sol_state_t)
    (value : Nat → Rat) (col : Nat → Int) :
    (∀ i, above_threshold value i = true ↔
      value (1 + i) > 9007109182748445 / 9007199254740992) ∧
    ((∃ col', pi_apply_solution pi state value col = some col') ↔
      (state = lpp_sol_state_t.lpp_optimal ∨ state = lpp_sol_state_t.lpp_feasible) ∧
      ∀ i, i < pi.last_x_var.toNat → above_threshold value i = true →
        (split_column pi i).1 = 2) ∧
    ∀ col', pi_apply_solution pi state value col = some col' →
      pi_apply_solution_calls pi state value =
        ((List.range pi.last_x_var.toNat).filter (above_threshold value)).map
          (column_node_color pi) ∧
      col' = set_irn_cols col (pi_apply_solution_calls pi state value) ∧
      (∀ n, (∀ i, i < pi.last_x_var.toNat → above_threshold value i = true →
          (column_node_color pi i).1 ≠ n) → col' n = col n) ∧
      ∀ value' : Nat → Rat,
        (∀ k : Nat, 1 ≤ k → (k : Int) ≤ pi.last_x_var → value' k = value k) →
        pi_apply_solution pi state value' col = some col' := by
  have hret : ∀ col', pi_apply_solution pi state value col = some col' →
      ¬ (state ≠ lpp_sol_state_t.lpp_optimal ∧
        ¬ (lpp_sol_state_t.lpp_feasible.rank ≤ state.rank)) ∧
      apply_solution_loop pi value (List.range pi.last_x_var.toNat) col = some col' := by
    intro col' h
    have hstate : ¬ (state ≠ lpp_sol_state_t.lpp_optimal ∧
        ¬ (lpp_sol_state_t.lpp_feasible.rank ≤ state.rank)) := by
      intro hbad
      unfold pi_apply_solution at h
      rw [if_pos hbad] at h
      cases h
    refine ⟨hstate, ?_⟩
    unfold pi_apply_solution at h
    rw [if_neg hstate] at h
    exact h
  refine ⟨?_, ⟨?_, ?_⟩, ?_⟩
  · intro i
    unfold above_threshold one_minus_EPSILON
    exact decide_eq_true_iff
  · rintro ⟨col', h⟩
    obtain ⟨hstate, hloop⟩ := hret col' h
    obtain ⟨_, h2, _⟩ := apply_solution_loop_calls pi value _ col col' hloop
    refine ⟨?_, fun i hi => h2 i (List.mem_range.2 hi)⟩
    cases state <;> first | (exact absurd ⟨by decide, by decide⟩ hstate) | simp
  · rintro ⟨hs, hp⟩
    obtain ⟨col', hloop⟩ := apply_solution_loop_of_parse pi value
      (List.range pi.last_x_var.toNat) col (fun i hi => hp i (List.mem_range.1 hi))
    refine ⟨col', ?_⟩
    unfold pi_apply_solution
    rw [if_neg ?_]
    · exact hloop
    · rcases hs with rfl | rfl
      · exact fun hbad => hbad.1 rfl
      · exact fun hbad => hbad.2 (le_refl _)
  · intro col' h
    obtain ⟨hstate, hloop⟩ := hret col' h
    have hcalls : pi_apply_solution_calls pi state value =
        apply_solution_calls pi value (List.range pi.last_x_var.toNat) := by
      unfold pi_apply_solution_calls
      rw [if_neg hstate]
    obtain ⟨h1, h2, h3⟩ := apply_solution_loop_calls pi value _ col col' hloop
    refine ⟨by rw [hcalls, h1], by rw [hcalls, h3], ?_, ?_⟩
    · intro n hn
      rw [h3, h1]
      apply set_irn_cols_other
      intro call hcall
      obtain ⟨i, hi, rfl⟩ := List.mem_map.1 hcall
      obtain ⟨hi1, hi2⟩ := List.mem_filter.1 hi
      exact hn i (List.mem_range.1 hi1) hi2
    · intro value' hv
      unfold pi_apply_solution
      rw [if_neg hstate, (apply_solution_loop_congr pi value value' _ col (fun i hi => by
        have := List.mem_range.1 hi
        exact hv (1 + i) (by omega) (by omega))).1]
      exact hloop

theorem range_split_gt {n c : Nat} (h : c < n) :
    ∃ tail, List.range n = List.range c ++ c :: tail ∧ ∀ j ∈ tail, c < j ∧ j < n := by
  induction n with
  | zero => omega
  | succ n ih =>
    rcases Nat.lt_succ_iff_lt_or_eq.1 h with hlt | rfl
    · obtain ⟨t, ht, hj⟩ := ih hlt
      refine ⟨t ++ [n], by rw [List.range_succ, ht]; simp, ?_⟩
      intro j hjm
      rcases List.mem_append.1 hjm with hjm | hjm
      · have := hj j hjm
        omega
      · rw [List.mem_singleton] at hjm
        omega
    · exact ⟨[], List.range_succ c, fun j hj => absurd hj (List.not_mem_nil j)⟩

/-- The test `sol[i] > 1-EPSILON` on values that are whole numbers 0 or 1. -/
theorem above_threshold_cast {value : Nat → Rat} {v : Nat → Int}
    (hv : ∀ k, value k = (v k : Rat)) (h01 : ∀ k, v k = 0 ∨ v k = 1) (i : Nat) :
    above_threshold value i = decide (v (1 + i) = 1) := by
  unfold above_threshold
  rw [hv]
  rcases h01 (1 + i) with h | h <;> rw [h] <;> norm_num [one_minus_EPSILON]

/-- Amended C24. `pi_apply_solution` makes no check that a node has exactly one
column above the threshold. For the states `lpp_optimal` and `lpp_feasible`,
when every name it comes to split is the name of an x variable, it returns a
coloring whatever the number of columns above the threshold a node has: a node
with none keeps the color it had, and a node with several has the color of the
last of them, the calls before being overwritten. -/
theorem apply_solution_last_column_wins (pi : problem_instance_t) (state : lpp_sol_state_t)
    (value : Nat → Rat) (col : Nat → Int)
    (hstate : state = lpp_sol_state_t.lpp_optimal ∨ state = lpp_sol_state_t.lpp_feasible)
    (hparse : ∀ i, i < pi.last_x_var.toNat → above_threshold value i = true →
      (split_column pi i).1 = 2) :
    ∃ col', pi_apply_solution pi state value col = some col' ∧
      (∀ n, (∀ i, i < pi.last_x_var.toNat → above_threshold value i = true →
        (column_node_color pi i).1 ≠ n) → col' n = col n) ∧
      ∀ i, i < pi.last_x_var.toNat → above_threshold value i = true →
        (∀ j, i < j → j < pi.last_x_var.toNat → above_threshold value j = true →
          (column_node_color pi j).1 ≠ (column_node_color pi i).1) →
        col' (column_node_color pi i).1 = (column_node_color pi i).2 := by
  have hs : ¬ (state ≠ lpp_sol_state_t.lpp_optimal ∧
      ¬ (lpp_sol_state_t.lpp_feasible.rank ≤ state.rank)) := by
    rcases hstate with rfl | rfl <;> decide
  obtain ⟨col', hloop⟩ := apply_solution_loop_of_parse pi value
    (List.range pi.last_x_var.toNat) col (fun i hi => hparse i (List.mem_range.1 hi))
  obtain ⟨h1, _, h3⟩ := apply_solution_loop_calls pi value _ col col' hloop
  refine ⟨col', by unfold pi_apply_solution; rw [if_neg hs]; exact hloop, ?_, ?_⟩
  · intro n hn
    rw [h3, h1]
    apply set_irn_cols_other
    intro call hcall
    obtain ⟨i, hi, rfl⟩ := List.mem_map.1 hcall
    obtain ⟨hi1, hi2⟩ := List.mem_filter.1 hi
    exact hn i (List.mem_range.1 hi1) hi2
  · intro i hi ha hlater
    obtain ⟨tail, hsplit, htail⟩ := range_split_gt hi
    rw [h3, h1, hsplit, List.filter_append, List.filter_cons_of_pos ha, List.map_append,
      List.map_cons]
    apply set_irn_cols_last
    intro call hcall
    obtain ⟨j, hj, rfl⟩ := List.mem_map.1 hcall
    obtain ⟨hj1, hj2⟩ := List.mem_filter.1 hj
    exact hlater j (htail j hj1).1 (htail j hj1).2 hj2

set_option maxRecDepth 100000 in
theorem unit_pi_AB_columns :
    unit_pi_AB.last_x_var.toNat = 5 ∧
    (∀ i, i < unit_pi_AB.last_x_var.toNat → (split_column unit_pi_AB i).1 = 2) ∧
    (List.range unit_pi_AB.last_x_var.toNat).map (column_node_color unit_pi_AB) =
      [(1, 0), (1, 1), (2, 1), (0, 0), (0, 1)] := by
  decide

theorem above_threshold_one (i : Nat) : above_threshold (fun _ => 1) i = true := by
  rw [above_threshold_cast (v := fun _ => 1) (fun _ => by norm_num) (fun _ => Or.inr rfl)]
  decide

theorem above_threshold_zero (i : Nat) : above_threshold (fun _ => 0) i = false := by
  rw [above_threshold_cast (v := fun _ => 0) (fun _ => by norm_num) (fun _ => Or.inl rfl)]
  decide

/-- Counterexample to C24 on the problem of `unit_co`, whose columns are
`x1_0`, `x1_1`, `x2_1`, `x0_0`, `x0_1`. With the value 1 in every column the
nodes 0 and 1 have two columns above the threshold each: `pi_apply_solution`
returns, having set the color of node 1 to 0 and then to 1 and that of node 0 to
0 and then to 1. With the value 0 in every column no node has a column above
the threshold: `pi_apply_solution` returns, having made no call, and the
coloring is the one on entry. -/
theorem apply_solution_returns_without_exactly_one :
    (∃ col', pi_apply_solution unit_pi_AB lpp_sol_state_t.lpp_optimal (fun _ => 1)
        (fun _ => -1) = some col' ∧
      pi_apply_solution_calls unit_pi_AB lpp_sol_state_t.lpp_optimal (fun _ => 1) =
        [(1, 0), (1, 1), (2, 1), (0, 0), (0, 1)] ∧
      col' 0 = 1 ∧ col' 1 = 1 ∧ col' 2 = 1) ∧
    (∃ col', pi_apply_solution unit_pi_AB lpp_sol_state_t.lpp_optimal (fun _ => 0)
        (fun _ => -1) = some col' ∧
      pi_apply_solution_calls unit_pi_AB lpp_sol_state_t.lpp_optimal (fun _ => 0) = [] ∧
      ∀ n, col' n = -1) := by
  obtain ⟨hN, hparse, hcols⟩ := unit_pi_AB_columns
  constructor
  · obtain ⟨col', hloop⟩ := apply_solution_loop_of_parse unit_pi_AB (fun _ => 1)
      (List.range unit_pi_AB.last_x_var.toNat) (fun _ => -1)
      (fun i hi _ => hparse i (List.mem_range.1 hi))
    obtain ⟨h1, _, h3⟩ := apply_solution_loop_calls _ _ _ _ _ hloop
    have hfilter : (List.range unit_pi_AB.last_x_var.toNat).filter (above_threshold (fun _ => 1)) =
        List.range unit_pi_AB.last_x_var.toNat :=
      List.filter_eq_self.2 (fun i _ => above_threshold_one i)
    rw [hfilter, hcols] at h1
    refine ⟨col', ?_, ?_, ?_, ?_, ?_⟩
    · unfold pi_apply_solution
      rw [if_neg (fun h => h.1 rfl)]
      exact hloop
    · unfold pi_apply_solution_calls
      rw [if_neg (fun h => h.1 rfl)]
      exact h1
    · rw [h3, h1]; decide
    · rw [h3, h1]; decide
    · rw [h3, h1]; decide
  · obtain ⟨col', hloop⟩ := apply_solution_loop_of_parse unit_pi_AB (fun _ => 0)
      (List.range unit_pi_AB.last_x_var.toNat) (fun _ => -1)
      (fun i hi _ => hparse i (List.mem_range.1 hi))
    obtain ⟨h1, _, h3⟩ := apply_solution_loop_calls _ _ _ _ _ hloop
    have hfilter : (List.range unit_pi_AB.last_x_var.toNat).filter (above_threshold (fun _ => 0)) =
        [] :=
      List.filter_eq_nil_iff.2 (fun i _ => by rw [above_threshold_zero]; decide)
    rw [hfilter] at h1
    refine ⟨col', ?_, ?_, ?_⟩
    · unfold pi_apply_solution
      rw [if_neg (fun h => h.1 rfl)]
      exact hloop
    · unfold pi_apply_solution_calls
      rw [if_neg (fun h => h.1 rfl)]
      exact h1
    · intro n
      rw [h3, h1]
      rfl

/-- Witness of the amended C24 on the problem of `unit_co` with the value 1 in
every column. -/
theorem apply_solution_last_column_wins_witness :
    ((lpp_sol_state_t.lpp_optimal = lpp_sol_state_t.lpp_optimal ∨
        lpp_sol_state_t.lpp_optimal = lpp_sol_state_t.lpp_feasible) ∧
      (∀ i, i < unit_pi_AB.last_x_var.toNat → above_threshold (fun _ => 1) i = true →
        (split_column unit_pi_AB i).1 = 2)) ∧
    ∃ col', pi_apply_solution unit_pi_AB lpp_sol_state_t.lpp_optimal (fun _ => 1)
        (fun _ => -1) = some col' ∧
      (∀ n, (∀ i, i < unit_pi_AB.last_x_var.toNat → above_threshold (fun _ => 1) i = true →
        (column_node_color unit_pi_AB i).1 ≠ n) → col' n = (fun _ => -1) n) ∧
      ∀ i, i < unit_pi_AB.last_x_var.toNat → above_threshold (fun _ => 1) i = true →
        (∀ j, i < j → j < unit_pi_AB.last_x_var.toNat → above_threshold (fun _ => 1) j = true →
          (column_node_color unit_pi_AB j).1 ≠ (column_node_color unit_pi_AB i).1) →
        col' (column_node_color unit_pi_AB i).1 = (column_node_color unit_pi_AB i).2 :=
  ⟨⟨Or.inl rfl, fun i hi _ => unit_pi_AB_columns.2.1 i hi⟩,
    apply_solution_last_column_wins unit_pi_AB lpp_sol_state_t.lpp_optimal (fun _ => 1)
      (fun _ => -1) (Or.inl rfl) (fun i hi _ => unit_pi_AB_columns.2.1 i hi)⟩

set_option maxRecDepth 100000 in
theorem cycle_pi_columns :
    cycle_pi.last_x_var.toNat = 8 ∧
    (∀ i, i < cycle_pi.last_x_var.toNat → (split_column cycle_pi i).1 = 2) ∧
    (List.range cycle_pi.last_x_var.toNat).map (column_node_color cycle_pi) =
      [(0, 0), (0, 1), (1, 0), (1, 1), (2, 0), (2, 1), (3, 0), (3, 1)] := by
  decide

set_option maxRecDepth 100000 in
theorem cycle_value_calls :
    ((List.range cycle_pi.last_x_var.toNat).filter
      (fun i => decide (cycle_value_int (1 + i) = 1))).map (column_node_color cycle_pi) =
      [(0, 0), (1, 1), (2, 0), (3, 1)] := by
  decide

/-- Witness of C23 on the problem of the 4-cycle with the assignment that has
the value 1 in the columns `x0_0`, `x1_1`, `x2_0`, `x3_1`: the function
returns, the calls are those for these four columns, and the four nodes have
the colors 0, 1, 0, 1 afterwards. -/
theorem apply_solution_sets_colors_witness :
    ∃ col', pi_apply_solution cycle_pi lpp_sol_state_t.lpp_optimal cycle_value (fun _ => -1) =
        some col' ∧
      pi_apply_solution_calls cycle_pi lpp_sol_state_t.lpp_optimal cycle_value =
        [(0, 0), (1, 1), (2, 0), (3, 1)] ∧
      col' 0 = 0 ∧ col' 1 = 1 ∧ col' 2 = 0 ∧ col' 3 = 1 ∧ col' 4 = -1 := by
  have hthm := apply_solution_sets_colors cycle_pi lpp_sol_state_t.lpp_optimal cycle_value
    (fun _ => -1)
  obtain ⟨col', h⟩ := hthm.2.1.2 ⟨Or.inl rfl, fun i hi _ => cycle_pi_columns.2.1 i hi⟩
  obtain ⟨hc, hcol, _, _⟩ := hthm.2.2 col' h
  have hab : above_threshold cycle_value = fun i => decide (cycle_value_int (1 + i) = 1) := by
    funext i
    exact above_threshold_cast (fun k => rfl)
      (fun k => by unfold cycle_value_int; split_ifs <;> simp) i
  rw [hab, cycle_value_calls] at hc
  rw [hc] at hcol
  refine ⟨col', h, hc, ?_⟩
  subst hcol
  simp [set_irn_cols, Function.update]

/-! ## The warm start -/

theorem mapM_option_nil {α β : Type} (f : α → Option β) : ([] : List α).mapM f = some [] := by
  rw [List.mapM_nil]
  rfl

theorem mapM_option_cons {α β : Type} (f : α → Option β) (a : α) (rest : List α) :
    (a :: rest).mapM f = (f a).bind (fun b => (rest.mapM f).map (fun bs => b :: bs)) := by
  rw [List.mapM_cons]
  cases f a with
  | none => rfl
  | some b =>
    cases rest.mapM f with
    | none => rfl
    | some bs => rfl

/-- A loop that collects the results of a step that can fail returns the
results of all steps, in order, when every step returns. -/
theorem mapM_option_some {α β : Type} (f : α → Option β) :
    ∀ (l : List α) (out : List β), l.mapM f = some out ↔ l.map f = out.map some := by
  intro l
  induction l with
  | nil =>
    intro out
    rw [mapM_option_nil]
    cases out <;> simp
  | cons a rest ih =>
    intro out
    rw [mapM_option_cons]
    cases out with
    | nil =>
      cases f a with
      | none => simp
      | some b => cases rest.mapM f <;> simp
    | cons b' out' =>
      cases hf : f a with
      | none => simp [hf]
      | some b =>
        simp only [Option.some_bind, Option.map_eq_some', List.cons.injEq, List.map_cons, hf,
          Option.some.injEq]
        constructor
        · rintro ⟨bs, hbs, rfl, rfl⟩
          exact ⟨rfl, (ih bs).1 hbs⟩
        · rintro ⟨rfl, h2⟩
          exact ⟨out', (ih out').2 h2, rfl, rfl⟩

/-- A loop that collects the results of a step that can fail fails exactly
when a step fails. -/
theorem mapM_option_none {α β : Type} (f : α → Option β) :
    ∀ (l : List α), l.mapM f = none ↔ ∃ a ∈ l, f a = none := by
  intro l
  induction l with
  | nil => rw [mapM_option_nil]; simp
  | cons a rest ih =>
    rw [mapM_option_cons]
    cases hf : f a with
    | none => simp [hf]
    | some b =>
      simp only [Option.some_bind, Option.map_eq_none', List.mem_cons, exists_eq_or_imp, hf,
        false_or]
      rw [ih]
      simp

theorem mapM_option_map {α β γ : Type} (f : β → Option γ) (g : α → β) :
    ∀ l : List α, (l.map g).mapM f = l.mapM (fun a => f (g a)) := by
  intro l
  induction l with
  | nil => rw [List.map_nil, mapM_option_nil, mapM_option_nil]
  | cons a rest ih => rw [List.map_cons, mapM_option_cons, mapM_option_cons, ih]

/-- The body of the loop of `pi_set_start_sol` for the column `k + 1`, in terms
of what `split_var` reads in its name. -/
theorem set_start_sol_step_eq (pi : problem_instance_t) (col : Nat → Int) (k : Nat) :
    set_start_sol_step pi col (k + 1) =
      if (split_column pi k).1 = 2 then
        if col (column_node_color pi k).1 = -1 then none
        else some (lpp_call_t.lpp_set_start_value ((k : Int) + 1)
          (if col (column_node_color pi k).1 = (column_node_color pi k).2 then 1 else 0))
      else none := by
  unfold set_start_sol_step column_node_color split_column
  rw [show (((k + 1 : Nat) : Int)) = 1 + (k : Int) by push_cast; ring,
    show (k : Int) + 1 = 1 + (k : Int) by ring]

theorem pi_set_start_sol_eq (pi : problem_instance_t) (col : Nat → Int) :
    pi_set_start_sol pi col =
      (List.range pi.last_x_var.toNat).mapM (fun k => set_start_sol_step pi col (k + 1)) := by
  unfold pi_set_start_sol
  rw [List.range'_eq_map_range, mapM_option_map]
  congr 1
  funext k
  rw [Nat.add_comm]

/-- What `split_var` reads in the name of a column that `mangle_var` has
named. -/
theorem column_node_color_of_name {pi : problem_instance_t} {k n c : Nat}
    (hname : (var_names pi.curr_lp).get? k = some (mangle_var 'x' (n : Int) (c : Int)))
    (hn : n < 2 ^ 31) (hc : c < 2 ^ 31) :
    (split_column pi k).1 = 2 ∧ column_node_color pi k = (n, (c : Int)) := by
  unfold column_node_color split_column
  rw [show 1 + (k : Int) = (k : Int) + 1 by ring, lpp_get_var_name_eq hname,
    split_var_mangle_var (n : Int) (c : Int) ⟨by omega, by exact_mod_cast hn⟩
      ⟨by omega, by exact_mod_cast hc⟩]
  simp

/-- C22. The warm start. `pi_set_start_sol` looks at the columns
`1 .. last_x_var`, here the column `k + 1` for `k` below `last_x_var`:
* when it returns, every one of these names is the name of an x variable, no
  node read in them has the color -1 (the assertion of the function), and the
  calls made are, in order, `lpp_set_start_value (lp, k + 1, val)` with `val`
  1 when the node read in the name has the color read in the name and 0 when
  not;
* it fails exactly when one of these names is not the name of an x variable or
  the node read in one of them has the color -1; so a name that is not the name
  of an x variable makes it fail;
* when these columns have the names `x<n>_<c>` that `mangle_var` makes, and no
  two columns have the same name, at most one column of a node has the start
  value 1. -/
theorem set_start_sol_values (pi : problem_instance_t) (col : Nat → Int) :
    (∀ calls, pi_set_start_sol pi col = some calls →
      calls = (List.range pi.last_x_var.toNat).map
        (fun k : Nat => lpp_call_t.lpp_set_start_value ((k : Int) + 1) (start_value pi col k)) ∧
      ∀ k, k < pi.last_x_var.toNat →
        (split_column pi k).1 = 2 ∧ col (column_node_color pi k).1 ≠ -1) ∧
    (pi_set_start_sol pi col = none ↔
      ∃ k, k < pi.last_x_var.toNat ∧
        ((split_column pi k).1 ≠ 2 ∨ col (column_node_color pi k).1 = -1)) ∧
    ((∃ k, k < pi.last_x_var.toNat ∧ (split_column pi k).1 ≠ 2) →
      pi_set_start_sol pi col = none) ∧
    ((∀ k, k < pi.last_x_var.toNat → ∃ n c : Nat,
        (var_names pi.curr_lp).get? k = some (mangle_var 'x' (n : Int) (c : Int)) ∧
        n < 2 ^ 31 ∧ c < 2 ^ 31) →
      (var_names pi.curr_lp).Nodup →
      ∀ k j, k < pi.last_x_var.toNat → j < pi.last_x_var.toNat →
        (column_node_color pi k).1 = (column_node_color pi j).1 →
        start_value pi col k = 1 → start_value pi col j = 1 → k = j) := by
  have hnone : pi_set_start_sol pi col = none ↔
      ∃ k, k < pi.last_x_var.toNat ∧
        ((split_column pi k).1 ≠ 2 ∨ col (column_node_color pi k).1 = -1) := by
    rw [pi_set_start_sol_eq, mapM_option_none]
    constructor
    · rintro ⟨k, hk, hstep⟩
      refine ⟨k, List.mem_range.1 hk, ?_⟩
      rw [set_start_sol_step_eq] at hstep
      by_cases h2 : (split_column pi k).1 = 2
      · rw [if_pos h2] at hstep
        by_cases hc : col (column_node_color pi k).1 = -1
        · exact Or.inr hc
        · rw [if_neg hc] at hstep
          cases hstep
      · exact Or.inl h2
    · rintro ⟨k, hk, hbad⟩
      refine ⟨k, List.mem_range.2 hk, ?_⟩
      rw [set_start_sol_step_eq]
      rcases hbad with h2 | hc
      · rw [if_neg h2]
      · split_ifs <;> rfl
  refine ⟨?_, hnone, fun ⟨k, hk, h2⟩ => hnone.2 ⟨k, hk, Or.inl h2⟩, ?_⟩
  · intro calls h
    have hgood : ∀ k, k < pi.last_x_var.toNat →
        (split_column pi k).1 = 2 ∧ col (column_node_color pi k).1 ≠ -1 := by
      intro k hk
      by_contra hbad
      have : pi_set_start_sol pi col = none := hnone.2 ⟨k, hk, by
        by_cases h2 : (split_column pi k).1 = 2
        · exact Or.inr (by_contra fun hc => hbad ⟨h2, hc⟩)
        · exact Or.inl h2⟩
      rw [this] at h
      cases h
    refine ⟨?_, hgood⟩
    rw [pi_set_start_sol_eq, mapM_option_some] at h
    have hmap : (List.range pi.last_x_var.toNat).map
        (fun k => set_start_sol_step pi col (k + 1)) =
        ((List.range pi.last_x_var.toNat).map
          (fun k : Nat => lpp_call_t.lpp_set_start_value ((k : Int) + 1)
            (start_value pi col k))).map some := by
      rw [List.map_map]
      apply List.map_congr_left
      intro k hk
      obtain ⟨h2, hc⟩ := hgood k (List.mem_range.1 hk)
      rw [set_start_sol_step_eq, if_pos h2, if_neg hc]
      rfl
    rw [hmap] at h
    exact ((List.map_injective_iff.2 (Option.some_injective _)) h).symm
  · intro hnames hnd k j hk hj hnode hsk hsj
    obtain ⟨n, c, hname, hn, hc⟩ := hnames k hk
    obtain ⟨n', c', hname', hn', hc'⟩ := hnames j hj
    obtain ⟨_, hcnc⟩ := column_node_color_of_name hname hn hc
    obtain ⟨_, hcnc'⟩ := column_node_color_of_name hname' hn' hc'
    unfold start_value at hsk hsj
    rw [hcnc] at hnode hsk
    rw [hcnc'] at hnode hsj
    simp only at hnode hsk hsj
    have h1 : col n = (c : Int) := by
      by_contra hne
      rw [if_neg hne] at hsk
      cases hsk
    have h2 : col n' = (c' : Int) := by
      by_contra hne
      rw [if_neg hne] at hsj
      cases hsj
    have hcc : c = c' := by
      rw [← hnode, h1] at h2
      exact_mod_cast h2
    subst hnode
    subst hcc
    exact get?_inj_of_nodup hnd hname hname'

set_option maxRecDepth 100000 in
/-- Witness of C22 on the problem of the 4-cycle, whose columns are `x0_0`,
`x0_1`, ..., `x3_1`, with the coloring 0, 1, 0, 1: the start values are
1, 0, 0, 1, 1, 0, 0, 1; with the color -1 on every node the function fails. -/
theorem set_start_sol_values_witness :
    (pi_set_start_sol cycle_pi cycle_col =
        some [lpp_call_t.lpp_set_start_value 1 1, lpp_call_t.lpp_set_start_value 2 0,
          lpp_call_t.lpp_set_start_value 3 0, lpp_call_t.lpp_set_start_value 4 1,
          lpp_call_t.lpp_set_start_value 5 1, lpp_call_t.lpp_set_start_value 6 0,
          lpp_call_t.lpp_set_start_value 7 0, lpp_call_t.lpp_set_start_value 8 1] ∧
      pi_set_start_sol cycle_pi (fun _ => -1) = none ∧
      (∀ k, k < cycle_pi.last_x_var.toNat → ∃ n c : Nat,
        (var_names cycle_pi.curr_lp).get? k = some (mangle_var 'x' (n : Int) (c : Int)) ∧
        n < 2 ^ 31 ∧ c < 2 ^ 31) ∧
      (var_names cycle_pi.curr_lp).Nodup) ∧
    ((∀ calls, pi_set_start_sol cycle_pi cycle_col = some calls →
      calls = (List.range cycle_pi.last_x_var.toNat).map
        (fun k : Nat => lpp_call_t.lpp_set_start_value ((k : Int) + 1)
          (start_value cycle_pi cycle_col k)) ∧
      ∀ k, k < cycle_pi.last_x_var.toNat →
        (split_column cycle_pi k).1 = 2 ∧ cycle_col (column_node_color cycle_pi k).1 ≠ -1) ∧
    (pi_set_start_sol cycle_pi cycle_col = none ↔
      ∃ k, k < cycle_pi.last_x_var.toNat ∧
        ((split_column cycle_pi k).1 ≠ 2 ∨ cycle_col (column_node_color cycle_pi k).1 = -1)) ∧
    ((∃ k, k < cycle_pi.last_x_var.toNat ∧ (split_column cycle_pi k).1 ≠ 2) →
      pi_set_start_sol cycle_pi cycle_col = none) ∧
    ((∀ k, k < cycle_pi.last_x_var.toNat → ∃ n c : Nat,
        (var_names cycle_pi.curr_lp).get? k = some (mangle_var 'x' (n : Int) (c : Int)) ∧
        n < 2 ^ 31 ∧ c < 2 ^ 31) →
      (var_names cycle_pi.curr_lp).Nodup →
      ∀ k j, k < cycle_pi.last_x_var.toNat → j < cycle_pi.last_x_var.toNat →
        (column_node_color cycle_pi k).1 = (column_node_color cycle_pi j).1 →
        start_value cycle_pi cycle_col k = 1 → start_value cycle_pi cycle_col j = 1 → k = j)) :=
  ⟨⟨by decide, by decide,
      fun k hk => by
        have h8 : cycle_pi.last_x_var.toNat = 8 := by decide
        rw [h8] at hk
        interval_cases k
        · exact ⟨0, 0, by decide, by decide, by decide⟩
        · exact ⟨0, 1, by decide, by decide, by decide⟩
        · exact ⟨1, 0, by decide, by decide, by decide⟩
        · exact ⟨1, 1, by decide, by decide, by decide⟩
        · exact ⟨2, 0, by decide, by decide, by decide⟩
        · exact ⟨2, 1, by decide, by decide, by decide⟩
        · exact ⟨3, 0, by decide, by decide, by decide⟩
        · exact ⟨3, 1, by decide, by decide, by decide⟩,
      by decide⟩,
    set_start_sol_values cycle_pi cycle_col⟩

/-! ## The pressure in a block -/

/-- The loop of `be_compute_block_pressure` stops at the first Phi. -/
theorem block_pressure_loop_takeWhile (cls : Nat) :
    ∀ (nodes : List sched_node_t) (live : List Nat) (m : Nat),
      block_pressure_loop cls nodes live m =
        block_pressure_loop cls (nodes.takeWhile (fun irn => !irn.is_Phi)) live m := by
  intro nodes
  induction nodes with
  | nil => intro live m; rfl
  | cons irn rest ih =>
    intro live m
    by_cases hphi : irn.is_Phi = true
    · simp [block_pressure_loop, List.takeWhile, hphi]
    · have hphi' : irn.is_Phi = false := by simpa using hphi
      simp only [block_pressure_loop, List.takeWhile, hphi', Bool.not_false, Bool.false_eq_true,
        if_false]
      exact ih _ _

/-- The loop of `be_compute_block_pressure` over nodes none of which is a Phi:
the result is the largest of `max_live` on entry and the sizes of the live sets
after the transfers. -/
theorem block_pressure_loop_spec (cls : Nat) :
    ∀ (nodes : List sched_node_t) (live : List Nat) (m : Nat),
      (∀ irn ∈ nodes, irn.is_Phi = false) →
      m ≤ block_pressure_loop cls nodes live m ∧
      (∀ s ∈ (live_sets cls live nodes).tail,
        ir_nodeset_size s ≤ block_pressure_loop cls nodes live m) ∧
      (block_pressure_loop cls nodes live m = m ∨
        ∃ s ∈ (live_sets cls live nodes).tail,
          ir_nodeset_size s = block_pressure_loop cls nodes live m) := by
  intro nodes
  induction nodes with
  | nil =>
    intro live m _
    exact ⟨le_refl _, fun s hs => absurd hs (List.not_mem_nil s), Or.inl rfl⟩
  | cons irn rest ih =>
    intro live m h
    have hphi := h irn (List.mem_cons_self _ _)
    have hrest : ∀ x ∈ rest, x.is_Phi = false := fun x hx => h x (List.mem_cons_of_mem _ hx)
    obtain ⟨h1, h2, h3⟩ := ih (be_liveness_transfer cls irn live)
      (max (ir_nodeset_size (be_liveness_transfer cls irn live)) m) hrest
    have hstep : block_pressure_loop cls (irn :: rest) live m =
        block_pressure_loop cls rest (be_liveness_transfer cls irn live)
          (max (ir_nodeset_size (be_liveness_transfer cls irn live)) m) := by
      simp [block_pressure_loop, hphi]
    have htail : (live_sets cls live (irn :: rest)).tail =
        live_sets cls (be_liveness_transfer cls irn live) rest := rfl
    have hsets : live_sets cls (be_liveness_transfer cls irn live) rest =
        be_liveness_transfer cls irn live ::
          (live_sets cls (be_liveness_transfer cls irn live) rest).tail := by
      cases rest <;> rfl
    rw [hstep, htail]
    refine ⟨le_trans (le_max_right _ _) h1, ?_, ?_⟩
    · intro s hs
      rw [hsets] at hs
      rcases List.mem_cons.1 hs with rfl | hs
      · exact le_trans (le_max_left _ _) h1
      · exact h2 s hs
    · rcases h3 with h3 | ⟨s, hs, h3⟩
      · rcases max_cases (ir_nodeset_size (be_liveness_transfer cls irn live)) m with hm | hm
        · right
          refine ⟨be_liveness_transfer cls irn live, by rw [hsets]; exact List.mem_cons_self _ _, ?_⟩
          rw [h3, hm.1]
        · left
          rw [h3, hm.1]
      · right
        exact ⟨s, by rw [hsets]; exact List.mem_cons_of_mem _ hs, h3⟩

/-- C26. The pressure in a block. When every live set met has fewer than 2^32
members (the value returned is an `unsigned`), `be_compute_block_pressure`
returns the largest of the sizes of the set live at the end of the block and of
the sets after each transfer over the nodes of the schedule, from the last one
backwards up to the first Phi met: no set is larger and one of them has this
size. So the result is at least the size of the set live at the end, and it is
this size when the schedule holds nothing but Phis. -/
theorem block_pressure_is_max (irg : ir_graph) (block cls : Nat)
    (hsize : ∀ s ∈ live_sets cls (be_liveness_end_of_block irg cls block [])
      (transfer_nodes (irg.sched block)), ir_nodeset_size s < 2 ^ 32) :
    (∀ s ∈ live_sets cls (be_liveness_end_of_block irg cls block [])
        (transfer_nodes (irg.sched block)),
      ir_nodeset_size s ≤ be_compute_block_pressure irg block cls) ∧
    (∃ s ∈ live_sets cls (be_liveness_end_of_block irg cls block [])
        (transfer_nodes (irg.sched block)),
      ir_nodeset_size s = be_compute_block_pressure irg block cls) ∧
    ir_nodeset_size (be_liveness_end_of_block irg cls block []) ≤
      be_compute_block_pressure irg block cls ∧
    ((∀ irn ∈ irg.sched block, irn.is_Phi = true) →
      be_compute_block_pressure irg block cls =
        ir_nodeset_size (be_liveness_end_of_block irg cls block [])) := by
  have hnophi : ∀ irn ∈ transfer_nodes (irg.sched block), irn.is_Phi = false := by
    intro irn hirn
    have := List.mem_takeWhile_imp hirn
    simpa using this
  obtain ⟨h1, h2, h3⟩ := block_pressure_loop_spec cls (transfer_nodes (irg.sched block))
    (be_liveness_end_of_block irg cls block [])
    (ir_nodeset_size (be_liveness_end_of_block irg cls block [])) hnophi
  have hsets : live_sets cls (be_liveness_end_of_block irg cls block [])
      (transfer_nodes (irg.sched block)) =
      be_liveness_end_of_block irg cls block [] ::
        (live_sets cls (be_liveness_end_of_block irg cls block [])
          (transfer_nodes (irg.sched block))).tail := by
    cases transfer_nodes (irg.sched block) <;> rfl
  have hex : ∃ s ∈ live_sets cls (be_liveness_end_of_block irg cls block [])
      (transfer_nodes (irg.sched block)),
      ir_nodeset_size s = block_pressure_loop cls (transfer_nodes (irg.sched block))
        (be_liveness_end_of_block irg cls block [])
        (ir_nodeset_size (be_liveness_end_of_block irg cls block [])) := by
    rcases h3 with h3 | ⟨s, hs, h3⟩
    · exact ⟨_, by rw [hsets]; exact List.mem_cons_self _ _, h3.symm⟩
    · exact ⟨s, by rw [hsets]; exact List.mem_cons_of_mem _ hs, h3⟩
  have heq : be_compute_block_pressure irg block cls =
      block_pressure_loop cls (transfer_nodes (irg.sched block))
        (be_liveness_end_of_block irg cls block [])
        (ir_nodeset_size (be_liveness_end_of_block irg cls block [])) := by
    unfold be_compute_block_pressure
    rw [block_pressure_loop_takeWhile]
    obtain ⟨s, hs, hs2⟩ := hex
    apply Nat.mod_eq_of_lt
    show block_pressure_loop cls (transfer_nodes (irg.sched block)) _ _ < 2 ^ 32
    rw [← hs2]
    exact hsize s hs
  rw [heq]
  refine ⟨?_, hex, h1, ?_⟩
  · intro s hs
    rw [hsets] at hs
    rcases List.mem_cons.1 hs with rfl | hs
    · exact h1
    · exact h2 s hs
  · intro hall
    have hnil : transfer_nodes (irg.sched block) = [] := by
      unfold transfer_nodes
      cases hrev : (irg.sched block).reverse with
      | nil => rfl
      | cons x xs =>
        have hx : x ∈ irg.sched block :=
          List.mem_reverse.1 (by rw [hrev]; exact List.mem_cons_self _ _)
        simp [List.takeWhile, hall x hx]
    rw [hnil]
    rfl

/-! ## The pressure in a loop -/

theorem foldl_max_le (l : List Nat) : ∀ p : Nat, p ≤ l.foldl max p := by
  induction l with
  | nil => intro p; exact le_refl _
  | cons x rest ih => intro p; exact le_trans (le_max_left _ _) (ih (max p x))

theorem foldl_max_ge (l : List Nat) : ∀ p : Nat, ∀ x ∈ l, x ≤ l.foldl max p := by
  induction l with
  | nil => intro p x hx; cases hx
  | cons y rest ih =>
    intro p x hx
    rcases List.mem_cons.1 hx with rfl | hx
    · exact le_trans (le_max_right _ _) (foldl_max_le rest _)
    · exact ih _ x hx

theorem foldl_max_mem (l : List Nat) : ∀ p : Nat, l.foldl max p = p ∨ l.foldl max p ∈ l := by
  induction l with
  | nil => intro p; exact Or.inl rfl
  | cons y rest ih =>
    intro p
    rcases ih (max p y) with h | h
    · rcases max_cases p y with hm | hm
      · left; rw [List.foldl_cons, h, hm.1]
      · right; rw [List.foldl_cons, h, hm.1]; exact List.mem_cons_self _ _
    · right
      exact List.mem_cons_of_mem _ h

theorem foldl_max_max (l : List Nat) : ∀ p q : Nat, l.foldl max (max p q) = max p (l.foldl max q) := by
  induction l with
  | nil => intro p q; rfl
  | cons y rest ih =>
    intro p q
    rw [List.foldl_cons, List.foldl_cons, max_assoc, ih]

/-- The loop of `be_compute_loop_pressure` over the elements: it fails exactly
when a loop among them has no element; else the pressure is the largest of the
pressure before and the values of the elements, the lines "update info in set"
have been run for the loops among the elements, in the order in which the
function finishes with them, and `be_compute_block_pressure` has been called
for the blocks among them. -/
theorem loop_pressure_elements_eq (cls : Nat) :
    ∀ (elements : loop_elements) (st : loop_pressure_t),
      loop_pressure_elements cls elements st =
        if elements_ok elements = true then
          some { loop_ana := { st.loop_ana with
                   data := store_loops st.loop_ana.irg cls st.loop_ana.data (sub_loops elements) }
                 pressure := (element_values st.loop_ana.irg cls elements).foldl max st.pressure
                 blocks := st.blocks ++ blocks_of elements }
        else none := by
  intro elements
  induction elements with
  | none =>
    intro st
    simp [loop_pressure_elements, elements_ok, store_loops, sub_loops, element_values, blocks_of]
  | node block next ih =>
    intro st
    simp only [loop_pressure_elements, elements_ok, sub_loops, element_values, blocks_of,
      List.foldl_cons]
    rw [ih]
    by_cases hok : elements_ok next = true
    · simp [hok]
    · simp [hok]
  | son loop elements next ih1 ih2 =>
    intro st
    simp only [loop_pressure_elements, elements_ok, sub_loops, element_values, blocks_of,
      List.foldl_cons, Bool.and_eq_true, decide_eq_true_eq]
    by_cases hne : elements = loop_elements.none
    · simp [hne]
    · rw [if_neg hne, ih1]
      by_cases hok1 : elements_ok elements = true
      · simp only [hok1, if_true]
        rw [ih2]
        by_cases hok2 : elements_ok next = true
        · have hp : List.foldl max 0 (element_values st.loop_ana.irg cls elements) =
              loop_pressure st.loop_ana.irg cls elements := rfl
          simp [hok2, hne, hp, store_loops]
        · simp [hok2]
      · simp [hok1]

/-- What `be_compute_loop_pressure` does: it fails exactly when the loop or a
loop below it has no element; else it returns the pressure of the loop, having
run the lines "update info in set" for the loops below and then for the loop
itself and called `be_compute_block_pressure` for every block below. -/
theorem be_compute_loop_pressure_eq (loop_ana : be_loopana_t) (loop : ir_loop) (cls : Nat) :
    be_compute_loop_pressure loop_ana loop cls =
      if loop.elements ≠ loop_elements.none ∧ elements_ok loop.elements = true then
        some { loop_ana := { loop_ana with
                 data := store_loops loop_ana.irg cls loop_ana.data (all_loops loop) }
               pressure := loop_pressure loop_ana.irg cls loop.elements
               blocks := blocks_of loop.elements }
      else none := by
  unfold be_compute_loop_pressure
  by_cases hne : loop.elements = loop_elements.none
  · simp [hne]
  · rw [if_neg hne, loop_pressure_elements_eq]
    by_cases hok : elements_ok loop.elements = true
    · simp only [hok, if_true, Option.map_some', ne_eq, hne, not_false_eq_true, and_self,
        Option.some.injEq]
      simp only [all_loops, store_loops, List.foldl_append, List.foldl_cons, List.foldl_nil,
        List.nil_append, loop_pressure]
    · simp [hok]

theorem cmp_loop_info_eq_zero (e : be_loop_info_t) (loop cls m : Nat) :
    cmp_loop_info e { loop := loop, cls := cls, max_pressure := m } = 0 ↔
      e.loop = loop ∧ e.cls = cls := by
  unfold cmp_loop_info
  split_ifs with h
  · exact ⟨fun _ => h, fun _ => rfl⟩
  · exact ⟨fun h0 => absurd h0 (by decide), fun h1 => absurd h1 h⟩

theorem loop_info_update_nil (loop cls p : Nat) :
    loop_info_update [] loop cls p = [{ loop := loop, cls := cls, max_pressure := p }] := by
  simp [loop_info_update, set_insert]

theorem loop_info_update_cons (e : be_loop_info_t) (rest : List be_loop_info_t)
    (loop cls p : Nat) :
    loop_info_update (e :: rest) loop cls p =
      if e.loop = loop ∧ e.cls = cls then
        { e with max_pressure := max e.max_pressure p } :: rest
      else e :: loop_info_update rest loop cls p := by
  by_cases h : e.loop = loop ∧ e.cls = cls
  · rw [if_pos h]
    have h0 := (cmp_loop_info_eq_zero e loop cls 0).2 h
    simp [loop_info_update, set_insert, h0]
  · rw [if_neg h]
    have h0 : ¬ cmp_loop_info e { loop := loop, cls := cls, max_pressure := 0 } = 0 :=
      fun h0 => h ((cmp_loop_info_eq_zero e loop cls 0).1 h0)
    simp only [loop_info_update, set_insert, h0, if_false, List.get?_cons_succ]
    cases (set_insert rest { loop := loop, cls := cls, max_pressure := 0 }).1.get?
        (set_insert rest { loop := loop, cls := cls, max_pressure := 0 }).2 with
    | none => rfl
    | some entry => rfl

theorem set_find_cons (e : be_loop_info_t) (rest : List be_loop_info_t) (loop cls m : Nat) :
    set_find (e :: rest) { loop := loop, cls := cls, max_pressure := m } =
      if e.loop = loop ∧ e.cls = cls then some e
      else set_find rest { loop := loop, cls := cls, max_pressure := m } := by
  unfold set_find
  rw [List.find?_cons]
  by_cases h : e.loop = loop ∧ e.cls = cls
  · rw [if_pos h]
    simp [(cmp_loop_info_eq_zero e loop cls m).2 h]
  · rw [if_neg h]
    have h0 : ¬ cmp_loop_info e { loop := loop, cls := cls, max_pressure := m } = 0 :=
      fun h0 => h ((cmp_loop_info_eq_zero e loop cls m).1 h0)
    simp [h0]

/-- `set_find` finds nothing exactly when no entry has the loop and the class
of the key. -/
theorem set_find_eq_none (data : List be_loop_info_t) (loop cls m : Nat) :
    set_find data { loop := loop, cls := cls, max_pressure := m } = none ↔
      ∀ e ∈ data, ¬ (e.loop = loop ∧ e.cls = cls) := by
  induction data with
  | nil => simp [set_find]
  | cons e rest ih =>
    rw [set_find_cons]
    by_cases h : e.loop = loop ∧ e.cls = cls
    · rw [if_pos h]
      simp only [List.mem_cons, forall_eq_or_imp, false_iff, reduceCtorEq]
      exact fun h1 => h1.1 h
    · rw [if_neg h, ih]
      simp only [List.mem_cons, forall_eq_or_imp]
      exact ⟨fun h1 => ⟨h, h1⟩, fun h1 => h1.2⟩

/-- The entry that `set_find` finds has the loop and the class of the key and
is in the set. -/
theorem set_find_some {data : List be_loop_info_t} {loop cls m : Nat} {e : be_loop_info_t}
    (h : set_find data { loop := loop, cls := cls, max_pressure := m } = some e) :
    e ∈ data ∧ e.loop = loop ∧ e.cls = cls := by
  unfold set_find at h
  have h1 := List.mem_of_find?_eq_some h
  have h2 := List.find?_some h
  simp only [decide_eq_true_eq] at h2
  exact ⟨h1, (cmp_loop_info_eq_zero e loop cls m).1 h2⟩

/-- The lines "update info in set" leave the set as it is when it has an entry
for the loop and the class with at least the pressure. -/
theorem loop_info_update_of_has_entry :
    ∀ (data : List be_loop_info_t) (loop cls p : Nat), has_entry data loop cls p →
      loop_info_update data loop cls p = data := by
  intro data
  induction data with
  | nil =>
    intro loop cls p h
    obtain ⟨e, he, _⟩ := h
    simp [set_find] at he
  | cons e rest ih =>
    intro loop cls p h
    obtain ⟨e', he', hp⟩ := h
    rw [set_find_cons] at he'
    rw [loop_info_update_cons]
    by_cases hk : e.loop = loop ∧ e.cls = cls
    · rw [if_pos hk] at he'
      rw [if_pos hk]
      have := Option.some.inj he'
      subst this
      rw [max_eq_left hp]
    · rw [if_neg hk] at he'
      rw [if_neg hk, ih loop cls p ⟨e', he', hp⟩]

/-- After the lines "update info in set" the set has an entry for the loop and
the class with at least the pressure, and the entries there were for other
pressures are still there. -/
theorem has_entry_loop_info_update :
    ∀ (data : List be_loop_info_t) (loop cls p : Nat),
      has_entry (loop_info_update data loop cls p) loop cls p ∧
      ∀ loop' cls' p', has_entry data loop' cls' p' →
        has_entry (loop_info_update data loop cls p) loop' cls' p' := by
  intro data
  induction data with
  | nil =>
    intro loop cls p
    rw [loop_info_update_nil]
    constructor
    · exact ⟨_, by rw [set_find_cons, if_pos ⟨rfl, rfl⟩], le_refl _⟩
    · intro loop' cls' p' h
      obtain ⟨e, he, _⟩ := h
      simp [set_find] at he
  | cons e rest ih =>
    intro loop cls p
    obtain ⟨ih1, ih2⟩ := ih loop cls p
    rw [loop_info_update_cons]
    by_cases hk : e.loop = loop ∧ e.cls = cls
    · rw [if_pos hk]
      constructor
      · exact ⟨_, by rw [set_find_cons, if_pos hk], le_max_right _ _⟩
      · intro loop' cls' p' h
        obtain ⟨e', he', hp⟩ := h
        rw [set_find_cons] at he'
        by_cases hk' : e.loop = loop' ∧ e.cls = cls'
        · rw [if_pos hk'] at he'
          have := Option.some.inj he'
          subst this
          exact ⟨_, by rw [set_find_cons, if_pos hk'], le_trans hp (le_max_left _ _)⟩
        · rw [if_neg hk'] at he'
          exact ⟨e', by rw [set_find_cons, if_neg hk']; exact he', hp⟩
    · rw [if_neg hk]
      constructor
      · obtain ⟨e', he', hp⟩ := ih1
        exact ⟨e', by rw [set_find_cons, if_neg hk]; exact he', hp⟩
      · intro loop' cls' p' h
        obtain ⟨e', he', hp⟩ := h
        rw [set_find_cons] at he'
        by_cases hk' : e.loop = loop' ∧ e.cls = cls'
        · rw [if_pos hk'] at he'
          exact ⟨e', by rw [set_find_cons, if_pos hk']; exact he', hp⟩
        · rw [if_neg hk'] at he'
          obtain ⟨e'', he'', hp''⟩ := ih2 loop' cls' p' ⟨e', he', hp⟩
          exact ⟨e'', by rw [set_find_cons, if_neg hk']; exact he'', hp''⟩

/-- In a set without an entry for the loop and the class the lines "update info
in set" add the entry, with the pressure, after the entries there are. -/
theorem loop_info_update_fresh :
    ∀ (data : List be_loop_info_t) (loop cls p : Nat),
      (∀ e ∈ data, ¬ (e.loop = loop ∧ e.cls = cls)) →
      loop_info_update data loop cls p =
        data ++ [{ loop := loop, cls := cls, max_pressure := p }] := by
  intro data
  induction data with
  | nil => intro loop cls p _; rw [loop_info_update_nil]; rfl
  | cons e rest ih =>
    intro loop cls p h
    rw [loop_info_update_cons, if_neg (h e (List.mem_cons_self _ _)),
      ih loop cls p (fun e' he' => h e' (List.mem_cons_of_mem _ he'))]
    rfl

/-- The entries made for loops with addresses that differ from each other and
from those in the set: one entry for each loop, with its pressure, after the
entries there are, in the order of the loops. -/
theorem store_loops_fresh (irg : ir_graph) (cls : Nat) :
    ∀ (loops : List ir_loop) (data : List be_loop_info_t),
      (data.map (fun e => e.loop) ++ loops.map (fun L => L.addr)).Nodup →
      store_loops irg cls data loops =
        data ++ loops.map (fun L => be_loop_info_t.mk L.addr cls (loop_pressure irg cls L.elements)) := by
  intro loops
  induction loops with
  | nil => intro data _; simp [store_loops]
  | cons L rest ih =>
    intro data hnd
    have hfresh : ∀ e ∈ data, ¬ (e.loop = L.addr ∧ e.cls = cls) := by
      intro e he hk
      have hdis := (List.nodup_append.1 hnd).2.2
      exact hdis (List.mem_map.2 ⟨e, he, rfl⟩) (by rw [hk.1]; simp)
    show store_loops irg cls (loop_info_update data L.addr cls (loop_pressure irg cls L.elements))
      rest = _
    rw [loop_info_update_fresh data _ _ _ hfresh, ih]
    · simp
    · simpa [List.append_assoc] using hnd

/-- In a set that holds one entry for each of the loops listed, whose addresses
differ from each other, `set_find` finds the entry of the loop asked for. -/
theorem set_find_map (irg : ir_graph) (cls m : Nat) :
    ∀ (loops : List ir_loop), (loops.map (fun L => L.addr)).Nodup → ∀ L ∈ loops,
      set_find
        (loops.map (fun L => be_loop_info_t.mk L.addr cls (loop_pressure irg cls L.elements)))
        { loop := L.addr, cls := cls, max_pressure := m } =
        some (be_loop_info_t.mk L.addr cls (loop_pressure irg cls L.elements)) := by
  intro loops
  induction loops with
  | nil => intro _ L hL; cases hL
  | cons L0 rest ih =>
    intro hnd L hL
    obtain ⟨hnot, hnd'⟩ := List.nodup_cons.1 hnd
    rw [List.map_cons, set_find_cons]
    rcases List.mem_cons.1 hL with rfl | hL
    · rw [if_pos ⟨rfl, rfl⟩]
    · have hne : ¬ (L0.addr = L.addr ∧ cls = cls) := by
        rintro ⟨h1, _⟩
        exact hnot (List.mem_map.2 ⟨L, hL, h1.symm⟩)
      rw [if_neg hne]
      exact ih hnd' L hL

/-- After the lines "update info in set" have been run for the loops listed the
set has an entry for each of them with at least its pressure, and the entries
there were are still there. -/
theorem store_loops_has_entry (irg : ir_graph) (cls : Nat) :
    ∀ (loops : List ir_loop) (data : List be_loop_info_t),
      (∀ L ∈ loops, has_entry (store_loops irg cls data loops) L.addr cls
        (loop_pressure irg cls L.elements)) ∧
      ∀ loop' cls' p', has_entry data loop' cls' p' →
        has_entry (store_loops irg cls data loops) loop' cls' p' := by
  intro loops
  induction loops with
  | nil =>
    intro data
    exact ⟨fun L hL => absurd hL (List.not_mem_nil L), fun _ _ _ h => h⟩
  | cons L0 rest ih =>
    intro data
    obtain ⟨ih1, ih2⟩ := ih (loop_info_update data L0.addr cls (loop_pressure irg cls L0.elements))
    obtain ⟨hu1, hu2⟩ := has_entry_loop_info_update data L0.addr cls
      (loop_pressure irg cls L0.elements)
    constructor
    · intro L hL
      rcases List.mem_cons.1 hL with rfl | hL
      · exact ih2 _ _ _ hu1
      · exact ih1 L hL
    · intro loop' cls' p' h
      exact ih2 _ _ _ (hu2 _ _ _ h)

/-- The lines "update info in set", run for loops for which the set has entries
with at least their pressures, leave the set as it is. -/
theorem store_loops_of_has_entry (irg : ir_graph) (cls : Nat) (data : List be_loop_info_t) :
    ∀ (loops : List ir_loop),
      (∀ L ∈ loops, has_entry data L.addr cls (loop_pressure irg cls L.elements)) →
      store_loops irg cls data loops = data := by
  intro loops
  induction loops with
  | nil => intro _; rfl
  | cons L0 rest ih =>
    intro h
    show store_loops irg cls (loop_info_update data L0.addr cls (loop_pressure irg cls L0.elements))
      rest = data
    rw [loop_info_update_of_has_entry data _ _ _ (h L0 (List.mem_cons_self _ _))]
    exact ih (fun L hL => h L (List.mem_cons_of_mem _ hL))

/-- When no loop among the elements is without an element, this holds of each
of these loops too. -/
theorem elements_ok_sub_loops :
    ∀ (elements : loop_elements), elements_ok elements = true →
      ∀ L ∈ sub_loops elements,
        L.elements ≠ loop_elements.none ∧ elements_ok L.elements = true := by
  intro elements
  induction elements with
  | none => intro _ L hL; cases hL
  | node block next ih =>
    intro hok L hL
    exact ih hok L hL
  | son loop elements next ih1 ih2 =>
    intro hok L hL
    simp only [elements_ok, Bool.and_eq_true, decide_eq_true_eq] at hok
    simp only [sub_loops, List.mem_append, List.mem_cons] at hL
    rcases hL with hL | rfl | hL
    · exact ih1 hok.1.2 L hL
    · exact ⟨hok.1.1, hok.1.2⟩
    · exact ih2 hok.2 L hL

theorem element_values_ne_nil (irg : ir_graph) (cls : Nat) {elements : loop_elements}
    (h : elements ≠ loop_elements.none) : element_values irg cls elements ≠ [] := by
  cases elements with
  | none => exact absurd rfl h
  | node block next => simp [element_values]
  | son loop elements next => simp [element_values]

theorem loop_pressure_mem (irg : ir_graph) (cls : Nat) {elements : loop_elements}
    (h : elements ≠ loop_elements.none) :
    loop_pressure irg cls elements ∈ element_values irg cls elements := by
  unfold loop_pressure
  rcases foldl_max_mem (element_values irg cls elements) 0 with h0 | hm
  · obtain ⟨x, hx⟩ := List.exists_mem_of_ne_nil _ (element_values_ne_nil irg cls h)
    have hle := foldl_max_ge (element_values irg cls elements) 0 x hx
    rw [h0] at hle ⊢
    have : x = 0 := by omega
    rw [← this]
    exact hx
  · exact hm

/-- C27. The pressure in a loop. For a loop that has an element and below
which every loop has one (else the assertion of the function fails),
`be_compute_loop_pressure` returns the largest of the values of the elements of
the loop, the value of a block being what `be_compute_block_pressure` returns
for it and the value of a son what the function returns for the son; and when
the analysis object is fresh and the loops have addresses that differ from each
other, the set holds after the call exactly one entry for each loop below and
for the loop itself, with the class and with the pressure of that loop, so the
entry of the loop has the value returned as its `max_pressure`. -/
theorem loop_pressure_is_max (loop_ana : be_loopana_t) (loop : ir_loop) (cls : Nat)
    (hne : loop.elements ≠ loop_elements.none) (hok : elements_ok loop.elements = true) :
    ∃ r, be_compute_loop_pressure loop_ana loop cls = some r ∧
      r.pressure = loop_pressure loop_ana.irg cls loop.elements ∧
      (∀ x ∈ element_values loop_ana.irg cls loop.elements, x ≤ r.pressure) ∧
      r.pressure ∈ element_values loop_ana.irg cls loop.elements ∧
      (∀ L ∈ sub_loops loop.elements, ∀ ana : be_loopana_t, ana.irg = loop_ana.irg →
        ∃ r', be_compute_loop_pressure ana L cls = some r' ∧
          r'.pressure = loop_pressure loop_ana.irg cls L.elements) ∧
      (loop_ana.data = [] → ((all_loops loop).map (fun L => L.addr)).Nodup →
        r.loop_ana.data = (all_loops loop).map (loop_entry loop_ana.irg cls) ∧
        set_find r.loop_ana.data { loop := loop.addr, cls := cls, max_pressure := 0 } =
          some { loop := loop.addr, cls := cls, max_pressure := r.pressure }) := by
  refine ⟨_, by rw [be_compute_loop_pressure_eq, if_pos ⟨hne, hok⟩], rfl, ?_, ?_, ?_, ?_⟩
  · exact fun x hx => foldl_max_ge _ 0 x hx
  · exact loop_pressure_mem loop_ana.irg cls hne
  · intro L hL ana hirg
    obtain ⟨h1, h2⟩ := elements_ok_sub_loops loop.elements hok L hL
    exact ⟨_, by rw [be_compute_loop_pressure_eq, if_pos ⟨h1, h2⟩], by rw [hirg]⟩
  · intro hdata hnd
    have hstore : store_loops loop_ana.irg cls loop_ana.data (all_loops loop) =
        (all_loops loop).map (loop_entry loop_ana.irg cls) := by
      rw [store_loops_fresh loop_ana.irg cls _ _ (by rw [hdata]; simpa using hnd), hdata]
      rfl
    refine ⟨hstore, ?_⟩
    show set_find (store_loops loop_ana.irg cls loop_ana.data (all_loops loop)) _ = _
    rw [hstore]
    exact set_find_map loop_ana.irg cls 0 _ hnd loop (by simp [all_loops])

/-- C28. Reading the pressures. After `be_new_loop_pressure_cls (irg, cls)`, which
is what `be_new_loop_pressure (irg, cls)` does for a class that is not `NULL`,
when the loops of the tree have addresses that differ from each other and none
is `NULL`: for every loop of the tree `be_get_loop_pressure` ends with a value,
the pressure of the loop, which is what `be_compute_loop_pressure` returns for
this loop on any analysis object of the graph. (`be_get_loop_pressure` has no
other result than the value: the model gives it no analysis object to return.) -/
theorem get_loop_pressure_after_new (irg : ir_graph) (cls : Nat) (ana : be_loopana_t)
    (hcls : cls ≠ 0) (haddr : ∀ L ∈ all_loops irg.loop, L.addr ≠ 0)
    (hnd : ((all_loops irg.loop).map (fun L => L.addr)).Nodup)
    (h : be_new_loop_pressure_cls irg cls = some ana) :
    be_new_loop_pressure irg cls = some ana ∧
    ana.data = (all_loops irg.loop).map (loop_entry irg cls) ∧
    ∀ L ∈ all_loops irg.loop,
      be_get_loop_pressure ana cls L.addr =
        get_pressure_t.value (loop_pressure irg cls L.elements) ∧
      ∀ ana0 : be_loopana_t, ana0.irg = irg →
        ∃ r, be_compute_loop_pressure ana0 L cls = some r ∧
          r.pressure = loop_pressure irg cls L.elements := by
  have hnew : be_new_loop_pressure irg cls = be_new_loop_pressure_cls irg cls := by
    unfold be_new_loop_pressure be_new_loop_pressure_cls
    rw [if_pos hcls]
  unfold be_new_loop_pressure_cls at h
  rw [be_compute_loop_pressure_eq] at h
  by_cases hok : irg.loop.elements ≠ loop_elements.none ∧ elements_ok irg.loop.elements = true
  swap
  · rw [if_neg hok] at h
    cases h
  rw [if_pos hok] at h
  simp only [Option.map_some', Option.some.injEq] at h
  have hdata : ana.data = (all_loops irg.loop).map (loop_entry irg cls) := by
    rw [← h]
    show store_loops irg cls [] (all_loops irg.loop) = _
    rw [store_loops_fresh irg cls _ _ (by simpa using hnd)]
    rfl
  have hnew' : be_new_loop_pressure irg cls = some ana := by
    rw [hnew]
    unfold be_new_loop_pressure_cls
    rw [be_compute_loop_pressure_eq, if_pos hok]
    simp [h]
  refine ⟨hnew', hdata, ?_⟩
  intro L hL
  constructor
  · unfold be_get_loop_pressure
    have hnull : ¬ (cls = 0 ∨ L.addr = 0) := by
      rintro (h1 | h1)
      · exact hcls h1
      · exact haddr L hL h1
    rw [if_neg hnull, hdata]
    have := set_find_map irg cls 0 _ hnd L hL
    unfold loop_entry
    rw [this]
  · intro ana0 hirg
    have hLok : L.elements ≠ loop_elements.none ∧ elements_ok L.elements = true := by
      simp only [all_loops, List.mem_append, List.mem_singleton] at hL
      rcases hL with hL | rfl
      · exact elements_ok_sub_loops _ hok.2 L hL
      · exact hok
    exact ⟨_, by rw [be_compute_loop_pressure_eq, if_pos hLok], by rw [hirg]⟩

/-- C29. Asking for a pair that is not there. For a class and a loop that are
not `NULL`, `be_get_loop_pressure` ends in `panic` exactly when the set has no
entry with this loop and this class; so entries for the loop with other
classes, and entries for the class with other loops, do not prevent it. When it
ends with a value, that is the `max_pressure` of an entry with this loop and
this class. -/
theorem get_loop_pressure_panics_iff (loop_ana : be_loopana_t) (cls loop : Nat)
    (hcls : cls ≠ 0) (hloop : loop ≠ 0) :
    (be_get_loop_pressure loop_ana cls loop = get_pressure_t.panicked ↔
      ∀ e ∈ loop_ana.data, ¬ (e.loop = loop ∧ e.cls = cls)) ∧
    ((∀ e ∈ loop_ana.data, (e.loop = loop → e.cls ≠ cls) ∧ (e.cls = cls → e.loop ≠ loop)) →
      be_get_loop_pressure loop_ana cls loop = get_pressure_t.panicked) ∧
    be_get_loop_pressure loop_ana cls loop ≠ get_pressure_t.assertion_failed ∧
    ∀ p, be_get_loop_pressure loop_ana cls loop = get_pressure_t.value p →
      ∃ e ∈ loop_ana.data, e.loop = loop ∧ e.cls = cls ∧ e.max_pressure = p := by
  have hnull : ¬ (cls = 0 ∨ loop = 0) := by
    rintro (h1 | h1)
    · exact hcls h1
    · exact hloop h1
  have hiff : be_get_loop_pressure loop_ana cls loop = get_pressure_t.panicked ↔
      ∀ e ∈ loop_ana.data, ¬ (e.loop = loop ∧ e.cls = cls) := by
    unfold be_get_loop_pressure
    rw [if_neg hnull, ← set_find_eq_none loop_ana.data loop cls 0]
    cases set_find loop_ana.data { loop := loop, cls := cls, max_pressure := 0 } <;> simp
  refine ⟨hiff, fun h => hiff.2 (fun e he hk => (h e he).1 hk.1 hk.2), ?_, ?_⟩
  · unfold be_get_loop_pressure
    rw [if_neg hnull]
    cases set_find loop_ana.data { loop := loop, cls := cls, max_pressure := 0 } <;> simp
  · intro p hp
    unfold be_get_loop_pressure at hp
    rw [if_neg hnull] at hp
    cases hf : set_find loop_ana.data { loop := loop, cls := cls, max_pressure := 0 } with
    | none => rw [hf] at hp; cases hp
    | some e =>
      rw [hf] at hp
      obtain ⟨h1, h2, h3⟩ := set_find_some hf
      exact ⟨e, h1, h2, h3, by simpa using hp⟩

/-- Amended C30. `be_compute_loop_pressure` does not look up the set before it
computes. A second call for the same loop and class on the analysis object
that a first call has left returns the same value and leaves every entry of
the set as it is, and it calls `be_compute_block_pressure` again for every
block below the loop, as the first call did. -/
theorem loop_pressure_second_call (loop_ana : be_loopana_t) (loop : ir_loop) (cls : Nat)
    (r1 : loop_pressure_t) (h : be_compute_loop_pressure loop_ana loop cls = some r1) :
    ∃ r2, be_compute_loop_pressure r1.loop_ana loop cls = some r2 ∧
      r2.pressure = r1.pressure ∧
      r2.loop_ana.data = r1.loop_ana.data ∧
      r2.blocks = r1.blocks ∧
      r2.blocks = blocks_of loop.elements := by
  rw [be_compute_loop_pressure_eq] at h
  by_cases hok : loop.elements ≠ loop_elements.none ∧ elements_ok loop.elements = true
  swap
  · rw [if_neg hok] at h
    cases h
  rw [if_pos hok] at h
  have h' := Option.some.inj h
  have hirg : r1.loop_ana.irg = loop_ana.irg := by rw [← h']
  have hdata : r1.loop_ana.data = store_loops loop_ana.irg cls loop_ana.data (all_loops loop) := by
    rw [← h']
  have hp : r1.pressure = loop_pressure loop_ana.irg cls loop.elements := by rw [← h']
  have hb : r1.blocks = blocks_of loop.elements := by rw [← h']
  have h2 := be_compute_loop_pressure_eq r1.loop_ana loop cls
  rw [if_pos hok] at h2
  refine ⟨_, h2, ?_, ?_, hb.symm, rfl⟩
  · rw [hp, hirg]
  · show store_loops r1.loop_ana.irg cls r1.loop_ana.data (all_loops loop) = r1.loop_ana.data
    rw [hirg, hdata]
    exact store_loops_of_has_entry _ _ _ _ (store_loops_has_entry _ _ _ _).1

set_option maxRecDepth 100000 in
/-- Witness of C26 on block 1 of `loop_irg`: the sets met have 2, 3 and 3
members (the Phi is not transferred over), the pressure is 3. -/
theorem block_pressure_is_max_witness :
    ((∀ s ∈ live_sets 7 (be_liveness_end_of_block loop_irg 7 1 [])
        (transfer_nodes (loop_irg.sched 1)), ir_nodeset_size s < 2 ^ 32) ∧
      (live_sets 7 (be_liveness_end_of_block loop_irg 7 1 [])
        (transfer_nodes (loop_irg.sched 1))).map ir_nodeset_size = [2, 3, 3] ∧
      be_compute_block_pressure loop_irg 1 7 = 3 ∧
      be_compute_block_pressure loop_irg 3 7 = 2) ∧
    ((∀ s ∈ live_sets 7 (be_liveness_end_of_block loop_irg 7 1 [])
        (transfer_nodes (loop_irg.sched 1)),
      ir_nodeset_size s ≤ be_compute_block_pressure loop_irg 1 7) ∧
    (∃ s ∈ live_sets 7 (be_liveness_end_of_block loop_irg 7 1 [])
        (transfer_nodes (loop_irg.sched 1)),
      ir_nodeset_size s = be_compute_block_pressure loop_irg 1 7) ∧
    ir_nodeset_size (be_liveness_end_of_block loop_irg 7 1 []) ≤
      be_compute_block_pressure loop_irg 1 7 ∧
    ((∀ irn ∈ loop_irg.sched 1, irn.is_Phi = true) →
      be_compute_block_pressure loop_irg 1 7 =
        ir_nodeset_size (be_liveness_end_of_block loop_irg 7 1 []))) :=
  ⟨⟨by decide, by decide, by decide, by decide⟩,
    block_pressure_is_max loop_irg 1 7 (by decide)⟩

set_option maxRecDepth 100000 in
/-- Witness of C27 on `loop_irg` and the class 7: the blocks have the pressures
3, 4, 2 and 0, the loops 102, 101 and 100 the pressures 2, 4 and 4. -/
theorem loop_pressure_is_max_witness :
    (loop_irg.loop.elements ≠ loop_elements.none ∧ elements_ok loop_irg.loop.elements = true ∧
      fresh_ana.data = [] ∧ ((all_loops loop_irg.loop).map (fun L => L.addr)).Nodup ∧
      element_values loop_irg 7 loop_irg.loop.elements = [3, 4, 0] ∧
      (be_compute_loop_pressure fresh_ana loop_irg.loop 7).map
          (fun r => (r.loop_ana.data, r.pressure)) =
        some ([{ loop := 102, cls := 7, max_pressure := 2 },
          { loop := 101, cls := 7, max_pressure := 4 },
          { loop := 100, cls := 7, max_pressure := 4 }], 4)) ∧
    ∃ r, be_compute_loop_pressure fresh_ana loop_irg.loop 7 = some r ∧
      r.pressure = loop_pressure fresh_ana.irg 7 loop_irg.loop.elements ∧
      (∀ x ∈ element_values fresh_ana.irg 7 loop_irg.loop.elements, x ≤ r.pressure) ∧
      r.pressure ∈ element_values fresh_ana.irg 7 loop_irg.loop.elements ∧
      (∀ L ∈ sub_loops loop_irg.loop.elements, ∀ ana : be_loopana_t, ana.irg = fresh_ana.irg →
        ∃ r', be_compute_loop_pressure ana L 7 = some r' ∧
          r'.pressure = loop_pressure fresh_ana.irg 7 L.elements) ∧
      (fresh_ana.data = [] → ((all_loops loop_irg.loop).map (fun L => L.addr)).Nodup →
        r.loop_ana.data = (all_loops loop_irg.loop).map (loop_entry fresh_ana.irg 7) ∧
        set_find r.loop_ana.data { loop := loop_irg.loop.addr, cls := 7, max_pressure := 0 } =
          some { loop := loop_irg.loop.addr, cls := 7, max_pressure := r.pressure }) :=
  ⟨⟨by decide, by decide, rfl, by decide, by decide, by decide⟩,
    loop_pressure_is_max fresh_ana loop_irg.loop 7 (by decide) (by decide)⟩

set_option maxRecDepth 100000 in
theorem loop_ana_7_eq : be_new_loop_pressure_cls loop_irg 7 = some loop_ana_7 := by
  rfl

set_option maxRecDepth 100000 in
/-- Witness of C28 on `loop_irg` and the class 7. -/
theorem get_loop_pressure_after_new_witness :
    ((7 : Nat) ≠ 0 ∧ (∀ L ∈ all_loops loop_irg.loop, L.addr ≠ 0) ∧
      ((all_loops loop_irg.loop).map (fun L => L.addr)).Nodup ∧
      be_new_loop_pressure_cls loop_irg 7 = some loop_ana_7 ∧
      [be_get_loop_pressure loop_ana_7 7 100, be_get_loop_pressure loop_ana_7 7 101,
          be_get_loop_pressure loop_ana_7 7 102] =
        [get_pressure_t.value 4, get_pressure_t.value 4, get_pressure_t.value 2]) ∧
    (be_new_loop_pressure loop_irg 7 = some loop_ana_7 ∧
    loop_ana_7.data = (all_loops loop_irg.loop).map (loop_entry loop_irg 7) ∧
    ∀ L ∈ all_loops loop_irg.loop,
      be_get_loop_pressure loop_ana_7 7 L.addr =
        get_pressure_t.value (loop_pressure loop_irg 7 L.elements) ∧
      ∀ ana0 : be_loopana_t, ana0.irg = loop_irg →
        ∃ r, be_compute_loop_pressure ana0 L 7 = some r ∧
          r.pressure = loop_pressure loop_irg 7 L.elements) :=
  ⟨⟨by decide, by decide, by decide, loop_ana_7_eq, by decide⟩,
    get_loop_pressure_after_new loop_irg 7 loop_ana_7 (by decide) (by decide) (by decide)
      loop_ana_7_eq⟩

/-- Witness of C29: the set has an entry for the loop 100 with the class 7 and
one for the loop 101 with the class 8; asked for the loop 100 with the class 8
or for the loop 101 with the class 7 the function ends in `panic`, asked for
the loop 100 with the class 7 it gives 3. -/
theorem get_loop_pressure_panics_iff_witness :
    ((8 : Nat) ≠ 0 ∧ (100 : Nat) ≠ 0 ∧
      be_get_loop_pressure two_entries 8 100 = get_pressure_t.panicked ∧
      be_get_loop_pressure two_entries 7 101 = get_pressure_t.panicked ∧
      be_get_loop_pressure two_entries 7 100 = get_pressure_t.value 3 ∧
      be_get_loop_pressure two_entries 0 100 = get_pressure_t.assertion_failed) ∧
    ((be_get_loop_pressure two_entries 8 100 = get_pressure_t.panicked ↔
      ∀ e ∈ two_entries.data, ¬ (e.loop = 100 ∧ e.cls = 8)) ∧
    ((∀ e ∈ two_entries.data, (e.loop = 100 → e.cls ≠ 8) ∧ (e.cls = 8 → e.loop ≠ 100)) →
      be_get_loop_pressure two_entries 8 100 = get_pressure_t.panicked) ∧
    be_get_loop_pressure two_entries 8 100 ≠ get_pressure_t.assertion_failed ∧
    ∀ p, be_get_loop_pressure two_entries 8 100 = get_pressure_t.value p →
      ∃ e ∈ two_entries.data, e.loop = 100 ∧ e.cls = 8 ∧ e.max_pressure = p) :=
  ⟨⟨by decide, by decide, by decide, by decide, by decide, by decide⟩,
    get_loop_pressure_panics_iff two_entries 8 100 (by decide) (by decide)⟩

set_option maxRecDepth 100000 in
/-- Counterexample to C30 on `loop_irg` and the class 7: the second call of
`be_compute_loop_pressure` on the analysis object left by the first one calls
`be_compute_block_pressure` for the blocks 1, 2, 3 and 4 again; it returns 4
again and leaves the three entries as they are. -/
theorem loop_pressure_second_call_recomputes :
    (be_compute_loop_pressure fresh_ana loop_irg.loop 7).bind (fun r1 =>
      (be_compute_loop_pressure r1.loop_ana loop_irg.loop 7).map (fun r2 =>
        (r1.blocks, r2.blocks))) = some ([1, 2, 3, 4], [1, 2, 3, 4]) ∧
    (be_compute_loop_pressure fresh_ana loop_irg.loop 7).bind (fun r1 =>
      (be_compute_loop_pressure r1.loop_ana loop_irg.loop 7).map (fun r2 =>
        (r1.pressure, r2.pressure))) = some (4, 4) ∧
    (be_compute_loop_pressure fresh_ana loop_irg.loop 7).bind (fun r1 =>
      (be_compute_loop_pressure r1.loop_ana loop_irg.loop 7).map (fun r2 =>
        (r1.loop_ana.data, r2.loop_ana.data))) =
      some ([{ loop := 102, cls := 7, max_pressure := 2 },
          { loop := 101, cls := 7, max_pressure := 4 },
          { loop := 100, cls := 7, max_pressure := 4 }],
        [{ loop := 102, cls := 7, max_pressure := 2 },
          { loop := 101, cls := 7, max_pressure := 4 },
          { loop := 100, cls := 7, max_pressure := 4 }]) := by
  decide

set_option maxRecDepth 100000 in
/-- Witness of the amended C30 on `loop_irg` and the class 7. -/
theorem loop_pressure_second_call_witness :
    ∃ r1, be_compute_loop_pressure fresh_ana loop_irg.loop 7 = some r1 ∧
      ∃ r2, be_compute_loop_pressure r1.loop_ana loop_irg.loop 7 = some r2 ∧
        r2.pressure = r1.pressure ∧
        r2.loop_ana.data = r1.loop_ana.data ∧
        r2.blocks = r1.blocks ∧
        r2.blocks = blocks_of loop_irg.loop.elements := by
  have h := be_compute_loop_pressure_eq fresh_ana loop_irg.loop 7
  rw [if_pos (by decide)] at h
  exact ⟨_, h, loop_pressure_second_call fresh_ana loop_irg.loop 7 _ h⟩

/-! ## The constraints M are valid cuts -/

theorem get_costs_spec : ∀ (units : List unit_t) (phi irn : Nat) (c : Int),
    get_costs units phi irn = some c →
      ∃ u ∈ units, u.root = phi ∧ ∃ a ∈ u.args, a.1 = irn ∧ a.2 = c := by
  intro units
  induction units with
  | nil => intro phi irn c h; cases h
  | cons u rest ih =>
    intro phi irn c h
    simp only [get_costs] at h
    by_cases hr : u.root = phi
    · rw [if_pos hr] at h
      unfold get_costs_unit at h
      obtain ⟨a, ha, hc⟩ := Option.map_eq_some'.1 h
      have hmem := List.mem_of_find?_eq_some ha
      have hp := List.find?_some ha
      simp only [decide_eq_true_eq] at hp
      exact ⟨u, List.mem_cons_self _ _, hr, a, hmem, hp, hc⟩
    · rw [if_neg hr] at h
      obtain ⟨u', hu', h1⟩ := ih phi irn c h
      exact ⟨u', List.mem_cons_of_mem _ hu', h1⟩

/-- The first loop over the candidates: one cost for each candidate, the one
that `get_costs` gives for its Phi and the operand. -/
theorem M_costs_spec (co : copy_opt_t) (phis : List (Nat × List Nat)) (irn : Nat) :
    ∀ (cands : List Nat) (costs : List (Nat × Int)), M_costs co phis irn cands = some costs →
      costs.map Prod.fst = cands ∧
      ∀ pc ∈ costs, get_costs co.units (phis.getD pc.1 (0, [])).1 irn = some pc.2 := by
  intro cands
  induction cands with
  | nil =>
    intro costs h
    simp only [M_costs, Option.some.injEq] at h
    subst h
    exact ⟨rfl, fun pc hpc => absurd hpc (List.not_mem_nil pc)⟩
  | cons i rest ih =>
    intro costs h
    simp only [M_costs] at h
    cases hg : get_costs co.units (phis.getD i (0, [])).1 irn with
    | none => rw [hg] at h; cases h
    | some c =>
      rw [hg] at h
      obtain ⟨l, hl, rfl⟩ := Option.map_eq_some'.1 h
      obtain ⟨h1, h2⟩ := ih l hl
      refine ⟨by rw [List.map_cons, h1], ?_⟩
      intro pc hpc
      rcases List.mem_cons.1 hpc with rfl | hpc
      · exact hg
      · exact h2 pc hpc

/-- The second loop over the candidates is a run of factor writes in the row,
in the columns that the names have on entry. -/
theorem M_factors_eq (phis : List (Nat × List Nat)) (irn : Nat) (r : Int) :
    ∀ (costs : List (Nat × Int)) (lp : lpp_t),
      costs.foldlM (M_constr_factor phis irn r) lp =
        lpp_set_factors r
          (costs.map (fun pc => (lpp_get_var_idx lp
            (mangle_var 'y' ((phis.getD pc.1 (0, [])).1 : Int) (irn : Int)), pc.2))) lp := by
  intro costs
  induction costs with
  | nil => intro lp; rfl
  | cons pc rest ih =>
    intro lp
    simp only [List.foldlM_cons, List.map_cons, lpp_set_factors]
    show (M_constr_factor phis irn r lp pc).bind _ = _
    unfold M_constr_factor
    cases hf : lpp_set_factor_fast lp r
        (lpp_get_var_idx lp (mangle_var 'y' ((phis.getD pc.1 (0, [])).1 : Int) (irn : Int)))
        pc.2 with
    | none => rfl
    | some lp1 =>
      obtain ⟨hv1, _⟩ := lpp_set_factor_fast_spec hf
      simp only [Option.some_bind]
      refine Eq.trans (ih lp1) ?_
      congr 1
      apply List.map_congr_left
      intro b _
      rw [lpp_get_var_idx_congr hv1]

theorem M_sum_map (f : Nat → Nat) (costs : List (Nat × Int)) :
    M_sum (costs.map (fun pc => (f pc.1, pc.2))) = M_sum costs := by
  unfold M_sum
  rw [List.foldl_map]

theorem M_max_map (f : Nat → Nat) (costs : List (Nat × Int)) :
    M_max (costs.map (fun pc => (f pc.1, pc.2))) = M_max costs := by
  unfold M_max
  rw [List.foldl_map]

theorem M_minimal_costs_map (f : Nat → Nat) (costs : List (Nat × Int)) :
    M_minimal_costs (costs.map (fun pc => (f pc.1, pc.2))) = M_minimal_costs costs := by
  unfold M_minimal_costs
  rw [M_sum_map, M_max_map]

/-- The arithmetic of `int` gives a value of the range of `int` that differs
from the exact result by a multiple of `2^32`; it gives the exact result when
that is in the range, and a smaller value when the exact result is above the
range. -/
theorem wrap_int_spec (x : Int) :
    (-2147483648 ≤ wrap_int x ∧ wrap_int x < 2147483648) ∧
      (∃ k : Int, wrap_int x = x + k * 4294967296) ∧
      (-2147483648 ≤ x → x < 2147483648 → wrap_int x = x) ∧
      (-2147483648 ≤ x → wrap_int x ≤ x) := by
  unfold wrap_int
  refine ⟨by omega, ⟨-((x + 2147483648) / 4294967296), by omega⟩, by omega, by omega⟩

/-- A value that has gone through the arithmetic of `int` before a further
addition gives the same result as the exact value. -/
theorem wrap_int_add (x y : Int) : wrap_int (wrap_int x + y) = wrap_int (x + y) := by
  unfold wrap_int
  omega

/-- The value of `sum` after the first loop is what the arithmetic of `int`
leaves for the exact sum of the costs. -/
theorem M_sum_eq (costs : List (Nat × Int)) :
    M_sum costs = wrap_int (costs.map (fun pc => pc.2)).sum := by
  unfold M_sum
  have hgen : ∀ (l : List (Nat × Int)) (s : Int),
      wrap_int (l.foldl (fun sum pc => wrap_int (sum + pc.2)) (wrap_int s)) =
        wrap_int (s + (l.map (fun pc => pc.2)).sum) := by
    intro l
    induction l with
    | nil =>
      intro s
      simp only [List.foldl_nil, List.map_nil, List.sum_nil, add_zero]
      unfold wrap_int
      omega
    | cons x rest ih =>
      intro s
      rw [List.foldl_cons, wrap_int_add, ih, List.map_cons, List.sum_cons, add_assoc]
  have hfix : ∀ (l : List (Nat × Int)) (s : Int),
      wrap_int (l.foldl (fun sum pc => wrap_int (sum + pc.2)) (wrap_int s)) =
        l.foldl (fun sum pc => wrap_int (sum + pc.2)) (wrap_int s) := by
    intro l
    induction l with
    | nil =>
      intro s
      simp only [List.foldl_nil]
      unfold wrap_int
      omega
    | cons x rest ih =>
      intro s
      rw [List.foldl_cons]
      exact ih _
  have h0 : wrap_int 0 = 0 := by decide
  have := hgen costs 0
  rw [hfix costs 0, h0, zero_add] at this
  exact this

/-- The right-hand side `minimal_costs` is what the arithmetic of `int` leaves
for the exact difference of the sum of the costs and their maximum. -/
theorem M_minimal_costs_eq (costs : List (Nat × Int)) :
    M_minimal_costs costs = wrap_int ((costs.map (fun pc => pc.2)).sum - M_max costs) := by
  unfold M_minimal_costs
  rw [M_sum_eq]
  unfold wrap_int
  omega

/-- The value of `max` after the first loop is at least every cost, and at
least -1. -/
theorem M_max_ge (costs : List (Nat × Int)) :
    -1 ≤ M_max costs ∧ ∀ pc ∈ costs, pc.2 ≤ M_max costs := by
  unfold M_max
  have hgen : ∀ (l : List (Nat × Int)) (m : Int),
      m ≤ l.foldl (fun m pc => max m pc.2) m ∧
      ∀ pc ∈ l, pc.2 ≤ l.foldl (fun m pc => max m pc.2) m := by
    intro l
    induction l with
    | nil => intro m; exact ⟨le_refl _, fun pc hpc => absurd hpc (List.not_mem_nil pc)⟩
    | cons x rest ih =>
      intro m
      obtain ⟨h1, h2⟩ := ih (max m x.2)
      refine ⟨le_trans (le_max_left _ _) h1, ?_⟩
      intro pc hpc
      rcases List.mem_cons.1 hpc with rfl | hpc
      · exact le_trans (le_max_right _ _) h1
      · exact h2 pc hpc
  exact hgen costs (-1)

/-- With costs that are not negative the maximum of the costs of a pattern is
at most their exact sum, so the right-hand side `minimal_costs`, computed in
the arithmetic of `int`, is at most the exact difference of the sum and the
maximum: an overflow makes the row weaker, never stronger. -/
theorem M_minimal_costs_le (F : List (Nat × Int)) (hcost : ∀ p ∈ F, 0 ≤ p.2) :
    M_max F ≤ max (-1) (F.map (fun pc => pc.2)).sum ∧
      M_minimal_costs F ≤ (F.map (fun pc => pc.2)).sum - M_max F := by
  have hgen : ∀ (l : List (Nat × Int)) (m : Int), (∀ p ∈ l, 0 ≤ p.2) →
      0 ≤ (l.map (fun pc => pc.2)).sum ∧
      l.foldl (fun m pc => max m pc.2) m ≤ max m (l.map (fun pc => pc.2)).sum := by
    intro l
    induction l with
    | nil =>
      intro m _
      simp only [List.foldl_nil, List.map_nil, List.sum_nil]
      exact ⟨le_refl _, le_max_left _ _⟩
    | cons x rest ih =>
      intro m hl
      obtain ⟨h0, h1⟩ := ih (max m x.2) (fun p hp => hl p (List.mem_cons_of_mem _ hp))
      have hx := hl x (List.mem_cons_self _ _)
      simp only [List.foldl_cons, List.map_cons, List.sum_cons]
      refine ⟨by omega, le_trans h1 ?_⟩
      omega
  obtain ⟨h0, h1⟩ := hgen F (-1) hcost
  have hmax : M_max F ≤ max (-1) (F.map (fun pc => pc.2)).sum := h1
  refine ⟨hmax, ?_⟩
  rw [M_minimal_costs_eq]
  exact (wrap_int_spec _).2.2.2 (by omega)

/-- At most one Phi of a pattern has the color of the operand: the costs of
the Phis with another color sum up to at least `minimal_costs`, when no cost is
negative and the Phis have colors that differ from each other. -/
theorem M_count (col : Nat → Nat) (t : Nat) (F : List (Nat × Int)) (hF : F ≠ [])
    (hcost : ∀ p ∈ F, 0 ≤ p.2) (hnd : (F.map (fun p => col p.1)).Nodup) :
    M_minimal_costs F ≤ (F.map (fun p => p.2 * (if col p.1 = t then 0 else 1))).sum := by
  refine le_trans (M_minimal_costs_le F hcost).2 ?_
  obtain ⟨_, hmax⟩ := M_max_ge F
  have hmax0 : 0 ≤ M_max F := by
    obtain ⟨p, hp⟩ := List.exists_mem_of_ne_nil F hF
    exact le_trans (hcost p hp) (hmax p hp)
  have hsame : ∀ (l : List (Nat × Int)) (m : Int), 0 ≤ m → (∀ p ∈ l, p.2 ≤ m) →
      (l.map (fun p => col p.1)).Nodup →
      (l.map (fun p => p.2 * (if col p.1 = t then 1 else 0))).sum ≤ m := by
    intro l
    induction l with
    | nil => intro m hm _ _; simpa using hm
    | cons p rest ih =>
      intro m hm hle hnd'
      obtain ⟨hnot, hnd''⟩ := List.nodup_cons.1 hnd'
      simp only [List.map_cons, List.sum_cons]
      by_cases hp : col p.1 = t
      · have hzero : (rest.map (fun p => p.2 * (if col p.1 = t then 1 else 0))).sum = 0 := by
          apply List.sum_eq_zero
          intro x hx
          obtain ⟨q, hq, rfl⟩ := List.mem_map.1 hx
          have hqt : col q.1 ≠ t := by
            intro hqt
            exact hnot (List.mem_map.2 ⟨q, hq, hqt.trans hp.symm⟩)
          rw [if_neg hqt, mul_zero]
        rw [hzero, if_pos hp]
        have := hle p (List.mem_cons_self _ _)
        omega
      · rw [if_neg hp, mul_zero, zero_add]
        exact ih m hm (fun q hq => hle q (List.mem_cons_of_mem _ hq)) hnd''
  have hsplit : ∀ l : List (Nat × Int),
      (l.map (fun p => p.2 * (if col p.1 = t then 0 else 1))).sum =
        (l.map (fun pc => pc.2)).sum -
          (l.map (fun p => p.2 * (if col p.1 = t then 1 else 0))).sum := by
    intro l
    induction l with
    | nil => simp
    | cons p rest ih =>
      simp only [List.map_cons, List.sum_cons, ih]
      split_ifs <;> ring
  rw [hsplit F]
  have := hsame F (M_max F) hmax0 hmax hnd
  omega

/-- The block "generate an unequation finally" keeps `M_inv`: the row `M0` is
added when there is none, else the row there is gets the factors. -/
theorem M_inv_emit {co : copy_opt_t} {col : Nat → Nat} {lp0 lp lp' : lpp_t}
    {phis : List (Nat × List Nat)} {irn : Nat} {costs : List (Nat × Int)}
    (hfresh0 : mangle_cst 'M' 0 ∉ cst_names lp0) (hinv : M_inv co col lp0 lp)
    (hcosts : ∀ pc ∈ costs, get_costs co.units (phis.getD pc.1 (0, [])).1 irn = some pc.2)
    (hne : costs ≠ [])
    (hnd : (costs.map (fun pc => col (phis.getD pc.1 (0, [])).1)).Nodup)
    (h : M_constr_emit phis irn costs lp = some lp') : M_inv co col lp0 lp' := by
  unfold M_constr_emit at h
  simp only at h
  rw [M_factors_eq] at h
  obtain ⟨hv2, hc2, hm2, hcols⟩ := lpp_set_factors_matrix _ _ _ _ h
  obtain ⟨k, hk1, hkget, hvars, hmat, hcase⟩ := lpp_add_cst_spec lp (mangle_cst 'M' 0)
    lpp_cst_t.lpp_greater (M_minimal_costs costs)
  -- the row written to is the one after the rows of `lp0`
  have hk : k = lp0.csts.length ∧
      (lpp_add_cst lp (mangle_cst 'M' 0) lpp_cst_t.lpp_greater
        (M_minimal_costs costs)).1.csts.length = lp0.csts.length + 1 := by
    rcases hinv.rows with ⟨hc, _⟩ | ⟨F, irn0, _, _, _, hc, _⟩
    · rcases hcase with ⟨_, hk, hcsts⟩ | ⟨hin, _, _⟩
      · rw [hcsts, hk, hc]
        simp
      · rw [cst_names, hc] at hin
        exact absurd hin hfresh0
    · rcases hcase with ⟨hnot, _, _⟩ | ⟨_, hk, hcsts⟩
      · exact absurd (by rw [cst_names, hc]; simp) hnot
      · rw [hc, List.length_append, List.length_singleton] at hk
        refine ⟨?_, by rw [hcsts, hc]; simp⟩
        by_contra hne'
        have hlt : k < lp0.csts.length := by omega
        have hlt' : k < (cst_names lp0).length := by rw [cst_names_length]; exact hlt
        have hget : (cst_names lp0).get? k = some (mangle_cst 'M' 0) := by
          have : cst_names (lpp_add_cst lp (mangle_cst 'M' 0) lpp_cst_t.lpp_greater
              (M_minimal_costs costs)).1 =
              cst_names lp0 ++ [mangle_cst 'M' 0] := by
            rw [cst_names, hcsts, hc]
            simp [cst_names]
          rw [this, List.get?_eq_getElem?, List.getElem?_append_left hlt',
            ← List.get?_eq_getElem?] at hkget
          exact hkget
        exact hfresh0 (List.get?_mem hget)
  obtain ⟨hk0, hlen1⟩ := hk
  rw [hk1, hk0] at hm2 h
  have hv : lp'.vars = lp0.vars := (hv2.trans hvars).trans hinv.vars
  have hidx : ∀ name, lpp_get_var_idx
      (lpp_add_cst lp (mangle_cst 'M' 0) lpp_cst_t.lpp_greater
        (M_minimal_costs costs)).1 name = lpp_get_var_idx lp0 name :=
    fun name => lpp_get_var_idx_congr (hvars.trans hinv.vars) name
  simp only [hidx] at hm2 hcols
  rw [List.map_map] at hm2
  have hm2 : lp'.matrix = (costs.map (fun pc => (((lp0.csts.length : Nat) : Int) + 1,
      lpp_get_var_idx lp0 (mangle_var 'y' ((phis.getD pc.1 (0, [])).1 : Int) (irn : Int)),
      pc.2))).reverse ++ (lpp_add_cst lp (mangle_cst 'M' 0) lpp_cst_t.lpp_greater
        (M_minimal_costs costs)).1.matrix := hm2
  have hpos : ∀ pc ∈ costs,
      1 ≤ lpp_get_var_idx lp0 (mangle_var 'y' ((phis.getD pc.1 (0, [])).1 : Int) (irn : Int)) ∧
      lpp_get_var_idx lp0 (mangle_var 'y' ((phis.getD pc.1 (0, [])).1 : Int) (irn : Int)) ≤
        (lp0.vars.length : Int) := by
    intro pc hpc
    have := hcols _ (List.mem_map.2 ⟨pc, hpc, rfl⟩)
    simp only at this
    rw [hvars, hinv.vars] at this
    exact ⟨lpp_get_var_idx_pos this.1, this.2⟩
  obtain ⟨em, hem, hemok⟩ := hinv.matrix
  have hnew : ∀ e ∈ (costs.map (fun pc => (((lp0.csts.length : Nat) : Int) + 1,
      lpp_get_var_idx lp0 (mangle_var 'y' ((phis.getD pc.1 (0, [])).1 : Int) (irn : Int)),
      pc.2))).reverse, M_entry_ok co lp0 e := by
    intro e he
    obtain ⟨pc, hpc, rfl⟩ := List.mem_map.1 (List.mem_reverse.1 he)
    exact ⟨rfl, (phis.getD pc.1 (0, [])).1, irn, hcosts pc hpc, rfl, (hpos pc hpc).1⟩
  refine ⟨hv, ?_, ⟨_, by rw [hm2, hmat, hem, ← List.append_assoc], ?_⟩, ?_⟩
  · intro e he
    rw [hm2, List.mem_append] at he
    rw [hc2, hlen1, hv]
    rcases he with he | he
    · obtain ⟨pc, hpc, rfl⟩ := List.mem_map.1 (List.mem_reverse.1 he)
      have := hpos pc hpc
      push_cast
      exact ⟨by omega, by omega, this.1, this.2⟩
    · rw [hmat] at he
      obtain ⟨h1, h2, h3, h4⟩ := hinv.wf e he
      rw [hinv.vars] at h4
      have hle : lp.csts.length ≤ lp0.csts.length + 1 := by
        rcases hinv.rows with ⟨hc, _⟩ | ⟨F, irn0, _, _, _, hc, _⟩ <;> rw [hc] <;> simp
      push_cast
      exact ⟨h1, by omega, h3, h4⟩
  · intro e he
    rcases List.mem_append.1 he with he | he
    · exact hnew e he
    · exact hemok e he
  · right
    rcases hinv.rows with ⟨hc, _⟩ | ⟨F, irn0, hF1, hF2, hF3, hc, hF5⟩
    · refine ⟨costs.map (fun pc => ((phis.getD pc.1 (0, [])).1, pc.2)), irn, ?_, ?_, ?_, ?_, ?_⟩
      · simpa using hne
      · rw [List.map_map]
        exact hnd
      · intro p hp
        obtain ⟨pc, hpc, rfl⟩ := List.mem_map.1 hp
        exact hcosts pc hpc
      · rcases hcase with ⟨_, _, hcsts⟩ | ⟨hin, _, _⟩
        · rw [hc2, hcsts, hc, M_minimal_costs_map (fun i => (phis.getD i (0, [])).1) costs]
        · rw [cst_names, hc] at hin
          exact absurd hin hfresh0
      · intro p hp
        obtain ⟨pc, hpc, rfl⟩ := List.mem_map.1 hp
        rw [hm2]
        exact List.mem_append_left _ (List.mem_reverse.2 (List.mem_map.2 ⟨pc, hpc, rfl⟩))
    · refine ⟨F, irn0, hF1, hF2, hF3, ?_, ?_⟩
      · rcases hcase with ⟨hnot, _, _⟩ | ⟨_, _, hcsts⟩
        · exact absurd (by rw [cst_names, hc]; simp) hnot
        · rw [hc2, hcsts, hc]
      · intro p hp
        rw [hm2, hmat]
        exact List.mem_append_right _ (hF5 p hp)

theorem M_inv_cell {co : copy_opt_t} {colr : Nat → Nat} {lp0 : lpp_t}
    {phis : List (Nat × List Nat)} {c row : Nat} {st st' : lpp_t × List Nat}
    (hfresh0 : mangle_cst 'M' 0 ∉ cst_names lp0) (hdiff : M_colors_differ co colr)
    (hphis : phis ∈ co.phi_blocks) (hc : c < (phis.headD (0, [])).2.length)
    (hrow : row < phis.length) (hinv : M_inv co colr lp0 st.1)
    (h : M_constr_cell co phis c st row = some st') : M_inv co colr lp0 st'.1 := by
  unfold M_constr_cell at h
  cases hm : phi_matrix co phis row c with
  | none =>
    rw [hm] at h
    simp only [Option.some.injEq] at h
    subst h
    exact hinv
  | some irn =>
    rw [hm] at h
    simp only at h
    split_ifs at h with h1 h2
    · simp only [Option.some.injEq] at h
      subst h
      exact hinv
    · simp only [Option.some.injEq] at h
      subst h
      exact hinv
    · cases hcosts : M_costs co phis irn (M_candidates co phis c row irn) with
      | none => rw [hcosts] at h; cases h
      | some costs =>
        rw [hcosts] at h
        simp only at h
        obtain ⟨lp2, hemit, hst'⟩ := Option.map_eq_some'.1 h
        subst hst'
        obtain ⟨hfst, hget⟩ := M_costs_spec co phis irn _ costs hcosts
        have hne : costs ≠ [] := by
          intro hnil
          rw [hnil] at hfst
          rw [← hfst] at h2
          simp at h2
        have hnd : (costs.map (fun pc => colr (phis.getD pc.1 (0, [])).1)).Nodup := by
          have := hdiff phis hphis c hc row hrow irn (by rw [hm]; simp)
          rw [← hfst, List.map_map] at this
          exact this
        exact M_inv_emit hfresh0 hinv hget hne hnd hemit

theorem M_inv_col {co : copy_opt_t} {colr : Nat → Nat} {lp0 lp lp' : lpp_t}
    {phis : List (Nat × List Nat)} {c : Nat}
    (hfresh0 : mangle_cst 'M' 0 ∉ cst_names lp0) (hdiff : M_colors_differ co colr)
    (hphis : phis ∈ co.phi_blocks) (hc : c < (phis.headD (0, [])).2.length)
    (hinv : M_inv co colr lp0 lp) (h : M_constr_col co phis lp c = some lp') :
    M_inv co colr lp0 lp' := by
  unfold M_constr_col at h
  obtain ⟨st', hrun, rfl⟩ := Option.map_eq_some'.1 h
  exact foldlM_ind (M_constr_cell co phis c) (fun _ s => M_inv co colr lp0 s.1)
    (List.range phis.length)
    (fun done row rest s s' hall hP hf =>
      M_inv_cell hfresh0 hdiff hphis hc
        (List.mem_range.1 (by rw [hall]; simp)) hP hf)
    (List.range phis.length) [] (lp, []) st' (List.nil_append _).symm hinv hrun

theorem M_inv_walker {co : copy_opt_t} {colr : Nat → Nat} {lp0 lp lp' : lpp_t}
    {phis : List (Nat × List Nat)}
    (hfresh0 : mangle_cst 'M' 0 ∉ cst_names lp0) (hdiff : M_colors_differ co colr)
    (hphis : phis ∈ co.phi_blocks) (hinv : M_inv co colr lp0 lp)
    (h : M_constr_walker co lp phis = some lp') : M_inv co colr lp0 lp' := by
  unfold M_constr_walker at h
  split_ifs at h with hlt
  · simp only [Option.some.injEq] at h
    subst h
    exact hinv
  · exact foldlM_ind (M_constr_col co phis) (fun _ s => M_inv co colr lp0 s)
      (List.range (phis.headD (0, [])).2.length)
      (fun done c rest s s' hall hP hf =>
        M_inv_col hfresh0 hdiff hphis (List.mem_range.1 (by rw [hall]; simp)) hP hf)
      (List.range (phis.headD (0, [])).2.length) [] lp lp' (List.nil_append _).symm hinv h

/-- The invariant `M_inv` holds of the problem that `pi_add_constr_M` leaves. -/
theorem M_inv_blocks {co : copy_opt_t} {colr : Nat → Nat} {lp0 lp' : lpp_t}
    (hwf0 : lp_wf lp0) (hfresh0 : mangle_cst 'M' 0 ∉ cst_names lp0)
    (hdiff : M_colors_differ co colr)
    (h : co.phi_blocks.foldlM (M_constr_walker co) lp0 = some lp') : M_inv co colr lp0 lp' :=
  foldlM_ind (M_constr_walker co) (fun _ s => M_inv co colr lp0 s) co.phi_blocks
    (fun done phis rest s s' hall hP hf =>
      M_inv_walker hfresh0 hdiff (by rw [hall]; simp) hP hf)
    co.phi_blocks [] lp0 lp' (List.nil_append _).symm
    ⟨rfl, hwf0, ⟨[], rfl, fun e he => absurd he (List.not_mem_nil e)⟩, Or.inl ⟨rfl, rfl⟩⟩ h

/-- A factor of the row after the rows of `lp0` is 0 or the costs of a Phi and
an operand, in the column `y` of the two. -/
theorem M_row_factor_cases {co : copy_opt_t} {lp0 lp : lpp_t} {em : List (Int × Int × Int)}
    (hwf0 : lp_wf lp0) (hm : lp.matrix = em ++ lp0.matrix)
    (hem : ∀ e ∈ em, M_entry_ok co lp0 e) (k : Int) :
    lpp_get_factor lp ((lp0.csts.length : Int) + 1) k = 0 ∨
      ∃ phi irn : Nat,
        get_costs co.units phi irn = some (lpp_get_factor lp ((lp0.csts.length : Int) + 1) k) ∧
        k = lpp_get_var_idx lp0 (mangle_var 'y' (phi : Int) (irn : Int)) ∧ 1 ≤ k := by
  unfold lpp_get_factor
  cases hf : lp.matrix.find?
      (fun e => decide (e.1 = (lp0.csts.length : Int) + 1) && decide (e.2.1 = k)) with
  | none => exact Or.inl rfl
  | some e =>
    right
    have hmem := List.mem_of_find?_eq_some hf
    have hp := List.find?_some hf
    simp only [Bool.and_eq_true, decide_eq_true_eq] at hp
    rw [hm, List.mem_append] at hmem
    rcases hmem with hmem | hmem
    · obtain ⟨_, phi, irn, hc, hidx, h1⟩ := hem e hmem
      exact ⟨phi, irn, hc, by rw [← hp.2]; exact hidx, by rw [← hp.2]; exact h1⟩
    · have := (hwf0 e hmem).2.1
      omega

/-- The factor of the column `y` of a Phi and an operand written in the row
after the rows of `lp0` is the costs of the two. -/
theorem M_row_factor_of_mem {co : copy_opt_t} {lp0 lp : lpp_t} {em : List (Int × Int × Int)}
    (hwf0 : lp_wf lp0) (hunits : ∀ u ∈ co.units, u.root < 2 ^ 31 ∧ ∀ a ∈ u.args, a.1 < 2 ^ 31)
    (hm : lp.matrix = em ++ lp0.matrix) (hem : ∀ e ∈ em, M_entry_ok co lp0 e)
    {phi irn : Nat} {c : Int} (hc : get_costs co.units phi irn = some c)
    (hmem : (((lp0.csts.length : Int) + 1,
      lpp_get_var_idx lp0 (mangle_var 'y' (phi : Int) (irn : Int)), c) : Int × Int × Int) ∈
        lp.matrix) :
    lpp_get_factor lp ((lp0.csts.length : Int) + 1)
      (lpp_get_var_idx lp0 (mangle_var 'y' (phi : Int) (irn : Int))) = c := by
  unfold lpp_get_factor
  cases hf : lp.matrix.find? (fun e => decide (e.1 = (lp0.csts.length : Int) + 1) &&
      decide (e.2.1 = lpp_get_var_idx lp0 (mangle_var 'y' (phi : Int) (irn : Int)))) with
  | none =>
    rw [List.find?_eq_none] at hf
    have := hf _ hmem
    simp at this
  | some e =>
    have hmem' := List.mem_of_find?_eq_some hf
    have hp := List.find?_some hf
    simp only [Bool.and_eq_true, decide_eq_true_eq] at hp
    rw [hm, List.mem_append] at hmem'
    rcases hmem' with hmem' | hmem'
    · obtain ⟨_, phi', irn', hc', hidx, h1⟩ := hem e hmem'
      rw [hp.2] at hidx h1
      have hname := lpp_get_var_idx_inj hidx (by omega)
      obtain ⟨u, hu, hroot, a, ha, ha1, _⟩ := get_costs_spec _ _ _ _ hc
      obtain ⟨u', hu', hroot', a', ha', ha1', _⟩ := get_costs_spec _ _ _ _ hc'
      have hr := hunits u hu
      have hr' := hunits u' hu'
      obtain ⟨_, h2, h3⟩ := mangle_var_inj_nat (by rw [← hroot]; exact hr.1)
        (by rw [← ha1]; exact (hr.2 a ha)) (by rw [← hroot']; exact hr'.1)
        (by rw [← ha1']; exact (hr'.2 a' ha')) hname
      subst h2 h3
      rw [hc] at hc'
      exact (Option.some.inj hc').symm
    · have := (hwf0 e hmem').2.1
      omega

theorem cast_sum_indicator (col : Nat → Nat) (t : Nat) (F : List (Nat × Int)) :
    (((F.map (fun p => p.2 * (if col p.1 = t then 0 else 1))).sum : Int) : Rat) =
      (F.map (fun p => (p.2 : Rat) * (if col p.1 = t then 0 else 1))).sum := by
  induction F with
  | nil => simp
  | cons p rest ih =>
    simp only [List.map_cons, List.sum_cons, Int.cast_add, ih]
    split_ifs <;> simp

/-- The value of the row `M0`: with costs that are not negative, under an
assignment in which every `y` is at least 1 where the colors of root and
argument differ and at least 0 elsewhere, it is at least the right-hand side
`minimal_costs` of the pattern that created the row. -/
theorem M_row_value_ge {co : copy_opt_t} {col : Nat → Nat} {lp0 lp : lpp_t}
    (hwf0 : lp_wf lp0) (hunits : ∀ u ∈ co.units, u.root < 2 ^ 31 ∧ ∀ a ∈ u.args, a.1 < 2 ^ 31)
    (hcost : ∀ u ∈ co.units, ∀ a ∈ u.args, 0 ≤ a.2)
    (hinv : M_inv co col lp0 lp) (value : Nat → Rat)
    (hy : ∀ u ∈ co.units, ∀ a ∈ u.args,
      (if col u.root = col a.1 then (0 : Rat) else 1) ≤ yv lp value u.root a.1)
    {F : List (Nat × Int)} {irn0 : Nat} (hF : M_first co col lp0 lp F irn0) :
    ((M_minimal_costs F : Int) : Rat) ≤ lpp_row_value lp value ((lp0.csts.length : Int) + 1) := by
  obtain ⟨hFne, hFnd, hFc, _, hFm⟩ := hF
  obtain ⟨em, hm, hem⟩ := hinv.matrix
  have hidx : ∀ name, lpp_get_var_idx lp name = lpp_get_var_idx lp0 name :=
    lpp_get_var_idx_congr hinv.vars
  have hind : ∀ phi irn c, get_costs co.units phi irn = some c →
      0 ≤ c ∧ phi < 2 ^ 31 ∧ irn < 2 ^ 31 ∧
        (if col phi = col irn then (0 : Rat) else 1) ≤
          value (lpp_get_var_idx lp0 (mangle_var 'y' (phi : Int) (irn : Int))).toNat := by
    intro phi irn c hc
    obtain ⟨u, hu, hroot, a, ha, ha1, ha2⟩ := get_costs_spec _ _ _ _ hc
    have := hy u hu a ha
    unfold yv at this
    rw [hidx, hroot, ha1] at this
    exact ⟨ha2 ▸ hcost u hu a ha, hroot ▸ (hunits u hu).1, ha1 ▸ (hunits u hu).2 a ha, this⟩
  have hind0 : ∀ phi irn c, get_costs co.units phi irn = some c →
      (0 : Rat) ≤ value (lpp_get_var_idx lp0 (mangle_var 'y' (phi : Int) (irn : Int))).toNat := by
    intro phi irn c hc
    refine le_trans ?_ (hind phi irn c hc).2.2.2
    split_ifs <;> simp
  rw [lpp_row_value_eq]
  -- every term of the row is non-negative
  have hnn : ∀ k : Nat, 0 ≤
      (lpp_get_factor lp ((lp0.csts.length : Int) + 1) ((k : Int) + 1) : Rat) * value (k + 1) := by
    intro k
    rcases M_row_factor_cases hwf0 hm hem ((k : Int) + 1) with h0 | ⟨phi, irn, hc, hk, _⟩
    · rw [h0]; simp
    · have h1 := hind phi irn _ hc
      have h2 := hind0 phi irn _ hc
      rw [← hk] at h2
      have : ((k : Int) + 1).toNat = k + 1 := by omega
      rw [this] at h2
      exact mul_nonneg (by exact_mod_cast h1.1) h2
  -- the columns of the first pattern
  set g : Nat × Int → Nat :=
    fun p => (lpp_get_var_idx lp0 (mangle_var 'y' (p.1 : Int) (irn0 : Int))).toNat - 1 with hg
  have hrange : ∀ p ∈ F, 1 ≤ lpp_get_var_idx lp0 (mangle_var 'y' (p.1 : Int) (irn0 : Int)) ∧
      lpp_get_var_idx lp0 (mangle_var 'y' (p.1 : Int) (irn0 : Int)) ≤ lp.vars.length := by
    intro p hp
    have := hinv.wf _ (hFm p hp)
    exact ⟨this.2.2.1, this.2.2.2⟩
  have hgk : ∀ p ∈ F, ((g p : Nat) : Int) + 1 =
      lpp_get_var_idx lp0 (mangle_var 'y' (p.1 : Int) (irn0 : Int)) := by
    intro p hp
    have := (hrange p hp).1
    simp only [hg]
    omega
  have hginj : ∀ p ∈ F, ∀ q ∈ F, g p = g q → p = q := by
    intro p hp q hq hpq
    have h1 := hgk p hp
    have h2 := hgk q hq
    rw [hpq] at h1
    have hname := lpp_get_var_idx_inj (h1.symm.trans h2) (by have := (hrange p hp).1; omega)
    have hrp := hind p.1 irn0 p.2 (hFc p hp)
    have hrq := hind q.1 irn0 q.2 (hFc q hq)
    obtain ⟨_, h3, _⟩ := mangle_var_inj_nat hrp.2.1 hrp.2.2.1 hrq.2.1 hrq.2.2.1 hname
    exact List.inj_on_of_nodup_map hFnd hp hq (by rw [h3])
  have hSnd : (F.map g).Nodup := List.Nodup.map_on hginj (List.Nodup.of_map _ hFnd)
  have hsub : (F.map g).toFinset ⊆ Finset.range lp.vars.length := by
    intro k hk
    rw [List.mem_toFinset, List.mem_map] at hk
    obtain ⟨p, hp, rfl⟩ := hk
    rw [Finset.mem_range]
    have := hgk p hp
    have := (hrange p hp).2
    omega
  refine le_trans ?_ (Finset.sum_le_sum_of_subset_of_nonneg hsub (fun k _ _ => hnn k))
  rw [List.sum_toFinset _ hSnd, List.map_map]
  have hterm : ∀ p ∈ F, (p.2 : Rat) * (if col p.1 = col irn0 then 0 else 1) ≤
      ((fun k : Nat => (lpp_get_factor lp ((lp0.csts.length : Int) + 1) ((k : Int) + 1) : Rat) *
        value (k + 1)) ∘ g) p := by
    intro p hp
    simp only [Function.comp]
    rw [hgk p hp, M_row_factor_of_mem hwf0 hunits hm hem (hFc p hp) (hFm p hp)]
    have h1 := hind p.1 irn0 p.2 (hFc p hp)
    have h2 : g p + 1 = (lpp_get_var_idx lp0 (mangle_var 'y' (p.1 : Int) (irn0 : Int))).toNat := by
      have := hgk p hp
      omega
    rw [h2]
    exact mul_le_mul_of_nonneg_left h1.2.2.2 (by exact_mod_cast h1.1)
  refine le_trans ?_ (list_sum_map_le _ _ F hterm)
  rw [← cast_sum_indicator]
  exact_mod_cast M_count col (col irn0) F hFne (fun p hp => (hind p.1 irn0 p.2 (hFc p hp)).1) hFnd

/-- Costs for which the arithmetic of `int` overflows: for the costs
`2^31 - 1`, `2^31 - 1` and 1 of three Phis the exact `sum - max` is `2^31`, and
the variable `minimal_costs` has the value `-2^31`; for the costs `2^31 - 1`
and 1 the sum overflows and the difference comes back to the exact 1. -/
theorem M_minimal_costs_overflow :
    M_sum [(0, 2147483647), (1, 2147483647), (2, 1)] = -1 ∧
      M_max [(0, 2147483647), (1, 2147483647), (2, 1)] = 2147483647 ∧
      M_minimal_costs [(0, 2147483647), (1, 2147483647), (2, 1)] = -2147483648 ∧
      M_sum [(0, 2147483647), (1, 1)] = -2147483648 ∧
      M_minimal_costs [(0, 2147483647), (1, 1)] = 1 := by
  decide

/-- C21. Family M is a valid cut. Let `pi_add_constr_M` run on a problem with
well-formed factors and no row named `M0`, for units whose costs are not
negative. It adds no column and at most one row (every pattern writes into the
row `M0`). The right-hand side of the row is the value of the variable
`int minimal_costs` for the costs `F` of a pattern: the sum and the difference
`sum - max` are computed in the arithmetic of `int`, so it is a number of the
range of `int` that differs from the exact `sum - max` by a multiple of `2^32`,
and it is never larger than the exact `sum - max`. Under every coloring `col`
that gives the Phis of each pattern (the candidates of an operand in a column
of the Phi matrix) pairwise different colors, every assignment in which each
`y<root>_<arg>` is at least 1 where the colors of root and argument differ, and
at least 0 elsewhere, satisfies every row that the function added: at most one
of the Phis of a pattern has the color of the operand, so the sum of the costs
of the others is at least the exact `sum - max`, which is at least
`minimal_costs`, whether the arithmetic of `int` has overflowed or not. -/
theorem M_constr_is_valid_cut (co : copy_opt_t) (pi pi' : problem_instance_t)
    (hwf : lp_wf pi.curr_lp) (hfresh : mangle_cst 'M' 0 ∉ cst_names pi.curr_lp)
    (hunits : ∀ u ∈ co.units, u.root < 2 ^ 31 ∧ ∀ a ∈ u.args, a.1 < 2 ^ 31)
    (h : pi_add_constr_M co pi = some pi')
    (hcost : ∀ u ∈ co.units, ∀ a ∈ u.args, 0 ≤ a.2)
    (col : Nat → Nat) (hdiff : M_colors_differ co col)
    (value : Nat → Rat)
    (hy : ∀ u ∈ co.units, ∀ a ∈ u.args,
      (if col u.root = col a.1 then (0 : Rat) else 1) ≤ yv pi'.curr_lp value u.root a.1) :
    pi'.curr_lp.vars = pi.curr_lp.vars ∧
    (pi'.curr_lp.csts = pi.curr_lp.csts ∨
      ∃ F : List (Nat × Int), F ≠ [] ∧ (∀ p ∈ F, 0 ≤ p.2) ∧
        pi'.curr_lp.csts = pi.curr_lp.csts ++
          [lpp_cst.mk (mangle_cst 'M' 0) lpp_cst_t.lpp_greater (M_minimal_costs F)] ∧
        (-2147483648 ≤ M_minimal_costs F ∧ M_minimal_costs F < 2147483648) ∧
        (∃ k : Int, M_minimal_costs F =
          (F.map (fun p => p.2)).sum - M_max F + k * 4294967296) ∧
        M_minimal_costs F ≤ (F.map (fun p => p.2)).sum - M_max F) ∧
    ∀ k, pi.curr_lp.csts.length ≤ k → lpp_cst_holds pi'.curr_lp value k := by
  unfold pi_add_constr_M at h
  obtain ⟨lp', hrun, rfl⟩ := Option.map_eq_some'.1 h
  simp only at hy ⊢
  have hinv : M_inv co col pi.curr_lp lp' := M_inv_blocks hwf hfresh hdiff hrun
  refine ⟨hinv.vars, ?_, ?_⟩
  · rcases hinv.rows with ⟨hc, _⟩ | ⟨F, irn0, hF⟩
    · exact Or.inl hc
    · have hpos : ∀ p ∈ F, 0 ≤ p.2 := by
        intro p hp
        obtain ⟨u, hu, _, a, ha, _, ha2⟩ := get_costs_spec _ _ _ _ (hF.2.2.1 p hp)
        exact ha2 ▸ hcost u hu a ha
      refine Or.inr ⟨F, hF.1, hpos, hF.2.2.2.1, ?_, ?_, (M_minimal_costs_le F hpos).2⟩
      · rw [M_minimal_costs_eq]
        exact (wrap_int_spec _).1
      · rw [M_minimal_costs_eq]
        exact (wrap_int_spec _).2.1
  · intro k hk
    rcases hinv.rows with ⟨hc, _⟩ | ⟨F, irn0, hF⟩
    · unfold lpp_cst_holds
      rw [hc, List.get?_eq_none.2 hk]
      trivial
    · have hval := M_row_value_ge hwf hunits hcost hinv value hy hF
      have hcs := hF.2.2.2.1
      unfold lpp_cst_holds
      rcases Nat.eq_or_lt_of_le hk with hk' | hk'
      · subst hk'
        have hget : lp'.csts.get? pi.curr_lp.csts.length =
            some (lpp_cst.mk (mangle_cst 'M' 0) lpp_cst_t.lpp_greater (M_minimal_costs F)) := by
          rw [hcs, List.get?_eq_getElem?, List.getElem?_append_right (le_refl _)]
          simp
        rw [hget]
        exact hval
      · have hget : lp'.csts.get? k = none := by
          rw [List.get?_eq_none, hcs, List.length_append]
          simp only [List.length_singleton]
          omega
        rw [hget]
        trivial

set_option maxRecDepth 100000 in
theorem m_pi_M_run : pi_add_constr_M m_co m_pi_S = some m_pi_M := by
  rfl

set_option maxRecDepth 100000 in
theorem m_pi_M_y_columns :
    (lpp_get_var_idx m_pi_M.curr_lp (mangle_var 'y' ((0 : Nat) : Int) ((2 : Nat) : Int))).toNat = 9 ∧
    (lpp_get_var_idx m_pi_M.curr_lp (mangle_var 'y' ((0 : Nat) : Int) ((3 : Nat) : Int))).toNat = 10 ∧
    (lpp_get_var_idx m_pi_M.curr_lp (mangle_var 'y' ((1 : Nat) : Int) ((2 : Nat) : Int))).toNat = 11 ∧
    (lpp_get_var_idx m_pi_M.curr_lp (mangle_var 'y' ((1 : Nat) : Int) ((3 : Nat) : Int))).toNat = 12 := by
  decide

theorem m_value_y : ∀ u ∈ m_co.units, ∀ a ∈ u.args,
    (if m_col u.root = m_col a.1 then (0 : Rat) else 1) ≤ yv m_pi_M.curr_lp m_value u.root a.1 := by
  obtain ⟨e1, e2, e3, e4⟩ := m_pi_M_y_columns
  intro u hu a ha
  simp only [m_co, List.mem_cons, List.mem_singleton, List.not_mem_nil, or_false] at hu
  rcases hu with rfl | rfl
  · simp only [List.mem_cons, List.mem_singleton, List.not_mem_nil, or_false] at ha
    rcases ha with rfl | rfl
    · unfold yv; rw [e1]; norm_num [m_value, m_col]
    · unfold yv; rw [e2]; norm_num [m_value, m_col]
  · simp only [List.mem_cons, List.mem_singleton, List.not_mem_nil, or_false] at ha
    rcases ha with rfl | rfl
    · unfold yv; rw [e3]; norm_num [m_value, m_col]
    · unfold yv; rw [e4]; norm_num [m_value, m_col]

set_option maxRecDepth 100000 in
/-- Witness of C21 on `m_co`, whose two patterns (operand 2 and operand 3 under
the Phis 0 and 1) both write into the row `M0`, "at least 4" with the factors
5, 7, 4, 1 in the columns `y0_2`, `y0_3`, `y1_2`, `y1_3`: the coloring `m_col`
gives the two Phis different colors, and the assignment `m_value` (the value
1 in `y0_3` and `y1_2`) satisfies the row. -/
theorem M_constr_is_valid_cut_witness :
    (lp_wf m_pi_S.curr_lp ∧ mangle_cst 'M' 0 ∉ cst_names m_pi_S.curr_lp ∧
      (∀ u ∈ m_co.units, u.root < 2 ^ 31 ∧ ∀ a ∈ u.args, a.1 < 2 ^ 31) ∧
      pi_add_constr_M m_co m_pi_S = some m_pi_M ∧
      (∀ u ∈ m_co.units, ∀ a ∈ u.args, 0 ≤ a.2) ∧
      M_colors_differ m_co m_col ∧
      (∀ u ∈ m_co.units, ∀ a ∈ u.args,
        (if m_col u.root = m_col a.1 then (0 : Rat) else 1) ≤
          yv m_pi_M.curr_lp m_value u.root a.1) ∧
      m_pi_M.curr_lp.csts.length = m_pi_S.curr_lp.csts.length + 1 ∧
      M_rows m_pi_M.curr_lp =
        [(['M', '0'], lpp_cst_t.lpp_greater, 4, [0, 0, 0, 0, 0, 0, 0, 0, 5, 7, 4, 1])]) ∧
    (m_pi_M.curr_lp.vars = m_pi_S.curr_lp.vars ∧
      (m_pi_M.curr_lp.csts = m_pi_S.curr_lp.csts ∨
        ∃ F : List (Nat × Int), F ≠ [] ∧ (∀ p ∈ F, 0 ≤ p.2) ∧
          m_pi_M.curr_lp.csts = m_pi_S.curr_lp.csts ++
            [lpp_cst.mk (mangle_cst 'M' 0) lpp_cst_t.lpp_greater (M_minimal_costs F)] ∧
          (-2147483648 ≤ M_minimal_costs F ∧ M_minimal_costs F < 2147483648) ∧
          (∃ k : Int, M_minimal_costs F =
            (F.map (fun p => p.2)).sum - M_max F + k * 4294967296) ∧
          M_minimal_costs F ≤ (F.map (fun p => p.2)).sum - M_max F) ∧
      ∀ k, m_pi_S.curr_lp.csts.length ≤ k → lpp_cst_holds m_pi_M.curr_lp m_value k) :=
  ⟨⟨by decide, by decide, by decide, m_pi_M_run, by decide, by decide, m_value_y, by decide,
      by decide⟩,
    M_constr_is_valid_cut m_co m_pi_S m_pi_M (by decide) (by decide) (by decide) m_pi_M_run
      (by decide) m_col (by decide) m_value m_value_y⟩

/-- The text that `mangle_var` formats from numbers of type `int` fills at most
24 bytes of the buffer of 32, the closing zero byte counted. -/
theorem mangle_var_text_length (pfx : Char) (n c : Int) (hn : -2 ^ 31 ≤ n ∧ n < 2 ^ 31)
    (hc : -2 ^ 31 ≤ c ∧ c < 2 ^ 31) :
    (pfx :: (print_d n ++ '_' :: print_d c)).length + 1 ≤ 25 := by
  have h1 := print_d_length n hn.1 hn.2
  have h2 := print_d_length c hc.1 hc.2
  simp only [List.length_cons, List.length_append]
  omega

/-- What `split_var` returns for a name that does not start with `x` and is
not empty: no conversion is made. -/
theorem split_var_other_head (p : Char) (t : List Char) (hp : p ≠ 'x') :
    split_var (p :: t) = (0, 0, 0) := by
  simp [split_var, hp]

/-- C36. The names of the variables, there and back. For numbers `n` and `c` of
the type `int` (32 bits):
* the text `x<n>_<c>` with its closing zero byte takes at most 25 of the 32
  bytes of the buffer, so `mangle_var` leaves the whole text in the buffer;
* `split_var` makes two conversions on this name and gives back `n` and `c`;
* on the name `y<n>_<c>`, and on every name `mangle_cst` makes with a prefix
  other than `x` (the rows have `A`, `B`, `E`, `S`, `M`), `split_var` makes no
  conversion, so such a name is never taken for the name of an x variable. -/
theorem var_name_round_trip (n c : Int) (hn : -2 ^ 31 ≤ n ∧ n < 2 ^ 31)
    (hc : -2 ^ 31 ≤ c ∧ c < 2 ^ 31) :
    (('x' :: (print_d n ++ '_' :: print_d c)).length + 1 ≤ 32 ∧
      mangle_var 'x' n c = 'x' :: (print_d n ++ '_' :: print_d c)) ∧
    split_var (mangle_var 'x' n c) = (2, n, c) ∧
    (split_var (mangle_var 'y' n c) = (0, 0, 0) ∧ (split_var (mangle_var 'y' n c)).1 < 2) ∧
    ∀ (pfx : Char) (k : Int), pfx ≠ 'x' →
      split_var (mangle_cst pfx k) = (0, 0, 0) ∧ (split_var (mangle_cst pfx k)).1 < 2 := by
  refine ⟨⟨?_, mangle_var_eq 'x' n c hn hc⟩, split_var_mangle_var n c hn hc, ?_, ?_⟩
  · have := mangle_var_text_length 'x' n c hn hc
    omega
  · obtain ⟨t, ht⟩ := mangle_var_head 'y' n c
    rw [ht, split_var_other_head 'y' t (by decide)]
    exact ⟨rfl, by decide⟩
  · intro pfx k hp
    obtain ⟨t, ht⟩ := mangle_cst_head pfx k
    rw [ht, split_var_other_head pfx t hp]
    exact ⟨rfl, by decide⟩

/-- Witness of C36 at the ends of the range of `int`, the name
`x-2147483648_2147483647`. -/
theorem var_name_round_trip_witness :
    ((-2 ^ 31 ≤ (-2147483648 : Int) ∧ (-2147483648 : Int) < 2 ^ 31) ∧
      (-2 ^ 31 ≤ (2147483647 : Int) ∧ (2147483647 : Int) < 2 ^ 31)) ∧
    ((('x' :: (print_d (-2147483648) ++ '_' :: print_d 2147483647)).length + 1 ≤ 32 ∧
      mangle_var 'x' (-2147483648) 2147483647 =
        'x' :: (print_d (-2147483648) ++ '_' :: print_d 2147483647)) ∧
    split_var (mangle_var 'x' (-2147483648) 2147483647) = (2, -2147483648, 2147483647) ∧
    (split_var (mangle_var 'y' (-2147483648) 2147483647) = (0, 0, 0) ∧
      (split_var (mangle_var 'y' (-2147483648) 2147483647)).1 < 2) ∧
    ∀ (pfx : Char) (k : Int), pfx ≠ 'x' →
      split_var (mangle_cst pfx k) = (0, 0, 0) ∧ (split_var (mangle_cst pfx k)).1 < 2) :=
  ⟨⟨by norm_num, by norm_num⟩,
    var_name_round_trip (-2147483648) 2147483647 (by norm_num) (by norm_num)⟩

/-- C38. What `be_get_loop_pressure` does when it finds no entry. The comment of
the function says "@return The pressure or INT_MAX if not found", and the
variable `pressure` starts as `INT_MAX`; but the branch taken when `set_find`
returns `NULL` is `panic (...)`, which does not return.
* In the set with the entries (loop 100, class 7, pressure 3) and (loop 101,
  class 8, pressure 5), the call for the class 8 and the loop 100 ends in
  `panic` and not with the value `INT_MAX`.
* Whenever no entry has the loop and the class asked for, the call ends with
  no value at all.
* When `set_find` returns an entry, for a class and a loop that are not `NULL`,
  the call ends with the `max_pressure` of that entry (here 3 for the class 7
  and the loop 100). -/
theorem get_loop_pressure_not_found_is_fatal :
    (be_get_loop_pressure two_entries 8 100 = get_pressure_t.panicked ∧
      be_get_loop_pressure two_entries 8 100 ≠ get_pressure_t.value INT_MAX) ∧
    (∀ (loop_ana : be_loopana_t) (cls loop : Nat),
      (∀ e ∈ loop_ana.data, ¬ (e.loop = loop ∧ e.cls = cls)) →
      ∀ p, be_get_loop_pressure loop_ana cls loop ≠ get_pressure_t.value p) ∧
    (∀ (loop_ana : be_loopana_t) (cls loop : Nat) (e : be_loop_info_t),
      cls ≠ 0 → loop ≠ 0 →
      set_find loop_ana.data { loop := loop, cls := cls, max_pressure := 0 } = some e →
      be_get_loop_pressure loop_ana cls loop = get_pressure_t.value e.max_pressure) ∧
    be_get_loop_pressure two_entries 7 100 = get_pressure_t.value 3 := by
  refine ⟨⟨by decide, by decide⟩, ?_, ?_, by decide⟩
  · intro loop_ana cls loop hno p
    unfold be_get_loop_pressure
    split_ifs with h0
    · exact fun h => by cases h
    · rw [(set_find_eq_none loop_ana.data loop cls 0).2 hno]
      exact fun h => by cases h
  · intro loop_ana cls loop e hcls hloop hfind
    unfold be_get_loop_pressure
    rw [if_neg (by simp [hcls, hloop]), hfind]

/-! ## The pressure in a block with a definition that is not live -/

theorem foldl_remove_not_mem : ∀ (defs live : List Nat), (∀ d ∈ defs, d ∉ live) →
    defs.foldl ir_nodeset_remove live = live := by
  intro defs
  induction defs with
  | nil => intro live _; rfl
  | cons d rest ih =>
    intro live h
    have hd : ir_nodeset_remove live d = live := by
      unfold ir_nodeset_remove
      rw [List.filter_eq_self]
      intro a ha
      have := h d (List.mem_cons_self _ _)
      simp only [decide_eq_true_eq]
      rintro rfl
      exact this ha
    rw [List.foldl_cons, hd]
    exact ih live (fun x hx => h x (List.mem_cons_of_mem _ hx))

theorem foldl_insert_mem : ∀ (uses live : List Nat), (∀ u ∈ uses, u ∈ live) →
    uses.foldl ir_nodeset_insert live = live := by
  intro uses
  induction uses with
  | nil => intro live _; rfl
  | cons u rest ih =>
    intro live h
    have hu : ir_nodeset_insert live u = live := by
      unfold ir_nodeset_insert
      rw [if_pos (h u (List.mem_cons_self _ _))]
    rw [List.foldl_cons, hu]
    exact ih live (fun x hx => h x (List.mem_cons_of_mem _ hx))

/-- The loop of `be_compute_block_pressure` leaves `max_live` as it is when
the nodes still to come are Phis: it breaks at the first one. -/
theorem block_pressure_loop_phis (cls : Nat) (nodes : List sched_node_t) (live : List Nat)
    (m : Nat) (h : ∀ p ∈ nodes, p.is_Phi = true) : block_pressure_loop cls nodes live m = m := by
  cases nodes with
  | nil => rfl
  | cons p rest =>
    unfold block_pressure_loop
    rw [if_pos (h p (List.mem_cons_self _ _))]

/-- Counterexample to C33 on `dead_def_irg`: two values are live at the end of
the block, its one node defines a value that is not among them and uses these
two only, and `be_compute_block_pressure` returns 2, not 3: the set after the
transfer over the node is the set live at the end again. -/
theorem block_pressure_dead_def_is_two :
    ir_nodeset_size (be_liveness_end_of_block dead_def_irg 7 1 []) = 2 ∧
    (dead_def_irg.sched 1).map (fun irn => (irn.is_Phi, irn.defs 7, irn.uses 7)) =
      [(false, [3], [1, 2])] ∧
    (∀ d ∈ [3], d ∉ be_liveness_end_of_block dead_def_irg 7 1 []) ∧
    (∀ u ∈ [1, 2], u ∈ be_liveness_end_of_block dead_def_irg 7 1 []) ∧
    (live_sets 7 (be_liveness_end_of_block dead_def_irg 7 1 [])
      (transfer_nodes (dead_def_irg.sched 1))).map ir_nodeset_size = [2, 2] ∧
    be_compute_block_pressure dead_def_irg 1 7 = 2 ∧
    be_compute_block_pressure dead_def_irg 1 7 ≠ 3 := by
  decide

/-- Amended C33. In a block whose schedule is Phis and then one other node that
defines no value live at the end of the block and uses only values live at the
end of the block, the transfer over the node leaves the set as it is (the
values defined are not in it, the operands are), and
`be_compute_block_pressure` returns the number of values live at the end of
the block: a definition that is not live after the node is not counted. -/
theorem block_pressure_dead_def (irg : ir_graph) (block cls : Nat) (phis : List sched_node_t)
    (irn : sched_node_t) (hs : irg.sched block = phis ++ [irn])
    (hphis : ∀ p ∈ phis, p.is_Phi = true) (hirn : irn.is_Phi = false)
    (hdefs : ∀ d ∈ irn.defs cls, d ∉ be_liveness_end_of_block irg cls block [])
    (huses : ∀ u ∈ irn.uses cls, u ∈ be_liveness_end_of_block irg cls block [])
    (hsize : ir_nodeset_size (be_liveness_end_of_block irg cls block []) < 2 ^ 32) :
    be_liveness_transfer cls irn (be_liveness_end_of_block irg cls block []) =
      be_liveness_end_of_block irg cls block [] ∧
    be_compute_block_pressure irg block cls =
      ir_nodeset_size (be_liveness_end_of_block irg cls block []) := by
  have htr : be_liveness_transfer cls irn (be_liveness_end_of_block irg cls block []) =
      be_liveness_end_of_block irg cls block [] := by
    unfold be_liveness_transfer
    rw [foldl_remove_not_mem _ _ hdefs, foldl_insert_mem _ _ huses]
  refine ⟨htr, ?_⟩
  unfold be_compute_block_pressure
  rw [hs, List.reverse_append, List.reverse_singleton, List.singleton_append]
  unfold block_pressure_loop
  rw [if_neg (by simp [hirn]), htr, max_self,
    block_pressure_loop_phis cls _ _ _ (fun p hp => hphis p (List.mem_reverse.1 hp))]
  exact Nat.mod_eq_of_lt hsize

/-- Witness of the amended C33 on `dead_def_irg`: the pressure of the block
is 2. -/
theorem block_pressure_dead_def_witness :
    (dead_def_irg.sched 1 = [] ++ [⟨false, fun _ => [3], fun _ => [1, 2]⟩] ∧
      ir_nodeset_size (be_liveness_end_of_block dead_def_irg 7 1 []) = 2) ∧
    (be_liveness_transfer 7 ⟨false, fun _ => [3], fun _ => [1, 2]⟩
        (be_liveness_end_of_block dead_def_irg 7 1 []) =
      be_liveness_end_of_block dead_def_irg 7 1 [] ∧
    be_compute_block_pressure dead_def_irg 1 7 =
      ir_nodeset_size (be_liveness_end_of_block dead_def_irg 7 1 [])) :=
  ⟨⟨rfl, by decide⟩,
    block_pressure_dead_def dead_def_irg 1 7 [] ⟨false, fun _ => [3], fun _ => [1, 2]⟩ rfl
      (by decide) rfl (by decide) (by decide) (by decide)⟩

/-! ## The bookkeeping of the removed nodes -/

/-- The loop of `pi_set_simplicials`, entered with the removed set holding
exactly the entries of the list still to come: it leaves the removed set empty
and the list as it is, and it changes the color of no node outside the list. -/
theorem set_simplicials_loop_bookkeeping (co : copy_opt_t) :
    ∀ (rest : List Nat) (pi : problem_instance_t) (col : Nat → Int)
      (res : problem_instance_t × (Nat → Int)),
      bookkeeping rest pi.removed → set_simplicials_loop co rest pi col = some res →
      res.1.removed = [] ∧ res.1.simplicials = pi.simplicials ∧
        ∀ n, n ∉ rest → res.2 n = col n := by
  intro rest
  induction rest with
  | nil =>
    intro pi col res hbk h
    simp only [set_simplicials_loop, Option.some.injEq] at h
    subst h
    refine ⟨?_, rfl, fun n _ => rfl⟩
    rw [List.eq_nil_iff_forall_not_mem]
    intro p hp
    obtain ⟨n, hn, _⟩ := (hbk.2 p).1 hp
    exact absurd hn (List.not_mem_nil n)
  | cons ifn rest ih =>
    intro pi col res hbk h
    obtain ⟨c, _, _, hrest⟩ := set_simplicials_loop_cons co ifn rest pi col res h
    obtain ⟨h1, h2, h3⟩ := ih (set_restore pi ifn) (Function.update col ifn c) res
      (bookkeeping_set_restore hbk) hrest
    refine ⟨h1, h2, ?_⟩
    intro n hn
    rw [h3 n (fun hmem => hn (List.mem_cons_of_mem _ hmem)),
      Function.update_noteq (fun heq => hn (by rw [heq]; exact List.mem_cons_self _ _))]

/-- C39. The bookkeeping of the removed nodes. `pi_find_simplicials`, entered
with the record that `new_pi` makes, returns; then
* the list `simplicials` has no node twice, and the removed set holds the
  `ir_node`s of the nodes on the list and nothing else;
* the line `pset_remove_ptr (pi->removed, irn)` of an iteration of
  `pi_set_simplicials` takes the node just colored out of the removed set and
  leaves the other members in it;
* when `pi_set_simplicials` returns, the removed set is empty, the list is as
  it was, `set_irn_col` has been called for the nodes of the list in their
  order, and every node that is not on the list has the color it had;
* `pi_set_simplicials` does return when the interference graph is a simple
  undirected graph without a clique larger than the number of registers and
  the nodes left in the graph have colors of the class. -/
theorem removal_bookkeeping (co : copy_opt_t) (col : Nat → Int) :
    ∃ r, pi_find_simplicials co new_pi_init = some r ∧
      (r.simplicials.Nodup ∧
        ∀ p, p ∈ r.removed ↔ ∃ n ∈ r.simplicials, p = ptr_t.ir_node n) ∧
      (∀ (pi : problem_instance_t) (n : Nat),
        ptr_t.ir_node n ∉ (set_restore pi n).removed ∧
        ∀ p, p ∈ (set_restore pi n).removed ↔ p ∈ pi.removed ∧ p ≠ ptr_t.ir_node n) ∧
      (∀ res, pi_set_simplicials co r col = some res →
        res.1.removed = [] ∧ res.1.simplicials = r.simplicials ∧
        (set_simplicials_calls co r.simplicials r col).map Prod.fst = r.simplicials ∧
        ∀ n, n ∉ r.simplicials → res.2 n = col n) ∧
      (ifg_wf co.chordal_env → no_clique_larger co.chordal_env co.chordal_env.n_regs →
        (∀ a ∈ co.chordal_env.if_nodes, is_removed r (ptr_t.ir_node a) = false →
          0 ≤ col a ∧ col a < co.chordal_env.n_regs) →
        ∃ res, pi_set_simplicials co r col = some res) := by
  obtain ⟨r, hr, hbk, hcl⟩ := pi_find_simplicials_cliques co
  refine ⟨r, hr, hbk, ?_, ?_, ?_⟩
  · intro pi n
    have hmem : ∀ p, p ∈ (set_restore pi n).removed ↔ p ∈ pi.removed ∧ p ≠ ptr_t.ir_node n := by
      intro p
      simp only [set_restore]
      exact mem_pset_remove_ptr pi.removed (ptr_t.ir_node n) p
    exact ⟨fun h => ((hmem _).1 h).2 rfl, hmem⟩
  · intro res hres
    unfold pi_set_simplicials at hres
    obtain ⟨h1, h2, h3⟩ := set_simplicials_loop_bookkeeping co r.simplicials r col res hbk hres
    exact ⟨h1, h2, set_simplicials_calls_of_some co r.simplicials r col res hres, h3⟩
  · intro hwf hno hcol
    obtain ⟨res, hres, _⟩ := set_simplicials_loop_some co hwf hno r.simplicials r col hbk hcl hcol
    exact ⟨res, hres⟩

/-! ## The constraints M: the patterns of a column -/

/-- The block "generate an unequation finally" adds no row to a problem that
has a row named `M0`: the name it makes is `M0` again, and the row of that
name is the one its factors are written into. -/
theorem M_constr_emit_no_new_row {phis : List (Nat × List Nat)} {irn : Nat}
    {costs : List (Nat × Int)} {lp lp' : lpp_t} (hM0 : mangle_cst 'M' 0 ∈ cst_names lp)
    (h : M_constr_emit phis irn costs lp = some lp') : lp'.csts = lp.csts := by
  unfold M_constr_emit at h
  simp only at h
  rw [M_factors_eq] at h
  obtain ⟨_, hc2, _, _⟩ := lpp_set_factors_matrix _ _ _ _ h
  obtain ⟨k, _, _, _, _, hcase⟩ := lpp_add_cst_spec lp (mangle_cst 'M' 0)
    lpp_cst_t.lpp_greater (M_minimal_costs costs)
  rcases hcase with ⟨hnot, _⟩ | ⟨_, _, hcsts⟩
  · exact absurd hM0 hnot
  · rw [hc2, hcsts]

set_option maxRecDepth 100000 in
/-- C40. Names of rows that are not unique. In the block of `m_co` the walker
finds two patterns with two candidates each (the operand 2 in the column 0,
the operand 3 in the column 1) and hands the name `M0` to `lpp_add_cst` for
both: the variable `cst_counter` from which the name is made is declared, with
the value 0, inside the block that adds the row. The problem that `new_pi`
builds has the rows `A2`, `A3`, `A0`, `A1`, `B0`, `B1`, `E0` to `E15` and the
single row `M0`; the two patterns have no row each. The rows `B0` and `B1`,
added for the colors 0 and 1, do have names that differ. In general the block
adds no row when the problem has a row `M0`. -/
theorem M_cst_names_collide :
    (M_col_patterns m_co [(0, [2, 3]), (1, [2, 3])] 0 (List.range 2) [] = [(2, [0, 1])] ∧
      M_col_patterns m_co [(0, [2, 3]), (1, [2, 3])] 1 (List.range 2) [] = [(3, [0, 1])]) ∧
    (M_walker_cst_names m_co [(0, [2, 3]), (1, [2, 3])] = [['M', '0'], ['M', '0']] ∧
      ¬ (M_walker_cst_names m_co [(0, [2, 3]), (1, [2, 3])]).Nodup) ∧
    (new_pi m_co).map (fun pi => cst_names pi.curr_lp) =
      some [['A', '2'], ['A', '3'], ['A', '0'], ['A', '1'], ['B', '0'], ['B', '1'],
        ['E', '0'], ['E', '1'], ['E', '2'], ['E', '3'], ['E', '4'], ['E', '5'], ['E', '6'],
        ['E', '7'], ['E', '8'], ['E', '9'], ['E', '1', '0'], ['E', '1', '1'], ['E', '1', '2'],
        ['E', '1', '3'], ['E', '1', '4'], ['E', '1', '5'], ['M', '0']] ∧
    ∀ (phis : List (Nat × List Nat)) (irn : Nat) (costs : List (Nat × Int)) (lp lp' : lpp_t),
      mangle_cst 'M' 0 ∈ cst_names lp → M_constr_emit phis irn costs lp = some lp' →
      lp'.csts = lp.csts := by
  refine ⟨by decide, by decide, by decide, ?_⟩
  intro phis irn costs lp lp' hM0 h
  exact M_constr_emit_no_new_row hM0 h

/-! ## The pressures of all classes -/

theorem loop_info_update_exact (irg : ir_graph) (loops : List ir_loop)
    (hnd : (loops.map (fun L => L.addr)).Nodup) (L : ir_loop) (hL : L ∈ loops) (cls : Nat) :
    ∀ data : List be_loop_info_t, entries_exact irg loops data →
      entries_exact irg loops
        (loop_info_update data L.addr cls (loop_pressure irg cls L.elements)) := by
  intro data
  induction data with
  | nil =>
    intro _ e he
    rw [loop_info_update_nil, List.mem_singleton] at he
    subst he
    exact ⟨L, hL, rfl, rfl⟩
  | cons e0 rest ih =>
    intro hex e he
    rw [loop_info_update_cons] at he
    by_cases hm : e0.loop = L.addr ∧ e0.cls = cls
    · rw [if_pos hm] at he
      rcases List.mem_cons.1 he with rfl | he
      · obtain ⟨L', hL', h1, h2⟩ := hex e0 (List.mem_cons_self _ _)
        have hLL : L' = L := List.inj_on_of_nodup_map hnd hL' hL (by rw [← h1, hm.1])
        subst hLL
        refine ⟨L', hL, hm.1, ?_⟩
        show max e0.max_pressure (loop_pressure irg cls L'.elements) =
          loop_pressure irg e0.cls L'.elements
        rw [h2, hm.2, max_self]
      · exact hex e (List.mem_cons_of_mem _ he)
    · rw [if_neg hm] at he
      rcases List.mem_cons.1 he with rfl | he
      · exact hex e (List.mem_cons_self _ _)
      · exact ih (fun x hx => hex x (List.mem_cons_of_mem _ hx)) e he

theorem store_loops_exact (irg : ir_graph) (loops : List ir_loop)
    (hnd : (loops.map (fun L => L.addr)).Nodup) (cls : Nat) :
    ∀ (ls : List ir_loop) (data : List be_loop_info_t), (∀ L ∈ ls, L ∈ loops) →
      entries_exact irg loops data → entries_exact irg loops (store_loops irg cls data ls) := by
  intro ls
  induction ls with
  | nil => intro data _ h; exact h
  | cons L rest ih =>
    intro data hls hex
    show entries_exact irg loops (store_loops irg cls
      (loop_info_update data L.addr cls (loop_pressure irg cls L.elements)) rest)
    exact ih _ (fun x hx => hls x (List.mem_cons_of_mem _ hx))
      (loop_info_update_exact irg loops hnd L (hls L (List.mem_cons_self _ _)) cls data hex)

/-- The loop of `be_new_loop_pressure` over the classes listed: it runs to its
end, every entry of the set it leaves holds the pressure of its loop for its
class, the entries there were are still found, and every loop has an entry for
every class listed. -/
theorem new_loop_pressure_classes (irg : ir_graph)
    (hok : irg.loop.elements ≠ loop_elements.none ∧ elements_ok irg.loop.elements = true)
    (hnd : ((all_loops irg.loop).map (fun L => L.addr)).Nodup) :
    ∀ (cs : List Nat) (ana : be_loopana_t), ana.irg = irg →
      entries_exact irg (all_loops irg.loop) ana.data →
      ∃ ana', cs.foldlM (fun loop_ana c =>
          (be_compute_loop_pressure loop_ana irg.loop c).map (fun r => r.loop_ana)) ana =
          some ana' ∧
        ana'.irg = irg ∧ entries_exact irg (all_loops irg.loop) ana'.data ∧
        (∀ loop cls p, has_entry ana.data loop cls p → has_entry ana'.data loop cls p) ∧
        ∀ c ∈ cs, ∀ L ∈ all_loops irg.loop,
          has_entry ana'.data L.addr c (loop_pressure irg c L.elements) := by
  intro cs
  induction cs with
  | nil =>
    intro ana hirg hex
    exact ⟨ana, rfl, hirg, hex, fun _ _ _ h => h, fun c hc => absurd hc (List.not_mem_nil c)⟩
  | cons c rest ih =>
    intro ana hirg hex
    have hstep : (be_compute_loop_pressure ana irg.loop c).map (fun r => r.loop_ana) =
        some { ana with data := store_loops irg c ana.data (all_loops irg.loop) } := by
      rw [be_compute_loop_pressure_eq, if_pos hok, hirg]
      rfl
    obtain ⟨ana', hrun, hirg', hex', hkeep, hnew⟩ := ih
      { ana with data := store_loops irg c ana.data (all_loops irg.loop) } hirg
      (store_loops_exact irg _ hnd c _ _ (fun L hL => hL) hex)
    refine ⟨ana', ?_, hirg', hex', ?_, ?_⟩
    · rw [List.foldlM_cons, hstep]
      exact hrun
    · intro loop cls p h
      exact hkeep _ _ _ ((store_loops_has_entry irg c _ _).2 loop cls p h)
    · intro c' hc' L hL
      rcases List.mem_cons.1 hc' with rfl | hc'
      · exact hkeep _ _ _ ((store_loops_has_entry irg c' (all_loops irg.loop) ana.data).1 L hL)
      · exact hnew c' hc' L hL

/-- What `be_new_loop_pressure_cls` returns for a graph whose loops have
elements and addresses that differ: one entry for each loop, with the class and
the pressure of the loop. -/
theorem new_loop_pressure_cls_data (irg : ir_graph) (cls : Nat)
    (hok : irg.loop.elements ≠ loop_elements.none ∧ elements_ok irg.loop.elements = true)
    (hnd : ((all_loops irg.loop).map (fun L => L.addr)).Nodup) :
    be_new_loop_pressure_cls irg cls =
      some { data := (all_loops irg.loop).map (loop_entry irg cls), irg := irg } := by
  unfold be_new_loop_pressure_cls
  rw [be_compute_loop_pressure_eq, if_pos hok]
  simp only [Option.map_some', Option.some.injEq]
  have := store_loops_fresh irg cls (all_loops irg.loop) [] (by simpa using hnd)
  simp only [List.nil_append] at this
  rw [this]
  rfl

/-- The value with which `be_get_loop_pressure` ends when the set has an entry
for the loop and the class and every entry holds the pressure of its loop. -/
theorem get_loop_pressure_exact (irg : ir_graph) (ana : be_loopana_t)
    (hnd : ((all_loops irg.loop).map (fun L => L.addr)).Nodup)
    (hex : entries_exact irg (all_loops irg.loop) ana.data) (c : Nat) (hc : c ≠ 0)
    (L : ir_loop) (hL : L ∈ all_loops irg.loop) (hL0 : L.addr ≠ 0) (p : Nat)
    (hent : has_entry ana.data L.addr c p) :
    be_get_loop_pressure ana c L.addr = get_pressure_t.value (loop_pressure irg c L.elements) := by
  obtain ⟨e, hfind, _⟩ := hent
  unfold be_get_loop_pressure
  rw [if_neg (by simp [hc, hL0]), hfind]
  obtain ⟨hmem, hloop, hcls⟩ := set_find_some hfind
  obtain ⟨L', hL', h1, h2⟩ := hex e hmem
  have hLL : L' = L := List.inj_on_of_nodup_map hnd hL' hL (by rw [← h1, hloop])
  subst hLL
  simp only [h2, hcls]

/-- C37. The classes of `be_new_loop_pressure`. For a graph in which every loop
has an element, the loops have addresses that differ and are not `NULL`, and
no register class is `NULL`:
* called with `cls == NULL` the function returns an analysis object in which,
  for every register class of the architecture and every loop of the tree,
  `be_get_loop_pressure` ends with the pressure of the loop for the class, and
  every entry of the set holds the pressure of its loop for its class;
* called with a class that is not `NULL` it does what
  `be_new_loop_pressure_cls` does: the object returned has one entry for each
  loop, all with this class and the pressure of the loop for it, and
  `be_get_loop_pressure` ends with that pressure. -/
theorem new_loop_pressure_class_selection (irg : ir_graph)
    (hne : irg.loop.elements ≠ loop_elements.none)
    (hok : elements_ok irg.loop.elements = true)
    (haddr : ∀ L ∈ all_loops irg.loop, L.addr ≠ 0)
    (hnd : ((all_loops irg.loop).map (fun L => L.addr)).Nodup)
    (hcls : ∀ c ∈ irg.register_classes, c ≠ 0) :
    (∃ ana, be_new_loop_pressure irg 0 = some ana ∧
      (∀ c ∈ irg.register_classes, ∀ L ∈ all_loops irg.loop,
        be_get_loop_pressure ana c L.addr =
          get_pressure_t.value (loop_pressure irg c L.elements)) ∧
      ∀ e ∈ ana.data, ∃ L ∈ all_loops irg.loop, e.loop = L.addr ∧
        e.max_pressure = loop_pressure irg e.cls L.elements) ∧
    ∀ cls, cls ≠ 0 →
      be_new_loop_pressure irg cls = be_new_loop_pressure_cls irg cls ∧
      ∃ ana, be_new_loop_pressure irg cls = some ana ∧
        ana.data = (all_loops irg.loop).map (loop_entry irg cls) ∧
        (∀ e ∈ ana.data, e.cls = cls) ∧
        ∀ L ∈ all_loops irg.loop,
          be_get_loop_pressure ana cls L.addr =
            get_pressure_t.value (loop_pressure irg cls L.elements) := by
  constructor
  · obtain ⟨ana, hrun, _, hex, _, hent⟩ := new_loop_pressure_classes irg ⟨hne, hok⟩ hnd
      irg.register_classes.reverse { data := [], irg := irg } rfl
      (fun e he => absurd he (List.not_mem_nil e))
    refine ⟨ana, ?_, ?_, hex⟩
    · unfold be_new_loop_pressure
      rw [if_neg (by simp)]
      exact hrun
    · intro c hc L hL
      exact get_loop_pressure_exact irg ana hnd hex c (hcls c hc) L hL (haddr L hL) _
        (hent c (List.mem_reverse.2 hc) L hL)
  · intro cls hc
    have hnew : be_new_loop_pressure irg cls = be_new_loop_pressure_cls irg cls := by
      unfold be_new_loop_pressure be_new_loop_pressure_cls
      rw [if_pos hc]
    refine ⟨hnew, _, by rw [hnew]; exact new_loop_pressure_cls_data irg cls ⟨hne, hok⟩ hnd,
      rfl, ?_, ?_⟩
    · intro e he
      obtain ⟨L, _, rfl⟩ := List.mem_map.1 he
      rfl
    · intro L hL
      unfold be_get_loop_pressure
      rw [if_neg (by simp [hc, haddr L hL])]
      have := set_find_map irg cls 0 _ hnd L hL
      unfold loop_entry
      simp only
      rw [this]

set_option maxRecDepth 100000 in
/-- Witness of C37 on `loop_irg`, whose classes are 7 and 8: called with
`NULL` the function leaves six entries, those of the class 8 first, and the
loop 102 has the pressure 2 for the class 7 and 0 for the class 8. -/
theorem new_loop_pressure_class_selection_witness :
    (loop_irg.loop.elements ≠ loop_elements.none ∧
      elements_ok loop_irg.loop.elements = true ∧
      (∀ L ∈ all_loops loop_irg.loop, L.addr ≠ 0) ∧
      ((all_loops loop_irg.loop).map (fun L => L.addr)).Nodup ∧
      (∀ c ∈ loop_irg.register_classes, c ≠ 0) ∧
      (be_new_loop_pressure loop_irg 0).map (fun ana => ana.data) =
        some [{ loop := 102, cls := 8, max_pressure := 0 },
          { loop := 101, cls := 8, max_pressure := 4 },
          { loop := 100, cls := 8, max_pressure := 4 },
          { loop := 102, cls := 7, max_pressure := 2 },
          { loop := 101, cls := 7, max_pressure := 4 },
          { loop := 100, cls := 7, max_pressure := 4 }] ∧
      (be_new_loop_pressure loop_irg 0).map (fun ana =>
          (be_get_loop_pressure ana 7 102, be_get_loop_pressure ana 8 102)) =
        some (get_pressure_t.value 2, get_pressure_t.value 0)) ∧
    ((∃ ana, be_new_loop_pressure loop_irg 0 = some ana ∧
      (∀ c ∈ loop_irg.register_classes, ∀ L ∈ all_loops loop_irg.loop,
        be_get_loop_pressure ana c L.addr =
          get_pressure_t.value (loop_pressure loop_irg c L.elements)) ∧
      ∀ e ∈ ana.data, ∃ L ∈ all_loops loop_irg.loop, e.loop = L.addr ∧
        e.max_pressure = loop_pressure loop_irg e.cls L.elements) ∧
    ∀ cls, cls ≠ 0 →
      be_new_loop_pressure loop_irg cls = be_new_loop_pressure_cls loop_irg cls ∧
      ∃ ana, be_new_loop_pressure loop_irg cls = some ana ∧
        ana.data = (all_loops loop_irg.loop).map (loop_entry loop_irg cls) ∧
        (∀ e ∈ ana.data, e.cls = cls) ∧
        ∀ L ∈ all_loops loop_irg.loop,
          be_get_loop_pressure ana cls L.addr =
            get_pressure_t.value (loop_pressure loop_irg cls L.elements)) :=
  ⟨⟨by decide, by decide, by decide, by decide, by decide, by decide, by decide⟩,
    new_loop_pressure_class_selection loop_irg (by decide) (by decide) (by decide) (by decide)
      (by decide)⟩

/-! ## The constraints E: the list of the rows -/

/-- A loop that can fail and whose body adds to a list kept in the state: the
loop adds what its bodies add, in their order. -/
theorem foldlM_trace {σ α β : Type} (f : σ → α → Option σ) (tr : σ → List β)
    (g : α → List β) :
    ∀ (l : List α), (∀ a ∈ l, ∀ s s', f s a = some s' → tr s' = tr s ++ g a) →
      ∀ s s', l.foldlM f s = some s' → tr s' = tr s ++ l.flatMap g := by
  intro l
  induction l with
  | nil =>
    intro _ s s' h
    simp only [List.foldlM_nil] at h
    cases h
    simp
  | cons a rest ih =>
    intro hstep s s' h
    rw [List.foldlM_cons] at h
    cases hf : f s a with
    | none => rw [hf] at h; cases h
    | some s1 =>
      rw [hf] at h
      have h1 := hstep a (List.mem_cons_self _ _) s s1 hf
      have h2 := ih (fun b hb => hstep b (List.mem_cons_of_mem _ hb)) s1 s' h
      rw [h2, h1, List.flatMap_cons, List.append_assoc]

theorem constr_E_add_rows {st st' : constr_E_t} {writes : List (Int × Int)}
    {root arg c : Nat} {kind : E_kind}
    (h : constr_E_add st writes (E_row.mk root arg c kind) = some st') :
    st'.rows.reverse.map E_row_key = st.rows.reverse.map E_row_key ++ [(root, arg, c, kind)] := by
  obtain ⟨_, _, ⟨i, hi⟩, _⟩ := constr_E_add_step h
  rw [hi]
  simp [E_row_key]

theorem constr_E_common_rows {root arg : Nat} {y_idx : Int} {st st' : constr_E_t} {c : Nat}
    (h : constr_E_common root arg y_idx st c = some st') :
    st'.rows.reverse.map E_row_key = st.rows.reverse.map E_row_key ++
      [(root, arg, c, E_kind.root_arg), (root, arg, c, E_kind.arg_root)] := by
  unfold constr_E_common at h
  cases h1 : constr_E_add st
      [(lpp_get_var_idx st.lp (mangle_var 'x' root c), 1),
       (lpp_get_var_idx st.lp (mangle_var 'x' arg c), -1), (y_idx, -1)]
      (E_row.mk root arg c E_kind.root_arg) with
  | none => rw [h1] at h; cases h
  | some st1 =>
    rw [h1] at h
    simp only at h
    rw [constr_E_add_rows h, constr_E_add_rows h1, List.append_assoc]
    rfl

theorem constr_E_disjunct_rows {co : copy_opt_t} {root arg : Nat} {y_idx : Int}
    {st st' : constr_E_t} {c : Nat}
    (h : constr_E_disjunct co root arg y_idx st c = some st') :
    st'.rows.reverse.map E_row_key = st.rows.reverse.map E_row_key ++
      [(root, arg, c, if co.allocatable root c then E_kind.root_only else E_kind.arg_only)] := by
  unfold constr_E_disjunct at h
  by_cases hr : co.allocatable root c = true
  · rw [if_pos hr] at h
    rw [constr_E_add_rows h, if_pos hr]
  · rw [if_neg hr] at h
    by_cases ha : co.allocatable arg c = true
    · rw [if_pos ha] at h
      rw [constr_E_add_rows h, if_neg hr]
    · rw [if_neg ha] at h
      cases h

theorem constr_E_arg_rows {co : copy_opt_t} {root : Nat} {st st' : constr_E_t}
    {arg : Nat × Int} (h : constr_E_arg co root st arg = some st') :
    st'.rows.reverse.map E_row_key =
      st.rows.reverse.map E_row_key ++ E_rows_by_spec co root arg.1 := by
  unfold constr_E_arg at h
  simp only at h
  cases h1 : (common_regs co root arg.1).foldlM
      (constr_E_common root arg.1
        (lpp_add_var st.lp (mangle_var 'y' root arg.1) lpp_var_t.lpp_continous arg.2).2)
      { st with lp := (lpp_add_var st.lp (mangle_var 'y' root arg.1)
        lpp_var_t.lpp_continous arg.2).1 } with
  | none => rw [h1] at h; cases h
  | some st2 =>
    rw [h1] at h
    simp only at h
    have e1 := foldlM_trace _ (fun s : constr_E_t => s.rows.reverse.map E_row_key)
      (fun c => [(root, arg.1, c, E_kind.root_arg), (root, arg.1, c, E_kind.arg_root)])
      (common_regs co root arg.1) (fun c _ s s' hs => constr_E_common_rows hs) _ _ h1
    have e2 := foldlM_trace _ (fun s : constr_E_t => s.rows.reverse.map E_row_key)
      (fun c => [(root, arg.1, c,
        if co.allocatable root c then E_kind.root_only else E_kind.arg_only)])
      (disjunct_regs co root arg.1) (fun c _ s s' hs => constr_E_disjunct_rows hs) _ _ h
    simp only at e1 e2
    rw [e2, e1, List.append_assoc]
    unfold E_rows_by_spec
    congr 2
    induction disjunct_regs co root arg.1 with
    | nil => rfl
    | cons c rest ih => simp [List.flatMap_cons, ih]

/-- The rows that `pi_add_constr_E` records are, in the order in which they are
added, the rows of the specification for the roots with their arguments. -/
theorem constr_E_units_rows {co : copy_opt_t} {lp0 : lpp_t} {st : constr_E_t}
    (h : constr_E_units co lp0 = some st) :
    st.rows.reverse.map E_row_key =
      (unit_pairs co).flatMap (fun p => E_rows_by_spec co p.1 p.2.1) := by
  rw [constr_E_units_eq_pairs] at h
  have := foldlM_trace (fun s (p : Nat × (Nat × Int)) => constr_E_arg co p.1 s p.2)
    (fun s : constr_E_t => s.rows.reverse.map E_row_key)
    (fun p => E_rows_by_spec co p.1 p.2.1) (unit_pairs co)
    (fun p _ s s' hs => constr_E_arg_rows hs) _ _ h
  simpa using this

theorem E_rows_by_spec_length (co : copy_opt_t) (root arg : Nat) :
    (E_rows_by_spec co root arg).length =
      2 * (common_regs co root arg).length + (disjunct_regs co root arg).length := by
  unfold E_rows_by_spec
  rw [List.length_append, List.length_map]
  congr 1
  induction common_regs co root arg with
  | nil => rfl
  | cons c rest ih =>
    rw [List.flatMap_cons, List.length_append, ih]
    simp only [List.length_cons, List.length_nil]
    omega

theorem common_regs_nodup (co : copy_opt_t) (root arg : Nat) :
    (common_regs co root arg).Nodup := by
  unfold common_regs
  exact (allocatable_regs_nodup co root).filter _

theorem disjunct_regs_nodup (co : copy_opt_t) (root arg : Nat) :
    (disjunct_regs co root arg).Nodup := by
  unfold disjunct_regs
  exact (List.nodup_range _).filter _

/-- A loop in which every step from a state with the property `P` ends in such
a state runs to its end. -/
theorem foldlM_total {σ α : Type} (f : σ → α → Option σ) (P : σ → Prop) :
    ∀ (l : List α), (∀ a ∈ l, ∀ s, P s → ∃ s', f s a = some s' ∧ P s') →
      ∀ s, P s → ∃ s', l.foldlM f s = some s' ∧ P s'
  | [], _, s, hs => ⟨s, rfl, hs⟩
  | a :: rest, hstep, s, hs => by
    obtain ⟨s1, h1, hP1⟩ := hstep a (List.mem_cons_self _ _) s hs
    obtain ⟨s2, h2, hP2⟩ := foldlM_total f P rest
      (fun b hb => hstep b (List.mem_cons_of_mem _ hb)) s1 hP1
    refine ⟨s2, ?_, hP2⟩
    simp only [List.foldlM_cons, h1]
    exact h2

/-- A run of factor writes in a row that exists, in columns that exist, runs to
its end. -/
theorem lpp_set_factors_some (r : Int) (hr : 0 ≤ r) :
    ∀ (writes : List (Int × Int)) (lp : lpp_t), r ≤ (lp.csts.length : Int) →
      (∀ w ∈ writes, 0 ≤ w.1 ∧ w.1 ≤ (lp.vars.length : Int)) →
      ∃ lp', lpp_set_factors r writes lp = some lp'
  | [], lp, _, _ => ⟨lp, rfl⟩
  | w :: rest, lp, hle, hw => by
    have hset : lpp_set_factor_fast lp r w.1 w.2 =
        some { lp with matrix := (r, w.1, w.2) :: lp.matrix } := by
      unfold lpp_set_factor_fast
      rw [if_pos]
      exact ⟨hr, hle, hw w (List.mem_cons_self _ _)⟩
    simp only [lpp_set_factors, hset]
    exact lpp_set_factors_some r hr rest _ hle (fun w' hw' => hw w' (List.mem_cons_of_mem _ hw'))

/-- One block of `pi_add_constr_E` that adds a row runs to its end when the
columns it writes in exist. -/
theorem constr_E_add_some (st : constr_E_t) (writes : List (Int × Int)) (row : Int → E_row)
    (hw : ∀ w ∈ writes, 0 ≤ w.1 ∧ w.1 ≤ (st.lp.vars.length : Int)) :
    ∃ st', constr_E_add st writes row = some st' ∧ st'.lp.vars = st.lp.vars := by
  obtain ⟨k, hk, hget, hv1, _, _⟩ := lpp_add_cst_spec st.lp (mangle_cst 'E' st.cst_counter)
    lpp_cst_t.lpp_less 0
  have hklt : k < (lpp_add_cst st.lp (mangle_cst 'E' st.cst_counter)
      lpp_cst_t.lpp_less 0).1.csts.length := by
    have := (List.get?_eq_some.1 hget).1
    simpa [cst_names] using this
  obtain ⟨lp2, hset⟩ := lpp_set_factors_some
    (lpp_add_cst st.lp (mangle_cst 'E' st.cst_counter) lpp_cst_t.lpp_less 0).2
    (by rw [hk]; omega) writes
    (lpp_add_cst st.lp (mangle_cst 'E' st.cst_counter) lpp_cst_t.lpp_less 0).1
    (by rw [hk]; omega) (by rw [hv1]; exact hw)
  refine ⟨constr_E_t.mk lp2 (st.cst_counter + 1)
    (row (lpp_add_cst st.lp (mangle_cst 'E' st.cst_counter) lpp_cst_t.lpp_less 0).2 :: st.rows),
    ?_, ?_⟩
  · unfold constr_E_add
    simp only [hset]
  · show lp2.vars = _
    rw [(lpp_set_factors_matrix _ _ _ _ hset).1, hv1]

theorem lpp_get_var_idx_bounds {lp : lpp_t} {name : List Char} (h : name ∈ var_names lp) :
    0 ≤ lpp_get_var_idx lp name ∧ lpp_get_var_idx lp name ≤ (lp.vars.length : Int) := by
  obtain ⟨k, hk, hidx, _⟩ := lpp_get_var_idx_of_mem h
  rw [hidx]
  omega

theorem constr_E_common_some {rootnr argnr : Nat} {y_idx : Int} {st : constr_E_t} {color : Nat}
    (hr : mangle_var 'x' (rootnr : Int) (color : Int) ∈ var_names st.lp)
    (ha : mangle_var 'x' (argnr : Int) (color : Int) ∈ var_names st.lp)
    (hy : 0 ≤ y_idx ∧ y_idx ≤ (st.lp.vars.length : Int)) :
    ∃ st', constr_E_common rootnr argnr y_idx st color = some st' ∧
      st'.lp.vars = st.lp.vars := by
  obtain ⟨st1, h1, hv1⟩ := constr_E_add_some st
    [(lpp_get_var_idx st.lp (mangle_var 'x' rootnr color), 1),
     (lpp_get_var_idx st.lp (mangle_var 'x' argnr color), -1), (y_idx, -1)]
    (E_row.mk rootnr argnr color E_kind.root_arg) (by
      intro w hw
      simp only [List.mem_cons, List.mem_singleton, List.not_mem_nil, or_false] at hw
      rcases hw with rfl | rfl | rfl
      · exact lpp_get_var_idx_bounds hr
      · exact lpp_get_var_idx_bounds ha
      · exact hy)
  obtain ⟨st2, h2, hv2⟩ := constr_E_add_some st1
    [(lpp_get_var_idx st.lp (mangle_var 'x' rootnr color), -1),
     (lpp_get_var_idx st.lp (mangle_var 'x' argnr color), 1), (y_idx, -1)]
    (E_row.mk rootnr argnr color E_kind.arg_root) (by
      intro w hw
      rw [hv1]
      simp only [List.mem_cons, List.mem_singleton, List.not_mem_nil, or_false] at hw
      rcases hw with rfl | rfl | rfl
      · exact lpp_get_var_idx_bounds hr
      · exact lpp_get_var_idx_bounds ha
      · exact hy)
  refine ⟨st2, ?_, hv2.trans hv1⟩
  unfold constr_E_common
  simp only [h1]
  exact h2

theorem constr_E_disjunct_some {co : copy_opt_t} {rootnr argnr : Nat} {y_idx : Int}
    {st : constr_E_t} {color : Nat}
    (hne : co.allocatable rootnr color ≠ co.allocatable argnr color)
    (hr : co.allocatable rootnr color = true →
      mangle_var 'x' (rootnr : Int) (color : Int) ∈ var_names st.lp)
    (ha : co.allocatable argnr color = true →
      mangle_var 'x' (argnr : Int) (color : Int) ∈ var_names st.lp)
    (hy : 0 ≤ y_idx ∧ y_idx ≤ (st.lp.vars.length : Int)) :
    ∃ st', constr_E_disjunct co rootnr argnr y_idx st color = some st' ∧
      st'.lp.vars = st.lp.vars := by
  unfold constr_E_disjunct
  by_cases h1 : co.allocatable rootnr color = true
  · rw [if_pos h1]
    apply constr_E_add_some
    intro w hw
    simp only [List.mem_cons, List.mem_singleton, List.not_mem_nil, or_false] at hw
    rcases hw with rfl | rfl
    · exact lpp_get_var_idx_bounds (hr h1)
    · exact hy
  · rw [if_neg h1]
    have h2 : co.allocatable argnr color = true := by
      cases hA : co.allocatable argnr color
      · rw [hA] at hne
        simp only [Bool.not_eq_true] at h1
        exact absurd h1 hne
      · rfl
    rw [if_pos h2]
    apply constr_E_add_some
    intro w hw
    simp only [List.mem_cons, List.mem_singleton, List.not_mem_nil, or_false] at hw
    rcases hw with rfl | rfl
    · exact lpp_get_var_idx_bounds (ha h2)
    · exact hy

/-- The body of the loop of `pi_add_constr_E` over the arguments runs to its end
when the root and the argument have their columns for the colors they can
have. -/
theorem constr_E_arg_some {co : copy_opt_t} {rootnr : Nat} {st : constr_E_t} {arg : Nat × Int}
    (hr : ∀ c, c < co.chordal_env.n_regs → co.allocatable rootnr c = true →
      mangle_var 'x' (rootnr : Int) (c : Int) ∈ var_names st.lp)
    (ha : ∀ c, c < co.chordal_env.n_regs → co.allocatable arg.1 c = true →
      mangle_var 'x' (arg.1 : Int) (c : Int) ∈ var_names st.lp) :
    ∃ st', constr_E_arg co rootnr st arg = some st' ∧ st.lp.vars <+: st'.lp.vars := by
  obtain ⟨k, hk, hget, _, _, hcase⟩ := lpp_add_var_spec st.lp
    (mangle_var 'y' (rootnr : Int) (arg.1 : Int)) lpp_var_t.lpp_continous arg.2
  have hpre : st.lp.vars <+: (lpp_add_var st.lp (mangle_var 'y' (rootnr : Int) (arg.1 : Int))
      lpp_var_t.lpp_continous arg.2).1.vars := by
    rcases hcase with ⟨_, _, h⟩ | ⟨_, _, h⟩
    · rw [h]; exact List.prefix_append _ _
    · rw [h]
  have hklt : k < (lpp_add_var st.lp (mangle_var 'y' (rootnr : Int) (arg.1 : Int))
      lpp_var_t.lpp_continous arg.2).1.vars.length := by
    have := (List.get?_eq_some.1 hget).1
    simpa [var_names] using this
  have hy : 0 ≤ (lpp_add_var st.lp (mangle_var 'y' (rootnr : Int) (arg.1 : Int))
        lpp_var_t.lpp_continous arg.2).2 ∧
      (lpp_add_var st.lp (mangle_var 'y' (rootnr : Int) (arg.1 : Int))
        lpp_var_t.lpp_continous arg.2).2 ≤
        ((lpp_add_var st.lp (mangle_var 'y' (rootnr : Int) (arg.1 : Int))
          lpp_var_t.lpp_continous arg.2).1.vars.length : Int) := by
    rw [hk]
    omega
  obtain ⟨st2, h2, hv2⟩ := foldlM_total
    (constr_E_common rootnr arg.1 (lpp_add_var st.lp (mangle_var 'y' (rootnr : Int) (arg.1 : Int))
      lpp_var_t.lpp_continous arg.2).2)
    (fun s => s.lp.vars = (lpp_add_var st.lp (mangle_var 'y' (rootnr : Int) (arg.1 : Int))
      lpp_var_t.lpp_continous arg.2).1.vars)
    (common_regs co rootnr arg.1)
    (fun c hc s hs => by
      obtain ⟨hc1, hc2, hc3⟩ := (common_regs_spec co rootnr arg.1 c).1 hc
      have hs' : (lpp_add_var st.lp (mangle_var 'y' (rootnr : Int) (arg.1 : Int))
          lpp_var_t.lpp_continous arg.2).1.vars <+: s.lp.vars := by rw [hs]
      obtain ⟨s', h', hv'⟩ := @constr_E_common_some rootnr arg.1 _ s c
        (var_names_of_initial (hpre.trans hs') (hr c hc1 hc2))
        (var_names_of_initial (hpre.trans hs') (ha c hc1 hc3)) (by rw [hs]; exact hy)
      exact ⟨s', h', hv'.trans hs⟩)
    { st with lp := (lpp_add_var st.lp (mangle_var 'y' (rootnr : Int) (arg.1 : Int))
      lpp_var_t.lpp_continous arg.2).1 } rfl
  obtain ⟨st3, h3, hv3⟩ := foldlM_total
    (constr_E_disjunct co rootnr arg.1 (lpp_add_var st.lp
      (mangle_var 'y' (rootnr : Int) (arg.1 : Int)) lpp_var_t.lpp_continous arg.2).2)
    (fun s => s.lp.vars = (lpp_add_var st.lp (mangle_var 'y' (rootnr : Int) (arg.1 : Int))
      lpp_var_t.lpp_continous arg.2).1.vars)
    (disjunct_regs co rootnr arg.1)
    (fun c hc s hs => by
      obtain ⟨hc1, hc2⟩ := (disjunct_regs_spec co rootnr arg.1 c).1 hc
      have hs' : (lpp_add_var st.lp (mangle_var 'y' (rootnr : Int) (arg.1 : Int))
          lpp_var_t.lpp_continous arg.2).1.vars <+: s.lp.vars := by rw [hs]
      obtain ⟨s', h', hv'⟩ := @constr_E_disjunct_some co rootnr arg.1 _ s c hc2
        (fun h => var_names_of_initial (hpre.trans hs') (hr c hc1 h))
        (fun h => var_names_of_initial (hpre.trans hs') (ha c hc1 h)) (by rw [hs]; exact hy)
      exact ⟨s', h', hv'.trans hs⟩)
    st2 hv2
  refine ⟨st3, ?_, by rw [hv3]; exact hpre⟩
  unfold constr_E_arg
  simp only [h2]
  exact h3

/-- The function `pi_add_constr_E` runs to its end when every root and every
argument of a unit has its column `x` for every color it can have. -/
theorem constr_E_units_returns (co : copy_opt_t) (lp0 : lpp_t)
    (hx : ∀ u ∈ co.units, ∀ c, c < co.chordal_env.n_regs →
      (co.allocatable u.root c = true →
        mangle_var 'x' (u.root : Int) (c : Int) ∈ var_names lp0) ∧
      ∀ a ∈ u.args, co.allocatable a.1 c = true →
        mangle_var 'x' (a.1 : Int) (c : Int) ∈ var_names lp0) :
    ∃ st, constr_E_units co lp0 = some st := by
  obtain ⟨st, h, _⟩ := foldlM_total (constr_E_unit co) (fun s => lp0.vars <+: s.lp.vars) co.units
    (fun u hu s hs => by
      unfold constr_E_unit
      exact foldlM_total (constr_E_arg co u.root) (fun s => lp0.vars <+: s.lp.vars) u.args
        (fun a ha s' hs' => by
          obtain ⟨s2, h2, hv2⟩ := @constr_E_arg_some co u.root s' a
            (fun c hc hal => var_names_of_initial hs' ((hx u hu c hc).1 hal))
            (fun c hc hal => var_names_of_initial hs' ((hx u hu c hc).2 a ha hal))
          exact ⟨s2, h2, hs'.trans hv2⟩)
        s hs)
    { lp := lp0 } (List.prefix_refl _)
  exact ⟨st, h⟩

/-- C34. The structure of the constraints E. Let `pi_add_constr_E` return for a
well-formed problem without columns named `y...` and rows named `E<k>`, with
the numbers in the range of `int`, no root among its own arguments and no root
with the same argument twice. Then
* the columns added are one for each root and argument, in their order, named
  `y<root>_<arg>`, continuous, with `costs[i]` in the objective function;
* the rows recorded are, in the order in which they were added, for each root
  and argument the rows of the specification: for each color both can have the
  rows of the places "root-arg-y" and "arg-root-y", then for each color exactly
  one of them can have the row of the place "root-y" when it is the root, and
  "arg-y" when it is the argument;
* that is `2 * |R ∩ A| + |R xor A|` rows for a root and an argument, the
  lists of the common and of the disjunct colors having no color twice;
* the rows added are named `E0`, `E1`, ..., all of the kind "at most" with the
  right-hand side 0, and they are the rows recorded, in this order;
* the value of each row, under any assignment, is the left-hand side named at
  its place: `x_root - x_arg - y`, `x_arg - x_root - y`, `x_root - y`,
  `x_arg - y`;
* the function does return when every root and every argument of a unit has
  its column `x` for each color it can have (the only way for it not to is a
  factor set in a column that does not exist). -/
theorem constr_E_structure (co : copy_opt_t) (lp0 : lpp_t) (st : constr_E_t)
    (hwf0 : lp_wf lp0)
    (hx0 : ∀ nm ∈ var_names lp0, nm.head? ≠ some 'y')
    (hfresh0 : ∀ k : Int, 0 ≤ k → k < 2 ^ 31 → mangle_cst 'E' k ∉ cst_names lp0)
    (hregs : co.chordal_env.n_regs ≤ 2 ^ 31)
    (hunits : ∀ u ∈ co.units, u.root < 2 ^ 31 ∧ ∀ a ∈ u.args, a.1 < 2 ^ 31 ∧ a.1 ≠ u.root)
    (hkeys : ((unit_pairs co).map (fun p => (p.1, p.2.1))).Nodup)
    (hcnt : st.cst_counter ≤ 2 ^ 31)
    (h : constr_E_units co lp0 = some st) :
    st.lp.vars = lp0.vars ++ (unit_pairs co).map y_var ∧
    st.rows.reverse.map E_row_key =
      (unit_pairs co).flatMap (fun p => E_rows_by_spec co p.1 p.2.1) ∧
    (∀ root arg : Nat,
      (E_rows_by_spec co root arg).length =
        2 * (common_regs co root arg).length + (disjunct_regs co root arg).length ∧
      (common_regs co root arg).Nodup ∧ (disjunct_regs co root arg).Nodup ∧
      (∀ c, c ∈ common_regs co root arg ↔
        c < co.chordal_env.n_regs ∧ co.allocatable root c = true ∧
          co.allocatable arg c = true) ∧
      ∀ c, c ∈ disjunct_regs co root arg ↔
        c < co.chordal_env.n_regs ∧ co.allocatable root c ≠ co.allocatable arg c) ∧
    st.lp.csts = lp0.csts ++ (List.range st.rows.length).map
      (fun i : Nat => lpp_cst.mk (mangle_cst 'E' (i : Int)) lpp_cst_t.lpp_less 0) ∧
    st.rows.reverse.map (fun e => e.cst_idx) =
      (List.range st.rows.length).map (fun i : Nat => (lp0.csts.length : Int) + (i : Int) + 1) ∧
    (∀ e ∈ st.rows, ∀ value : Nat → Rat,
      lpp_row_value st.lp value e.cst_idx = E_row_value st.lp value e) ∧
    ((∀ u ∈ co.units, ∀ c, c < co.chordal_env.n_regs →
        (co.allocatable u.root c = true →
          mangle_var 'x' (u.root : Int) (c : Int) ∈ var_names lp0) ∧
        ∀ a ∈ u.args, co.allocatable a.1 c = true →
          mangle_var 'x' (a.1 : Int) (c : Int) ∈ var_names lp0) →
      ∃ st', constr_E_units co lp0 = some st') := by
  have hprange : ∀ p ∈ unit_pairs co, p.1 < 2 ^ 31 ∧ p.2.1 < 2 ^ 31 := by
    intro p hp
    obtain ⟨u, hu, a, ha, rfl⟩ := mem_unit_pairs.1 hp
    exact ⟨(hunits u hu).1, ((hunits u hu).2 a ha).1⟩
  obtain ⟨hinv, _⟩ := E_inv_units hwf0 hfresh0 hregs hunits hcnt h
  obtain ⟨hvars, _⟩ := E_vars_pairs hx0 hprange hkeys h
  exact ⟨hvars, constr_E_units_rows h,
    fun root arg => ⟨E_rows_by_spec_length co root arg, common_regs_nodup co root arg,
      disjunct_regs_nodup co root arg, common_regs_spec co root arg,
      disjunct_regs_spec co root arg⟩,
    hinv.csts, hinv.idxs, fun e he value => (hinv.rows e he).value value,
    constr_E_units_returns co lp0⟩

set_option maxRecDepth 100000 in
/-- Witness of C34 on `unit_co`: the root 0 and the argument 1 have the colors
0 and 1 in common, the root 0 and the argument 2 have the color 1 in common
while only the root can have the color 0; seven rows. -/
theorem constr_E_structure_witness :
    (lp_wf unit_lp_AB ∧
      (∀ nm ∈ var_names unit_lp_AB, nm.head? ≠ some 'y') ∧
      (∀ k : Int, 0 ≤ k → k < 2 ^ 31 → mangle_cst 'E' k ∉ cst_names unit_lp_AB) ∧
      unit_co.chordal_env.n_regs ≤ 2 ^ 31 ∧
      (∀ u ∈ unit_co.units, u.root < 2 ^ 31 ∧ ∀ a ∈ u.args, a.1 < 2 ^ 31 ∧ a.1 ≠ u.root) ∧
      ((unit_pairs unit_co).map (fun p => (p.1, p.2.1))).Nodup ∧
      unit_st_E.cst_counter ≤ 2 ^ 31 ∧
      constr_E_units unit_co unit_lp_AB = some unit_st_E ∧
      unit_st_E.rows.reverse.map E_row_key =
        [(0, 1, 0, E_kind.root_arg), (0, 1, 0, E_kind.arg_root),
          (0, 1, 1, E_kind.root_arg), (0, 1, 1, E_kind.arg_root),
          (0, 2, 1, E_kind.root_arg), (0, 2, 1, E_kind.arg_root),
          (0, 2, 0, E_kind.root_only)]) ∧
    (unit_st_E.lp.vars = unit_lp_AB.vars ++ (unit_pairs unit_co).map y_var ∧
    unit_st_E.rows.reverse.map E_row_key =
      (unit_pairs unit_co).flatMap (fun p => E_rows_by_spec unit_co p.1 p.2.1) ∧
    (∀ root arg : Nat,
      (E_rows_by_spec unit_co root arg).length =
        2 * (common_regs unit_co root arg).length + (disjunct_regs unit_co root arg).length ∧
      (common_regs unit_co root arg).Nodup ∧ (disjunct_regs unit_co root arg).Nodup ∧
      (∀ c, c ∈ common_regs unit_co root arg ↔
        c < unit_co.chordal_env.n_regs ∧ unit_co.allocatable root c = true ∧
          unit_co.allocatable arg c = true) ∧
      ∀ c, c ∈ disjunct_regs unit_co root arg ↔
        c < unit_co.chordal_env.n_regs ∧
          unit_co.allocatable root c ≠ unit_co.allocatable arg c) ∧
    unit_st_E.lp.csts = unit_lp_AB.csts ++ (List.range unit_st_E.rows.length).map
      (fun i : Nat => lpp_cst.mk (mangle_cst 'E' (i : Int)) lpp_cst_t.lpp_less 0) ∧
    unit_st_E.rows.reverse.map (fun e => e.cst_idx) =
      (List.range unit_st_E.rows.length).map
        (fun i : Nat => (unit_lp_AB.csts.length : Int) + (i : Int) + 1) ∧
    (∀ e ∈ unit_st_E.rows, ∀ value : Nat → Rat,
      lpp_row_value unit_st_E.lp value e.cst_idx = E_row_value unit_st_E.lp value e) ∧
    ((∀ u ∈ unit_co.units, ∀ c, c < unit_co.chordal_env.n_regs →
        (unit_co.allocatable u.root c = true →
          mangle_var 'x' (u.root : Int) (c : Int) ∈ var_names unit_lp_AB) ∧
        ∀ a ∈ u.args, unit_co.allocatable a.1 c = true →
          mangle_var 'x' (a.1 : Int) (c : Int) ∈ var_names unit_lp_AB) →
      ∃ st', constr_E_units unit_co unit_lp_AB = some st')) :=
  ⟨⟨by decide, by decide, fun k _ _ => fresh_of_heads (by decide) k, by decide, by decide,
      by decide, by decide, unit_st_E_eq, by decide⟩,
    constr_E_structure unit_co unit_lp_AB unit_st_E (by decide) (by decide)
      (fun k _ _ => fresh_of_heads (by decide) k) (by decide) (by decide) (by decide)
      (by decide) unit_st_E_eq⟩

/-! ## One Phi with two arguments that interfere -/

theorem lpp_row_value_factors (lp : lpp_t) (value : Nat → Rat) (r : Int) :
    lpp_row_value lp value r = factors_value value 0 (row_factors lp r) := by
  unfold lpp_row_value row_factors
  rw [List.range_eq_range']
  generalize lp.vars.length = n
  generalize (0 : Nat) = k0
  induction n generalizing k0 with
  | zero => rfl
  | succ n ih =>
    rw [List.range'_succ]
    simp only [List.map_cons, List.sum_cons, factors_value]
    rw [ih]

set_option maxRecDepth 100000 in
theorem phi2_pi_eq : new_pi phi2_co = some phi2_pi := by
  rfl

set_option maxRecDepth 100000 in
/-- The rows of the problem of `phi2_co`, written out: the rows `A1`, `A2`,
`A0`, the rows `B0`, `B1`, and the rows `E0` to `E7`. -/
theorem phi2_rows (value : Nat → Rat) (hf : lpp_feasible_for phi2_pi.curr_lp value) :
    (value 1 + value 2 = 1) ∧
    (value 3 + value 4 = 1) ∧
    (value 5 + value 6 = 1) ∧
    (value 1 + value 3 ≤ 1) ∧
    (value 2 + value 4 ≤ 1) ∧
    (-value 1 + value 5 - value 7 ≤ 0) ∧
    (value 1 - value 5 - value 7 ≤ 0) ∧
    (-value 2 + value 6 - value 7 ≤ 0) ∧
    (value 2 - value 6 - value 7 ≤ 0) ∧
    (-value 3 + value 5 - value 8 ≤ 0) ∧
    (value 3 - value 5 - value 8 ≤ 0) ∧
    (-value 4 + value 6 - value 8 ≤ 0) ∧
    (value 4 - value 6 - value 8 ≤ 0) := by
  refine ⟨?_, ?_, ?_, ?_, ?_, ?_, ?_, ?_, ?_, ?_, ?_, ?_, ?_⟩
  · have h := hf 0 (by decide)
    unfold lpp_cst_holds at h
    rw [show phi2_pi.curr_lp.csts.get? 0 = some (lpp_cst.mk (mangle_cst 'A' 1) lpp_cst_t.lpp_equal 1)
      from by decide] at h
    simp only at h
    rw [lpp_row_value_factors, show row_factors phi2_pi.curr_lp (((0 : Nat) : Int) + 1) = [1, 1, 0, 0, 0, 0, 0, 0]
      from by decide] at h
    simp only [factors_value] at h
    norm_num at h
    linarith
  · have h := hf 1 (by decide)
    unfold lpp_cst_holds at h
    rw [show phi2_pi.curr_lp.csts.get? 1 = some (lpp_cst.mk (mangle_cst 'A' 2) lpp_cst_t.lpp_equal 1)
      from by decide] at h
    simp only at h
    rw [lpp_row_value_factors, show row_factors phi2_pi.curr_lp (((1 : Nat) : Int) + 1) = [0, 0, 1, 1, 0, 0, 0, 0]
      from by decide] at h
    simp only [factors_value] at h
    norm_num at h
    linarith
  · have h := hf 2 (by decide)
    unfold lpp_cst_holds at h
    rw [show phi2_pi.curr_lp.csts.get? 2 = some (lpp_cst.mk (mangle_cst 'A' 0) lpp_cst_t.lpp_equal 1)
      from by decide] at h
    simp only at h
    rw [lpp_row_value_factors, show row_factors phi2_pi.curr_lp (((2 : Nat) : Int) + 1) = [0, 0, 0, 0, 1, 1, 0, 0]
      from by decide] at h
    simp only [factors_value] at h
    norm_num at h
    linarith
  · have h := hf 3 (by decide)
    unfold lpp_cst_holds at h
    rw [show phi2_pi.curr_lp.csts.get? 3 = some (lpp_cst.mk (mangle_cst 'B' 0) lpp_cst_t.lpp_less 1)
      from by decide] at h
    simp only at h
    rw [lpp_row_value_factors, show row_factors phi2_pi.curr_lp (((3 : Nat) : Int) + 1) = [1, 0, 1, 0, 0, 0, 0, 0]
      from by decide] at h
    simp only [factors_value] at h
    norm_num at h
    linarith
  · have h := hf 4 (by decide)
    unfold lpp_cst_holds at h
    rw [show phi2_pi.curr_lp.csts.get? 4 = some (lpp_cst.mk (mangle_cst 'B' 1) lpp_cst_t.lpp_less 1)
      from by decide] at h
    simp only at h
    rw [lpp_row_value_factors, show row_factors phi2_pi.curr_lp (((4 : Nat) : Int) + 1) = [0, 1, 0, 1, 0, 0, 0, 0]
      from by decide] at h
    simp only [factors_value] at h
    norm_num at h
    linarith
  · have h := hf 5 (by decide)
    unfold lpp_cst_holds at h
    rw [show phi2_pi.curr_lp.csts.get? 5 = some (lpp_cst.mk (mangle_cst 'E' 0) lpp_cst_t.lpp_less 0)
      from by decide] at h
    simp only at h
    rw [lpp_row_value_factors, show row_factors phi2_pi.curr_lp (((5 : Nat) : Int) + 1) = [-1, 0, 0, 0, 1, 0, -1, 0]
      from by decide] at h
    simp only [factors_value] at h
    norm_num at h
    linarith
  · have h := hf 6 (by decide)
    unfold lpp_cst_holds at h
    rw [show phi2_pi.curr_lp.csts.get? 6 = some (lpp_cst.mk (mangle_cst 'E' 1) lpp_cst_t.lpp_less 0)
      from by decide] at h
    simp only at h
    rw [lpp_row_value_factors, show row_factors phi2_pi.curr_lp (((6 : Nat) : Int) + 1) = [1, 0, 0, 0, -1, 0, -1, 0]
      from by decide] at h
    simp only [factors_value] at h
    norm_num at h
    linarith
  · have h := hf 7 (by decide)
    unfold lpp_cst_holds at h
    rw [show phi2_pi.curr_lp.csts.get? 7 = some (lpp_cst.mk (mangle_cst 'E' 2) lpp_cst_t.lpp_less 0)
      from by decide] at h
    simp only at h
    rw [lpp_row_value_factors, show row_factors phi2_pi.curr_lp (((7 : Nat) : Int) + 1) = [0, -1, 0, 0, 0, 1, -1, 0]
      from by decide] at h
    simp only [factors_value] at h
    norm_num at h
    linarith
  · have h := hf 8 (by decide)
    unfold lpp_cst_holds at h
    rw [show phi2_pi.curr_lp.csts.get? 8 = some (lpp_cst.mk (mangle_cst 'E' 3) lpp_cst_t.lpp_less 0)
      from by decide] at h
    simp only at h
    rw [lpp_row_value_factors, show row_factors phi2_pi.curr_lp (((8 : Nat) : Int) + 1) = [0, 1, 0, 0, 0, -1, -1, 0]
      from by decide] at h
    simp only [factors_value] at h
    norm_num at h
    linarith
  · have h := hf 9 (by decide)
    unfold lpp_cst_holds at h
    rw [show phi2_pi.curr_lp.csts.get? 9 = some (lpp_cst.mk (mangle_cst 'E' 4) lpp_cst_t.lpp_less 0)
      from by decide] at h
    simp only at h
    rw [lpp_row_value_factors, show row_factors phi2_pi.curr_lp (((9 : Nat) : Int) + 1) = [0, 0, -1, 0, 1, 0, 0, -1]
      from by decide] at h
    simp only [factors_value] at h
    norm_num at h
    linarith
  · have h := hf 10 (by decide)
    unfold lpp_cst_holds at h
    rw [show phi2_pi.curr_lp.csts.get? 10 = some (lpp_cst.mk (mangle_cst 'E' 5) lpp_cst_t.lpp_less 0)
      from by decide] at h
    simp only at h
    rw [lpp_row_value_factors, show row_factors phi2_pi.curr_lp (((10 : Nat) : Int) + 1) = [0, 0, 1, 0, -1, 0, 0, -1]
      from by decide] at h
    simp only [factors_value] at h
    norm_num at h
    linarith
  · have h := hf 11 (by decide)
    unfold lpp_cst_holds at h
    rw [show phi2_pi.curr_lp.csts.get? 11 = some (lpp_cst.mk (mangle_cst 'E' 6) lpp_cst_t.lpp_less 0)
      from by decide] at h
    simp only at h
    rw [lpp_row_value_factors, show row_factors phi2_pi.curr_lp (((11 : Nat) : Int) + 1) = [0, 0, 0, -1, 0, 1, 0, -1]
      from by decide] at h
    simp only [factors_value] at h
    norm_num at h
    linarith
  · have h := hf 12 (by decide)
    unfold lpp_cst_holds at h
    rw [show phi2_pi.curr_lp.csts.get? 12 = some (lpp_cst.mk (mangle_cst 'E' 7) lpp_cst_t.lpp_less 0)
      from by decide] at h
    simp only at h
    rw [lpp_row_value_factors, show row_factors phi2_pi.curr_lp (((12 : Nat) : Int) + 1) = [0, 0, 0, 1, 0, -1, 0, -1]
      from by decide] at h
    simp only [factors_value] at h
    norm_num at h
    linarith

theorem objective_from_factors (value : Nat → Rat) :
    ∀ (vars : List lpp_var) (k : Nat),
      objective_from value k vars = factors_value value k (vars.map (fun v => v.obj)) := by
  intro vars
  induction vars with
  | nil => intro k; rfl
  | cons v rest ih =>
    intro k
    simp only [objective_from, List.map_cons, factors_value, ih]

set_option maxRecDepth 100000 in
theorem phi2_objective (value : Nat → Rat) :
    lpp_objective phi2_pi.curr_lp value = 10 * value 7 + 3 * value 8 := by
  have hv : phi2_pi.curr_lp.vars.map (fun v => v.obj) = [0, 0, 0, 0, 0, 0, 10, 3] := by decide
  unfold lpp_objective
  rw [objective_from_factors, hv]
  simp only [factors_value]
  norm_num

set_option maxRecDepth 100000 in
/-- The third scenario with two colors, by evaluation. For one Phi 0 with the arguments 1
(cost 10) and 2 (cost 3), all three with the colors 0 and 1, the arguments
interfering with each other and not with the Phi, `new_pi` builds the problem
with the columns `x1_0`, `x1_1`, `x2_0`, `x2_1`, `x0_0`, `x0_1`, `y0_1`, `y0_2`
(numbers 1 to 8), the rows `A1`, `A2`, `A0`, `B0`, `B1` and `E0` to `E7`, and
the objective function `10 y0_1 + 3 y0_2`.
* Under every assignment with the values 0 or 1 in the x columns that satisfies
  all rows the objective function is at least 3; it is at least 10 when the
  Phi has the color of the argument 2; and when it is below 10 the Phi has the
  color of the argument 1.
* The value 3 is attained: the assignment that gives the Phi and the argument
  1 the color 0 and the argument 2 the color 1, with `y0_1 = 0` and
  `y0_2 = 1`, satisfies all rows.
* The assignment that gives the Phi the color of the argument 2, with
  `y0_1 = 1` and `y0_2 = 0`, satisfies all rows and has the value 10. -/
theorem phi2_two_colors_optimum :
    (new_pi phi2_co = some phi2_pi ∧
      var_names phi2_pi.curr_lp =
        [['x', '1', '_', '0'], ['x', '1', '_', '1'], ['x', '2', '_', '0'],
          ['x', '2', '_', '1'], ['x', '0', '_', '0'], ['x', '0', '_', '1'],
          ['y', '0', '_', '1'], ['y', '0', '_', '2']] ∧
      cst_names phi2_pi.curr_lp =
        [['A', '1'], ['A', '2'], ['A', '0'], ['B', '0'], ['B', '1'], ['E', '0'], ['E', '1'],
          ['E', '2'], ['E', '3'], ['E', '4'], ['E', '5'], ['E', '6'], ['E', '7']] ∧
      phi2_pi.last_x_var = 6) ∧
    (∀ value : Nat → Rat, x_binary phi2_pi value → lpp_feasible_for phi2_pi.curr_lp value →
      3 ≤ lpp_objective phi2_pi.curr_lp value ∧
      (value 5 = value 3 ∧ value 6 = value 4 → 10 ≤ lpp_objective phi2_pi.curr_lp value) ∧
      (lpp_objective phi2_pi.curr_lp value < 10 → value 5 = value 1 ∧ value 6 = value 2)) ∧
    (x_binary phi2_pi (fun k => (phi2_value_int k : Rat)) ∧
      lpp_feasible_for phi2_pi.curr_lp (fun k => (phi2_value_int k : Rat)) ∧
      lpp_objective phi2_pi.curr_lp (fun k => (phi2_value_int k : Rat)) = 3 ∧
      (List.range 8).map (fun k => phi2_value_int (k + 1)) = [1, 0, 0, 1, 1, 0, 0, 1]) ∧
    (x_binary phi2_pi (fun k => (phi2_other_int k : Rat)) ∧
      lpp_feasible_for phi2_pi.curr_lp (fun k => (phi2_other_int k : Rat)) ∧
      lpp_objective phi2_pi.curr_lp (fun k => (phi2_other_int k : Rat)) = 10 ∧
      (List.range 8).map (fun k => phi2_other_int (k + 1)) = [1, 0, 0, 1, 0, 1, 1, 0]) := by
  refine ⟨⟨phi2_pi_eq, by decide, by decide, by decide⟩, ?_, ?_, ?_⟩
  · intro value hb hf
    obtain ⟨a1, a2, a0, b0, b1, e0, e1, e2, e3, e4, e5, e6, e7⟩ := phi2_rows value hf
    have hl : phi2_pi.last_x_var = 6 := by decide
    have hb1 := hb 1 (by decide) (by rw [hl]; decide)
    have hb5 := hb 5 (by decide) (by rw [hl]; decide)
    rw [phi2_objective]
    rcases hb1 with hb1 | hb1 <;> rcases hb5 with hb5 | hb5 <;>
      exact ⟨by linarith, fun h => by linarith [h.1, h.2],
        fun h => ⟨by linarith, by linarith⟩⟩
  · refine ⟨?_, lpp_feasible_of_int (by decide), ?_, by decide⟩
    · intro k _ _
      simp only [phi2_value_int]
      split_ifs <;> simp
    · rw [phi2_objective]
      simp [phi2_value_int]
  · refine ⟨?_, lpp_feasible_of_int (by decide), ?_, by decide⟩
    · intro k _ _
      simp only [phi2_other_int]
      split_ifs <;> simp
    · rw [phi2_objective]
      simp [phi2_other_int]

/-! ## The costs and the optimum: what does not depend on the units -/

/-- With fewer than two Phis in every block `pi_add_constr_M` leaves the
problem as it is. -/
theorem pi_add_constr_M_few_phis (co : copy_opt_t) (pi : problem_instance_t)
    (hphis : ∀ phis ∈ co.phi_blocks, phis.length < 2) : pi_add_constr_M co pi = some pi := by
  unfold pi_add_constr_M
  have : ∀ (l : List (List (Nat × List Nat))) (lp : lpp_t), (∀ phis ∈ l, phis.length < 2) →
      l.foldlM (M_constr_walker co) lp = some lp := by
    intro l
    induction l with
    | nil => intro lp _; rfl
    | cons phis rest ih =>
      intro lp h
      rw [List.foldlM_cons, M_constr_walker_few_phis co lp phis (h phis (List.mem_cons_self _ _))]
      exact ih lp (fun p hp => h p (List.mem_cons_of_mem _ hp))
  rw [this _ _ hphis]
  rfl

theorem topped_up_zero (n0 : Nat) (v w : Nat → Rat) : topped_up n0 0 v w = v := by
  funext k
  unfold topped_up
  split_ifs <;> simp

theorem lpp_get_var_idx_names {lp lp' : lpp_t} (h : var_names lp' = var_names lp)
    (name : List Char) : lpp_get_var_idx lp' name = lpp_get_var_idx lp name := by
  unfold lpp_get_var_idx
  unfold var_names at h
  rw [h]

/-- The counter of `pi_add_constr_E` counts the rows recorded. -/
theorem constr_E_units_counter {co : copy_opt_t} {lp0 : lpp_t} {st : constr_E_t}
    (h : constr_E_units co lp0 = some st) : st.cst_counter = (st.rows.length : Int) := by
  have hadd : ∀ (s s' : constr_E_t) (writes : List (Int × Int)) (row : Int → E_row),
      constr_E_add s writes row = some s' →
      s'.cst_counter - (s'.rows.length : Int) = s.cst_counter - (s.rows.length : Int) := by
    intro s s' writes row hs
    obtain ⟨h1, _, ⟨i, h2⟩, _⟩ := constr_E_add_step hs
    rw [h1, h2, List.length_cons]
    push_cast
    ring
  have hcommon : ∀ (root arg : Nat) (y : Int) (c : Nat) (s s' : constr_E_t),
      constr_E_common root arg y s c = some s' →
      s'.cst_counter - (s'.rows.length : Int) = s.cst_counter - (s.rows.length : Int) := by
    intro root arg y c s s' hs
    unfold constr_E_common at hs
    cases h1 : constr_E_add s
        [(lpp_get_var_idx s.lp (mangle_var 'x' root c), 1),
         (lpp_get_var_idx s.lp (mangle_var 'x' arg c), -1), (y, -1)]
        (E_row.mk root arg c E_kind.root_arg) with
    | none => rw [h1] at hs; cases hs
    | some s1 =>
      rw [h1] at hs
      simp only at hs
      rw [hadd _ _ _ _ hs, hadd _ _ _ _ h1]
  have hdisj : ∀ (root arg : Nat) (y : Int) (c : Nat) (s s' : constr_E_t),
      constr_E_disjunct co root arg y s c = some s' →
      s'.cst_counter - (s'.rows.length : Int) = s.cst_counter - (s.rows.length : Int) := by
    intro root arg y c s s' hs
    unfold constr_E_disjunct at hs
    split_ifs at hs
    · exact hadd _ _ _ _ hs
    · exact hadd _ _ _ _ hs
  have harg : ∀ (p : Nat × (Nat × Int)) (s s' : constr_E_t),
      constr_E_arg co p.1 s p.2 = some s' →
      s'.cst_counter - (s'.rows.length : Int) = s.cst_counter - (s.rows.length : Int) := by
    intro p s s' hs
    unfold constr_E_arg at hs
    simp only at hs
    cases h1 : (common_regs co p.1 p.2.1).foldlM
        (constr_E_common p.1 p.2.1
          (lpp_add_var s.lp (mangle_var 'y' p.1 p.2.1) lpp_var_t.lpp_continous p.2.2).2)
        { s with lp := (lpp_add_var s.lp (mangle_var 'y' p.1 p.2.1)
          lpp_var_t.lpp_continous p.2.2).1 } with
    | none => rw [h1] at hs; cases hs
    | some s2 =>
      rw [h1] at hs
      simp only at hs
      have e1 := foldlM_rel _
        (fun a b : constr_E_t =>
          b.cst_counter - (b.rows.length : Int) = a.cst_counter - (a.rows.length : Int))
        (fun _ => rfl) (fun a b c hab hbc => hbc.trans hab) _
        (fun c a b _ hf => hcommon _ _ _ c a b hf) _ _ h1
      have e2 := foldlM_rel _
        (fun a b : constr_E_t =>
          b.cst_counter - (b.rows.length : Int) = a.cst_counter - (a.rows.length : Int))
        (fun _ => rfl) (fun a b c hab hbc => hbc.trans hab) _
        (fun c a b _ hf => hdisj _ _ _ c a b hf) _ _ hs
      rw [e2, e1]
  rw [constr_E_units_eq_pairs] at h
  have := foldlM_rel (fun s (p : Nat × (Nat × Int)) => constr_E_arg co p.1 s p.2)
    (fun a b : constr_E_t =>
      b.cst_counter - (b.rows.length : Int) = a.cst_counter - (a.rows.length : Int))
    (fun _ => rfl) (fun a b c hab hbc => hbc.trans hab) _
    (fun p a b _ hf => harg p a b hf) _ _ h
  simp only [List.length_nil, Int.ofNat_zero] at this
  omega

/-- The invariant of `pi_add_constr_S` after all units. -/
theorem S_inv_units {units : List unit_t} {lp0 : lpp_t} {sS : constr_S_t} (hwf0 : lp_wf lp0)
    (hfresh0 : ∀ k : Int, 0 ≤ k → k < 2 ^ 31 → mangle_cst 'S' k ∉ cst_names lp0)
    (hunits : ∀ u ∈ units,
      u.root < 2 ^ 31 ∧ (∀ a ∈ u.args, a.1 < 2 ^ 31) ∧ (u.args.map Prod.fst).Nodup)
    (hcnt : (S_units units).length ≤ 2 ^ 31)
    (h : units.foldlM constr_S_unit { lp := lp0 } = some sS) : S_inv lp0 units sS := by
  have hmono : ∀ done rest, units = done ++ rest →
      (S_units done).length ≤ (S_units units).length := by
    intro done rest hall
    rw [hall, S_units_append, List.length_append]
    omega
  exact foldlM_ind constr_S_unit (fun done s => S_inv lp0 done s) units
    (by
      intro done u rest s s' hall hP hf
      have hu : u ∈ units := by rw [hall]; simp
      obtain ⟨h1, h2, h3⟩ := hunits u hu
      refine S_inv_unit hfresh0 ⟨h1, h2⟩ h3 ?_ hP hf
      exact le_trans (hmono (done ++ [u]) rest (by rw [hall]; simp)) hcnt)
    units [] { lp := lp0 } sS (List.nil_append _).symm
    ⟨hwf0, rfl, by simp [S_units, S_csts], rfl, fun _ _ _ => rfl,
      fun i u hi => by simp [S_units] at hi⟩ h

theorem sum_range_eq_sum_map {α : Type} (F : Nat → Rat) (G : α → Rat) :
    ∀ (l : List α), (∀ (i : Nat) (a : α), l.get? i = some a → F i = G a) →
      ((List.range l.length).map F).sum = (l.map G).sum := by
  intro l
  induction l using List.reverseRecOn with
  | nil => intro _; rfl
  | append_singleton l a ih =>
    intro h
    rw [List.length_append, List.length_singleton, List.range_succ, List.map_append,
      List.sum_append, List.map_append, List.sum_append,
      ih (fun i b hb => h i b (by
        rw [List.get?_eq_getElem?] at hb ⊢
        have hi : i < l.length := by
          by_contra hc
          rw [List.getElem?_eq_none (by omega)] at hb
          cases hb
        rw [List.getElem?_append_left hi]
        exact hb))]
    congr 1
    simp only [List.map_cons, List.map_nil, List.sum_cons, List.sum_nil, add_zero]
    exact h l.length a (by
      rw [List.get?_eq_getElem?, List.getElem?_append_right (le_refl _)]
      simp)

/-- The value of a row that holds the factors of a unit: the costs paid for
the unit. -/
theorem S_row_value {lp0 lp : lpp_t} {r : Int} {u : unit_t}
    (hvars : lp.vars = lp0.vars ++ u.args.map (fun a => y_var (u.root, a)))
    (hyidx : ∀ (i : Nat) (a : Nat × Int), u.args.get? i = some a →
      lpp_get_var_idx lp (mangle_var 'y' (u.root : Int) (a.1 : Int)) =
        ((lp0.vars.length + i + 1 : Nat) : Int))
    (hrow : S_row_ok lp r u) (value : Nat → Rat) :
    lpp_row_value lp value r = unit_paid lp u.root u.args value := by
  unfold lpp_row_value unit_paid
  rw [hvars, List.length_append, List.length_map, List.range_add, List.map_append,
    List.sum_append, List.map_map]
  have hzero : ((List.range lp0.vars.length).map (fun k : Nat =>
      (lpp_get_factor lp r ((k : Int) + 1) : Rat) * value (k + 1))).sum = 0 := by
    apply List.sum_eq_zero
    intro x hx
    obtain ⟨k, hk, rfl⟩ := List.mem_map.1 hx
    have hk' := List.mem_range.1 hk
    rw [hrow.2 ((k : Int) + 1) (by
      intro a ha
      obtain ⟨i, hi⟩ := List.mem_iff_get?.1 ha
      rw [hyidx i a hi]
      push_cast
      omega)]
    simp
  rw [hzero, zero_add]
  apply sum_range_eq_sum_map
  intro i a hi
  have ha : a ∈ u.args := List.mem_iff_get?.2 ⟨i, hi⟩
  have hidx := hyidx i a hi
  have hf := (hrow.1 a ha).2.2
  rw [hidx] at hf
  simp only [Function.comp]
  unfold yv
  rw [hidx]
  have e1 : ((lp0.vars.length + i : Nat) : Int) + 1 = ((lp0.vars.length + i + 1 : Nat) : Int) := by
    push_cast; ring
  rw [e1, hf]
  rfl

/-- A row there was holds in a problem that has the same columns, more rows
after the old ones and the old factors in the old rows exactly when it held. -/
theorem lpp_cst_holds_old {lp lp' : lpp_t} (hv : lp'.vars = lp.vars)
    {extra : List lpp_cst} (hc : lp'.csts = lp.csts ++ extra)
    (hf : ∀ r j : Int, r ≤ (lp.csts.length : Int) →
      lpp_get_factor lp' r j = lpp_get_factor lp r j)
    (value : Nat → Rat) {k : Nat} (hk : k < lp.csts.length) :
    lpp_cst_holds lp' value k ↔ lpp_cst_holds lp value k := by
  have hrow : lpp_row_value lp' value ((k : Int) + 1) = lpp_row_value lp value ((k : Int) + 1) :=
    lpp_row_value_congr value _ (by rw [hv]) (fun j _ => hf _ _ (by omega))
  unfold lpp_cst_holds
  rw [hc, List.get?_eq_getElem?, List.getElem?_append_left hk, ← List.get?_eq_getElem?, hrow]

/-- The problem that the constraints E and S make of the problem `lp0` of the
constraints A and B, for one unit. -/
theorem unit_problem_of_run {co : copy_opt_t} {u : unit_t} (hco : co.units = [u])
    {lp0 : lpp_t} {st : constr_E_t} {sS : constr_S_t}
    (hwf0 : lp_wf lp0) (hx0 : ∀ nm ∈ var_names lp0, nm.head? ≠ some 'y')
    (hobj0 : ∀ v ∈ lp0.vars, v.obj = 0)
    (hheads : ∀ nm ∈ cst_names lp0, nm.head? = some 'A' ∨ nm.head? = some 'B')
    (hregs : co.chordal_env.n_regs ≤ 2 ^ 31)
    (hu : u.root < 2 ^ 31 ∧ ∀ a ∈ u.args, a.1 < 2 ^ 31 ∧ a.1 ≠ u.root)
    (hnd : (u.args.map Prod.fst).Nodup)
    (hsize : ((unit_pairs co).flatMap (fun p => E_rows_by_spec co p.1 p.2.1)).length ≤ 2 ^ 31)
    (hE : constr_E_units co lp0 = some st) (hS : constr_S_units co st.lp = some sS) :
    unit_problem lp0 u.root u.args u.min_nodes_costs st.rows sS.lp := by
  have hpairs : unit_pairs co = u.args.map (fun a => (u.root, a)) := by
    unfold unit_pairs
    rw [hco]
    simp
  have hrowslen : st.rows.length =
      ((unit_pairs co).flatMap (fun p => E_rows_by_spec co p.1 p.2.1)).length := by
    rw [← constr_E_units_rows hE, List.length_map, List.length_reverse]
  have hcnt : st.cst_counter ≤ 2 ^ 31 := by
    rw [constr_E_units_counter hE, hrowslen]
    exact_mod_cast hsize
  have hunits : ∀ u' ∈ co.units,
      u'.root < 2 ^ 31 ∧ ∀ a ∈ u'.args, a.1 < 2 ^ 31 ∧ a.1 ≠ u'.root := by
    intro u' hu'
    rw [hco, List.mem_singleton] at hu'
    subst hu'
    exact hu
  have hfreshE : ∀ k : Int, 0 ≤ k → k < 2 ^ 31 → mangle_cst 'E' k ∉ cst_names lp0 := by
    intro k _ _
    apply fresh_of_heads
    intro nm hnm
    rcases hheads nm hnm with h | h <;> rw [h] <;> decide
  obtain ⟨hinv, _⟩ := E_inv_units hwf0 hfreshE hregs hunits hcnt hE
  have hprange : ∀ p ∈ unit_pairs co, p.1 < 2 ^ 31 ∧ p.2.1 < 2 ^ 31 := by
    intro p hp
    obtain ⟨u', hu', a, ha, rfl⟩ := mem_unit_pairs.1 hp
    exact ⟨(hunits u' hu').1, ((hunits u' hu').2 a ha).1⟩
  have hkeys : ((unit_pairs co).map (fun p => (p.1, p.2.1))).Nodup := by
    rw [hpairs, List.map_map]
    have : ((fun p : Nat × (Nat × Int) => (p.1, p.2.1)) ∘ fun a : Nat × Int => (u.root, a)) =
        (fun n : Nat => (u.root, n)) ∘ Prod.fst := rfl
    rw [this, ← List.map_map]
    exact hnd.map (fun a b hab => (Prod.mk.inj hab).2)
  obtain ⟨hvarsE, _⟩ := E_vars_pairs hx0 hprange hkeys hE
  -- the constraints S
  have hfreshS : ∀ k : Int, 0 ≤ k → k < 2 ^ 31 → mangle_cst 'S' k ∉ cst_names st.lp := by
    intro k _ _ hmem
    unfold cst_names at hmem
    rw [hinv.csts, List.map_append, List.mem_append] at hmem
    obtain ⟨t, ht⟩ := mangle_cst_head 'S' k
    rcases hmem with hmem | hmem
    · rcases hheads _ hmem with h | h <;> rw [ht] at h <;> simp at h
    · rw [List.map_map] at hmem
      obtain ⟨i, _, hi⟩ := List.mem_map.1 hmem
      simp only [Function.comp] at hi
      obtain ⟨t', ht'⟩ := mangle_cst_head 'E' (i : Int)
      rw [ht, ht'] at hi
      simp at hi
  have hSunits : (S_units co.units).length ≤ 2 ^ 31 := by
    rw [hco]
    unfold S_units
    have := List.length_filter_le (fun u : unit_t => decide (u.min_nodes_costs ≠ 0)) [u]
    simp only [List.length_singleton] at this
    omega
  have hSinv : S_inv st.lp co.units sS := S_inv_units hinv.wf hfreshS
    (fun u' hu' => ⟨(hunits u' hu').1, fun a ha => ((hunits u' hu').2 a ha).1, by
      rw [hco, List.mem_singleton] at hu'
      subst hu'
      exact hnd⟩) hSunits hS
  have hvars : sS.lp.vars = lp0.vars ++ (unit_pairs co).map y_var := hSinv.vars.trans hvarsE
  have hvars' : sS.lp.vars = lp0.vars ++ u.args.map (fun a => y_var (u.root, a)) := by
    rw [hvars, hpairs, List.map_map]
    rfl
  have hyidx : ∀ (i : Nat) (a : Nat × Int), u.args.get? i = some a →
      lpp_get_var_idx sS.lp (mangle_var 'y' (u.root : Int) (a.1 : Int)) =
        ((lp0.vars.length + i + 1 : Nat) : Int) := by
    intro i a hi
    have hp : (unit_pairs co).get? i = some (u.root, a) := by
      rw [hpairs, List.get?_eq_getElem?, List.getElem?_map]
      rw [List.get?_eq_getElem?] at hi
      rw [hi]
      rfl
    exact E_y_index hvars hx0 hprange hkeys hp
  have hElen : st.lp.csts.length = lp0.csts.length + st.rows.length := by
    rw [hinv.csts, List.length_append, List.length_map, List.length_range]
  have hSU : S_units co.units = if u.min_nodes_costs = 0 then [] else [u] := by
    rw [hco]
    unfold S_units
    by_cases hm : u.min_nodes_costs = 0
    · rw [if_pos hm]
      simp [hm]
    · rw [if_neg hm]
      simp [hm]
  refine ⟨hvars', hyidx, ?_, ?_, hinv.idxs, ?_, ?_, ?_⟩
  · intro k hk value
    rw [lpp_cst_holds_old hSinv.vars hSinv.csts hSinv.old value (by rw [hElen]; omega)]
    have hrow : lpp_row_value st.lp value ((k : Int) + 1) =
        lpp_row_value lp0 value ((k : Int) + 1) :=
      lp_frame_row_value hwf0 hinv.frame value (by omega)
    unfold lpp_cst_holds
    rw [hinv.csts, List.get?_eq_getElem?, List.getElem?_append_left hk,
      ← List.get?_eq_getElem?, hrow]
  · intro e he value
    have hok := hinv.rows e he
    obtain ⟨i, hi, c, hc, _, _⟩ := hok.idx
    have hlt : (e.cst_idx - 1).toNat < st.lp.csts.length := by
      have : i < st.lp.csts.length := by
        rw [List.get?_eq_getElem?] at hc
        by_contra hcon
        rw [List.getElem?_eq_none (by omega)] at hc
        cases hc
      omega
    rw [lpp_cst_holds_old hSinv.vars hSinv.csts hSinv.old value hlt,
      E_row_holds_iff hok value,
      E_row_value_congr value e (fun nm _ => lpp_get_var_idx_congr hSinv.vars nm)]
  · rw [hSinv.csts, List.length_append, S_csts_length, hElen, hSU]
    split_ifs <;> simp
  · intro hm value
    have hget : (S_units co.units).get? 0 = some u := by
      rw [hSU, if_neg hm]
      rfl
    have hrow := hSinv.rows 0 u hget
    have hcst : sS.lp.csts.get? (lp0.csts.length + st.rows.length) =
        some (lpp_cst.mk (mangle_cst 'S' 0) lpp_cst_t.lpp_greater u.min_nodes_costs) := by
      rw [hSinv.csts, ← hElen, List.get?_eq_getElem?, List.getElem?_append_right (le_refl _),
        hSU, if_neg hm]
      simp [S_csts]
    have hval := S_row_value hvars' hyidx hrow value
    unfold lpp_cst_holds
    rw [hcst]
    simp only
    have e1 : ((lp0.csts.length + st.rows.length : Nat) : Int) + 1 =
        (st.lp.csts.length : Int) + ((0 : Nat) : Int) + 1 := by
      rw [hElen]; push_cast; ring
    rw [e1, hval]
  · intro value
    have := E_objective hvars hobj0 hx0 hprange hkeys value
    rw [this, hpairs, List.map_map]
    rfl

/-- The scenario with two colors is `phi2_co`. -/
theorem phi2n_co_two : phi2n_co 2 = phi2_co := rfl

theorem phi2n_reducer (n : Nat) :
    pi_find_simplicials (phi2n_co n) new_pi_init = some new_pi_init := by
  rfl

theorem phi2n_borders_wf (n : Nat) : borders_wf (phi2n_co n) := by
  show borders_wf phi2_co
  decide

theorem phi2n_allocatable_regs (n v : Nat) : allocatable_regs (phi2n_co n) v = List.range n := by
  unfold allocatable_regs
  simp [phi2n_co, phi2_co]

theorem phi2n_int_range (n : Nat) (hn : n ≤ 2 ^ 31) : int_range (phi2n_co n) := by
  refine ⟨hn, ?_⟩
  show ∀ b ∈ flat_borders phi2_co, b.irn < 2 ^ 31
  decide

theorem phi2n_constr_A_nodes (n : Nat) :
    constr_A_nodes new_pi_init.removed (flat_borders (phi2n_co n)) = [1, 2, 0] := by
  show constr_A_nodes new_pi_init.removed (flat_borders phi2_co) = [1, 2, 0]
  decide

/-- The loop that fills a row of `pi_add_constr_B` runs to its end when the row
exists and every node listed has its column for the color. -/
theorem constr_B_row_some (color : Nat) (r : Int) (hr : 0 ≤ r) :
    ∀ (L : List Nat) (lp : lpp_t), r ≤ (lp.csts.length : Int) →
      (∀ n ∈ L, mangle_var 'x' (n : Int) (color : Int) ∈ var_names lp) →
      ∃ lp', constr_B_row color r L lp = some lp'
  | [], lp, _, _ => ⟨lp, rfl⟩
  | m :: rest, lp, hle, hL => by
    obtain ⟨k, hk, hidx, _⟩ := lpp_get_var_idx_of_mem (hL m (List.mem_cons_self _ _))
    have hset : lpp_set_factor_fast lp r
        (lpp_get_var_idx lp (mangle_var 'x' (m : Int) (color : Int))) 1 =
        some { lp with matrix :=
          (r, lpp_get_var_idx lp (mangle_var 'x' (m : Int) (color : Int)), 1) :: lp.matrix } := by
      unfold lpp_set_factor_fast
      rw [if_pos]
      exact ⟨hr, hle, by omega, by omega⟩
    simp only [constr_B_row, hset]
    exact constr_B_row_some color r hr rest _ hle
      (fun n hn => hL n (List.mem_cons_of_mem _ hn))

/-- The sweep of `pi_add_constr_B` for the scenario: when the row of the living
set of the arguments 1 and 2 can be filled, this is the one row added. -/
theorem phi2n_sweep (n c : Nat) (pi : problem_instance_t) (hrem : pi.removed = [])
    (lp2 : lpp_t)
    (hrow : constr_B_row c
      (lpp_add_cst pi.curr_lp (mangle_cst 'B' pi.cst_counter) lpp_cst_t.lpp_less 1).2 [2, 1]
      (lpp_add_cst pi.curr_lp (mangle_cst 'B' pi.cst_counter) lpp_cst_t.lpp_less 1).1 =
        some lp2) :
    constr_B_sweep (phi2n_co n) pi c =
      some { pi := { pi with curr_lp := lp2, cst_counter := pi.cst_counter + 1 },
             phase := phase_t.shrinking, living := [], emitted := [[2, 1]] } := by
  unfold constr_B_sweep
  simp [phi2n_co, phi2_co, constr_B_blocks, constr_B_borders, constr_B_border, is_removed, hrem,
    pset_find_ptr, pset_insert_ptr, pset_remove_ptr, pset_count, all_live_in, constr_B_emit,
    hrow]

/-- The constraints B of one more color, for the scenario. -/
theorem phi2n_B_step {n : Nat} {lpA : lpp_t} {c : Nat} {pi : problem_instance_t}
    (hA : ∀ cst ∈ lpA.csts, ∃ m : Int, cst.name = mangle_cst 'A' m)
    (hx : ∀ v ∈ [2, 1], mangle_var 'x' ((v : Nat) : Int) (c : Int) ∈ var_names lpA)
    (hc : c < 2 ^ 31) (hinv : phi2n_B_inv lpA c pi) :
    ∃ pi', pi_add_constr_B (phi2n_co n) pi c = some pi' ∧ phi2n_B_inv lpA (c + 1) pi' := by
  have hfresh : mangle_cst 'B' pi.cst_counter ∉ cst_names pi.curr_lp := by
    rw [hinv.counter]
    unfold cst_names
    rw [hinv.csts, List.map_append, List.mem_append, List.map_map]
    rintro (hm | hm)
    · obtain ⟨cst, hcst, hname⟩ := List.mem_map.1 hm
      obtain ⟨m, hm'⟩ := hA cst hcst
      obtain ⟨t, ht⟩ := mangle_cst_head 'A' m
      obtain ⟨t', ht'⟩ := mangle_cst_head 'B' (c : Int)
      rw [hm', ht, ht'] at hname
      simp at hname
    · obtain ⟨i, hi, hname⟩ := List.mem_map.1 hm
      simp only [Function.comp] at hname
      have := (mangle_cst_inj_nat (by have := List.mem_range.1 hi; omega) hc hname).2
      have := List.mem_range.1 hi
      omega
  obtain ⟨k, hk2, _, hv1, hm1, hcase⟩ := lpp_add_cst_spec pi.curr_lp
    (mangle_cst 'B' pi.cst_counter) lpp_cst_t.lpp_less 1
  rcases hcase with ⟨_, hk, hc1⟩ | ⟨hmem, _, _⟩
  swap
  · exact absurd hmem hfresh
  have hnames1 : var_names (lpp_add_cst pi.curr_lp (mangle_cst 'B' pi.cst_counter)
      lpp_cst_t.lpp_less 1).1 = var_names lpA := by
    unfold var_names
    rw [hv1, hinv.vars]
  obtain ⟨lp2, hrow⟩ := constr_B_row_some c
    (lpp_add_cst pi.curr_lp (mangle_cst 'B' pi.cst_counter) lpp_cst_t.lpp_less 1).2
    (by rw [hk2]; omega) [2, 1]
    (lpp_add_cst pi.curr_lp (mangle_cst 'B' pi.cst_counter) lpp_cst_t.lpp_less 1).1
    (by rw [hk2, hc1, hk]; simp)
    (fun v hv => by rw [hnames1]; exact hx v hv)
  have hsweep := phi2n_sweep n c pi hinv.removed lp2 hrow
  refine ⟨{ pi with curr_lp := lp2, cst_counter := pi.cst_counter + 1 }, ?_, ?_⟩
  · unfold pi_add_constr_B
    rw [hsweep]
    rfl
  · obtain ⟨hv2, hc2, hm2, _⟩ := constr_B_row_exact c _ _ _ _ hrow
    have hlen : pi.curr_lp.csts.length = lpA.csts.length + c := by
      rw [hinv.csts]
      simp
    refine ⟨hinv.removed, ?_, ?_, ?_, ?_⟩
    · show pi.cst_counter + 1 = _
      rw [hinv.counter]
      push_cast
      rfl
    · show lp2.vars = _
      rw [hv2, hv1, hinv.vars]
    · show lp2.csts = _
      rw [hc2, hc1, hinv.csts, hinv.counter, List.range_succ, List.map_append,
        List.append_assoc]
      rfl
    · intro e
      show e ∈ lp2.matrix ↔ _
      rw [hm2, hm1, hk2, hk, hlen]
      simp only [List.map_cons, List.map_nil, List.reverse_cons, List.reverse_nil,
        List.nil_append, List.cons_append, List.mem_cons, hinv.matrix e]
      rw [lpp_get_var_idx_names hnames1, lpp_get_var_idx_names hnames1]
      constructor
      · rintro (h | h | h | ⟨i, hi, h⟩)
        · exact Or.inr ⟨c, by omega, Or.inr (by rw [h]; push_cast; rfl)⟩
        · exact Or.inr ⟨c, by omega, Or.inl (by rw [h]; push_cast; rfl)⟩
        · exact Or.inl h
        · exact Or.inr ⟨i, by omega, h⟩
      · rintro (h | ⟨i, hi, h⟩)
        · exact Or.inr (Or.inr (Or.inl h))
        · by_cases hic : i = c
          · subst hic
            rcases h with h | h
            · exact Or.inr (Or.inl (by rw [h]; push_cast; rfl))
            · exact Or.inl (by rw [h]; push_cast; rfl)
          · exact Or.inr (Or.inr (Or.inr ⟨i, by omega, h⟩))

theorem constr_A_colors_counter (nnr : Nat) (cst_idx : Int) :
    ∀ (l : List Nat) (pi pi' : problem_instance_t),
      constr_A_colors nnr cst_idx l pi = some pi' → pi'.cst_counter = pi.cst_counter
  | [], pi, pi', h => by
    simp only [constr_A_colors, Option.some.injEq] at h
    rw [← h]
  | c :: rest, pi, pi', h => by
    simp only [constr_A_colors] at h
    cases hset : lpp_set_factor_fast
        (lpp_add_var pi.curr_lp (mangle_var 'x' (nnr : Int) (c : Int)) lpp_var_t.lpp_binary 0).1
        cst_idx
        (lpp_add_var pi.curr_lp (mangle_var 'x' (nnr : Int) (c : Int)) lpp_var_t.lpp_binary 0).2
        1 with
    | none => rw [hset] at h; cases h
    | some lp2 =>
      rw [hset] at h
      simp only at h
      exact (constr_A_colors_counter nnr cst_idx rest _ pi' h).trans rfl

theorem constr_A_borders_counter (co : copy_opt_t) :
    ∀ (l : List border_t) (pi pi' : problem_instance_t),
      constr_A_borders co l pi = some pi' → pi'.cst_counter = pi.cst_counter
  | [], pi, pi', h => by
    simp only [constr_A_borders, Option.some.injEq] at h
    rw [← h]
  | b :: rest, pi, pi', h => by
    simp only [constr_A_borders] at h
    cases hb : constr_A_border co pi b with
    | none => rw [hb] at h; cases h
    | some pi1 =>
      rw [hb] at h
      rw [constr_A_borders_counter co rest pi1 pi' h]
      unfold constr_A_border at hb
      split_ifs at hb
      · exact (constr_A_colors_counter _ _ _
          { pi with curr_lp := (lpp_add_cst pi.curr_lp (mangle_cst 'A' (b.irn : Int))
            lpp_cst_t.lpp_equal 1).1 } _ hb).trans rfl
      · simp only [Option.some.injEq] at hb
        rw [← hb]

/-- The constraints A leave the counter of the constraints B as it is. -/
theorem pi_add_constr_A_counter {co : copy_opt_t} {pi pi' : problem_instance_t}
    (h : pi_add_constr_A co pi = some pi') : pi'.cst_counter = pi.cst_counter := by
  rw [pi_add_constr_A_eq] at h
  exact constr_A_borders_counter co _ _ _ h

/-- The steps A and B of `new_pi` for the scenario with `n` colors: they run to
their end, the constraints A are those of the nodes 1, 2 and 0 with the colors
below `n`, and the constraints B are one row for each color, with the columns
of the arguments 1 and 2. -/
theorem phi2n_constr_AB (n : Nat) (hn : n ≤ 2 ^ 31) :
    ∃ piA piAB, pi_add_constr_A (phi2n_co n) new_pi_init = some piA ∧
      a_state (phi2n_co n) [] (mk_done (phi2n_co n) [1, 2, 0]) piA ∧
      done_ok (mk_done (phi2n_co n) [1, 2, 0]) ∧
      new_pi_constr_AB (phi2n_co n) new_pi_init = some piAB ∧
      phi2n_B_inv piA.curr_lp n piAB ∧
      (∀ v ∈ [1, 2, 0], ∀ c, c < n →
        mangle_var 'x' ((v : Nat) : Int) (c : Int) ∈ var_names piA.curr_lp) := by
  have hrange := phi2n_int_range n hn
  obtain ⟨piA, hA, hstA⟩ := pi_add_constr_A_spec (phi2n_co n) hrange new_pi_init rfl rfl
    (by rw [phi2n_constr_A_nodes]; decide)
  rw [phi2n_constr_A_nodes] at hstA
  have hok : done_ok (mk_done (phi2n_co n) [1, 2, 0]) := by
    apply done_ok_mk_done (phi2n_co n) hrange [1, 2, 0] (by decide)
    show ∀ m ∈ [1, 2, 0], ∃ b ∈ flat_borders phi2_co, b.irn = m
    decide
  have hcols : ∀ v ∈ [1, 2, 0], ∀ c, c < n →
      mangle_var 'x' ((v : Nat) : Int) (c : Int) ∈ var_names piA.curr_lp := by
    intro v hv c hc
    rw [hstA.built.vars]
    simp only [List.mem_flatMap, List.mem_map]
    refine ⟨(v, allocatable_regs (phi2n_co n) v), ?_, c, ?_, rfl⟩
    · unfold mk_done
      exact List.mem_map.2 ⟨v, hv, rfl⟩
    · rw [phi2n_allocatable_regs]
      exact List.mem_range.2 hc
  have hnamed := lp_built_csts_named hstA.built
  have hloop : ∀ k, k ≤ n → ∃ pik,
      constr_B_colors (phi2n_co n) (List.range k) piA = some pik ∧
        phi2n_B_inv piA.curr_lp k pik := by
    intro k
    induction k with
    | zero =>
      intro _
      refine ⟨piA, rfl, ⟨hstA.removed, ?_, rfl, by simp, ?_⟩⟩
      · rw [pi_add_constr_A_counter hA]
        rfl
      · intro e
        simp
    | succ k ih =>
      intro hk
      obtain ⟨pik, hrun, hinv⟩ := ih (by omega)
      obtain ⟨pi', hstep, hinv'⟩ := @phi2n_B_step n piA.curr_lp k pik hnamed
        (fun v hv => hcols v (by
          rcases List.mem_cons.1 hv with h | h
          · rw [h]; decide
          · rw [List.mem_singleton.1 h]; decide) k (by omega))
        (by omega) hinv
      refine ⟨pi', ?_, hinv'⟩
      rw [List.range_succ, constr_B_colors_append, hrun]
      simp only [Option.some_bind, constr_B_colors, hstep]
  obtain ⟨piAB, hrun, hinv⟩ := hloop n (le_refl n)
  refine ⟨piA, piAB, hA, hstA, hok, ?_, hinv, hcols⟩
  unfold new_pi_constr_AB
  rw [hA]
  exact hrun

theorem phi2n_common_regs (n root arg : Nat) :
    common_regs (phi2n_co n) root arg = List.range n := by
  unfold common_regs
  rw [phi2n_allocatable_regs]
  simp [phi2n_co, phi2_co]

theorem phi2n_disjunct_regs (n root arg : Nat) : disjunct_regs (phi2n_co n) root arg = [] := by
  unfold disjunct_regs
  simp [phi2n_co, phi2_co]

theorem phi2n_E_count (n : Nat) :
    ((unit_pairs (phi2n_co n)).flatMap
      (fun p => E_rows_by_spec (phi2n_co n) p.1 p.2.1)).length = 4 * n := by
  have hp : unit_pairs (phi2n_co n) = [(0, (1, 10)), (0, (2, 3))] := rfl
  rw [hp]
  simp only [List.flatMap_cons, List.flatMap_nil, List.append_nil, List.length_append,
    E_rows_by_spec_length, phi2n_common_regs, phi2n_disjunct_regs, List.length_range,
    List.length_nil]
  omega

theorem phi2n_E_size (n : Nat) (hn : n ≤ 2 ^ 29) :
    ((unit_pairs (phi2n_co n)).flatMap
      (fun p => E_rows_by_spec (phi2n_co n) p.1 p.2.1)).length ≤ 2 ^ 31 := by
  rw [phi2n_E_count]
  omega

/-- The run of `new_pi` for the scenario with `n` colors. It returns; the
record returned holds the problem after the constraints E (there is no bound
`min_nodes_costs` and one Phi only, so that the steps S and M add nothing),
which is the problem of the unit on top of the problem of the steps A and B. -/
theorem phi2n_new_pi (n : Nat) (hn : n ≤ 2 ^ 29) :
    ∃ piA piAB st pi, phi2n_run n piA piAB st pi := by
  have hn31 : n ≤ 2 ^ 31 := by omega
  obtain ⟨piA, piAB, hA, hstA, hok, hAB, hinv, hcols⟩ := phi2n_constr_AB n hn31
  have hrange := phi2n_int_range n hn31
  obtain ⟨hplain, hxnames, hwf, hcnames⟩ := new_pi_constr_AB_problem (phi2n_co n) hrange
    new_pi_init (phi2n_reducer n) (by rw [phi2n_constr_A_nodes]; decide) piAB hAB
  have hB : constr_B_colors (phi2n_co n) (List.range n) piA = some piAB := by
    unfold new_pi_constr_AB at hAB
    rw [hA] at hAB
    exact hAB
  obtain ⟨hext, _, _, hlastB⟩ := constr_B_colors_state (lp_built_csts_named hstA.built) _ piA
    piAB (lp_ext_refl _) hB
  have hx0 : ∀ nm ∈ var_names piAB.curr_lp, nm.head? ≠ some 'y' := by
    intro nm hnm
    obtain ⟨m, c, rfl⟩ := hxnames nm hnm
    obtain ⟨t, ht⟩ := mangle_var_head 'x' (m : Int) (c : Int)
    rw [ht]
    simp
  have hnamesAB : var_names piAB.curr_lp = var_names piA.curr_lp := by
    unfold var_names
    rw [hinv.vars]
  obtain ⟨st, hE⟩ := constr_E_units_returns (phi2n_co n) piAB.curr_lp (by
    intro u hu c hc
    have hu' : u = phi2_u := List.mem_singleton.1 hu
    subst hu'
    rw [hnamesAB]
    refine ⟨fun _ => hcols 0 (by decide) c hc, ?_⟩
    intro a ha _
    have ha' : a = (1, 10) ∨ a = (2, 3) := by
      simpa [phi2_u] using ha
    rcases ha' with rfl | rfl
    · exact hcols 1 (by decide) c hc
    · exact hcols 2 (by decide) c hc)
  have hS : constr_S_units (phi2n_co n) st.lp = some { lp := st.lp } := rfl
  have hsize := phi2n_E_size n hn
  have hP := @unit_problem_of_run (phi2n_co n) phi2_u rfl piAB.curr_lp st { lp := st.lp } hwf hx0
    (fun v hv => (hplain v hv).2) hcnames hn31 (by decide) (by decide) hsize hE hS
  have hcnt : st.cst_counter ≤ 2 ^ 31 := by
    rw [constr_E_units_counter hE, ← List.length_reverse,
      ← List.length_map st.rows.reverse E_row_key, constr_E_units_rows hE]
    exact_mod_cast hsize
  obtain ⟨hinvE, hdone⟩ := @E_inv_units (phi2n_co n) piAB.curr_lp st hwf
    (fun k _ _ => by
      apply fresh_of_heads
      intro nm hnm
      rcases hcnames nm hnm with h | h <;> rw [h] <;> decide)
    hn31 (fun u hu => by
      have hu' : u = phi2_u := List.mem_singleton.1 hu
      subst hu'
      decide) hcnt hE
  have hnrows : st.rows.length = 4 * n := by
    rw [← List.length_reverse, ← List.length_map st.rows.reverse E_row_key,
      constr_E_units_rows hE, phi2n_E_count]
  have hErows : ∀ e ∈ st.rows, e.root = 0 ∧ (e.arg = 1 ∨ e.arg = 2) := by
    intro e he
    have hkey : E_row_key e ∈ st.rows.reverse.map E_row_key :=
      List.mem_map.2 ⟨e, List.mem_reverse.2 he, rfl⟩
    rw [constr_E_units_rows hE] at hkey
    have hp : unit_pairs (phi2n_co n) = [(0, (1, 10)), (0, (2, 3))] := rfl
    rw [hp] at hkey
    simp only [List.flatMap_cons, List.flatMap_nil, List.append_nil, List.mem_append,
      E_rows_by_spec, phi2n_disjunct_regs, List.map_nil, List.mem_flatMap, List.mem_cons,
      List.mem_singleton, List.not_mem_nil, or_false, E_row_key, Prod.mk.injEq] at hkey
    rcases hkey with ⟨c, _, h | h⟩ | ⟨c, _, h | h⟩
    · exact ⟨h.1, Or.inl h.2.1⟩
    · exact ⟨h.1, Or.inl h.2.1⟩
    · exact ⟨h.1, Or.inr h.2.1⟩
    · exact ⟨h.1, Or.inr h.2.1⟩
  refine ⟨piA, piAB, st, { piAB with curr_lp := st.lp }, hn, hstA, hok, hinv, hext, hlastB, hinvE,
    hdone phi2_u (List.mem_singleton.2 rfl) (1, 10) (by decide),
    hdone phi2_u (List.mem_singleton.2 rfl) (2, 3) (by decide), hP, ?_, rfl, rfl, hcols, hx0,
    hErows, hnrows⟩
  unfold new_pi
  rw [phi2n_reducer]
  simp only
  rw [if_neg (by decide), hAB]
  simp only [Option.some_bind]
  unfold pi_add_constr_E
  rw [hE]
  simp only [Option.map_some', Option.some_bind]
  unfold pi_add_constr_S
  simp only
  rw [hS]
  simp only [Option.map_some', Option.some_bind]
  exact pi_add_constr_M_few_phis (phi2n_co n) _ (by
    show ∀ phis ∈ phi2_co.phi_blocks, phis.length < 2
    decide)

/-- Under a 0/1 assignment that satisfies the rows of the problem after the
constraints A and B, every node with a constraint A has one color: the column
of that color has the value 1 and the columns of its other colors the value
0. -/
theorem solution_encodes {co : copy_opt_t} {nodes : List Nat} {lpA lp : lpp_t}
    (hb : lp_built (mk_done co nodes) lpA) (hok : done_ok (mk_done co nodes))
    (hext : lp_ext lpA lp) {value : Nat → Rat}
    (h01 : ∀ i, i < lp.vars.length → value (i + 1) = 0 ∨ value (i + 1) = 1)
    (hfeas : lpp_feasible_for lp value) {v : Nat} (hv : v ∈ nodes) :
    ∃ c0, c0 ∈ allocatable_regs co v ∧ ∀ c ∈ allocatable_regs co v,
      xv lp value v c = if c = c0 then 1 else 0 := by
  obtain ⟨k0, c0, hk0, hc0, hname0, hv0, hothers⟩ :=
    node_has_one_color hb hok hext h01 hfeas hv
  obtain ⟨hnodup, _⟩ := lp_final_names hb hok hext
  have hmem : (v, allocatable_regs co v) ∈ mk_done co nodes :=
    List.mem_map.2 ⟨v, hv, rfl⟩
  obtain ⟨hv31, _, hc31⟩ := hok.2 _ hmem
  refine ⟨c0, hc0, ?_⟩
  intro c hc
  have hnm : mangle_var 'x' (v : Int) (c : Int) ∈ var_names lp := by
    have : var_names lp = var_names lpA := by
      unfold var_names
      rw [hext.1]
    rw [this, hb.vars]
    simp only [List.mem_flatMap, List.mem_map]
    exact ⟨_, hmem, c, hc, rfl⟩
  obtain ⟨k, hk, hidx, hget⟩ := lpp_get_var_idx_of_mem hnm
  have hxv : xv lp value v c = value (k + 1) := by
    unfold xv
    rw [hidx]
    congr 1
  rw [hxv]
  by_cases hcc : c = c0
  · subst hcc
    rw [if_pos rfl, get?_inj_of_nodup hnodup hget hname0]
    exact hv0
  · rw [if_neg hcc]
    have hkk : k ≠ k0 := by
      intro hkk
      rw [hkk, hname0] at hget
      exact hcc (mangle_var_x_inj_nat hv31 (hc31 c0 hc0) hv31 (hc31 c hc)
        (Option.some.inj hget)).2.symm
    rcases h01 k hk with h | h
    · exact h
    · exact absurd rfl (hothers k hk hkk h v c hv31 (hc31 c hc) hget)

theorem phi2n_vars_length {n : Nat} {piA piAB : problem_instance_t} {st : constr_E_t}
    {pi : problem_instance_t} (hrun : phi2n_run n piA piAB st pi) :
    piAB.curr_lp.vars.length = 3 * n := by
  have h1 : piAB.curr_lp.vars.length = (var_names piA.curr_lp).length := by
    rw [hrun.B.vars]
    simp [var_names]
  rw [h1, hrun.A.built.vars]
  simp [mk_done, phi2n_allocatable_regs]
  omega

theorem phi2n_last_x_var {n : Nat} (h1 : 1 ≤ n) {piA piAB : problem_instance_t}
    {st : constr_E_t} {pi : problem_instance_t} (hrun : phi2n_run n piA piAB st pi) :
    pi.last_x_var = ((3 * n : Nat) : Int) := by
  rw [hrun.last, hrun.lastB]
  have hlen := phi2n_vars_length hrun
  rw [hrun.B.vars] at hlen
  rcases hrun.A.last with ⟨h, _⟩ | h
  · rw [h] at hlen
    simp at hlen
    omega
  · rw [h, hlen]

/-- The columns `x` keep their values when the problem of the constraints A and
B is read in the problem after the constraints E. -/
theorem phi2n_xv {n : Nat} {piA piAB : problem_instance_t} {st : constr_E_t}
    {pi : problem_instance_t} (hrun : phi2n_run n piA piAB st pi) (value : Nat → Rat)
    {v : Nat} (hv : v ∈ [1, 2, 0]) {c : Nat} (hc : c < n) :
    xv st.lp value v c = xv piAB.curr_lp value v c := by
  unfold xv
  have hpre : piAB.curr_lp.vars <+: st.lp.vars := by
    rw [hrun.unit.vars]
    exact List.prefix_append _ _
  have hmem : mangle_var 'x' (v : Int) (c : Int) ∈ var_names piAB.curr_lp := by
    have : var_names piAB.curr_lp = var_names piA.curr_lp := by
      unfold var_names
      rw [hrun.B.vars]
    rw [this]
    exact hrun.cols v hv c hc
  rw [lpp_get_var_idx_of_initial hpre hmem]

/-- A solution of the problem of the scenario gives a coloring: each of the
three nodes has one color, the arguments 1 and 2 have different colors, and
the column `y` of an argument is at least 1 when its color is not that of the
Phi. -/
theorem phi2n_solution_coloring {n : Nat} {piA piAB : problem_instance_t} {st : constr_E_t}
    {pi : problem_instance_t} (hrun : phi2n_run n piA piAB st pi) (value : Nat → Rat)
    (h01 : ∀ k, 1 ≤ k → k ≤ 3 * n → value k = 0 ∨ value k = 1)
    (hfeas : lpp_feasible_for st.lp value) :
    ∃ col : Nat → Nat,
      (∀ v ∈ [1, 2, 0], col v < n ∧ ∀ c, c < n →
        xv st.lp value v c = if c = col v then 1 else 0) ∧
      col 1 ≠ col 2 ∧
      (if col 0 = col 1 then (0 : Rat) else 1) ≤ yv st.lp value 0 1 ∧
      (if col 0 = col 2 then (0 : Rat) else 1) ≤ yv st.lp value 0 2 := by
  have hlen := phi2n_vars_length hrun
  have hP := hrun.unit
  have hn := hrun.bound
  -- the rows A and B hold in the problem before the constraints E
  have hfeas0 : lpp_feasible_for piAB.curr_lp value := by
    intro k hk
    exact (hP.AB k hk value).1 (hfeas k (by rw [hP.ncsts]; omega))
  have h01' : ∀ i, i < piAB.curr_lp.vars.length → value (i + 1) = 0 ∨ value (i + 1) = 1 :=
    fun i hi => h01 (i + 1) (by omega) (by omega)
  have henc : ∀ v ∈ [1, 2, 0], ∃ c0, c0 < n ∧ ∀ c, c < n →
      xv st.lp value v c = if c = c0 then 1 else 0 := by
    intro v hv
    obtain ⟨c0, hc0, h⟩ := solution_encodes hrun.A.built hrun.ok hrun.ext h01' hfeas0 hv
    rw [phi2n_allocatable_regs] at hc0 h
    refine ⟨c0, List.mem_range.1 hc0, fun c hc => ?_⟩
    rw [phi2n_xv hrun value hv hc]
    exact h c (List.mem_range.2 hc)
  obtain ⟨c1, hc1, he1⟩ := henc 1 (by decide)
  obtain ⟨c2, hc2, he2⟩ := henc 2 (by decide)
  obtain ⟨c0, hc0, he0⟩ := henc 0 (by decide)
  let col : Nat → Nat := fun v => if v = 1 then c1 else if v = 2 then c2 else c0
  have hcol1 : col 1 = c1 := rfl
  have hcol2 : col 2 = c2 := rfl
  have hcol0 : col 0 = c0 := rfl
  have hne : c1 ≠ c2 := by
    intro heq
    -- the row B of the color c1 has the columns of both arguments
    have hx1 : xv piAB.curr_lp value 1 c1 = 1 := by
      rw [← phi2n_xv hrun value (by decide) hc1, he1 c1 hc1, if_pos rfl]
    have hx2 : xv piAB.curr_lp value 2 c1 = 1 := by
      rw [← phi2n_xv hrun value (by decide) hc1, he2 c1 hc1, if_pos heq]
    have hnamesAB : var_names piAB.curr_lp = var_names piA.curr_lp := by
      unfold var_names
      rw [hrun.B.vars]
    have hm1 : mangle_var 'x' ((1 : Nat) : Int) (c1 : Int) ∈ var_names piAB.curr_lp := by
      rw [hnamesAB]; exact hrun.cols 1 (by decide) c1 hc1
    have hm2 : mangle_var 'x' ((2 : Nat) : Int) (c1 : Int) ∈ var_names piAB.curr_lp := by
      rw [hnamesAB]; exact hrun.cols 2 (by decide) c1 hc1
    obtain ⟨k1, hk1, hidx1, hget1⟩ := lpp_get_var_idx_of_mem hm1
    obtain ⟨k2, hk2, hidx2, hget2⟩ := lpp_get_var_idx_of_mem hm2
    have hv1 : value (k1 + 1) = 1 := by
      rw [← hx1]; unfold xv; rw [hidx1]; congr 1
    have hv2 : value (k2 + 1) = 1 := by
      rw [← hx2]; unfold xv; rw [hidx2]; congr 1
    have hkne : k1 ≠ k2 := by
      intro hk
      rw [hk, hget2] at hget1
      have := (mangle_var_x_inj_nat (by norm_num) (by omega) (by norm_num) (by omega)
        (Option.some.inj hget1)).1
      omega
    have hidxA : ∀ nm, lpp_get_var_idx piA.curr_lp nm = lpp_get_var_idx piAB.curr_lp nm :=
      fun nm => (lpp_get_var_idx_names hnamesAB nm).symm
    have hmem1 : (((piA.curr_lp.csts.length + c1 : Nat) : Int) + 1, (k1 : Int) + 1, (1 : Int)) ∈
        piAB.curr_lp.matrix := by
      rw [hrun.B.matrix]
      refine Or.inr ⟨c1, hc1, Or.inr ?_⟩
      rw [hidxA, ← hidx1]
      push_cast
      rfl
    have hmem2 : (((piA.curr_lp.csts.length + c1 : Nat) : Int) + 1, (k2 : Int) + 1, (1 : Int)) ∈
        piAB.curr_lp.matrix := by
      rw [hrun.B.matrix]
      refine Or.inr ⟨c1, hc1, Or.inl ?_⟩
      rw [hidxA, ← hidx2]
      push_cast
      rfl
    have hrow : piA.curr_lp.csts.length + c1 < piAB.curr_lp.csts.length := by
      rw [hrun.B.csts]
      simp
      exact hc1
    have hle := lp_final_row_le hrun.A.built hrun.ext hrow (hfeas0 _ hrow)
    have hval : ∀ k, k < piAB.curr_lp.vars.length → 0 ≤ value (k + 1) := by
      intro k hk
      rcases h01' k hk with h | h
      · rw [h]
      · rw [h]; norm_num
    have hge := lpp_row_value_ge (lp_final_ones hrun.A.built hrun.ext) hval
      hk1 hk2 hkne hmem1 hmem2
    rw [hv1, hv2] at hge
    linarith
  -- the rows E
  have hrows : ∀ e ∈ st.rows, lpp_cst_holds st.lp value (e.cst_idx - 1).toNat := by
    intro e _
    by_cases hk : (e.cst_idx - 1).toNat < st.lp.csts.length
    · exact hfeas _ hk
    · unfold lpp_cst_holds
      rw [List.get?_eq_getElem?, List.getElem?_eq_none (by omega)]
      trivial
  have hencodes : ∀ v ∈ [1, 2, 0], encodes (phi2n_co n) st.lp value col v := by
    intro v hv
    unfold encodes
    rw [phi2n_allocatable_regs]
    have hv' : v = 1 ∨ v = 2 ∨ v = 0 := by simpa using hv
    rcases hv' with rfl | rfl | rfl
    · exact ⟨List.mem_range.2 hc1, fun c hc => he1 c (List.mem_range.1 hc)⟩
    · exact ⟨List.mem_range.2 hc2, fun c hc => he2 c (List.mem_range.1 hc)⟩
    · exact ⟨List.mem_range.2 hc0, fun c hc => he0 c (List.mem_range.1 hc)⟩
  have hy1 := (E_pair_bounds hrun.E hrun.E1 value col (hencodes 0 (by decide))
    (hencodes 1 (by decide))).1 (fun e he _ _ => hrows e he)
  have hy2 := (E_pair_bounds hrun.E hrun.E2 value col (hencodes 0 (by decide))
    (hencodes 2 (by decide))).1 (fun e he _ _ => hrows e he)
  refine ⟨col, ?_, hne, hy1, hy2⟩
  intro v hv
  have hv' : v = 1 ∨ v = 2 ∨ v = 0 := by simpa using hv
  rcases hv' with rfl | rfl | rfl
  · exact ⟨hc1, he1⟩
  · exact ⟨hc2, he2⟩
  · exact ⟨hc0, he0⟩

/-- The objective function of the problem of the scenario. -/
theorem phi2n_objective {n : Nat} {piA piAB : problem_instance_t} {st : constr_E_t}
    {pi : problem_instance_t} (hrun : phi2n_run n piA piAB st pi) (value : Nat → Rat) :
    lpp_objective st.lp value = 10 * yv st.lp value 0 1 + 3 * yv st.lp value 0 2 := by
  rw [hrun.unit.obj]
  simp [unit_paid]

/-- A sum of values 0 and 1 of which at most one is 1 is at most 1. -/
theorem sum_range_le_one (g : Nat → Rat) :
    ∀ N : Nat, (∀ k, k < N → g k = 0 ∨ g k = 1) →
      (∀ k k', k < N → k' < N → g k = 1 → g k' = 1 → k = k') →
      ∑ k in Finset.range N, g k ≤ 1 ∧
        ((∃ k, k < N ∧ g k = 1) → ∑ k in Finset.range N, g k = 1) ∧
        ((∀ k, k < N → g k = 0) → ∑ k in Finset.range N, g k = 0)
  | 0, _, _ => by
    refine ⟨by simp, ?_, by simp⟩
    rintro ⟨k, hk, _⟩
    omega
  | N + 1, h01, huniq => by
    obtain ⟨ih1, ih2, ih3⟩ := sum_range_le_one g N (fun k hk => h01 k (by omega))
      (fun k k' hk hk' => huniq k k' (by omega) (by omega))
    rw [Finset.sum_range_succ]
    rcases h01 N (by omega) with hN | hN
    · rw [hN, add_zero]
      refine ⟨ih1, ?_, ?_⟩
      · rintro ⟨k, hk, hgk⟩
        apply ih2
        refine ⟨k, ?_, hgk⟩
        rcases Nat.lt_succ_iff_lt_or_eq.1 hk with h | h
        · exact h
        · rw [h, hN] at hgk
          norm_num at hgk
      · intro h
        exact ih3 (fun k hk => h k (by omega))
    · have hz : ∀ k, k < N → g k = 0 := by
        intro k hk
        rcases h01 k (by omega) with h | h
        · exact h
        · have := huniq k N (by omega) (by omega) h hN
          omega
      rw [ih3 hz, hN, zero_add]
      refine ⟨le_refl _, fun _ => rfl, ?_⟩
      intro h
      have := h N (by omega)
      rw [hN] at this
      norm_num at this

theorem coloring_value_spec {lp : lpp_t} (col : Nat → Nat) {k m c : Nat}
    (h : (var_names lp).get? k = some (mangle_var 'x' (m : Int) (c : Int)))
    (hm : m < 2 ^ 31) (hc : c < 2 ^ 31) :
    coloring_value lp col (k + 1) = if col m = c then 1 else 0 := by
  unfold coloring_value
  have hname : lpp_get_var_name lp (((k + 1 : Nat) : Int)) =
      mangle_var 'x' (m : Int) (c : Int) := by
    push_cast
    exact lpp_get_var_name_eq h
  rw [hname, split_var_mangle_var (m : Int) (c : Int) ⟨by omega, by omega⟩ ⟨by omega, by omega⟩]
  simp only [true_and, Int.toNat_ofNat]
  by_cases hcm : col m = c
  · rw [if_pos hcm, if_pos (by exact_mod_cast hcm)]
  · rw [if_neg hcm, if_neg (by exact_mod_cast hcm)]

theorem coloring_value_binary (lp : lpp_t) (col : Nat → Nat) (k : Nat) :
    coloring_value lp col k = 0 ∨ coloring_value lp col k = 1 := by
  unfold coloring_value
  split_ifs
  · exact Or.inr rfl
  · exact Or.inl rfl

/-- A factor that is not 0 has been written. -/
theorem lpp_get_factor_mem_of_ne {lp : lpp_t} (hone : ∀ e ∈ lp.matrix, e.2.2 = 1) {r k : Int}
    (h : lpp_get_factor lp r k ≠ 0) : ((r, k, (1 : Int)) : Int × Int × Int) ∈ lp.matrix := by
  by_contra hcon
  apply h
  apply lpp_get_factor_of_not_mem
  intro v hv
  have := hone _ hv
  simp only at this
  rw [this] at hv
  exact hcon hv

/-- The rows A hold under the assignment of a coloring that gives every node
with a constraint A a color it can have. -/
theorem coloring_A_rows {co : copy_opt_t} {nodes : List Nat} {lpA lp : lpp_t}
    (hb : lp_built (mk_done co nodes) lpA) (hok : done_ok (mk_done co nodes))
    (hext : lp_ext lpA lp) (col : Nat → Nat)
    (hcol : ∀ v ∈ nodes, col v ∈ allocatable_regs co v) (value : Nat → Rat)
    (hval : ∀ k m c : Nat, (var_names lp).get? k = some (mangle_var 'x' (m : Int) (c : Int)) →
      m < 2 ^ 31 → c < 2 ^ 31 → value (k + 1) = if col m = c then 1 else 0)
    {i : Nat} (hi : i < lpA.csts.length) : lpp_cst_holds lp value i := by
  have hone := lp_final_ones hb hext
  obtain ⟨hnodup, _⟩ := lp_final_names hb hok hext
  have hlenA : lpA.csts.length = nodes.length := by
    rw [hb.csts]
    simp [mk_done]
  obtain ⟨v, hv⟩ : ∃ v, nodes.get? i = some v := by
    rw [List.get?_eq_getElem?, List.getElem?_eq_getElem (by omega)]
    exact ⟨_, rfl⟩
  have hvmem : v ∈ nodes := List.get?_mem hv
  have hmem : (v, allocatable_regs co v) ∈ mk_done co nodes :=
    List.mem_map.2 ⟨v, hvmem, rfl⟩
  obtain ⟨hv31, _, hc31⟩ := hok.2 _ hmem
  obtain ⟨_, _, hrow⟩ := lp_final_A_row hb hok hext hv
  -- the row is the equation of the node
  obtain ⟨hvars, ec, em, hcsts, _⟩ := hext
  have hcst : lp.csts.get? i = some (lpp_cst.mk (mangle_cst 'A' (v : Int))
      lpp_cst_t.lpp_equal 1) := by
    rw [hcsts, List.get?_eq_getElem?, List.getElem?_append_left hi, hb.csts]
    unfold mk_done
    rw [List.map_map, List.getElem?_map, ← List.get?_eq_getElem?, hv]
    rfl
  unfold lpp_cst_holds
  rw [hcst]
  simp only
  -- the column of the color of the node
  have hnm : mangle_var 'x' (v : Int) ((col v : Nat) : Int) ∈ var_names lp := by
    have : var_names lp = var_names lpA := by
      unfold var_names
      rw [hvars]
    rw [this, hb.vars]
    simp only [List.mem_flatMap, List.mem_map]
    exact ⟨_, hmem, col v, hcol v hvmem, rfl⟩
  obtain ⟨k0, hk0, _, hget0⟩ := lpp_get_var_idx_of_mem hnm
  rw [lpp_row_value_eq]
  have hsum := sum_range_le_one
    (fun k => (lpp_get_factor lp ((i : Int) + 1) ((k : Int) + 1) : Rat) * value (k + 1))
    lp.vars.length ?_ ?_
  · have h1 := hsum.2.1 ⟨k0, hk0, by
      rw [lpp_get_factor_of_mem hone ((hrow k0).2 ⟨col v, hcol v hvmem, hget0⟩),
        hval k0 v (col v) hget0 hv31 (hc31 _ (hcol v hvmem)), if_pos rfl]
      norm_num⟩
    rw [h1]
    norm_num
  · intro k _
    simp only
    rcases lpp_get_factor_zero_or_one hone ((i : Int) + 1) ((k : Int) + 1) with hf | hf
    · left; rw [hf]; norm_num
    · obtain ⟨c, hc, hget⟩ := (hrow k).1 (lpp_get_factor_mem_of_ne hone (by rw [hf]; norm_num))
      rw [hf, hval k v c hget hv31 (hc31 c hc)]
      split_ifs
      · right; norm_num
      · left; norm_num
  · intro k k' _ _ h1 h2
    simp only at h1 h2
    have key : ∀ j : Nat, (lpp_get_factor lp ((i : Int) + 1) ((j : Int) + 1) : Rat) * value (j + 1) = 1 →
        (var_names lp).get? j = some (mangle_var 'x' (v : Int) ((col v : Nat) : Int)) := by
      intro j hj
      have hf : lpp_get_factor lp ((i : Int) + 1) ((j : Int) + 1) ≠ 0 := by
        intro h0
        rw [h0] at hj
        norm_num at hj
      obtain ⟨c, hc, hget⟩ := (hrow j).1 (lpp_get_factor_mem_of_ne hone hf)
      rw [hval j v c hget hv31 (hc31 c hc)] at hj
      by_cases hcc : col v = c
      · rw [hcc]; exact hget
      · rw [if_neg hcc] at hj
        norm_num at hj
    exact get?_inj_of_nodup hnodup (key k h1) (key k' h2)

/-- The rows of the problem of a unit: a row of the problem before the
constraints E, a row E, or the row S. -/
theorem unit_problem_rows {lp0 lp : lpp_t} {root : Nat} {args : List (Nat × Int)} {m : Int}
    {rows : List E_row} (hP : unit_problem lp0 root args m rows lp) {k : Nat}
    (hk : k < lp.csts.length) :
    k < lp0.csts.length ∨ (∃ e ∈ rows, (e.cst_idx - 1).toNat = k) ∨
      (m ≠ 0 ∧ k = lp0.csts.length + rows.length) := by
  rw [hP.ncsts] at hk
  by_cases hk1 : k < lp0.csts.length
  · exact Or.inl hk1
  by_cases hk2 : k < lp0.csts.length + rows.length
  · right; left
    have hi : k - lp0.csts.length < rows.reverse.length := by
      rw [List.length_reverse]; omega
    refine ⟨rows.reverse.get ⟨k - lp0.csts.length, hi⟩,
      List.mem_reverse.1 (List.get_mem _ _ _), ?_⟩
    have h1 : (rows.reverse.map (fun e => e.cst_idx)).get? (k - lp0.csts.length) =
        some (rows.reverse.get ⟨k - lp0.csts.length, hi⟩).cst_idx := by
      rw [List.get?_eq_getElem?, List.getElem?_map, List.getElem?_eq_getElem hi]
      rfl
    rw [hP.Eidx, List.get?_eq_getElem?, List.getElem?_map,
      List.getElem?_range (by rw [List.length_reverse] at hi; exact hi)] at h1
    simp only [Option.map_some', Option.some.injEq] at h1
    rw [← h1]
    omega
  · right; right
    have hm : m ≠ 0 := by
      intro h0
      rw [if_pos h0] at hk
      omega
    rw [if_neg hm] at hk
    exact ⟨hm, by omega⟩

/-- The rows B of the scenario hold under the assignment of a coloring that
gives the arguments 1 and 2 different colors. -/
theorem phi2n_B_rows {n : Nat} {piA piAB : problem_instance_t} {st : constr_E_t}
    {pi : problem_instance_t} (hrun : phi2n_run n piA piAB st pi) (col : Nat → Nat)
    (hne : col 1 ≠ col 2) (value : Nat → Rat)
    (hval : ∀ k m c : Nat,
      (var_names piAB.curr_lp).get? k = some (mangle_var 'x' (m : Int) (c : Int)) →
      m < 2 ^ 31 → c < 2 ^ 31 → value (k + 1) = if col m = c then 1 else 0)
    {k : Nat} (hk1 : piA.curr_lp.csts.length ≤ k) (hk2 : k < piAB.curr_lp.csts.length) :
    lpp_cst_holds piAB.curr_lp value k := by
  have hn := hrun.bound
  have hb := hrun.A.built
  have hone := lp_final_ones hb hrun.ext
  obtain ⟨hnodup, hnames⟩ := lp_final_names hb hrun.ok hrun.ext
  have hnamesAB : var_names piAB.curr_lp = var_names piA.curr_lp := by
    unfold var_names
    rw [hrun.B.vars]
  have hi : k - piA.curr_lp.csts.length < n := by
    have := hk2
    rw [hrun.B.csts] at this
    simp at this
    omega
  have hcst : piAB.curr_lp.csts.get? k = some (lpp_cst.mk
      (mangle_cst 'B' ((k - piA.curr_lp.csts.length : Nat) : Int)) lpp_cst_t.lpp_less 1) := by
    rw [hrun.B.csts, List.get?_eq_getElem?, List.getElem?_append_right hk1, List.getElem?_map,
      List.getElem?_range hi]
    rfl
  unfold lpp_cst_holds
  rw [hcst]
  simp only
  rw [lpp_row_value_eq]
  -- a column with a factor in the row whose value is 1
  have key : ∀ j : Nat, j < piAB.curr_lp.vars.length →
      (lpp_get_factor piAB.curr_lp ((k : Int) + 1) ((j : Int) + 1) : Rat) * value (j + 1) = 1 →
      ((var_names piAB.curr_lp).get? j = some (mangle_var 'x' ((2 : Nat) : Int)
          ((k - piA.curr_lp.csts.length : Nat) : Int)) ∧
        col 2 = k - piA.curr_lp.csts.length) ∨
      ((var_names piAB.curr_lp).get? j = some (mangle_var 'x' ((1 : Nat) : Int)
          ((k - piA.curr_lp.csts.length : Nat) : Int)) ∧
        col 1 = k - piA.curr_lp.csts.length) := by
    intro j hj hg
    have hf : lpp_get_factor piAB.curr_lp ((k : Int) + 1) ((j : Int) + 1) ≠ 0 := by
      intro h0
      rw [h0] at hg
      norm_num at hg
    have hf1 : lpp_get_factor piAB.curr_lp ((k : Int) + 1) ((j : Int) + 1) = 1 := by
      rcases lpp_get_factor_zero_or_one hone ((k : Int) + 1) ((j : Int) + 1) with h | h
      · exact absurd h hf
      · exact h
    rw [hf1] at hg
    have hv1 : value (j + 1) = 1 := by simpa using hg
    have hmem := lpp_get_factor_mem_of_ne hone hf
    rw [hrun.B.matrix] at hmem
    rcases hmem with hmem | ⟨i, hi', hmem⟩
    · exfalso
      obtain ⟨i', kk, p, c, he, hget, _, _⟩ := (hb.matrix _).1 hmem
      have hlt : i' < (mk_done (phi2n_co n) [1, 2, 0]).length := (List.get?_eq_some.1 hget).1
      have hlen : piA.curr_lp.csts.length = (mk_done (phi2n_co n) [1, 2, 0]).length := by
        rw [hb.csts]
        simp
      have h1 := (Prod.mk.inj he).1
      omega
    · have hik : i = k - piA.curr_lp.csts.length := by
        rcases hmem with h | h <;> have h1 := (Prod.mk.inj h).1 <;> omega
      subst hik
      have hcase : ∀ v ∈ [1, 2, 0],
          (j : Int) + 1 = lpp_get_var_idx piA.curr_lp (mangle_var 'x' ((v : Nat) : Int)
            ((k - piA.curr_lp.csts.length : Nat) : Int)) →
          (var_names piAB.curr_lp).get? j = some (mangle_var 'x' ((v : Nat) : Int)
            ((k - piA.curr_lp.csts.length : Nat) : Int)) ∧
          col v = k - piA.curr_lp.csts.length := by
        intro v hv hidx
        obtain ⟨kk, _, hkk, hget⟩ := lpp_get_var_idx_of_mem (hrun.cols v hv _ hi')
        have hjk : j = kk := by omega
        subst hjk
        rw [hnamesAB]
        refine ⟨hget, ?_⟩
        rw [← hnamesAB] at hget
        have hv31 : v < 2 ^ 31 := by
          have : v = 1 ∨ v = 2 ∨ v = 0 := by simpa using hv
          omega
        have := hval j v _ hget hv31 (by omega)
        rw [hv1] at this
        by_contra hcon
        rw [if_neg hcon] at this
        norm_num at this
      rcases hmem with h | h
      · exact Or.inl (hcase 2 (by decide) (Prod.mk.inj (Prod.mk.inj h).2).1)
      · exact Or.inr (hcase 1 (by decide) (Prod.mk.inj (Prod.mk.inj h).2).1)
  have hsum := sum_range_le_one
    (fun j => (lpp_get_factor piAB.curr_lp ((k : Int) + 1) ((j : Int) + 1) : Rat) * value (j + 1))
    piAB.curr_lp.vars.length ?_ ?_
  · exact_mod_cast hsum.1
  · intro j hj
    simp only
    obtain ⟨m, c, hget, _, _, hm31, hc31⟩ := hnames j hj
    rw [hval j m c hget hm31 hc31]
    rcases lpp_get_factor_zero_or_one hone ((k : Int) + 1) ((j : Int) + 1) with hf | hf <;>
      rw [hf] <;> split_ifs <;> norm_num
  · intro j j' hj hj' h1 h2
    rcases key j hj h1 with ⟨hg, hc⟩ | ⟨hg, hc⟩ <;>
      rcases key j' hj' h2 with ⟨hg', hc'⟩ | ⟨hg', hc'⟩
    · exact get?_inj_of_nodup hnodup hg hg'
    · exact absurd (hc'.trans hc.symm) hne
    · exact absurd (hc.trans hc'.symm) hne
    · exact get?_inj_of_nodup hnodup hg hg'

/-- The assignment that a coloring of the Phi and its arguments gives, with
different colors for the arguments 1 and 2, is a 0/1 assignment that satisfies
every row of the problem of the scenario; the column `y` of an argument has
the value 0 when the argument has the color of the Phi and 1 when it has not,
and the objective function has the value of the copies left. -/
theorem phi2n_coloring_feasible {n : Nat} {piA piAB : problem_instance_t} {st : constr_E_t}
    {pi : problem_instance_t} (hrun : phi2n_run n piA piAB st pi) (col : Nat → Nat)
    (hcol : ∀ v ∈ [1, 2, 0], col v < n) (hne : col 1 ≠ col 2) :
    (∀ k, phi2n_value piAB.curr_lp col k = 0 ∨ phi2n_value piAB.curr_lp col k = 1) ∧
    lpp_feasible_for st.lp (phi2n_value piAB.curr_lp col) ∧
    (∀ v ∈ [1, 2, 0], ∀ c, c < n →
      xv st.lp (phi2n_value piAB.curr_lp col) v c = if c = col v then 1 else 0) ∧
    yv st.lp (phi2n_value piAB.curr_lp col) 0 1 = (if col 0 = col 1 then 0 else 1) ∧
    yv st.lp (phi2n_value piAB.curr_lp col) 0 2 = (if col 0 = col 2 then 0 else 1) := by
  have hn := hrun.bound
  have hP := hrun.unit
  have hvars : st.lp.vars = piAB.curr_lp.vars ++
      ([(0, (1, 10)), (0, (2, 3))] : List (Nat × (Nat × Int))).map y_var := hP.vars
  obtain ⟨hxspec, hyspec⟩ := E_opt_value_spec hvars hrun.x0
    (by decide) (by decide) col (coloring_value piAB.curr_lp col)
  obtain ⟨hnodup, hnames⟩ := lp_final_names hrun.A.built hrun.ok hrun.ext
  have hnamesAB : var_names piAB.curr_lp = var_names piA.curr_lp := by
    unfold var_names
    rw [hrun.B.vars]
  -- the values of the columns x
  have hval : ∀ k m c : Nat,
      (var_names piAB.curr_lp).get? k = some (mangle_var 'x' (m : Int) (c : Int)) →
      m < 2 ^ 31 → c < 2 ^ 31 →
      phi2n_value piAB.curr_lp col (k + 1) = if col m = c then 1 else 0 := by
    intro k m c hget hm hc
    have hk : k < piAB.curr_lp.vars.length := by
      have := (List.get?_eq_some.1 hget).1
      simpa [var_names] using this
    unfold phi2n_value E_opt_value
    rw [if_pos (by omega)]
    exact coloring_value_spec col hget hm hc
  have hx : ∀ v ∈ [1, 2, 0], ∀ c, c < n →
      xv st.lp (phi2n_value piAB.curr_lp col) v c = if c = col v then 1 else 0 := by
    intro v hv c hc
    have hv31 : v < 2 ^ 31 := by
      have : v = 1 ∨ v = 2 ∨ v = 0 := by simpa using hv
      omega
    have hmem : mangle_var 'x' (v : Int) (c : Int) ∈ var_names piAB.curr_lp := by
      rw [hnamesAB]; exact hrun.cols v hv c hc
    obtain ⟨k, hk, hidx, hget⟩ := lpp_get_var_idx_of_mem hmem
    have h1 : xv st.lp (phi2n_value piAB.curr_lp col) v c =
        phi2n_value piAB.curr_lp col (k + 1) := by
      unfold xv
      rw [lpp_get_var_idx_of_initial (by rw [hvars]; exact List.prefix_append _ _) hmem, hidx]
      congr 1
    rw [h1, hval k v c hget hv31 (by omega)]
    by_cases hcc : col v = c
    · rw [if_pos hcc, if_pos hcc.symm]
    · rw [if_neg hcc, if_neg (fun h => hcc h.symm)]
  have hy1 : yv st.lp (phi2n_value piAB.curr_lp col) 0 1 = (if col 0 = col 1 then 0 else 1) :=
    hyspec (0, (1, 10)) (by decide)
  have hy2 : yv st.lp (phi2n_value piAB.curr_lp col) 0 2 = (if col 0 = col 2 then 0 else 1) :=
    hyspec (0, (2, 3)) (by decide)
  refine ⟨?_, ?_, hx, hy1, hy2⟩
  · intro k
    unfold phi2n_value E_opt_value
    split_ifs
    · exact coloring_value_binary _ _ _
    · cases ([(0, (1, 10)), (0, (2, 3))] : List (Nat × (Nat × Int))).get?
          (k - piAB.curr_lp.vars.length - 1) with
      | none => exact Or.inl rfl
      | some p =>
        simp only
        split_ifs
        · exact Or.inl rfl
        · exact Or.inr rfl
  · -- every row holds
    have hencodes : ∀ v ∈ [1, 2, 0],
        encodes (phi2n_co n) st.lp (phi2n_value piAB.curr_lp col) col v := by
      intro v hv
      unfold encodes
      rw [phi2n_allocatable_regs]
      exact ⟨List.mem_range.2 (hcol v hv), fun c hc => hx v hv c (List.mem_range.1 hc)⟩
    have hE1 := (E_pair_bounds hrun.E hrun.E1 (phi2n_value piAB.curr_lp col) col
      (hencodes 0 (by decide)) (hencodes 1 (by decide))).2 hy1
    have hE2 := (E_pair_bounds hrun.E hrun.E2 (phi2n_value piAB.curr_lp col) col
      (hencodes 0 (by decide)) (hencodes 2 (by decide))).2 hy2
    intro k hk
    rcases unit_problem_rows hP hk with hk0 | ⟨e, he, hke⟩ | ⟨hm, _⟩
    · rw [hP.AB k hk0]
      by_cases hkA : k < piA.curr_lp.csts.length
      · exact coloring_A_rows hrun.A.built hrun.ok hrun.ext col
          (fun v hv => by
            rw [phi2n_allocatable_regs]
            exact List.mem_range.2 (hcol v hv))
          _ hval hkA
      · exact phi2n_B_rows hrun col hne _ hval (by omega) hk0
    · rw [← hke]
      obtain ⟨hr, ha⟩ := hrun.Erows e he
      rcases ha with ha | ha
      · exact hE1 e he hr ha
      · exact hE2 e he hr ha
    · exact absurd rfl hm

/-- C32. The optimum of the third scenario, for a register class of `n ≥ 2`
colors (below the range of the row counter). For one Phi 0 with the arguments
1 (cost 10) and 2 (cost 3), all three with all `n` colors, the arguments
interfering with each other and not with the Phi, `new_pi` returns; the
problem it builds has the columns `x1_c`, `x2_c`, `x0_c` for the colors `c`
and after them `y0_1` and `y0_2`, the rows `A1`, `A2`, `A0`, one row `B<c>` for
each color and the rows `E0` to `E<4n-1>` (no row S, no row M), and the
objective function `10 y0_1 + 3 y0_2`.
* Under every assignment with the values 0 or 1 in the x columns that
  satisfies all rows the objective function is at least 3; it is at least 10
  when the Phi has the color of the argument 2; and when it is below 10 the
  Phi has the color of the argument 1.
* The value 3 is attained by an assignment that satisfies all rows, gives the
  Phi the color of the argument 1 and has `y0_1 = 0` and `y0_2 = 1`.
* An assignment that satisfies all rows and gives the Phi the color of the
  argument 2, with `y0_1 = 1` and `y0_2 = 0`, has the value 10. -/
theorem phi2_optimum_is_three (n : Nat) (h2 : 2 ≤ n) (hn : n ≤ 2 ^ 29) :
    ∃ pi, new_pi (phi2n_co n) = some pi ∧
      (var_names pi.curr_lp =
          (List.range n).map (fun c : Nat => mangle_var 'x' 1 (c : Int)) ++
          (List.range n).map (fun c : Nat => mangle_var 'x' 2 (c : Int)) ++
          (List.range n).map (fun c : Nat => mangle_var 'x' 0 (c : Int)) ++
          [mangle_var 'y' 0 1, mangle_var 'y' 0 2] ∧
        cst_names pi.curr_lp =
          [mangle_cst 'A' 1, mangle_cst 'A' 2, mangle_cst 'A' 0] ++
          (List.range n).map (fun c : Nat => mangle_cst 'B' (c : Int)) ++
          (List.range (4 * n)).map (fun i : Nat => mangle_cst 'E' (i : Int)) ∧
        pi.last_x_var = ((3 * n : Nat) : Int) ∧
        ∀ value : Nat → Rat, lpp_objective pi.curr_lp value =
          10 * yv pi.curr_lp value 0 1 + 3 * yv pi.curr_lp value 0 2) ∧
      (∀ value : Nat → Rat, x_binary pi value → lpp_feasible_for pi.curr_lp value →
        3 ≤ lpp_objective pi.curr_lp value ∧
        ((∀ c, c < n → xv pi.curr_lp value 0 c = xv pi.curr_lp value 2 c) →
          10 ≤ lpp_objective pi.curr_lp value) ∧
        (lpp_objective pi.curr_lp value < 10 →
          ∀ c, c < n → xv pi.curr_lp value 0 c = xv pi.curr_lp value 1 c)) ∧
      (∃ value : Nat → Rat, x_binary pi value ∧ lpp_feasible_for pi.curr_lp value ∧
        (∀ c, c < n → xv pi.curr_lp value 0 c = xv pi.curr_lp value 1 c) ∧
        yv pi.curr_lp value 0 1 = 0 ∧ yv pi.curr_lp value 0 2 = 1 ∧
        lpp_objective pi.curr_lp value = 3) ∧
      (∃ value : Nat → Rat, x_binary pi value ∧ lpp_feasible_for pi.curr_lp value ∧
        (∀ c, c < n → xv pi.curr_lp value 0 c = xv pi.curr_lp value 2 c) ∧
        yv pi.curr_lp value 0 1 = 1 ∧ yv pi.curr_lp value 0 2 = 0 ∧
        lpp_objective pi.curr_lp value = 10) := by
  obtain ⟨piA, piAB, st, pi, hrun⟩ := phi2n_new_pi n hn
  have hlast := phi2n_last_x_var (by omega) hrun
  have hobj := phi2n_objective hrun
  refine ⟨pi, hrun.run, ⟨?_, ?_, hlast, ?_⟩, ?_, ?_, ?_⟩
  · -- the columns
    rw [hrun.lp]
    have h1 : var_names st.lp = var_names piA.curr_lp ++
        [mangle_var 'y' 0 1, mangle_var 'y' 0 2] := by
      unfold var_names
      rw [hrun.unit.vars, hrun.B.vars, List.map_append]
      rfl
    rw [h1, hrun.A.built.vars]
    simp [mk_done, phi2n_allocatable_regs]
  · -- the rows
    rw [hrun.lp]
    unfold cst_names
    rw [hrun.E.csts, hrun.B.csts, hrun.A.built.csts, hrun.nrows]
    simp [mk_done, Function.comp]
    rfl
  · intro value
    rw [hrun.lp]
    exact hobj value
  · -- the lower bound
    intro value hbin hfeas
    rw [hrun.lp] at hfeas ⊢
    obtain ⟨col, henc, hne, hy1, hy2⟩ := phi2n_solution_coloring hrun value
      (fun k hk1 hk2 => hbin k hk1 (by rw [hlast]; exact_mod_cast hk2)) hfeas
    rw [hobj value]
    obtain ⟨hc1, he1⟩ := henc 1 (by decide)
    obtain ⟨hc2, he2⟩ := henc 2 (by decide)
    obtain ⟨hc0, he0⟩ := henc 0 (by decide)
    have hy1' : (0 : Rat) ≤ yv st.lp value 0 1 := by
      refine le_trans ?_ hy1
      split_ifs <;> norm_num
    have hy2' : (0 : Rat) ≤ yv st.lp value 0 2 := by
      refine le_trans ?_ hy2
      split_ifs <;> norm_num
    have hten : col 0 ≠ col 1 → 10 ≤ 10 * yv st.lp value 0 1 + 3 * yv st.lp value 0 2 := by
      intro h
      rw [if_neg h] at hy1
      linarith
    refine ⟨?_, ?_, ?_⟩
    · by_cases h01 : col 0 = col 1
      · have h02 : col 0 ≠ col 2 := fun h => hne (h01.symm.trans h)
        rw [if_neg h02] at hy2
        linarith
      · linarith [hten h01]
    · intro hsame
      apply hten
      intro h01
      have := hsame (col 0) hc0
      rw [he0 _ hc0, he2 _ hc0, if_pos rfl] at this
      by_cases h02 : col 0 = col 2
      · exact hne (h01.symm.trans h02)
      · rw [if_neg h02] at this
        norm_num at this
    · intro hlt c hc
      have h01 : col 0 = col 1 := by
        by_contra h
        linarith [hten h]
      rw [he0 c hc, he1 c hc, h01]
  · -- the optimum
    have hcolA : ∀ v ∈ [1, 2, 0], (fun v : Nat => if v = 2 then 1 else 0) v < n := by
      intro v _
      simp only
      split_ifs <;> omega
    obtain ⟨hbin, hfeas, hx, hy1, hy2⟩ := phi2n_coloring_feasible hrun
      (fun v : Nat => if v = 2 then 1 else 0) hcolA (by decide)
    refine ⟨phi2n_value piAB.curr_lp (fun v : Nat => if v = 2 then 1 else 0),
      fun k _ _ => hbin k, ?_, ?_, ?_, ?_, ?_⟩
    · rw [hrun.lp]; exact hfeas
    · intro c hc
      rw [hrun.lp, hx 0 (by decide) c hc, hx 1 (by decide) c hc]
      rfl
    · rw [hrun.lp, hy1]; rfl
    · rw [hrun.lp, hy2]; rfl
    · rw [hrun.lp, hobj, hy1, hy2]
      norm_num
  · -- the other matching
    have hcolB : ∀ v ∈ [1, 2, 0], (fun v : Nat => if v = 1 then 0 else 1) v < n := by
      intro v _
      simp only
      split_ifs <;> omega
    obtain ⟨hbin, hfeas, hx, hy1, hy2⟩ := phi2n_coloring_feasible hrun
      (fun v : Nat => if v = 1 then 0 else 1) hcolB (by decide)
    refine ⟨phi2n_value piAB.curr_lp (fun v : Nat => if v = 1 then 0 else 1),
      fun k _ _ => hbin k, ?_, ?_, ?_, ?_, ?_⟩
    · rw [hrun.lp]; exact hfeas
    · intro c hc
      rw [hrun.lp, hx 0 (by decide) c hc, hx 2 (by decide) c hc]
      rfl
    · rw [hrun.lp, hy1]; rfl
    · rw [hrun.lp, hy2]; rfl
    · rw [hrun.lp, hobj, hy1, hy2]
      norm_num

/-- Witness of C32 for a register class of three colors. -/
theorem phi2_optimum_is_three_witness :
    2 ≤ 3 ∧ 3 ≤ 2 ^ 29 ∧
    (∃ pi, new_pi (phi2n_co 3) = some pi ∧
        (var_names pi.curr_lp =
            (List.range 3).map (fun c : Nat => mangle_var 'x' 1 (c : Int)) ++
            (List.range 3).map (fun c : Nat => mangle_var 'x' 2 (c : Int)) ++
            (List.range 3).map (fun c : Nat => mangle_var 'x' 0 (c : Int)) ++
            [mangle_var 'y' 0 1, mangle_var 'y' 0 2] ∧
          cst_names pi.curr_lp =
            [mangle_cst 'A' 1, mangle_cst 'A' 2, mangle_cst 'A' 0] ++
            (List.range 3).map (fun c : Nat => mangle_cst 'B' (c : Int)) ++
            (List.range (4 * 3)).map (fun i : Nat => mangle_cst 'E' (i : Int)) ∧
          pi.last_x_var = ((3 * 3 : Nat) : Int) ∧
          ∀ value : Nat → Rat, lpp_objective pi.curr_lp value =
            10 * yv pi.curr_lp value 0 1 + 3 * yv pi.curr_lp value 0 2) ∧
        (∀ value : Nat → Rat, x_binary pi value → lpp_feasible_for pi.curr_lp value →
          3 ≤ lpp_objective pi.curr_lp value ∧
          ((∀ c, c < 3 → xv pi.curr_lp value 0 c = xv pi.curr_lp value 2 c) →
            10 ≤ lpp_objective pi.curr_lp value) ∧
          (lpp_objective pi.curr_lp value < 10 →
            ∀ c, c < 3 → xv pi.curr_lp value 0 c = xv pi.curr_lp value 1 c)) ∧
        (∃ value : Nat → Rat, x_binary pi value ∧ lpp_feasible_for pi.curr_lp value ∧
          (∀ c, c < 3 → xv pi.curr_lp value 0 c = xv pi.curr_lp value 1 c) ∧
          yv pi.curr_lp value 0 1 = 0 ∧ yv pi.curr_lp value 0 2 = 1 ∧
          lpp_objective pi.curr_lp value = 3) ∧
        (∃ value : Nat → Rat, x_binary pi value ∧ lpp_feasible_for pi.curr_lp value ∧
          (∀ c, c < 3 → xv pi.curr_lp value 0 c = xv pi.curr_lp value 2 c) ∧
          yv pi.curr_lp value 0 1 = 1 ∧ yv pi.curr_lp value 0 2 = 0 ∧
          lpp_objective pi.curr_lp value = 10)) :=
  ⟨by decide, by decide, phi2_optimum_is_three 3 (by decide) (by decide)⟩

end Becopyilp
